import Mathlib

/-!
# Railway flow network: a shallow embedding of `graph.cpp`, `vertex.cpp`, `edge.cpp`

The C++ program keeps `Vertex` and `Edge` objects on the heap and links them with raw
pointers.  Here every `Graph` owns two arenas:

* `vertexSet : List Vertex` – a `Vertex *` of that graph is an index into this list;
* `edges : List Edge` – an `Edge *` created by that graph (`new Edge` in `Vertex::addEdge`)
  is an index into this list.

`Edge::reverse` points into the arena of the same graph, `Edge::correspondingEdge` points
into the arena of the *other* graph (regular vs. residual, or regular for the auxiliary
min-cost residual).  `nullptr` is `none`; dereferencing `none` or a dangling index makes the
embedded function return `none`.  `unsigned int` values are natural numbers reduced modulo
`2 ^ 32` at every arithmetic operation.
-/

namespace Railway

/-! ## Machine arithmetic -/

/-- The largest `unsigned int`. -/
def UINT32_MAX : Nat := 4294967295

/-- Addition of two `unsigned int`. -/
def uadd (a b : Nat) : Nat := (a + b) % 4294967296

/-- Subtraction of two `unsigned int` (wraps around below zero). -/
def usub (a b : Nat) : Nat := (a + 4294967296 - b % 4294967296) % 4294967296

/-- Addition of two `int`.  A sum outside the range of `int` is undefined behaviour in C++;
the model takes the two's-complement result, the sum reduced modulo `2 ^ 32` into
`[-2 ^ 31, 2 ^ 31)`. -/
def iadd (a b : Int) : Int := (a + b + 2147483648) % 4294967296 - 2147483648

/-- Multiplication `int * unsigned int`, carried out in `unsigned int`. -/
def umul (a : Int) (b : Nat) : Nat := ((a * (b : Int)) % 4294967296).toNat

/-! ## Data model (`edge.h`, `vertex.h`, `graph.h`) -/

/-- The service tier of a link, `enum class Service`. -/
inductive Service where
  | STANDARD
  | ALFA_PENDULAR
  | VERY_EXPENSIVE
  deriving DecidableEq

/-- The class `Edge`. -/
structure Edge where
  orig : Nat
  dest : Nat
  capacity : Nat
  service : Service
  selected : Bool
  reverse : Option Nat
  correspondingEdge : Option Nat
  flow : Nat
  cost : Int
  deriving DecidableEq

/-- The class `Vertex`. -/
structure Vertex where
  id : String
  adj : List Nat
  visited : Bool
  processing : Bool
  indegree : Nat
  cost : Int
  path : Option Nat
  incoming : List Nat
  deriving DecidableEq

/-- The class `Graph`, together with the arena of the edges it allocated. -/
structure Graph where
  totalEdges : Nat
  vertexSet : List Vertex
  idToVertex : List (String × Nat)
  edges : List Edge
  deriving DecidableEq

/-- The function `Edge::initializeCost`. -/
def Edge.initializeCost (service : Service) : Int :=
  let cost : Int := if service = Service.STANDARD then 2 else 4
  if service = Service.VERY_EXPENSIVE then 6 else cost

/-- The constructor `Edge::Edge`. -/
def Edge.new (orig dest capacity : Nat) (service : Service) : Edge :=
  { orig := orig, dest := dest, capacity := capacity, service := service, selected := true,
    reverse := none, correspondingEdge := none, flow := 0,
    cost := Edge.initializeCost service }

/-- The constructor `Vertex::Vertex`. -/
def Vertex.new (id : String) : Vertex :=
  { id := id, adj := [], visited := false, processing := false, indegree := 0, cost := 0,
    path := none, incoming := [] }

/-- The default constructor `Graph::Graph`. -/
def Graph.empty : Graph :=
  { totalEdges := 0, vertexSet := [], idToVertex := [], edges := [] }

/-! ### Field access through pointers -/

/-- Overwrites the edge behind a pointer; `none` for a dangling pointer. -/
def Graph.updateEdge (g : Graph) (e : Nat) (f : Edge → Edge) : Option Graph :=
  match g.edges[e]? with
  | some x => some { g with edges := g.edges.set e (f x) }
  | none => none

/-- Overwrites the vertex behind a pointer; `none` for a dangling pointer. -/
def Graph.updateVertex (g : Graph) (v : Nat) (f : Vertex → Vertex) : Option Graph :=
  match g.vertexSet[v]? with
  | some x => some { g with vertexSet := g.vertexSet.set v (f x) }
  | none => none

/-- The function `Edge::getFlow`. -/
def Graph.getFlow (g : Graph) (e : Nat) : Option Nat := (g.edges[e]?).map (fun x => x.flow)

/-- The function `Edge::getCapacity`. -/
def Graph.getCapacity (g : Graph) (e : Nat) : Option Nat :=
  (g.edges[e]?).map (fun x => x.capacity)

/-- The function `Edge::getCost`. -/
def Graph.getCost (g : Graph) (e : Nat) : Option Int := (g.edges[e]?).map (fun x => x.cost)

/-- The function `Edge::getReverse`, followed by the null check a dereference performs (no
reverse pointer is null in a graph built by `addAndGetBidirectionalEdge`). -/
def Graph.getReverse (g : Graph) (e : Nat) : Option Nat := (g.edges[e]?).bind (fun x => x.reverse)

/-- The function `Edge::getCorrespondingEdge`, followed by the null check a dereference performs. -/
def Graph.getCorrespondingEdge (g : Graph) (e : Nat) : Option Nat :=
  (g.edges[e]?).bind (fun x => x.correspondingEdge)

/-- The function `Edge::getOrig`. -/
def Graph.getOrig (g : Graph) (e : Nat) : Option Nat := (g.edges[e]?).map (fun x => x.orig)

/-- The function `Edge::getDest`. -/
def Graph.getDest (g : Graph) (e : Nat) : Option Nat := (g.edges[e]?).map (fun x => x.dest)

/-- The function `Edge::setFlow`. -/
def Graph.setFlow (g : Graph) (e : Nat) (f : Nat) : Option Graph :=
  g.updateEdge e (fun x => { x with flow := f })

/-- The function `Edge::setCapacity`. -/
def Graph.setCapacity (g : Graph) (e : Nat) (c : Nat) : Option Graph :=
  g.updateEdge e (fun x => { x with capacity := c })

/-- The function `Edge::setSelected`. -/
def Graph.setSelected (g : Graph) (e : Nat) (s : Bool) : Option Graph :=
  g.updateEdge e (fun x => { x with selected := s })

/-- The function `Edge::setReverse`. -/
def Graph.setReverse (g : Graph) (e : Nat) (r : Nat) : Option Graph :=
  g.updateEdge e (fun x => { x with reverse := some r })

/-- The function `Edge::setCorrespondingEdge`. -/
def Graph.setCorrespondingEdge (g : Graph) (e : Nat) (c : Nat) : Option Graph :=
  g.updateEdge e (fun x => { x with correspondingEdge := some c })

/-- The function `Edge::setCost`. -/
def Graph.setCost (g : Graph) (e : Nat) (c : Int) : Option Graph :=
  g.updateEdge e (fun x => { x with cost := c })

/-! ### Construction (`Graph::findVertex`, `Graph::addVertex`, `Vertex::addEdge`,
`Graph::addAndGetBidirectionalEdge`) -/

/-- The function `Graph::findVertex`: the lookup in `idToVertex`; `none` is `nullptr`. -/
def Graph.findVertex (g : Graph) (id : String) : Option Nat := g.idToVertex.lookup id

/-- The function `Graph::addVertex`. -/
def Graph.addVertex (g : Graph) (id : String) : Bool × Graph :=
  if (g.findVertex id).isSome then (false, g)
  else
    (true, { g with vertexSet := g.vertexSet ++ [Vertex.new id],
                    idToVertex := (id, g.vertexSet.length) :: g.idToVertex })

/-- The function `Vertex::addEdge`, called on the vertex `v` with destination `d`: allocates
the edge, appends it to `v->adj` and to `d->incoming`, and returns the pointer to it. -/
def Graph.addEdge (g : Graph) (v d w : Nat) (service : Service) : Option (Nat × Graph) := do
  let newEdge := g.edges.length
  let g1 : Graph := { g with edges := g.edges ++ [Edge.new v d w service] }
  let g2 ← g1.updateVertex v (fun x => { x with adj := x.adj ++ [newEdge] })
  let g3 ← g2.updateVertex d (fun x => { x with incoming := x.incoming ++ [newEdge] })
  pure (newEdge, g3)

/-- The function `Graph::addAndGetBidirectionalEdge`.  The first component is `none` for the pair
`{nullptr, nullptr}`; `totalEdges++` is an `unsigned int` increment. -/
def Graph.addAndGetBidirectionalEdge (g : Graph) (source dest : String) (c : Nat)
    (service : Service) : Option (Option (Nat × Nat) × Graph) :=
  match g.findVertex source, g.findVertex dest with
  | some v1, some v2 => do
    let (e1, g1) ← g.addEdge v1 v2 c service
    let (e2, g2) ← g1.addEdge v2 v1 c service
    let g3 ← g2.setReverse e1 e2
    let g4 ← g3.setReverse e2 e1
    pure (some (e1, e2), { g4 with totalEdges := uadd g4.totalEdges 1 })
  | _, _ => some (none, g)

/-- A link declaration: source id, destination id, capacity, service. -/
structure Link where
  source : String
  dest : String
  capacity : Nat
  service : Service
  deriving DecidableEq

/-- One pass of the loop body of `Menu::extractNetworkFile` (the same four statements follow
every pair of calls in `Menu::edmondsKarpExample`): the link is added to the regular and to
the residual graph and the four corresponding-edge pointers are cross-wired. -/
def addLink (graph residualGraph : Graph) (l : Link) : Option (Graph × Graph) := do
  let (p1, graph1) ← graph.addAndGetBidirectionalEdge l.source l.dest l.capacity l.service
  let (p2, residual1) ←
    residualGraph.addAndGetBidirectionalEdge l.source l.dest l.capacity l.service
  let (regular, regularReverse) ← p1
  let (residual, residualReverse) ← p2
  let graph2 ← graph1.setCorrespondingEdge regular residual
  let graph3 ← graph2.setCorrespondingEdge regularReverse residualReverse
  let residual2 ← residual1.setCorrespondingEdge residual regular
  let residual3 ← residual2.setCorrespondingEdge residualReverse regularReverse
  pure (graph3, residual3)

/-- Adds every link of a list in order. -/
def addLinks : List Link → Graph → Graph → Option (Graph × Graph)
  | [], graph, residualGraph => some (graph, residualGraph)
  | l :: ls, graph, residualGraph =>
    match addLink graph residualGraph l with
    | some (g1, r1) => addLinks ls g1 r1
    | none => none

/-- Declares every station of a list in both graphs, in order. -/
def addStations : List String → Graph → Graph → Graph × Graph
  | [], graph, residualGraph => (graph, residualGraph)
  | s :: ss, graph, residualGraph =>
    addStations ss (graph.addVertex s).2 (residualGraph.addVertex s).2

/-- The paired regular/residual network the menu builds from a station list and a link list. -/
def buildNetwork (stations : List String) (links : List Link) : Option (Graph × Graph) :=
  let (graph, residualGraph) := addStations stations Graph.empty Graph.empty
  addLinks links graph residualGraph

/-! ## Augmenting-path search (`Graph::path`) -/

/-- The first loop of `Graph::path`: every vertex is marked unvisited and loses its
predecessor edge. -/
def Graph.resetSearch (r : Graph) : Graph :=
  { r with vertexSet := r.vertexSet.map (fun v => { v with visited := false, path := none }) }

/-- The second loop of `Graph::path`: every source id is pushed on the queue and its vertex
is marked visited. -/
def Graph.pushSources : List String → Graph → List String → Option (Graph × List String)
  | [], r, q => some (r, q)
  | it :: rest, r, q => do
    let v ← r.findVertex it
    let r1 ← r.updateVertex v (fun x => { x with visited := true })
    Graph.pushSources rest r1 (q ++ [it])

/-- The `for (Edge *e: currentVertex->getAdj())` loop of `Graph::path`.  The boolean is `true`
when the loop left the function through `return true`. -/
def Graph.pathAdj (target : String) :
    List Nat → Graph → List String → Option (Bool × Graph × List String)
  | [], r, q => some (false, r, q)
  | e :: es, r, q => do
    let edge ← r.edges[e]?
    let d ← r.vertexSet[edge.dest]?
    if (!d.visited && decide (edge.capacity > 0) && edge.selected) = true then
      let r1 ← r.updateVertex edge.dest (fun x => { x with visited := true, path := some e })
      if d.id = target then some (true, r1, q ++ [d.id])
      else Graph.pathAdj target es r1 (q ++ [d.id])
    else Graph.pathAdj target es r q

/-- The `while (!q.empty())` loop of `Graph::path`; `none` when the fuel runs out. -/
def Graph.pathLoop (target : String) : Nat → Graph → List String → Option (Bool × Graph)
  | 0, _, _ => none
  | _ + 1, r, [] => some (false, r)
  | fuel + 1, r, front :: q => do
    let currentVertex ← r.findVertex front
    let cv ← r.vertexSet[currentVertex]?
    let (found, r1, q1) ← Graph.pathAdj target cv.adj r q
    if found = true then some (true, r1) else Graph.pathLoop target fuel r1 q1

/-- The function `Graph::path`.  Every vertex enters the queue at most once after the
sources, so the queue loop is given `|source| + |V| + 1` iterations. -/
def Graph.path (r : Graph) (source : List String) (target : String) : Option (Bool × Graph) := do
  let (r1, q) ← Graph.pushSources source r.resetSearch []
  Graph.pathLoop target (source.length + r.vertexSet.length + 1) r1 q

/-! ## Bottleneck and augmentation (`Graph::findBottleneck`, `Graph::augmentPath`) -/

/-- The `while` loop of `Graph::findBottleneck`. -/
def Graph.findBottleneckLoop : Nat → Graph → Nat → Nat → Option Nat
  | 0, _, _, _ => none
  | fuel + 1, r, currentVertex, bottleneck => do
    let cv ← r.vertexSet[currentVertex]?
    match cv.path with
    | none => some bottleneck
    | some p => do
      let currBottleneck ← r.getCapacity p
      let next ← r.getOrig p
      Graph.findBottleneckLoop fuel r next
        (if currBottleneck < bottleneck then currBottleneck else bottleneck)

/-- The function `Graph::findBottleneck`.  A predecessor chain without a cycle has fewer
than `|V|` edges, so the loop is given `|V| + 1` iterations. -/
def Graph.findBottleneck (r : Graph) (target : String) : Option Nat := do
  let currentVertex ← r.findVertex target
  Graph.findBottleneckLoop (r.vertexSet.length + 1) r currentVertex UINT32_MAX

/-- The branch `regularEdge->getFlow() + value > regularEdge->getCapacity()` of
`Graph::augmentPath` ("intended value exceeds capacity"). -/
def augmentExceeds (residualEdge reverseResidualEdge regularEdge reverseRegularEdge value : Nat)
    (g r : Graph) : Option (Graph × Graph) := do
  let flow ← g.getFlow regularEdge
  let intendedValue := uadd flow value
  let capacity ← g.getCapacity regularEdge
  let g1 ← g.setFlow regularEdge capacity
  let reverseFlow ← g1.getFlow reverseRegularEdge
  let capacity1 ← g1.getCapacity regularEdge
  let g2 ← g1.setFlow reverseRegularEdge (usub reverseFlow (usub intendedValue capacity1))
  let r1 ← r.setCapacity residualEdge 0
  let reverseCapacity ← r1.getCapacity reverseResidualEdge
  let capacity2 ← g2.getCapacity regularEdge
  let r2 ← r1.setCapacity reverseResidualEdge (uadd reverseCapacity (usub intendedValue capacity2))
  pure (g2, r2)

/-- The `else` branch of `Graph::augmentPath` ("intended value is within capacity"). -/
def augmentWithin (residualEdge reverseResidualEdge regularEdge value : Nat)
    (g r : Graph) : Option (Graph × Graph) := do
  let flow ← g.getFlow regularEdge
  let g1 ← g.setFlow regularEdge (uadd flow value)
  let capacity1 ← g1.getCapacity regularEdge
  let flow1 ← g1.getFlow regularEdge
  let r1 ← r.setCapacity residualEdge (usub capacity1 flow1)
  let reverseCapacity ← r1.getCapacity reverseResidualEdge
  let r2 ← r1.setCapacity reverseResidualEdge (uadd reverseCapacity value)
  pure (g1, r2)

/-- The body of the `while` loop of `Graph::augmentPath` for the residual edge
`residualEdge = currentVertex->getPath()`; `g` is the regular graph, `r` the residual one. -/
def augmentEdge (residualEdge value : Nat) (g r : Graph) : Option (Graph × Graph) := do
  let reverseResidualEdge ← r.getReverse residualEdge
  let regularEdge ← r.getCorrespondingEdge residualEdge
  let reverseRegularEdge ← g.getReverse regularEdge
  let flow ← g.getFlow regularEdge
  let capacity ← g.getCapacity regularEdge
  if uadd flow value > capacity then
    augmentExceeds residualEdge reverseResidualEdge regularEdge reverseRegularEdge value g r
  else
    augmentWithin residualEdge reverseResidualEdge regularEdge value g r

/-- The `while` loop of `Graph::augmentPath`.  The boolean tells whether the loop has
left (the predecessor pointer was null); with `false` the state is the one reached when the
iteration budget ran out, an intermediate state of the run. -/
def augmentPathLoop (value : Nat) : Nat → Nat → Graph → Graph → Option (Bool × Graph × Graph)
  | 0, _, g, r => some (false, g, r)
  | fuel + 1, currentVertex, g, r => do
    let cv ← r.vertexSet[currentVertex]?
    match cv.path with
    | none => some (true, g, r)
    | some p => do
      let (g1, r1) ← augmentEdge p value g r
      let cv1 ← r1.vertexSet[currentVertex]?
      let next ← r1.getOrig (← cv1.path)
      augmentPathLoop value fuel next g1 r1

/-- The function `Graph::augmentPath`, called on the residual graph `r`; `g` is the regular
graph its corresponding-edge pointers lead to. -/
def Graph.augmentPath (r : Graph) (target : String) (value : Nat) (g : Graph) :
    Option (Graph × Graph) := do
  let currentVertex ← r.findVertex target
  match ← augmentPathLoop value (r.vertexSet.length + 1) currentVertex g r with
  | (true, g1, r1) => some (g1, r1)
  | (false, _, _) => none

/-! ## Maximum flow (`Graph::edmondsKarp`) -/

/-- The inner reset loop of `Graph::edmondsKarp` over the adjacency list of one vertex. -/
def resetAdj : List Nat → Graph → Graph → Option (Graph × Graph)
  | [], g, r => some (g, r)
  | e :: es, g, r => do
    let g1 ← g.setFlow e 0
    let c ← g1.getCorrespondingEdge e
    let r1 ← r.setCapacity c (← g1.getCapacity e)
    resetAdj es g1 r1

/-- The outer reset loop of `Graph::edmondsKarp`. -/
def resetFlows : List Vertex → Graph → Graph → Option (Graph × Graph)
  | [], g, r => some (g, r)
  | v :: vs, g, r => do
    let (g1, r1) ← resetAdj v.adj g r
    resetFlows vs g1 r1

/-- The `while (residualGraph.path(source, target))` loop of `Graph::edmondsKarp`.  The
boolean tells whether the loop has left; with `false` the state is the one reached after as
many augmentations as the budget allowed. -/
def edmondsKarpLoop (source : List String) (target : String) :
    Nat → Nat → Graph → Graph → Option (Bool × Nat × Graph × Graph)
  | 0, maxFlow, g, r => some (false, maxFlow, g, r)
  | fuel + 1, maxFlow, g, r => do
    let (found, r1) ← r.path source target
    if found = true then
      let bottleneckCapacity ← r1.findBottleneck target
      let (g2, r2) ← r1.augmentPath target bottleneckCapacity g
      edmondsKarpLoop source target fuel (uadd maxFlow bottleneckCapacity) g2 r2
    else some (true, maxFlow, g, r1)

/-- The function `Graph::edmondsKarp`, called on the regular graph `g`: the value of
`maxFlow` and the two graphs on return; `none` when a pointer is null or the loop needs more
than `fuel` iterations. -/
def Graph.edmondsKarp (g : Graph) (fuel : Nat) (source : List String) (target : String)
    (residualGraph : Graph) : Option (Nat × Graph × Graph) := do
  let (g0, r0) ← resetFlows g.vertexSet g residualGraph
  match ← edmondsKarpLoop source target fuel 0 g0 r0 with
  | (true, maxFlow, g1, r1) => some (maxFlow, g1, r1)
  | (false, _, _, _) => none

/-! ## Minimum-cost maximum flow (`Graph::makeMinCostResidual`, `Graph::bellmanFord`,
`Graph::findListBottleneck`, `Graph::augmentMinCostPath`, `Graph::minCostMaxFlow`) -/

/-- The first loop of `Graph::makeMinCostResidual`. -/
def copyVertices : List Vertex → Graph → Graph
  | [], m => m
  | v :: vs, m => copyVertices vs (m.addVertex v.id).2

/-- The body of the inner loop of `Graph::makeMinCostResidual` for the regular edge `e` of
the graph `g`; `m` is `minCostResidual`. -/
def mirrorEdge (g : Graph) (e : Nat) (m : Graph) : Option Graph := do
  let x ← g.edges[e]?
  let o ← g.vertexSet[x.orig]?
  let d ← g.vertexSet[x.dest]?
  let (p, m1) ← m.addAndGetBidirectionalEdge o.id d.id x.capacity x.service
  let (edge, negativeCostEdge) ← p
  let cost ← m1.getCost edge
  let m2 ← m1.setCost negativeCostEdge (-cost)
  let m3 ← m2.setCapacity edge (usub x.capacity x.flow)
  let m4 ← m3.setCapacity negativeCostEdge x.flow
  let m5 ← m4.setCorrespondingEdge edge e
  m5.setCorrespondingEdge negativeCostEdge e

/-- The inner loop of `Graph::makeMinCostResidual` over one adjacency list. -/
def mirrorAdj (g : Graph) : List Nat → Graph → Option Graph
  | [], m => some m
  | e :: es, m => do
    let m1 ← mirrorEdge g e m
    mirrorAdj g es m1

/-- The second loop of `Graph::makeMinCostResidual`. -/
def mirrorVertices (g : Graph) : List Vertex → Graph → Option Graph
  | [], m => some m
  | v :: vs, m => do
    let m1 ← mirrorAdj g v.adj m
    mirrorVertices g vs m1

/-- The function `Graph::makeMinCostResidual`, called on the regular graph `g`. -/
def Graph.makeMinCostResidual (g : Graph) (minCostResidual : Graph) : Option Graph :=
  mirrorVertices g g.vertexSet (copyVertices g.vertexSet minCostResidual)

/-- The loop `for (int j = 0; j < vertexSet.size(); j++)` of `Graph::bellmanFord`, which
steps back along predecessor edges. -/
def traceBack : Nat → Graph → Nat → Option Nat
  | 0, _, currentVertex => some currentVertex
  | j + 1, m, currentVertex => do
    let cv ← m.vertexSet[currentVertex]?
    let next ← m.getOrig (← cv.path)
    traceBack j m next

/-- The loop `for (Vertex *temp = currentVertex;; temp = temp->getPath()->getOrig())` of
`Graph::bellmanFord`.  The edge pushed on the list is `currentVertex->getPath()` at every
iteration, as in the source.  That pointer is the one dereferenced by the first increment
of `temp`, so a null one is reported here at once. -/
def traceCycle : Nat → Graph → Nat → Nat → List Nat → Option (List Nat)
  | 0, _, _, _, _ => none
  | fuel + 1, m, currentVertex, temp, negativeCycle => do
    let cv ← m.vertexSet[currentVertex]?
    let negativeCycle1 := negativeCycle ++ [← cv.path]
    if temp = currentVertex ∧ negativeCycle1.length > 1 then some negativeCycle1
    else
      let t ← m.vertexSet[temp]?
      let next ← m.getOrig (← t.path)
      traceCycle fuel m currentVertex next negativeCycle1

/-- The block under `if (i == vertexSet.size())` of `Graph::bellmanFord` for the vertex `v`
being relaxed.  A predecessor cycle has at most `|V|` edges, so the second loop is given
`|V| + 2` iterations. -/
def traceNegativeCycle (m : Graph) (v : Nat) : Option (List Nat) := do
  let currentVertex ← traceBack m.vertexSet.length m v
  traceCycle (m.vertexSet.length + 2) m currentVertex currentVertex []

/-- The loop `for (Edge *e: v->getIncoming())` of `Graph::bellmanFord` in pass `i` for the
vertex `v`.  The first component is `some cycle` when the function returned from inside. -/
def relaxIncoming (i v : Nat) : List Nat → Graph → Option (Option (List Nat) × Graph)
  | [], m => some (none, m)
  | e :: es, m => do
    let edge ← m.edges[e]?
    if edge.capacity > 0 then
      let o ← m.vertexSet[edge.orig]?
      let tempCost : Int := iadd o.cost edge.cost
      let x ← m.vertexSet[v]?
      if tempCost < x.cost then
        if i = m.vertexSet.length then
          let negativeCycle ← traceNegativeCycle m v
          some (some negativeCycle, m)
        else
          let m1 ← m.updateVertex v (fun y => { y with cost := tempCost, path := some e })
          relaxIncoming i v es m1
      else relaxIncoming i v es m
    else relaxIncoming i v es m

/-- The loop `for (Vertex *v: vertexSet)` of `Graph::bellmanFord` in pass `i`; `v` is
the index of the next vertex and `n` counts the vertices still to be handled. -/
def relaxVertices (i : Nat) : Nat → Nat → Graph → Option (Option (List Nat) × Graph)
  | 0, _, m => some (none, m)
  | n + 1, v, m => do
    let x ← m.vertexSet[v]?
    let (found, m1) ← relaxIncoming i v x.incoming m
    match found with
    | some negativeCycle => some (some negativeCycle, m1)
    | none => relaxVertices i n (v + 1) m1

/-- The loop `for (int i = 1; i <= vertexSet.size(); i++)` of `Graph::bellmanFord`; `n`
counts the passes still to be made. -/
def relaxPasses : Nat → Nat → Graph → Option (List Nat × Graph)
  | 0, _, m => some ([], m)
  | n + 1, i, m => do
    let (found, m1) ← relaxVertices i m.vertexSet.length 0 m
    match found with
    | some negativeCycle => some (negativeCycle, m1)
    | none => relaxPasses n (i + 1) m1

/-- The function `Graph::bellmanFord`.  The call `setCost(UINT32_MAX)` stores the `int`
value `-1`. -/
def Graph.bellmanFord (m : Graph) (source : String) : Option (List Nat × Graph) := do
  let m1 : Graph :=
    { m with vertexSet := m.vertexSet.map (fun v => { v with cost := -1, path := none }) }
  let s ← m1.findVertex source
  let m2 ← m1.updateVertex s (fun v => { v with cost := 0 })
  relaxPasses m2.vertexSet.length 1 m2

/-- The function `Graph::findListBottleneck`; the edges are pointers into `m`. -/
def findListBottleneck (m : Graph) : List Nat → Nat → Option Nat
  | [], bottleneck => some bottleneck
  | e :: es, bottleneck => do
    let currBottleneck ← m.getCapacity e
    findListBottleneck m es (if currBottleneck < bottleneck then currBottleneck else bottleneck)

/-- The body of the loop of `Graph::augmentMinCostPath` for one listed edge of the
auxiliary graph `m`; `g` is the regular graph. -/
def augmentMinCostEdge (residualEdge value : Nat) (g m : Graph) : Option (Graph × Graph) := do
  let reverseResidualEdge ← m.getReverse residualEdge
  let regularEdge ← m.getCorrespondingEdge residualEdge
  let cost ← m.getCost residualEdge
  let flow ← g.getFlow regularEdge
  if cost < 0 then
    let g1 ← g.setFlow regularEdge (usub flow value)
    let capacity ← m.getCapacity residualEdge
    let m1 ← m.setCapacity residualEdge (uadd capacity value)
    let reverseCapacity ← m1.getCapacity reverseResidualEdge
    let m2 ← m1.setCapacity reverseResidualEdge (usub reverseCapacity value)
    pure (g1, m2)
  else
    let g1 ← g.setFlow regularEdge (uadd flow value)
    let capacity ← m.getCapacity residualEdge
    let m1 ← m.setCapacity residualEdge (usub capacity value)
    let reverseCapacity ← m1.getCapacity reverseResidualEdge
    let m2 ← m1.setCapacity reverseResidualEdge (uadd reverseCapacity value)
    pure (g1, m2)

/-- The function `Graph::augmentMinCostPath`. -/
def augmentMinCostPath (value : Nat) : List Nat → Graph → Graph → Option (Graph × Graph)
  | [], g, m => some (g, m)
  | residualEdge :: es, g, m => do
    let (g1, m1) ← augmentMinCostEdge residualEdge value g m
    augmentMinCostPath value es g1 m1

/-- The `while (!negativeCycle.empty())` loop of `Graph::minCostMaxFlow`; `none` when the
fuel runs out. -/
def cancelCycles (source : String) : Nat → List Nat → Graph → Graph → Option (Graph × Graph)
  | 0, _, _, _ => none
  | fuel + 1, negativeCycle, g, m =>
    if negativeCycle.isEmpty then some (g, m)
    else do
      let bottleneckCapacity ← findListBottleneck m negativeCycle UINT32_MAX
      let (g1, m1) ← augmentMinCostPath bottleneckCapacity negativeCycle g m
      let (negativeCycle1, m2) ← m1.bellmanFord source
      cancelCycles source fuel negativeCycle1 g1 m2

/-- The inner loop of the cost computation of `Graph::minCostMaxFlow`. -/
def costAdj (g : Graph) : List Nat → Nat → Option Nat
  | [], cost => some cost
  | e :: es, cost => do
    let x ← g.edges[e]?
    costAdj g es (uadd cost (umul x.cost x.flow))

/-- The outer loop of the cost computation of `Graph::minCostMaxFlow`. -/
def costVertices (g : Graph) : List Vertex → Nat → Option Nat
  | [], cost => some cost
  | v :: vs, cost => do
    let cost1 ← costAdj g v.adj cost
    costVertices g vs cost1

/-- The function `Graph::minCostMaxFlow`, called on the regular graph `g`: the returned
pair and the regular and residual graph on return; `none` when a pointer is null or a loop
needs more than `fuel` iterations. -/
def Graph.minCostMaxFlow (g : Graph) (fuel : Nat) (source target : String)
    (residualGraph : Graph) : Option ((Nat × Nat) × Graph × Graph) := do
  let (first, g1, r1) ← g.edmondsKarp fuel [source] target residualGraph
  let minCostResidual ← g1.makeMinCostResidual Graph.empty
  let (negativeCycle, m1) ← minCostResidual.bellmanFord source
  let (g2, _) ← cancelCycles source fuel negativeCycle g1 m1
  let cost ← costVertices g2 g2.vertexSet 0
  pure ((first, cost), g2, r1)

/-! ## Vocabulary of the properties -/

/-- The flow on the edge behind a pointer (zero for a dangling pointer). -/
def Graph.flowOf (g : Graph) (e : Nat) : Nat := (g.getFlow e).getD 0

/-- The sum of the flow on the incoming links of a vertex. -/
def Graph.inFlow (g : Graph) (v : Vertex) : Nat := (v.incoming.map g.flowOf).sum

/-- The sum of the flow on the outgoing links of a vertex. -/
def Graph.outFlow (g : Graph) (v : Vertex) : Nat := (v.adj.map g.flowOf).sum

/-- Capacity respect: every link carries at most its capacity.  Flows are `unsigned int`, so
a flow that went below zero shows up as a value above the capacity. -/
def Graph.CapacityRespected (g : Graph) : Prop := ∀ e ∈ g.edges, e.flow ≤ e.capacity

/-- Flow conservation at every vertex that is neither a source nor the target. -/
def Graph.Conserved (g : Graph) (source : List String) (target : String) : Prop :=
  ∀ v ∈ g.vertexSet, v.id ∉ source → v.id ≠ target → g.inFlow v = g.outFlow v

/-- The net flow into the vertices with the given id: inbound minus outbound flow. -/
def Graph.netInflow (g : Graph) (id : String) : Int :=
  ((g.vertexSet.filter (fun v => v.id = id)).map
    (fun v => (g.inFlow v : Int) - (g.outFlow v : Int))).sum

/-- Every capacity of the graph is below `2 ^ 31`. -/
def Graph.CapacityBelow (g : Graph) (bound : Nat) : Prop := ∀ e ∈ g.edges, e.capacity < bound

/-- Cost-per-unit times flow of the link behind a pointer (zero for a dangling pointer). -/
def Graph.costOf (g : Graph) (e : Nat) : Int :=
  match g.edges[e]? with
  | some x => x.cost * (x.flow : Int)
  | none => 0

/-- The sum, over every directed link of the graph (every entry of every adjacency list), of
cost-per-unit times flow. -/
def Graph.totalCost (g : Graph) : Int :=
  (g.vertexSet.map (fun v => (v.adj.map g.costOf).sum)).sum

/-- The amount a flow assignment (one entry per edge pointer) sends into a vertex. -/
def assignedIn (fl : List Nat) (v : Vertex) : Nat := (v.incoming.map (fun e => fl.getD e 0)).sum

/-- The amount a flow assignment sends out of a vertex. -/
def assignedOut (fl : List Nat) (v : Vertex) : Nat := (v.adj.map (fun e => fl.getD e 0)).sum

/-- A feasible flow on the directed network of the active regular links: one amount per
directed link, within its capacity, zero on a deactivated link, conserved at every vertex
that is neither a source nor the target. -/
def Graph.FeasibleFlow (g : Graph) (source : List String) (target : String) (fl : List Nat) :
    Prop :=
  fl.length = g.edges.length ∧
  (∀ p ∈ g.edges.zip fl, p.2 ≤ p.1.capacity ∧ (p.1.selected = false → p.2 = 0)) ∧
  ∀ v ∈ g.vertexSet, v.id ∉ source → v.id ≠ target → assignedIn fl v = assignedOut fl v

/-- The value of a flow assignment: what it sends into the target minus what leaves it. -/
def Graph.flowValue (g : Graph) (target : String) (fl : List Nat) : Int :=
  ((g.vertexSet.filter (fun v => v.id = target)).map
    (fun v => (assignedIn fl v : Int) - (assignedOut fl v : Int))).sum

/-- The cost of a flow assignment: the sum over the links of cost-per-unit times amount. -/
def Graph.flowCost (g : Graph) (fl : List Nat) : Int :=
  ((g.edges.zip fl).map (fun p => p.1.cost * (p.2 : Int))).sum

/-- One round of the closure computing residual reachability: the heads of the active
residual links of capacity `> 0` that leave a marked vertex are marked. -/
def Graph.reachStep (r : Graph) (marked : List Nat) : List Nat :=
  (marked.flatMap (fun x =>
    match r.vertexSet[x]? with
    | some v => v.adj.filterMap (fun e =>
        match r.edges[e]? with
        | some ed => if ed.selected = true ∧ ed.capacity > 0 then some ed.dest else none
        | none => none)
    | none => [])).foldl (fun acc x => if x ∈ acc then acc else acc ++ [x]) marked

/-- The vertices reachable from the sources through active residual links of capacity
`> 0`: `|V|` rounds of the closure. -/
def Graph.reachable (r : Graph) (source : List String) : List Nat :=
  Nat.iterate r.reachStep r.vertexSet.length (source.filterMap r.findVertex)

/-- The sum of the capacities of the active regular links that go from a vertex of the set
to a vertex outside it. -/
def Graph.cutCapacity (g : Graph) (R : List Nat) : Nat :=
  ((g.edges.filter (fun e => e.selected && (decide (e.orig ∈ R)) && !(decide (e.dest ∈ R)))).map
    (fun e => e.capacity)).sum

instance (g : Graph) : Decidable g.CapacityRespected := by
  unfold Graph.CapacityRespected; infer_instance

instance (g : Graph) (source : List String) (target : String) :
    Decidable (g.Conserved source target) := by
  unfold Graph.Conserved; infer_instance

instance (g : Graph) (bound : Nat) : Decidable (g.CapacityBelow bound) := by
  unfold Graph.CapacityBelow; infer_instance

instance (g : Graph) (source : List String) (target : String) (fl : List Nat) :
    Decidable (g.FeasibleFlow source target fl) := by
  unfold Graph.FeasibleFlow; infer_instance

/-! ## Concrete networks -/

/-- A link of service `STANDARD`. -/
def standardLink (source dest : String) (capacity : Nat) : Link :=
  { source := source, dest := dest, capacity := capacity, service := Service.STANDARD }

/-- A link of service `ALFA_PENDULAR`. -/
def alfaLink (source dest : String) (capacity : Nat) : Link :=
  { source := source, dest := dest, capacity := capacity, service := Service.ALFA_PENDULAR }

/-- Scenario A of the specification. -/
def scenarioA : Option (Graph × Graph) :=
  buildNetwork ["A", "B", "C", "D"]
    [standardLink "A" "B" 5, standardLink "A" "C" 3, standardLink "B" "D" 2,
     standardLink "C" "D" 4]

/-- A network on which the augmentations stop one unit short of the maximum flow from `A`
to `F`. -/
def shortfallNetwork : Option (Graph × Graph) :=
  buildNetwork ["A", "B", "C", "D", "E", "F"]
    [standardLink "C" "E" 1, standardLink "D" "C" 2, standardLink "E" "A" 1,
     standardLink "D" "A" 1, standardLink "F" "B" 2, standardLink "B" "E" 2,
     standardLink "A" "D" 1, standardLink "C" "F" 1]

/-- A flow of value 3 from `A` to `F` on `shortfallNetwork`, one amount per edge pointer. -/
def shortfallFlow : List Nat := [1, 0, 2, 0, 0, 1, 0, 1, 0, 2, 0, 2, 1, 0, 1, 0]

/-- A network on which the final residual reachability does not give a cut of the
computed value (source `A`, target `F`). -/
def cutGapNetwork : Option (Graph × Graph) :=
  buildNetwork ["A", "B", "C", "D", "E", "F"]
    [standardLink "D" "E" 1, standardLink "D" "A" 1, standardLink "F" "C" 1,
     standardLink "F" "E" 1, standardLink "B" "A" 2, standardLink "E" "B" 2,
     standardLink "D" "C" 1]

/-- A network with two parallel links of different cost between `a` and `t`; the dearer one
is declared first (source `s`, target `t`). -/
def dearFirstNetwork : Option (Graph × Graph) :=
  buildNetwork ["s", "a", "t"]
    [standardLink "s" "a" 1, alfaLink "a" "t" 1, standardLink "a" "t" 1]

/-- The flow of value 1 on `dearFirstNetwork` that uses the cheaper link, of cost 4. -/
def cheapFlow : List Nat := [1, 0, 0, 0, 1, 0]

/-- A single link of capacity `2 ^ 31`. -/
def wideLinkNetwork : Option (Graph × Graph) :=
  buildNetwork ["s", "t"] [standardLink "s" "t" 2147483648]

/-- A network with three links of capacity `2 ^ 32 - 1` on which the third augmentation
makes `flow + value` wrap around (source `s`, target `t`). -/
def wrapNetwork : Option (Graph × Graph) :=
  buildNetwork ["s", "u", "v", "t", "x", "y", "p", "q", "w", "z"]
    [standardLink "s" "u" 4294967295, standardLink "u" "v" 4294967295,
     standardLink "v" "t" 4294967295, standardLink "s" "x" 1, standardLink "x" "v" 1,
     standardLink "u" "y" 1, standardLink "y" "t" 1, standardLink "s" "p" 1,
     standardLink "p" "q" 1, standardLink "q" "u" 1, standardLink "v" "w" 1,
     standardLink "w" "z" 1, standardLink "z" "t" 1]

/-- A network on which the link `u`-`v` of capacity `10 * 2 ^ 28` is used four times in
alternating directions, with amounts `5`, `10`, `15` and `5` times `2 ^ 28`
(source `s`, target `t`). -/
def alternatingNetwork : Option (Graph × Graph) :=
  buildNetwork
    ["s", "u", "v", "t", "F20", "D20", "F30", "F31", "D30", "D31", "F40", "F41", "F42",
     "D40", "D41", "D42"]
    [standardLink "u" "v" 2684354560, standardLink "s" "u" 1342177280,
     standardLink "v" "t" 1342177280, standardLink "s" "F20" 2684354560,
     standardLink "F20" "v" 2684354560, standardLink "u" "D20" 2684354560,
     standardLink "D20" "t" 2684354560, standardLink "s" "F30" 4026531840,
     standardLink "F30" "F31" 4026531840, standardLink "F31" "u" 4026531840,
     standardLink "v" "D30" 4026531840, standardLink "D30" "D31" 4026531840,
     standardLink "D31" "t" 4026531840, standardLink "s" "F40" 1342177280,
     standardLink "F40" "F41" 1342177280, standardLink "F41" "F42" 1342177280,
     standardLink "F42" "v" 1342177280, standardLink "u" "D40" 1342177280,
     standardLink "D40" "D41" 1342177280, standardLink "D41" "D42" 1342177280,
     standardLink "D42" "t" 1342177280]

/-- Runs `edmondsKarp` on a network and applies `f` to the returned value and the regular
and residual graph on return. -/
def afterEdmondsKarp {α : Type} (net : Option (Graph × Graph)) (fuel : Nat)
    (source : List String) (target : String) (f : Nat → Graph → Graph → α) : Option α :=
  net.bind (fun p =>
    (p.1.edmondsKarp fuel source target p.2).map (fun x => f x.1 x.2.1 x.2.2))

/-- Runs `minCostMaxFlow` on a network and applies `f` to the returned pair and the regular
graph on return. -/
def afterMinCostMaxFlow {α : Type} (net : Option (Graph × Graph)) (fuel : Nat)
    (source target : String) (f : Nat × Nat → Graph → α) : Option α :=
  net.bind (fun p =>
    (p.1.minCostMaxFlow fuel source target p.2).map (fun x => f x.1 x.2.1))
/-! ## Structure of a paired network and invariants of a run -/

/-- The capacity of the edge behind a pointer (zero for a dangling pointer). -/
def Graph.capOf (g : Graph) (e : Nat) : Nat := (g.getCapacity e).getD 0

/-- The predecessor pointer of the vertex behind a pointer. -/
def Graph.pathOf (g : Graph) (x : Nat) : Option (Option Nat) :=
  (g.vertexSet[x]?).map (fun v => v.path)

/-- The visited flag of the vertex behind a pointer (`false` for a dangling pointer). -/
def Graph.visitedAt (g : Graph) (x : Nat) : Bool :=
  ((g.vertexSet[x]?).map (fun v => v.visited)).getD false

/-- The adjacency list of the vertex behind a pointer. -/
def Graph.adjOf (g : Graph) (x : Nat) : List Nat :=
  ((g.vertexSet[x]?).map (fun v => v.adj)).getD []

/-- The list of incoming edges of the vertex behind a pointer. -/
def Graph.incomingOf (g : Graph) (x : Nat) : List Nat :=
  ((g.vertexSet[x]?).map (fun v => v.incoming)).getD []

/-- The id of the vertex behind a pointer. -/
def Graph.idOf (g : Graph) (x : Nat) : Option String := (g.vertexSet[x]?).map (fun v => v.id)

/-- The pointer structure `addVertex` and `addAndGetBidirectionalEdge` build in one graph:
every edge lies in the adjacency list of its origin and in the incoming list of its
destination and has a reverse with swapped endpoints; the lists hold valid pointers without
repetition; `idToVertex` and the ids of the vertices agree. -/
def Graph.WellLinked (g : Graph) : Prop :=
  (∀ i, i < g.edges.length →
    (∃ u, u < g.vertexSet.length ∧ g.getOrig i = some u ∧ i ∈ g.adjOf u) ∧
    (∃ v, v < g.vertexSet.length ∧ g.getDest i = some v ∧ i ∈ g.incomingOf v) ∧
    (∃ j, j < g.edges.length ∧ j ≠ i ∧ g.getReverse i = some j ∧ g.getReverse j = some i ∧
      g.getOrig j = g.getDest i ∧ g.getDest j = g.getOrig i)) ∧
  (∀ x, x < g.vertexSet.length →
    (∀ e ∈ g.adjOf x, e < g.edges.length ∧ g.getOrig e = some x) ∧ (g.adjOf x).Nodup ∧
    (∀ e ∈ g.incomingOf x, e < g.edges.length ∧ g.getDest e = some x) ∧
    (g.incomingOf x).Nodup ∧ (g.idOf x).bind g.findVertex = some x) ∧
  (∀ p ∈ g.idToVertex, g.idOf p.2 = some p.1)

/-- A paired regular/residual network: both graphs are well linked, they have the same
vertices and the same edges at the same pointers, and the corresponding-edge pointers are
cross-wired. -/
def Paired (g r : Graph) : Prop :=
  g.WellLinked ∧ r.WellLinked ∧ g.vertexSet.length = r.vertexSet.length ∧
  g.edges.length = r.edges.length ∧
  (∀ i, i < g.edges.length →
    g.getCorrespondingEdge i = some i ∧ r.getCorrespondingEdge i = some i ∧
    g.getOrig i = r.getOrig i ∧ g.getDest i = r.getDest i ∧ g.getReverse i = r.getReverse i) ∧
  (∀ x, x < g.vertexSet.length → g.idOf x = r.idOf x)

instance (g : Graph) : Decidable g.WellLinked := by
  unfold Graph.WellLinked; infer_instance

instance (g r : Graph) : Decidable (Paired g r) := by
  unfold Paired; infer_instance

/-- Two states of a graph that agree on everything but the flows and capacities of the edges
and the search fields of the vertices. -/
structure SameStatic (g h : Graph) : Prop where
  edges_length : h.edges.length = g.edges.length
  vertexSet_length : h.vertexSet.length = g.vertexSet.length
  idToVertex : h.idToVertex = g.idToVertex
  getOrig : ∀ i, h.getOrig i = g.getOrig i
  getDest : ∀ i, h.getDest i = g.getDest i
  getReverse : ∀ i, h.getReverse i = g.getReverse i
  getCorrespondingEdge : ∀ i, h.getCorrespondingEdge i = g.getCorrespondingEdge i
  adjOf : ∀ x, h.adjOf x = g.adjOf x
  incomingOf : ∀ x, h.incomingOf x = g.incomingOf x
  idOf : ∀ x, h.idOf x = g.idOf x

/-- The invariant of a run of `edmondsKarp` on every link: the flow is within the capacity,
and the residual capacity is at most `capacity - flow + flow of the reverse link`. -/
def LinkInv (g r : Graph) : Prop :=
  ∀ i j, i < g.edges.length → g.getReverse i = some j →
    g.flowOf i ≤ g.capOf i ∧ r.capOf i + g.flowOf i ≤ g.capOf i + g.flowOf j

/-- The predecessor chain that starts at the vertex `x`: the list of the pairs
(predecessor edge, its origin) met while following `getPath()->getOrig()` until a vertex
without predecessor edge is reached. -/
def Graph.IsChain (r : Graph) : Nat → List (Nat × Nat) → Prop
  | x, [] => r.pathOf x = some none
  | x, p :: rest =>
    r.pathOf x = some (some p.1) ∧ r.getDest p.1 = some x ∧ r.getOrig p.1 = some p.2 ∧
      Graph.IsChain r p.2 rest

/-- The vertices on a chain, the start first. -/
def chainVertices (x : Nat) (P : List (Nat × Nat)) : List Nat := x :: P.map (fun p => p.2)

/-- The vertex a chain ends at. -/
def chainEnd : Nat → List (Nat × Nat) → Nat
  | x, [] => x
  | _, p :: rest => chainEnd p.2 rest

/-- The invariant of the search in `Graph::path`: every visited vertex has a predecessor
chain without repeated vertex, through visited vertices and edges of positive capacity,
that ends at one of the source vertices `S`. -/
def SearchInv (r : Graph) (S : List Nat) : Prop :=
  ∀ x, r.visitedAt x = true →
    ∃ P, r.IsChain x P ∧ (chainVertices x P).Nodup ∧
      (∀ y ∈ chainVertices x P, r.visitedAt y = true) ∧ chainEnd x P ∈ S ∧
      ∀ p ∈ P, p.1 < r.edges.length ∧ 0 < r.capOf p.1

/-- The invariant of the queue in `Graph::path`: every queued id is the id of a visited
vertex. -/
def QueueInv (r : Graph) (q : List String) : Prop :=
  ∀ id ∈ q, ∃ x, r.findVertex id = some x ∧ r.visitedAt x = true

/-- The net flow into the vertex behind a pointer: the flow on its incoming links minus the
flow on its outgoing links. -/
def Graph.excessAt (g : Graph) (x : Nat) : Int :=
  (((g.incomingOf x).map g.flowOf).sum : Int) - (((g.adjOf x).map g.flowOf).sum : Int)

/-- What every iteration of the loop of `edmondsKarp` keeps on a paired network whose
capacities are below `2 ^ 31`: the pairing, the link invariant, the bound on the capacities
and a zero net flow at every vertex that is neither a source nor the target. -/
def EKInv (source : List String) (target : String) (g r : Graph) : Prop :=
  Paired g r ∧ LinkInv g r ∧ g.CapacityBelow 2147483648 ∧
  ∀ y id, g.idOf y = some id → id ∉ source → id ≠ target → g.excessAt y = 0

/-- What the builder keeps in each of the two graphs: the graph is well linked and every
corresponding-edge pointer holds the pointer of its own edge (the two graphs allocate
their edges in the same order). -/
def Graph.Mirrored (g : Graph) : Prop :=
  g.WellLinked ∧ ∀ i, i < g.edges.length → g.getCorrespondingEdge i = some i

/-- A graph `h` that is the graph `g` with one more bidirectional link between the
vertices `v1` and `v2`, as `addLink` leaves it: two new edges at the end of the arena,
reverse of each other, each its own corresponding edge, appended to the edge lists of
their endpoints. -/
structure LinkAdded (g h : Graph) (v1 v2 : Nat) : Prop where
  v1_lt : v1 < g.vertexSet.length
  v2_lt : v2 < g.vertexSet.length
  edges_length : h.edges.length = g.edges.length + 2
  vertexSet_length : h.vertexSet.length = g.vertexSet.length
  idToVertex : h.idToVertex = g.idToVertex
  idOf : ∀ x, h.idOf x = g.idOf x
  getOrig : ∀ i, h.getOrig i =
    if i = g.edges.length then some v1 else if i = g.edges.length + 1 then some v2
    else g.getOrig i
  getDest : ∀ i, h.getDest i =
    if i = g.edges.length then some v2 else if i = g.edges.length + 1 then some v1
    else g.getDest i
  getReverse : ∀ i, h.getReverse i =
    if i = g.edges.length then some (g.edges.length + 1)
    else if i = g.edges.length + 1 then some g.edges.length else g.getReverse i
  getCorrespondingEdge : ∀ i, h.getCorrespondingEdge i =
    if i = g.edges.length then some g.edges.length
    else if i = g.edges.length + 1 then some (g.edges.length + 1)
    else g.getCorrespondingEdge i
  mem_adjOf : ∀ x e, e ∈ h.adjOf x ↔
    (e ∈ g.adjOf x ∨ (x = v1 ∧ e = g.edges.length) ∨ (x = v2 ∧ e = g.edges.length + 1))
  mem_incomingOf : ∀ x e, e ∈ h.incomingOf x ↔
    (e ∈ g.incomingOf x ∨ (x = v2 ∧ e = g.edges.length) ∨ (x = v1 ∧ e = g.edges.length + 1))
  nodup_adjOf : ∀ x, (∀ e ∈ g.adjOf x, e < g.edges.length) → (g.adjOf x).Nodup →
    (h.adjOf x).Nodup
  nodup_incomingOf : ∀ x, (∀ e ∈ g.incomingOf x, e < g.edges.length) →
    (g.incomingOf x).Nodup → (h.incomingOf x).Nodup

/-! ## Runs on scenario A -/

/-- The regular and the residual graph of scenario A. -/
def scenarioAGraphs : Graph × Graph := scenarioA.getD (Graph.empty, Graph.empty)

/-- The value and the graphs `edmondsKarp({A}, D, residualGraph)` returns on scenario A within
a budget of three iterations. -/
def scenarioARun : Nat × Graph × Graph :=
  (scenarioAGraphs.1.edmondsKarp 3 ["A"] "D" scenarioAGraphs.2).getD
    (0, Graph.empty, Graph.empty)

/-- The pair and the graphs `minCostMaxFlow(A, D, residualGraph)` returns on scenario A within
a budget of three iterations. -/
def scenarioAMinCostRun : (Nat × Nat) × Graph × Graph :=
  (scenarioAGraphs.1.minCostMaxFlow 3 "A" "D" scenarioAGraphs.2).getD
    ((0, 0), Graph.empty, Graph.empty)

/-! ## Failure simulation (`Graph::deactivateEdges`, `Graph::activateEdges`,
`Graph::maxFlowDeactivatedEdges`) -/

/-- The body of the loop of `Graph::deactivateEdges` (with `selected = false`) and of
`Graph::activateEdges` (with `selected = true`) for the edge pointer `edge` of the graph `g`;
`r` is the graph the corresponding-edge pointers of `g` lead to.  The four statements are
`edge->setSelected`, `edge->getCorrespondingEdge()->setSelected`,
`edge->getReverse()->setSelected` and
`edge->getReverse()->getCorrespondingEdge()->setSelected`. -/
def selectEdge (selected : Bool) (edge : Nat) (g r : Graph) : Option (Graph × Graph) := do
  let g1 ← g.setSelected edge selected
  let corresponding ← g1.getCorrespondingEdge edge
  let r1 ← r.setSelected corresponding selected
  let reverse ← g1.getReverse edge
  let g2 ← g1.setSelected reverse selected
  let reverse1 ← g2.getReverse edge
  let reverseCorresponding ← g2.getCorrespondingEdge reverse1
  let r2 ← r1.setSelected reverseCorresponding selected
  pure (g2, r2)

/-- The loop `for (Edge *edge: edges)` shared by `Graph::deactivateEdges` and
`Graph::activateEdges`. -/
def selectEdges (selected : Bool) : List Nat → Graph → Graph → Option (Graph × Graph)
  | [], g, r => some (g, r)
  | edge :: rest, g, r => do
    let (g1, r1) ← selectEdge selected edge g r
    selectEdges selected rest g1 r1

/-- The function `Graph::deactivateEdges`. -/
def deactivateEdges (edges : List Nat) (g r : Graph) : Option (Graph × Graph) :=
  selectEdges false edges g r

/-- The function `Graph::activateEdges`. -/
def activateEdges (edges : List Nat) (g r : Graph) : Option (Graph × Graph) :=
  selectEdges true edges g r

/-- The function `Graph::maxFlowDeactivatedEdges`, called on the regular graph `g`: the
returned pair and the two graphs on return. -/
def Graph.maxFlowDeactivatedEdges (g : Graph) (fuel : Nat) (selectedEdges : List Nat)
    (source : List String) (target : String) (residualGraph : Graph) :
    Option ((Nat × Nat) × Graph × Graph) := do
  let (first, g1, r1) ← g.edmondsKarp fuel source target residualGraph
  let (g2, r2) ← deactivateEdges selectedEdges g1 r1
  let (second, g3, r3) ← g2.edmondsKarp fuel source target r2
  let (g4, r4) ← activateEdges selectedEdges g3 r3
  pure ((first, second), g4, r4)

/-! ## Line ends and super-sources (`Graph::findEndOfLines`, `Graph::superSourceCreator`,
`Graph::incomingFlux`, `Graph::incomingReducedFlux`) -/

/-- The loop `for (Vertex *v: vertexSet) v->setVisited(false)`. -/
def Graph.clearVisited (g : Graph) : Graph :=
  { g with vertexSet := g.vertexSet.map (fun v => { v with visited := false }) }

/-- The loop `for (Edge const *e: curr->getAdj())` of `Graph::findEndOfLines`: the
destination of every edge is pushed on the queue unless it is marked visited. -/
def endOfLinesAdj (g : Graph) : List Nat → List Nat → Option (List Nat)
  | [], q => some q
  | e :: es, q => do
    let edge ← g.edges[e]?
    let d ← g.vertexSet[edge.dest]?
    if d.visited = true then endOfLinesAdj g es q else endOfLinesAdj g es (q ++ [edge.dest])

/-- The `while (!q.empty())` loop of `Graph::findEndOfLines`; the queue holds vertex
pointers.  A vertex is marked when it is taken from the queue, so it can be queued (and
listed) more than once. -/
def endOfLinesLoop : Nat → Graph → List Nat → List String → Option (List String × Graph)
  | 0, _, _, _ => none
  | _ + 1, g, [], eol_stations => some (eol_stations, g)
  | fuel + 1, g, curr :: q, eol_stations => do
    let g1 ← g.updateVertex curr (fun v => { v with visited := true })
    let cv ← g1.vertexSet[curr]?
    let q1 ← endOfLinesAdj g1 cv.adj q
    endOfLinesLoop fuel g1 q1
      (if cv.adj.length = 1 then eol_stations ++ [cv.id] else eol_stations)

/-- The largest length of an adjacency list of the graph. -/
def Graph.maxDegree (g : Graph) : Nat := (g.vertexSet.map (fun v => v.adj.length)).foldr max 0

/-- A bound on the number of vertices taken from the queue of `Graph::findEndOfLines` while
`k` vertices are still unmarked and every adjacency list has at most `d` entries. -/
def searchBudget (d : Nat) : Nat → Nat
  | 0 => 1
  | k + 1 => 1 + d * searchBudget d k

/-- The function `Graph::findEndOfLines`: the returned list and the graph with the marks the
search leaves.  The queue loop is given `searchBudget maxDegree |V| + 1` iterations, which it
never exceeds. -/
def Graph.findEndOfLines (g : Graph) (stationId : String) : Option (List String × Graph) := do
  let g1 := g.clearVisited
  let start ← g1.findVertex stationId
  endOfLinesLoop (searchBudget g.maxDegree g.vertexSet.length + 1) g1 [start] []

/-- The function `Graph::superSourceCreator`: the first occurrence of `vertexId` is erased
from the list `findEndOfLines` returns. -/
def Graph.superSourceCreator (g : Graph) (vertexId : String) : Option (List String × Graph) := do
  let (superSource, g1) ← g.findEndOfLines vertexId
  pure (superSource.erase vertexId, g1)

/-- The function `Graph::incomingFlux`, called on the regular graph `g`. -/
def Graph.incomingFlux (g : Graph) (fuel : Nat) (station : String) (residualGraph : Graph) :
    Option (Nat × Graph × Graph) := do
  let (superSource, g1) ← g.superSourceCreator station
  g1.edmondsKarp fuel superSource station residualGraph

/-- The function `Graph::incomingReducedFlux`, called on the regular graph `g`. -/
def Graph.incomingReducedFlux (g : Graph) (fuel : Nat) (edges : List Nat) (station : String)
    (residualGraph : Graph) : Option (Nat × Graph × Graph) := do
  let (superSource, g1) ← g.superSourceCreator station
  let (g2, r2) ← deactivateEdges edges g1 residualGraph
  let (result, g3, r3) ← g2.edmondsKarp fuel superSource station r2
  let (g4, r4) ← activateEdges edges g3 r3
  pure (result, g4, r4)

/-! ## Double-precision arithmetic

The type `double` is the IEC 559 binary64 format.  A finite value is represented by the
rational number it stands for; every operation rounds the exact result to the nearest value
with a significand of 53 bits, ties to the even significand.  The range of the exponent is
not limited: the quantities of this program (sums and quotients of 32-bit integers, times
100) stay between `2 ^ (-1022)` and `2 ^ 1023`.  The two zeros are not distinguished. -/

/-- The number of binary digits of `n`, found with at most `fuel` halvings. -/
def bitLength : Nat → Nat → Nat
  | 0, _ => 0
  | fuel + 1, n => if n = 0 then 0 else bitLength fuel (n / 2) + 1

/-- The power `2 ^ e` for an integer exponent. -/
def pow2 (e : Int) : ℚ :=
  if 0 ≤ e then ((2 ^ e.toNat : Nat) : ℚ) else 1 / ((2 ^ (-e).toNat : Nat) : ℚ)

/-- The exponent `e` with `2 ^ e ≤ q < 2 ^ (e + 1)` of a positive rational number. -/
def floorLog2 (q : ℚ) : Int :=
  let e0 : Int := (bitLength q.num.toNat q.num.toNat : Int) - (bitLength q.den q.den : Int)
  if pow2 e0 ≤ q then e0 else e0 - 1

/-- Rounding to the nearest integer, ties to the even one. -/
def roundHalfEven (q : ℚ) : Int :=
  let f := ⌊q⌋
  let r := q - f
  if r < 1 / 2 then f else if 1 / 2 < r then f + 1 else if f % 2 = 0 then f else f + 1

/-- Rounding to the nearest number with a significand of 53 bits, ties to even. -/
def roundBinary64 (q : ℚ) : ℚ :=
  if q = 0 then 0
  else
    let e := floorLog2 |q|
    (roundHalfEven (q / pow2 (e - 52)) : ℚ) * pow2 (e - 52)

/-- A value of type `double`. -/
inductive Binary64 where
  | finite (value : ℚ)
  | infinite (negative : Bool)
  | nan
  deriving DecidableEq

/-- The conversion of an integer to `double`. -/
def Binary64.ofNat (n : Nat) : Binary64 := Binary64.finite (roundBinary64 (n : ℚ))

/-- The negation of a `double`. -/
def Binary64.neg : Binary64 → Binary64
  | Binary64.finite a => Binary64.finite (-a)
  | Binary64.infinite s => Binary64.infinite (!s)
  | Binary64.nan => Binary64.nan

/-- The operator `+` on `double`. -/
def Binary64.add : Binary64 → Binary64 → Binary64
  | Binary64.finite a, Binary64.finite b => Binary64.finite (roundBinary64 (a + b))
  | Binary64.finite _, Binary64.infinite s => Binary64.infinite s
  | Binary64.infinite s, Binary64.finite _ => Binary64.infinite s
  | Binary64.infinite s, Binary64.infinite t => if s = t then Binary64.infinite s else Binary64.nan
  | Binary64.nan, _ => Binary64.nan
  | _, Binary64.nan => Binary64.nan

/-- The operator `-` on `double`. -/
def Binary64.sub (a b : Binary64) : Binary64 := a.add b.neg

/-- The operator `*` on `double`. -/
def Binary64.mul : Binary64 → Binary64 → Binary64
  | Binary64.finite a, Binary64.finite b => Binary64.finite (roundBinary64 (a * b))
  | Binary64.finite a, Binary64.infinite s =>
    if a = 0 then Binary64.nan else Binary64.infinite (s != decide (a < 0))
  | Binary64.infinite s, Binary64.finite b =>
    if b = 0 then Binary64.nan else Binary64.infinite (s != decide (b < 0))
  | Binary64.infinite s, Binary64.infinite t => Binary64.infinite (s != t)
  | Binary64.nan, _ => Binary64.nan
  | _, Binary64.nan => Binary64.nan

/-- The operator `/` on `double`: `0.0 / 0.0` is a NaN, any other finite value divided by
zero is an infinity. -/
def Binary64.div : Binary64 → Binary64 → Binary64
  | Binary64.finite a, Binary64.finite b =>
    if b = 0 then (if a = 0 then Binary64.nan else Binary64.infinite (decide (a < 0)))
    else Binary64.finite (roundBinary64 (a / b))
  | Binary64.finite _, Binary64.infinite _ => Binary64.finite 0
  | Binary64.infinite s, Binary64.finite b => Binary64.infinite (s != decide (b < 0))
  | Binary64.infinite _, Binary64.infinite _ => Binary64.nan
  | Binary64.nan, _ => Binary64.nan
  | _, Binary64.nan => Binary64.nan

/-- The operator `>` on `double`; every comparison with a NaN is false. -/
def Binary64.gt : Binary64 → Binary64 → Bool
  | Binary64.finite a, Binary64.finite b => decide (b < a)
  | Binary64.finite _, Binary64.infinite s => s
  | Binary64.infinite s, Binary64.finite _ => !s
  | Binary64.infinite s, Binary64.infinite t => !s && t
  | Binary64.nan, _ => false
  | _, Binary64.nan => false

/-! ## Rankings (`std::sort`, `Graph::topReductions`, `Graph::getAverageIncomingFlux`,
`Graph::topGroupings`) -/

/-- The requirement `std::sort` puts on its comparator, checked on the elements of the
range: the comparator is irreflexive and transitive, and the relation "neither comes before
the other" is transitive (a strict weak ordering). -/
def strictWeakOn {α : Type} (comp : α → α → Bool) (l : List α) : Bool :=
  l.all (fun a => !comp a a) &&
  l.all (fun a => l.all (fun b => l.all (fun c =>
    (!(comp a b && comp b c) || comp a c) &&
    (!(!comp a b && !comp b a && !comp b c && !comp c b) || (!comp a c && !comp c a)))))

/-- The library function `std::sort(first, last, comp)`.  With a comparator that is no strict
weak ordering on the elements of the range the call is undefined behaviour: `none`.  For a
strict weak ordering the standard fixes the result up to the order of the elements the
comparator does not distinguish; the result given here is the one of the insertion sort
`libstdc++` runs on a range of at most 16 elements, which keeps such elements in their
original order (on longer ranges `libstdc++` may order them differently). -/
def stdSort {α : Type} (comp : α → α → Bool) (l : List α) : Option (List α) :=
  if strictWeakOn comp l then some (l.insertionSort (fun a b => comp b a = false)) else none

/-- The operand `p.second.first == 0 ? 0 : (100 - ((p.second.second * 1.0) / p.second.first) * 100)`
of the comparator of `Graph::topReductions`; the division is in the branch of a non-zero
baseline only. -/
def reductionPercentage (p : String × Nat × Nat) : Binary64 :=
  if p.2.1 = 0 then Binary64.ofNat 0
  else
    (Binary64.ofNat 100).sub
      ((((Binary64.ofNat p.2.2).mul (Binary64.finite 1)).div (Binary64.ofNat p.2.1)).mul
        (Binary64.ofNat 100))

/-- The comparator of `Graph::topReductions`. -/
def reductionGreater (p1 p2 : String × Nat × Nat) : Bool :=
  (reductionPercentage p1).gt (reductionPercentage p2)

/-- The loop `for (Vertex *v: vertexSet)` of `Graph::topReductions`. -/
def topReductionsLoop (fuel : Nat) (edges : List Nat) :
    List Vertex → Graph → Graph → List (String × Nat × Nat) →
    Option (List (String × Nat × Nat) × Graph × Graph)
  | [], g, r, result => some (result, g, r)
  | v :: vs, g, r, result => do
    let (baseFlow, g1, r1) ← g.incomingFlux fuel v.id r
    let (reducedFlow, g2, r2) ← g1.incomingReducedFlux fuel edges v.id r1
    topReductionsLoop fuel edges vs g2 r2 (result ++ [(v.id, (baseFlow, reducedFlow))])

/-- The function `Graph::topReductions`, called on the regular graph `g`. -/
def Graph.topReductions (g : Graph) (fuel : Nat) (edges : List Nat) (residualGraph : Graph) :
    Option (List (String × Nat × Nat) × Graph × Graph) := do
  let (result, g1, r1) ← topReductionsLoop fuel edges g.vertexSet g residualGraph []
  let sorted ← stdSort reductionGreater result
  pure (sorted, g1, r1)

/-- The class `Station`. -/
structure Station where
  name : String
  district : String
  municipality : String
  township : String
  line : String
  deriving DecidableEq

/-- The function `Station::getName`. -/
def Station.getName (s : Station) : String := s.name

/-- The loop of `Graph::getAverageIncomingFlux`. -/
def averageLoop (fuel : Nat) : List Station → Graph → Graph → Binary64 →
    Option (Binary64 × Graph × Graph)
  | [], g, r, flux_sum => some (flux_sum, g, r)
  | s :: rest, g, r, flux_sum => do
    let (flux, g1, r1) ← g.incomingFlux fuel s.getName r
    averageLoop fuel rest g1 r1 (flux_sum.add (Binary64.ofNat flux))

/-- The function `Graph::getAverageIncomingFlux`, called on the regular graph `g`. -/
def Graph.getAverageIncomingFlux (g : Graph) (fuel : Nat) (stations : List Station)
    (residualGraph : Graph) : Option (Binary64 × Graph × Graph) := do
  let (flux_sum, g1, r1) ← averageLoop fuel stations g residualGraph (Binary64.ofNat 0)
  pure (flux_sum.div (Binary64.ofNat stations.length), g1, r1)

/-- The function `sort_pair_decreasing_second`. -/
def sort_pair_decreasing_second (left right : String × Binary64) : Bool := left.2.gt right.2

/-- The loop `for (const auto &it: group)` of `Graph::topGroupings`; the list holds the
entries of the `std::unordered_map` in the order its iterator yields them. -/
def topGroupingsLoop (fuel : Nat) : List (String × List Station) → Graph → Graph →
    List (String × Binary64) → Option (List (String × Binary64) × Graph × Graph)
  | [], g, r, result => some (result, g, r)
  | it :: rest, g, r, result => do
    let (average, g1, r1) ← g.getAverageIncomingFlux fuel it.2 r
    topGroupingsLoop fuel rest g1 r1 (result ++ [(it.1, average)])

/-- The function `Graph::topGroupings`, called on the regular graph `g`. -/
def Graph.topGroupings (g : Graph) (fuel : Nat) (group : List (String × List Station))
    (residualGraph : Graph) : Option (List (String × Binary64) × Graph × Graph) := do
  let (result, g1, r1) ← topGroupingsLoop fuel group g residualGraph []
  let sorted ← stdSort sort_pair_decreasing_second result
  pure (sorted, g1, r1)

/-! ## The pairs of stations with the largest flow (`Graph::visitedDFS`,
`Graph::calculateNetworkMaxFlow`) -/

/-- The loop `for (Edge const *e: source->getAdj())` of `Graph::visitedDFS`; `visit` is the
recursive call. -/
def visitedDFSAdj (visit : Nat → Graph → Option Graph) : List Nat → Graph → Option Graph
  | [], g => some g
  | e :: es, g => do
    let edge ← g.edges[e]?
    let d ← g.vertexSet[edge.dest]?
    if d.visited = true then visitedDFSAdj visit es g
    else
      let g1 ← visit edge.dest g
      visitedDFSAdj visit es g1

/-- The function `Graph::visitedDFS` with a bound on the depth of the recursion. -/
def visitedDFSDepth : Nat → Nat → Graph → Option Graph
  | 0, _, _ => none
  | depth + 1, source, g => do
    let g1 ← g.updateVertex source (fun v => { v with visited := true })
    let sv ← g1.vertexSet[source]?
    visitedDFSAdj (visitedDFSDepth depth) sv.adj g1

/-- The function `Graph::visitedDFS`.  Every nested call marks a vertex that was not marked,
so the recursion is never deeper than `|V| + 1`. -/
def Graph.visitedDFS (g : Graph) (source : Nat) : Option Graph :=
  visitedDFSDepth (g.vertexSet.length + 1) source g

/-- The loop `for (auto itV2 = itV1 + 1; itV2 < vertexSet.end(); itV2++)` of
`Graph::calculateNetworkMaxFlow`. -/
def networkMaxFlowInner (fuel : Nat) (v1 : Nat) :
    List Nat → Graph → Graph → Nat → List (String × String) →
    Option (Nat × List (String × String) × Graph × Graph)
  | [], g, r, max, stationList => some (max, stationList, g, r)
  | v2 :: rest, g, r, max, stationList => do
    let x2 ← g.vertexSet[v2]?
    if x2.visited = true then
      let x1 ← g.vertexSet[v1]?
      let (itFlow, g1, r1) ← g.edmondsKarp fuel [x1.id] x2.id r
      let stationList1 :=
        if itFlow = max then stationList ++ [(x1.id, x2.id)] else stationList
      if itFlow > max then networkMaxFlowInner fuel v1 rest g1 r1 itFlow [(x1.id, x2.id)]
      else networkMaxFlowInner fuel v1 rest g1 r1 max stationList1
    else networkMaxFlowInner fuel v1 rest g r max stationList

/-- The loop `for (auto itV1 = vertexSet.begin(); itV1 < vertexSet.end(); itV1++)` of
`Graph::calculateNetworkMaxFlow`. -/
def networkMaxFlowOuter (fuel : Nat) :
    List Nat → Graph → Graph → Nat → List (String × String) →
    Option (Nat × List (String × String) × Graph × Graph)
  | [], g, r, max, stationList => some (max, stationList, g, r)
  | v1 :: rest, g, r, max, stationList => do
    let g1 ← g.clearVisited.visitedDFS v1
    let (max1, stationList1, g2, r2) ←
      networkMaxFlowInner fuel v1 (List.range' (v1 + 1) (g.vertexSet.length - (v1 + 1)))
        g1 r max stationList
    networkMaxFlowOuter fuel rest g2 r2 max1 stationList1

/-- The function `Graph::calculateNetworkMaxFlow`, called on the regular graph `g`: the
returned pair (station list, value) and the two graphs on return. -/
def Graph.calculateNetworkMaxFlow (g : Graph) (fuel : Nat) (residualGraph : Graph) :
    Option ((List (String × String) × Nat) × Graph × Graph) := do
  let (max, stationList, g1, r1) ←
    networkMaxFlowOuter fuel (List.range g.vertexSet.length) g residualGraph 0 []
  pure ((stationList, max), g1, r1)

/-! ## States of a network up to flows, residual capacities and search marks -/

/-- A vertex without its visited mark. -/
def Vertex.unmarked (v : Vertex) : Vertex := { v with visited := false }

/-- A vertex without its visited mark and its predecessor edge. -/
def Vertex.unsearched (v : Vertex) : Vertex := { v with visited := false, path := none }

/-- An edge without its flow. -/
def Edge.noFlow (e : Edge) : Edge := { e with flow := 0 }

/-- An edge without its capacity. -/
def Edge.noCapacity (e : Edge) : Edge := { e with capacity := 0 }

/-- An edge without its active flag. -/
def Edge.noFlag (e : Edge) : Edge := { e with selected := true }

/-- An edge without its flow, its capacity and its active flag. -/
def Edge.bare (e : Edge) : Edge := { e with flow := 0, capacity := 0, selected := true }

/-- Two states of a graph that agree on everything the maps `nv` (on vertices) and `ne` (on
edges) keep. -/
def Graph.EqUpTo (nv : Vertex → Vertex) (ne : Edge → Edge) (g h : Graph) : Prop :=
  h.totalEdges = g.totalEdges ∧ h.idToVertex = g.idToVertex ∧
  h.vertexSet.map nv = g.vertexSet.map nv ∧ h.edges.map ne = g.edges.map ne

/-- Two states `(g, r)` and `(g1, r1)` of a regular/residual network that differ at most in
what a flow computation and a search overwrite: the flows of the regular edges, the
capacities of the residual edges, the visited marks, and the predecessor edges of the
residual vertices.  The active flags and the regular capacities are the same. -/
def SameNetwork (g r g1 r1 : Graph) : Prop :=
  g.EqUpTo Vertex.unmarked Edge.noFlow g1 ∧ r.EqUpTo Vertex.unsearched Edge.noCapacity r1

/-- Every edge of the graph is active. -/
def Graph.AllActive (g : Graph) : Prop := ∀ e ∈ g.edges, e.selected = true

instance (g : Graph) : Decidable g.AllActive := by
  unfold Graph.AllActive; infer_instance

/-- The active flag of the edge behind a pointer (`false` for a dangling pointer). -/
def Graph.activeAt (g : Graph) (e : Nat) : Bool :=
  ((g.edges[e]?).map (fun x => x.selected)).getD false

/-- Reachability in the graph `g` from the vertices of `S` along outgoing edges whose
pointer satisfies `usable`. -/
inductive Graph.Reaches (g : Graph) (usable : Nat → Bool) (S : List Nat) : Nat → Prop where
  | source {x : Nat} : x ∈ S → Graph.Reaches g usable S x
  | link {x y e : Nat} : Graph.Reaches g usable S x → e ∈ g.adjOf x → usable e = true →
      g.getDest e = some y → Graph.Reaches g usable S y

/-- The number of vertices without visited mark. -/
def Graph.unmarkedCount (g : Graph) : Nat :=
  ((Finset.range g.vertexSet.length).filter (fun x => g.visitedAt x = false)).card

/-- The edge pointer `i` belongs to one of the links listed in `S`: it is in the list or it
is the reverse of an edge of the list. -/
def Graph.InLinks (g : Graph) (S : List Nat) (i : Nat) : Prop :=
  i ∈ S ∨ ∃ e ∈ S, g.getReverse e = some i

instance (g : Graph) (S : List Nat) (i : Nat) : Decidable (g.InLinks S i) := by
  unfold Graph.InLinks; infer_instance

/-- The edge with its active flag overwritten when the condition holds. -/
def Edge.flagIf (s : Bool) (c : Prop) [Decidable c] (x : Edge) : Edge :=
  if c then { x with selected := s } else x

/-- The four flags of every link agree: a regular edge, its reverse and the corresponding
edge of the other graph carry the same active flag (for the reverse of the corresponding
edge take the reverse regular edge in place of the edge). -/
def FlagsAgree (g r : Graph) : Prop :=
  ∀ i j c, g.getReverse i = some j → g.getCorrespondingEdge i = some c →
    g.activeAt j = g.activeAt i ∧ r.activeAt c = g.activeAt i

/-- What `deactivateEdges` (`s = false`) and `activateEdges` (`s = true`) do for the list `S`
of pointers to regular edges, `(g, r)` being the graphs before and `(g1, r1)` after: the
edges of the links of `S` (a listed edge, its reverse, and the corresponding edge of either
in `r`) carry the flag `s` and are otherwise what they were, every other edge is what it was,
and nothing but the edges has changed. -/
def FlagsSet (s : Bool) (S : List Nat) (g r g1 r1 : Graph) : Prop :=
  g1.totalEdges = g.totalEdges ∧ g1.vertexSet = g.vertexSet ∧ g1.idToVertex = g.idToVertex ∧
  r1.totalEdges = r.totalEdges ∧ r1.vertexSet = r.vertexSet ∧ r1.idToVertex = r.idToVertex ∧
  g1.edges.length = g.edges.length ∧ r1.edges.length = r.edges.length ∧
  (∀ (i : Nat) (x : Edge), g.edges[i]? = some x →
    (g.InLinks S i → g1.edges[i]? = some { x with selected := s }) ∧
    (¬ g.InLinks S i → g1.edges[i]? = some x)) ∧
  (∀ (i : Nat) (x : Edge), r.edges[i]? = some x →
    ((∃ e, g.InLinks S e ∧ g.getCorrespondingEdge e = some i) →
      r1.edges[i]? = some { x with selected := s }) ∧
    ((¬ ∃ e, g.InLinks S e ∧ g.getCorrespondingEdge e = some i) → r1.edges[i]? = some x))

/-- The measure that bounds the run of `Graph::findEndOfLines`: every queued vertex weighs
`searchBudget d k` when it is unmarked and `searchBudget d (k + 1)` when it is marked, `k`
being the number of unmarked vertices. -/
def Graph.queueWeight (g : Graph) (d : Nat) (q : List Nat) : Nat :=
  (q.map (fun x => searchBudget d (g.unmarkedCount + (if g.visitedAt x = true then 1 else 0)))).sum

/-! ## Networks for the rankings -/

/-- A network with a station that no link reaches. -/
def islandNetwork : Option (Graph × Graph) :=
  buildNetwork ["A", "B", "C"] [standardLink "A" "B" 3]

/-- The regular and the residual graph of `islandNetwork`. -/
def islandGraphs : Graph × Graph := islandNetwork.getD (Graph.empty, Graph.empty)

/-- A network of one link that has been deactivated. -/
def closedLinkNetwork : Option (Graph × Graph) :=
  (buildNetwork ["A", "B"] [standardLink "A" "B" 5]).bind (fun p => deactivateEdges [0] p.1 p.2)

/-- A network with two stations whose reductions differ by less than the double-precision
arithmetic resolves. -/
def tiedNetwork : Option (Graph × Graph) :=
  buildNetwork ["X", "Y", "L1", "L2", "L3", "L4"]
    [standardLink "X" "L1" 1, standardLink "X" "L2" 999999999, standardLink "Y" "L3" 1,
     standardLink "Y" "L4" 1000000000]

/-- The reduction percentage of an entry in exact arithmetic, as the specification states it:
0 when the baseline is 0 and `100 * (1 - degraded / baseline)` otherwise. -/
def statedPercentage (p : String × Nat × Nat) : ℚ :=
  if p.2.1 = 0 then 0 else 100 * (1 - (p.2.2 : ℚ) / (p.2.1 : ℚ))

/-- Runs `topReductions` on a network and returns the list. -/
def afterTopReductions (net : Option (Graph × Graph)) (fuel : Nat) (edges : List Nat) :
    Option (List (String × Nat × Nat)) :=
  net.bind (fun p => (p.1.topReductions fuel edges p.2).map (fun x => x.1))

/-- Runs `incomingFlux` on a network and returns the value. -/
def afterIncomingFlux (net : Option (Graph × Graph)) (fuel : Nat) (station : String) :
    Option Nat :=
  net.bind (fun p => (p.1.incomingFlux fuel station p.2).map (fun x => x.1))

/-- The average of a group as the specification states it, in exact arithmetic: the sum of
the incoming fluxes of the members divided by their number. -/
def statedAverage (fluxes : List Nat) : ℚ := ((fluxes.sum : Nat) : ℚ) / ((fluxes.length : Nat) : ℚ)

/-- The sum of the incoming fluxes as `getAverageIncomingFlux` accumulates it in `flux_sum`. -/
def fluxSum (fluxes : List Nat) : Binary64 :=
  fluxes.foldl (fun acc f => acc.add (Binary64.ofNat f)) (Binary64.ofNat 0)

/-- Two groups of stations of `islandNetwork`. -/
def islandGroups : List (String × List Station) :=
  [("mainland", [{ name := "A", district := "d1", municipality := "m1", township := "t1",
                   line := "l1" },
                 { name := "B", district := "d1", municipality := "m2", township := "t2",
                   line := "l1" }]),
   ("island", [{ name := "C", district := "d2", municipality := "m3", township := "t3",
                 line := "l2" }])]

/-- Runs `topGroupings` on a network and returns the list. -/
def afterTopGroupings (net : Option (Graph × Graph)) (fuel : Nat)
    (group : List (String × List Station)) : Option (List (String × Binary64)) :=
  net.bind (fun p => (p.1.topGroupings fuel group p.2).map (fun x => x.1))

/-! ## The effect of a depth-first search and the ranking of pairs -/

/-- What a call of `visitedDFS(source)` does to the graph: nothing but visited marks changes,
no mark is removed, the source is marked, every newly marked vertex is reachable from the
source, and every link that leaves a newly marked vertex leads to a marked vertex. -/
def Graph.SearchedFrom (g : Graph) (source : Nat) (g1 : Graph) : Prop :=
  g.EqUpTo Vertex.unmarked (fun e => e) g1 ∧
  (∀ x, g.visitedAt x = true → g1.visitedAt x = true) ∧
  g1.visitedAt source = true ∧
  (∀ x, g1.visitedAt x = true → g.visitedAt x = false →
    g.Reaches (fun _ => true) [source] x) ∧
  (∀ x, g1.visitedAt x = true → g.visitedAt x = false →
    ∀ e ∈ g.adjOf x, ∀ y, g.getDest e = some y → g1.visitedAt y = true)

/-- One pass of the body of the inner loop of `calculateNetworkMaxFlow` on the pair `x.1`
with the flow `x.2`: the running maximum and the running list of pairs. -/
def rankStep (acc : Nat × List (String × String)) (x : (String × String) × Nat) :
    Nat × List (String × String) :=
  if x.2 > acc.1 then (x.2, [x.1])
  else if x.2 = acc.1 then (acc.1, acc.2 ++ [x.1])
  else acc

/-- The id of the vertex behind a pointer (the empty string for a dangling pointer). -/
def Graph.idAt (g : Graph) (x : Nat) : String := (g.idOf x).getD ""

/-- Runs `calculateNetworkMaxFlow` on a network and returns the pair. -/
def afterNetworkMaxFlow (net : Option (Graph × Graph)) (fuel : Nat) :
    Option (List (String × String) × Nat) :=
  net.bind (fun p => (p.1.calculateNetworkMaxFlow fuel p.2).map (fun x => x.1))

/-- The total capacity of the links that enter the vertex with the id `target` (0 when
there is no such vertex): a bound on the number of augmentations of `edmondsKarp`. -/
def Graph.inflowCapacity (g : Graph) (target : String) : Nat :=
  match g.findVertex target with
  | some tv => ((g.incomingOf tv).map g.capOf).sum
  | none => 0

/-- The sum of the capacities of all edges of the graph. -/
def Graph.totalCapacity (g : Graph) : Nat := ((List.range g.edges.length).map g.capOf).sum

/-- Runs `maxFlowDeactivatedEdges` on a network and returns the pair. -/
def afterMaxFlowDeactivatedEdges (net : Option (Graph × Graph)) (fuel : Nat)
    (selectedEdges : List Nat) (source : List String) (target : String) : Option (Nat × Nat) :=
  net.bind (fun p =>
    (p.1.maxFlowDeactivatedEdges fuel selectedEdges source target p.2).map (fun x => x.1))

/-! ## Construction of a graph as a sequence of calls -/

/-- The function `Graph::getTotalEdges`. -/
def Graph.getTotalEdges (g : Graph) : Nat := g.totalEdges

/-- The number of directed links in the graph: the number of entries of the adjacency lists
of its vertices. -/
def Graph.directedLinks (g : Graph) : Nat := (g.vertexSet.map (fun v => v.adj.length)).sum

/-- Every entry of `idToVertex` holds the pointer to a vertex of the graph that carries the
id of the entry. -/
def Graph.IdsSound (g : Graph) : Prop := ∀ p ∈ g.idToVertex, g.idOf p.2 = some p.1

instance (g : Graph) : Decidable g.IdsSound := by
  unfold Graph.IdsSound; infer_instance

/-- A call of one of the two functions that construct a graph. -/
inductive BuildCall where
  | addVertex (id : String)
  | addAndGetBidirectionalEdge (source dest : String) (c : Nat) (service : Service)
  deriving DecidableEq

/-- Makes the calls of a list in order on the graph `g`.  The number counts the calls of
`addAndGetBidirectionalEdge` that have returned a pair of links. -/
def Graph.makeCalls : List BuildCall → Graph → Nat → Option (Nat × Graph)
  | [], g, n => some (n, g)
  | BuildCall.addVertex id :: cs, g, n => Graph.makeCalls cs (g.addVertex id).2 n
  | BuildCall.addAndGetBidirectionalEdge source dest c service :: cs, g, n =>
    match g.addAndGetBidirectionalEdge source dest c service with
    | some (some _, g1) => Graph.makeCalls cs g1 (n + 1)
    | some (none, g1) => Graph.makeCalls cs g1 n
    | none => none

/-- The calls that declare the stations `A` and `B` and then `n` links between them, the
endpoints given in alternating order. -/
def manyLinks (n : Nat) : List BuildCall :=
  [BuildCall.addVertex "A", BuildCall.addVertex "B"] ++
    (List.range n).map (fun i =>
      if i % 2 = 0 then BuildCall.addAndGetBidirectionalEdge "A" "B" 1 Service.STANDARD
      else BuildCall.addAndGetBidirectionalEdge "B" "A" 1 Service.STANDARD)

/-- The graph with the stations `A` and `B` and no link. -/
def twoStations : Graph := ((Graph.empty.addVertex "A").2.addVertex "B").2

/-- The cost-per-unit the specification states for each service tier. -/
def statedCost : Service → Int
  | Service.STANDARD => 2
  | Service.ALFA_PENDULAR => 4
  | Service.VERY_EXPENSIVE => 6

/-- The graph `twoStations` with one link from `A` to `B` of capacity 7. -/
def oneLink : Option (Option (Nat × Nat) × Graph) :=
  twoStations.addAndGetBidirectionalEdge "A" "B" 7 Service.ALFA_PENDULAR

/-- The graph after the call of `oneLink`. -/
def oneLinkGraph : Graph := (oneLink.map (fun p => p.2)).getD Graph.empty

/-! ## Walks and the invariant of the breadth-first search -/

/-- The search of `Graph::path` can take the edge behind the pointer: the edge is active and
its capacity is positive. -/
def Graph.admits (r : Graph) (e : Nat) : Bool := r.activeAt e && decide (0 < r.capOf e)

/-- The vertex `x` is reached from a vertex of `S` along a walk of exactly `n` outgoing edges
whose pointers satisfy `usable`. -/
inductive Graph.ReachesIn (g : Graph) (usable : Nat → Bool) (S : List Nat) : Nat → Nat → Prop where
  | source {x : Nat} : x ∈ S → Graph.ReachesIn g usable S 0 x
  | link {n x y e : Nat} : Graph.ReachesIn g usable S n x → e ∈ g.adjOf x → usable e = true →
      g.getDest e = some y → Graph.ReachesIn g usable S (n + 1) y

/-- The invariant of the breadth-first search of `Graph::path` on the graph `r0` from the
source vertices `S`: `r` is the state of the search, `q` the queue, `c` the vertex whose
adjacency list is being scanned, `es` the edges of that list still to scan, `L` the level of
the scan and `lv` the level of every visited vertex (the length of its predecessor chain).
Sources are visited and have no predecessor; every visited vertex has a predecessor chain
of `lv` admitted edges that ends at a source, and no shorter walk reaches it; the queue
holds visited vertices in the order of their levels, which are `L` or `L + 1`; and every
admitted edge out of a visited vertex leads to a visited vertex, unless the vertex is still
queued or the edge is still to scan. -/
structure BfsInv (r0 : Graph) (S : List Nat) (r : Graph) (q : List String) (c : Nat)
    (es : List Nat) (L : Nat) (lv : Nat → Nat) : Prop where
  sources : ∀ s ∈ S, r.visitedAt s = true ∧ r.pathOf s = some none
  chain : ∀ x, r.visitedAt x = true →
    ∃ P, r.IsChain x P ∧ (∀ y ∈ chainVertices x P, r.visitedAt y = true) ∧ chainEnd x P ∈ S ∧
      (∀ p ∈ P, p.1 ∈ r0.adjOf p.2 ∧ r0.admits p.1 = true) ∧ P.length = lv x
  minimal : ∀ x, r.visitedAt x = true → ∀ n, r0.ReachesIn r0.admits S n x → lv x ≤ n
  queue : ∀ id ∈ q, ∃ x, r0.findVertex id = some x ∧ r.visitedAt x = true ∧ L ≤ lv x ∧
    lv x ≤ L + 1
  sorted : q.Pairwise (fun a b =>
    ∀ x y, r0.findVertex a = some x → r0.findVertex b = some y → lv x ≤ lv y)
  closed : ∀ x, r.visitedAt x = true → ∀ e ∈ r0.adjOf x, r0.admits e = true →
    (∃ y, r0.getDest e = some y ∧ r.visitedAt y = true) ∨
    (∃ id ∈ q, r0.findVertex id = some x) ∨ (x = c ∧ e ∈ es)

/-- What the search of `Graph::path` has established when it returns `true`: the vertex of
the target is not a source, its predecessor chain ends at a source and consists of admitted
edges, no walk from a source reaches it along fewer admitted edges, and the sources have no
predecessor. -/
def BfsFound (r0 : Graph) (S : List Nat) (target : String) (r1 : Graph) : Prop :=
  ∃ tv P, r0.findVertex target = some tv ∧ tv ∉ S ∧ r1.IsChain tv P ∧ chainEnd tv P ∈ S ∧
    (∀ p ∈ P, p.1 ∈ r0.adjOf p.2 ∧ r0.admits p.1 = true) ∧
    (∀ n, r0.ReachesIn r0.admits S n tv → P.length ≤ n) ∧
    (∀ s ∈ S, r1.pathOf s = some none)

/-- The residual graph of scenario A after the search `path({A}, D)`. -/
def scenarioASearch : Graph :=
  ((scenarioAGraphs.2.path ["A"] "D").map (fun p => p.2)).getD Graph.empty

/-! ## The effect of an augmentation on one link -/

/-- What one pass of the loop of `Graph::augmentPath` writes for the link of the residual
edge it handles, computed from the capacity `cap` and the flow `flow` of the regular edge,
the flow `revFlow` of the reverse regular edge, the capacity `revRcap` of the reverse residual
edge and the pushed amount `v`: the new flow, the new reverse flow, the new residual
capacity and the new reverse residual capacity. -/
def linkAfter (cap flow revFlow revRcap v : Nat) : Nat × Nat × Nat × Nat :=
  if uadd flow v > cap then
    (cap, usub revFlow (usub (uadd flow v) cap), 0, uadd revRcap (usub (uadd flow v) cap))
  else (uadd flow v, revFlow, usub cap (uadd flow v), uadd revRcap v)

/-- A network on which the second augmentation from `A` to `E` pushes 2 units over the link
from `B` to `D` of capacity 1, which carries one unit in the other direction. -/
def exceedsNetwork : Option (Graph × Graph) :=
  buildNetwork ["A", "B", "C", "D", "E", "F"]
    [standardLink "D" "A" 1, standardLink "C" "B" 2, standardLink "B" "D" 1,
     standardLink "F" "D" 2, standardLink "A" "C" 2, standardLink "F" "E" 2,
     standardLink "E" "B" 1]

/-- One more pass of the loop of `Graph::edmondsKarp` after `n` augmentations of a run on a
network: the regular graph and the searched residual graph before the augmentation, the
bottleneck, and the two graphs after the augmentation. -/
def nextAugmentation (net : Option (Graph × Graph)) (n : Nat) (source : List String)
    (target : String) : Option ((Graph × Graph) × Nat × (Graph × Graph)) := do
  let p ← net
  let (g0, r0) ← resetFlows p.1.vertexSet p.1 p.2
  let (_, _, g, r) ← edmondsKarpLoop source target n 0 g0 r0
  let (found, ra) ← r.path source target
  if found = true then
    let b ← ra.findBottleneck target
    let (g1, r1) ← ra.augmentPath target b g
    pure ((g, ra), b, (g1, r1))
  else none

/-- The flow of an edge and of its reverse and the residual capacity of the edge and of its
reverse, in a regular graph `g` and a residual graph `r`. -/
def linkState (g r : Graph) (e j : Nat) : Nat × Nat × Nat × Nat :=
  (g.flowOf e, g.flowOf j, r.capOf e, r.capOf j)

/-- The two graphs of `exceedsNetwork`. -/
def exceedsGraphs : Graph × Graph := exceedsNetwork.getD (Graph.empty, Graph.empty)

/-- The two graphs of `exceedsNetwork` after the reset loop of `edmondsKarp`. -/
def exceedsReset : Graph × Graph :=
  (resetFlows exceedsGraphs.1.vertexSet exceedsGraphs.1 exceedsGraphs.2).getD
    (Graph.empty, Graph.empty)

/-- The two graphs of `exceedsNetwork` after the first augmentation of the run from `A` to
`E`. -/
def exceedsFirst : Graph × Graph :=
  ((edmondsKarpLoop ["A"] "E" 1 0 exceedsReset.1 exceedsReset.2).map
    (fun x => (x.2.2.1, x.2.2.2))).getD (Graph.empty, Graph.empty)

/-- The residual graph of `exceedsNetwork` after the second search of the run from `A` to
`E`. -/
def exceedsSearch : Graph :=
  ((exceedsFirst.2.path ["A"] "E").map (fun p => p.2)).getD Graph.empty

/-! ## The bound on the number of augmentations -/

/-- The edge behind the pointer leaves a source: its origin is the vertex of one of the
source ids. -/
def Graph.leavesSource (r : Graph) (source : List String) (e : Nat) : Bool :=
  match r.getOrig e with
  | some u => decide (u ∈ source.filterMap r.findVertex)
  | none => false

/-- The total residual capacity of the active edges that leave the sources. -/
def Graph.sourceResidual (r : Graph) (source : List String) : Nat :=
  ((List.range r.edges.length).map
    (fun e => if (r.leavesSource source e && r.activeAt e) = true then r.capOf e else 0)).sum

/-- The total capacity of the active links that leave the sources: the sum of the
capacities of the regular edges whose origin is the vertex of a source id and whose residual
edge, the one `Graph::path` reads the flag of, is active (`deactivateEdges` and
`activateEdges` write the same flag in both graphs). -/
def Graph.sourceCapacity (g r : Graph) (source : List String) : Nat :=
  ((List.range g.edges.length).map
    (fun e => if (r.leavesSource source e && r.activeAt e) = true then g.capOf e else 0)).sum

/-- What a run of `edmondsKarp` keeps on the edges that leave a source, whatever the
capacities: the residual capacity is the capacity minus the flow. -/
def SourceInv (g r : Graph) (source : List String) : Prop :=
  ∀ e, e < g.edges.length → r.leavesSource source e = true →
    g.flowOf e + r.capOf e = g.capOf e

/-- A single link of capacity `2 ^ 32 - 1`, the largest `unsigned int`. -/
def maxLinkNetwork : Option (Graph × Graph) :=
  buildNetwork ["s", "t"] [standardLink "s" "t" 4294967295]

/-! # Cycle cancelling, value of the flow and station records: definitions -/

/-! ## Station records (`station.cpp`) -/

/-- The function `Station::operator=`, called on the station `a` with the argument `station`:
the value of `*this` after the four assignments of its body (`name`, `district`,
`municipality`, `line`). -/
def Station.assign (a station : Station) : Station :=
  { a with name := station.name, district := station.district,
           municipality := station.municipality, line := station.line }

/-! ## Inputs of the cycle-cancelling phase -/

/-- A link of service `VERY_EXPENSIVE`. -/
def expensiveLink (source dest : String) (capacity : Nat) : Link :=
  { source := source, dest := dest, capacity := capacity, service := Service.VERY_EXPENSIVE }

/-- The regular graph of a network after `edmondsKarp({source}, target)` and the auxiliary
graph `makeMinCostResidual` builds from it in an empty graph, as `minCostMaxFlow` has them
before its first call of `bellmanFord`. -/
def minCostStart (net : Option (Graph × Graph)) (fuel : Nat) (source target : String) :
    Option (Graph × Graph) := do
  let p ← net
  let (_, g1, _) ← p.1.edmondsKarp fuel [source] target p.2
  let minCostResidual ← g1.makeMinCostResidual Graph.empty
  pure (g1, minCostResidual)

/-- The regular and the auxiliary graph of `dearFirstNetwork` before the first call of
`bellmanFord` in `minCostMaxFlow(s, t)`. -/
def dearFirstStart : Graph × Graph :=
  (minCostStart dearFirstNetwork 2 "s" "t").getD (Graph.empty, Graph.empty)

/-- A network on which the first call of `bellmanFord` in `minCostMaxFlow(C, B)` relaxes, on
its final pass, an edge into a vertex that has no predecessor edge. -/
def nullTraceNetwork : Option (Graph × Graph) :=
  buildNetwork ["A", "B", "C", "D"]
    [expensiveLink "D" "A" 1, alfaLink "D" "B" 2, expensiveLink "C" "D" 1, alfaLink "D" "C" 2]

/-- The regular and the auxiliary graph of `nullTraceNetwork` before the first call of
`bellmanFord` in `minCostMaxFlow(C, B)`. -/
def nullTraceStart : Graph × Graph :=
  (minCostStart nullTraceNetwork 3 "C" "B").getD (Graph.empty, Graph.empty)

/-- The first two statements of `Graph::bellmanFord`: every vertex gets the cost `-1` (the
`int` value of `UINT32_MAX`) and no predecessor edge, then the source gets the cost 0. -/
def Graph.bellmanFordInit (m : Graph) (source : String) : Option Graph := do
  let m1 : Graph :=
    { m with vertexSet := m.vertexSet.map (fun v => { v with cost := -1, path := none }) }
  let s ← m1.findVertex source
  m1.updateVertex s (fun v => { v with cost := 0 })

/-- A network on which the run of `edmondsKarp` with all links active finds less flow than
the run with the first link deactivated (source `B`, target `A`). -/
def detourNetwork : Option (Graph × Graph) :=
  buildNetwork ["A", "B", "C", "D", "E", "F"]
    [standardLink "A" "F" 1, standardLink "C" "D" 1, standardLink "F" "C" 2,
     standardLink "E" "D" 2, standardLink "A" "D" 1, standardLink "B" "C" 1,
     standardLink "A" "F" 2, standardLink "E" "B" 2]

/-- Three parallel links from `s` to `t` whose capacities, all below `2 ^ 31`, add up to
`2 ^ 32`. -/
def parallelNetwork : Option (Graph × Graph) :=
  buildNetwork ["s", "t"]
    [standardLink "s" "t" 2147483647, standardLink "s" "t" 2147483647, standardLink "s" "t" 2]

/-- A flow of value 3 from `B` to `A` on `detourNetwork` that leaves the first link unused,
one amount per edge pointer. -/
def detourFlow : List Nat := [0, 0, 0, 1, 0, 2, 2, 0, 0, 1, 1, 0, 0, 2, 0, 2]

/-- The two graphs of `nullTraceNetwork`. -/
def nullTraceGraphs : Graph × Graph := nullTraceNetwork.getD (Graph.empty, Graph.empty)

/-- What `edmondsKarp({C}, B)` returns on `nullTraceNetwork`. -/
def nullTraceRun : Nat × Graph × Graph :=
  (nullTraceGraphs.1.edmondsKarp 3 ["C"] "B" nullTraceGraphs.2).getD
    (0, Graph.empty, Graph.empty)

/-! ## Deactivated links in a run of `edmondsKarp` -/

instance (g r : Graph) : Decidable (FlagsAgree g r) :=
  decidable_of_iff
    (∀ i, i < g.edges.length → ∀ j ∈ g.getReverse i, ∀ c ∈ g.getCorrespondingEdge i,
      g.activeAt j = g.activeAt i ∧ r.activeAt c = g.activeAt i)
    (by
      unfold FlagsAgree
      constructor
      · intro h i j c hj hc
        by_cases hi : i < g.edges.length
        · exact h i hi j hj c hc
        · have : g.edges[i]? = none := List.getElem?_eq_none (by omega)
          simp [Graph.getReverse, this] at hj
      · intro h i _ j hj c hc
        exact h i j c hj hc)

/-- The two graphs of `detourNetwork` after `deactivateEdges` has been called with its first
link. -/
def detourClosed : Graph × Graph :=
  (detourNetwork.bind (fun p => deactivateEdges [0] p.1 p.2)).getD (Graph.empty, Graph.empty)

/-- The two graphs of `exceedsNetwork` inside the second augmentation of the run from `A`
to `E`, after two iterations of the loop of `augmentPath`: the next edge is the edge 4 from
`B` to `D`, for which the over-capacity branch is taken. -/
def exceedsPartial : Graph × Graph :=
  ((augmentPathLoop 2 2 4 exceedsFirst.1 exceedsSearch).map (fun x => (x.2.1, x.2.2))).getD
    (Graph.empty, Graph.empty)

/-! ## The value of the flow -/

/-- The net flow out of the source set: the flow on the outgoing links of the vertices of
the source ids minus the flow on their incoming links, every vertex counted once (the flow
on a link between two sources cancels). -/
def Graph.sourceOutflow (g : Graph) (source : List String) : Int :=
  (((source.filterMap g.findVertex).dedup).map (fun x => - g.excessAt x)).sum

/-- What a run of `edmondsKarp` keeps on the edges that enter the target, whatever the
capacities: the residual capacity is the capacity minus the flow. -/
def TargetInv (g r : Graph) (target : String) : Prop :=
  ∀ e tv, e < g.edges.length → g.findVertex target = some tv → g.getDest e = some tv →
    g.flowOf e + r.capOf e = g.capOf e

/-! ## The relaxation with exact sums

The three loops of `Graph::bellmanFord` once more, with the sum `tempCost` taken in the
integers instead of `int`.  They are what the loops compute as long as no sum leaves the
range of `int`; the proofs about negative cycles are made on them and carried over. -/

/-- The loop `relaxIncoming` with the sum taken in the integers. -/
def relaxIncomingExact (i v : Nat) : List Nat → Graph → Option (Option (List Nat) × Graph)
  | [], m => some (none, m)
  | e :: es, m => do
    let edge ← m.edges[e]?
    if edge.capacity > 0 then
      let o ← m.vertexSet[edge.orig]?
      let tempCost : Int := o.cost + edge.cost
      let x ← m.vertexSet[v]?
      if tempCost < x.cost then
        if i = m.vertexSet.length then
          let negativeCycle ← traceNegativeCycle m v
          some (some negativeCycle, m)
        else
          let m1 ← m.updateVertex v (fun y => { y with cost := tempCost, path := some e })
          relaxIncomingExact i v es m1
      else relaxIncomingExact i v es m
    else relaxIncomingExact i v es m

/-- The loop `relaxVertices` with the sums taken in the integers. -/
def relaxVerticesExact (i : Nat) : Nat → Nat → Graph → Option (Option (List Nat) × Graph)
  | 0, _, m => some (none, m)
  | n + 1, v, m => do
    let x ← m.vertexSet[v]?
    let (found, m1) ← relaxIncomingExact i v x.incoming m
    match found with
    | some negativeCycle => some (some negativeCycle, m1)
    | none => relaxVerticesExact i n (v + 1) m1

/-- The loop `relaxPasses` with the sums taken in the integers. -/
def relaxPassesExact : Nat → Nat → Graph → Option (List Nat × Graph)
  | 0, _, m => some ([], m)
  | n + 1, i, m => do
    let (found, m1) ← relaxVerticesExact i m.vertexSet.length 0 m
    match found with
    | some negativeCycle => some (negativeCycle, m1)
    | none => relaxPassesExact n (i + 1) m1

/-! ## Negative cycles -/

/-- The cost field of the vertex behind a pointer (zero for a dangling pointer). -/
def Graph.costAt (m : Graph) (x : Nat) : Int := ((m.vertexSet[x]?).map (fun v => v.cost)).getD 0

/-- The cost of the edge behind a pointer (zero for a dangling pointer). -/
def Graph.edgeCost (m : Graph) (e : Nat) : Int := ((m.edges[e]?).map (fun x => x.cost)).getD 0

/-- A directed walk from the vertex `u` to the vertex `v`: a list of pointers to edges of
capacity `> 0`, the first leaving `u`, each of the others leaving the vertex the one before
it enters, the last entering `v`. -/
def Graph.IsWalk (m : Graph) : Nat → List Nat → Nat → Prop
  | u, [], v => u = v
  | u, e :: es, v =>
    m.getOrig e = some u ∧ 0 < m.capOf e ∧ ∃ w, m.getDest e = some w ∧ Graph.IsWalk m w es v

/-- The total cost of a list of edges. -/
def Graph.walkCost (m : Graph) (es : List Nat) : Int := (es.map m.edgeCost).sum

/-- The vertices a list of edges enters, in order. -/
def Graph.walkDests (m : Graph) (es : List Nat) : List Nat :=
  es.map (fun e => (m.getDest e).getD 0)

/-- The graph contains a closed directed walk of edges of capacity `> 0` whose total cost is
negative. -/
def Graph.HasNegativeCycle (m : Graph) : Prop :=
  ∃ x es, es ≠ [] ∧ m.IsWalk x es x ∧ m.walkCost es < 0

/-- The graph contains a directed cycle of edges of capacity `> 0` whose total cost is
negative: a closed walk that enters no vertex twice (and so uses no edge twice). -/
def Graph.HasSimpleNegativeCycle (m : Graph) : Prop :=
  ∃ x es, es ≠ [] ∧ m.IsWalk x es x ∧ (m.walkDests es).Nodup ∧ m.walkCost es < 0

/-- A state `m` of a run of `bellmanFord` that started in the state `m0`: the edges, the
number of vertices and the lists of incoming edges are the same. -/
structure RelaxFrame (m0 m : Graph) : Prop where
  edges : m.edges = m0.edges
  length : m.vertexSet.length = m0.vertexSet.length
  incomingOf : ∀ x, m.incomingOf x = m0.incomingOf x

/-- Every vertex cost of the state `m` is the cost some vertex had in the state `m0` plus
the cost of a walk from that vertex. -/
def Realized (m0 m : Graph) : Prop :=
  ∀ v, v < m0.vertexSet.length →
    ∃ u es, m0.IsWalk u es v ∧ m.costAt v = m0.costAt u + m0.walkCost es

/-- Every vertex cost of the state `m` is at most the cost any vertex had in the state `m0`
plus the cost of any walk of at most `k` edges from that vertex. -/
def BoundedBy (m0 m : Graph) (k : Nat) : Prop :=
  ∀ u es v, m0.IsWalk u es v → es.length ≤ k → m.costAt v ≤ m0.costAt u + m0.walkCost es

/-- The edges that satisfy `S` have been relaxed in the current pass: the cost of their head
is at most the bound of `BoundedBy` for a walk of at most `k` edges to their tail, plus their
own cost. -/
def ScannedBy (m0 m : Graph) (k : Nat) (S : Nat → Prop) : Prop :=
  ∀ e, S e → 0 < m0.capOf e → ∀ u p x v, m0.getOrig e = some x → m0.getDest e = some v →
    m0.IsWalk u p x → p.length ≤ k → m.costAt v ≤ m0.costAt u + m0.walkCost p + m0.edgeCost e

/-- No edge of capacity `> 0` can be relaxed: the vertex costs are a feasible potential. -/
def Graph.Settled (m : Graph) : Prop :=
  ∀ e x v, 0 < m.capOf e → m.getOrig e = some x → m.getDest e = some v →
    m.costAt v ≤ m.costAt x + m.edgeCost e

/-- The regular and the auxiliary graph of scenario A before the first call of `bellmanFord`
in `minCostMaxFlow(A, D)`. -/
def scenarioAStart : Graph × Graph :=
  (minCostStart scenarioA 3 "A" "D").getD (Graph.empty, Graph.empty)

/-! ## The auxiliary network of `makeMinCostResidual`: structure -/

/-- The pointers to the regular edges in the order in which the two loops of
`makeMinCostResidual` visit them: the adjacency lists of the vertices, one after the
other. -/
def Graph.mirrorOrder (g : Graph) : List Nat := g.vertexSet.flatMap (fun v => v.adj)

/-- The auxiliary edges `a` and `b` of the graph `m` represent the regular edge `e` of the
graph `g`: `a` has the endpoints and the cost of `e` and the capacity `capacity - flow`,
`b` has the endpoints swapped, the negated cost and the capacity `flow`, each is the reverse
of the other, and both have `e` as corresponding edge. -/
def Graph.Represents (g m : Graph) (e a b : Nat) : Prop :=
  a < m.edges.length ∧ b < m.edges.length ∧
  m.getOrig a = g.getOrig e ∧ m.getDest a = g.getDest e ∧
  m.getOrig b = g.getDest e ∧ m.getDest b = g.getOrig e ∧
  m.getCapacity a = some (g.capOf e - g.flowOf e) ∧ m.getCapacity b = some (g.flowOf e) ∧
  m.getCost a = g.getCost e ∧ m.getCost b = (g.getCost e).map (fun k => -k) ∧
  m.getReverse a = some b ∧ m.getReverse b = some a ∧
  m.getCorrespondingEdge a = some e ∧ m.getCorrespondingEdge b = some e

/-- A graph `h` that is the graph `g` with one more pair of edges between the vertices `v1`
and `v2`, as `addAndGetBidirectionalEdge` leaves it, whatever the corresponding-edge
pointers are: two new edges at the end of the arena, reverse of each other, appended to the
edge lists of their endpoints. -/
structure LinkJoined (g h : Graph) (v1 v2 : Nat) : Prop where
  v1_lt : v1 < g.vertexSet.length
  v2_lt : v2 < g.vertexSet.length
  edges_length : h.edges.length = g.edges.length + 2
  vertexSet_length : h.vertexSet.length = g.vertexSet.length
  idToVertex : h.idToVertex = g.idToVertex
  idOf : ∀ x, h.idOf x = g.idOf x
  getOrig : ∀ i, h.getOrig i =
    if i = g.edges.length then some v1 else if i = g.edges.length + 1 then some v2
    else g.getOrig i
  getDest : ∀ i, h.getDest i =
    if i = g.edges.length then some v2 else if i = g.edges.length + 1 then some v1
    else g.getDest i
  getReverse : ∀ i, h.getReverse i =
    if i = g.edges.length then some (g.edges.length + 1)
    else if i = g.edges.length + 1 then some g.edges.length else g.getReverse i
  mem_adjOf : ∀ x e, e ∈ h.adjOf x ↔
    (e ∈ g.adjOf x ∨ (x = v1 ∧ e = g.edges.length) ∨ (x = v2 ∧ e = g.edges.length + 1))
  mem_incomingOf : ∀ x e, e ∈ h.incomingOf x ↔
    (e ∈ g.incomingOf x ∨ (x = v2 ∧ e = g.edges.length) ∨ (x = v1 ∧ e = g.edges.length + 1))
  nodup_adjOf : ∀ x, (∀ e ∈ g.adjOf x, e < g.edges.length) → (g.adjOf x).Nodup →
    (h.adjOf x).Nodup
  nodup_incomingOf : ∀ x, (∀ e ∈ g.incomingOf x, e < g.edges.length) →
    (g.incomingOf x).Nodup → (h.incomingOf x).Nodup

/-- What the second loop of `makeMinCostResidual` keeps, `done` being the list of the
regular edges it has visited and `m` the auxiliary graph: `m` is well linked, has the
vertices of `g` with their ids at the same positions, and holds the two auxiliary edges of
the `k`-th visited edge at the positions `2 * k` and `2 * k + 1`. -/
def MirrorInv (g m : Graph) (done : List Nat) : Prop :=
  m.WellLinked ∧ m.vertexSet.length = g.vertexSet.length ∧
  (∀ y, m.idOf y = g.idOf y) ∧
  (∀ y v, g.vertexSet[y]? = some v → m.findVertex v.id = some y) ∧
  m.edges.length = 2 * done.length ∧
  ∀ k e, done[k]? = some e → g.Represents m e (2 * k) (2 * k + 1)

/-! ## A network on which the sums of `bellmanFord` leave the range of `int` -/

/-- The id of the `k`-th further station: the letter `x`, `k + 1` times. -/
def spareId (k : Nat) : String := String.mk (List.replicate (k + 1) 'x')

/-- The first `n` further stations, as `addVertex` leaves them. -/
def spareStations (n : Nat) : List Vertex :=
  (List.range n).map (fun k => Vertex.new (spareId k))

/-- The auxiliary graph of `dearFirstNetwork` after `edmondsKarp({s}, t)` with `n` further
stations that have no link, declared after `s`, `a` and `t`.  The vertices of an auxiliary
graph are the vertices of the regular graph in their order and the edges come from the
links, so the further stations are appended to the vertices and leave the edges alone. -/
def sparseNetwork (n : Nat) : Graph := copyVertices (spareStations n) dearFirstStart.2

/-- The network `sparseNetwork` with `2 ^ 30` stations in all. -/
def deepNetwork : Graph := sparseNetwork 1073741821

/-- The state of a run of `bellmanFord` on `sparseNetwork n` in which `s`, `a` and `t` have
the costs `cs`, `ca`, `ct` and the predecessor edges `ps`, `pa`, `pt`, and the further
stations still have the cost `-1` and no predecessor edge. -/
def sparseState (n : Nat) (cs ca ct : Int) (ps pa pt : Option Nat) : Graph :=
  { sparseNetwork n with
    vertexSet :=
      [{ id := "s", adj := [0, 3], visited := false, processing := false, indegree := 0,
         cost := cs, path := ps, incoming := [1, 2] },
       { id := "a", adj := [1, 2, 4, 6, 9, 11], visited := false, processing := false,
         indegree := 0, cost := ca, path := pa, incoming := [0, 3, 5, 7, 8, 10] },
       { id := "t", adj := [5, 7, 8, 10], visited := false, processing := false,
         indegree := 0, cost := ct, path := pt, incoming := [4, 6, 9, 11] }]
      ++ (spareStations n).map (fun v => { v with cost := -1, path := none }) }

/-- The network `dearFirstNetwork` with two further stations without links. -/
def dearFirstSpare : Option (Graph × Graph) :=
  buildNetwork ["s", "a", "t", spareId 0, spareId 1]
    [standardLink "s" "a" 1, alfaLink "a" "t" 1, standardLink "a" "t" 1]
/-! # Theorems -/

/-! ## Evaluations on concrete networks -/

/-- C1 (violated by the code): on `shortfallNetwork` `edmondsKarp` returns 2 for the source
`A` and the target `F`, although `shortfallFlow` is a feasible flow of value 3 on the same
network; the returned value is not the maximum flow. -/
theorem edmondsKarp_shortfall :
    afterEdmondsKarp shortfallNetwork 3 ["A"] "F"
      (fun F g _ => (F, decide (g.FeasibleFlow ["A"] "F" shortfallFlow),
        g.flowValue "F" shortfallFlow)) = some (2, true, 3) := by
  decide!

/-- C2 (violated by the code): on `cutGapNetwork` `edmondsKarp` returns 2, the vertices
reachable from `A` in the final residual graph are `A`, `B`, `E` (pointers 0, 1, 4), and the
regular links leaving that set have total capacity 3. -/
theorem edmondsKarp_cut_gap :
    afterEdmondsKarp cutGapNetwork 3 ["A"] "F"
      (fun F g r => (F, r.reachable ["A"], g.cutCapacity (r.reachable ["A"])))
      = some (2, [0, 1, 4], 3) := by
  decide!

/-- C3 (violated by the code): on `dearFirstNetwork` `minCostMaxFlow` returns `(1, 10)`,
although `cheapFlow` is a feasible flow of value 1 and cost 4. -/
theorem minCostMaxFlow_not_cheapest :
    afterMinCostMaxFlow dearFirstNetwork 17 "s" "t"
      (fun p g => (p, decide (g.FeasibleFlow ["s"] "t" cheapFlow), g.flowValue "t" cheapFlow,
        g.flowCost cheapFlow)) = some ((1, 10), true, 1, 4) := by
  decide!

/-- C8 (violated by the code): on `dearFirstNetwork` `minCostMaxFlow` returns the flow value
1, but the final regular flow is not conserved at `a` and the net flow into `t` is 2. -/
theorem minCostMaxFlow_breaks_conservation :
    afterMinCostMaxFlow dearFirstNetwork 17 "s" "t"
      (fun p g => (p.1, decide (g.Conserved ["s"] "t"), g.netInflow "t"))
      = some (1, false, 2) := by
  decide!

/-- C9 (violated by the code): on `dearFirstNetwork` the regular graph `minCostMaxFlow`
leaves behind has a link whose flow exceeds its capacity (the dearer link from `a` to `t`,
capacity 1, flow 2). -/
theorem minCostMaxFlow_breaks_capacity :
    afterMinCostMaxFlow dearFirstNetwork 17 "s" "t"
      (fun _ g => (decide g.CapacityRespected, g.edges.map (fun e => (e.capacity, e.flow))))
      = some (false, [(1, 1), (1, 0), (1, 2), (1, 0), (1, 0), (1, 0)]) := by
  decide!
/-! ## Reading and writing through pointers -/

theorem updateEdge_eq_some {g h : Graph} {e : Nat} {f : Edge → Edge}
    (hu : g.updateEdge e f = some h) :
    ∃ x, g.edges[e]? = some x ∧ h = { g with edges := g.edges.set e (f x) } := by
  unfold Graph.updateEdge at hu
  cases hx : g.edges[e]? with
  | none => simp [hx] at hu
  | some x => simp [hx] at hu; exact ⟨x, rfl, hu.symm⟩

theorem updateVertex_eq_some {g h : Graph} {v : Nat} {f : Vertex → Vertex}
    (hu : g.updateVertex v f = some h) :
    ∃ x, g.vertexSet[v]? = some x ∧ h = { g with vertexSet := g.vertexSet.set v (f x) } := by
  unfold Graph.updateVertex at hu
  cases hx : g.vertexSet[v]? with
  | none => simp [hx] at hu
  | some x => simp [hx] at hu; exact ⟨x, rfl, hu.symm⟩

theorem updateEdge_edges {g h : Graph} {e : Nat} {f : Edge → Edge}
    (hu : g.updateEdge e f = some h) (i : Nat) :
    h.edges[i]? = if i = e then (g.edges[e]?).map f else g.edges[i]? := by
  obtain ⟨x, hx, rfl⟩ := updateEdge_eq_some hu
  have hlt : e < g.edges.length := (List.getElem?_eq_some.mp hx).1
  simp only [List.getElem?_set, hx, Option.map_some']
  by_cases hie : i = e
  · subst hie; simp [hlt]
  · have : ¬ e = i := fun h => hie h.symm
    simp [hie, this]

theorem updateEdge_lt {g h : Graph} {e : Nat} {f : Edge → Edge}
    (hu : g.updateEdge e f = some h) : e < g.edges.length := by
  obtain ⟨x, hx, -⟩ := updateEdge_eq_some hu
  exact (List.getElem?_eq_some.mp hx).1

theorem updateEdge_rest {g h : Graph} {e : Nat} {f : Edge → Edge}
    (hu : g.updateEdge e f = some h) :
    h.vertexSet = g.vertexSet ∧ h.idToVertex = g.idToVertex ∧ h.totalEdges = g.totalEdges ∧
      h.edges.length = g.edges.length := by
  obtain ⟨x, hx, rfl⟩ := updateEdge_eq_some hu
  simp

theorem updateVertex_vertexSet {g h : Graph} {v : Nat} {f : Vertex → Vertex}
    (hu : g.updateVertex v f = some h) (i : Nat) :
    h.vertexSet[i]? = if i = v then (g.vertexSet[v]?).map f else g.vertexSet[i]? := by
  obtain ⟨x, hx, rfl⟩ := updateVertex_eq_some hu
  have hlt : v < g.vertexSet.length := (List.getElem?_eq_some.mp hx).1
  simp only [List.getElem?_set, hx, Option.map_some']
  by_cases hie : i = v
  · subst hie; simp [hlt]
  · have : ¬ v = i := fun h => hie h.symm
    simp [hie, this]

theorem updateVertex_rest {g h : Graph} {v : Nat} {f : Vertex → Vertex}
    (hu : g.updateVertex v f = some h) :
    h.edges = g.edges ∧ h.idToVertex = g.idToVertex ∧ h.totalEdges = g.totalEdges ∧
      h.vertexSet.length = g.vertexSet.length := by
  obtain ⟨x, hx, rfl⟩ := updateVertex_eq_some hu
  simp

/-- An update of the edges that keeps the structural fields keeps the static part. -/
theorem updateEdge_sameStatic {g h : Graph} {e : Nat} {f : Edge → Edge}
    (hu : g.updateEdge e f = some h)
    (hf : ∀ x, (f x).orig = x.orig ∧ (f x).dest = x.dest ∧ (f x).reverse = x.reverse ∧
      (f x).correspondingEdge = x.correspondingEdge) : SameStatic g h := by
  obtain ⟨hv, hid, -, hlen⟩ := updateEdge_rest hu
  have he := updateEdge_edges hu
  refine ⟨hlen, by rw [hv], hid, ?_, ?_, ?_, ?_, ?_, ?_, ?_⟩
  · intro i
    simp only [Graph.getOrig, he]
    by_cases hie : i = e
    · subst hie; cases hx : g.edges[i]? <;> simp [(hf _).1]
    · simp [hie]
  · intro i
    simp only [Graph.getDest, he]
    by_cases hie : i = e
    · subst hie; cases hx : g.edges[i]? <;> simp [(hf _).2.1]
    · simp [hie]
  · intro i
    simp only [Graph.getReverse, he]
    by_cases hie : i = e
    · subst hie; cases hx : g.edges[i]? <;> simp [(hf _).2.2.1]
    · simp [hie]
  · intro i
    simp only [Graph.getCorrespondingEdge, he]
    by_cases hie : i = e
    · subst hie; cases hx : g.edges[i]? <;> simp [(hf _).2.2.2]
    · simp [hie]
  · intro x; simp [Graph.adjOf, hv]
  · intro x; simp [Graph.incomingOf, hv]
  · intro x; simp [Graph.idOf, hv]

/-- An update of a vertex that keeps its id and its edge lists keeps the static part. -/
theorem updateVertex_sameStatic {g h : Graph} {v : Nat} {f : Vertex → Vertex}
    (hu : g.updateVertex v f = some h)
    (hf : ∀ x, (f x).id = x.id ∧ (f x).adj = x.adj ∧ (f x).incoming = x.incoming) :
    SameStatic g h := by
  obtain ⟨he, hid, -, hlen⟩ := updateVertex_rest hu
  have hvs := updateVertex_vertexSet hu
  refine ⟨by rw [he], hlen, hid, ?_, ?_, ?_, ?_, ?_, ?_, ?_⟩
  · intro i; simp [Graph.getOrig, he]
  · intro i; simp [Graph.getDest, he]
  · intro i; simp [Graph.getReverse, he]
  · intro i; simp [Graph.getCorrespondingEdge, he]
  · intro x
    simp only [Graph.adjOf, hvs]
    by_cases hxv : x = v
    · subst hxv; cases hx : g.vertexSet[x]? <;> simp [(hf _).2.1]
    · simp [hxv]
  · intro x
    simp only [Graph.incomingOf, hvs]
    by_cases hxv : x = v
    · subst hxv; cases hx : g.vertexSet[x]? <;> simp [(hf _).2.2]
    · simp [hxv]
  · intro x
    simp only [Graph.idOf, hvs]
    by_cases hxv : x = v
    · subst hxv; cases hx : g.vertexSet[x]? <;> simp [(hf _).1]
    · simp [hxv]

theorem SameStatic.refl (g : Graph) : SameStatic g g :=
  ⟨rfl, rfl, rfl, fun _ => rfl, fun _ => rfl, fun _ => rfl, fun _ => rfl, fun _ => rfl,
    fun _ => rfl, fun _ => rfl⟩

theorem SameStatic.trans {a b c : Graph} (h1 : SameStatic a b) (h2 : SameStatic b c) :
    SameStatic a c :=
  ⟨h2.edges_length.trans h1.edges_length, h2.vertexSet_length.trans h1.vertexSet_length,
    h2.idToVertex.trans h1.idToVertex, fun i => (h2.getOrig i).trans (h1.getOrig i),
    fun i => (h2.getDest i).trans (h1.getDest i),
    fun i => (h2.getReverse i).trans (h1.getReverse i),
    fun i => (h2.getCorrespondingEdge i).trans (h1.getCorrespondingEdge i),
    fun i => (h2.adjOf i).trans (h1.adjOf i),
    fun i => (h2.incomingOf i).trans (h1.incomingOf i),
    fun i => (h2.idOf i).trans (h1.idOf i)⟩

theorem SameStatic.findVertex {g h : Graph} (hs : SameStatic g h) (id : String) :
    h.findVertex id = g.findVertex id := by
  simp [Graph.findVertex, hs.idToVertex]

theorem SameStatic.wellLinked {g h : Graph} (hs : SameStatic g h) (hw : g.WellLinked) :
    h.WellLinked := by
  unfold Graph.WellLinked at hw ⊢
  simp only [hs.edges_length, hs.vertexSet_length, hs.getOrig, hs.getDest, hs.getReverse,
    hs.adjOf, hs.incomingOf, hs.idOf, hs.idToVertex]
  have hfv : h.findVertex = g.findVertex := funext hs.findVertex
  rw [hfv]
  exact hw

theorem Paired.sameStatic {g r g1 r1 : Graph} (hp : Paired g r) (hg : SameStatic g g1)
    (hr : SameStatic r r1) : Paired g1 r1 := by
  obtain ⟨h1, h2, h3, h4, h5, h6⟩ := hp
  refine ⟨hg.wellLinked h1, hr.wellLinked h2, ?_, ?_, ?_, ?_⟩
  · rw [hg.vertexSet_length, hr.vertexSet_length]; exact h3
  · rw [hg.edges_length, hr.edges_length]; exact h4
  · intro i hi
    rw [hg.edges_length] at hi
    simp only [hg.getCorrespondingEdge, hr.getCorrespondingEdge, hg.getOrig, hr.getOrig,
      hg.getDest, hr.getDest, hg.getReverse, hr.getReverse]
    exact h5 i hi
  · intro x hx
    rw [hg.vertexSet_length] at hx
    simp only [hg.idOf, hr.idOf]
    exact h6 x hx
theorem getFlow_eq_some_flowOf {g : Graph} {i f : Nat} (h : g.getFlow i = some f) :
    g.flowOf i = f := by simp [Graph.flowOf, h]

theorem getCapacity_eq_some_capOf {g : Graph} {i c : Nat} (h : g.getCapacity i = some c) :
    g.capOf i = c := by simp [Graph.capOf, h]

theorem getFlow_of_lt {g : Graph} {i : Nat} (h : i < g.edges.length) :
    g.getFlow i = some (g.flowOf i) := by
  simp [Graph.getFlow, Graph.flowOf, List.getElem?_eq_getElem h]

theorem getCapacity_of_lt {g : Graph} {i : Nat} (h : i < g.edges.length) :
    g.getCapacity i = some (g.capOf i) := by
  simp [Graph.getCapacity, Graph.capOf, List.getElem?_eq_getElem h]

theorem setFlow_spec {g h : Graph} {e v : Nat} (hs : g.setFlow e v = some h) :
    SameStatic g h ∧ h.vertexSet = g.vertexSet ∧ e < g.edges.length ∧
    (∀ i, h.capOf i = g.capOf i) ∧
    (∀ i, h.flowOf i = if i = e then v else g.flowOf i) := by
  unfold Graph.setFlow at hs
  have he := updateEdge_edges hs
  have hlt := updateEdge_lt hs
  refine ⟨updateEdge_sameStatic hs (fun x => ⟨rfl, rfl, rfl, rfl⟩), (updateEdge_rest hs).1, hlt,
    ?_, ?_⟩
  · intro i
    simp only [Graph.capOf, Graph.getCapacity, he]
    by_cases hie : i = e
    · subst hie; simp [List.getElem?_eq_getElem hlt]
    · simp [hie]
  · intro i
    simp only [Graph.flowOf, Graph.getFlow, he]
    by_cases hie : i = e
    · subst hie; simp [List.getElem?_eq_getElem hlt]
    · simp [hie]

theorem setCapacity_spec {g h : Graph} {e c : Nat} (hs : g.setCapacity e c = some h) :
    SameStatic g h ∧ h.vertexSet = g.vertexSet ∧ e < g.edges.length ∧
    (∀ i, h.flowOf i = g.flowOf i) ∧
    (∀ i, h.capOf i = if i = e then c else g.capOf i) := by
  unfold Graph.setCapacity at hs
  have he := updateEdge_edges hs
  have hlt := updateEdge_lt hs
  refine ⟨updateEdge_sameStatic hs (fun x => ⟨rfl, rfl, rfl, rfl⟩), (updateEdge_rest hs).1, hlt,
    ?_, ?_⟩
  · intro i
    simp only [Graph.flowOf, Graph.getFlow, he]
    by_cases hie : i = e
    · subst hie; simp [List.getElem?_eq_getElem hlt]
    · simp [hie]
  · intro i
    simp only [Graph.capOf, Graph.getCapacity, he]
    by_cases hie : i = e
    · subst hie; simp [List.getElem?_eq_getElem hlt]
    · simp [hie]

theorem capacityBelow_iff (g : Graph) (B : Nat) :
    g.CapacityBelow B ↔ ∀ k, k < g.edges.length → g.capOf k < B := by
  unfold Graph.CapacityBelow
  constructor
  · intro h k hk
    have := h _ (List.getElem_mem hk)
    simpa [Graph.capOf, Graph.getCapacity, List.getElem?_eq_getElem hk] using this
  · intro h e he
    obtain ⟨k, hk, rfl⟩ := List.getElem_of_mem he
    have := h k hk
    simpa [Graph.capOf, Graph.getCapacity, List.getElem?_eq_getElem hk] using this

theorem capacityRespected_iff (g : Graph) :
    g.CapacityRespected ↔ ∀ k, k < g.edges.length → g.flowOf k ≤ g.capOf k := by
  unfold Graph.CapacityRespected
  constructor
  · intro h k hk
    have := h _ (List.getElem_mem hk)
    simpa [Graph.capOf, Graph.getCapacity, Graph.flowOf, Graph.getFlow,
      List.getElem?_eq_getElem hk] using this
  · intro h e he
    obtain ⟨k, hk, rfl⟩ := List.getElem_of_mem he
    have := h k hk
    simpa [Graph.capOf, Graph.getCapacity, Graph.flowOf, Graph.getFlow,
      List.getElem?_eq_getElem hk] using this

theorem uadd_of_lt {a b : Nat} (h : a + b < 4294967296) : uadd a b = a + b := by
  unfold uadd; omega

theorem usub_of_le {a b : Nat} (h : b ≤ a) (ha : a < 4294967296) : usub a b = a - b := by
  unfold usub; omega
/-! ## One augmentation step -/

theorem augmentWithin_spec {g r g1 r1 : Graph} {i j value : Nat} (hij : i ≠ j)
    (h : augmentWithin i j i value g r = some (g1, r1)) :
    SameStatic g g1 ∧ g1.vertexSet = g.vertexSet ∧ SameStatic r r1 ∧
    r1.vertexSet = r.vertexSet ∧ (∀ k, g1.capOf k = g.capOf k) ∧
    (∀ k, g1.flowOf k = if k = i then uadd (g.flowOf i) value else g.flowOf k) ∧
    (∀ k, r1.capOf k = if k = j then uadd (r.capOf j) value
      else if k = i then usub (g.capOf i) (uadd (g.flowOf i) value) else r.capOf k) := by
  simp only [augmentWithin, Option.bind_eq_bind, Option.bind_eq_some, Option.pure_def,
    Option.some.injEq, Prod.mk.injEq] at h
  obtain ⟨f, hf, ga, hga, c1, hc1, f1, hf1, ra, hra, rc, hrc, rb, hrb, rfl, rfl⟩ := h
  obtain ⟨hs1, hv1, -, hcap1, hflow1⟩ := setFlow_spec hga
  obtain ⟨hs2, hv2, -, -, hcap2⟩ := setCapacity_spec hra
  obtain ⟨hs3, hv3, -, -, hcap3⟩ := setCapacity_spec hrb
  have e1 := getFlow_eq_some_flowOf hf
  have e2 := getCapacity_eq_some_capOf hc1
  have e3 := getFlow_eq_some_flowOf hf1
  have e4 := getCapacity_eq_some_capOf hrc
  refine ⟨hs1, hv1, hs2.trans hs3, hv3.trans hv2, hcap1, ?_, ?_⟩
  · intro k; rw [hflow1, e1]
  · intro k
    rw [hcap3, hcap2]
    rw [hcap2, if_neg (Ne.symm hij)] at e4
    rw [hcap1] at e2
    rw [hflow1, if_pos rfl] at e3
    subst e1 e2 e3 e4
    rfl

theorem augmentExceeds_spec {g r g1 r1 : Graph} {i j value : Nat} (hij : i ≠ j)
    (h : augmentExceeds i j i j value g r = some (g1, r1)) :
    SameStatic g g1 ∧ g1.vertexSet = g.vertexSet ∧ SameStatic r r1 ∧
    r1.vertexSet = r.vertexSet ∧ (∀ k, g1.capOf k = g.capOf k) ∧
    (∀ k, g1.flowOf k =
      if k = j then usub (g.flowOf j) (usub (uadd (g.flowOf i) value) (g.capOf i))
      else if k = i then g.capOf i else g.flowOf k) ∧
    (∀ k, r1.capOf k =
      if k = j then uadd (r.capOf j) (usub (uadd (g.flowOf i) value) (g.capOf i))
      else if k = i then 0 else r.capOf k) := by
  simp only [augmentExceeds, Option.bind_eq_bind, Option.bind_eq_some, Option.pure_def,
    Option.some.injEq, Prod.mk.injEq] at h
  obtain ⟨f, hf, c, hc, ga, hga, fj, hfj, c1, hc1, gb, hgb, ra, hra, rc, hrc, c2, hc2, rb, hrb,
    rfl, rfl⟩ := h
  obtain ⟨hs1, hv1, -, hcap1, hflow1⟩ := setFlow_spec hga
  obtain ⟨hs1b, hv1b, -, hcap1b, hflow1b⟩ := setFlow_spec hgb
  obtain ⟨hs2, hv2, -, -, hcap2⟩ := setCapacity_spec hra
  obtain ⟨hs3, hv3, -, -, hcap3⟩ := setCapacity_spec hrb
  have e1 := getFlow_eq_some_flowOf hf
  have e2 := getCapacity_eq_some_capOf hc
  have e3 := getFlow_eq_some_flowOf hfj
  have e4 := getCapacity_eq_some_capOf hc1
  have e5 := getCapacity_eq_some_capOf hrc
  have e6 := getCapacity_eq_some_capOf hc2
  rw [hflow1, if_neg (Ne.symm hij)] at e3
  rw [hcap1] at e4
  rw [hcap2, if_neg (Ne.symm hij)] at e5
  rw [hcap1b, hcap1] at e6
  subst e1 e2 e3 e4 e5 e6
  refine ⟨hs1.trans hs1b, hv1b.trans hv1, hs2.trans hs3, hv3.trans hv2,
    fun k => (hcap1b k).trans (hcap1 k), ?_, ?_⟩
  · intro k; rw [hflow1b, hflow1]
  · intro k; rw [hcap3, hcap2]

theorem Paired.reverse {g r : Graph} (hp : Paired g r) {i : Nat} (hi : i < g.edges.length) :
    ∃ j, j < g.edges.length ∧ j ≠ i ∧ g.getReverse i = some j ∧ g.getReverse j = some i ∧
      r.getReverse i = some j ∧ r.getCorrespondingEdge i = some i ∧
      g.getCorrespondingEdge i = some i := by
  obtain ⟨⟨h1, -, -⟩, -, -, -, h5, -⟩ := hp
  obtain ⟨-, -, j, hj, hji, hr1, hr2, -, -⟩ := h1 i hi
  obtain ⟨hc1, hc2, -, -, hrev⟩ := h5 i hi
  exact ⟨j, hj, hji, hr1, hr2, hrev ▸ hr1, hc2, hc1⟩

/-- One pass of the loop body of `augmentPath` on a paired network whose capacities are
below `2 ^ 31`, for an amount within the residual capacity of the edge: no operation wraps
around, the link invariant is kept, the flow on the link goes up by `d1`, the flow on its
reverse goes down by `d2`, with `d1 + d2 = value`, and no other residual capacity drops. -/
theorem augmentEdge_spec {g r g1 r1 : Graph} {i value : Nat} (hp : Paired g r)
    (hinv : LinkInv g r) (hcap : g.CapacityBelow 2147483648) (hi : i < g.edges.length)
    (hv : value ≤ r.capOf i) (h : augmentEdge i value g r = some (g1, r1)) :
    SameStatic g g1 ∧ g1.vertexSet = g.vertexSet ∧ SameStatic r r1 ∧
    r1.vertexSet = r.vertexSet ∧ (∀ k, g1.capOf k = g.capOf k) ∧ LinkInv g1 r1 ∧
    (∀ k, k ≠ i → r.capOf k ≤ r1.capOf k) ∧
    ∃ j d1 d2, g.getReverse i = some j ∧ j ≠ i ∧ d1 + d2 = value ∧
      g1.flowOf i = g.flowOf i + d1 ∧ g1.flowOf j + d2 = g.flowOf j ∧
      ∀ k, k ≠ i → k ≠ j → g1.flowOf k = g.flowOf k := by
  obtain ⟨j, hj, hji, hgr, hgrj, hrr, hrc, -⟩ := hp.reverse hi
  have hcapB := (capacityBelow_iff g _).mp hcap
  have hIi := hinv i j hi hgr
  have hIj := hinv j i hj hgrj
  have hci := hcapB i hi
  have hcj := hcapB j hj
  simp only [augmentEdge, Option.bind_eq_bind, Option.bind_eq_some, hrr, hrc, hgr,
    Option.some.injEq, exists_eq_left'] at h
  obtain ⟨f, hf, c, hc, h⟩ := h
  have ef := getFlow_eq_some_flowOf hf
  have ec := getCapacity_eq_some_capOf hc
  subst ef ec
  have hadd : uadd (g.flowOf i) value = g.flowOf i + value := uadd_of_lt (by omega)
  have hij : i ≠ j := Ne.symm hji
  split at h
  · rename_i hgt
    obtain ⟨hs1, hv1, hs2, hv2, hcp, hfl, hrc1⟩ := augmentExceeds_spec hij h
    rw [hadd] at hgt
    have hex : usub (uadd (g.flowOf i) value) (g.capOf i) = g.flowOf i + value - g.capOf i := by
      rw [hadd]; exact usub_of_le (by omega) (by omega)
    have hfj : usub (g.flowOf j) (g.flowOf i + value - g.capOf i)
        = g.flowOf j - (g.flowOf i + value - g.capOf i) := usub_of_le (by omega) (by omega)
    have hrj : uadd (r.capOf j) (g.flowOf i + value - g.capOf i)
        = r.capOf j + (g.flowOf i + value - g.capOf i) := uadd_of_lt (by omega)
    rw [hex] at hfl hrc1
    rw [hfj] at hfl
    rw [hrj] at hrc1
    refine ⟨hs1, hv1, hs2, hv2, hcp, ?_, ?_, j, g.capOf i - g.flowOf i,
      g.flowOf i + value - g.capOf i, hgr, hji, by omega, ?_, ?_, ?_⟩
    · intro a b ha hab
      rw [hs1.edges_length] at ha
      rw [hs1.getReverse] at hab
      have hI := hinv a b ha hab
      rw [hfl a, hfl b, hcp a, hrc1 a]
      by_cases haj : a = j
      · subst haj
        have hbi : b = i := by rw [hgrj] at hab; exact (Option.some.inj hab).symm
        subst hbi
        simp only [if_true, if_neg hij]
        omega
      · by_cases hai : a = i
        · subst hai
          have hbj : b = j := by rw [hgr] at hab; exact (Option.some.inj hab).symm
          subst hbj
          simp only [if_true, if_neg hij]
          omega
        · have hbj : b ≠ j := by
            intro hb; subst hb
            obtain ⟨⟨h1, -, -⟩, -⟩ := hp
            obtain ⟨-, -, j2, -, -, hr1, hr2, -, -⟩ := h1 a ha
            rw [hab] at hr1
            have : b = j2 := Option.some.inj hr1
            subst this
            rw [hgrj] at hr2
            exact hai (Option.some.inj hr2).symm
          have hbi : b ≠ i := by
            intro hb; subst hb
            obtain ⟨⟨h1, -, -⟩, -⟩ := hp
            obtain ⟨-, -, j2, -, -, hr1, hr2, -, -⟩ := h1 a ha
            rw [hab] at hr1
            have : b = j2 := Option.some.inj hr1
            subst this
            rw [hgr] at hr2
            exact haj (Option.some.inj hr2).symm
          simp only [if_neg haj, if_neg hai, if_neg hbj, if_neg hbi]
          exact hI
    · intro k hk
      rw [hrc1 k]
      by_cases hkj : k = j
      · subst hkj; simp only [if_true]; omega
      · simp only [if_neg hkj, if_neg hk]; exact le_refl _
    · rw [hfl i, if_neg hij, if_pos rfl]; omega
    · rw [hfl j, if_pos rfl]; omega
    · intro k hki hkj
      rw [hfl k, if_neg hkj, if_neg hki]
  · rename_i hle
    obtain ⟨hs1, hv1, hs2, hv2, hcp, hfl, hrc1⟩ := augmentWithin_spec hij h
    rw [hadd] at hle hfl hrc1
    have hsub : usub (g.capOf i) (g.flowOf i + value) = g.capOf i - (g.flowOf i + value) :=
      usub_of_le (by omega) (by omega)
    have hrj : uadd (r.capOf j) value = r.capOf j + value := uadd_of_lt (by omega)
    rw [hsub, hrj] at hrc1
    refine ⟨hs1, hv1, hs2, hv2, hcp, ?_, ?_, j, value, 0, hgr, hji, by omega, ?_, ?_, ?_⟩
    · intro a b ha hab
      rw [hs1.edges_length] at ha
      rw [hs1.getReverse] at hab
      have hI := hinv a b ha hab
      rw [hfl a, hfl b, hcp a, hrc1 a]
      by_cases haj : a = j
      · subst haj
        have hbi : b = i := by rw [hgrj] at hab; exact (Option.some.inj hab).symm
        subst hbi
        simp only [if_true, if_neg hji]
        omega
      · by_cases hai : a = i
        · subst hai
          have hbj : b = j := by rw [hgr] at hab; exact (Option.some.inj hab).symm
          subst hbj
          simp only [if_true, if_neg hij, if_neg hji]
          omega
        · have hbi : b ≠ i := by
            intro hb; subst hb
            obtain ⟨⟨h1, -, -⟩, -⟩ := hp
            obtain ⟨-, -, j2, -, -, hr1, hr2, -, -⟩ := h1 a ha
            rw [hab] at hr1
            have : b = j2 := Option.some.inj hr1
            subst this
            rw [hgr] at hr2
            exact haj (Option.some.inj hr2).symm
          simp only [if_neg haj, if_neg hai, if_neg hbi]
          exact hI
    · intro k hk
      rw [hrc1 k]
      by_cases hkj : k = j
      · subst hkj; simp only [if_true]; omega
      · simp only [if_neg hkj, if_neg hk]; exact le_refl _
    · rw [hfl i, if_pos rfl]
    · rw [hfl j, if_neg hji]; rfl
    · intro k hki hkj
      rw [hfl k, if_neg hki]
/-! ## The reset loop of `edmondsKarp` -/

theorem resetAdj_spec : ∀ (es : List Nat) (g r g1 r1 : Graph),
    (∀ i, i < g.edges.length → g.getCorrespondingEdge i = some i) →
    resetAdj es g r = some (g1, r1) →
    SameStatic g g1 ∧ g1.vertexSet = g.vertexSet ∧ SameStatic r r1 ∧
    r1.vertexSet = r.vertexSet ∧ (∀ k, g1.capOf k = g.capOf k) ∧
    (∀ k, (k ∈ es → g1.flowOf k = 0 ∧ r1.capOf k = g.capOf k) ∧
      (k ∉ es → g1.flowOf k = g.flowOf k ∧ r1.capOf k = r.capOf k)) := by
  intro es
  induction es with
  | nil =>
    intro g r g1 r1 _ h
    simp only [resetAdj, Option.some.injEq, Prod.mk.injEq] at h
    obtain ⟨rfl, rfl⟩ := h
    exact ⟨SameStatic.refl _, rfl, SameStatic.refl _, rfl, fun _ => rfl, fun k => by simp⟩
  | cons e es ih =>
    intro g r g1 r1 hcorr h
    simp only [resetAdj, Option.bind_eq_bind, Option.bind_eq_some] at h
    obtain ⟨ga, hga, c, hc, cap, hcapv, ra, hra, h⟩ := h
    obtain ⟨hs1, hv1, he, hcap1, hflow1⟩ := setFlow_spec hga
    have hce : c = e := by
      rw [hs1.getCorrespondingEdge, hcorr e he] at hc
      exact (Option.some.inj hc).symm
    subst hce
    have ecap := getCapacity_eq_some_capOf hcapv
    rw [hcap1] at ecap
    subst ecap
    obtain ⟨hs2, hv2, -, -, hcap2⟩ := setCapacity_spec hra
    have hcorr1 : ∀ i, i < ga.edges.length → ga.getCorrespondingEdge i = some i := by
      intro i hi
      rw [hs1.getCorrespondingEdge]
      exact hcorr i (hs1.edges_length ▸ hi)
    obtain ⟨hs3, hv3, hs4, hv4, hcap3, hall⟩ := ih ga ra g1 r1 hcorr1 h
    refine ⟨hs1.trans hs3, hv3.trans hv1, hs2.trans hs4, hv4.trans hv2,
      fun k => (hcap3 k).trans (hcap1 k), ?_⟩
    intro k
    obtain ⟨hin, hout⟩ := hall k
    constructor
    · intro hk
      by_cases hkes : k ∈ es
      · obtain ⟨h1, h2⟩ := hin hkes
        exact ⟨h1, by rw [h2, hcap1]⟩
      · obtain ⟨h1, h2⟩ := hout hkes
        have hke : k = c := by
          rcases List.mem_cons.mp hk with h | h
          · exact h
          · exact absurd h hkes
        subst hke
        rw [h1, h2, hflow1, hcap2]
        simp
    · intro hk
      have hkc : k ≠ c := fun h => hk (h ▸ List.mem_cons_self _ _)
      have hkes : k ∉ es := fun h => hk (List.mem_cons_of_mem _ h)
      obtain ⟨h1, h2⟩ := hout hkes
      rw [h1, h2, hflow1, hcap2]
      simp [hkc]

theorem resetFlows_spec : ∀ (vs : List Vertex) (g r g1 r1 : Graph),
    (∀ i, i < g.edges.length → g.getCorrespondingEdge i = some i) →
    resetFlows vs g r = some (g1, r1) →
    SameStatic g g1 ∧ g1.vertexSet = g.vertexSet ∧ SameStatic r r1 ∧
    r1.vertexSet = r.vertexSet ∧ (∀ k, g1.capOf k = g.capOf k) ∧
    (∀ k, ((∃ v ∈ vs, k ∈ v.adj) → g1.flowOf k = 0 ∧ r1.capOf k = g.capOf k) ∧
      ((¬ ∃ v ∈ vs, k ∈ v.adj) → g1.flowOf k = g.flowOf k ∧ r1.capOf k = r.capOf k)) := by
  intro vs
  induction vs with
  | nil =>
    intro g r g1 r1 _ h
    simp only [resetFlows, Option.some.injEq, Prod.mk.injEq] at h
    obtain ⟨rfl, rfl⟩ := h
    exact ⟨SameStatic.refl _, rfl, SameStatic.refl _, rfl, fun _ => rfl, fun k => by simp⟩
  | cons v vs ih =>
    intro g r g1 r1 hcorr h
    simp only [resetFlows, Option.bind_eq_bind, Option.bind_eq_some] at h
    obtain ⟨⟨ga, ra⟩, hadj, h⟩ := h
    obtain ⟨hs1, hv1, hs2, hv2, hcap1, hall1⟩ := resetAdj_spec _ _ _ _ _ hcorr hadj
    have hcorr1 : ∀ i, i < ga.edges.length → ga.getCorrespondingEdge i = some i := by
      intro i hi
      rw [hs1.getCorrespondingEdge]
      exact hcorr i (hs1.edges_length ▸ hi)
    obtain ⟨hs3, hv3, hs4, hv4, hcap3, hall⟩ := ih ga ra g1 r1 hcorr1 h
    refine ⟨hs1.trans hs3, hv3.trans hv1, hs2.trans hs4, hv4.trans hv2,
      fun k => (hcap3 k).trans (hcap1 k), ?_⟩
    intro k
    obtain ⟨hin, hout⟩ := hall k
    constructor
    · intro hk
      by_cases hkvs : ∃ w ∈ vs, k ∈ w.adj
      · obtain ⟨h1, h2⟩ := hin hkvs
        exact ⟨h1, by rw [h2, hcap1]⟩
      · obtain ⟨w, hw, hkw⟩ := hk
        have hwv : w = v := by
          rcases List.mem_cons.mp hw with h | h
          · exact h
          · exact absurd ⟨w, h, hkw⟩ hkvs
        subst hwv
        obtain ⟨h1, h2⟩ := (hall1 k).1 hkw
        obtain ⟨h3, h4⟩ := hout hkvs
        exact ⟨h3.trans h1, h4.trans h2⟩
    · intro hk
      have hkv : k ∉ v.adj := fun h => hk ⟨v, List.mem_cons_self _ _, h⟩
      have hkvs : ¬ ∃ w ∈ vs, k ∈ w.adj := fun ⟨w, hw, hkw⟩ =>
        hk ⟨w, List.mem_cons_of_mem _ hw, hkw⟩
      obtain ⟨h1, h2⟩ := (hall1 k).2 hkv
      obtain ⟨h3, h4⟩ := hout hkvs
      exact ⟨h3.trans h1, h4.trans h2⟩

/-- After the reset loop of `edmondsKarp` on a paired network every flow is zero and
every residual capacity equals the capacity of the regular link. -/
theorem resetFlows_paired {g r g1 r1 : Graph} (hp : Paired g r)
    (h : resetFlows g.vertexSet g r = some (g1, r1)) :
    SameStatic g g1 ∧ g1.vertexSet = g.vertexSet ∧ SameStatic r r1 ∧
    r1.vertexSet = r.vertexSet ∧ (∀ k, g1.capOf k = g.capOf k) ∧
    (∀ k, k < g.edges.length → g1.flowOf k = 0 ∧ r1.capOf k = g.capOf k) := by
  have hcorr : ∀ i, i < g.edges.length → g.getCorrespondingEdge i = some i :=
    fun i hi => (hp.2.2.2.2.1 i hi).1
  obtain ⟨hs1, hv1, hs2, hv2, hcap, hall⟩ := resetFlows_spec _ _ _ _ _ hcorr h
  refine ⟨hs1, hv1, hs2, hv2, hcap, ?_⟩
  intro k hk
  apply (hall k).1
  obtain ⟨⟨h1, -, -⟩, -⟩ := hp
  obtain ⟨⟨u, hu, -, hmem⟩, -, -⟩ := h1 k hk
  refine ⟨g.vertexSet[u], List.getElem_mem hu, ?_⟩
  simpa [Graph.adjOf, List.getElem?_eq_getElem hu] using hmem

theorem linkInv_of_reset {g r : Graph}
    (h : ∀ k, k < g.edges.length → g.flowOf k = 0 ∧ r.capOf k = g.capOf k) : LinkInv g r := by
  intro i j hi _
  obtain ⟨h1, h2⟩ := h i hi
  rw [h1, h2]
  omega
/-! ## The search of `Graph::path` -/

theorem pathOf_updateVertex {g h : Graph} {v : Nat} {f : Vertex → Vertex}
    (hu : g.updateVertex v f = some h) (x : Nat) :
    h.pathOf x = if x = v then (g.vertexSet[v]?).map (fun a => (f a).path) else g.pathOf x := by
  simp only [Graph.pathOf, updateVertex_vertexSet hu]
  by_cases hx : x = v
  · subst hx; cases g.vertexSet[x]? <;> simp
  · simp [hx]

theorem visitedAt_updateVertex {g h : Graph} {v : Nat} {f : Vertex → Vertex}
    (hu : g.updateVertex v f = some h) (x : Nat) :
    h.visitedAt x = if x = v then ((g.vertexSet[v]?).map (fun a => (f a).visited)).getD false
      else g.visitedAt x := by
  simp only [Graph.visitedAt, updateVertex_vertexSet hu]
  by_cases hx : x = v
  · subst hx; cases g.vertexSet[x]? <;> simp
  · simp [hx]

theorem visitedAt_lt {g : Graph} {x : Nat} (h : g.visitedAt x = true) :
    x < g.vertexSet.length := by
  by_contra hx
  have : g.vertexSet[x]? = none := List.getElem?_eq_none (by omega)
  simp [Graph.visitedAt, this] at h

theorem IsChain.frame {r h : Graph} (ho : ∀ i, h.getOrig i = r.getOrig i)
    (hd : ∀ i, h.getDest i = r.getDest i) :
    ∀ (P : List (Nat × Nat)) (x : Nat), r.IsChain x P →
      (∀ y ∈ chainVertices x P, h.pathOf y = r.pathOf y) → h.IsChain x P := by
  intro P
  induction P with
  | nil =>
    intro x hc hp
    simp only [Graph.IsChain] at hc ⊢
    rw [hp x (by simp [chainVertices])]; exact hc
  | cons p rest ih =>
    intro x hc hp
    simp only [Graph.IsChain] at hc ⊢
    obtain ⟨h1, h2, h3, h4⟩ := hc
    refine ⟨by rw [hp x (by simp [chainVertices])]; exact h1, by rw [hd]; exact h2,
      by rw [ho]; exact h3, ih _ h4 ?_⟩
    intro y hy
    apply hp
    simp only [chainVertices, List.map_cons, List.mem_cons] at hy ⊢
    rcases hy with hy | hy
    · exact Or.inr (Or.inl hy)
    · exact Or.inr (Or.inr hy)

theorem resetSearch_spec (r : Graph) :
    SameStatic r r.resetSearch ∧ r.resetSearch.edges = r.edges ∧
    (∀ x, r.resetSearch.visitedAt x = false) ∧
    (∀ x, x < r.vertexSet.length → r.resetSearch.pathOf x = some none) := by
  refine ⟨⟨rfl, by simp [Graph.resetSearch], rfl, fun _ => rfl, fun _ => rfl, fun _ => rfl,
    fun _ => rfl, ?_, ?_, ?_⟩, rfl, ?_, ?_⟩
  · intro x
    simp only [Graph.adjOf, Graph.resetSearch, List.getElem?_map]
    cases r.vertexSet[x]? <;> simp
  · intro x
    simp only [Graph.incomingOf, Graph.resetSearch, List.getElem?_map]
    cases r.vertexSet[x]? <;> simp
  · intro x
    simp only [Graph.idOf, Graph.resetSearch, List.getElem?_map]
    cases r.vertexSet[x]? <;> simp
  · intro x
    simp only [Graph.visitedAt, Graph.resetSearch, List.getElem?_map]
    cases r.vertexSet[x]? <;> simp
  · intro x hx
    simp only [Graph.pathOf, Graph.resetSearch, List.getElem?_map,
      List.getElem?_eq_getElem hx]
    simp

theorem pushSources_spec : ∀ (src : List String) (a b : Graph) (q q1 : List String),
    Graph.pushSources src a q = some (b, q1) →
    q1 = q ++ src ∧ SameStatic a b ∧ b.edges = a.edges ∧ (∀ x, b.pathOf x = a.pathOf x) ∧
    (∀ x, b.visitedAt x = true ↔
      (a.visitedAt x = true ∨ ∃ s ∈ src, a.findVertex s = some x)) := by
  intro src
  induction src with
  | nil =>
    intro a b q q1 h
    simp only [Graph.pushSources, Option.some.injEq, Prod.mk.injEq] at h
    obtain ⟨rfl, rfl⟩ := h
    exact ⟨by simp, SameStatic.refl _, rfl, fun _ => rfl, fun x => by simp⟩
  | cons s rest ih =>
    intro a b q q1 h
    simp only [Graph.pushSources, Option.bind_eq_bind, Option.bind_eq_some] at h
    obtain ⟨v, hv, a1, ha1, h⟩ := h
    obtain ⟨hq, hs, he, hpath, hvis⟩ := ih _ _ _ _ h
    have hs1 : SameStatic a a1 := updateVertex_sameStatic ha1 (fun x => ⟨rfl, rfl, rfl⟩)
    have hvlt : v < a.vertexSet.length := by
      obtain ⟨x, hx, -⟩ := updateVertex_eq_some ha1
      exact (List.getElem?_eq_some.mp hx).1
    refine ⟨by rw [hq]; simp, hs1.trans hs, he.trans (updateVertex_rest ha1).1, ?_, ?_⟩
    · intro x
      rw [hpath, pathOf_updateVertex ha1]
      by_cases hx : x = v
      · subst hx; simp [Graph.pathOf, List.getElem?_eq_getElem hvlt]
      · simp [hx]
    · intro x
      rw [hvis, visitedAt_updateVertex ha1]
      have hfv : ∀ t, a1.findVertex t = a.findVertex t := hs1.findVertex
      simp only [hfv]
      by_cases hx : x = v
      · subst hx
        simp only [if_true, List.getElem?_eq_getElem hvlt, Option.map_some', Option.getD_some,
          true_or, true_iff]
        exact Or.inr ⟨s, List.mem_cons_self _ _, hv⟩
      · simp only [if_neg hx, List.mem_cons]
        constructor
        · rintro (h1 | ⟨t, ht, hft⟩)
          · exact Or.inl h1
          · exact Or.inr ⟨t, Or.inr ht, hft⟩
        · rintro (h1 | ⟨t, ht | ht, hft⟩)
          · exact Or.inl h1
          · subst ht; rw [hv] at hft; exact absurd (Option.some.inj hft).symm hx
          · exact Or.inr ⟨t, ht, hft⟩
/-- The effect of discovering the vertex `d` through the edge `e` out of the visited
vertex `c`: the search invariant is kept. -/
theorem searchInv_discover {r r1 : Graph} {S : List Nat} {e c d : Nat}
    (hinv : SearchInv r S) (hc : r.visitedAt c = true) (hd : r.visitedAt d = false)
    (he : e < r.edges.length) (hcap : 0 < r.capOf e) (ho : r.getOrig e = some c)
    (hde : r.getDest e = some d)
    (hu : r.updateVertex d (fun x => { x with visited := true, path := some e }) = some r1) :
    SearchInv r1 S ∧ (∀ y, r.visitedAt y = true → r1.visitedAt y = true) ∧
      r1.visitedAt d = true := by
  have hedges : r1.edges = r.edges := (updateVertex_rest hu).1
  have hdlt : d < r.vertexSet.length := by
    obtain ⟨x, hx, -⟩ := updateVertex_eq_some hu
    exact (List.getElem?_eq_some.mp hx).1
  have hvis : ∀ y, r1.visitedAt y = if y = d then true else r.visitedAt y := by
    intro y
    rw [visitedAt_updateVertex hu]
    by_cases hy : y = d
    · subst hy; simp [List.getElem?_eq_getElem hdlt]
    · simp [hy]
  have hpath : ∀ y, r1.pathOf y = if y = d then some (some e) else r.pathOf y := by
    intro y
    rw [pathOf_updateVertex hu]
    by_cases hy : y = d
    · subst hy; simp [List.getElem?_eq_getElem hdlt]
    · simp [hy]
  have hoo : ∀ i, r1.getOrig i = r.getOrig i := fun i => by simp [Graph.getOrig, hedges]
  have hdd : ∀ i, r1.getDest i = r.getDest i := fun i => by simp [Graph.getDest, hedges]
  have hcc : ∀ i, r1.capOf i = r.capOf i := fun i => by
    simp [Graph.capOf, Graph.getCapacity, hedges]
  have hmono : ∀ y, r.visitedAt y = true → r1.visitedAt y = true := by
    intro y hy; rw [hvis]; split <;> simp [hy]
  have hkeep : ∀ (x : Nat) (P : List (Nat × Nat)), r.IsChain x P →
      (∀ y ∈ chainVertices x P, r.visitedAt y = true) → r1.IsChain x P := by
    intro x P hch hall
    apply IsChain.frame hoo hdd P x hch
    intro y hy
    rw [hpath]
    have : y ≠ d := by
      intro hyd; subst hyd
      rw [hall y hy] at hd
      exact Bool.noConfusion hd
    simp [this]
  refine ⟨?_, hmono, by rw [hvis]; simp⟩
  intro x hx
  by_cases hxd : x = d
  · subst hxd
    obtain ⟨P, hch, hnd, hall, hend, hedg⟩ := hinv c hc
    refine ⟨(e, c) :: P, ?_, ?_, ?_, ?_, ?_⟩
    · simp only [Graph.IsChain]
      exact ⟨by rw [hpath]; simp, by rw [hdd]; exact hde, by rw [hoo]; exact ho,
        hkeep c P hch hall⟩
    · have hnot : x ∉ chainVertices c P := by
        intro hmem
        rw [hall x hmem] at hd
        exact Bool.noConfusion hd
      simp only [chainVertices, List.map_cons, List.nodup_cons] at hnd ⊢
      simp only [chainVertices, List.mem_cons] at hnot
      exact ⟨by simpa using hnot, hnd⟩
    · intro y hy
      simp only [chainVertices, List.map_cons, List.mem_cons] at hy
      rcases hy with hy | hy | hy
      · rw [hy]; exact hx
      · rw [hy]; exact hmono c hc
      · exact hmono y (hall y (by simp [chainVertices, hy]))
    · simpa [chainEnd] using hend
    · intro p hp
      rw [hedges, hcc]
      rcases List.mem_cons.mp hp with hp | hp
      · subst hp; exact ⟨he, hcap⟩
      · exact hedg p hp
  · have hx0 : r.visitedAt x = true := by
      rw [hvis, if_neg hxd] at hx; exact hx
    obtain ⟨P, hch, hnd, hall, hend, hedg⟩ := hinv x hx0
    refine ⟨P, hkeep x P hch hall, hnd, fun y hy => hmono y (hall y hy), hend, ?_⟩
    intro p hp
    rw [hedges, hcc]
    exact hedg p hp

theorem Graph.WellLinked.findVertex_id {r : Graph} (hw : r.WellLinked) {x : Nat} {v : Vertex}
    (hx : r.vertexSet[x]? = some v) : r.findVertex v.id = some x := by
  have hlt : x < r.vertexSet.length := (List.getElem?_eq_some.mp hx).1
  have := (hw.2.1 x hlt).2.2.2.2
  simpa [Graph.idOf, hx] using this

theorem Graph.WellLinked.findVertex_sound {r : Graph} (hw : r.WellLinked) {x : Nat} {id : String}
    (h : r.findVertex id = some x) : r.idOf x = some id := by
  unfold Graph.findVertex at h
  have hmem : (id, x) ∈ r.idToVertex := by
    obtain ⟨l1, l2, hl, -⟩ := List.lookup_eq_some_iff.mp h
    rw [hl]
    simp
  exact hw.2.2 _ hmem
theorem QueueInv.mono {r r1 : Graph} {q : List String} (hq : QueueInv r q)
    (hs : SameStatic r r1) (hm : ∀ y, r.visitedAt y = true → r1.visitedAt y = true) :
    QueueInv r1 q := by
  intro id hid
  obtain ⟨x, hx, hv⟩ := hq id hid
  exact ⟨x, by rw [hs.findVertex]; exact hx, hm x hv⟩

/-- The adjacency loop of `Graph::path` keeps the invariants of the search; when it leaves
through `return true` the target vertex has been visited. -/
theorem pathAdj_spec (target : String) (S : List Nat) :
    ∀ (es : List Nat) (r r1 : Graph) (q q1 : List String) (found : Bool) (c : Nat),
      r.WellLinked → SearchInv r S → QueueInv r q → r.visitedAt c = true →
      (∀ e ∈ es, e < r.edges.length ∧ r.getOrig e = some c) →
      Graph.pathAdj target es r q = some (found, r1, q1) →
      SameStatic r r1 ∧ r1.edges = r.edges ∧ SearchInv r1 S ∧ QueueInv r1 q1 ∧
      (∀ y, r.visitedAt y = true → r1.visitedAt y = true) ∧
      (found = true → ∃ tv, r1.findVertex target = some tv ∧ r1.visitedAt tv = true) := by
  intro es
  induction es with
  | nil =>
    intro r r1 q q1 found c _ hinv hq _ _ h
    simp only [Graph.pathAdj, Option.some.injEq, Prod.mk.injEq] at h
    obtain ⟨rfl, rfl, rfl⟩ := h
    exact ⟨SameStatic.refl _, rfl, hinv, hq, fun _ h => h, fun h => Bool.noConfusion h⟩
  | cons e es ih =>
    intro r r1 q q1 found c hw hinv hq hc hes h
    simp only [Graph.pathAdj, Option.bind_eq_bind, Option.bind_eq_some] at h
    obtain ⟨edge, hedge, d, hd, h⟩ := h
    have hes' : ∀ e ∈ es, e < r.edges.length ∧ r.getOrig e = some c :=
      fun a ha => hes a (List.mem_cons_of_mem _ ha)
    split at h
    · rename_i hcond
      simp only [Bool.and_eq_true, Bool.not_eq_true', decide_eq_true_eq] at hcond
      obtain ⟨⟨hnv, hpos⟩, -⟩ := hcond
      simp only [Option.bind_eq_some] at h
      obtain ⟨ra, hra, h⟩ := h
      obtain ⟨he, ho⟩ := hes e (List.mem_cons_self _ _)
      have hdv : r.visitedAt edge.dest = false := by simp [Graph.visitedAt, hd, hnv]
      have hcapO : 0 < r.capOf e := by simpa [Graph.capOf, Graph.getCapacity, hedge] using hpos
      have hde : r.getDest e = some edge.dest := by simp [Graph.getDest, hedge]
      obtain ⟨hinv1, hmono, hvd⟩ := searchInv_discover hinv hc hdv he hcapO ho hde hra
      have hs1 : SameStatic r ra := updateVertex_sameStatic hra (fun x => ⟨rfl, rfl, rfl⟩)
      have hed1 : ra.edges = r.edges := (updateVertex_rest hra).1
      have hfind : ra.findVertex d.id = some edge.dest := by
        rw [hs1.findVertex]; exact hw.findVertex_id hd
      have hq1 : QueueInv ra (q ++ [d.id]) := by
        intro id hid
        rcases List.mem_append.mp hid with hid | hid
        · exact (hq.mono hs1 hmono) id hid
        · simp only [List.mem_singleton] at hid
          subst hid
          exact ⟨edge.dest, hfind, hvd⟩
      split at h
      · rename_i htarget
        simp only [Option.some.injEq, Prod.mk.injEq] at h
        obtain ⟨rfl, rfl, rfl⟩ := h
        refine ⟨hs1, hed1, hinv1, hq1, hmono, fun _ => ⟨edge.dest, ?_, hvd⟩⟩
        rw [← htarget]; exact hfind
      · have hes1 : ∀ a ∈ es, a < ra.edges.length ∧ ra.getOrig a = some c := by
          intro a ha
          rw [hs1.edges_length, hs1.getOrig]
          exact hes' a ha
        obtain ⟨hs2, hed2, hinv2, hq2, hmono2, hfound⟩ :=
          ih ra r1 _ q1 found c (hs1.wellLinked hw) hinv1 hq1 (hmono c hc) hes1 h
        exact ⟨hs1.trans hs2, hed2.trans hed1, hinv2, hq2,
          fun y hy => hmono2 y (hmono y hy), hfound⟩
    · exact ih r r1 q q1 found c hw hinv hq hc hes' h

/-- The queue loop of `Graph::path` keeps the invariants of the search; when it returns
`true` the target vertex has been visited. -/
theorem pathLoop_spec (target : String) (S : List Nat) :
    ∀ (fuel : Nat) (r r1 : Graph) (q : List String) (found : Bool),
      r.WellLinked → SearchInv r S → QueueInv r q →
      Graph.pathLoop target fuel r q = some (found, r1) →
      SameStatic r r1 ∧ r1.edges = r.edges ∧ SearchInv r1 S ∧
      (found = true → ∃ tv, r1.findVertex target = some tv ∧ r1.visitedAt tv = true) := by
  intro fuel
  induction fuel with
  | zero => intro r r1 q found _ _ _ h; simp [Graph.pathLoop] at h
  | succ fuel ih =>
    intro r r1 q found hw hinv hq h
    cases q with
    | nil =>
      simp only [Graph.pathLoop, Option.some.injEq, Prod.mk.injEq] at h
      obtain ⟨rfl, rfl⟩ := h
      exact ⟨SameStatic.refl _, rfl, hinv, fun h => Bool.noConfusion h⟩
    | cons front q =>
      simp only [Graph.pathLoop, Option.bind_eq_bind, Option.bind_eq_some] at h
      obtain ⟨c, hc, cv, hcv, ⟨f1, ra, qa⟩, hadj, h⟩ := h
      obtain ⟨x, hx, hvx⟩ := hq front (List.mem_cons_self _ _)
      have hxc : x = c := by rw [hc] at hx; exact (Option.some.inj hx).symm
      subst hxc
      have hclt : x < r.vertexSet.length := (List.getElem?_eq_some.mp hcv).1
      have hes : ∀ e ∈ cv.adj, e < r.edges.length ∧ r.getOrig e = some x := by
        have := (hw.2.1 x hclt).1
        simpa [Graph.adjOf, hcv] using this
      have hq' : QueueInv r q := fun id hid => hq id (List.mem_cons_of_mem _ hid)
      obtain ⟨hs1, hed1, hinv1, hq1, -, hfound⟩ :=
        pathAdj_spec target S cv.adj r ra q qa f1 x hw hinv hq' hvx hes hadj
      cases f1 with
      | true =>
        simp only [if_true, Option.some.injEq, Prod.mk.injEq] at h
        obtain ⟨rfl, rfl⟩ := h
        exact ⟨hs1, hed1, hinv1, hfound⟩
      | false =>
        simp only [Bool.false_eq_true, if_false] at h
        obtain ⟨hs2, hed2, hinv2, hfound2⟩ :=
          ih ra r1 qa found (hs1.wellLinked hw) hinv1 hq1 h
        exact ⟨hs1.trans hs2, hed2.trans hed1, hinv2, hfound2⟩

/-- The function `Graph::path` changes only the search fields of the vertices; when it
returns `true` the target vertex has a predecessor chain without repeated vertex, through
edges of positive capacity, that ends at the vertex of one of the source ids. -/
theorem path_spec {r r1 : Graph} {source : List String} {target : String} {found : Bool}
    (hw : r.WellLinked) (h : r.path source target = some (found, r1)) :
    SameStatic r r1 ∧ r1.edges = r.edges ∧
    (found = true → ∃ tv P, r1.findVertex target = some tv ∧ r1.IsChain tv P ∧
      (chainVertices tv P).Nodup ∧ (∃ s ∈ source, r.findVertex s = some (chainEnd tv P)) ∧
      ∀ p ∈ P, p.1 < r1.edges.length ∧ 0 < r1.capOf p.1) := by
  simp only [Graph.path, Option.bind_eq_bind, Option.bind_eq_some] at h
  obtain ⟨⟨ra, q⟩, hpush, h⟩ := h
  obtain ⟨hs0, hed0, hvis0, hpath0⟩ := resetSearch_spec r
  obtain ⟨hq, hs1, hed1, hpath1, hvis1⟩ := pushSources_spec _ _ _ _ _ hpush
  have hfv : ∀ t, r.resetSearch.findVertex t = r.findVertex t := hs0.findVertex
  let S : List Nat := source.filterMap r.findVertex
  have hmemS : ∀ x, x ∈ S ↔ ∃ s ∈ source, r.findVertex s = some x := by
    intro x; simp [S, List.mem_filterMap]
  have hvisS : ∀ x, ra.visitedAt x = true ↔ x ∈ S := by
    intro x
    rw [hvis1, hmemS]
    simp only [hvis0, Bool.false_eq_true, false_or, hfv]
  have hinv : SearchInv ra S := by
    intro x hx
    have hlt : x < ra.vertexSet.length := visitedAt_lt hx
    rw [hs1.vertexSet_length, hs0.vertexSet_length] at hlt
    refine ⟨[], ?_, by simp [chainVertices], ?_, ?_, by simp⟩
    · simp only [Graph.IsChain]; rw [hpath1]; exact hpath0 x hlt
    · intro y hy
      simp only [chainVertices, List.map_nil, List.mem_singleton] at hy
      rw [hy]; exact hx
    · simpa [chainEnd] using (hvisS x).mp hx
  have hqinv : QueueInv ra q := by
    intro id hid
    rw [hq, List.nil_append] at hid
    have hsome : ∃ x, r.findVertex id = some x := by
      clear h hinv hvisS
      have : ∀ (src : List String) (a b : Graph) (q q1 : List String),
          Graph.pushSources src a q = some (b, q1) → ∀ s ∈ src, ∃ x, a.findVertex s = some x := by
        intro src
        induction src with
        | nil => intro a b q q1 _ s hs; simp at hs
        | cons t rest ih =>
          intro a b q q1 hp s hs
          simp only [Graph.pushSources, Option.bind_eq_bind, Option.bind_eq_some] at hp
          obtain ⟨v, hv, a1, ha1, hp⟩ := hp
          rcases List.mem_cons.mp hs with hs | hs
          · subst hs; exact ⟨v, hv⟩
          · obtain ⟨x, hx⟩ := ih _ _ _ _ hp s hs
            have hs1 : SameStatic a a1 := updateVertex_sameStatic ha1 (fun x => ⟨rfl, rfl, rfl⟩)
            exact ⟨x, by rw [← hs1.findVertex]; exact hx⟩
      obtain ⟨x, hx⟩ := this _ _ _ _ _ hpush id hid
      exact ⟨x, by rw [← hfv]; exact hx⟩
    obtain ⟨x, hx⟩ := hsome
    refine ⟨x, by rw [hs1.findVertex, hfv]; exact hx, ?_⟩
    rw [hvisS, hmemS]
    exact ⟨id, hid, hx⟩
  have hwa : ra.WellLinked := (hs0.trans hs1).wellLinked hw
  obtain ⟨hs2, hed2, hinv2, hfound⟩ := pathLoop_spec target S _ ra r1 q found hwa hinv hqinv h
  refine ⟨(hs0.trans hs1).trans hs2, hed2.trans (hed1.trans hed0), ?_⟩
  intro hf
  obtain ⟨tv, htv, hvt⟩ := hfound hf
  obtain ⟨P, hch, hnd, -, hend, hedg⟩ := hinv2 tv hvt
  exact ⟨tv, P, htv, hch, hnd, (hmemS _).mp hend, hedg⟩
/-! ## Bottleneck along a predecessor chain -/

theorem findBottleneckLoop_spec (r : Graph) :
    ∀ (P : List (Nat × Nat)) (x fuel B b : Nat), r.IsChain x P →
      Graph.findBottleneckLoop fuel r x B = some b →
      b ≤ B ∧ ∀ p ∈ P, b ≤ r.capOf p.1 := by
  intro P
  induction P with
  | nil =>
    intro x fuel B b hch h
    cases fuel with
    | zero => simp [Graph.findBottleneckLoop] at h
    | succ fuel =>
      simp only [Graph.IsChain, Graph.pathOf, Option.map_eq_some'] at hch
      obtain ⟨cv, hcv, hp⟩ := hch
      simp only [Graph.findBottleneckLoop, Option.bind_eq_bind, hcv, Option.some_bind, hp,
        Option.some.injEq] at h
      subst h
      exact ⟨le_refl _, by simp⟩
  | cons p rest ih =>
    intro x fuel B b hch h
    cases fuel with
    | zero => simp [Graph.findBottleneckLoop] at h
    | succ fuel =>
      simp only [Graph.IsChain, Graph.pathOf, Option.map_eq_some'] at hch
      obtain ⟨⟨cv, hcv, hp⟩, -, ho, hrest⟩ := hch
      simp only [Graph.findBottleneckLoop, Option.bind_eq_bind, hcv, Option.some_bind, hp,
        ho, Option.bind_eq_some] at h
      obtain ⟨cb, hcb, h⟩ := h
      have ecb := getCapacity_eq_some_capOf hcb
      subst ecb
      obtain ⟨h1, h2⟩ := ih _ _ _ _ hrest h
      constructor
      · split at h1 <;> omega
      · intro q hq
        rcases List.mem_cons.mp hq with hq | hq
        · subst hq; split at h1 <;> omega
        · exact h2 q hq

theorem IsChain.dest_mem {r : Graph} :
    ∀ (P : List (Nat × Nat)) (x : Nat), r.IsChain x P → ∀ q ∈ P,
      ∃ z ∈ chainVertices x P, r.getDest q.1 = some z := by
  intro P
  induction P with
  | nil => intro x _ q hq; simp at hq
  | cons p rest ih =>
    intro x hch q hq
    simp only [Graph.IsChain] at hch
    obtain ⟨-, hd, -, hrest⟩ := hch
    rcases List.mem_cons.mp hq with hq | hq
    · subst hq; exact ⟨x, by simp [chainVertices], hd⟩
    · obtain ⟨z, hz, hdz⟩ := ih _ hrest q hq
      refine ⟨z, ?_, hdz⟩
      simp only [chainVertices, List.map_cons, List.mem_cons] at hz ⊢
      rcases hz with hz | hz
      · exact Or.inr (Or.inl hz)
      · exact Or.inr (Or.inr hz)
/-! ## Net flow at a vertex under one augmentation step -/

theorem sum_map_update (F G : Nat → Nat) (i j : Nat) (hij : i ≠ j)
    (hF : ∀ k, k ≠ i → k ≠ j → G k = F k) :
    ∀ (L : List Nat), L.Nodup →
      ((L.map G).sum : Int) = ((L.map F).sum : Int)
        + (if i ∈ L then (G i : Int) - (F i : Int) else 0)
        + (if j ∈ L then (G j : Int) - (F j : Int) else 0) := by
  intro L
  induction L with
  | nil => intro _; simp
  | cons a L ih =>
    intro hnd
    obtain ⟨ha, hnd'⟩ := List.nodup_cons.mp hnd
    have := ih hnd'
    simp only [List.map_cons, List.sum_cons, Nat.cast_add, List.mem_cons]
    rw [this]
    by_cases hai : a = i
    · subst hai
      have h1 : a ∉ L := ha
      have h2 : ¬ j = a := fun h => hij h.symm
      simp only [h1, if_false, true_or, if_true, h2, false_or]
      ring
    · by_cases haj : a = j
      · subst haj
        have h1 : a ∉ L := ha
        have h2 : ¬ i = a := fun h => hai h.symm
        simp only [h1, if_false, true_or, if_true, h2, false_or]
        ring
      · have h1 : ¬ i = a := fun h => hai h.symm
        have h2 : ¬ j = a := fun h => haj h.symm
        rw [hF a hai haj]
        simp only [h1, h2, false_or]
        ring

theorem Graph.WellLinked.mem_incomingOf {g : Graph} (hw : g.WellLinked) {i y : Nat}
    (hi : i < g.edges.length) (hy : y < g.vertexSet.length) :
    i ∈ g.incomingOf y ↔ g.getDest i = some y := by
  constructor
  · intro h; exact ((hw.2.1 y hy).2.2.1 i h).2
  · intro h
    obtain ⟨-, ⟨v, -, hv, hmem⟩, -⟩ := hw.1 i hi
    rw [h] at hv
    rw [Option.some.inj hv]; exact hmem

theorem Graph.WellLinked.mem_adjOf {g : Graph} (hw : g.WellLinked) {i y : Nat}
    (hi : i < g.edges.length) (hy : y < g.vertexSet.length) :
    i ∈ g.adjOf y ↔ g.getOrig i = some y := by
  constructor
  · intro h; exact ((hw.2.1 y hy).1 i h).2
  · intro h
    obtain ⟨⟨v, -, hv, hmem⟩, -, -⟩ := hw.1 i hi
    rw [h] at hv
    rw [Option.some.inj hv]; exact hmem

theorem adjOf_of_ge {g : Graph} {y : Nat} (hy : ¬ y < g.vertexSet.length) :
    g.adjOf y = [] ∧ g.incomingOf y = [] := by
  have : g.vertexSet[y]? = none := List.getElem?_eq_none (by omega)
  simp [Graph.adjOf, Graph.incomingOf, this]

/-- When the flow on the link `i` goes up by `d1` and the flow on its reverse `j` goes down
by `d2`, the net flow rises by `d1 + d2` at the destination of `i` and falls by `d1 + d2` at
its origin. -/
theorem excessAt_step {g g1 : Graph} {i j d1 d2 : Nat} (hw : g.WellLinked)
    (hs : SameStatic g g1) (hi : i < g.edges.length) (hj : j < g.edges.length) (hji : j ≠ i)
    (hoj : g.getOrig j = g.getDest i) (hdj : g.getDest j = g.getOrig i)
    (h1 : g1.flowOf i = g.flowOf i + d1) (h2 : g1.flowOf j + d2 = g.flowOf j)
    (h3 : ∀ k, k ≠ i → k ≠ j → g1.flowOf k = g.flowOf k) (y : Nat) :
    g1.excessAt y = g.excessAt y
      + (if g.getDest i = some y then ((d1 + d2 : Nat) : Int) else 0)
      - (if g.getOrig i = some y then ((d1 + d2 : Nat) : Int) else 0) := by
  by_cases hy : y < g.vertexSet.length
  · have hin := sum_map_update g.flowOf g1.flowOf i j (Ne.symm hji) h3 (g.incomingOf y)
      (hw.2.1 y hy).2.2.2.1
    have hout := sum_map_update g.flowOf g1.flowOf i j (Ne.symm hji) h3 (g.adjOf y)
      (hw.2.1 y hy).2.1
    simp only [Graph.excessAt, hs.adjOf, hs.incomingOf]
    rw [hin, hout]
    simp only [hw.mem_incomingOf hi hy, hw.mem_incomingOf hj hy, hw.mem_adjOf hi hy,
      hw.mem_adjOf hj hy, hoj, hdj, h1]
    have h2' : (g.flowOf j : Int) = (g1.flowOf j : Int) + (d2 : Int) := by
      rw [← h2]; push_cast; ring
    rw [h2']
    by_cases ha : g.getDest i = some y <;> by_cases hb : g.getOrig i = some y <;>
      simp only [ha, hb, if_true, if_false] <;> push_cast <;> ring
  · obtain ⟨u, hu, hou, -⟩ := (hw.1 i hi).1
    obtain ⟨v, hv, hdv, -⟩ := (hw.1 i hi).2.1
    have hne1 : g.getDest i ≠ some y := by
      rw [hdv]; intro h; exact hy (Option.some.inj h ▸ hv)
    have hne2 : g.getOrig i ≠ some y := by
      rw [hou]; intro h; exact hy (Option.some.inj h ▸ hu)
    obtain ⟨ha, hb⟩ := adjOf_of_ge hy
    simp only [Graph.excessAt, hs.adjOf, hs.incomingOf, ha, hb, if_neg hne1, if_neg hne2]
    simp
/-! ## Augmentation along a predecessor chain -/

/-- The loop of `augmentPath` along a predecessor chain of a paired network, for an
amount within the residual capacity of every edge of the chain: after any number of
iterations the link invariant holds, and when the loop has left the net flow has risen by
the amount at the start of the chain and fallen by it at the end of the chain, and is
unchanged elsewhere. -/
theorem augmentPathLoop_spec (value : Nat) :
    ∀ (P : List (Nat × Nat)) (x fuel : Nat) (g r g1 r1 : Graph) (fin : Bool),
      Paired g r → LinkInv g r → g.CapacityBelow 2147483648 → r.IsChain x P →
      (chainVertices x P).Nodup →
      (∀ p ∈ P, p.1 < g.edges.length ∧ value ≤ r.capOf p.1) →
      augmentPathLoop value fuel x g r = some (fin, g1, r1) →
      SameStatic g g1 ∧ g1.vertexSet = g.vertexSet ∧ SameStatic r r1 ∧
      r1.vertexSet = r.vertexSet ∧ (∀ k, g1.capOf k = g.capOf k) ∧ LinkInv g1 r1 ∧
      (fin = true → ∀ y, g1.excessAt y = g.excessAt y
        + (if y = x then (value : Int) else 0)
        - (if y = chainEnd x P then (value : Int) else 0)) := by
  intro P
  induction P with
  | nil =>
    intro x fuel g r g1 r1 fin hp hinv hcap hch hnd hval h
    cases fuel with
    | zero =>
      simp only [augmentPathLoop, Option.some.injEq, Prod.mk.injEq] at h
      obtain ⟨rfl, rfl, rfl⟩ := h
      exact ⟨SameStatic.refl _, rfl, SameStatic.refl _, rfl, fun _ => rfl, hinv,
        fun h => Bool.noConfusion h⟩
    | succ fuel =>
      simp only [Graph.IsChain, Graph.pathOf, Option.map_eq_some'] at hch
      obtain ⟨cv, hcv, hpth⟩ := hch
      simp only [augmentPathLoop, Option.bind_eq_bind, hcv, Option.some_bind, hpth,
        Option.some.injEq, Prod.mk.injEq] at h
      obtain ⟨-, rfl, rfl⟩ := h
      refine ⟨SameStatic.refl _, rfl, SameStatic.refl _, rfl, fun _ => rfl, hinv, ?_⟩
      intro _ y
      simp [chainEnd]
  | cons p rest ih =>
    intro x fuel g r g1 r1 fin hp hinv hcap hch hnd hval h
    cases fuel with
    | zero =>
      simp only [augmentPathLoop, Option.some.injEq, Prod.mk.injEq] at h
      obtain ⟨rfl, rfl, rfl⟩ := h
      exact ⟨SameStatic.refl _, rfl, SameStatic.refl _, rfl, fun _ => rfl, hinv,
        fun h => Bool.noConfusion h⟩
    | succ fuel =>
      have hch0 := hch
      simp only [Graph.IsChain, Graph.pathOf, Option.map_eq_some'] at hch
      obtain ⟨⟨cv, hcv, hpth⟩, hd, ho, hrest⟩ := hch
      simp only [augmentPathLoop, Option.bind_eq_bind, hcv, Option.some_bind, hpth,
        Option.bind_eq_some] at h
      obtain ⟨⟨ga, ra⟩, haug, cv1, hcv1, e1, he1, nxt, hnxt, h⟩ := h
      obtain ⟨hpi, hpv⟩ := hval p (List.mem_cons_self _ _)
      obtain ⟨hs1, hv1, hs2, hv2, hcp, hinv1, hmono, j, d1, d2, hrev, hji, hdd, hf1, hf2, hf3⟩ :=
        augmentEdge_spec hp hinv hcap hpi hpv haug
      rw [hv2, hcv] at hcv1
      have : cv1 = cv := (Option.some.inj hcv1).symm
      subst this
      rw [hpth] at he1
      have : e1 = p.1 := (Option.some.inj he1).symm
      subst this
      rw [hs2.getOrig, ho] at hnxt
      have : nxt = p.2 := (Option.some.inj hnxt).symm
      subst this
      have hchain1 : ra.IsChain p.2 rest := by
        apply IsChain.frame hs2.getOrig hs2.getDest rest p.2 hrest
        intro y _
        simp [Graph.pathOf, hv2]
      have hnd1 : (chainVertices p.2 rest).Nodup := by
        simp only [chainVertices, List.map_cons, List.nodup_cons] at hnd ⊢
        exact hnd.2
      have hxnot : x ∉ chainVertices p.2 rest := by
        simp only [chainVertices, List.map_cons, List.nodup_cons] at hnd ⊢
        exact hnd.1
      have hval1 : ∀ q ∈ rest, q.1 < ga.edges.length ∧ value ≤ ra.capOf q.1 := by
        intro q hq
        obtain ⟨hq1, hq2⟩ := hval q (List.mem_cons_of_mem _ hq)
        refine ⟨by rw [hs1.edges_length]; exact hq1, le_trans hq2 (hmono _ ?_)⟩
        intro hqp
        obtain ⟨z, hz, hdz⟩ := IsChain.dest_mem rest p.2 hrest q hq
        rw [hqp, hd] at hdz
        have : x = z := Option.some.inj hdz
        subst this
        exact hxnot hz
      have hcap1 : ga.CapacityBelow 2147483648 := by
        rw [capacityBelow_iff] at hcap ⊢
        intro k hk
        rw [hcp]; exact hcap k (hs1.edges_length ▸ hk)
      obtain ⟨hs3, hv3, hs4, hv4, hcp2, hinv2, hex2⟩ :=
        ih p.2 fuel ga ra g1 r1 fin (hp.sameStatic hs1 hs2) hinv1 hcap1 hchain1 hnd1 hval1 h
      refine ⟨hs1.trans hs3, hv3.trans hv1, hs2.trans hs4, hv4.trans hv2,
        fun k => (hcp2 k).trans (hcp k), hinv2, ?_⟩
      intro hfin y
      have hw : g.WellLinked := hp.1
      obtain ⟨-, -, j2, hj2, -, hr2, -, hoj, hdj⟩ := hw.1 p.1 hpi
      have hjj : j2 = j := by rw [hrev] at hr2; exact (Option.some.inj hr2).symm
      subst hjj
      have hstep := excessAt_step hw hs1 hpi hj2 hji hoj hdj hf1 hf2 hf3 y
      obtain ⟨-, -, hgo, hgd, -⟩ := hp.2.2.2.2.1 p.1 hpi
      rw [hgd, hgo, hd, ho, hdd] at hstep
      have e1 : (x = y) = (y = x) := propext eq_comm
      have e2 : (p.2 = y) = (y = p.2) := propext eq_comm
      simp only [Option.some.injEq, e1, e2] at hstep
      rw [hex2 hfin y, hstep]
      simp only [chainEnd]
      split_ifs <;> ring
/-! ## The loop of `edmondsKarp` -/

theorem capOf_of_edges_eq {r ra : Graph} (h : ra.edges = r.edges) (k : Nat) :
    ra.capOf k = r.capOf k := by
  simp [Graph.capOf, Graph.getCapacity, h]

theorem LinkInv.of_search {g r ra : Graph} (hinv : LinkInv g r) (h : ra.edges = r.edges) :
    LinkInv g ra := by
  intro i j hi hij
  rw [capOf_of_edges_eq h]
  exact hinv i j hi hij

theorem idOf_lt {g : Graph} {y : Nat} {id : String} (h : g.idOf y = some id) :
    y < g.vertexSet.length := by
  by_contra hy
  have : g.vertexSet[y]? = none := List.getElem?_eq_none (by omega)
  simp [Graph.idOf, this] at h

/-- One augmentation of `edmondsKarp` after a successful search, stopped after any number
of steps: the pairing, the link invariant and the bound on the capacities are kept; when
the loop of `augmentPath` has left, the net flow has changed at most at the target vertex
and at a source vertex. -/
theorem augment_after_path {source : List String} {target : String} {g r ra g2 r2 : Graph}
    {b tv steps : Nat} {fin : Bool} (hp : Paired g r) (hinv : LinkInv g r)
    (hcap : g.CapacityBelow 2147483648) (hpath : r.path source target = some (true, ra))
    (hb : ra.findBottleneck target = some b) (htv : ra.findVertex target = some tv)
    (hl : augmentPathLoop b steps tv g ra = some (fin, g2, r2)) :
    Paired g2 r2 ∧ LinkInv g2 r2 ∧ g2.CapacityBelow 2147483648 ∧ SameStatic g g2 ∧
    g2.vertexSet = g.vertexSet ∧
    (fin = true → ∀ y, g2.excessAt y ≠ g.excessAt y →
      g.idOf y = some target ∨ ∃ s ∈ source, g.idOf y = some s) := by
  obtain ⟨hs, hed, hfound⟩ := path_spec hp.2.1 hpath
  obtain ⟨tv1, P, htv1, hch, hnd, ⟨s, hsrc, hsv⟩, hedg⟩ := hfound rfl
  have : tv1 = tv := by rw [htv] at htv1; exact (Option.some.inj htv1).symm
  subst this
  have hpa : Paired g ra := hp.sameStatic (SameStatic.refl g) hs
  have hinva : LinkInv g ra := hinv.of_search hed
  simp only [Graph.findBottleneck, Option.bind_eq_bind, htv, Option.some_bind] at hb
  obtain ⟨-, hbv⟩ := findBottleneckLoop_spec ra P tv1 _ _ _ hch hb
  have hval : ∀ p ∈ P, p.1 < g.edges.length ∧ b ≤ ra.capOf p.1 := by
    intro p hpP
    refine ⟨?_, hbv p hpP⟩
    rw [hpa.2.2.2.1]; exact (hedg p hpP).1
  obtain ⟨hs1, hv1, hs2, hv2, hcp, hinv2, hex⟩ :=
    augmentPathLoop_spec b P tv1 steps g ra g2 r2 fin hpa hinva hcap hch hnd hval hl
  have hcap2 : g2.CapacityBelow 2147483648 := by
    rw [capacityBelow_iff] at hcap ⊢
    intro k hk
    rw [hcp]; exact hcap k (hs1.edges_length ▸ hk)
  refine ⟨hpa.sameStatic hs1 hs2, hinv2, hcap2, hs1, hv1, ?_⟩
  intro hfin y hne
  have hy := hex hfin y
  have hidr : ∀ x id, r.idOf x = some id → g.idOf x = some id := by
    intro x id hx
    have hlt : x < g.vertexSet.length := by rw [hp.2.2.1]; exact idOf_lt hx
    rw [hp.2.2.2.2.2 x hlt]; exact hx
  by_cases h1 : y = tv1
  · left
    subst h1
    have := (hs.wellLinked hp.2.1).findVertex_sound htv
    rw [hs.idOf] at this
    exact hidr _ _ this
  · by_cases h2 : y = chainEnd tv1 P
    · right
      subst h2
      exact ⟨s, hsrc, hidr _ _ (hp.2.1.findVertex_sound hsv)⟩
    · exfalso
      apply hne
      rw [hy]
      simp [h1, h2]

theorem edmondsKarpLoop_spec (source : List String) (target : String) :
    ∀ (fuel maxFlow : Nat) (g r : Graph) (fin : Bool) (maxFlow1 : Nat) (g1 r1 : Graph),
      EKInv source target g r →
      edmondsKarpLoop source target fuel maxFlow g r = some (fin, maxFlow1, g1, r1) →
      EKInv source target g1 r1 ∧ SameStatic g g1 ∧ g1.vertexSet = g.vertexSet := by
  intro fuel
  induction fuel with
  | zero =>
    intro maxFlow g r fin maxFlow1 g1 r1 hinv h
    simp only [edmondsKarpLoop, Option.some.injEq, Prod.mk.injEq] at h
    obtain ⟨-, -, rfl, rfl⟩ := h
    exact ⟨hinv, SameStatic.refl _, rfl⟩
  | succ fuel ih =>
    intro maxFlow g r fin maxFlow1 g1 r1 hinv h
    obtain ⟨hp, hli, hcap, hcons⟩ := hinv
    simp only [edmondsKarpLoop, Option.bind_eq_bind, Option.bind_eq_some] at h
    obtain ⟨⟨found, ra⟩, hpath, h⟩ := h
    cases found with
    | false =>
      simp only [Bool.false_eq_true, if_false, Option.some.injEq, Prod.mk.injEq] at h
      obtain ⟨-, -, rfl, rfl⟩ := h
      obtain ⟨hs, hed, -⟩ := path_spec hp.2.1 hpath
      exact ⟨⟨hp.sameStatic (SameStatic.refl g) hs, hli.of_search hed, hcap, hcons⟩,
        SameStatic.refl _, rfl⟩
    | true =>
      simp only [if_true, Option.bind_eq_some] at h
      obtain ⟨b, hb, ⟨g2, r2⟩, haug, h⟩ := h
      simp only [Graph.augmentPath, Option.bind_eq_bind, Option.bind_eq_some] at haug
      obtain ⟨tv, htv, ⟨fin2, g3, r3⟩, hl, haug⟩ := haug
      cases fin2 with
      | false => simp at haug
      | true =>
        simp only [Option.some.injEq, Prod.mk.injEq] at haug
        obtain ⟨rfl, rfl⟩ := haug
        obtain ⟨hp2, hli2, hcap2, hs2, hv2, hex⟩ :=
          augment_after_path hp hli hcap hpath hb htv hl
        have hinv2 : EKInv source target g3 r3 := by
          refine ⟨hp2, hli2, hcap2, ?_⟩
          intro y id hid hns hnt
          rw [hs2.idOf] at hid
          by_cases hne : g3.excessAt y = g.excessAt y
          · rw [hne]; exact hcons y id hid hns hnt
          · rcases hex rfl y hne with h1 | ⟨s, hs, h1⟩
            · rw [hid] at h1; exact absurd (Option.some.inj h1) hnt
            · rw [hid] at h1; exact absurd (Option.some.inj h1 ▸ hs) hns
        obtain ⟨hinv3, hs3, hv3⟩ := ih _ g3 r3 fin maxFlow1 g1 r1 hinv2 h
        exact ⟨hinv3, hs2.trans hs3, hv3.trans hv2⟩

theorem ekInv_of_reset {source : List String} {target : String} {g r g0 r0 : Graph}
    (hp : Paired g r) (hcap : g.CapacityBelow 2147483648)
    (h : resetFlows g.vertexSet g r = some (g0, r0)) : EKInv source target g0 r0 := by
  obtain ⟨hs1, hv1, hs2, hv2, hcp, hall⟩ := resetFlows_paired hp h
  have hzero : ∀ k, g0.flowOf k = 0 := by
    intro k
    by_cases hk : k < g.edges.length
    · exact (hall k hk).1
    · have : g0.edges[k]? = none := List.getElem?_eq_none (by rw [hs1.edges_length]; omega)
      simp [Graph.flowOf, Graph.getFlow, this]
  refine ⟨hp.sameStatic hs1 hs2, ?_, ?_, ?_⟩
  · apply linkInv_of_reset
    intro k hk
    rw [hs1.edges_length] at hk
    exact ⟨hzero k, by rw [(hall k hk).2, hcp]⟩
  · rw [capacityBelow_iff] at hcap ⊢
    intro k hk
    rw [hcp]; exact hcap k (hs1.edges_length ▸ hk)
  · intro y id _ _ _
    have hz : g0.flowOf = fun _ => 0 := funext hzero
    simp [Graph.excessAt, hz]

theorem EKInv.capacityRespected {source : List String} {target : String} {g r : Graph}
    (h : EKInv source target g r) : g.CapacityRespected := by
  rw [capacityRespected_iff]
  intro k hk
  obtain ⟨j, -, -, hr, -⟩ := h.1.reverse hk
  exact (h.2.1 k j hk hr).1

theorem EKInv.conserved {source : List String} {target : String} {g r : Graph}
    (h : EKInv source target g r) : g.Conserved source target := by
  intro v hv hns hnt
  obtain ⟨y, hy, rfl⟩ := List.getElem_of_mem hv
  have hid : g.idOf y = some (g.vertexSet[y]).id := by
    simp [Graph.idOf, List.getElem?_eq_getElem hy]
  have := h.2.2.2 y _ hid hns hnt
  simp only [Graph.excessAt, Graph.incomingOf, Graph.adjOf, List.getElem?_eq_getElem hy,
    Option.map_some', Option.getD_some] at this
  simp only [Graph.inFlow, Graph.outFlow]
  omega

theorem capacityRespected_of_linkInv {g r : Graph} (hp : Paired g r) (hinv : LinkInv g r) :
    g.CapacityRespected := by
  rw [capacityRespected_iff]
  intro k hk
  obtain ⟨j, -, -, hr, -⟩ := hp.reverse hk
  exact (hinv k j hk hr).1

/-! ## The iteration budget -/

theorem edmondsKarpLoop_mono (source : List String) (target : String) (k : Nat) :
    ∀ (fuel maxFlow : Nat) (g r : Graph) (x : Nat × Graph × Graph),
      edmondsKarpLoop source target fuel maxFlow g r = some (true, x) →
      edmondsKarpLoop source target (fuel + k) maxFlow g r = some (true, x) := by
  intro fuel
  induction fuel with
  | zero => intro maxFlow g r x h; simp [edmondsKarpLoop] at h
  | succ fuel ih =>
    intro maxFlow g r x h
    rw [Nat.add_right_comm]
    simp only [edmondsKarpLoop, Option.bind_eq_bind, Option.bind_eq_some] at h ⊢
    obtain ⟨⟨found, r1⟩, hp, h⟩ := h
    refine ⟨(found, r1), hp, ?_⟩
    cases found with
    | false => simpa using h
    | true =>
      simp only [if_true, Option.bind_eq_some] at h ⊢
      obtain ⟨b, hb, ⟨g2, r2⟩, ha, h⟩ := h
      exact ⟨b, hb, (g2, r2), ha, ih _ _ _ _ h⟩

theorem edmondsKarp_mono (g r : Graph) (fuel k : Nat) (source : List String) (target : String)
    (x : Nat × Graph × Graph) (h : g.edmondsKarp fuel source target r = some x) :
    g.edmondsKarp (fuel + k) source target r = some x := by
  simp only [Graph.edmondsKarp, Option.bind_eq_bind, Option.bind_eq_some] at h ⊢
  obtain ⟨⟨g0, r0⟩, h0, ⟨fin, mf, g1, r1⟩, hl, h⟩ := h
  cases fin with
  | false => simp at h
  | true =>
    exact ⟨(g0, r0), h0, (true, mf, g1, r1), edmondsKarpLoop_mono source target k _ _ _ _ _ hl, h⟩

theorem edmondsKarp_budget_irrelevant (g r : Graph) (fuel fuel1 : Nat) (source : List String)
    (target : String) (x y : Nat × Graph × Graph)
    (hx : g.edmondsKarp fuel source target r = some x)
    (hy : g.edmondsKarp fuel1 source target r = some y) : x = y := by
  have h1 := edmondsKarp_mono g r fuel fuel1 source target x hx
  have h2 := edmondsKarp_mono g r fuel1 fuel source target y hy
  rw [Nat.add_comm] at h2
  rw [h1] at h2
  exact Option.some.inj h2

/-! ## The cost computed by `minCostMaxFlow` -/

theorem costAdj_spec (g : Graph) : ∀ (es : List Nat) (c c1 : Nat), costAdj g es c = some c1 →
    ((c1 : Int) % 4294967296 = ((c : Int) + (es.map g.costOf).sum) % 4294967296) ∧
    (c < 4294967296 → c1 < 4294967296) := by
  intro es
  induction es with
  | nil => intro c c1 h; simp [costAdj] at h; subst h; simp
  | cons e es ih =>
    intro c c1 h
    simp only [costAdj, Option.bind_eq_bind, Option.bind_eq_some] at h
    obtain ⟨x, hx, h⟩ := h
    obtain ⟨h1, h2⟩ := ih _ _ h
    refine ⟨?_, fun _ => h2 (by unfold uadd; omega)⟩
    rw [h1]
    simp only [List.map_cons, List.sum_cons, Graph.costOf, hx, uadd, umul]
    have hy : (0:Int) ≤ (x.cost * (x.flow : Int)) % 4294967296 := Int.emod_nonneg _ (by norm_num)
    obtain ⟨n, hn⟩ := Int.eq_ofNat_of_zero_le hy
    rw [hn, Int.toNat_ofNat]
    generalize (List.map g.costOf es).sum = S
    generalize x.cost * (x.flow : Int) = p at hn
    push_cast
    omega

theorem costVertices_spec (g : Graph) : ∀ (vs : List Vertex) (c c1 : Nat),
    costVertices g vs c = some c1 →
    ((c1 : Int) % 4294967296
      = ((c : Int) + (vs.map (fun v => (v.adj.map g.costOf).sum)).sum) % 4294967296) ∧
    (c < 4294967296 → c1 < 4294967296) := by
  intro vs
  induction vs with
  | nil => intro c c1 h; simp [costVertices] at h; subst h; simp
  | cons v vs ih =>
    intro c c1 h
    simp only [costVertices, Option.bind_eq_bind, Option.bind_eq_some] at h
    obtain ⟨c2, hc2, h⟩ := h
    obtain ⟨h1, h2⟩ := ih _ _ h
    obtain ⟨h3, h4⟩ := costAdj_spec g _ _ _ hc2
    refine ⟨?_, fun hc => h2 (h4 hc)⟩
    rw [h1]
    simp only [List.map_cons, List.sum_cons]
    generalize (List.map (fun v => (List.map g.costOf v.adj).sum) vs).sum = S at *
    generalize (List.map g.costOf v.adj).sum = T at *
    omega

/-! ## The builder produces paired networks -/

theorem addEdge_spec {g h : Graph} {v d w e : Nat} {s : Service}
    (ha : g.addEdge v d w s = some (e, h)) :
    e = g.edges.length ∧ v < g.vertexSet.length ∧ d < g.vertexSet.length ∧
    h.edges = g.edges ++ [Edge.new v d w s] ∧ h.idToVertex = g.idToVertex ∧
    h.vertexSet.length = g.vertexSet.length ∧
    (∀ x, h.adjOf x = if x = v then g.adjOf x ++ [g.edges.length] else g.adjOf x) ∧
    (∀ x, h.incomingOf x = if x = d then g.incomingOf x ++ [g.edges.length]
      else g.incomingOf x) ∧
    (∀ x, h.idOf x = g.idOf x) := by
  simp only [Graph.addEdge, Option.bind_eq_bind, Option.bind_eq_some, Option.pure_def,
    Option.some.injEq, Prod.mk.injEq] at ha
  obtain ⟨g2, hg2, g3, hg3, rfl, rfl⟩ := ha
  obtain ⟨he2, hid2, -, hl2⟩ := updateVertex_rest hg2
  obtain ⟨he3, hid3, -, hl3⟩ := updateVertex_rest hg3
  have hv2 := updateVertex_vertexSet hg2
  have hv3 := updateVertex_vertexSet hg3
  obtain ⟨x2, hx2, -⟩ := updateVertex_eq_some hg2
  obtain ⟨x3, hx3, -⟩ := updateVertex_eq_some hg3
  have hvlt : v < g.vertexSet.length := (List.getElem?_eq_some.mp hx2).1
  have hdlt : d < g.vertexSet.length := by
    have := (List.getElem?_eq_some.mp hx3).1
    rw [hl2] at this; exact this
  refine ⟨rfl, hvlt, hdlt, by rw [he3, he2], by rw [hid3, hid2], by rw [hl3, hl2],
    ?_, ?_, ?_⟩
  · intro x
    simp only [Graph.adjOf, hv3, hv2]
    by_cases hxd : x = d <;> by_cases hxv : x = v
    · subst hxd; subst hxv
      simp [List.getElem?_eq_getElem hvlt]
    · subst hxd
      simp [hxv, List.getElem?_eq_getElem hdlt]
    · subst hxv
      simp [hxd, List.getElem?_eq_getElem hvlt]
    · simp [hxd, hxv]
  · intro x
    simp only [Graph.incomingOf, hv3, hv2]
    by_cases hxd : x = d <;> by_cases hxv : x = v
    · subst hxd; subst hxv
      simp [List.getElem?_eq_getElem hvlt]
    · subst hxd
      simp [hxv, List.getElem?_eq_getElem hdlt]
    · subst hxv
      simp [hxd, List.getElem?_eq_getElem hvlt]
    · simp [hxd, hxv]
  · intro x
    simp only [Graph.idOf, hv3, hv2]
    by_cases hxd : x = d <;> by_cases hxv : x = v
    · subst hxd; subst hxv
      simp [List.getElem?_eq_getElem hvlt]
    · subst hxd
      simp [hxv, List.getElem?_eq_getElem hdlt]
    · subst hxv
      simp [hxd, List.getElem?_eq_getElem hvlt]
    · simp [hxd, hxv]

theorem addAndGet_spec {g h : Graph} {source dest : String} {c e1 e2 : Nat} {s : Service}
    (ha : g.addAndGetBidirectionalEdge source dest c s = some (some (e1, e2), h)) :
    ∃ v1 v2, g.findVertex source = some v1 ∧ g.findVertex dest = some v2 ∧
      v1 < g.vertexSet.length ∧ v2 < g.vertexSet.length ∧
      e1 = g.edges.length ∧ e2 = g.edges.length + 1 ∧
      h.edges.length = g.edges.length + 2 ∧
      (∀ i, h.edges[i]? =
        if i = g.edges.length then
          some { Edge.new v1 v2 c s with reverse := some (g.edges.length + 1) }
        else if i = g.edges.length + 1 then
          some { Edge.new v2 v1 c s with reverse := some g.edges.length }
        else g.edges[i]?) ∧
      h.idToVertex = g.idToVertex ∧ h.vertexSet.length = g.vertexSet.length ∧
      (∀ x, h.adjOf x =
        if x = v2 then (if x = v1 then g.adjOf x ++ [g.edges.length] else g.adjOf x)
          ++ [g.edges.length + 1]
        else (if x = v1 then g.adjOf x ++ [g.edges.length] else g.adjOf x)) ∧
      (∀ x, h.incomingOf x =
        if x = v1 then (if x = v2 then g.incomingOf x ++ [g.edges.length]
          else g.incomingOf x) ++ [g.edges.length + 1]
        else (if x = v2 then g.incomingOf x ++ [g.edges.length] else g.incomingOf x)) ∧
      (∀ x, h.idOf x = g.idOf x) := by
  unfold Graph.addAndGetBidirectionalEdge at ha
  cases hv1 : g.findVertex source with
  | none => simp [hv1] at ha
  | some v1 =>
    cases hv2 : g.findVertex dest with
    | none => simp [hv1, hv2] at ha
    | some v2 =>
      simp only [hv1, hv2, Option.bind_eq_bind, Option.bind_eq_some, Option.pure_def,
        Option.some.injEq, Prod.mk.injEq] at ha
      obtain ⟨⟨a1, g1⟩, hg1, ⟨a2, g2⟩, hg2, g3, hg3, g4, hg4, ⟨rfl, rfl⟩, rfl⟩ := ha
      dsimp only at hg2 hg3 hg4
      obtain ⟨ea1, hv1lt, hv2lt, hed1, hid1, hl1, hadj1, hinc1, hidof1⟩ := addEdge_spec hg1
      obtain ⟨ea2, -, -, hed2, hid2, hl2, hadj2, hinc2, hidof2⟩ := addEdge_spec hg2
      have hlen1 : g1.edges.length = g.edges.length + 1 := by rw [hed1]; simp
      rw [hlen1] at ea2 hadj2 hinc2
      subst ea1 ea2
      unfold Graph.setReverse at hg3 hg4
      have he3 := updateEdge_edges hg3
      have he4 := updateEdge_edges hg4
      obtain ⟨hvs3, hid3, -, hlen3⟩ := updateEdge_rest hg3
      obtain ⟨hvs4, hid4, -, hlen4⟩ := updateEdge_rest hg4
      have hlen2 : g2.edges.length = g.edges.length + 2 := by rw [hed2, hed1]; simp
      have hg2e : ∀ i, g2.edges[i]? =
          if i = g.edges.length then some (Edge.new v1 v2 c s)
          else if i = g.edges.length + 1 then some (Edge.new v2 v1 c s)
          else g.edges[i]? := by
        intro i
        rw [hed2, hed1]
        by_cases h1 : i < g.edges.length
        · have h2 : i ≠ g.edges.length := by omega
          have h3 : i ≠ g.edges.length + 1 := by omega
          rw [if_neg h2, if_neg h3, List.append_assoc, List.getElem?_append_left h1]
        · by_cases h2 : i = g.edges.length
          · subst h2
            rw [List.append_assoc, List.getElem?_append_right (le_refl _)]
            simp
          · by_cases h3 : i = g.edges.length + 1
            · subst h3
              rw [List.append_assoc, List.getElem?_append_right (by omega)]
              simp
            · rw [if_neg h2, if_neg h3]
              rw [List.getElem?_eq_none (by simp; omega), List.getElem?_eq_none (by omega)]
      have hvs : g4.vertexSet = g2.vertexSet := hvs4.trans hvs3
      refine ⟨v1, v2, rfl, rfl, hv1lt, hv2lt, rfl, rfl, ?_, ?_, ?_, ?_, ?_, ?_, ?_⟩
      · show g4.edges.length = _
        rw [hlen4, hlen3, hlen2]
      · intro i
        show g4.edges[i]? = _
        rw [he4, he3, he3, hg2e, hg2e, hg2e]
        by_cases h2 : i = g.edges.length
        · subst h2; simp
        · by_cases h3 : i = g.edges.length + 1
          · subst h3; simp
          · simp [h2, h3]
      · show g4.idToVertex = _
        rw [hid4, hid3, hid2, hid1]
      · show g4.vertexSet.length = _
        rw [hvs, hl2, hl1]
      · intro x
        show g4.adjOf x = _
        have : g4.adjOf x = g2.adjOf x := by simp [Graph.adjOf, hvs]
        rw [this, hadj2, hadj1]
      · intro x
        show g4.incomingOf x = _
        have : g4.incomingOf x = g2.incomingOf x := by simp [Graph.incomingOf, hvs]
        rw [this, hinc2, hinc1]
      · intro x
        show g4.idOf x = _
        have : g4.idOf x = g2.idOf x := by simp [Graph.idOf, hvs]
        rw [this, hidof2, hidof1]

theorem getOrig_of_ge {g : Graph} {i : Nat} (hi : g.edges.length ≤ i) :
    g.getOrig i = none ∧ g.getDest i = none ∧ g.getReverse i = none ∧
      g.getCorrespondingEdge i = none := by
  have : g.edges[i]? = none := List.getElem?_eq_none hi
  simp [Graph.getOrig, Graph.getDest, Graph.getReverse, Graph.getCorrespondingEdge, this]

theorem LinkAdded.mirrored {g h : Graph} {v1 v2 : Nat} (hl : LinkAdded g h v1 v2)
    (hm : g.Mirrored) : h.Mirrored := by
  obtain ⟨⟨hw1, hw2, hw3⟩, hc⟩ := hm
  have hgo := hl.getOrig
  have hgd := hl.getDest
  have hgr := hl.getReverse
  have hold : ∀ i, i < g.edges.length → i ≠ g.edges.length ∧ i ≠ g.edges.length + 1 :=
    fun i hi => ⟨by omega, by omega⟩
  refine ⟨⟨?_, ?_, ?_⟩, ?_⟩
  · intro i hi
    rw [hl.edges_length] at hi
    rw [hl.edges_length, hl.vertexSet_length]
    by_cases h0 : i < g.edges.length
    · obtain ⟨⟨u, hu, hou, hmu⟩, ⟨v, hv, hdv, hmv⟩, j, hj, hji, hr1, hr2, ho, hd⟩ := hw1 i h0
      obtain ⟨n1, n2⟩ := hold i h0
      obtain ⟨n3, n4⟩ := hold j hj
      refine ⟨⟨u, hu, ?_, ?_⟩, ⟨v, hv, ?_, ?_⟩, j, by omega, hji, ?_, ?_, ?_, ?_⟩
      · rw [hgo, if_neg n1, if_neg n2]; exact hou
      · rw [hl.mem_adjOf]; exact Or.inl hmu
      · rw [hgd, if_neg n1, if_neg n2]; exact hdv
      · rw [hl.mem_incomingOf]; exact Or.inl hmv
      · rw [hgr, if_neg n1, if_neg n2]; exact hr1
      · rw [hgr, if_neg n3, if_neg n4]; exact hr2
      · rw [hgo, hgd, if_neg n1, if_neg n2, if_neg n3, if_neg n4]; exact ho
      · rw [hgo, hgd, if_neg n1, if_neg n2, if_neg n3, if_neg n4]; exact hd
    · by_cases h1 : i = g.edges.length
      · subst h1
        refine ⟨⟨v1, hl.v1_lt, ?_, ?_⟩, ⟨v2, hl.v2_lt, ?_, ?_⟩, g.edges.length + 1, by omega,
          by omega, ?_, ?_, ?_, ?_⟩
        · rw [hgo, if_pos rfl]
        · rw [hl.mem_adjOf]; exact Or.inr (Or.inl ⟨rfl, rfl⟩)
        · rw [hgd, if_pos rfl]
        · rw [hl.mem_incomingOf]; exact Or.inr (Or.inl ⟨rfl, rfl⟩)
        · rw [hgr, if_pos rfl]
        · rw [hgr]; simp
        · rw [hgo, hgd]; simp
        · rw [hgo, hgd]; simp
      · have h2 : i = g.edges.length + 1 := by omega
        subst h2
        refine ⟨⟨v2, hl.v2_lt, ?_, ?_⟩, ⟨v1, hl.v1_lt, ?_, ?_⟩, g.edges.length, by omega,
          by omega, ?_, ?_, ?_, ?_⟩
        · rw [hgo]; simp
        · rw [hl.mem_adjOf]; exact Or.inr (Or.inr ⟨rfl, rfl⟩)
        · rw [hgd]; simp
        · rw [hl.mem_incomingOf]; exact Or.inr (Or.inr ⟨rfl, rfl⟩)
        · rw [hgr]; simp
        · rw [hgr]; simp
        · rw [hgo, hgd]; simp
        · rw [hgo, hgd]; simp
  · intro x hx
    rw [hl.vertexSet_length] at hx
    obtain ⟨ha, hna, hi, hni, hid⟩ := hw2 x hx
    rw [hl.edges_length]
    refine ⟨?_, hl.nodup_adjOf x (fun e he => (ha e he).1) hna, ?_,
      hl.nodup_incomingOf x (fun e he => (hi e he).1) hni, ?_⟩
    · intro e he
      rw [hl.mem_adjOf] at he
      rcases he with he | ⟨rfl, rfl⟩ | ⟨rfl, rfl⟩
      · obtain ⟨h1, h2⟩ := ha e he
        obtain ⟨n1, n2⟩ := hold e h1
        exact ⟨by omega, by rw [hgo, if_neg n1, if_neg n2]; exact h2⟩
      · exact ⟨by omega, by rw [hgo, if_pos rfl]⟩
      · exact ⟨by omega, by rw [hgo]; simp⟩
    · intro e he
      rw [hl.mem_incomingOf] at he
      rcases he with he | ⟨rfl, rfl⟩ | ⟨rfl, rfl⟩
      · obtain ⟨h1, h2⟩ := hi e he
        obtain ⟨n1, n2⟩ := hold e h1
        exact ⟨by omega, by rw [hgd, if_neg n1, if_neg n2]; exact h2⟩
      · exact ⟨by omega, by rw [hgd, if_pos rfl]⟩
      · exact ⟨by omega, by rw [hgd]; simp⟩
    · rw [hl.idOf]
      have : h.findVertex = g.findVertex := by
        funext t; simp [Graph.findVertex, hl.idToVertex]
      rw [this]; exact hid
  · intro p hp
    rw [hl.idToVertex] at hp
    rw [hl.idOf]; exact hw3 p hp
  · intro i hi
    rw [hl.edges_length] at hi
    rw [hl.getCorrespondingEdge]
    by_cases h1 : i = g.edges.length
    · subst h1; simp
    · by_cases h2 : i = g.edges.length + 1
      · subst h2; simp
      · rw [if_neg h1, if_neg h2]; exact hc i (by omega)

theorem nodup_snoc {l : List Nat} {a : Nat} (h : l.Nodup) (ha : a ∉ l) : (l ++ [a]).Nodup := by
  simp [List.nodup_append, h, ha]

theorem addLink_spec {g g1 r1 : Graph} {l : Link} (h : addLink g g l = some (g1, r1)) :
    g1 = r1 ∧ (∃ v1 v2, LinkAdded g g1 v1 v2 ∧ g.findVertex l.source = some v1 ∧
      g.findVertex l.dest = some v2) ∧
    ∀ e ∈ g1.edges, e ∈ g.edges ∨ e.capacity = l.capacity := by
  simp only [addLink, Option.bind_eq_bind, Option.bind_eq_some, Option.pure_def,
    Option.some.injEq, Prod.mk.injEq] at h
  obtain ⟨⟨p1, h1⟩, ha1, ⟨p2, h2⟩, ha2, ⟨e1, e2⟩, hp1, ⟨f1, f2⟩, hp2, ga, hga, gb, hgb, ra, hra,
    rb, hrb, rfl, rfl⟩ := h
  dsimp only at ha1 ha2 hp1 hp2 hga hgb hra hrb
  rw [ha1] at ha2
  simp only [Option.some.injEq, Prod.mk.injEq] at ha2
  obtain ⟨rfl, rfl⟩ := ha2
  subst hp1
  simp only [Option.some.injEq, Prod.mk.injEq] at hp2
  obtain ⟨rfl, rfl⟩ := hp2
  rw [hga] at hra
  obtain rfl := Option.some.inj hra
  rw [hgb] at hrb
  obtain rfl := Option.some.inj hrb
  refine ⟨rfl, ?_⟩
  obtain ⟨v1, v2, hv1, hv2, hv1lt, hv2lt, rfl, rfl, hlen, hedges, hid, hvl, hadj, hinc, hidof⟩ :=
    addAndGet_spec ha1
  suffices hkey : LinkAdded g gb v1 v2 ∧ ∀ e ∈ gb.edges, e ∈ g.edges ∨ e.capacity = l.capacity from
    ⟨⟨v1, v2, hkey.1, hv1, hv2⟩, hkey.2⟩
  unfold Graph.setCorrespondingEdge at hga hgb
  have hea := updateEdge_edges hga
  have heb := updateEdge_edges hgb
  obtain ⟨hvsa, hida, -, hlena⟩ := updateEdge_rest hga
  obtain ⟨hvsb, hidb, -, hlenb⟩ := updateEdge_rest hgb
  have hvs : gb.vertexSet = h1.vertexSet := hvsb.trans hvsa
  have hfin : ∀ i, gb.edges[i]? =
      if i = g.edges.length then
        some { Edge.new v1 v2 l.capacity l.service with
          reverse := some (g.edges.length + 1), correspondingEdge := some g.edges.length }
      else if i = g.edges.length + 1 then
        some { Edge.new v2 v1 l.capacity l.service with
          reverse := some g.edges.length, correspondingEdge := some (g.edges.length + 1) }
      else g.edges[i]? := by
    intro i
    rw [heb, hea, hea, hedges, hedges, hedges]
    by_cases h2 : i = g.edges.length
    · subst h2; simp
    · by_cases h3 : i = g.edges.length + 1
      · subst h3; simp
      · simp [h2, h3]
  have hadjb : ∀ x, gb.adjOf x = h1.adjOf x := fun x => by simp [Graph.adjOf, hvs]
  have hincb : ∀ x, gb.incomingOf x = h1.incomingOf x := fun x => by
    simp [Graph.incomingOf, hvs]
  have hidofb : ∀ x, gb.idOf x = h1.idOf x := fun x => by simp [Graph.idOf, hvs]
  refine ⟨⟨hv1lt, hv2lt, by rw [hlenb, hlena, hlen], by rw [hvs, hvl], by rw [hidb, hida, hid],
    fun x => by rw [hidofb, hidof], ?_, ?_, ?_, ?_, ?_, ?_, ?_, ?_⟩, ?_⟩
  · intro i
    simp only [Graph.getOrig, hfin]
    by_cases h2 : i = g.edges.length
    · subst h2; simp [Edge.new]
    · by_cases h3 : i = g.edges.length + 1
      · subst h3; simp [Edge.new]
      · simp [h2, h3]
  · intro i
    simp only [Graph.getDest, hfin]
    by_cases h2 : i = g.edges.length
    · subst h2; simp [Edge.new]
    · by_cases h3 : i = g.edges.length + 1
      · subst h3; simp [Edge.new]
      · simp [h2, h3]
  · intro i
    simp only [Graph.getReverse, hfin]
    by_cases h2 : i = g.edges.length
    · subst h2; simp
    · by_cases h3 : i = g.edges.length + 1
      · subst h3; simp
      · simp [h2, h3]
  · intro i
    simp only [Graph.getCorrespondingEdge, hfin]
    by_cases h2 : i = g.edges.length
    · subst h2; simp
    · by_cases h3 : i = g.edges.length + 1
      · subst h3; simp
      · simp [h2, h3]
  · intro x e
    rw [hadjb, hadj]
    by_cases hx2 : x = v2
    · subst hx2
      by_cases hx1 : x = v1
      · subst hx1; simp [or_assoc]
      · simp [hx1]
    · by_cases hx1 : x = v1
      · subst hx1; simp [hx2]
      · simp [hx1, hx2]
  · intro x e
    rw [hincb, hinc]
    by_cases hx1 : x = v1
    · subst hx1
      by_cases hx2 : x = v2
      · subst hx2; simp [or_assoc]
      · simp [hx2]
    · by_cases hx2 : x = v2
      · subst hx2; simp [hx1]
      · simp [hx1, hx2]
  · intro x hbound hnd
    rw [hadjb, hadj]
    have hn1 : g.edges.length ∉ g.adjOf x := fun hm => by have := hbound _ hm; omega
    have hn2 : g.edges.length + 1 ∉ g.adjOf x := fun hm => by have := hbound _ hm; omega
    by_cases hx2 : x = v2
    · subst hx2
      by_cases hx1 : x = v1
      · subst hx1
        simp only [if_true]
        exact nodup_snoc (nodup_snoc hnd hn1) (by simp [hn2])
      · simp only [if_true, if_neg hx1]
        exact nodup_snoc hnd hn2
    · by_cases hx1 : x = v1
      · subst hx1
        simp only [if_true, if_neg hx2]
        exact nodup_snoc hnd hn1
      · simp only [if_neg hx1, if_neg hx2]
        exact hnd
  · intro x hbound hnd
    rw [hincb, hinc]
    have hn1 : g.edges.length ∉ g.incomingOf x := fun hm => by have := hbound _ hm; omega
    have hn2 : g.edges.length + 1 ∉ g.incomingOf x := fun hm => by have := hbound _ hm; omega
    by_cases hx1 : x = v1
    · subst hx1
      by_cases hx2 : x = v2
      · subst hx2
        simp only [if_true]
        exact nodup_snoc (nodup_snoc hnd hn1) (by simp [hn2])
      · simp only [if_true, if_neg hx2]
        exact nodup_snoc hnd hn2
    · by_cases hx2 : x = v2
      · subst hx2
        simp only [if_true, if_neg hx1]
        exact nodup_snoc hnd hn1
      · simp only [if_neg hx1, if_neg hx2]
        exact hnd
  · intro e he
    obtain ⟨i, hi, rfl⟩ := List.getElem_of_mem he
    have hget : gb.edges[i]? = some gb.edges[i] := List.getElem?_eq_getElem hi
    rw [hfin] at hget
    by_cases h2 : i = g.edges.length
    · subst h2
      simp only [if_true, Option.some.injEq] at hget
      right; rw [← hget]; rfl
    · by_cases h3 : i = g.edges.length + 1
      · subst h3
        simp only [if_neg h2, if_true, Option.some.injEq] at hget
        right; rw [← hget]; rfl
      · rw [if_neg h2, if_neg h3] at hget
        left
        exact List.getElem?_mem hget

theorem addVertex_mirrored {g : Graph} (id : String) (hm : g.Mirrored) :
    (g.addVertex id).2.Mirrored := by
  unfold Graph.addVertex
  cases hf : g.findVertex id with
  | some v => simpa using hm
  | none =>
    simp only [Option.isSome_none, Bool.false_eq_true, if_false]
    obtain ⟨⟨hw1, hw2, hw3⟩, hc⟩ := hm
    set h : Graph := { g with vertexSet := g.vertexSet ++ [Vertex.new id],
                              idToVertex := (id, g.vertexSet.length) :: g.idToVertex } with hh
    have hedges : h.edges = g.edges := rfl
    have hlen : h.vertexSet.length = g.vertexSet.length + 1 := by simp [hh]
    have hvs : ∀ x, h.vertexSet[x]? =
        if x = g.vertexSet.length then some (Vertex.new id) else g.vertexSet[x]? := by
      intro x
      show (g.vertexSet ++ [Vertex.new id])[x]? = _
      by_cases h1 : x < g.vertexSet.length
      · have h2 : x ≠ g.vertexSet.length := by omega
        rw [if_neg h2, List.getElem?_append_left h1]
      · by_cases h2 : x = g.vertexSet.length
        · subst h2
          rw [List.getElem?_append_right (le_refl _)]
          simp
        · rw [if_neg h2, List.getElem?_eq_none (by simp; omega),
            List.getElem?_eq_none (by omega)]
    have hnone : g.vertexSet[g.vertexSet.length]? = none := List.getElem?_eq_none (le_refl _)
    have hadj : ∀ x, h.adjOf x = g.adjOf x := by
      intro x
      simp only [Graph.adjOf, hvs]
      by_cases h2 : x = g.vertexSet.length
      · subst h2; simp [hnone, Vertex.new]
      · simp [h2]
    have hinc : ∀ x, h.incomingOf x = g.incomingOf x := by
      intro x
      simp only [Graph.incomingOf, hvs]
      by_cases h2 : x = g.vertexSet.length
      · subst h2; simp [hnone, Vertex.new]
      · simp [h2]
    have hidof : ∀ x, h.idOf x = if x = g.vertexSet.length then some id else g.idOf x := by
      intro x
      simp only [Graph.idOf, hvs]
      by_cases h2 : x = g.vertexSet.length
      · subst h2; simp [Vertex.new]
      · simp [h2]
    have hfind : ∀ t, h.findVertex t =
        if t = id then some g.vertexSet.length else g.findVertex t := by
      intro t
      show List.lookup t ((id, g.vertexSet.length) :: g.idToVertex) = _
      rw [List.lookup_cons]
      by_cases ht : t = id
      · subst ht; simp
      · have : (t == id) = false := by simpa using ht
        simp [this, ht, Graph.findVertex]
    have hacc : h.getOrig = g.getOrig ∧ h.getDest = g.getDest ∧ h.getReverse = g.getReverse ∧
        h.getCorrespondingEdge = g.getCorrespondingEdge := ⟨rfl, rfl, rfl, rfl⟩
    obtain ⟨ho, hd, hr, hcc⟩ := hacc
    refine ⟨⟨?_, ?_, ?_⟩, ?_⟩
    · intro i hi
      rw [hedges] at hi
      obtain ⟨⟨u, hu, hou, hmu⟩, ⟨v, hv, hdv, hmv⟩, hj⟩ := hw1 i hi
      rw [ho, hd, hr, hedges, hlen]
      exact ⟨⟨u, by omega, hou, by rw [hadj]; exact hmu⟩,
        ⟨v, by omega, hdv, by rw [hinc]; exact hmv⟩, hj⟩
    · intro x hx
      rw [hlen] at hx
      rw [hadj, hinc, ho, hd, hedges, hidof]
      by_cases h2 : x = g.vertexSet.length
      · subst h2
        have ha : g.adjOf g.vertexSet.length = [] := (adjOf_of_ge (by omega)).1
        have hi : g.incomingOf g.vertexSet.length = [] := (adjOf_of_ge (by omega)).2
        rw [ha, hi]
        simp [hfind]
      · have hx' : x < g.vertexSet.length := by omega
        obtain ⟨h1, h2', h3, h4, h5⟩ := hw2 x hx'
        refine ⟨h1, h2', h3, h4, ?_⟩
        rw [if_neg h2]
        cases hidx : g.idOf x with
        | none => simp [hidx] at h5
        | some t =>
          simp only [hidx, Option.some_bind] at h5 ⊢
          rw [hfind]
          have : t ≠ id := by
            intro hti; subst hti
            rw [hf] at h5
            exact Option.noConfusion h5
          rw [if_neg this]; exact h5
    · intro p hp
      rw [hidof]
      rcases List.mem_cons.mp hp with hp | hp
      · subst hp; simp
      · have := hw3 p hp
        have hlt := idOf_lt this
        have hne : p.2 ≠ g.vertexSet.length := by omega
        rw [if_neg hne]; exact this
    · intro i hi
      rw [hcc]; exact hc i hi

theorem addStations_mirrored : ∀ (ss : List String) (g : Graph), g.Mirrored →
    ∃ h, addStations ss g g = (h, h) ∧ h.Mirrored := by
  intro ss
  induction ss with
  | nil => intro g hm; exact ⟨g, rfl, hm⟩
  | cons s ss ih =>
    intro g hm
    simp only [addStations]
    exact ih _ (addVertex_mirrored s hm)

theorem addLinks_mirrored : ∀ (ls : List Link) (g g1 r1 : Graph), g.Mirrored →
    addLinks ls g g = some (g1, r1) → g1 = r1 ∧ g1.Mirrored := by
  intro ls
  induction ls with
  | nil =>
    intro g g1 r1 hm h
    simp only [addLinks, Option.some.injEq, Prod.mk.injEq] at h
    obtain ⟨rfl, rfl⟩ := h
    exact ⟨rfl, hm⟩
  | cons l ls ih =>
    intro g g1 r1 hm h
    simp only [addLinks] at h
    cases hl : addLink g g l with
    | none => simp [hl] at h
    | some p =>
      obtain ⟨ga, ra⟩ := p
      simp only [hl] at h
      obtain ⟨rfl, ⟨v1, v2, hadd, -, -⟩, -⟩ := addLink_spec hl
      exact ih ga g1 r1 (hadd.mirrored hm) h

theorem addStations_edges : ∀ (ss : List String) (g r : Graph),
    (addStations ss g r).1.edges = g.edges := by
  intro ss
  induction ss with
  | nil => intro g r; rfl
  | cons s ss ih =>
    intro g r
    simp only [addStations]
    rw [ih]
    unfold Graph.addVertex
    split <;> rfl

theorem addLinks_capacityBelow (B : Nat) : ∀ (ls : List Link) (g g1 r1 : Graph),
    (∀ l ∈ ls, l.capacity < B) → g.CapacityBelow B →
    addLinks ls g g = some (g1, r1) → g1.CapacityBelow B := by
  intro ls
  induction ls with
  | nil =>
    intro g g1 r1 _ hb h
    simp only [addLinks, Option.some.injEq, Prod.mk.injEq] at h
    obtain ⟨rfl, rfl⟩ := h
    exact hb
  | cons l ls ih =>
    intro g g1 r1 hls hb h
    simp only [addLinks] at h
    cases hl : addLink g g l with
    | none => simp [hl] at h
    | some p =>
      obtain ⟨ga, ra⟩ := p
      simp only [hl] at h
      obtain ⟨rfl, -, hcaps⟩ := addLink_spec hl
      refine ih ga g1 r1 (fun a ha => hls a (List.mem_cons_of_mem _ ha)) ?_ h
      intro e he
      rcases hcaps e he with h1 | h1
      · exact hb e h1
      · rw [h1]; exact hls l (List.mem_cons_self _ _)

theorem empty_mirrored : Graph.empty.Mirrored := by
  refine ⟨⟨?_, ?_, ?_⟩, ?_⟩ <;> simp [Graph.empty]

theorem Graph.Mirrored.paired {g : Graph} (hm : g.Mirrored) : Paired g g :=
  ⟨hm.1, hm.1, rfl, rfl, fun i hi => ⟨hm.2 i hi, hm.2 i hi, rfl, rfl, rfl⟩, fun _ _ => rfl⟩

/-- Every network the builder returns is a paired network: the regular and the residual
graph hold the same vertices and the same edges at the same pointers. -/
theorem buildNetwork_paired {stations : List String} {links : List Link} {g r : Graph}
    (h : buildNetwork stations links = some (g, r)) : g = r ∧ Paired g r := by
  unfold buildNetwork at h
  obtain ⟨a, ha, hma⟩ := addStations_mirrored stations Graph.empty empty_mirrored
  rw [ha] at h
  obtain ⟨rfl, hm⟩ := addLinks_mirrored links a g r hma h
  exact ⟨rfl, hm.paired⟩

/-- The regular graph of a network built from links of capacity below a bound has all its
capacities below the bound. -/
theorem buildNetwork_capacityBelow {stations : List String} {links : List Link} {g r : Graph}
    (B : Nat) (hB : ∀ l ∈ links, l.capacity < B)
    (h : buildNetwork stations links = some (g, r)) : g.CapacityBelow B := by
  unfold buildNetwork at h
  obtain ⟨a, ha, -⟩ := addStations_mirrored stations Graph.empty empty_mirrored
  have hedges := addStations_edges stations Graph.empty Graph.empty
  rw [ha] at h hedges
  refine addLinks_capacityBelow B links a g r hB ?_ h
  intro e he
  rw [show a.edges = Graph.empty.edges from hedges] at he
  simp [Graph.empty] at he

/-! ## States up to volatile fields -/

theorem Graph.EqUpTo.reflUpTo (nv : Vertex → Vertex) (ne : Edge → Edge) (g : Graph) :
    g.EqUpTo nv ne g := ⟨rfl, rfl, rfl, rfl⟩

theorem Graph.EqUpTo.symmUpTo {nv : Vertex → Vertex} {ne : Edge → Edge} {g h : Graph}
    (h1 : g.EqUpTo nv ne h) : h.EqUpTo nv ne g :=
  ⟨h1.1.symm, h1.2.1.symm, h1.2.2.1.symm, h1.2.2.2.symm⟩

theorem Graph.EqUpTo.transUpTo {nv : Vertex → Vertex} {ne : Edge → Edge} {a b c : Graph}
    (h1 : a.EqUpTo nv ne b) (h2 : b.EqUpTo nv ne c) : a.EqUpTo nv ne c :=
  ⟨h2.1.trans h1.1, h2.2.1.trans h1.2.1, h2.2.2.1.trans h1.2.2.1, h2.2.2.2.trans h1.2.2.2⟩

theorem map_eq_of_coarser {α : Type} {n n1 : α → α} {l k : List α}
    (h : l.map n = k.map n) (hn : ∀ x, n1 (n x) = n1 x) : l.map n1 = k.map n1 := by
  have h2 := congrArg (List.map n1) h
  simpa [List.map_map, Function.comp_def, hn] using h2

/-- Agreement up to finer maps gives agreement up to coarser maps. -/
theorem Graph.EqUpTo.weaken {nv ne : _} {nv1 : Vertex → Vertex} {ne1 : Edge → Edge}
    {g h : Graph} (h1 : g.EqUpTo nv ne h) (hv : ∀ v, nv1 (nv v) = nv1 v)
    (he : ∀ e, ne1 (ne e) = ne1 e) : g.EqUpTo nv1 ne1 h :=
  ⟨h1.1, h1.2.1, map_eq_of_coarser h1.2.2.1 hv, map_eq_of_coarser h1.2.2.2 he⟩

theorem updateEdge_eqUpTo {g h : Graph} {e : Nat} {f : Edge → Edge}
    (hu : g.updateEdge e f = some h) (nv : Vertex → Vertex) (ne : Edge → Edge)
    (hf : ∀ x, ne (f x) = ne x) : g.EqUpTo nv ne h := by
  obtain ⟨x, hx, rfl⟩ := updateEdge_eq_some hu
  refine ⟨rfl, rfl, rfl, ?_⟩
  apply List.ext_getElem?
  intro i
  simp only [List.getElem?_map, List.getElem?_set]
  by_cases hie : e = i
  · subst hie
    have hlt : e < g.edges.length := (List.getElem?_eq_some.mp hx).1
    simp [hlt, hx, hf]
  · simp [hie]

theorem updateVertex_eqUpTo {g h : Graph} {v : Nat} {f : Vertex → Vertex}
    (hu : g.updateVertex v f = some h) (nv : Vertex → Vertex) (ne : Edge → Edge)
    (hf : ∀ x, nv (f x) = nv x) : g.EqUpTo nv ne h := by
  obtain ⟨x, hx, rfl⟩ := updateVertex_eq_some hu
  refine ⟨rfl, rfl, ?_, rfl⟩
  apply List.ext_getElem?
  intro i
  simp only [List.getElem?_map, List.getElem?_set]
  by_cases hie : v = i
  · subst hie
    have hlt : v < g.vertexSet.length := (List.getElem?_eq_some.mp hx).1
    simp [hlt, hx, hf]
  · simp [hie]

theorem getElem?_map_of_map_eq {α β : Type} {n : α → α} (p : α → β) {l k : List α}
    (h : l.map n = k.map n) (hp : ∀ x, p (n x) = p x) (i : Nat) :
    (l[i]?).map p = (k[i]?).map p := by
  have h2 := congrArg (fun m => (m[i]?).map p) h
  simpa [List.getElem?_map, Option.map_map, Function.comp_def, hp] using h2

/-- Agreement up to flows, capacities, flags and search marks keeps the static part. -/
theorem Graph.EqUpTo.staticUpTo {g h : Graph}
    (h1 : g.EqUpTo Vertex.unsearched Edge.bare h) : SameStatic g h := by
  obtain ⟨-, hid, hv, he⟩ := h1
  refine ⟨by simpa using congrArg List.length he, by simpa using congrArg List.length hv, hid,
    ?_, ?_, ?_, ?_, ?_, ?_, ?_⟩
  · intro i; exact getElem?_map_of_map_eq (fun x : Edge => x.orig) he (fun _ => rfl) i
  · intro i; exact getElem?_map_of_map_eq (fun x : Edge => x.dest) he (fun _ => rfl) i
  · intro i
    have := getElem?_map_of_map_eq (fun x : Edge => x.reverse) he (fun _ => rfl) i
    simp only [Graph.getReverse]
    cases h1 : h.edges[i]? <;> cases h2 : g.edges[i]? <;> simp_all
  · intro i
    have := getElem?_map_of_map_eq (fun x : Edge => x.correspondingEdge) he (fun _ => rfl) i
    simp only [Graph.getCorrespondingEdge]
    cases h1 : h.edges[i]? <;> cases h2 : g.edges[i]? <;> simp_all
  · intro x
    have := getElem?_map_of_map_eq (fun x : Vertex => x.adj) hv (fun _ => rfl) x
    simp only [Graph.adjOf, this]
  · intro x
    have := getElem?_map_of_map_eq (fun x : Vertex => x.incoming) hv (fun _ => rfl) x
    simp only [Graph.incomingOf, this]
  · intro x; exact getElem?_map_of_map_eq (fun x : Vertex => x.id) hv (fun _ => rfl) x

theorem unsearched_unmarked (v : Vertex) : (Vertex.unmarked v).unsearched = v.unsearched := rfl

theorem unsearched_unsearched (v : Vertex) : (Vertex.unsearched v).unsearched = v.unsearched :=
  rfl

theorem bare_noFlow (e : Edge) : (Edge.noFlow e).bare = e.bare := rfl

theorem bare_noCapacity (e : Edge) : (Edge.noCapacity e).bare = e.bare := rfl

theorem bare_noFlag (e : Edge) : (Edge.noFlag e).bare = e.bare := rfl

/-- Two states of the same network have the same static part. -/
theorem SameNetwork.staticNet {g r g1 r1 : Graph} (h : SameNetwork g r g1 r1) :
    SameStatic g g1 ∧ SameStatic r r1 :=
  ⟨(h.1.weaken unsearched_unmarked bare_noFlow).staticUpTo,
    (h.2.weaken unsearched_unsearched bare_noCapacity).staticUpTo⟩

theorem SameNetwork.reflNet (g r : Graph) : SameNetwork g r g r :=
  ⟨Graph.EqUpTo.reflUpTo _ _ g, Graph.EqUpTo.reflUpTo _ _ r⟩

theorem SameNetwork.symmNet {g r g1 r1 : Graph} (h : SameNetwork g r g1 r1) :
    SameNetwork g1 r1 g r := ⟨h.1.symmUpTo, h.2.symmUpTo⟩

theorem SameNetwork.transNet {g r g1 r1 g2 r2 : Graph} (h : SameNetwork g r g1 r1)
    (h2 : SameNetwork g1 r1 g2 r2) : SameNetwork g r g2 r2 := ⟨h.1.transUpTo h2.1, h.2.transUpTo h2.2⟩

theorem SameNetwork.pairedNet {g r g1 r1 : Graph} (h : SameNetwork g r g1 r1) (hp : Paired g r) :
    Paired g1 r1 := hp.sameStatic h.staticNet.1 h.staticNet.2

/-! ## Deactivation and activation of links -/

theorem updateEdge_some {g : Graph} {e : Nat} (f : Edge → Edge) (he : e < g.edges.length) :
    ∃ h, g.updateEdge e f = some h := by
  unfold Graph.updateEdge
  rw [List.getElem?_eq_getElem he]
  exact ⟨_, rfl⟩

theorem updateVertex_some {g : Graph} {v : Nat} (f : Vertex → Vertex)
    (hv : v < g.vertexSet.length) : ∃ h, g.updateVertex v f = some h := by
  unfold Graph.updateVertex
  rw [List.getElem?_eq_getElem hv]
  exact ⟨_, rfl⟩

/-- One pass of the loop of `deactivateEdges` / `activateEdges` on a paired network: it
returns, and it overwrites the flag of the edge and of its reverse in both graphs and nothing
else. -/
theorem selectEdge_spec {g r : Graph} (hp : Paired g r) (s : Bool) {e : Nat}
    (he : e < g.edges.length) :
    ∃ g1 r1 j, g.getReverse e = some j ∧ selectEdge s e g r = some (g1, r1) ∧
      g1.vertexSet = g.vertexSet ∧ g1.idToVertex = g.idToVertex ∧
      g1.totalEdges = g.totalEdges ∧ r1.vertexSet = r.vertexSet ∧
      r1.idToVertex = r.idToVertex ∧ r1.totalEdges = r.totalEdges ∧
      SameStatic g g1 ∧ SameStatic r r1 ∧
      (∀ i, g1.edges[i]? = (g.edges[i]?).map (Edge.flagIf s (i = e ∨ i = j))) ∧
      (∀ i, r1.edges[i]? = (r.edges[i]?).map (Edge.flagIf s (i = e ∨ i = j))) := by
  obtain ⟨j, hj, hji, hgr, -, -, -, hgc⟩ := hp.reverse he
  obtain ⟨-, -, -, -, -, -, -, hgcj⟩ := hp.reverse hj
  have hlen : g.edges.length = r.edges.length := hp.2.2.2.1
  obtain ⟨g1, hg1⟩ := updateEdge_some (fun x => { x with selected := s }) he
  have hs1 : SameStatic g g1 := updateEdge_sameStatic hg1 (fun _ => ⟨rfl, rfl, rfl, rfl⟩)
  obtain ⟨r1, hr1⟩ := updateEdge_some (g := r) (fun x => { x with selected := s }) (hlen ▸ he)
  obtain ⟨g2, hg2⟩ := updateEdge_some (g := g1) (fun x => { x with selected := s })
    (hs1.edges_length ▸ hj)
  have hs2 : SameStatic g1 g2 := updateEdge_sameStatic hg2 (fun _ => ⟨rfl, rfl, rfl, rfl⟩)
  have hr1len := (updateEdge_rest hr1).2.2.2
  obtain ⟨r2, hr2⟩ := updateEdge_some (g := r1) (fun x => { x with selected := s })
    (by rw [hr1len, ← hlen]; exact hj)
  have e1 : g1.getCorrespondingEdge e = some e := by rw [hs1.getCorrespondingEdge]; exact hgc
  have e2 : g1.getReverse e = some j := by rw [hs1.getReverse]; exact hgr
  have e3 : g2.getReverse e = some j := by rw [hs2.getReverse]; exact e2
  have e4 : g2.getCorrespondingEdge j = some j := by
    rw [hs2.getCorrespondingEdge, hs1.getCorrespondingEdge]; exact hgcj
  have hs3 : SameStatic r r1 := updateEdge_sameStatic hr1 (fun _ => ⟨rfl, rfl, rfl, rfl⟩)
  have hs4 : SameStatic r1 r2 := updateEdge_sameStatic hr2 (fun _ => ⟨rfl, rfl, rfl, rfl⟩)
  refine ⟨g2, r2, j, hgr, ?_, ?_, ?_, ?_, ?_, ?_, ?_, hs1.trans hs2, hs3.trans hs4, ?_, ?_⟩
  · simp [selectEdge, Graph.setSelected, hg1, e1, hr1, e2, hg2, e3, e4, hr2]
  · rw [(updateEdge_rest hg2).1, (updateEdge_rest hg1).1]
  · rw [(updateEdge_rest hg2).2.1, (updateEdge_rest hg1).2.1]
  · rw [(updateEdge_rest hg2).2.2.1, (updateEdge_rest hg1).2.2.1]
  · rw [(updateEdge_rest hr2).1, (updateEdge_rest hr1).1]
  · rw [(updateEdge_rest hr2).2.1, (updateEdge_rest hr1).2.1]
  · rw [(updateEdge_rest hr2).2.2.1, (updateEdge_rest hr1).2.2.1]
  · intro i
    rw [updateEdge_edges hg2, updateEdge_edges hg1, updateEdge_edges hg1]
    by_cases hie : i = e
    · subst hie
      have : ¬ i = j := fun h => hji h.symm
      cases hx : g.edges[i]? <;> simp [this, Edge.flagIf]
    · by_cases hij : i = j
      · subst hij; cases hx : g.edges[i]? <;> simp [hie, Edge.flagIf]
      · cases hx : g.edges[i]? <;> simp [hie, hij, Edge.flagIf]
  · intro i
    rw [updateEdge_edges hr2, updateEdge_edges hr1, updateEdge_edges hr1]
    by_cases hie : i = e
    · subst hie
      have : ¬ i = j := fun h => hji h.symm
      cases hx : r.edges[i]? <;> simp [this, Edge.flagIf]
    · by_cases hij : i = j
      · subst hij; cases hx : r.edges[i]? <;> simp [hie, Edge.flagIf]
      · cases hx : r.edges[i]? <;> simp [hie, hij, Edge.flagIf]

theorem flagIf_flagIf (s : Bool) (c d : Prop) [Decidable c] [Decidable d] (x : Edge) :
    Edge.flagIf s d (Edge.flagIf s c x) = Edge.flagIf s (c ∨ d) x := by
  unfold Edge.flagIf
  by_cases hc : c <;> by_cases hd : d <;> simp [hc, hd]

theorem flagIf_congr (s : Bool) {c d : Prop} [Decidable c] [Decidable d] (h : c ↔ d) (x : Edge) :
    Edge.flagIf s c x = Edge.flagIf s d x := by
  unfold Edge.flagIf
  by_cases hc : c
  · simp [hc, h.mp hc]
  · have : ¬ d := fun hd => hc (h.mpr hd)
    simp [hc, this]

/-- The loop of `deactivateEdges` / `activateEdges` on a paired network and a list of valid
edge pointers: it returns, and it overwrites the flags of the listed edges and of their
reverses in both graphs and nothing else. -/
theorem selectEdges_spec (s : Bool) : ∀ (S : List Nat) (g r : Graph), Paired g r →
    (∀ e ∈ S, e < g.edges.length) →
    ∃ g1 r1, selectEdges s S g r = some (g1, r1) ∧
      g1.vertexSet = g.vertexSet ∧ g1.idToVertex = g.idToVertex ∧
      g1.totalEdges = g.totalEdges ∧ r1.vertexSet = r.vertexSet ∧
      r1.idToVertex = r.idToVertex ∧ r1.totalEdges = r.totalEdges ∧
      SameStatic g g1 ∧ SameStatic r r1 ∧
      (∀ i, g1.edges[i]? = (g.edges[i]?).map (Edge.flagIf s (g.InLinks S i))) ∧
      (∀ i, r1.edges[i]? = (r.edges[i]?).map (Edge.flagIf s (g.InLinks S i))) := by
  intro S
  induction S with
  | nil =>
    intro g r _ _
    refine ⟨g, r, rfl, rfl, rfl, rfl, rfl, rfl, rfl, SameStatic.refl g, SameStatic.refl r, ?_, ?_⟩
    · intro i; cases h : g.edges[i]? <;> simp [Edge.flagIf, Graph.InLinks]
    · intro i; cases h : r.edges[i]? <;> simp [Edge.flagIf, Graph.InLinks]
  | cons e rest ih =>
    intro g r hp hS
    have he : e < g.edges.length := hS e (List.mem_cons_self _ _)
    obtain ⟨ga, ra, j, hgr, hsel, hv, hid, ht, hrv, hrid, hrt, hsg, hsr, hge, hre⟩ :=
      selectEdge_spec hp s he
    have hpa : Paired ga ra := hp.sameStatic hsg hsr
    obtain ⟨g1, r1, hrest, hv1, hid1, ht1, hrv1, hrid1, hrt1, hsg1, hsr1, hge1, hre1⟩ :=
      ih ga ra hpa (fun x hx => by
        rw [hsg.edges_length]; exact hS x (List.mem_cons_of_mem _ hx))
    have hiff : ∀ i, ((i = e ∨ i = j) ∨ ga.InLinks rest i) ↔ g.InLinks (e :: rest) i := by
      intro i
      simp only [Graph.InLinks, hsg.getReverse, List.mem_cons, exists_eq_or_imp, hgr,
        Option.some.injEq]
      constructor
      · rintro ((h | h) | h | h)
        · exact Or.inl (Or.inl h)
        · exact Or.inr (Or.inl h.symm)
        · exact Or.inl (Or.inr h)
        · exact Or.inr (Or.inr h)
      · rintro ((h | h) | h | h)
        · exact Or.inl (Or.inl h)
        · exact Or.inr (Or.inl h)
        · exact Or.inl (Or.inr h.symm)
        · exact Or.inr (Or.inr h)
    refine ⟨g1, r1, ?_, hv1.trans hv, hid1.trans hid, ht1.trans ht, hrv1.trans hrv,
      hrid1.trans hrid, hrt1.trans hrt, hsg.trans hsg1, hsr.trans hsr1, ?_, ?_⟩
    · simp [selectEdges, hsel, hrest]
    · intro i
      rw [hge1, hge, Option.map_map]
      congr 1
      funext x
      simp only [Function.comp]
      rw [flagIf_flagIf]
      exact flagIf_congr s (hiff i) x
    · intro i
      rw [hre1, hre, Option.map_map]
      congr 1
      funext x
      simp only [Function.comp]
      rw [flagIf_flagIf]
      exact flagIf_congr s (hiff i) x

/-! ## What a flow computation leaves unchanged -/

theorem Graph.EqUpTo.vertexSet_eq {ne : Edge → Edge} {g h : Graph}
    (h1 : g.EqUpTo (fun v => v) ne h) : h.vertexSet = g.vertexSet := by
  simpa using h1.2.2.1

theorem setFlow_eqUpTo {g h : Graph} {e f : Nat} (hu : g.setFlow e f = some h) :
    g.EqUpTo (fun v => v) Edge.noFlow h :=
  updateEdge_eqUpTo hu _ _ (fun _ => rfl)

theorem setCapacity_eqUpTo {g h : Graph} {e c : Nat} (hu : g.setCapacity e c = some h) :
    g.EqUpTo Vertex.unsearched Edge.noCapacity h :=
  updateEdge_eqUpTo hu _ _ (fun _ => rfl)

theorem augmentWithin_frame {g r g1 r1 : Graph} {i j k value : Nat}
    (h : augmentWithin i j k value g r = some (g1, r1)) :
    g.EqUpTo (fun v => v) Edge.noFlow g1 ∧ r.EqUpTo Vertex.unsearched Edge.noCapacity r1 := by
  simp only [augmentWithin, Option.bind_eq_bind, Option.bind_eq_some, Option.pure_def,
    Option.some.injEq, Prod.mk.injEq] at h
  obtain ⟨f, -, ga, hga, c1, -, f1, -, ra, hra, rc, -, rb, hrb, rfl, rfl⟩ := h
  exact ⟨setFlow_eqUpTo hga, (setCapacity_eqUpTo hra).transUpTo (setCapacity_eqUpTo hrb)⟩

theorem augmentExceeds_frame {g r g1 r1 : Graph} {i j k l value : Nat}
    (h : augmentExceeds i j k l value g r = some (g1, r1)) :
    g.EqUpTo (fun v => v) Edge.noFlow g1 ∧ r.EqUpTo Vertex.unsearched Edge.noCapacity r1 := by
  simp only [augmentExceeds, Option.bind_eq_bind, Option.bind_eq_some, Option.pure_def,
    Option.some.injEq, Prod.mk.injEq] at h
  obtain ⟨f, -, c, -, ga, hga, fj, -, c1, -, gb, hgb, ra, hra, rc, -, c2, -, rb, hrb,
    rfl, rfl⟩ := h
  exact ⟨(setFlow_eqUpTo hga).transUpTo (setFlow_eqUpTo hgb),
    (setCapacity_eqUpTo hra).transUpTo (setCapacity_eqUpTo hrb)⟩

theorem augmentEdge_frame {g r g1 r1 : Graph} {i value : Nat}
    (h : augmentEdge i value g r = some (g1, r1)) :
    g.EqUpTo (fun v => v) Edge.noFlow g1 ∧ r.EqUpTo Vertex.unsearched Edge.noCapacity r1 := by
  simp only [augmentEdge, Option.bind_eq_bind, Option.bind_eq_some] at h
  obtain ⟨j, -, k, -, l, -, f, -, c, -, h⟩ := h
  split at h
  · exact augmentExceeds_frame h
  · exact augmentWithin_frame h

theorem augmentPathLoop_frame (value : Nat) : ∀ (fuel cur : Nat) (g r g1 r1 : Graph) (fin : Bool),
    augmentPathLoop value fuel cur g r = some (fin, g1, r1) →
    g.EqUpTo (fun v => v) Edge.noFlow g1 ∧ r.EqUpTo Vertex.unsearched Edge.noCapacity r1 := by
  intro fuel
  induction fuel with
  | zero =>
    intro cur g r g1 r1 fin h
    simp only [augmentPathLoop, Option.some.injEq, Prod.mk.injEq] at h
    obtain ⟨-, rfl, rfl⟩ := h
    exact ⟨Graph.EqUpTo.reflUpTo _ _ _, Graph.EqUpTo.reflUpTo _ _ _⟩
  | succ fuel ih =>
    intro cur g r g1 r1 fin h
    simp only [augmentPathLoop, Option.bind_eq_bind, Option.bind_eq_some] at h
    obtain ⟨cv, -, h⟩ := h
    cases hp : cv.path with
    | none =>
      simp only [hp, Option.some.injEq, Prod.mk.injEq] at h
      obtain ⟨-, rfl, rfl⟩ := h
      exact ⟨Graph.EqUpTo.reflUpTo _ _ _, Graph.EqUpTo.reflUpTo _ _ _⟩
    | some p =>
      simp only [hp, Option.bind_eq_bind, Option.bind_eq_some] at h
      obtain ⟨⟨ga, ra⟩, hstep, cv1, -, q, -, next, -, h⟩ := h
      obtain ⟨h1, h2⟩ := augmentEdge_frame hstep
      obtain ⟨h3, h4⟩ := ih _ _ _ _ _ _ h
      exact ⟨h1.transUpTo h3, h2.transUpTo h4⟩

theorem augmentPath_frame {g r g1 r1 : Graph} {target : String} {value : Nat}
    (h : r.augmentPath target value g = some (g1, r1)) :
    g.EqUpTo (fun v => v) Edge.noFlow g1 ∧ r.EqUpTo Vertex.unsearched Edge.noCapacity r1 := by
  simp only [Graph.augmentPath, Option.bind_eq_bind, Option.bind_eq_some] at h
  obtain ⟨cur, -, ⟨fin, ga, ra⟩, hl, h⟩ := h
  cases fin with
  | false => simp at h
  | true =>
    simp only [Option.some.injEq, Prod.mk.injEq] at h
    obtain ⟨rfl, rfl⟩ := h
    exact augmentPathLoop_frame _ _ _ _ _ _ _ _ hl

theorem resetAdj_frame : ∀ (es : List Nat) (g r g1 r1 : Graph),
    resetAdj es g r = some (g1, r1) →
    g.EqUpTo (fun v => v) Edge.noFlow g1 ∧ r.EqUpTo Vertex.unsearched Edge.noCapacity r1 := by
  intro es
  induction es with
  | nil =>
    intro g r g1 r1 h
    simp only [resetAdj, Option.some.injEq, Prod.mk.injEq] at h
    obtain ⟨rfl, rfl⟩ := h
    exact ⟨Graph.EqUpTo.reflUpTo _ _ _, Graph.EqUpTo.reflUpTo _ _ _⟩
  | cons e es ih =>
    intro g r g1 r1 h
    simp only [resetAdj, Option.bind_eq_bind, Option.bind_eq_some] at h
    obtain ⟨ga, hga, c, -, cap, -, ra, hra, h⟩ := h
    obtain ⟨h3, h4⟩ := ih _ _ _ _ h
    exact ⟨(setFlow_eqUpTo hga).transUpTo h3, (setCapacity_eqUpTo hra).transUpTo h4⟩

theorem resetFlows_frame : ∀ (vs : List Vertex) (g r g1 r1 : Graph),
    resetFlows vs g r = some (g1, r1) →
    g.EqUpTo (fun v => v) Edge.noFlow g1 ∧ r.EqUpTo Vertex.unsearched Edge.noCapacity r1 := by
  intro vs
  induction vs with
  | nil =>
    intro g r g1 r1 h
    simp only [resetFlows, Option.some.injEq, Prod.mk.injEq] at h
    obtain ⟨rfl, rfl⟩ := h
    exact ⟨Graph.EqUpTo.reflUpTo _ _ _, Graph.EqUpTo.reflUpTo _ _ _⟩
  | cons v vs ih =>
    intro g r g1 r1 h
    simp only [resetFlows, Option.bind_eq_bind, Option.bind_eq_some] at h
    obtain ⟨⟨ga, ra⟩, hstep, h⟩ := h
    obtain ⟨h1, h2⟩ := resetAdj_frame _ _ _ _ _ hstep
    obtain ⟨h3, h4⟩ := ih _ _ _ _ h
    exact ⟨h1.transUpTo h3, h2.transUpTo h4⟩

theorem resetSearch_eqUpTo (r : Graph) (ne : Edge → Edge) :
    r.EqUpTo Vertex.unsearched ne r.resetSearch := by
  refine ⟨rfl, rfl, ?_, rfl⟩
  simp [Graph.resetSearch, List.map_map, Function.comp_def, Vertex.unsearched]

theorem pushSources_frame (ne : Edge → Edge) : ∀ (src : List String) (a b : Graph)
    (q q1 : List String), Graph.pushSources src a q = some (b, q1) →
    a.EqUpTo Vertex.unsearched ne b := by
  intro src
  induction src with
  | nil =>
    intro a b q q1 h
    simp only [Graph.pushSources, Option.some.injEq, Prod.mk.injEq] at h
    obtain ⟨rfl, -⟩ := h
    exact Graph.EqUpTo.reflUpTo _ _ _
  | cons s rest ih =>
    intro a b q q1 h
    simp only [Graph.pushSources, Option.bind_eq_bind, Option.bind_eq_some] at h
    obtain ⟨v, -, a1, ha1, h⟩ := h
    exact (updateVertex_eqUpTo ha1 Vertex.unsearched ne (fun _ => rfl)).transUpTo (ih _ _ _ _ h)

theorem pathAdj_frame (ne : Edge → Edge) (target : String) : ∀ (es : List Nat) (r r1 : Graph)
    (q q1 : List String) (found : Bool),
    Graph.pathAdj target es r q = some (found, r1, q1) → r.EqUpTo Vertex.unsearched ne r1 := by
  intro es
  induction es with
  | nil =>
    intro r r1 q q1 found h
    simp only [Graph.pathAdj, Option.some.injEq, Prod.mk.injEq] at h
    obtain ⟨-, rfl, -⟩ := h
    exact Graph.EqUpTo.reflUpTo _ _ _
  | cons e es ih =>
    intro r r1 q q1 found h
    simp only [Graph.pathAdj, Option.bind_eq_bind, Option.bind_eq_some] at h
    obtain ⟨edge, -, d, -, h⟩ := h
    split at h
    · simp only [Option.bind_eq_bind, Option.bind_eq_some] at h
      obtain ⟨ra, hra, h⟩ := h
      have h1 : r.EqUpTo Vertex.unsearched ne ra := updateVertex_eqUpTo hra _ _ (fun _ => rfl)
      split at h
      · simp only [Option.some.injEq, Prod.mk.injEq] at h
        obtain ⟨-, rfl, -⟩ := h
        exact h1
      · exact h1.transUpTo (ih _ _ _ _ _ h)
    · exact ih _ _ _ _ _ h

theorem pathLoop_frame (ne : Edge → Edge) (target : String) : ∀ (fuel : Nat) (r r1 : Graph)
    (q : List String) (found : Bool),
    Graph.pathLoop target fuel r q = some (found, r1) → r.EqUpTo Vertex.unsearched ne r1 := by
  intro fuel
  induction fuel with
  | zero => intro r r1 q found h; simp [Graph.pathLoop] at h
  | succ fuel ih =>
    intro r r1 q found h
    cases q with
    | nil =>
      simp only [Graph.pathLoop, Option.some.injEq, Prod.mk.injEq] at h
      obtain ⟨-, rfl⟩ := h
      exact Graph.EqUpTo.reflUpTo _ _ _
    | cons front q =>
      simp only [Graph.pathLoop, Option.bind_eq_bind, Option.bind_eq_some] at h
      obtain ⟨cur, -, cv, -, ⟨fnd, ra, qa⟩, hadj, h⟩ := h
      have h1 := pathAdj_frame ne target _ _ _ _ _ _ hadj
      split at h
      · simp only [Option.some.injEq, Prod.mk.injEq] at h
        obtain ⟨-, rfl⟩ := h
        exact h1
      · exact h1.transUpTo (ih _ _ _ _ h)

/-- The search `Graph::path` overwrites visited marks and predecessor edges only. -/
theorem path_frame (ne : Edge → Edge) {r r1 : Graph} {source : List String} {target : String}
    {found : Bool} (h : r.path source target = some (found, r1)) :
    r.EqUpTo Vertex.unsearched ne r1 := by
  simp only [Graph.path, Option.bind_eq_bind, Option.bind_eq_some] at h
  obtain ⟨⟨ra, q⟩, hpush, h⟩ := h
  exact ((resetSearch_eqUpTo r ne).transUpTo (pushSources_frame ne _ _ _ _ _ hpush)).transUpTo
    (pathLoop_frame ne target _ _ _ _ _ h)

theorem path_edges {r r1 : Graph} {source : List String} {target : String}
    {found : Bool} (h : r.path source target = some (found, r1)) : r1.edges = r.edges := by
  simpa using (path_frame (fun e => e) h).2.2.2

theorem edmondsKarpLoop_frame (source : List String) (target : String) :
    ∀ (fuel maxFlow : Nat) (g r : Graph) (fin : Bool) (maxFlow1 : Nat) (g1 r1 : Graph),
      edmondsKarpLoop source target fuel maxFlow g r = some (fin, maxFlow1, g1, r1) →
      g.EqUpTo (fun v => v) Edge.noFlow g1 ∧ r.EqUpTo Vertex.unsearched Edge.noCapacity r1 := by
  intro fuel
  induction fuel with
  | zero =>
    intro maxFlow g r fin maxFlow1 g1 r1 h
    simp only [edmondsKarpLoop, Option.some.injEq, Prod.mk.injEq] at h
    obtain ⟨-, -, rfl, rfl⟩ := h
    exact ⟨Graph.EqUpTo.reflUpTo _ _ _, Graph.EqUpTo.reflUpTo _ _ _⟩
  | succ fuel ih =>
    intro maxFlow g r fin maxFlow1 g1 r1 h
    simp only [edmondsKarpLoop, Option.bind_eq_bind, Option.bind_eq_some] at h
    obtain ⟨⟨found, ra⟩, hpath, h⟩ := h
    have h1 := path_frame Edge.noCapacity hpath
    split at h
    · simp only [Option.bind_eq_bind, Option.bind_eq_some] at h
      obtain ⟨b, -, ⟨gb, rb⟩, haug, h⟩ := h
      obtain ⟨h2, h3⟩ := augmentPath_frame haug
      obtain ⟨h4, h5⟩ := ih _ _ _ _ _ _ _ h
      exact ⟨h2.transUpTo h4, (h1.transUpTo h3).transUpTo h5⟩
    · simp only [Option.some.injEq, Prod.mk.injEq] at h
      obtain ⟨-, -, rfl, rfl⟩ := h
      exact ⟨Graph.EqUpTo.reflUpTo _ _ _, h1⟩

/-- A run of `edmondsKarp` overwrites nothing but the flows of the regular edges, the
capacities of the residual edges and the search marks of the residual vertices. -/
theorem edmondsKarp_frame {g r g1 r1 : Graph} {fuel F : Nat} {source : List String}
    {target : String} (h : g.edmondsKarp fuel source target r = some (F, g1, r1)) :
    g.EqUpTo (fun v => v) Edge.noFlow g1 ∧ r.EqUpTo Vertex.unsearched Edge.noCapacity r1 := by
  simp only [Graph.edmondsKarp, Option.bind_eq_bind, Option.bind_eq_some] at h
  obtain ⟨⟨g0, r0⟩, hreset, ⟨fin, mf, ga, ra⟩, hl, h⟩ := h
  cases fin with
  | false => simp at h
  | true =>
    simp only [Option.some.injEq, Prod.mk.injEq] at h
    obtain ⟨-, rfl, rfl⟩ := h
    obtain ⟨h1, h2⟩ := resetFlows_frame _ _ _ _ _ hreset
    obtain ⟨h3, h4⟩ := edmondsKarpLoop_frame _ _ _ _ _ _ _ _ _ _ hl
    exact ⟨h1.transUpTo h3, h2.transUpTo h4⟩

theorem unmarked_id (v : Vertex) : Vertex.unmarked ((fun v => v) v) = v.unmarked := rfl

theorem noFlow_noFlow (e : Edge) : Edge.noFlow (Edge.noFlow e) = e.noFlow := rfl

/-- The states before and after a run of `edmondsKarp` are states of the same network. -/
theorem edmondsKarp_sameNetwork {g r g1 r1 : Graph} {fuel F : Nat} {source : List String}
    {target : String} (h : g.edmondsKarp fuel source target r = some (F, g1, r1)) :
    SameNetwork g r g1 r1 :=
  ⟨(edmondsKarp_frame h).1.weaken unmarked_id noFlow_noFlow, (edmondsKarp_frame h).2⟩

/-! ## A flow computation reads the regular graph through its edges only -/

theorem updateEdge_transport {g g1 k : Graph} {e : Nat} {f : Edge → Edge}
    (hu : g.updateEdge e f = some g1) (hk : k.edges = g.edges) :
    k.updateEdge e f = some { k with edges := g1.edges } := by
  obtain ⟨x, hx, rfl⟩ := updateEdge_eq_some hu
  simp [Graph.updateEdge, hk, hx]

theorem setFlow_transport {g g1 k : Graph} {e v : Nat}
    (hu : g.setFlow e v = some g1) (hk : k.edges = g.edges) :
    k.setFlow e v = some { k with edges := g1.edges } :=
  updateEdge_transport hu hk

theorem getFlow_transport {g k : Graph} (hk : k.edges = g.edges) (e : Nat) :
    k.getFlow e = g.getFlow e := by simp [Graph.getFlow, hk]

theorem getCapacity_transport {g k : Graph} (hk : k.edges = g.edges) (e : Nat) :
    k.getCapacity e = g.getCapacity e := by simp [Graph.getCapacity, hk]

theorem getReverse_transport {g k : Graph} (hk : k.edges = g.edges) (e : Nat) :
    k.getReverse e = g.getReverse e := by simp [Graph.getReverse, hk]

theorem getCorrespondingEdge_transport {g k : Graph} (hk : k.edges = g.edges) (e : Nat) :
    k.getCorrespondingEdge e = g.getCorrespondingEdge e := by
  simp [Graph.getCorrespondingEdge, hk]

theorem augmentWithin_transport {g r g1 r1 k : Graph} {i j l value : Nat}
    (h : augmentWithin i j l value g r = some (g1, r1)) (hk : k.edges = g.edges) :
    augmentWithin i j l value k r = some ({ k with edges := g1.edges }, r1) := by
  simp only [augmentWithin, Option.bind_eq_bind, Option.bind_eq_some, Option.pure_def,
    Option.some.injEq, Prod.mk.injEq] at h ⊢
  obtain ⟨f, hf, ga, hga, c1, hc1, f1, hf1, ra, hra, rc, hrc, rb, hrb, rfl, rfl⟩ := h
  have hka : ({ k with edges := ga.edges } : Graph).edges = ga.edges := rfl
  exact ⟨f, (getFlow_transport hk l).trans hf, _, setFlow_transport hga hk, c1,
    (getCapacity_transport hka l).trans hc1, f1, (getFlow_transport hka l).trans hf1, ra, hra,
    rc, hrc, rb, hrb, rfl, rfl⟩

theorem augmentExceeds_transport {g r g1 r1 k : Graph} {i j l m value : Nat}
    (h : augmentExceeds i j l m value g r = some (g1, r1)) (hk : k.edges = g.edges) :
    augmentExceeds i j l m value k r = some ({ k with edges := g1.edges }, r1) := by
  simp only [augmentExceeds, Option.bind_eq_bind, Option.bind_eq_some, Option.pure_def,
    Option.some.injEq, Prod.mk.injEq] at h ⊢
  obtain ⟨f, hf, c, hc, ga, hga, fj, hfj, c1, hc1, gb, hgb, ra, hra, rc, hrc, c2, hc2, rb, hrb,
    rfl, rfl⟩ := h
  have hka : ({ k with edges := ga.edges } : Graph).edges = ga.edges := rfl
  have hkb : ({ k with edges := gb.edges } : Graph).edges = gb.edges := rfl
  exact ⟨f, (getFlow_transport hk l).trans hf, c, (getCapacity_transport hk l).trans hc, _,
    setFlow_transport hga hk, fj, (getFlow_transport hka m).trans hfj, c1,
    (getCapacity_transport hka l).trans hc1, _, setFlow_transport hgb hka, ra, hra, rc, hrc,
    c2, (getCapacity_transport hkb l).trans hc2, rb, hrb, rfl, rfl⟩

theorem augmentEdge_transport {g r g1 r1 k : Graph} {i value : Nat}
    (h : augmentEdge i value g r = some (g1, r1)) (hk : k.edges = g.edges) :
    augmentEdge i value k r = some ({ k with edges := g1.edges }, r1) := by
  simp only [augmentEdge, Option.bind_eq_bind, Option.bind_eq_some] at h ⊢
  obtain ⟨j, hj, l, hl, m, hm, f, hf, c, hc, h⟩ := h
  refine ⟨j, hj, l, hl, m, (getReverse_transport hk l).trans hm, f,
    (getFlow_transport hk l).trans hf, c, (getCapacity_transport hk l).trans hc, ?_⟩
  split at h
  · rename_i hgt
    rw [if_pos hgt]
    exact augmentExceeds_transport h hk
  · rename_i hgt
    rw [if_neg hgt]
    exact augmentWithin_transport h hk

theorem augmentPathLoop_transport (value : Nat) : ∀ (fuel cur : Nat) (g r g1 r1 k : Graph)
    (fin : Bool), augmentPathLoop value fuel cur g r = some (fin, g1, r1) →
    k.edges = g.edges →
    augmentPathLoop value fuel cur k r = some (fin, { k with edges := g1.edges }, r1) := by
  intro fuel
  induction fuel with
  | zero =>
    intro cur g r g1 r1 k fin h hk
    simp only [augmentPathLoop, Option.some.injEq, Prod.mk.injEq] at h ⊢
    obtain ⟨rfl, rfl, rfl⟩ := h
    exact ⟨rfl, by rw [← hk], rfl⟩
  | succ fuel ih =>
    intro cur g r g1 r1 k fin h hk
    simp only [augmentPathLoop, Option.bind_eq_bind, Option.bind_eq_some] at h ⊢
    obtain ⟨cv, hcv, h⟩ := h
    refine ⟨cv, hcv, ?_⟩
    cases hp : cv.path with
    | none =>
      simp only [hp, Option.some.injEq, Prod.mk.injEq] at h ⊢
      obtain ⟨rfl, rfl, rfl⟩ := h
      exact ⟨rfl, by rw [← hk], rfl⟩
    | some p =>
      simp only [hp, Option.bind_eq_bind, Option.bind_eq_some] at h ⊢
      obtain ⟨⟨ga, ra⟩, hstep, cv1, hcv1, q, hq, next, hnext, h⟩ := h
      exact ⟨_, augmentEdge_transport hstep hk, cv1, hcv1, q, hq, next, hnext,
        ih _ _ _ _ _ _ _ h rfl⟩

theorem augmentPath_transport {g r g1 r1 k : Graph} {target : String} {value : Nat}
    (h : r.augmentPath target value g = some (g1, r1)) (hk : k.edges = g.edges) :
    r.augmentPath target value k = some ({ k with edges := g1.edges }, r1) := by
  simp only [Graph.augmentPath, Option.bind_eq_bind, Option.bind_eq_some] at h ⊢
  obtain ⟨cur, hcur, ⟨fin, ga, ra⟩, hl, h⟩ := h
  cases fin with
  | false => simp at h
  | true =>
    simp only [Option.some.injEq, Prod.mk.injEq] at h
    obtain ⟨rfl, rfl⟩ := h
    exact ⟨cur, hcur, _, augmentPathLoop_transport _ _ _ _ _ _ _ _ _ hl hk, rfl⟩

/-- The search `Graph::path` starts by erasing the search marks, so its result depends on
the graph without them only. -/
theorem path_congr {r k : Graph} (h : k.resetSearch = r.resetSearch) (source : List String)
    (target : String) : k.path source target = r.path source target := by
  have hlen : k.vertexSet.length = r.vertexSet.length := by
    have := congrArg (fun x => x.vertexSet.length) h
    simpa [Graph.resetSearch] using this
  simp only [Graph.path, h, hlen]

theorem edmondsKarpLoop_transport (source : List String) (target : String) :
    ∀ (fuel maxFlow : Nat) (g r : Graph) (F : Nat) (g1 r1 k kr : Graph),
      edmondsKarpLoop source target fuel maxFlow g r = some (true, F, g1, r1) →
      k.edges = g.edges → kr.resetSearch = r.resetSearch →
      edmondsKarpLoop source target fuel maxFlow k kr
        = some (true, F, { k with edges := g1.edges }, r1) := by
  intro fuel
  induction fuel with
  | zero => intro maxFlow g r F g1 r1 k kr h; simp [edmondsKarpLoop] at h
  | succ fuel ih =>
    intro maxFlow g r F g1 r1 k kr h hk hkr
    simp only [edmondsKarpLoop, Option.bind_eq_bind, Option.bind_eq_some] at h ⊢
    obtain ⟨⟨found, ra⟩, hpath, h⟩ := h
    refine ⟨(found, ra), (path_congr hkr source target).trans hpath, ?_⟩
    cases found with
    | true =>
      simp only [if_true, Option.bind_eq_bind, Option.bind_eq_some] at h ⊢
      obtain ⟨b, hb, ⟨gb, rb⟩, haug, h⟩ := h
      exact ⟨b, hb, _, augmentPath_transport haug hk, ih _ _ _ _ _ _ _ _ h rfl rfl⟩
    | false =>
      simp only [Bool.false_eq_true, if_false, Option.some.injEq, Prod.mk.injEq] at h ⊢
      obtain ⟨-, rfl, rfl, rfl⟩ := h
      exact ⟨trivial, rfl, by rw [← hk], rfl⟩

/-! ## The value of `edmondsKarp` depends on the network only -/

theorem resetAdj_total : ∀ (es : List Nat) (g r : Graph),
    (∀ e ∈ es, e < g.edges.length ∧ g.getCorrespondingEdge e = some e) →
    g.edges.length = r.edges.length → ∃ g1 r1, resetAdj es g r = some (g1, r1) := by
  intro es
  induction es with
  | nil => intro g r _ _; exact ⟨g, r, rfl⟩
  | cons e es ih =>
    intro g r hes hlen
    obtain ⟨he, hc⟩ := hes e (List.mem_cons_self _ _)
    obtain ⟨ga, hga⟩ := updateEdge_some (fun x => { x with flow := 0 }) he
    have hga1 : g.setFlow e 0 = some ga := hga
    obtain ⟨hs, -, -, -, -⟩ := setFlow_spec hga1
    obtain ⟨ra, hra⟩ := updateEdge_some (g := r) (fun x => { x with capacity := ga.capOf e })
      (hlen ▸ he)
    have hra1 : r.setCapacity e (ga.capOf e) = some ra := hra
    obtain ⟨hsr, -, -, -, -⟩ := setCapacity_spec hra1
    obtain ⟨g1, r1, h1⟩ := ih ga ra (fun x hx => by
      obtain ⟨h1, h2⟩ := hes x (List.mem_cons_of_mem _ hx)
      rw [hs.edges_length, hs.getCorrespondingEdge]
      exact ⟨h1, h2⟩) (by rw [hs.edges_length, hsr.edges_length]; exact hlen)
    refine ⟨g1, r1, ?_⟩
    have hcap : ga.getCapacity e = some (ga.capOf e) :=
      getCapacity_of_lt (by rw [hs.edges_length]; exact he)
    simp [resetAdj, hga1, hs.getCorrespondingEdge, hc, hcap, hra1, h1]

theorem resetFlows_total : ∀ (vs : List Vertex) (g r : Graph),
    (∀ v ∈ vs, ∀ e ∈ v.adj, e < g.edges.length ∧ g.getCorrespondingEdge e = some e) →
    g.edges.length = r.edges.length → ∃ g1 r1, resetFlows vs g r = some (g1, r1) := by
  intro vs
  induction vs with
  | nil => intro g r _ _; exact ⟨g, r, rfl⟩
  | cons v vs ih =>
    intro g r hvs hlen
    obtain ⟨ga, ra, ha⟩ := resetAdj_total v.adj g r (hvs v (List.mem_cons_self _ _)) hlen
    obtain ⟨h1, h2⟩ := resetAdj_frame _ _ _ _ _ ha
    have hs := (@Graph.EqUpTo.weaken _ _ Vertex.unsearched Edge.bare _ _ h1 (fun _ => rfl)
      bare_noFlow).staticUpTo
    have hsr := (h2.weaken unsearched_unsearched bare_noCapacity).staticUpTo
    obtain ⟨g1, r1, h⟩ := ih ga ra (fun x hx e he => by
      obtain ⟨h1, h2⟩ := hvs x (List.mem_cons_of_mem _ hx) e he
      rw [hs.edges_length, hs.getCorrespondingEdge]
      exact ⟨h1, h2⟩) (by rw [hs.edges_length, hsr.edges_length]; exact hlen)
    exact ⟨g1, r1, by simp [resetFlows, ha, h]⟩

theorem mem_vertexSet_adj {g : Graph} (hw : g.WellLinked) {v : Vertex} (hv : v ∈ g.vertexSet)
    {e : Nat} (he : e ∈ v.adj) : e < g.edges.length := by
  obtain ⟨x, hx, rfl⟩ := List.getElem_of_mem hv
  have := (hw.2.1 x hx).1 e (by simpa [Graph.adjOf, List.getElem?_eq_getElem hx] using he)
  exact this.1

/-- The reset loop of `edmondsKarp` returns on a paired network. -/
theorem resetFlows_total_paired {g r : Graph} (hp : Paired g r) :
    ∃ g1 r1, resetFlows g.vertexSet g r = some (g1, r1) :=
  resetFlows_total g.vertexSet g r
    (fun _ hv e he =>
      ⟨mem_vertexSet_adj hp.1 hv he, (hp.2.2.2.2.1 e (mem_vertexSet_adj hp.1 hv he)).1⟩)
    hp.2.2.2.1

theorem edges_eq_of_noFlow {l1 l2 : List Edge} (h : l1.map Edge.noFlow = l2.map Edge.noFlow)
    (hf : ∀ i : Nat, (l1[i]?).map (fun e : Edge => e.flow) = (l2[i]?).map (fun e : Edge => e.flow)) :
    l1 = l2 := by
  apply List.ext_getElem?
  intro i
  have h2 := congrArg (fun m => m[i]?) h
  simp only [List.getElem?_map] at h2
  have h3 := hf i
  cases ha : l1[i]? with
  | none => cases hb : l2[i]? with
    | none => rfl
    | some b => simp [ha, hb] at h2
  | some a => cases hb : l2[i]? with
    | none => simp [ha, hb] at h2
    | some b =>
      simp only [ha, hb, Option.map_some', Option.some.injEq] at h2 h3
      cases a; cases b
      simp only [Edge.noFlow, Edge.mk.injEq] at h2
      simp only at h3
      simp [h2, h3]

theorem edges_eq_of_noCapacity {l1 l2 : List Edge}
    (h : l1.map Edge.noCapacity = l2.map Edge.noCapacity)
    (hf : ∀ i : Nat,
      (l1[i]?).map (fun e : Edge => e.capacity) = (l2[i]?).map (fun e : Edge => e.capacity)) :
    l1 = l2 := by
  apply List.ext_getElem?
  intro i
  have h2 := congrArg (fun m => m[i]?) h
  simp only [List.getElem?_map] at h2
  have h3 := hf i
  cases ha : l1[i]? with
  | none => cases hb : l2[i]? with
    | none => rfl
    | some b => simp [ha, hb] at h2
  | some a => cases hb : l2[i]? with
    | none => simp [ha, hb] at h2
    | some b =>
      simp only [ha, hb, Option.map_some', Option.some.injEq] at h2 h3
      cases a; cases b
      simp only [Edge.noCapacity, Edge.mk.injEq] at h2
      simp only at h3
      simp [h2, h3]

theorem map_flow_eq_of_flowOf {g k : Graph} (hlen : k.edges.length = g.edges.length)
    (h : ∀ i, i < g.edges.length → k.flowOf i = g.flowOf i) (i : Nat) :
    (k.edges[i]?).map (fun e : Edge => e.flow) = (g.edges[i]?).map (fun e : Edge => e.flow) := by
  by_cases hi : i < g.edges.length
  · have h1 := h i hi
    have hi2 : i < k.edges.length := hlen ▸ hi
    simp only [Graph.flowOf, Graph.getFlow, List.getElem?_eq_getElem hi,
      List.getElem?_eq_getElem hi2, Option.map_some', Option.getD_some] at h1 ⊢
    rw [h1]
  · have hi2 : ¬ i < k.edges.length := hlen ▸ hi
    simp [List.getElem?_eq_none (Nat.le_of_not_lt hi), List.getElem?_eq_none (Nat.le_of_not_lt hi2)]

theorem map_capacity_eq_of_capOf {g k : Graph} (hlen : k.edges.length = g.edges.length)
    (h : ∀ i, i < g.edges.length → k.capOf i = g.capOf i) (i : Nat) :
    (k.edges[i]?).map (fun e : Edge => e.capacity)
      = (g.edges[i]?).map (fun e : Edge => e.capacity) := by
  by_cases hi : i < g.edges.length
  · have h1 := h i hi
    have hi2 : i < k.edges.length := hlen ▸ hi
    simp only [Graph.capOf, Graph.getCapacity, List.getElem?_eq_getElem hi,
      List.getElem?_eq_getElem hi2, Option.map_some', Option.getD_some] at h1 ⊢
    rw [h1]
  · have hi2 : ¬ i < k.edges.length := hlen ▸ hi
    simp [List.getElem?_eq_none (Nat.le_of_not_lt hi), List.getElem?_eq_none (Nat.le_of_not_lt hi2)]

theorem capOf_eq_of_noFlow {g k : Graph} (h : k.edges.map Edge.noFlow = g.edges.map Edge.noFlow)
    (i : Nat) : k.capOf i = g.capOf i := by
  have := getElem?_map_of_map_eq (fun x : Edge => x.capacity) h (fun _ => rfl) i
  simp only [Graph.capOf, Graph.getCapacity, this]

theorem resetSearch_eq_of {r k : Graph} (h1 : k.totalEdges = r.totalEdges)
    (h2 : k.idToVertex = r.idToVertex) (h3 : k.edges = r.edges)
    (h4 : k.vertexSet.map Vertex.unsearched = r.vertexSet.map Vertex.unsearched) :
    k.resetSearch = r.resetSearch := by
  cases r; cases k
  simp only [Graph.resetSearch] at *
  simp only [Graph.mk.injEq]
  exact ⟨h1, h4, h2, h3⟩

/-- Two states of the same paired network give the same run of `edmondsKarp`: the same
value, the same flows and the same residual graph. -/
theorem edmondsKarp_congr {g r k kr g1 r1 : Graph} {fuel F : Nat} {source : List String}
    {target : String} (hp : Paired g r) (hpk : Paired k kr) (hs : SameNetwork g r k kr)
    (h : g.edmondsKarp fuel source target r = some (F, g1, r1)) :
    k.edmondsKarp fuel source target kr = some (F, { k with edges := g1.edges }, r1) := by
  simp only [Graph.edmondsKarp, Option.bind_eq_bind, Option.bind_eq_some] at h ⊢
  obtain ⟨⟨g0, r0⟩, hreset, ⟨fin, mf, ga, ra⟩, hl, h⟩ := h
  cases fin with
  | false => simp at h
  | true =>
    simp only [Option.some.injEq, Prod.mk.injEq] at h
    obtain ⟨rfl, rfl, rfl⟩ := h
    obtain ⟨k0, kr0, hkreset⟩ := resetFlows_total_paired hpk
    obtain ⟨hg0, hr0⟩ := resetFlows_frame _ _ _ _ _ hreset
    obtain ⟨hk0, hkr0⟩ := resetFlows_frame _ _ _ _ _ hkreset
    obtain ⟨hsg, -, hsr, -, hcap, hpt⟩ := resetFlows_paired hp hreset
    obtain ⟨hsk, -, hskr, -, hcapk, hptk⟩ := resetFlows_paired hpk hkreset
    obtain ⟨⟨hk1, hk2, hk3, hk4⟩, ⟨hkr1, hkr2, hkr3, hkr4⟩⟩ := hs
    have hlenk : k.edges.length = g.edges.length := by simpa using congrArg List.length hk4
    have hlenr : kr.edges.length = r.edges.length := by simpa using congrArg List.length hkr4
    have hgr : g.edges.length = r.edges.length := hp.2.2.2.1
    have hedges : k0.edges = g0.edges := by
      apply edges_eq_of_noFlow (hk0.2.2.2.trans (hk4.trans hg0.2.2.2.symm))
      apply map_flow_eq_of_flowOf (by rw [hsk.edges_length, hsg.edges_length, hlenk])
      intro i hi
      rw [hsg.edges_length] at hi
      rw [(hptk i (hlenk ▸ hi)).1, (hpt i hi).1]
    have hredges : kr0.edges = r0.edges := by
      apply edges_eq_of_noCapacity (hkr0.2.2.2.trans (hkr4.trans hr0.2.2.2.symm))
      apply map_capacity_eq_of_capOf (by rw [hskr.edges_length, hsr.edges_length, hlenr])
      intro i hi
      rw [hsr.edges_length, ← hgr] at hi
      rw [(hptk i (hlenk ▸ hi)).2, (hpt i hi).2]
      exact capOf_eq_of_noFlow hk4 i
    have hrs : kr0.resetSearch = r0.resetSearch :=
      resetSearch_eq_of (hkr0.1.trans (hkr1.trans hr0.1.symm))
        (hkr0.2.1.trans (hkr2.trans hr0.2.1.symm)) hredges
        (hkr0.2.2.1.trans (hkr3.trans hr0.2.2.1.symm))
    have hloop := edmondsKarpLoop_transport source target fuel 0 g0 r0 mf ga ra k0 kr0 hl hedges hrs
    refine ⟨(k0, kr0), hkreset, _, hloop, ?_⟩
    have hkv := hk0.vertexSet_eq
    cases k; cases k0
    simp only at hkv
    simp only [Option.some.injEq, Prod.mk.injEq, Graph.mk.injEq, true_and, and_true]
    exact ⟨hk0.1, hkv, hk0.2.1⟩

/-! ## Flags and states of the same network -/

theorem map_eq_of_getElem? {α β : Type} {l k : List α} {f g : α → β}
    (h : ∀ i : Nat, (l[i]?).map f = (k[i]?).map g) : l.map f = k.map g := by
  apply List.ext_getElem?
  intro i
  simp [List.getElem?_map, h]

theorem inLinks_congr {g k : Graph} (h : SameStatic g k) (S : List Nat) (i : Nat) :
    k.InLinks S i ↔ g.InLinks S i := by
  simp only [Graph.InLinks, h.getReverse]

theorem noFlow_flagIf (s : Bool) (c : Prop) [Decidable c] (x : Edge) :
    Edge.noFlow (Edge.flagIf s c x) = Edge.flagIf s c (Edge.noFlow x) := by
  unfold Edge.flagIf; split <;> rfl

theorem noCapacity_flagIf (s : Bool) (c : Prop) [Decidable c] (x : Edge) :
    Edge.noCapacity (Edge.flagIf s c x) = Edge.flagIf s c (Edge.noCapacity x) := by
  unfold Edge.flagIf; split <;> rfl

theorem noCapacity_noCapacity (e : Edge) : Edge.noCapacity (Edge.noCapacity e) = e.noCapacity :=
  rfl

/-- Deactivating (or activating) the same links in two states of the same network gives two
states of the same network. -/
theorem selectEdges_congr {g r k kr g1 r1 k1 kr1 : Graph} {s : Bool} {S : List Nat}
    (hp : Paired g r) (hpk : Paired k kr) (hs : SameNetwork g r k kr)
    (hS : ∀ e ∈ S, e < g.edges.length)
    (h : selectEdges s S g r = some (g1, r1)) (hk : selectEdges s S k kr = some (k1, kr1)) :
    SameNetwork g1 r1 k1 kr1 := by
  obtain ⟨hst, hstr⟩ := hs.staticNet
  obtain ⟨ga, ra, ha, hv, hid, ht, hrv, hrid, hrt, -, -, hge, hre⟩ := selectEdges_spec s S g r hp hS
  obtain ⟨ka, kra, hka, hkv, hkid, hkt, hkrv, hkrid, hkrt, -, -, hkge, hkre⟩ :=
    selectEdges_spec s S k kr hpk (fun e he => by rw [hst.edges_length]; exact hS e he)
  rw [h] at ha; rw [hk] at hka
  simp only [Option.some.injEq, Prod.mk.injEq] at ha hka
  obtain ⟨rfl, rfl⟩ := ha
  obtain ⟨rfl, rfl⟩ := hka
  obtain ⟨⟨h1, h2, h3, h4⟩, ⟨h5, h6, h7, h8⟩⟩ := hs
  refine ⟨⟨hkt.trans (h1.trans ht.symm), hkid.trans (h2.trans hid.symm), ?_, ?_⟩,
    ⟨hkrt.trans (h5.trans hrt.symm), hkrid.trans (h6.trans hrid.symm), ?_, ?_⟩⟩
  · rw [hkv, hv]; exact h3
  · apply map_eq_of_getElem?
    intro i
    rw [hkge, hge, Option.map_map, Option.map_map]
    have e1 := getElem?_map_of_map_eq Edge.noFlow h4 noFlow_noFlow i
    have : (Edge.noFlow ∘ Edge.flagIf s (k.InLinks S i))
        = (Edge.flagIf s (g.InLinks S i)) ∘ Edge.noFlow := by
      funext x
      simp only [Function.comp, noFlow_flagIf]
      exact flagIf_congr s (inLinks_congr hst S i) _
    rw [this, ← Option.map_map, e1, Option.map_map]
    congr 1
    funext x
    simp only [Function.comp, noFlow_flagIf]
  · rw [hkrv, hrv]; exact h7
  · apply map_eq_of_getElem?
    intro i
    rw [hkre, hre, Option.map_map, Option.map_map]
    have e1 := getElem?_map_of_map_eq Edge.noCapacity h8 noCapacity_noCapacity i
    have : (Edge.noCapacity ∘ Edge.flagIf s (k.InLinks S i))
        = (Edge.flagIf s (g.InLinks S i)) ∘ Edge.noCapacity := by
      funext x
      simp only [Function.comp, noCapacity_flagIf]
      exact flagIf_congr s (inLinks_congr hst S i) _
    rw [this, ← Option.map_map, e1, Option.map_map]
    congr 1
    funext x
    simp only [Function.comp, noCapacity_flagIf]

theorem allActive_iff (g : Graph) :
    g.AllActive ↔ ∀ (i : Nat) (x : Edge), g.edges[i]? = some x → x.selected = true := by
  unfold Graph.AllActive
  constructor
  · intro h i x hx
    exact h x (List.getElem?_mem hx)
  · intro h e he
    obtain ⟨i, hi, rfl⟩ := List.getElem_of_mem he
    exact h i _ (List.getElem?_eq_getElem hi)

/-- Activating links that are active changes nothing. -/
theorem activateEdges_allActive {g r : Graph} {S : List Nat} (hp : Paired g r)
    (hS : ∀ e ∈ S, e < g.edges.length) (hag : g.AllActive) (har : r.AllActive) :
    activateEdges S g r = some (g, r) := by
  obtain ⟨ga, ra, ha, hv, hid, ht, hrv, hrid, hrt, -, -, hge, hre⟩ :=
    selectEdges_spec true S g r hp hS
  have h1 : ga.edges = g.edges := by
    apply List.ext_getElem?
    intro i
    rw [hge]
    cases hx : g.edges[i]? with
    | none => rfl
    | some x =>
      have := (allActive_iff g).mp hag i x hx
      cases x
      simp only at this
      simp [Edge.flagIf, this]
  have h2 : ra.edges = r.edges := by
    apply List.ext_getElem?
    intro i
    rw [hre]
    cases hx : r.edges[i]? with
    | none => rfl
    | some x =>
      have := (allActive_iff r).mp har i x hx
      cases x
      simp only at this
      simp [Edge.flagIf, this]
  have e1 : ga = g := by cases g; cases ga; simp_all
  have e2 : ra = r := by cases r; cases ra; simp_all
  rw [activateEdges, ha, e1, e2]

/-- Activating the links `S` after they were deactivated in an all-active network gives the
all-active network back. -/
theorem activateEdges_deactivateEdges {g r g1 r1 : Graph} {S : List Nat} (hp : Paired g r)
    (hS : ∀ e ∈ S, e < g.edges.length) (hag : g.AllActive) (har : r.AllActive)
    (h : deactivateEdges S g r = some (g1, r1)) : activateEdges S g1 r1 = some (g, r) := by
  obtain ⟨ga, ra, ha, hv, hid, ht, hrv, hrid, hrt, hsg, hsr, hge, hre⟩ :=
    selectEdges_spec false S g r hp hS
  rw [deactivateEdges] at h
  rw [h] at ha
  simp only [Option.some.injEq, Prod.mk.injEq] at ha
  obtain ⟨rfl, rfl⟩ := ha
  have hp1 : Paired g1 r1 := hp.sameStatic hsg hsr
  obtain ⟨gb, rb, hb, hv2, hid2, ht2, hrv2, hrid2, hrt2, -, -, hge2, hre2⟩ :=
    selectEdges_spec true S g1 r1 hp1 (fun e he => by rw [hsg.edges_length]; exact hS e he)
  have h1 : gb.edges = g.edges := by
    apply List.ext_getElem?
    intro i
    rw [hge2, hge, Option.map_map]
    cases hx : g.edges[i]? with
    | none => rfl
    | some x =>
      have := (allActive_iff g).mp hag i x hx
      have hc := inLinks_congr hsg S i
      cases x
      simp only at this
      by_cases hin : g.InLinks S i
      · simp [Edge.flagIf, this, hin, hc.mpr hin]
      · have : ¬ g1.InLinks S i := fun h => hin (hc.mp h)
        simp [Edge.flagIf, hin, this]
  have h2 : rb.edges = r.edges := by
    apply List.ext_getElem?
    intro i
    rw [hre2, hre, Option.map_map]
    cases hx : r.edges[i]? with
    | none => rfl
    | some x =>
      have := (allActive_iff r).mp har i x hx
      have hc := inLinks_congr hsg S i
      cases x
      simp only at this
      by_cases hin : g.InLinks S i
      · simp [Edge.flagIf, this, hin, hc.mpr hin]
      · have : ¬ g1.InLinks S i := fun h => hin (hc.mp h)
        simp [Edge.flagIf, hin, this]
  have e1 : gb = g := by
    cases g; cases gb; cases g1
    simp only at hv hid ht hv2 hid2 ht2 h1
    simp [h1, hv2, hv, hid2, hid, ht2, ht]
  have e2 : rb = r := by
    cases r; cases rb; cases r1
    simp only at hrv hrid hrt hrv2 hrid2 hrt2 h2
    simp [h2, hrv2, hrv, hrid2, hrid, hrt2, hrt]
  rw [activateEdges, hb, e1, e2]

theorem SameNetwork.allActive {g r k kr : Graph} (hs : SameNetwork g r k kr) :
    (g.AllActive → k.AllActive) ∧ (r.AllActive → kr.AllActive) := by
  obtain ⟨⟨-, -, -, h4⟩, ⟨-, -, -, h8⟩⟩ := hs
  constructor
  · intro h
    rw [allActive_iff] at h ⊢
    intro i x hx
    have e := getElem?_map_of_map_eq (fun e : Edge => e.selected) h4 (fun _ => rfl) i
    rw [hx] at e
    cases hy : g.edges[i]? with
    | none => simp [hy] at e
    | some y =>
      simp only [hy, Option.map_some', Option.some.injEq] at e
      rw [e]; exact h i y hy
  · intro h
    rw [allActive_iff] at h ⊢
    intro i x hx
    have e := getElem?_map_of_map_eq (fun e : Edge => e.selected) h8 (fun _ => rfl) i
    rw [hx] at e
    cases hy : r.edges[i]? with
    | none => simp [hy] at e
    | some y =>
      simp only [hy, Option.map_some', Option.some.injEq] at e
      rw [e]; exact h i y hy

/-! ## The effect of `deactivateEdges` and `activateEdges` -/

theorem inLinks_lt {g : Graph} (hw : g.WellLinked) {S : List Nat}
    (hS : ∀ e ∈ S, e < g.edges.length) {i : Nat} (h : g.InLinks S i) : i < g.edges.length := by
  rcases h with h | ⟨e, he, hr⟩
  · exact hS i h
  · obtain ⟨-, -, j, hj, -, hrev, -⟩ := hw.1 e (hS e he)
    rw [hrev] at hr
    simp only [Option.some.injEq] at hr
    exact hr ▸ hj

theorem inLinks_reverse {g : Graph} (hw : g.WellLinked) {S : List Nat}
    (hS : ∀ e ∈ S, e < g.edges.length) {i j : Nat} (hi : i < g.edges.length)
    (hr : g.getReverse i = some j) : g.InLinks S j ↔ g.InLinks S i := by
  have hji : g.getReverse j = some i := by
    obtain ⟨-, -, j1, -, -, hrev, hrev2, -⟩ := hw.1 i hi
    rw [hrev] at hr
    simp only [Option.some.injEq] at hr
    rw [← hr]; exact hrev2
  have key : ∀ a b e, g.getReverse a = some b → g.getReverse b = some a → e ∈ S →
      g.getReverse e = some a → b ∈ S := by
    intro a b e hab hba he hea
    obtain ⟨-, -, j2, -, -, hrev3, hrev4, -⟩ := hw.1 e (hS e he)
    rw [hrev3] at hea
    simp only [Option.some.injEq] at hea
    subst hea
    rw [hrev4] at hab
    simp only [Option.some.injEq] at hab
    exact hab ▸ he
  constructor
  · rintro (h | ⟨e, he, hre⟩)
    · exact Or.inr ⟨j, h, hji⟩
    · exact Or.inl (key j i e hji hr he hre)
  · rintro (h | ⟨e, he, hre⟩)
    · exact Or.inr ⟨i, h, hr⟩
    · exact Or.inl (key i j e hr hji he hre)

theorem activeAt_of_getElem? {g : Graph} {i : Nat} {x : Edge} (h : g.edges[i]? = some x) :
    g.activeAt i = x.selected := by simp [Graph.activeAt, h]

/-- The loop shared by `deactivateEdges` and `activateEdges` returns on a paired network
and does what `FlagsSet` says; flags that agreed per link still agree, and the result is a
paired network. -/
theorem selectEdges_flagsSet (s : Bool) {g r : Graph} {S : List Nat} (hp : Paired g r)
    (hS : ∀ e ∈ S, e < g.edges.length) :
    ∃ g1 r1, selectEdges s S g r = some (g1, r1) ∧ FlagsSet s S g r g1 r1 ∧
      (FlagsAgree g r → FlagsAgree g1 r1) ∧ Paired g1 r1 := by
  obtain ⟨g1, r1, h, hv, hid, ht, hrv, hrid, hrt, hsg, hsr, hge, hre⟩ :=
    selectEdges_spec s S g r hp hS
  have hcorr : ∀ i, (∃ e, g.InLinks S e ∧ g.getCorrespondingEdge e = some i) ↔ g.InLinks S i := by
    intro i
    constructor
    · rintro ⟨e, he, hc⟩
      have := (hp.2.2.2.2.1 e (inLinks_lt hp.1 hS he)).1
      rw [this] at hc
      simp only [Option.some.injEq] at hc
      exact hc ▸ he
    · intro h
      exact ⟨i, h, (hp.2.2.2.2.1 i (inLinks_lt hp.1 hS h)).1⟩
  refine ⟨g1, r1, h, ⟨ht, hv, hid, hrt, hrv, hrid, hsg.edges_length, hsr.edges_length, ?_, ?_⟩,
    ?_, hp.sameStatic hsg hsr⟩
  · intro i x hx
    rw [hge, hx]
    constructor
    · intro hin; simp [Edge.flagIf, hin]
    · intro hin; simp [Edge.flagIf, hin]
  · intro i x hx
    rw [hre, hx, hcorr]
    constructor
    · intro hin; simp [Edge.flagIf, hin]
    · intro hin; simp [Edge.flagIf, hin]
  · intro hag i j c hr hc
    rw [hsg.getReverse] at hr
    rw [hsg.getCorrespondingEdge] at hc
    have hi : i < g.edges.length := by
      by_contra hcon
      simp [Graph.getReverse, List.getElem?_eq_none (Nat.le_of_not_lt hcon)] at hr
    obtain ⟨hj, -⟩ : j < g.edges.length ∧ True := by
      obtain ⟨-, -, j1, hj1, -, hrev, -⟩ := hp.1.1 i hi
      rw [hrev] at hr
      simp only [Option.some.injEq] at hr
      exact ⟨hr ▸ hj1, trivial⟩
    have hci : c = i := by
      have := (hp.2.2.2.2.1 i hi).1
      rw [this] at hc
      simpa using hc.symm
    subst hci
    have hlen : g.edges.length = r.edges.length := hp.2.2.2.1
    obtain ⟨a1, a2⟩ := hag c j c hr hc
    have hiff := inLinks_reverse hp.1 hS hi hr
    have e1 := hge c
    have e2 := hge j
    have e3 := hre c
    rw [List.getElem?_eq_getElem hi] at e1
    rw [List.getElem?_eq_getElem hj] at e2
    have hir : c < r.edges.length := by rw [← hlen]; exact hi
    rw [List.getElem?_eq_getElem hir] at e3
    simp only [Option.map_some'] at e1 e2 e3
    rw [activeAt_of_getElem? e1, activeAt_of_getElem? e2, activeAt_of_getElem? e3]
    rw [activeAt_of_getElem? (List.getElem?_eq_getElem hi),
      activeAt_of_getElem? (List.getElem?_eq_getElem hj)] at a1
    rw [activeAt_of_getElem? (List.getElem?_eq_getElem hi),
      activeAt_of_getElem? (List.getElem?_eq_getElem hir)] at a2
    by_cases hin : g.InLinks S c
    · simp [Edge.flagIf, hin, hiff.mpr hin]
    · have : ¬ g.InLinks S j := fun h => hin (hiff.mp h)
      simp [Edge.flagIf, hin, this, a1, a2]

/-- Reactivating the links `S` in any state of the network in which they were deactivated
gives a state of the original all-active network. -/
theorem activateEdges_restores {g r g1 r1 g2 r2 g3 r3 : Graph} {S : List Nat}
    (hp : Paired g r) (hS : ∀ e ∈ S, e < g.edges.length) (hag : g.AllActive)
    (har : r.AllActive) (h1 : deactivateEdges S g r = some (g1, r1))
    (hs : SameNetwork g1 r1 g2 r2) (h3 : activateEdges S g2 r2 = some (g3, r3)) :
    SameNetwork g r g3 r3 := by
  have hback := activateEdges_deactivateEdges hp hS hag har h1
  obtain ⟨ga, ra, hd, hfs, -, hp1⟩ := selectEdges_flagsSet false hp hS
  rw [deactivateEdges] at h1
  rw [h1] at hd
  simp only [Option.some.injEq, Prod.mk.injEq] at hd
  obtain ⟨rfl, rfl⟩ := hd
  have hlen : ∀ e ∈ S, e < g1.edges.length := by
    intro e he
    rw [hfs.2.2.2.2.2.2.1]; exact hS e he
  exact selectEdges_congr hp1 (hs.pairedNet hp1) hs hlen hback h3

/-! ## The search `Graph::path` returns, and reaches only what is reachable -/

theorem unmarkedCount_le {g h : Graph} (hlen : h.vertexSet.length = g.vertexSet.length)
    (hm : ∀ x, g.visitedAt x = true → h.visitedAt x = true) :
    h.unmarkedCount ≤ g.unmarkedCount := by
  unfold Graph.unmarkedCount
  rw [hlen]
  apply Finset.card_le_card
  intro x hx
  simp only [Finset.mem_filter, Finset.mem_range] at hx ⊢
  refine ⟨hx.1, ?_⟩
  cases hv : g.visitedAt x with
  | false => rfl
  | true => rw [hm x hv] at hx; exact absurd hx.2 (by simp)

theorem unmarkedCount_lt {g h : Graph} (hlen : h.vertexSet.length = g.vertexSet.length)
    (hm : ∀ x, g.visitedAt x = true → h.visitedAt x = true) {d : Nat}
    (hd : d < g.vertexSet.length) (hd0 : g.visitedAt d = false) (hd1 : h.visitedAt d = true) :
    h.unmarkedCount + 1 ≤ g.unmarkedCount := by
  unfold Graph.unmarkedCount
  rw [hlen]
  apply Finset.card_lt_card
  constructor
  · intro x hx
    simp only [Finset.mem_filter, Finset.mem_range] at hx ⊢
    refine ⟨hx.1, ?_⟩
    cases hv : g.visitedAt x with
    | false => rfl
    | true => rw [hm x hv] at hx; exact absurd hx.2 (by simp)
  · intro hsub
    have : d ∈ (Finset.range g.vertexSet.length).filter (fun x => h.visitedAt x = false) :=
      hsub (by simp [hd, hd0])
    simp [hd1] at this

theorem unmarkedCount_le_length (g : Graph) : g.unmarkedCount ≤ g.vertexSet.length := by
  unfold Graph.unmarkedCount
  calc _ ≤ (Finset.range g.vertexSet.length).card := Finset.card_filter_le _ _
    _ = _ := Finset.card_range _

theorem Graph.WellLinked.findVertex_lt {r : Graph} (hw : r.WellLinked) {x : Nat} {id : String}
    (h : r.findVertex id = some x) : x < r.vertexSet.length :=
  idOf_lt (hw.findVertex_sound h)

theorem Graph.WellLinked.dest_lt {r : Graph} (hw : r.WellLinked) {e : Nat}
    (he : e < r.edges.length) :
    ∃ edge d, r.edges[e]? = some edge ∧ r.vertexSet[edge.dest]? = some d ∧
      r.getDest e = some edge.dest ∧ edge.dest < r.vertexSet.length := by
  obtain ⟨-, ⟨v, hv, hd, -⟩, -⟩ := hw.1 e he
  refine ⟨r.edges[e], r.vertexSet[v], List.getElem?_eq_getElem he, ?_, ?_, ?_⟩
  · simp only [Graph.getDest, List.getElem?_eq_getElem he, Option.map_some',
      Option.some.injEq] at hd
    rw [hd]; exact List.getElem?_eq_getElem hv
  · simp [Graph.getDest, List.getElem?_eq_getElem he]
  · simp only [Graph.getDest, List.getElem?_eq_getElem he, Option.map_some',
      Option.some.injEq] at hd
    rw [hd]; exact hv

/-- What the search keeps: the graph is the searched graph `r0` up to search marks, every
marked vertex is reachable from the sources through usable edges, and every queued id is the
id of a vertex. -/
theorem pathAdj_run (target : String) (r0 : Graph) (S : List Nat) (c : Nat) :
    ∀ (es : List Nat) (r : Graph) (q : List String), r.WellLinked → SameStatic r0 r →
      r.edges = r0.edges → (∀ e ∈ es, e ∈ r0.adjOf c) →
      r0.Reaches (fun e => r0.activeAt e && decide (0 < r0.capOf e)) S c →
      (∀ x, r.visitedAt x = true →
        r0.Reaches (fun e => r0.activeAt e && decide (0 < r0.capOf e)) S x) →
      QueueInv r q →
      ∃ found r1 q1, Graph.pathAdj target es r q = some (found, r1, q1) ∧ SameStatic r r1 ∧
        r1.edges = r.edges ∧
        (∀ x, r1.visitedAt x = true →
          r0.Reaches (fun e => r0.activeAt e && decide (0 < r0.capOf e)) S x) ∧
        QueueInv r1 q1 ∧
        q1.length + r1.unmarkedCount ≤ q.length + r.unmarkedCount ∧
        (found = true → ∃ x, r1.visitedAt x = true ∧ r1.idOf x = some target) := by
  intro es
  induction es with
  | nil =>
    intro r q _ _ _ _ _ hvis hq
    exact ⟨false, r, q, rfl, SameStatic.refl r, rfl, hvis, hq, le_refl _, by simp⟩
  | cons e es ih =>
    intro r q hw hs0 hedges hes hc hvis hq
    have hmem : e ∈ r0.adjOf c := hes e (List.mem_cons_self _ _)
    have hcl : c < r.vertexSet.length := by
      by_contra hcon
      rw [← hs0.adjOf, (adjOf_of_ge hcon).1] at hmem
      simp at hmem
    have he : e < r.edges.length := by
      rw [← hs0.adjOf] at hmem
      exact ((hw.2.1 c hcl).1 e hmem).1
    obtain ⟨edge, d, hedge, hd, hdest, hdl⟩ := hw.dest_lt he
    have hes2 : ∀ e ∈ es, e ∈ r0.adjOf c := fun x hx => hes x (List.mem_cons_of_mem _ hx)
    by_cases hcond : (!d.visited && decide (edge.capacity > 0) && edge.selected) = true
    · obtain ⟨r1, hr1⟩ := updateVertex_some (g := r)
        (fun x => { x with visited := true, path := some e }) hdl
      have hs1 : SameStatic r r1 := updateVertex_sameStatic hr1 (fun _ => ⟨rfl, rfl, rfl⟩)
      have hvis1 := visitedAt_updateVertex hr1
      have hdv : r1.visitedAt edge.dest = true := by
        rw [hvis1, if_pos rfl]; simp [hd]
      have hreach : r0.Reaches (fun e => r0.activeAt e && decide (0 < r0.capOf e)) S
          edge.dest := by
        refine Graph.Reaches.link hc hmem ?_ (by rw [← hs0.getDest]; exact hdest)
        simp only [Bool.and_eq_true, Bool.not_eq_true', decide_eq_true_eq] at hcond
        have h1 : r0.activeAt e = edge.selected := by
          simp [Graph.activeAt, ← hedges, hedge]
        have h2 : r0.capOf e = edge.capacity := by
          simp [Graph.capOf, Graph.getCapacity, ← hedges, hedge]
        simp [h1, h2, hcond.2, hcond.1.2]
      have hvisAll : ∀ x, r1.visitedAt x = true →
          r0.Reaches (fun e => r0.activeAt e && decide (0 < r0.capOf e)) S x := by
        intro x hx
        rw [hvis1] at hx
        by_cases hxd : x = edge.dest
        · rw [hxd]; exact hreach
        · rw [if_neg hxd] at hx; exact hvis x hx
      have hmono : ∀ x, r.visitedAt x = true → r1.visitedAt x = true := by
        intro x hx
        rw [hvis1]
        by_cases hxd : x = edge.dest
        · rw [if_pos hxd]; simp [hd]
        · rw [if_neg hxd]; exact hx
      have hd0 : r.visitedAt edge.dest = false := by
        simp only [Bool.and_eq_true, Bool.not_eq_true'] at hcond
        simp [Graph.visitedAt, hd, hcond.1.1]
      have hcount := unmarkedCount_lt hs1.vertexSet_length hmono hdl hd0 hdv
      have hid : r1.idOf edge.dest = some d.id := by
        rw [hs1.idOf]; simp [Graph.idOf, hd]
      have hq1 : QueueInv r1 (q ++ [d.id]) := by
        intro id hid
        rw [hs1.findVertex]
        rcases List.mem_append.mp hid with h | h
        · obtain ⟨x, hx1, hx2⟩ := hq id h
          exact ⟨x, hx1, hmono x hx2⟩
        · simp only [List.mem_singleton] at h
          exact ⟨edge.dest, h ▸ hw.findVertex_id hd, hdv⟩
      by_cases ht : d.id = target
      · refine ⟨true, r1, q ++ [d.id], ?_, hs1, (updateVertex_rest hr1).1, hvisAll, hq1, ?_, ?_⟩
        · simp only [Graph.pathAdj, hedge, hd, Option.bind_eq_bind, Option.some_bind,
            if_pos hcond, hr1, if_pos ht]
        · simp only [List.length_append, List.length_singleton]; omega
        · intro _; exact ⟨edge.dest, hdv, ht ▸ hid⟩
      · obtain ⟨found, r2, q2, h2, hs2, he2, hvis2, hq2, hcnt2, hf2⟩ :=
          ih r1 (q ++ [d.id]) (hs1.wellLinked hw) (hs0.trans hs1)
            ((updateVertex_rest hr1).1.trans hedges) hes2 hc hvisAll hq1
        refine ⟨found, r2, q2, ?_, hs1.trans hs2, he2.trans (updateVertex_rest hr1).1, hvis2,
          hq2, ?_, hf2⟩
        · simp only [Graph.pathAdj, hedge, hd, Option.bind_eq_bind, Option.some_bind,
            if_pos hcond, hr1, if_neg ht, h2]
        · simp only [List.length_append, List.length_singleton] at hcnt2; omega
    · obtain ⟨found, r2, q2, h2, hs2, he2, hvis2, hq2, hcnt2, hf2⟩ :=
        ih r q hw hs0 hedges hes2 hc hvis hq
      refine ⟨found, r2, q2, ?_, hs2, he2, hvis2, hq2, hcnt2, hf2⟩
      simp only [Graph.pathAdj, hedge, hd, Option.bind_eq_bind, Option.some_bind,
        if_neg hcond, h2]

theorem pushSources_total : ∀ (src : List String) (a : Graph) (q : List String),
    a.WellLinked → (∀ s ∈ src, ∃ x, a.findVertex s = some x) →
    ∃ b q1, Graph.pushSources src a q = some (b, q1) := by
  intro src
  induction src with
  | nil => intro a q _ _; exact ⟨a, q, rfl⟩
  | cons s rest ih =>
    intro a q hw hsrc
    obtain ⟨x, hx⟩ := hsrc s (List.mem_cons_self _ _)
    obtain ⟨a1, ha1⟩ := updateVertex_some (g := a) (fun v => { v with visited := true })
      (hw.findVertex_lt hx)
    have hs1 : SameStatic a a1 := updateVertex_sameStatic ha1 (fun _ => ⟨rfl, rfl, rfl⟩)
    obtain ⟨b, q1, h⟩ := ih a1 (q ++ [s]) (hs1.wellLinked hw) (fun t ht => by
      rw [hs1.findVertex]; exact hsrc t (List.mem_cons_of_mem _ ht))
    exact ⟨b, q1, by simp [Graph.pushSources, hx, ha1, h]⟩

theorem pathLoop_run (target : String) (r0 : Graph) (S : List Nat) :
    ∀ (fuel : Nat) (r : Graph) (q : List String), r.WellLinked → SameStatic r0 r →
      r.edges = r0.edges →
      (∀ x, r.visitedAt x = true →
        r0.Reaches (fun e => r0.activeAt e && decide (0 < r0.capOf e)) S x) →
      QueueInv r q → q.length + r.unmarkedCount + 1 ≤ fuel →
      ∃ found r1, Graph.pathLoop target fuel r q = some (found, r1) ∧
        (found = true → ∃ x,
          r0.Reaches (fun e => r0.activeAt e && decide (0 < r0.capOf e)) S x ∧
          r0.idOf x = some target) := by
  intro fuel
  induction fuel with
  | zero => intro r q _ _ _ _ _ hf; omega
  | succ fuel ih =>
    intro r q hw hs0 hedges hvis hq hf
    cases q with
    | nil => exact ⟨false, r, rfl, by simp⟩
    | cons front q =>
      obtain ⟨cur, hcur, hcv⟩ := hq front (List.mem_cons_self _ _)
      have hcl := visitedAt_lt hcv
      have hadj : r0.adjOf cur = (r.vertexSet[cur]).adj := by
        rw [← hs0.adjOf]; simp [Graph.adjOf, List.getElem?_eq_getElem hcl]
      obtain ⟨found, r1, q1, h1, hs1, he1, hvis1, hq1, hcnt, hfound⟩ :=
        pathAdj_run target r0 S cur (r.vertexSet[cur]).adj r q hw hs0 hedges
          (fun e he => by rw [hadj]; exact he) (hvis cur hcv) hvis
          (fun id hid => hq id (List.mem_cons_of_mem _ hid))
      cases found with
      | true =>
        refine ⟨true, r1, ?_, ?_⟩
        · simp [Graph.pathLoop, hcur, List.getElem?_eq_getElem hcl, h1]
        · intro _
          obtain ⟨x, hx1, hx2⟩ := hfound rfl
          exact ⟨x, hvis1 x hx1, by rw [← (hs0.trans hs1).idOf]; exact hx2⟩
      | false =>
        simp only [List.length_cons] at hf
        obtain ⟨found, r2, h2, hfound2⟩ := ih r1 q1 (hs1.wellLinked hw) (hs0.trans hs1)
          (he1.trans hedges) hvis1 hq1 (by omega)
        refine ⟨found, r2, ?_, hfound2⟩
        simp [Graph.pathLoop, hcur, List.getElem?_eq_getElem hcl, h1, h2]

/-- The search `Graph::path` returns on a well-linked graph when every source id is the id
of a vertex; when it returns `true`, a vertex with the id of the target is reachable from
the source vertices along active edges of capacity `> 0`. -/
theorem path_run {r : Graph} (hw : r.WellLinked) (source : List String) (target : String)
    (hsrc : ∀ s ∈ source, ∃ x, r.findVertex s = some x) :
    ∃ found r1, r.path source target = some (found, r1) ∧
      (found = true → ∃ x,
        r.Reaches (fun e => r.activeAt e && decide (0 < r.capOf e))
          (source.filterMap r.findVertex) x ∧ r.idOf x = some target) := by
  obtain ⟨hs0, he0, hv0, -⟩ := resetSearch_spec r
  obtain ⟨b, q1, hpush⟩ := pushSources_total source r.resetSearch [] (hs0.wellLinked hw)
    (fun s hs => by rw [hs0.findVertex]; exact hsrc s hs)
  obtain ⟨hq1, hs1, he1, -, hvis1⟩ := pushSources_spec _ _ _ _ _ hpush
  simp only [List.nil_append] at hq1
  rw [hq1] at hpush
  have hvis : ∀ x, b.visitedAt x = true →
      r.Reaches (fun e => r.activeAt e && decide (0 < r.capOf e))
        (source.filterMap r.findVertex) x := by
    intro x hx
    rcases (hvis1 x).mp hx with h | ⟨s, hs, hsx⟩
    · rw [hv0] at h; exact absurd h (by simp)
    · apply Graph.Reaches.source
      rw [hs0.findVertex] at hsx
      exact List.mem_filterMap.mpr ⟨s, hs, hsx⟩
  have hq : QueueInv b source := by
    intro id hid
    obtain ⟨x, hx⟩ := hsrc id hid
    refine ⟨x, by rw [hs1.findVertex, hs0.findVertex]; exact hx, ?_⟩
    exact (hvis1 x).mpr (Or.inr ⟨id, hid, by rw [hs0.findVertex]; exact hx⟩)
  have hcount : source.length + b.unmarkedCount + 1 ≤ source.length + r.vertexSet.length + 1 := by
    have := unmarkedCount_le_length b
    rw [hs1.vertexSet_length, hs0.vertexSet_length] at this
    omega
  obtain ⟨found, r1, h, hf⟩ := pathLoop_run target r (source.filterMap r.findVertex) _ b source
    ((hs0.trans hs1).wellLinked hw) (hs0.trans hs1) (he1.trans he0) hvis hq hcount
  exact ⟨found, r1, by simp [Graph.path, hpush, h], hf⟩

/-! ## The two graphs of a paired network -/

theorem Paired.findVertexEq {g r : Graph} (hp : Paired g r) (id : String) :
    r.findVertex id = g.findVertex id := by
  have key : ∀ (a b : Graph), a.WellLinked → b.WellLinked →
      a.vertexSet.length = b.vertexSet.length →
      (∀ x, x < a.vertexSet.length → a.idOf x = b.idOf x) →
      ∀ x, a.findVertex id = some x → b.findVertex id = some x := by
    intro a b ha hb hlen hid x hx
    have h1 := ha.findVertex_sound hx
    have hxl := idOf_lt h1
    rw [hid x hxl] at h1
    have h2 := (hb.2.1 x (hlen ▸ hxl)).2.2.2.2
    rw [h1] at h2
    simpa using h2
  cases hg : g.findVertex id with
  | some x => exact key g r hp.1 hp.2.1 hp.2.2.1 hp.2.2.2.2.2 x hg
  | none =>
    cases hr : r.findVertex id with
    | none => rfl
    | some x =>
      have := key r g hp.2.1 hp.1 hp.2.2.1.symm
        (fun y hy => (hp.2.2.2.2.2 y (hp.2.2.1 ▸ hy)).symm) x hr
      rw [hg] at this
      exact absurd this (by simp)

theorem Paired.memAdjOf {g r : Graph} (hp : Paired g r) {e x : Nat} (h : e ∈ r.adjOf x) :
    e ∈ g.adjOf x := by
  have hx : x < r.vertexSet.length := by
    by_contra hcon
    rw [(adjOf_of_ge hcon).1] at h
    simp at h
  obtain ⟨he, ho⟩ := (hp.2.1.2.1 x hx).1 e h
  have he2 : e < g.edges.length := hp.2.2.2.1 ▸ he
  rw [← (hp.2.2.2.2.1 e he2).2.2.1] at ho
  exact (hp.1.mem_adjOf he2 (hp.2.2.1 ▸ hx)).mpr ho

theorem activeAt_eq_of_noCapacity {r k : Graph}
    (h : k.edges.map Edge.noCapacity = r.edges.map Edge.noCapacity) (i : Nat) :
    k.activeAt i = r.activeAt i := by
  have := getElem?_map_of_map_eq (fun x : Edge => x.selected) h (fun _ => rfl) i
  simp only [Graph.activeAt, this]

theorem flow_zero_of_flowOf {g : Graph} (h : ∀ k, k < g.edges.length → g.flowOf k = 0) :
    ∀ e ∈ g.edges, e.flow = 0 := by
  intro e he
  obtain ⟨k, hk, rfl⟩ := List.getElem_of_mem he
  have := h k hk
  simpa [Graph.flowOf, Graph.getFlow, List.getElem?_eq_getElem hk] using this

/-- On a paired network whose sources are stations: when no vertex with the id of the
target is reachable from the source vertices along edges that are active in the residual
graph and have a regular capacity `> 0`, `edmondsKarp` returns 0 within every budget of at
least one iteration, and returns with flow 0 on every regular edge. -/
theorem edmondsKarp_unreachable {g r : Graph} {source : List String} {target : String}
    {fuel : Nat} (hp : Paired g r) (hsrc : ∀ s ∈ source, ∃ x, g.findVertex s = some x)
    (hno : ∀ x, g.Reaches (fun e => r.activeAt e && decide (0 < g.capOf e))
      (source.filterMap g.findVertex) x → g.idOf x ≠ some target)
    (hfuel : 1 ≤ fuel) :
    ∃ g1 r1, g.edmondsKarp fuel source target r = some (0, g1, r1) ∧
      ∀ e ∈ g1.edges, e.flow = 0 := by
  obtain ⟨g0, r0, hreset⟩ := resetFlows_total_paired hp
  obtain ⟨hsg, -, hsr, -, hcap, hpt⟩ := resetFlows_paired hp hreset
  obtain ⟨-, hfr⟩ := resetFlows_frame _ _ _ _ _ hreset
  have hp0 : Paired g0 r0 := hp.sameStatic hsg hsr
  have hfv : ∀ id, r0.findVertex id = g.findVertex id := by
    intro id; rw [hsr.findVertex, hp.findVertexEq]
  obtain ⟨found, r1, hpath, hfound⟩ := path_run hp0.2.1 source target
    (fun s hs => by rw [hfv]; exact hsrc s hs)
  have hS : source.filterMap r0.findVertex = source.filterMap g.findVertex := by
    congr 1; funext id; exact hfv id
  have htrans : ∀ y, r0.Reaches (fun e => r0.activeAt e && decide (0 < r0.capOf e))
      (source.filterMap g.findVertex) y →
      g.Reaches (fun e => r.activeAt e && decide (0 < g.capOf e))
        (source.filterMap g.findVertex) y := by
    intro y hy
    induction hy with
    | source h => exact Graph.Reaches.source h
    | @link a b e _ hmem huse hdest ih =>
      have hmem2 : e ∈ g.adjOf a := by
        rw [hsr.adjOf] at hmem; exact hp.memAdjOf hmem
      have hxl : a < g.vertexSet.length := by
        by_contra hcon
        rw [(adjOf_of_ge hcon).1] at hmem2
        simp at hmem2
      have he : e < g.edges.length := ((hp.1.2.1 a hxl).1 e hmem2).1
      refine Graph.Reaches.link ih hmem2 ?_ ?_
      · rw [activeAt_eq_of_noCapacity hfr.2.2.2, (hpt e he).2] at huse
        exact huse
      · rw [hsr.getDest, ← (hp.2.2.2.2.1 e he).2.2.2.1] at hdest
        exact hdest
  have hnot : found = false := by
    cases found with
    | false => rfl
    | true =>
      exfalso
      obtain ⟨x, hx, hid⟩ := hfound rfl
      rw [hS] at hx
      refine hno x (htrans x hx) ?_
      rw [← hid, hsr.idOf]
      apply hp.2.2.2.2.2 x
      have := idOf_lt hid
      rw [hsr.vertexSet_length, ← hp.2.2.1] at this
      exact this
  subst hnot
  obtain ⟨n, rfl⟩ : ∃ n, fuel = n + 1 := ⟨fuel - 1, by omega⟩
  refine ⟨g0, r1, ?_, ?_⟩
  · simp [Graph.edmondsKarp, hreset, edmondsKarpLoop, hpath]
  · apply flow_zero_of_flowOf
    intro k hk
    rw [hsg.edges_length] at hk
    exact (hpt k hk).1

/-! ## The search `Graph::findEndOfLines` -/

theorem searchBudget_mono (d : Nat) : ∀ {a b : Nat}, a ≤ b → searchBudget d a ≤ searchBudget d b := by
  have step : ∀ k, searchBudget d k ≤ searchBudget d (k + 1) := by
    intro k
    induction k with
    | zero => simp [searchBudget]
    | succ k ih =>
      simp only [searchBudget] at ih ⊢
      have := Nat.mul_le_mul_left d ih
      omega
  intro a b hab
  induction hab with
  | refl => exact le_refl _
  | step _ ih => exact le_trans ih (step _)

theorem adjOf_length_le_maxDegree (g : Graph) (x : Nat) : (g.adjOf x).length ≤ g.maxDegree := by
  have key : ∀ (l : List Vertex) (v : Vertex), v ∈ l →
      v.adj.length ≤ (l.map (fun v => v.adj.length)).foldr max 0 := by
    intro l
    induction l with
    | nil => intro v hv; simp at hv
    | cons a l ih =>
      intro v hv
      simp only [List.map_cons, List.foldr_cons]
      rcases List.mem_cons.mp hv with h | h
      · subst h; exact le_max_left _ _
      · exact le_trans (ih v h) (le_max_right _ _)
  unfold Graph.adjOf Graph.maxDegree
  cases hx : g.vertexSet[x]? with
  | none => simp
  | some v => simpa using key g.vertexSet v (List.getElem?_mem hx)

theorem maxDegree_eq_of_sameStatic {g h : Graph} (hs : SameStatic g h) :
    h.maxDegree = g.maxDegree := by
  unfold Graph.maxDegree
  congr 1
  apply List.ext_getElem?
  intro i
  have := hs.adjOf i
  simp only [Graph.adjOf] at this
  simp only [List.getElem?_map]
  have hlen := hs.vertexSet_length
  cases h1 : h.vertexSet[i]? with
  | none =>
    have : g.vertexSet[i]? = none := by
      rw [List.getElem?_eq_none_iff] at h1 ⊢; omega
    simp [this]
  | some v =>
    cases h2 : g.vertexSet[i]? with
    | none =>
      rw [List.getElem?_eq_none_iff] at h2
      have := (List.getElem?_eq_some.mp h1).1
      omega
    | some w =>
      simp only [h1, h2, Option.map_some', Option.getD_some] at this
      simp [this]

/-- The inner loop of `findEndOfLines` returns; it appends to the queue the destinations of
the listed edges that are not marked. -/
theorem endOfLinesAdj_spec {g : Graph} (hw : g.WellLinked) : ∀ (es : List Nat) (q : List Nat),
    (∀ e ∈ es, e < g.edges.length) →
    ∃ P, endOfLinesAdj g es q = some (q ++ P) ∧ P.length ≤ es.length ∧
      (∀ y ∈ P, g.visitedAt y = false ∧ y < g.vertexSet.length ∧
        ∃ e ∈ es, g.getDest e = some y) ∧
      (∀ e ∈ es, ∀ y, g.getDest e = some y → g.visitedAt y = true ∨ y ∈ P) := by
  intro es
  induction es with
  | nil =>
    intro q _
    exact ⟨[], by simp [endOfLinesAdj], le_refl _, by simp, by simp⟩
  | cons e es ih =>
    intro q hes
    obtain ⟨edge, d, hedge, hd, hdest, hdl⟩ := hw.dest_lt (hes e (List.mem_cons_self _ _))
    have hes2 : ∀ x ∈ es, x < g.edges.length := fun x hx => hes x (List.mem_cons_of_mem _ hx)
    have hvd : g.visitedAt edge.dest = d.visited := by simp [Graph.visitedAt, hd]
    by_cases hv : d.visited = true
    · obtain ⟨P, h1, h2, h3, h4⟩ := ih q hes2
      refine ⟨P, ?_, by simp only [List.length_cons]; omega, ?_, ?_⟩
      · simp only [endOfLinesAdj, hedge, hd, Option.bind_eq_bind, Option.some_bind, if_pos hv, h1]
      · intro y hy
        obtain ⟨a, b, x, hx, hxd⟩ := h3 y hy
        exact ⟨a, b, x, List.mem_cons_of_mem _ hx, hxd⟩
      · intro x hx y hy
        rcases List.mem_cons.mp hx with h | h
        · subst h
          rw [hdest] at hy
          simp only [Option.some.injEq] at hy
          subst hy
          exact Or.inl (hvd.trans hv)
        · exact h4 x h y hy
    · obtain ⟨P, h1, h2, h3, h4⟩ := ih (q ++ [edge.dest]) hes2
      refine ⟨edge.dest :: P, ?_, by simp only [List.length_cons]; omega, ?_, ?_⟩
      · simp only [endOfLinesAdj, hedge, hd, Option.bind_eq_bind, Option.some_bind, if_neg hv, h1]
        simp
      · intro y hy
        rcases List.mem_cons.mp hy with h | h
        · subst h
          refine ⟨?_, hdl, e, List.mem_cons_self _ _, hdest⟩
          rw [hvd]; simpa using hv
        · obtain ⟨a, b, x, hx, hxd⟩ := h3 y h
          exact ⟨a, b, x, List.mem_cons_of_mem _ hx, hxd⟩
      · intro x hx y hy
        rcases List.mem_cons.mp hx with h | h
        · subst h
          rw [hdest] at hy
          simp only [Option.some.injEq] at hy
          subst hy
          exact Or.inr (List.mem_cons_self _ _)
        · rcases h4 x h y hy with h5 | h5
          · exact Or.inl h5
          · exact Or.inr (List.mem_cons_of_mem _ h5)

theorem queueWeight_step {g h : Graph} {d x : Nat} {q P : List Nat}
    (hlen : h.vertexSet.length = g.vertexSet.length)
    (hvis : ∀ y, h.visitedAt y = if y = x then true else g.visitedAt y)
    (hx : x < g.vertexSet.length) (hP : P.length ≤ d) (hPv : ∀ y ∈ P, h.visitedAt y = false) :
    h.queueWeight d (q ++ P) + 1 ≤ g.queueWeight d (x :: q) := by
  have hmono : ∀ y, g.visitedAt y = true → h.visitedAt y = true := by
    intro y hy; rw [hvis]; split <;> simp [hy]
  have hU : h.unmarkedCount ≤ g.unmarkedCount := unmarkedCount_le hlen hmono
  have hxh : h.visitedAt x = true := by rw [hvis]; simp
  have hkey : (g.visitedAt x = false ∧ h.unmarkedCount + 1 ≤ g.unmarkedCount) ∨
      (g.visitedAt x = true ∧ ∀ y, h.visitedAt y = g.visitedAt y) := by
    cases hgx : g.visitedAt x with
    | false => exact Or.inl ⟨rfl, unmarkedCount_lt hlen hmono hx hgx hxh⟩
    | true =>
      refine Or.inr ⟨rfl, fun y => ?_⟩
      rw [hvis]; split
      · rename_i hyx; rw [hyx, hgx]
      · rfl
  have h1 : (q.map (fun y => searchBudget d
        (h.unmarkedCount + (if h.visitedAt y = true then 1 else 0)))).sum
      ≤ (q.map (fun y => searchBudget d
        (g.unmarkedCount + (if g.visitedAt y = true then 1 else 0)))).sum := by
    apply List.sum_le_sum
    intro y _
    apply searchBudget_mono
    rcases hkey with ⟨-, hk⟩ | ⟨-, hk⟩
    · split <;> split <;> omega
    · rw [hk y]; omega
  have h2 : (P.map (fun y => searchBudget d
        (h.unmarkedCount + (if h.visitedAt y = true then 1 else 0)))).sum
      ≤ d * searchBudget d h.unmarkedCount := by
    have := List.sum_le_card_nsmul (P.map (fun y => searchBudget d
        (h.unmarkedCount + (if h.visitedAt y = true then 1 else 0))))
      (searchBudget d h.unmarkedCount) (by
        intro z hz
        obtain ⟨y, hy, rfl⟩ := List.mem_map.mp hz
        simp [hPv y hy])
    simp only [List.length_map, smul_eq_mul] at this
    exact le_trans this (Nat.mul_le_mul_right _ hP)
  have h3 : 1 + d * searchBudget d h.unmarkedCount
      ≤ searchBudget d (g.unmarkedCount + (if g.visitedAt x = true then 1 else 0)) := by
    have : searchBudget d (h.unmarkedCount + 1) = 1 + d * searchBudget d h.unmarkedCount := rfl
    rw [← this]
    apply searchBudget_mono
    rcases hkey with ⟨hk0, hk⟩ | ⟨hk0, -⟩
    · simp [hk0]; omega
    · simp [hk0]; omega
  simp only [Graph.queueWeight, List.map_append, List.sum_append, List.map_cons, List.sum_cons]
  omega

/-- The queue loop of `findEndOfLines` returns within the budget `queueWeight + 1`.  On
return every marked vertex is reachable from the start `a`, every edge out of a marked
vertex leads to a marked vertex, and the ids in the list are the ids of the marked vertices
with exactly one outgoing edge. -/
theorem endOfLinesLoop_run (g0 : Graph) (a : Nat) :
    ∀ (fuel : Nat) (g : Graph) (q : List Nat) (eol : List String),
      g.WellLinked → SameStatic g0 g → g.edges = g0.edges →
      (∀ x ∈ q, x < g.vertexSet.length ∧ g0.Reaches (fun _ => true) [a] x) →
      (∀ x, g.visitedAt x = true → g0.Reaches (fun _ => true) [a] x) →
      (∀ x, g.visitedAt x = true → ∀ e ∈ g0.adjOf x, ∀ y, g0.getDest e = some y →
        g.visitedAt y = true ∨ y ∈ q) →
      (∀ id, id ∈ eol ↔ ∃ x, g.visitedAt x = true ∧ g0.idOf x = some id ∧
        (g0.adjOf x).length = 1) →
      g.queueWeight g0.maxDegree q + 1 ≤ fuel →
      ∃ eol1 g1, endOfLinesLoop fuel g q eol = some (eol1, g1) ∧
        g.EqUpTo Vertex.unmarked (fun e => e) g1 ∧
        (∀ x, g1.visitedAt x = true → g0.Reaches (fun _ => true) [a] x) ∧
        (∀ x, g1.visitedAt x = true → ∀ e ∈ g0.adjOf x, ∀ y, g0.getDest e = some y →
          g1.visitedAt y = true) ∧
        (∀ x, g.visitedAt x = true ∨ x ∈ q → g1.visitedAt x = true) ∧
        (∀ id, id ∈ eol1 ↔ ∃ x, g1.visitedAt x = true ∧ g0.idOf x = some id ∧
          (g0.adjOf x).length = 1) ∧
        (∀ z idz, g0.idOf z = some idz → g.visitedAt z = true → z ∉ q →
          eol1.count idz = eol.count idz) ∧
        (∀ z idz q1, g0.idOf z = some idz → q = z :: q1 → z ∉ q1 →
          eol1.count idz ≤ eol.count idz + 1) := by
  intro fuel
  induction fuel with
  | zero => intro g q eol _ _ _ _ _ _ _ hf; omega
  | succ fuel ih =>
    intro g q eol hw hs0 hedges hq hvis hclosed heol hf
    cases q with
    | nil =>
      refine ⟨eol, g, rfl, Graph.EqUpTo.reflUpTo _ _ _, hvis, ?_, ?_, heol, ?_, ?_⟩
      · intro x hx e he y hy
        rcases hclosed x hx e he y hy with h | h
        · exact h
        · simp at h
      · rintro x (h | h)
        · exact h
        · simp at h
      · intro _ _ _ _ _; rfl
      · intro _ _ _ _ h; simp at h
    | cons x q =>
      obtain ⟨hxl, hxr⟩ := hq x (List.mem_cons_self _ _)
      obtain ⟨g1, hg1⟩ := updateVertex_some (g := g) (fun v => { v with visited := true }) hxl
      have hs1 : SameStatic g g1 := updateVertex_sameStatic hg1 (fun _ => ⟨rfl, rfl, rfl⟩)
      have hw1 := hs1.wellLinked hw
      have he1 : g1.edges = g.edges := (updateVertex_rest hg1).1
      have hvis1 : ∀ y, g1.visitedAt y = if y = x then true else g.visitedAt y := by
        intro y
        rw [visitedAt_updateVertex hg1]
        split
        · simp [List.getElem?_eq_getElem hxl]
        · rfl
      have hxl1 : x < g1.vertexSet.length := by rw [hs1.vertexSet_length]; exact hxl
      have hadj : (g1.vertexSet[x]).adj = g0.adjOf x := by
        rw [← (hs0.trans hs1).adjOf]; simp [Graph.adjOf, List.getElem?_eq_getElem hxl1]
      have hidx : g0.idOf x = some (g1.vertexSet[x]).id := by
        rw [← (hs0.trans hs1).idOf]; simp [Graph.idOf, List.getElem?_eq_getElem hxl1]
      have hadjlt : ∀ e ∈ (g1.vertexSet[x]).adj, e < g1.edges.length := by
        intro e he
        have : e ∈ g1.adjOf x := by
          simpa [Graph.adjOf, List.getElem?_eq_getElem hxl1] using he
        exact ((hw1.2.1 x hxl1).1 e this).1
      obtain ⟨P, hP, hPlen, hPprop, hPall⟩ := endOfLinesAdj_spec hw1 (g1.vertexSet[x]).adj q hadjlt
      have hdeg : P.length ≤ g0.maxDegree := by
        have := adjOf_length_le_maxDegree g0 x
        rw [← hadj] at this
        omega
      have hstep := queueWeight_step (d := g0.maxDegree) (q := q) hs1.vertexSet_length hvis1
        hxl hdeg (fun y hy => (hPprop y hy).1)
      have hinj : ∀ z idz, g0.idOf z = some idz → idz = (g1.vertexSet[x]).id → z = x := by
        intro z idz hz hidz
        have h1 := (hw.2.1 x hxl).2.2.2.2
        have hzl : z < g.vertexSet.length := by
          rw [← hs0.idOf] at hz
          exact idOf_lt hz
        have h2 := (hw.2.1 z hzl).2.2.2.2
        rw [hs0.idOf, hz] at h2
        rw [hs0.idOf, hidx, ← hidz] at h1
        simp only [Option.some_bind] at h1 h2
        rw [h1] at h2
        exact (Option.some.inj h2).symm
      have hPz : ∀ z, g1.visitedAt z = true → z ∉ P := by
        intro z hz hzP
        rw [(hPprop z hzP).1] at hz
        exact absurd hz (by simp)
      obtain ⟨eol1, g2, hrun, hfr, hvis2, hcl2, hmono2, heol2, hc1, -⟩ :=
        ih g1 (q ++ P)
          (if (g1.vertexSet[x]).adj.length = 1 then eol ++ [(g1.vertexSet[x]).id] else eol)
          hw1 (hs0.trans hs1) (he1.trans hedges)
          (by
            intro y hy
            rcases List.mem_append.mp hy with h | h
            · obtain ⟨h1, h2⟩ := hq y (List.mem_cons_of_mem _ h)
              exact ⟨by rw [hs1.vertexSet_length]; exact h1, h2⟩
            · obtain ⟨-, h2, e, he, hd⟩ := hPprop y h
              refine ⟨h2, Graph.Reaches.link hxr (by rw [← hadj]; exact he) rfl ?_⟩
              rw [← (hs0.trans hs1).getDest]; exact hd)
          (by
            intro y hy
            rw [hvis1] at hy
            by_cases hyx : y = x
            · rw [hyx]; exact hxr
            · rw [if_neg hyx] at hy; exact hvis y hy)
          (by
            intro z hz e he y hy
            rw [hvis1] at hz
            by_cases hzx : z = x
            · subst hzx
              rcases hPall e (by rw [hadj]; exact he) y
                (by rw [(hs0.trans hs1).getDest]; exact hy) with h | h
              · exact Or.inl h
              · exact Or.inr (List.mem_append_right _ h)
            · rw [if_neg hzx] at hz
              rcases hclosed z hz e he y hy with h | h
              · left; rw [hvis1]; split
                · rfl
                · exact h
              · rcases List.mem_cons.mp h with h | h
                · left; rw [hvis1, if_pos h]
                · exact Or.inr (List.mem_append_left _ h))
          (by
            intro id
            rw [hadj]
            constructor
            · intro hid
              have hcases : id ∈ eol ∨ ((g0.adjOf x).length = 1 ∧ id = (g1.vertexSet[x]).id) := by
                split at hid
                · rename_i h1
                  rcases List.mem_append.mp hid with h | h
                  · exact Or.inl h
                  · exact Or.inr ⟨h1, by simpa using h⟩
                · exact Or.inl hid
              rcases hcases with h | ⟨h1, h2⟩
              · obtain ⟨z, hz1, hz2, hz3⟩ := (heol id).mp h
                refine ⟨z, ?_, hz2, hz3⟩
                rw [hvis1]; split
                · rfl
                · exact hz1
              · exact ⟨x, by rw [hvis1, if_pos rfl], by rw [h2]; exact hidx, h1⟩
            · rintro ⟨z, hz1, hz2, hz3⟩
              rw [hvis1] at hz1
              by_cases hzx : z = x
              · subst hzx
                rw [if_pos hz3]
                rw [hidx] at hz2
                simp only [Option.some.injEq] at hz2
                rw [← hz2]
                exact List.mem_append_right _ (List.mem_singleton_self _)
              · rw [if_neg hzx] at hz1
                have := (heol id).mpr ⟨z, hz1, hz2, hz3⟩
                split
                · exact List.mem_append_left _ this
                · exact this)
          (by omega)
      refine ⟨eol1, g2, ?_,
        (updateVertex_eqUpTo hg1 Vertex.unmarked (fun e => e) (fun _ => rfl)).transUpTo hfr, hvis2, hcl2,
        ?_, heol2, ?_, ?_⟩
      · simp only [endOfLinesLoop, hg1, Option.bind_eq_bind, Option.some_bind,
          List.getElem?_eq_getElem hxl1, hP, hrun]
      · rintro z (h | h)
        · apply hmono2; left; rw [hvis1]; split
          · rfl
          · exact h
        · rcases List.mem_cons.mp h with h | h
          · apply hmono2; left; rw [hvis1, if_pos h]
          · exact hmono2 z (Or.inr (List.mem_append_left _ h))
      · intro z idz hz hzv hzq
        have hzx : z ≠ x := fun h => hzq (h ▸ List.mem_cons_self _ _)
        have hzv1 : g1.visitedAt z = true := by rw [hvis1, if_neg hzx]; exact hzv
        have hzq1 : z ∉ q ++ P := by
          intro h
          rcases List.mem_append.mp h with h | h
          · exact hzq (List.mem_cons_of_mem _ h)
          · exact hPz z hzv1 h
        rw [hc1 z idz hz hzv1 hzq1]
        split
        · have hne : ¬ (g1.vertexSet[x]).id = idz := fun h => hzx (hinj z idz hz h.symm)
          simp [List.count_append, List.count_singleton, hne]
        · rfl
      · intro z idz q1 hz hq1 hzq
        simp only [List.cons.injEq] at hq1
        obtain ⟨rfl, rfl⟩ := hq1
        have hzv1 : g1.visitedAt x = true := by rw [hvis1, if_pos rfl]
        have hzq1 : x ∉ q ++ P := by
          intro h
          rcases List.mem_append.mp h with h | h
          · exact hzq h
          · exact hPz x hzv1 h
        rw [hc1 x idz hz hzv1 hzq1]
        split
        · simp only [List.count_append, List.count_singleton]
          split <;> omega
        · omega

theorem clearVisited_spec (g : Graph) :
    SameStatic g g.clearVisited ∧ g.clearVisited.edges = g.edges ∧
    (∀ x, g.clearVisited.visitedAt x = false) ∧
    g.EqUpTo Vertex.unmarked (fun e => e) g.clearVisited := by
  have hfr : g.EqUpTo Vertex.unmarked (fun e => e) g.clearVisited := by
    refine ⟨rfl, rfl, ?_, rfl⟩
    simp [Graph.clearVisited, List.map_map, Function.comp_def, Vertex.unmarked]
  refine ⟨(hfr.weaken unsearched_unmarked (fun _ => rfl)).staticUpTo, rfl, ?_, hfr⟩
  intro x
  simp only [Graph.visitedAt, Graph.clearVisited, List.getElem?_map]
  cases g.vertexSet[x]? <;> simp

/-- On a well-linked graph `findEndOfLines` returns for the id of a station.  The vertices
it leaves marked are the vertices reachable from the station along outgoing edges; the ids
in the returned list are the ids of the reachable vertices with exactly one outgoing edge,
and the id of the station occurs at most once. -/
theorem findEndOfLines_spec {g : Graph} (hw : g.WellLinked) {stationId : String} {a : Nat}
    (ha : g.findVertex stationId = some a) :
    ∃ eol g1, g.findEndOfLines stationId = some (eol, g1) ∧
      g.EqUpTo Vertex.unmarked (fun e => e) g1 ∧
      (∀ x, g1.visitedAt x = true ↔ g.Reaches (fun _ => true) [a] x) ∧
      (∀ id, id ∈ eol ↔ ∃ x, g.Reaches (fun _ => true) [a] x ∧ g.idOf x = some id ∧
        (g.adjOf x).length = 1) ∧
      eol.count stationId ≤ 1 := by
  obtain ⟨hs, he, hv, hfr⟩ := clearVisited_spec g
  have hal : a < g.clearVisited.vertexSet.length := by
    rw [hs.vertexSet_length]; exact hw.findVertex_lt ha
  have hfuel : g.clearVisited.queueWeight g.maxDegree [a] + 1
      ≤ searchBudget g.maxDegree g.vertexSet.length + 1 := by
    simp only [Graph.queueWeight, hv, List.map_cons, List.map_nil, List.sum_cons, List.sum_nil,
      Bool.false_eq_true, if_false, add_zero, add_le_add_iff_right]
    apply searchBudget_mono
    have := unmarkedCount_le_length g.clearVisited
    rw [hs.vertexSet_length] at this
    exact this
  obtain ⟨eol, g1, hrun, hfr1, hvis, hcl, hmono, heol, -, hcount⟩ :=
    endOfLinesLoop_run g a _ g.clearVisited [a] [] (hs.wellLinked hw) hs he
      (by
        intro x hx
        simp only [List.mem_singleton] at hx
        subst hx
        exact ⟨hal, Graph.Reaches.source (List.mem_singleton_self _)⟩)
      (by intro x hx; rw [hv] at hx; exact absurd hx (by simp))
      (by intro x hx; rw [hv] at hx; exact absurd hx (by simp))
      (by
        intro id
        constructor
        · intro h; simp at h
        · rintro ⟨x, hx, -⟩; rw [hv] at hx; exact absurd hx (by simp))
      hfuel
  have hvisIff : ∀ x, g1.visitedAt x = true ↔ g.Reaches (fun _ => true) [a] x := by
    intro x
    constructor
    · exact hvis x
    · intro hx
      induction hx with
      | source h =>
        simp only [List.mem_singleton] at h
        subst h
        exact hmono _ (Or.inr (List.mem_singleton_self _))
      | @link u v e _ hmem _ hdest ih => exact hcl u ih e hmem v hdest
  refine ⟨eol, g1, ?_, hfr.transUpTo hfr1, hvisIff, ?_, ?_⟩
  · have : g.clearVisited.findVertex stationId = some a := by rw [hs.findVertex]; exact ha
    simp only [Graph.findEndOfLines, this, Option.bind_eq_bind, Option.some_bind]
    exact hrun
  · intro id
    rw [heol]
    constructor
    · rintro ⟨x, h1, h2, h3⟩; exact ⟨x, (hvisIff x).mp h1, h2, h3⟩
    · rintro ⟨x, h1, h2, h3⟩; exact ⟨x, (hvisIff x).mpr h1, h2, h3⟩
  · have := hcount a stationId [] (hw.findVertex_sound ha) rfl (by simp)
    simpa using this

/-- On a well-linked graph `superSourceCreator` returns for the id of a station, and the ids
in the returned list are the ids of the vertices other than the station that are reachable
from it along outgoing edges and have exactly one outgoing edge. -/
theorem superSourceCreator_spec {g : Graph} (hw : g.WellLinked) {vertexId : String} {a : Nat}
    (ha : g.findVertex vertexId = some a) :
    ∃ superSource g1, g.superSourceCreator vertexId = some (superSource, g1) ∧
      g.EqUpTo Vertex.unmarked (fun e => e) g1 ∧
      (∀ id, id ∈ superSource ↔ ∃ w, w ≠ a ∧ g.Reaches (fun _ => true) [a] w ∧
        g.idOf w = some id ∧ (g.adjOf w).length = 1) ∧
      vertexId ∉ superSource := by
  obtain ⟨eol, g1, hrun, hfr, -, heol, hcount⟩ := findEndOfLines_spec hw ha
  have hnot : vertexId ∉ eol.erase vertexId := by
    intro h
    have h1 := List.count_pos_iff.mpr h
    rw [List.count_erase_self] at h1
    omega
  refine ⟨eol.erase vertexId, g1, by simp [Graph.superSourceCreator, hrun], hfr, ?_, hnot⟩
  intro id
  have hida := hw.findVertex_sound ha
  constructor
  · intro h
    have hne : id ≠ vertexId := fun h2 => hnot (h2 ▸ h)
    obtain ⟨w, h1, h2, h3⟩ := (heol id).mp (List.mem_of_mem_erase h)
    refine ⟨w, ?_, h1, h2, h3⟩
    intro hwa
    rw [hwa, hida] at h2
    exact hne (Option.some.inj h2).symm
  · rintro ⟨w, hwa, h1, h2, h3⟩
    have hmem : id ∈ eol := (heol id).mpr ⟨w, h1, h2, h3⟩
    have hne : id ≠ vertexId := by
      intro h
      subst h
      have hwl := idOf_lt h2
      have e1 := (hw.2.1 w hwl).2.2.2.2
      rw [h2] at e1
      simp only [Option.some_bind] at e1
      rw [ha] at e1
      exact hwa (Option.some.inj e1).symm
    exact (List.mem_erase_of_ne hne).mpr hmem

/-! ## The search for line ends reads the shape of the graph only -/

theorem endOfLinesAdj_transport {g k : Graph} (hv : k.vertexSet = g.vertexSet)
    (hd : ∀ e : Nat, (k.edges[e]?).map (fun x : Edge => x.dest)
      = (g.edges[e]?).map (fun x : Edge => x.dest)) :
    ∀ (es q : List Nat), endOfLinesAdj k es q = endOfLinesAdj g es q := by
  intro es
  induction es with
  | nil => intro q; rfl
  | cons e es ih =>
    intro q
    have h := hd e
    simp only [endOfLinesAdj, hv, ih]
    cases hk : k.edges[e]? with
    | none =>
      cases hg : g.edges[e]? with
      | none => rfl
      | some b => simp [hk, hg] at h
    | some a =>
      cases hg : g.edges[e]? with
      | none => simp [hk, hg] at h
      | some b =>
        simp only [hk, hg, Option.map_some', Option.some.injEq] at h
        simp only [Option.bind_eq_bind, Option.some_bind, h]

theorem endOfLinesLoop_transport : ∀ (fuel : Nat) (g k : Graph) (q : List Nat)
    (eol l : List String) (g1 : Graph), k.vertexSet = g.vertexSet →
    (∀ e : Nat, (k.edges[e]?).map (fun x : Edge => x.dest)
      = (g.edges[e]?).map (fun x : Edge => x.dest)) →
    endOfLinesLoop fuel g q eol = some (l, g1) →
    endOfLinesLoop fuel k q eol = some (l, { k with vertexSet := g1.vertexSet }) := by
  intro fuel
  induction fuel with
  | zero => intro g k q eol l g1 _ _ h; simp [endOfLinesLoop] at h
  | succ fuel ih =>
    intro g k q eol l g1 hv hd h
    cases q with
    | nil =>
      simp only [endOfLinesLoop, Option.some.injEq, Prod.mk.injEq] at h ⊢
      obtain ⟨rfl, rfl⟩ := h
      exact ⟨rfl, by rw [← hv]⟩
    | cons x q =>
      simp only [endOfLinesLoop, Option.bind_eq_bind, Option.bind_eq_some] at h ⊢
      obtain ⟨ga, hga, cv, hcv, q1, hq1, h⟩ := h
      obtain ⟨y, hy, rfl⟩ := updateVertex_eq_some hga
      have hka : k.updateVertex x (fun v => { v with visited := true })
          = some { k with vertexSet := k.vertexSet.set x { y with visited := true } } := by
        simp [Graph.updateVertex, hv, hy]
      have hva : ({ k with vertexSet := k.vertexSet.set x { y with visited := true } } : Graph).vertexSet
          = ({ g with vertexSet := g.vertexSet.set x { y with visited := true } } : Graph).vertexSet := by
        simp [hv]
      refine ⟨_, hka, cv, by rw [hva]; exact hcv, q1, ?_, ?_⟩
      · rw [← hq1]
        exact endOfLinesAdj_transport
          (g := { g with vertexSet := g.vertexSet.set x { y with visited := true } })
          (k := { k with vertexSet := k.vertexSet.set x { y with visited := true } }) hva hd _ _
      · exact ih { g with vertexSet := g.vertexSet.set x { y with visited := true } }
          { k with vertexSet := k.vertexSet.set x { y with visited := true } } _ _ _ _ hva hd h

theorem maxDegree_eq_of_vertexSet {g k : Graph}
    (h : k.vertexSet.map Vertex.unmarked = g.vertexSet.map Vertex.unmarked) :
    k.maxDegree = g.maxDegree := by
  unfold Graph.maxDegree
  have h2 := congrArg (List.map (fun v : Vertex => v.adj.length)) h
  simp only [List.map_map, Function.comp_def, Vertex.unmarked] at h2
  rw [h2]

/-- Two graphs of the same shape (up to marks, flows, capacities and flags) give the same
run of `findEndOfLines`. -/
theorem findEndOfLines_congr {g k : Graph} (hs : g.EqUpTo Vertex.unmarked Edge.bare k)
    {stationId : String} {l : List String} {g1 : Graph}
    (h : g.findEndOfLines stationId = some (l, g1)) :
    k.findEndOfLines stationId = some (l, { k with vertexSet := g1.vertexSet }) := by
  obtain ⟨-, hid, hv, he⟩ := hs
  simp only [Graph.findEndOfLines, Option.bind_eq_bind, Option.bind_eq_some] at h ⊢
  obtain ⟨start, hstart, h⟩ := h
  have hcv : k.clearVisited.vertexSet = g.clearVisited.vertexSet := hv
  have hlen : k.vertexSet.length = g.vertexSet.length := by
    simpa using congrArg List.length hv
  refine ⟨start, by simpa [Graph.findVertex, Graph.clearVisited, hid] using hstart, ?_⟩
  rw [maxDegree_eq_of_vertexSet hv, hlen]
  have := endOfLinesLoop_transport _ g.clearVisited k.clearVisited _ _ _ _ hcv
    (fun e => getElem?_map_of_map_eq (fun x : Edge => x.dest) he (fun _ => rfl) e) h
  simpa [Graph.clearVisited] using this

theorem superSourceCreator_congr {g k : Graph} (hs : g.EqUpTo Vertex.unmarked Edge.bare k)
    {vertexId : String} {l : List String} {g1 : Graph}
    (h : g.superSourceCreator vertexId = some (l, g1)) :
    k.superSourceCreator vertexId = some (l, { k with vertexSet := g1.vertexSet }) := by
  simp only [Graph.superSourceCreator, Option.bind_eq_bind, Option.bind_eq_some,
    Option.pure_def, Option.some.injEq, Prod.mk.injEq] at h ⊢
  obtain ⟨⟨l0, ga⟩, h0, rfl, rfl⟩ := h
  exact ⟨_, findEndOfLines_congr hs h0, rfl, rfl⟩

theorem endOfLinesLoop_frame : ∀ (fuel : Nat) (g : Graph) (q : List Nat)
    (eol l : List String) (g1 : Graph), endOfLinesLoop fuel g q eol = some (l, g1) →
    g.EqUpTo Vertex.unmarked (fun e => e) g1 := by
  intro fuel
  induction fuel with
  | zero => intro g q eol l g1 h; simp [endOfLinesLoop] at h
  | succ fuel ih =>
    intro g q eol l g1 h
    cases q with
    | nil =>
      simp only [endOfLinesLoop, Option.some.injEq, Prod.mk.injEq] at h
      obtain ⟨-, rfl⟩ := h
      exact Graph.EqUpTo.reflUpTo _ _ _
    | cons x q =>
      simp only [endOfLinesLoop, Option.bind_eq_bind, Option.bind_eq_some] at h
      obtain ⟨ga, hga, cv, -, q1, -, h⟩ := h
      exact (updateVertex_eqUpTo hga Vertex.unmarked (fun e => e) (fun _ => rfl)).transUpTo
        (ih _ _ _ _ _ h)

/-- The search `superSourceCreator` overwrites visited marks only. -/
theorem superSourceCreator_frame {g g1 : Graph} {vertexId : String} {l : List String}
    (h : g.superSourceCreator vertexId = some (l, g1)) :
    g.EqUpTo Vertex.unmarked (fun e => e) g1 := by
  simp only [Graph.superSourceCreator, Graph.findEndOfLines, Option.bind_eq_bind,
    Option.bind_eq_some, Option.pure_def, Option.some.injEq, Prod.mk.injEq] at h
  obtain ⟨⟨l0, ga⟩, ⟨start, -, h0⟩, -, rfl⟩ := h
  exact (clearVisited_spec g).2.2.2.transUpTo (endOfLinesLoop_frame _ _ _ _ _ _ h0)

/-! ## Incoming flux in two states of the same network -/

theorem bare_id (e : Edge) : Edge.bare ((fun e => e) e) = e.bare := rfl

theorem noFlow_id (e : Edge) : Edge.noFlow ((fun e => e) e) = e.noFlow := rfl

theorem unmarked_unmarked (v : Vertex) : Vertex.unmarked (Vertex.unmarked v) = v.unmarked := rfl

theorem superSourceCreator_sameNetwork {g g1 r : Graph} {vertexId : String} {l : List String}
    (h : g.superSourceCreator vertexId = some (l, g1)) : SameNetwork g r g1 r :=
  ⟨(superSourceCreator_frame h).weaken unmarked_unmarked noFlow_id, Graph.EqUpTo.reflUpTo _ _ r⟩

/-- The states before and after `incomingFlux` are states of the same network. -/
theorem incomingFlux_sameNetwork {g r g2 r2 : Graph} {fuel F : Nat} {station : String}
    (h : g.incomingFlux fuel station r = some (F, g2, r2)) : SameNetwork g r g2 r2 := by
  simp only [Graph.incomingFlux, Option.bind_eq_bind, Option.bind_eq_some] at h
  obtain ⟨⟨l, g1⟩, h1, h2⟩ := h
  exact (superSourceCreator_sameNetwork h1).transNet (edmondsKarp_sameNetwork h2)

/-- Two states of the same paired network give the same value of `incomingFlux`. -/
theorem incomingFlux_congr {g r k kr g2 r2 : Graph} {fuel F : Nat} {station : String}
    (hp : Paired g r) (hs : SameNetwork g r k kr)
    (h : g.incomingFlux fuel station r = some (F, g2, r2)) :
    ∃ k2 kr2, k.incomingFlux fuel station kr = some (F, k2, kr2) := by
  simp only [Graph.incomingFlux, Option.bind_eq_bind, Option.bind_eq_some] at h ⊢
  obtain ⟨⟨l, g1⟩, h1, h2⟩ := h
  have hk1 := superSourceCreator_congr (hs.1.weaken unmarked_unmarked bare_noFlow) h1
  have hs1 : SameNetwork g1 r { k with vertexSet := g1.vertexSet } kr :=
    ((superSourceCreator_sameNetwork h1).symmNet.transNet hs).transNet (superSourceCreator_sameNetwork hk1)
  have hp1 : Paired g1 r := (superSourceCreator_sameNetwork (r := r) h1).pairedNet hp
  have hrun := edmondsKarp_congr hp1 (hs1.pairedNet hp1) hs1 h2
  exact ⟨_, _, _, hk1, hrun⟩

/-- On a paired network in which every link is active, the states before and after
`incomingReducedFlux` are states of the same network. -/
theorem incomingReducedFlux_sameNetwork {g r g4 r4 : Graph} {fuel F : Nat} {S : List Nat}
    {station : String} (hp : Paired g r) (hag : g.AllActive) (har : r.AllActive)
    (hS : ∀ e ∈ S, e < g.edges.length)
    (h : g.incomingReducedFlux fuel S station r = some (F, g4, r4)) :
    SameNetwork g r g4 r4 := by
  simp only [Graph.incomingReducedFlux, Option.bind_eq_bind, Option.bind_eq_some,
    Option.pure_def, Option.some.injEq, Prod.mk.injEq] at h
  obtain ⟨⟨l, g1⟩, h1, ⟨g2, r2⟩, h2, ⟨F1, g3, r3⟩, h3, ⟨ga, ra⟩, h4, -, rfl, rfl⟩ := h
  have hs1 : SameNetwork g r g1 r := superSourceCreator_sameNetwork h1
  have hp1 := hs1.pairedNet hp
  have hS1 : ∀ e ∈ S, e < g1.edges.length := by
    intro e he; rw [hs1.staticNet.1.edges_length]; exact hS e he
  exact hs1.transNet (activateEdges_restores hp1 hS1 (hs1.allActive.1 hag) (hs1.allActive.2 har)
    h2 (edmondsKarp_sameNetwork h3) h4)

/-- Two states of the same paired network give the same value of `incomingReducedFlux`. -/
theorem incomingReducedFlux_congr {g r k kr g4 r4 : Graph} {fuel F : Nat} {S : List Nat}
    {station : String} (hp : Paired g r) (hs : SameNetwork g r k kr)
    (hS : ∀ e ∈ S, e < g.edges.length)
    (h : g.incomingReducedFlux fuel S station r = some (F, g4, r4)) :
    ∃ k4 kr4, k.incomingReducedFlux fuel S station kr = some (F, k4, kr4) := by
  simp only [Graph.incomingReducedFlux, Option.bind_eq_bind, Option.bind_eq_some,
    Option.pure_def, Option.some.injEq, Prod.mk.injEq] at h ⊢
  obtain ⟨⟨l, g1⟩, h1, ⟨g2, r2⟩, h2, ⟨F1, g3, r3⟩, h3, ⟨ga, ra⟩, h4, rfl, rfl, rfl⟩ := h
  have hk1 := superSourceCreator_congr (hs.1.weaken unmarked_unmarked bare_noFlow) h1
  have hsg1 : SameNetwork g r g1 r := superSourceCreator_sameNetwork h1
  have hs1 : SameNetwork g1 r { k with vertexSet := g1.vertexSet } kr :=
    (hsg1.symmNet.transNet hs).transNet (superSourceCreator_sameNetwork hk1)
  have hp1 : Paired g1 r := hsg1.pairedNet hp
  have hpk1 := hs1.pairedNet hp1
  have hS1 : ∀ e ∈ S, e < g1.edges.length := by
    intro e he; rw [hsg1.staticNet.1.edges_length]; exact hS e he
  have hSk1 : ∀ e ∈ S, e < ({ k with vertexSet := g1.vertexSet } : Graph).edges.length := by
    intro e he; rw [hs1.staticNet.1.edges_length]; exact hS1 e he
  obtain ⟨k2, kr2, hk2, -, -, hpk2⟩ := selectEdges_flagsSet false hpk1 hSk1
  have hp2 : Paired g2 r2 := by
    obtain ⟨x, y, hx, -, -, hpx⟩ := selectEdges_flagsSet false hp1 hS1
    rw [deactivateEdges] at h2
    rw [h2] at hx
    simp only [Option.some.injEq, Prod.mk.injEq] at hx
    rw [hx.1, hx.2]; exact hpx
  have hs2 : SameNetwork g2 r2 k2 kr2 := selectEdges_congr hp1 hpk1 hs1 hS1 h2 hk2
  have hrun := edmondsKarp_congr hp2 hpk2 hs2 h3
  have hs3g := edmondsKarp_sameNetwork h3
  have hs3k := edmondsKarp_sameNetwork hrun
  have hp3 := hs3g.pairedNet hp2
  have hpk3 := hs3k.pairedNet hpk2
  have hSk3 : ∀ e ∈ S, e < ({ k2 with edges := g3.edges } : Graph).edges.length := by
    intro e he
    rw [hs3k.staticNet.1.edges_length, hs2.staticNet.1.edges_length]
    have := (selectEdges_flagsSet false hp1 hS1)
    obtain ⟨x, y, hx, hfs, -, -⟩ := this
    rw [deactivateEdges] at h2
    rw [h2] at hx
    simp only [Option.some.injEq, Prod.mk.injEq] at hx
    rw [hx.1, hfs.2.2.2.2.2.2.1]; exact hS1 e he
  obtain ⟨k4, kr4, hk4, -, -, -⟩ := selectEdges_flagsSet true hpk3 hSk3
  exact ⟨k4, kr4, _, hk1, _, hk2, _, hrun, _, hk4, rfl, rfl, rfl⟩

/-! ## Rounding to double precision -/

theorem bitLength_spec : ∀ (fuel n : Nat), n ≤ fuel → n ≠ 0 →
    2 ^ (bitLength fuel n - 1) ≤ n ∧ n < 2 ^ bitLength fuel n ∧ 1 ≤ bitLength fuel n := by
  intro fuel
  induction fuel with
  | zero => intro n hn h0; omega
  | succ fuel ih =>
    intro n hn h0
    simp only [bitLength, if_neg h0]
    by_cases h1 : n / 2 = 0
    · have hn1 : n = 1 := by omega
      subst hn1
      have : bitLength fuel (1 / 2) = 0 := by
        cases fuel <;> simp [bitLength]
      simp [this]
    · obtain ⟨a, b, c⟩ := ih (n / 2) (by omega) h1
      refine ⟨?_, ?_, by omega⟩
      · have : bitLength fuel (n / 2) + 1 - 1 = (bitLength fuel (n / 2) - 1) + 1 := by omega
        rw [this, pow_succ]
        omega
      · rw [pow_succ]
        omega

theorem pow2_eq (e : Int) : pow2 e = (2 : ℚ) ^ e := by
  unfold pow2
  split
  · rename_i h
    have : ((2 ^ e.toNat : Nat) : ℚ) = (2 : ℚ) ^ (e.toNat : Int) := by
      rw [zpow_natCast]; push_cast; rfl
    rw [this, Int.toNat_of_nonneg h]
  · rename_i h
    have hneg : 0 ≤ -e := by omega
    have : ((2 ^ (-e).toNat : Nat) : ℚ) = (2 : ℚ) ^ ((-e).toNat : Int) := by
      rw [zpow_natCast]; push_cast; rfl
    rw [this, Int.toNat_of_nonneg hneg, zpow_neg, one_div, inv_inv]

theorem floorLog2_spec {q : ℚ} (hq : 0 < q) :
    (2 : ℚ) ^ floorLog2 q ≤ q ∧ q < (2 : ℚ) ^ (floorLog2 q + 1) := by
  have hnum : 0 < q.num := Rat.num_pos.mpr hq
  have hden : q.den ≠ 0 := q.den_nz
  have ha0 : q.num.toNat ≠ 0 := by omega
  obtain ⟨a1, a2, a3⟩ := bitLength_spec q.num.toNat q.num.toNat (le_refl _) ha0
  obtain ⟨b1, b2, b3⟩ := bitLength_spec q.den q.den (le_refl _) hden
  set la := bitLength q.num.toNat q.num.toNat with hla
  set lb := bitLength q.den q.den with hlb
  have hqeq : q = (q.num.toNat : ℚ) / (q.den : ℚ) := by
    have h1 : ((q.num.toNat : Int) : ℚ) = (q.num : ℚ) := by
      rw [Int.toNat_of_nonneg (le_of_lt hnum)]
    have h2 : ((q.num.toNat : Nat) : ℚ) = ((q.num.toNat : Int) : ℚ) := by push_cast; rfl
    rw [h2, h1]
    exact (Rat.num_div_den q).symm
  have hdpos : (0 : ℚ) < (q.den : ℚ) := by exact_mod_cast Nat.pos_of_ne_zero hden
  have A1 : ((2 : ℚ) ^ (la - 1 : Nat)) ≤ (q.num.toNat : ℚ) := by exact_mod_cast a1
  have A2 : (q.num.toNat : ℚ) < (2 : ℚ) ^ la := by exact_mod_cast a2
  have B1 : ((2 : ℚ) ^ (lb - 1 : Nat)) ≤ (q.den : ℚ) := by exact_mod_cast b1
  have B2 : (q.den : ℚ) < (2 : ℚ) ^ lb := by exact_mod_cast b2
  have two_pos : (0 : ℚ) < 2 := by norm_num
  -- upper bound: q < 2 ^ (la - lb + 1)
  have hup : q < (2 : ℚ) ^ ((la : Int) - (lb : Int) + 1) := by
    rw [hqeq, div_lt_iff₀ hdpos]
    have e1 : ((la : Int) - (lb : Int) + 1) = (la : Int) - ((lb - 1 : Nat) : Int) := by
      have : ((lb - 1 : Nat) : Int) = (lb : Int) - 1 := by omega
      rw [this]; ring
    rw [e1, zpow_sub₀ (by norm_num : (2 : ℚ) ≠ 0), zpow_natCast, zpow_natCast]
    have hpos : (0 : ℚ) < (2 : ℚ) ^ (lb - 1) := pow_pos two_pos _
    calc (q.num.toNat : ℚ) < (2 : ℚ) ^ la := A2
      _ = (2 : ℚ) ^ la / (2 : ℚ) ^ (lb - 1) * (2 : ℚ) ^ (lb - 1) := by
        field_simp
      _ ≤ (2 : ℚ) ^ la / (2 : ℚ) ^ (lb - 1) * (q.den : ℚ) := by
        apply mul_le_mul_of_nonneg_left B1
        positivity
  -- lower bound: 2 ^ (la - lb - 1) ≤ q
  have hlow : (2 : ℚ) ^ ((la : Int) - (lb : Int) - 1) ≤ q := by
    rw [hqeq, le_div_iff₀ hdpos]
    have e1 : ((la : Int) - (lb : Int) - 1) = ((la - 1 : Nat) : Int) - (lb : Int) := by
      have : ((la - 1 : Nat) : Int) = (la : Int) - 1 := by omega
      rw [this]; ring
    rw [e1, zpow_sub₀ (by norm_num : (2 : ℚ) ≠ 0), zpow_natCast, zpow_natCast]
    have hpos : (0 : ℚ) < (2 : ℚ) ^ lb := pow_pos two_pos _
    calc (2 : ℚ) ^ (la - 1) / (2 : ℚ) ^ lb * (q.den : ℚ)
        ≤ (2 : ℚ) ^ (la - 1) / (2 : ℚ) ^ lb * (2 : ℚ) ^ lb := by
          apply mul_le_mul_of_nonneg_left (le_of_lt B2)
          positivity
      _ = (2 : ℚ) ^ (la - 1) := by field_simp
      _ ≤ (q.num.toNat : ℚ) := A1
  unfold floorLog2
  simp only [← hla, ← hlb, pow2_eq]
  split
  · rename_i h
    exact ⟨h, hup⟩
  · rename_i h
    refine ⟨hlow, ?_⟩
    have : (la : Int) - (lb : Int) - 1 + 1 = (la : Int) - (lb : Int) := by ring
    rw [this]
    exact lt_of_not_le h

theorem roundHalfEven_cases (q : ℚ) : roundHalfEven q = ⌊q⌋ ∨ roundHalfEven q = ⌊q⌋ + 1 := by
  unfold roundHalfEven
  simp only
  split
  · exact Or.inl rfl
  · split
    · exact Or.inr rfl
    · split
      · exact Or.inl rfl
      · exact Or.inr rfl

theorem roundHalfEven_intCast (n : Int) : roundHalfEven (n : ℚ) = n := by
  unfold roundHalfEven
  simp

theorem roundHalfEven_ge {n : Int} {q : ℚ} (h : (n : ℚ) ≤ q) : n ≤ roundHalfEven q := by
  have hf : n ≤ ⌊q⌋ := Int.le_floor.mpr h
  rcases roundHalfEven_cases q with h1 | h1 <;> omega

theorem roundHalfEven_le {n : Int} {q : ℚ} (h : q ≤ (n : ℚ)) : roundHalfEven q ≤ n := by
  rcases eq_or_lt_of_le h with h1 | h1
  · rw [h1, roundHalfEven_intCast]
  · have hf : ⌊q⌋ < n := Int.floor_lt.mpr h1
    rcases roundHalfEven_cases q with h2 | h2 <;> omega

theorem roundHalfEven_mono {x y : ℚ} (h : x ≤ y) : roundHalfEven x ≤ roundHalfEven y := by
  have hf : ⌊x⌋ ≤ ⌊y⌋ := Int.floor_mono h
  rcases eq_or_lt_of_le hf with h1 | h1
  · unfold roundHalfEven
    simp only
    rw [h1]
    have hr : x - (⌊y⌋ : ℚ) ≤ y - (⌊y⌋ : ℚ) := by linarith
    by_cases a1 : x - (⌊y⌋ : ℚ) < 1 / 2
    · rw [if_pos a1]
      split
      · exact le_refl _
      · split
        · omega
        · split
          · exact le_refl _
          · omega
    · rw [if_neg a1]
      have a2 : ¬ (y - (⌊y⌋ : ℚ) < 1 / 2) := fun h2 => a1 (lt_of_le_of_lt hr h2)
      rw [if_neg a2]
      by_cases b1 : 1 / 2 < x - (⌊y⌋ : ℚ)
      · rw [if_pos b1, if_pos (lt_of_lt_of_le b1 hr)]
      · rw [if_neg b1]
        by_cases b2 : 1 / 2 < y - (⌊y⌋ : ℚ)
        · rw [if_pos b2]
          split <;> omega
        · rw [if_neg b2]
  · rcases roundHalfEven_cases x with h2 | h2 <;> rcases roundHalfEven_cases y with h3 | h3 <;>
      omega

theorem pow2_pos (e : Int) : 0 < pow2 e := by
  rw [pow2_eq]
  exact zpow_pos (by norm_num) e

/-- The scaled value whose rounding gives the significand: for a positive `q` it lies between
`2 ^ 52` and `2 ^ 53`. -/
theorem scaled_bounds {q : ℚ} (hq : 0 < q) :
    ((2 ^ 52 : Int) : ℚ) ≤ q / pow2 (floorLog2 q - 52) ∧
      q / pow2 (floorLog2 q - 52) < ((2 ^ 53 : Int) : ℚ) := by
  obtain ⟨h1, h2⟩ := floorLog2_spec hq
  have hu := pow2_pos (floorLog2 q - 52)
  have e1 : (2 : ℚ) ^ floorLog2 q = ((2 ^ 52 : Int) : ℚ) * pow2 (floorLog2 q - 52) := by
    rw [pow2_eq, zpow_sub₀ (by norm_num : (2 : ℚ) ≠ 0)]
    have h52 : (2 : ℚ) ^ (52 : Int) = 4503599627370496 := by norm_num
    rw [h52]
    push_cast
    field_simp
  have e2 : (2 : ℚ) ^ (floorLog2 q + 1) = ((2 ^ 53 : Int) : ℚ) * pow2 (floorLog2 q - 52) := by
    rw [pow2_eq, zpow_sub₀ (by norm_num : (2 : ℚ) ≠ 0), zpow_add₀ (by norm_num : (2 : ℚ) ≠ 0)]
    have h52 : (2 : ℚ) ^ (52 : Int) = 4503599627370496 := by norm_num
    rw [h52]
    push_cast
    field_simp
    ring
  constructor
  · rw [le_div_iff₀ hu, ← e1]; exact h1
  · rw [div_lt_iff₀ hu, ← e2]; exact h2

theorem roundBinary64_pos {q : ℚ} (hq : 0 < q) : 0 < roundBinary64 q := by
  unfold roundBinary64
  rw [if_neg (ne_of_gt hq)]
  simp only [abs_of_pos hq]
  have hb := (scaled_bounds hq).1
  have hr := roundHalfEven_ge hb
  have hu := pow2_pos (floorLog2 q - 52)
  have : (0 : ℚ) < (roundHalfEven (q / pow2 (floorLog2 q - 52)) : ℚ) := by
    have : (0 : Int) < roundHalfEven (q / pow2 (floorLog2 q - 52)) := by
      have : (0 : Int) < 2 ^ 52 := by norm_num
      omega
    exact_mod_cast this
  positivity

theorem roundBinary64_neg {q : ℚ} (hq : q < 0) : roundBinary64 q < 0 := by
  unfold roundBinary64
  rw [if_neg (ne_of_lt hq)]
  simp only [abs_of_neg hq]
  have hq1 : 0 < -q := by linarith
  have hb := (scaled_bounds hq1).1
  have hu := pow2_pos (floorLog2 (-q) - 52)
  have hle : q / pow2 (floorLog2 (-q) - 52) ≤ ((-(2 ^ 52) : Int) : ℚ) := by
    have : q / pow2 (floorLog2 (-q) - 52) = -(-q / pow2 (floorLog2 (-q) - 52)) := by ring
    rw [this]
    push_cast
    push_cast at hb
    linarith
  have hr := roundHalfEven_le hle
  have : (roundHalfEven (q / pow2 (floorLog2 (-q) - 52)) : ℚ) < 0 := by
    have : roundHalfEven (q / pow2 (floorLog2 (-q) - 52)) < (0 : Int) := by
      have : (0 : Int) < 2 ^ 52 := by norm_num
      omega
    exact_mod_cast this
  exact mul_neg_of_neg_of_pos this hu

theorem roundBinary64_eq_zero {q : ℚ} : roundBinary64 q = 0 ↔ q = 0 := by
  constructor
  · intro h
    rcases lt_trichotomy q 0 with h1 | h1 | h1
    · have := roundBinary64_neg h1; linarith
    · exact h1
    · have := roundBinary64_pos h1; linarith
  · intro h
    simp [roundBinary64, h]

/-- Integers below `2 ^ 53` are values of the format: rounding leaves them as they are. -/
theorem roundBinary64_natCast {n : Nat} (hn : n < 2 ^ 53) : roundBinary64 (n : ℚ) = (n : ℚ) := by
  by_cases h0 : n = 0
  · subst h0; simp [roundBinary64]
  have hq : (0 : ℚ) < (n : ℚ) := by exact_mod_cast Nat.pos_of_ne_zero h0
  obtain ⟨h1, -⟩ := floorLog2_spec hq
  have hlt : (2 : ℚ) ^ floorLog2 (n : ℚ) < (2 : ℚ) ^ (53 : Int) := by
    have : ((n : ℚ)) < (2 : ℚ) ^ (53 : Int) := by
      have : (2 : ℚ) ^ (53 : Int) = ((2 ^ 53 : Nat) : ℚ) := by norm_cast
      rw [this]; exact_mod_cast hn
    exact lt_of_le_of_lt h1 this
  have he : floorLog2 (n : ℚ) < 53 := (zpow_lt_zpow_iff_right₀ (by norm_num : (1 : ℚ) < 2)).mp hlt
  unfold roundBinary64
  rw [if_neg (ne_of_gt hq)]
  simp only [abs_of_pos hq]
  set e := floorLog2 (n : ℚ) with he0
  have hk : 0 ≤ 52 - e := by omega
  have hu : pow2 (e - 52) = 1 / ((2 ^ (52 - e).toNat : Nat) : ℚ) := by
    rw [pow2_eq]
    have : e - 52 = -(((52 - e).toNat : Nat) : Int) := by
      rw [Int.toNat_of_nonneg hk]; ring
    rw [this, zpow_neg, zpow_natCast]
    push_cast
    rw [one_div]
  have hs : (n : ℚ) / pow2 (e - 52) = (((n * 2 ^ (52 - e).toNat : Nat) : Int) : ℚ) := by
    rw [hu]
    push_cast
    field_simp
  rw [hs, roundHalfEven_intCast, hu]
  push_cast
  field_simp

/-! ## The library sort -/

theorem stdSort_some {α : Type} {comp : α → α → Bool} {l out : List α}
    (h : stdSort comp l = some out) :
    out = l.insertionSort (fun a b => comp b a = false) := by
  unfold stdSort at h
  split at h
  · exact (Option.some.inj h).symm
  · exact Option.noConfusion h

theorem stdSort_perm {α : Type} {comp : α → α → Bool} {l out : List α}
    (h : stdSort comp l = some out) : out.Perm l := by
  rw [stdSort_some h]
  exact List.perm_insertionSort _ l

/-- A comparator that compares finite `double` keys with `>` is a strict weak ordering. -/
theorem strictWeakOn_of_finite {α : Type} (comp : α → α → Bool) (key : α → Binary64)
    (hcomp : ∀ a b, comp a b = (key a).gt (key b)) (l : List α)
    (hl : ∀ x ∈ l, ∃ q, key x = Binary64.finite q) : strictWeakOn comp l = true := by
  simp only [strictWeakOn, Bool.and_eq_true, List.all_eq_true]
  refine ⟨?_, ?_⟩
  · intro a ha
    obtain ⟨qa, hqa⟩ := hl a ha
    simp [hcomp, hqa, Binary64.gt]
  · intro a ha b hb c hc
    obtain ⟨qa, hqa⟩ := hl a ha
    obtain ⟨qb, hqb⟩ := hl b hb
    obtain ⟨qc, hqc⟩ := hl c hc
    simp only [hcomp, hqa, hqb, hqc, Binary64.gt]
    by_cases hab : qb < qa <;> by_cases hbc : qc < qb <;> by_cases hac : qc < qa <;>
      by_cases hba : qa < qb <;> by_cases hcb : qb < qc <;> by_cases hca : qa < qc <;>
      simp [hab, hbc, hac, hba, hcb, hca] <;> linarith

theorem stdSort_returns {α : Type} (comp : α → α → Bool) (key : α → Binary64)
    (hcomp : ∀ a b, comp a b = (key a).gt (key b)) (l : List α)
    (hl : ∀ x ∈ l, ∃ q, key x = Binary64.finite q) :
    stdSort comp l = some (l.insertionSort (fun a b => comp b a = false)) := by
  unfold stdSort
  rw [strictWeakOn_of_finite comp key hcomp l hl]
  rfl

theorem orderedInsert_sorted_of {α : Type} (r : α → α → Prop) [DecidableRel r] (P : α → Prop)
    (htot : ∀ a b, P a → P b → r a b ∨ r b a)
    (htrans : ∀ a b c, P a → P b → P c → r a b → r b c → r a c) :
    ∀ (l : List α) (a : α), (∀ x ∈ l, P x) → P a → l.Pairwise r →
      (l.orderedInsert r a).Pairwise r := by
  intro l
  induction l with
  | nil => intro a _ _ _; simp
  | cons b l ih =>
    intro a hl ha hs
    have hb : P b := hl b (List.mem_cons_self _ _)
    have hl1 : ∀ x ∈ l, P x := fun x hx => hl x (List.mem_cons_of_mem _ hx)
    rw [List.pairwise_cons] at hs
    rw [List.orderedInsert]
    split
    · rename_i hab
      rw [List.pairwise_cons]
      refine ⟨?_, List.pairwise_cons.mpr hs⟩
      intro x hx
      rcases List.mem_cons.mp hx with rfl | hx
      · exact hab
      · exact htrans a b x ha hb (hl1 x hx) hab (hs.1 x hx)
    · rename_i hab
      have hba : r b a := by
        rcases htot a b ha hb with h | h
        · exact absurd h hab
        · exact h
      rw [List.pairwise_cons]
      refine ⟨?_, ih a hl1 ha hs.2⟩
      intro x hx
      rcases (List.mem_orderedInsert r).mp hx with rfl | hx
      · exact hba
      · exact hs.1 x hx

theorem stdSort_sorted_of {α : Type} (comp : α → α → Bool) (P : α → Prop)
    (htot : ∀ a b, P a → P b → comp b a = false ∨ comp a b = false)
    (htrans : ∀ a b c, P a → P b → P c → comp b a = false → comp c b = false →
      comp c a = false) :
    ∀ (l : List α), (∀ x ∈ l, P x) →
      (l.insertionSort (fun a b => comp b a = false)).Pairwise
        (fun a b => comp b a = false) := by
  intro l
  induction l with
  | nil => intro _; simp
  | cons a l ih =>
    intro hl
    have hl1 : ∀ x ∈ l, P x := fun x hx => hl x (List.mem_cons_of_mem _ hx)
    have := ih hl1
    rw [List.insertionSort]
    refine orderedInsert_sorted_of (fun a b => comp b a = false) P htot htrans _ a ?_
      (hl a (List.mem_cons_self _ _)) this
    intro x hx
    exact hl1 x ((List.perm_insertionSort _ l).mem_iff.mp hx)

/-- The operand of the comparator of `topReductions` is a finite number for every entry: the
division is by the baseline, and only when the baseline is not zero. -/
theorem reductionPercentage_finite (p : String × Nat × Nat) :
    ∃ q, reductionPercentage p = Binary64.finite q := by
  unfold reductionPercentage
  split
  · exact ⟨_, rfl⟩
  · rename_i h
    have hb : roundBinary64 ((p.2.1 : Nat) : ℚ) ≠ 0 := by
      rw [Ne, roundBinary64_eq_zero]
      exact_mod_cast h
    simp only [Binary64.ofNat, Binary64.mul, Binary64.div, if_neg hb, Binary64.sub, Binary64.neg,
      Binary64.add]
    exact ⟨_, rfl⟩

theorem reductionGreater_returns (l : List (String × Nat × Nat)) :
    stdSort reductionGreater l
      = some (l.insertionSort (fun a b => reductionGreater b a = false)) :=
  stdSort_returns reductionGreater reductionPercentage (fun _ _ => rfl) l
    (fun x _ => reductionPercentage_finite x)

theorem reductionGreater_sorted {l out : List (String × Nat × Nat)}
    (h : stdSort reductionGreater l = some out) :
    out.Pairwise (fun a b => reductionGreater b a = false) := by
  rw [stdSort_some h]
  refine stdSort_sorted_of reductionGreater (fun _ => True) ?_ ?_ l (fun _ _ => trivial)
  · intro a b _ _
    obtain ⟨qa, ha⟩ := reductionPercentage_finite a
    obtain ⟨qb, hb⟩ := reductionPercentage_finite b
    simp only [reductionGreater, ha, hb, Binary64.gt, decide_eq_false_iff_not, not_lt]
    rcases le_total qa qb with h | h
    · exact Or.inr h
    · exact Or.inl h
  · intro a b c _ _ _
    obtain ⟨qa, ha⟩ := reductionPercentage_finite a
    obtain ⟨qb, hb⟩ := reductionPercentage_finite b
    obtain ⟨qc, hc⟩ := reductionPercentage_finite c
    simp only [reductionGreater, ha, hb, hc, Binary64.gt, decide_eq_false_iff_not, not_lt]
    intro h1 h2
    exact le_trans h2 h1

theorem sort_pair_decreasing_second_returns (l : List (String × Binary64))
    (hl : ∀ x ∈ l, ∃ q, x.2 = Binary64.finite q) :
    stdSort sort_pair_decreasing_second l
      = some (l.insertionSort (fun a b => sort_pair_decreasing_second b a = false)) :=
  stdSort_returns sort_pair_decreasing_second (fun x => x.2) (fun _ _ => rfl) l hl

theorem sort_pair_decreasing_second_sorted {l out : List (String × Binary64)}
    (h : stdSort sort_pair_decreasing_second l = some out)
    (hl : ∀ x ∈ l, ∃ q, x.2 = Binary64.finite q) :
    out.Pairwise (fun a b => sort_pair_decreasing_second b a = false) := by
  rw [stdSort_some h]
  refine stdSort_sorted_of sort_pair_decreasing_second (fun x => ∃ q, x.2 = Binary64.finite q)
    ?_ ?_ l hl
  · rintro a b ⟨qa, ha⟩ ⟨qb, hb⟩
    simp only [sort_pair_decreasing_second, ha, hb, Binary64.gt, decide_eq_false_iff_not, not_lt]
    rcases le_total qa qb with h | h
    · exact Or.inr h
    · exact Or.inl h
  · rintro a b c ⟨qa, ha⟩ ⟨qb, hb⟩ ⟨qc, hc⟩
    simp only [sort_pair_decreasing_second, ha, hb, hc, Binary64.gt, decide_eq_false_iff_not,
      not_lt]
    intro h1 h2
    exact le_trans h2 h1

/-! ## The loop of `topReductions` -/

theorem SameNetwork.edges_length {g r k kr : Graph} (hs : SameNetwork g r k kr) :
    k.edges.length = g.edges.length := hs.staticNet.1.edges_length

/-- The loop of `topReductions` on a network in which every link is active: every pass works
on a state of the given network, so the two values of an entry are the values
`incomingFlux` and `incomingReducedFlux` return on the given network, and the loop returns
whenever these calls do. -/
theorem topReductionsLoop_spec {g r : Graph} (fuel : Nat) {S : List Nat} (hp : Paired g r)
    (hag : g.AllActive) (har : r.AllActive) (hS : ∀ e ∈ S, e < g.edges.length) :
    ∀ (vs : List Vertex) (k kr : Graph) (result : List (String × Nat × Nat)),
      SameNetwork g r k kr →
      (∀ L k1 kr1, topReductionsLoop fuel S vs k kr result = some (L, k1, kr1) →
        SameNetwork g r k1 kr1 ∧ ∃ entries, L = result ++ entries ∧
          List.Forall₂ (fun (v : Vertex) (e : String × Nat × Nat) => e.1 = v.id ∧
            (∃ x, g.incomingFlux fuel v.id r = some (e.2.1, x)) ∧
            ∃ y, g.incomingReducedFlux fuel S v.id r = some (e.2.2, y)) vs entries) ∧
      ((∀ v ∈ vs, (∃ x, g.incomingFlux fuel v.id r = some x) ∧
          ∃ y, g.incomingReducedFlux fuel S v.id r = some y) →
        ∃ out, topReductionsLoop fuel S vs k kr result = some out) := by
  intro vs
  induction vs with
  | nil =>
    intro k kr result hs
    constructor
    · intro L k1 kr1 h
      simp only [topReductionsLoop, Option.some.injEq, Prod.mk.injEq] at h
      obtain ⟨rfl, rfl, rfl⟩ := h
      exact ⟨hs, [], by simp, List.Forall₂.nil⟩
    · intro _
      exact ⟨_, rfl⟩
  | cons v vs ih =>
    intro k kr result hs
    have hpk : Paired k kr := hs.pairedNet hp
    constructor
    · intro L k1 kr1 h
      simp only [topReductionsLoop, Option.bind_eq_bind, Option.bind_eq_some] at h
      obtain ⟨⟨b, ka, kra⟩, h1, ⟨d, kb, krb⟩, h2, h3⟩ := h
      have hs1 : SameNetwork k kr ka kra := incomingFlux_sameNetwork h1
      have hsa : SameNetwork g r ka kra := hs.transNet hs1
      have hpa : Paired ka kra := hsa.pairedNet hp
      have hSa : ∀ e ∈ S, e < ka.edges.length := by
        intro e he; rw [hsa.edges_length]; exact hS e he
      have hs2 : SameNetwork ka kra kb krb :=
        incomingReducedFlux_sameNetwork hpa (hsa.allActive.1 hag) (hsa.allActive.2 har) hSa h2
      have hsb : SameNetwork g r kb krb := hsa.transNet hs2
      obtain ⟨hfin, entries, hL, hall⟩ := (ih kb krb _ hsb).1 L k1 kr1 h3
      obtain ⟨x1, x2, hx⟩ := incomingFlux_congr hpk hs.symmNet h1
      obtain ⟨y1, y2, hy⟩ := incomingReducedFlux_congr hpa hsa.symmNet hSa h2
      refine ⟨hfin, (v.id, (b, d)) :: entries, by rw [hL]; simp, ?_⟩
      exact List.Forall₂.cons ⟨rfl, ⟨_, hx⟩, ⟨_, hy⟩⟩ hall
    · intro hall
      obtain ⟨⟨⟨b, x1, x2⟩, hx⟩, ⟨⟨d, y1, y2⟩, hy⟩⟩ := hall v (List.mem_cons_self _ _)
      obtain ⟨ka, kra, h1⟩ := incomingFlux_congr hp hs hx
      have hs1 : SameNetwork k kr ka kra := incomingFlux_sameNetwork h1
      have hsa : SameNetwork g r ka kra := hs.transNet hs1
      obtain ⟨kb, krb, h2⟩ := incomingReducedFlux_congr hp hsa hS hy
      have hpa : Paired ka kra := hsa.pairedNet hp
      have hSa : ∀ e ∈ S, e < ka.edges.length := by
        intro e he; rw [hsa.edges_length]; exact hS e he
      have hs2 : SameNetwork ka kra kb krb :=
        incomingReducedFlux_sameNetwork hpa (hsa.allActive.1 hag) (hsa.allActive.2 har) hSa h2
      have hsb : SameNetwork g r kb krb := hsa.transNet hs2
      obtain ⟨out, hout⟩ := (ih kb krb (result ++ [(v.id, (b, d))]) hsb).2
        (fun w hw => hall w (List.mem_cons_of_mem _ hw))
      refine ⟨out, ?_⟩
      simp only [topReductionsLoop, Option.bind_eq_bind, Option.bind_eq_some]
      exact ⟨_, h1, _, h2, hout⟩

/-! ## Stations with an empty super-source -/

theorem reaches_nil {g : Graph} {usable : Nat → Bool} {x : Nat}
    (h : g.Reaches usable [] x) : False := by
  induction h with
  | source hx => simp at hx
  | link _ _ _ _ ih => exact ih

theorem bare_flagIf (s : Bool) (c : Prop) [Decidable c] (x : Edge) :
    Edge.bare (Edge.flagIf s c x) = Edge.bare x := by
  unfold Edge.flagIf; split <;> rfl

/-- Deactivating or activating links keeps the pairing and changes nothing but flags. -/
theorem selectEdges_shape {g r g1 r1 : Graph} {s : Bool} {S : List Nat} (hp : Paired g r)
    (hS : ∀ e ∈ S, e < g.edges.length) (h : selectEdges s S g r = some (g1, r1)) :
    Paired g1 r1 ∧ g.EqUpTo Vertex.unmarked Edge.bare g1 := by
  obtain ⟨ga, ra, h1, hv, hid, hte, -, -, -, hsg, hsr, hge, -⟩ := selectEdges_spec s S g r hp hS
  rw [h] at h1
  simp only [Option.some.injEq, Prod.mk.injEq] at h1
  obtain ⟨rfl, rfl⟩ := h1
  refine ⟨hp.sameStatic hsg hsr, hte, hid, by rw [hv], ?_⟩
  apply map_eq_of_getElem?
  intro i
  rw [hge i]
  cases hx : g.edges[i]? <;> simp [bare_flagIf]

/-- The state after `incomingFlux` is paired and has the shape of the state before. -/
theorem incomingFlux_shape {g r g2 r2 : Graph} {fuel F : Nat} {station : String}
    (hp : Paired g r) (h : g.incomingFlux fuel station r = some (F, g2, r2)) :
    Paired g2 r2 ∧ g.EqUpTo Vertex.unmarked Edge.bare g2 :=
  ⟨(incomingFlux_sameNetwork h).pairedNet hp,
    (incomingFlux_sameNetwork h).1.weaken unmarked_unmarked bare_noFlow⟩

/-- The state after `incomingReducedFlux` is paired and has the shape of the state before,
whatever the flags were. -/
theorem incomingReducedFlux_shape {g r g4 r4 : Graph} {fuel F : Nat} {S : List Nat}
    {station : String} (hp : Paired g r) (hS : ∀ e ∈ S, e < g.edges.length)
    (h : g.incomingReducedFlux fuel S station r = some (F, g4, r4)) :
    Paired g4 r4 ∧ g.EqUpTo Vertex.unmarked Edge.bare g4 := by
  simp only [Graph.incomingReducedFlux, Option.bind_eq_bind, Option.bind_eq_some,
    Option.pure_def, Option.some.injEq, Prod.mk.injEq] at h
  obtain ⟨⟨l, g1⟩, h1, ⟨g2, r2⟩, h2, ⟨F1, g3, r3⟩, h3, ⟨ga, ra⟩, h4, -, rfl, rfl⟩ := h
  have hs1 : SameNetwork g r g1 r := superSourceCreator_sameNetwork h1
  have hp1 := hs1.pairedNet hp
  have hS1 : ∀ e ∈ S, e < g1.edges.length := by
    intro e he; rw [hs1.edges_length]; exact hS e he
  obtain ⟨hp2, he2⟩ := selectEdges_shape hp1 hS1 h2
  have hs3 := edmondsKarp_sameNetwork h3
  have hp3 := hs3.pairedNet hp2
  have hS3 : ∀ e ∈ S, e < g3.edges.length := by
    intro e he
    rw [hs3.edges_length]
    have : g2.edges.length = g1.edges.length := by
      simpa using congrArg List.length he2.2.2.2
    rw [this]; exact hS1 e he
  obtain ⟨hp4, he4⟩ := selectEdges_shape hp3 hS3 h4
  exact ⟨hp4, (((hs1.1.weaken unmarked_unmarked bare_noFlow).transUpTo he2).transUpTo
    (hs3.1.weaken unmarked_unmarked bare_noFlow)).transUpTo he4⟩

/-- With an empty super-source `incomingFlux` returns zero. -/
theorem incomingFlux_zero {g r : Graph} {fuel : Nat} {station : String} (hp : Paired g r)
    (hsup : (g.superSourceCreator station).map (fun p => p.1) = some []) (hfuel : 1 ≤ fuel) :
    ∃ g2 r2, g.incomingFlux fuel station r = some (0, g2, r2) := by
  simp only [Option.map_eq_some'] at hsup
  obtain ⟨⟨l, g1⟩, h1, hl⟩ := hsup
  simp only at hl
  subst hl
  have hp1 : Paired g1 r := (superSourceCreator_sameNetwork (r := r) h1).pairedNet hp
  obtain ⟨ga, ra, hrun, -⟩ := @edmondsKarp_unreachable g1 r [] station fuel hp1 (by simp)
    (by intro x hx; exact absurd (reaches_nil (by simpa using hx)) id) hfuel
  refine ⟨ga, ra, ?_⟩
  simp only [Graph.incomingFlux, Option.bind_eq_bind, Option.bind_eq_some]
  exact ⟨_, h1, hrun⟩

/-- An empty super-source stays empty in every state of the same shape. -/
theorem superSourceCreator_nil_congr {g k : Graph} (hs : g.EqUpTo Vertex.unmarked Edge.bare k)
    {station : String}
    (hsup : (g.superSourceCreator station).map (fun p => p.1) = some []) :
    (k.superSourceCreator station).map (fun p => p.1) = some [] := by
  simp only [Option.map_eq_some'] at hsup
  obtain ⟨⟨l, g1⟩, h1, hl⟩ := hsup
  simp only at hl
  subst hl
  rw [superSourceCreator_congr hs h1]
  rfl

/-- In the loop of `topReductions` every entry of a station with an empty super-source has
the baseline zero, whatever the flags of the links are. -/
theorem topReductionsLoop_baseline {g : Graph} {fuel : Nat} {S : List Nat} {station : String}
    (hS : ∀ e ∈ S, e < g.edges.length) (hfuel : 1 ≤ fuel)
    (hsup : (g.superSourceCreator station).map (fun p => p.1) = some []) :
    ∀ (vs : List Vertex) (k kr : Graph) (result : List (String × Nat × Nat)),
      Paired k kr → g.EqUpTo Vertex.unmarked Edge.bare k →
      ∀ L k1 kr1, topReductionsLoop fuel S vs k kr result = some (L, k1, kr1) →
        ∃ entries, L = result ++ entries ∧ ∀ e ∈ entries, e.1 = station → e.2.1 = 0 := by
  intro vs
  induction vs with
  | nil =>
    intro k kr result _ _ L k1 kr1 h
    simp only [topReductionsLoop, Option.some.injEq, Prod.mk.injEq] at h
    exact ⟨[], by simp [h.1], by simp⟩
  | cons v vs ih =>
    intro k kr result hpk hs L k1 kr1 h
    simp only [topReductionsLoop, Option.bind_eq_bind, Option.bind_eq_some] at h
    obtain ⟨⟨b, ka, kra⟩, h1, ⟨d, kb, krb⟩, h2, h3⟩ := h
    obtain ⟨hpa, hea⟩ := incomingFlux_shape hpk h1
    have hlen : ∀ {x : Graph}, g.EqUpTo Vertex.unmarked Edge.bare x →
        x.edges.length = g.edges.length := by
      intro x hx
      simpa using congrArg List.length hx.2.2.2
    have hSa : ∀ e ∈ S, e < ka.edges.length := by
      intro e he; rw [hlen (hs.transUpTo hea)]; exact hS e he
    obtain ⟨hpb, heb⟩ := incomingReducedFlux_shape hpa hSa h2
    obtain ⟨entries, hL, hall⟩ := ih kb krb _ hpb ((hs.transUpTo hea).transUpTo heb) L k1 kr1 h3
    refine ⟨(v.id, (b, d)) :: entries, by rw [hL]; simp, ?_⟩
    intro e he hst
    rcases List.mem_cons.mp he with rfl | he
    · simp only at hst
      obtain ⟨x1, x2, hx⟩ := @incomingFlux_zero k kr fuel station hpk
        (superSourceCreator_nil_congr hs hsup) hfuel
      rw [hst, hx] at h1
      simp only [Option.some.injEq, Prod.mk.injEq] at h1
      exact h1.1.symm
    · exact hall e he hst

/-! ## Averages of groups -/

theorem edmondsKarpLoop_lt (source : List String) (target : String) :
    ∀ (fuel maxFlow : Nat) (g r : Graph) (b : Bool) (F : Nat) (g1 r1 : Graph),
      maxFlow < 4294967296 →
      edmondsKarpLoop source target fuel maxFlow g r = some (b, F, g1, r1) →
      F < 4294967296 := by
  intro fuel
  induction fuel with
  | zero =>
    intro maxFlow g r b F g1 r1 hm h
    simp only [edmondsKarpLoop, Option.some.injEq, Prod.mk.injEq] at h
    obtain ⟨-, rfl, -, -⟩ := h
    exact hm
  | succ fuel ih =>
    intro maxFlow g r b F g1 r1 hm h
    simp only [edmondsKarpLoop, Option.bind_eq_bind, Option.bind_eq_some] at h
    obtain ⟨⟨found, ra⟩, -, h⟩ := h
    by_cases hf : found = true
    · simp only [hf, if_true, Option.bind_eq_some] at h
      obtain ⟨bn, -, ⟨g2, r2⟩, -, h⟩ := h
      exact ih _ _ _ _ _ _ _ (Nat.mod_lt _ (by norm_num)) h
    · simp only [hf, Option.some.injEq, Prod.mk.injEq] at h
      obtain ⟨-, rfl, -, -⟩ := h
      exact hm

/-- The value `edmondsKarp` returns is an `unsigned int`. -/
theorem edmondsKarp_lt {g r g1 r1 : Graph} {fuel F : Nat} {source : List String}
    {target : String} (h : g.edmondsKarp fuel source target r = some (F, g1, r1)) :
    F < 4294967296 := by
  simp only [Graph.edmondsKarp, Option.bind_eq_bind, Option.bind_eq_some] at h
  obtain ⟨⟨g0, r0⟩, -, ⟨b, F1, ga, ra⟩, hl, h⟩ := h
  have := edmondsKarpLoop_lt source target fuel 0 g0 r0 b F1 ga ra (by norm_num) hl
  cases b
  · simp at h
  · simp only [Option.some.injEq, Prod.mk.injEq] at h
    obtain ⟨rfl, -, -⟩ := h
    exact this

theorem incomingFlux_lt {g r g1 r1 : Graph} {fuel F : Nat} {station : String}
    (h : g.incomingFlux fuel station r = some (F, g1, r1)) : F < 4294967296 := by
  simp only [Graph.incomingFlux, Option.bind_eq_bind, Option.bind_eq_some] at h
  obtain ⟨⟨l, ga⟩, -, h⟩ := h
  exact edmondsKarp_lt h

theorem ofNat_exact {n : Nat} (hn : n < 2 ^ 53) : Binary64.ofNat n = Binary64.finite (n : ℚ) := by
  simp [Binary64.ofNat, roundBinary64_natCast hn]

theorem foldl_add_exact : ∀ (fluxes : List Nat) (a : Nat), a + fluxes.sum < 2 ^ 53 →
    fluxes.foldl (fun acc f => acc.add (Binary64.ofNat f)) (Binary64.finite (a : ℚ))
      = Binary64.finite ((a + fluxes.sum : Nat) : ℚ) := by
  intro fluxes
  induction fluxes with
  | nil => intro a _; simp
  | cons f fs ih =>
    intro a h
    simp only [List.sum_cons] at h
    have hf : f < 2 ^ 53 := by omega
    have haf : a + f < 2 ^ 53 := by omega
    simp only [List.foldl_cons, List.sum_cons]
    have hstep : (Binary64.finite (a : ℚ)).add (Binary64.ofNat f)
        = Binary64.finite ((a + f : Nat) : ℚ) := by
      rw [ofNat_exact hf]
      simp only [Binary64.add]
      have : (a : ℚ) + (f : ℚ) = ((a + f : Nat) : ℚ) := by push_cast; rfl
      rw [this, roundBinary64_natCast haf]
    rw [hstep, ih (a + f) (by omega)]
    congr 2
    omega

/-- The sum of fluxes below `2 ^ 53` is accumulated without rounding. -/
theorem fluxSum_exact {fluxes : List Nat} (h : fluxes.sum < 2 ^ 53) :
    fluxSum fluxes = Binary64.finite ((fluxes.sum : Nat) : ℚ) := by
  unfold fluxSum
  rw [ofNat_exact (by norm_num : 0 < 2 ^ 53)]
  have := foldl_add_exact fluxes 0 (by simpa using h)
  simpa using this

theorem sum_lt_of_forall_lt : ∀ (l : List Nat) (b : Nat), (∀ x ∈ l, x < b) → 0 < l.length →
    l.sum < l.length * b := by
  intro l
  induction l with
  | nil => intro b _ h; simp at h
  | cons x xs ih =>
    intro b hb _
    have hx := hb x (List.mem_cons_self _ _)
    rcases xs with _ | ⟨y, ys⟩
    · simpa using hx
    · have := ih b (fun z hz => hb z (List.mem_cons_of_mem _ hz)) (by simp)
      simp only [List.sum_cons, List.length_cons] at this ⊢
      nlinarith

/-- The average of fewer than `2 ^ 21` fluxes of 32 bits is the exact average rounded once. -/
theorem average_exact {fluxes : List Nat} (hne : fluxes ≠ []) (hlen : fluxes.length < 2 ^ 21)
    (hlt : ∀ f ∈ fluxes, f < 4294967296) :
    (fluxSum fluxes).div (Binary64.ofNat fluxes.length)
      = Binary64.finite (roundBinary64 (statedAverage fluxes)) := by
  have hpos : 0 < fluxes.length := List.length_pos.mpr hne
  have hsum : fluxes.sum < 2 ^ 53 := by
    have := sum_lt_of_forall_lt fluxes _ hlt hpos
    have h2 : fluxes.length * 4294967296 ≤ 2 ^ 21 * 4294967296 :=
      Nat.mul_le_mul_right _ (le_of_lt hlen)
    have h3 : 2 ^ 21 * 4294967296 = 2 ^ 53 := by norm_num
    omega
  rw [fluxSum_exact hsum, ofNat_exact (by omega : fluxes.length < 2 ^ 53)]
  have hn : ((fluxes.length : Nat) : ℚ) ≠ 0 := by exact_mod_cast (Nat.pos_iff_ne_zero.mp hpos)
  simp only [Binary64.div, if_neg hn, statedAverage]

/-- The accumulated sum is a finite number. -/
theorem foldl_add_finite : ∀ (fluxes : List Nat) (a : ℚ),
    ∃ q, fluxes.foldl (fun acc f => acc.add (Binary64.ofNat f)) (Binary64.finite a)
      = Binary64.finite q := by
  intro fluxes
  induction fluxes with
  | nil => intro a; exact ⟨a, rfl⟩
  | cons f fs ih =>
    intro a
    simp only [List.foldl_cons, Binary64.ofNat, Binary64.add]
    exact ih _

/-- The average of a non-empty group is a finite number. -/
theorem average_finite {fluxes : List Nat} (hne : fluxes ≠ []) :
    ∃ q, (fluxSum fluxes).div (Binary64.ofNat fluxes.length) = Binary64.finite q := by
  obtain ⟨s, hs⟩ := foldl_add_finite fluxes (roundBinary64 ((0 : Nat) : ℚ))
  have hpos : 0 < fluxes.length := List.length_pos.mpr hne
  have hn : roundBinary64 ((fluxes.length : Nat) : ℚ) ≠ 0 := by
    rw [Ne, roundBinary64_eq_zero]
    exact_mod_cast (Nat.pos_iff_ne_zero.mp hpos)
  unfold fluxSum
  rw [Binary64.ofNat, hs]
  simp only [Binary64.ofNat, Binary64.div, if_neg hn]
  exact ⟨_, rfl⟩

/-! ## The loops of `getAverageIncomingFlux` and `topGroupings` -/

/-- The loop of `getAverageIncomingFlux`: every pass works on a state of the given network,
so the fluxes it adds up are the values `incomingFlux` returns on the given network. -/
theorem averageLoop_spec {g r : Graph} (fuel : Nat) (hp : Paired g r) :
    ∀ (stations : List Station) (k kr : Graph) (acc : Binary64), SameNetwork g r k kr →
      (∀ out k1 kr1, averageLoop fuel stations k kr acc = some (out, k1, kr1) →
        SameNetwork g r k1 kr1 ∧ ∃ fluxes,
          List.Forall₂ (fun (s : Station) (f : Nat) =>
            ∃ x, g.incomingFlux fuel s.getName r = some (f, x)) stations fluxes ∧
          out = fluxes.foldl (fun a f => a.add (Binary64.ofNat f)) acc) ∧
      ((∀ s ∈ stations, ∃ x, g.incomingFlux fuel s.getName r = some x) →
        ∃ out, averageLoop fuel stations k kr acc = some out) := by
  intro stations
  induction stations with
  | nil =>
    intro k kr acc hs
    constructor
    · intro out k1 kr1 h
      simp only [averageLoop, Option.some.injEq, Prod.mk.injEq] at h
      obtain ⟨rfl, rfl, rfl⟩ := h
      exact ⟨hs, [], List.Forall₂.nil, rfl⟩
    · intro _; exact ⟨_, rfl⟩
  | cons s rest ih =>
    intro k kr acc hs
    have hpk : Paired k kr := hs.pairedNet hp
    constructor
    · intro out k1 kr1 h
      simp only [averageLoop, Option.bind_eq_bind, Option.bind_eq_some] at h
      obtain ⟨⟨f, ka, kra⟩, h1, h2⟩ := h
      have hsa : SameNetwork g r ka kra := hs.transNet (incomingFlux_sameNetwork h1)
      obtain ⟨hfin, fluxes, hall, hout⟩ := (ih ka kra _ hsa).1 out k1 kr1 h2
      obtain ⟨x1, x2, hx⟩ := incomingFlux_congr hpk hs.symmNet h1
      exact ⟨hfin, f :: fluxes, List.Forall₂.cons ⟨_, hx⟩ hall, by rw [hout]; rfl⟩
    · intro hall
      obtain ⟨⟨f, x1, x2⟩, hx⟩ := hall s (List.mem_cons_self _ _)
      obtain ⟨ka, kra, h1⟩ := incomingFlux_congr hp hs hx
      have hsa : SameNetwork g r ka kra := hs.transNet (incomingFlux_sameNetwork h1)
      obtain ⟨out, hout⟩ := (ih ka kra (acc.add (Binary64.ofNat f)) hsa).2
        (fun w hw => hall w (List.mem_cons_of_mem _ hw))
      refine ⟨out, ?_⟩
      simp only [averageLoop, Option.bind_eq_bind, Option.bind_eq_some]
      exact ⟨_, h1, hout⟩

/-- The value of `getAverageIncomingFlux` on a state of the given network. -/
theorem getAverageIncomingFlux_spec {g r k kr : Graph} (fuel : Nat) (hp : Paired g r)
    (hs : SameNetwork g r k kr) (stations : List Station) :
    (∀ out k1 kr1, k.getAverageIncomingFlux fuel stations kr = some (out, k1, kr1) →
      SameNetwork g r k1 kr1 ∧ ∃ fluxes,
        List.Forall₂ (fun (s : Station) (f : Nat) =>
          ∃ x, g.incomingFlux fuel s.getName r = some (f, x)) stations fluxes ∧
        out = (fluxSum fluxes).div (Binary64.ofNat fluxes.length)) ∧
    ((∀ s ∈ stations, ∃ x, g.incomingFlux fuel s.getName r = some x) →
      ∃ out, k.getAverageIncomingFlux fuel stations kr = some out) := by
  have hloop := averageLoop_spec fuel hp stations k kr (Binary64.ofNat 0) hs
  constructor
  · intro out k1 kr1 h
    simp only [Graph.getAverageIncomingFlux, Option.bind_eq_bind, Option.bind_eq_some,
      Option.pure_def, Option.some.injEq, Prod.mk.injEq] at h
    obtain ⟨⟨sum, ka, kra⟩, h0, rfl, rfl, rfl⟩ := h
    obtain ⟨hfin, fluxes, hall, hsum⟩ := hloop.1 sum ka kra h0
    refine ⟨hfin, fluxes, hall, ?_⟩
    simp only [hsum, fluxSum, hall.length_eq]
  · intro hall
    obtain ⟨⟨sum, ka, kra⟩, hout⟩ := hloop.2 hall
    refine ⟨(sum.div (Binary64.ofNat stations.length), ka, kra), ?_⟩
    simp only [Graph.getAverageIncomingFlux, Option.bind_eq_bind, Option.bind_eq_some,
      Option.pure_def, Option.some.injEq, Prod.mk.injEq]
    exact ⟨_, hout, rfl, rfl, rfl⟩

/-- The loop of `topGroupings`: one entry per group, in the order of the groups, with the
value computed from the fluxes on the given network. -/
theorem topGroupingsLoop_spec {g r : Graph} (fuel : Nat) (hp : Paired g r) :
    ∀ (group : List (String × List Station)) (k kr : Graph) (result : List (String × Binary64)),
      SameNetwork g r k kr →
      (∀ L k1 kr1, topGroupingsLoop fuel group k kr result = some (L, k1, kr1) →
        SameNetwork g r k1 kr1 ∧ ∃ entries, L = result ++ entries ∧
          List.Forall₂ (fun (it : String × List Station) (e : String × Binary64) =>
            e.1 = it.1 ∧ ∃ fluxes,
              List.Forall₂ (fun (s : Station) (f : Nat) =>
                ∃ x, g.incomingFlux fuel s.getName r = some (f, x)) it.2 fluxes ∧
              e.2 = (fluxSum fluxes).div (Binary64.ofNat fluxes.length)) group entries) ∧
      ((∀ it ∈ group, ∀ s ∈ it.2, ∃ x, g.incomingFlux fuel s.getName r = some x) →
        ∃ out, topGroupingsLoop fuel group k kr result = some out) := by
  intro group
  induction group with
  | nil =>
    intro k kr result hs
    constructor
    · intro L k1 kr1 h
      simp only [topGroupingsLoop, Option.some.injEq, Prod.mk.injEq] at h
      obtain ⟨rfl, rfl, rfl⟩ := h
      exact ⟨hs, [], by simp, List.Forall₂.nil⟩
    · intro _; exact ⟨_, rfl⟩
  | cons it rest ih =>
    intro k kr result hs
    have hav := getAverageIncomingFlux_spec fuel hp hs it.2
    constructor
    · intro L k1 kr1 h
      simp only [topGroupingsLoop, Option.bind_eq_bind, Option.bind_eq_some] at h
      obtain ⟨⟨av, ka, kra⟩, h1, h2⟩ := h
      obtain ⟨hsa, fluxes, hall, hval⟩ := hav.1 av ka kra h1
      obtain ⟨hfin, entries, hL, hrest⟩ := (ih ka kra _ hsa).1 L k1 kr1 h2
      refine ⟨hfin, (it.1, av) :: entries, by rw [hL]; simp, ?_⟩
      exact List.Forall₂.cons ⟨rfl, fluxes, hall, hval⟩ hrest
    · intro hall
      obtain ⟨⟨av, ka, kra⟩, h1⟩ := hav.2 (hall it (List.mem_cons_self _ _))
      obtain ⟨hsa, -⟩ := hav.1 av ka kra h1
      obtain ⟨out, hout⟩ := (ih ka kra (result ++ [(it.1, av)]) hsa).2
        (fun w hw => hall w (List.mem_cons_of_mem _ hw))
      refine ⟨out, ?_⟩
      simp only [topGroupingsLoop, Option.bind_eq_bind, Option.bind_eq_some]
      exact ⟨_, h1, hout⟩

/-- An empty group gets the value NaN in any state of any graph. -/
theorem getAverageIncomingFlux_nil (g r : Graph) (fuel : Nat) :
    g.getAverageIncomingFlux fuel [] r = some (Binary64.nan, g, r) := by
  simp only [Graph.getAverageIncomingFlux, averageLoop, Option.bind_eq_bind, Option.some_bind,
    Option.pure_def, List.length_nil]
  have : (Binary64.ofNat 0).div (Binary64.ofNat 0) = Binary64.nan := by
    simp [Binary64.ofNat, Binary64.div, roundBinary64]
  rw [this]

/-- The loop of `topGroupings` gives every group without members the value NaN. -/
theorem topGroupingsLoop_nil {fuel : Nat} :
    ∀ (group : List (String × List Station)) (k kr : Graph) (result : List (String × Binary64))
      (L : List (String × Binary64)) (k1 kr1 : Graph),
      topGroupingsLoop fuel group k kr result = some (L, k1, kr1) →
      ∃ entries, L = result ++ entries ∧
        List.Forall₂ (fun (it : String × List Station) (e : String × Binary64) =>
          e.1 = it.1 ∧ (it.2 = [] → e.2 = Binary64.nan)) group entries := by
  intro group
  induction group with
  | nil =>
    intro k kr result L k1 kr1 h
    simp only [topGroupingsLoop, Option.some.injEq, Prod.mk.injEq] at h
    exact ⟨[], by simp [h.1], List.Forall₂.nil⟩
  | cons it rest ih =>
    intro k kr result L k1 kr1 h
    simp only [topGroupingsLoop, Option.bind_eq_bind, Option.bind_eq_some] at h
    obtain ⟨⟨av, ka, kra⟩, h1, h2⟩ := h
    obtain ⟨entries, hL, hrest⟩ := ih ka kra _ L k1 kr1 h2
    refine ⟨(it.1, av) :: entries, by rw [hL]; simp, ?_⟩
    refine List.Forall₂.cons ⟨rfl, ?_⟩ hrest
    intro hnil
    rw [hnil, getAverageIncomingFlux_nil] at h1
    simp only [Option.some.injEq, Prod.mk.injEq] at h1
    exact h1.1.symm

theorem forall₂_imp_mem {α β : Type} {R T : α → β → Prop} :
    ∀ {l1 : List α} {l2 : List β}, List.Forall₂ R l1 l2 →
      (∀ a b, a ∈ l1 → b ∈ l2 → R a b → T a b) → List.Forall₂ T l1 l2 := by
  intro l1 l2 h
  induction h with
  | nil => intro _; exact List.Forall₂.nil
  | cons hab _ ih =>
    intro himp
    exact List.Forall₂.cons (himp _ _ (List.mem_cons_self _ _) (List.mem_cons_self _ _) hab)
      (ih (fun a b ha hb => himp a b (List.mem_cons_of_mem _ ha) (List.mem_cons_of_mem _ hb)))

theorem forall₂_exists_left {α β : Type} {R : α → β → Prop} :
    ∀ {l1 : List α} {l2 : List β}, List.Forall₂ R l1 l2 → ∀ b ∈ l2, ∃ a ∈ l1, R a b := by
  intro l1 l2 h
  induction h with
  | nil => intro b hb; simp at hb
  | cons hab _ ih =>
    intro b hb
    rcases List.mem_cons.mp hb with rfl | hb
    · exact ⟨_, List.mem_cons_self _ _, hab⟩
    · obtain ⟨a, ha, hr⟩ := ih b hb
      exact ⟨a, List.mem_cons_of_mem _ ha, hr⟩

theorem forall₂_flux_lt {g r : Graph} {fuel : Nat} {stations : List Station}
    {fluxes : List Nat}
    (h : List.Forall₂ (fun (s : Station) (f : Nat) =>
      ∃ x, g.incomingFlux fuel s.getName r = some (f, x)) stations fluxes) :
    ∀ f ∈ fluxes, f < 4294967296 := by
  intro f hf
  obtain ⟨s, -, ⟨x1, x2⟩, hx⟩ := forall₂_exists_left h f hf
  exact incomingFlux_lt hx

/-! ## The depth-first search `visitedDFS` -/

theorem reaches_sameStatic {g h : Graph} (hs : SameStatic g h) {usable : Nat → Bool}
    {S : List Nat} {x : Nat} (hr : g.Reaches usable S x) : h.Reaches usable S x := by
  induction hr with
  | source hx => exact Graph.Reaches.source hx
  | link _ hmem huse hdest ih =>
    exact Graph.Reaches.link ih (by rw [hs.adjOf]; exact hmem) huse
      (by rw [hs.getDest]; exact hdest)

theorem reaches_trans {g : Graph} {usable : Nat → Bool} {S : List Nat} {y x : Nat}
    (h1 : g.Reaches usable S y) (h2 : g.Reaches usable [y] x) : g.Reaches usable S x := by
  induction h2 with
  | source hx =>
    rw [List.mem_singleton] at hx
    rw [hx]; exact h1
  | link _ hmem huse hdest ih => exact Graph.Reaches.link ih hmem huse hdest

theorem sameStatic_of_marks {g h : Graph} (hs : g.EqUpTo Vertex.unmarked (fun e => e) h) :
    SameStatic g h :=
  (hs.weaken unsearched_unmarked bare_id).staticUpTo

theorem markVisited_spec {g : Graph} {s : Nat} (hs : s < g.vertexSet.length) :
    ∃ g1, g.updateVertex s (fun v => { v with visited := true }) = some g1 ∧
      SameStatic g g1 ∧ g.EqUpTo Vertex.unmarked (fun e => e) g1 ∧
      (∀ x, g1.visitedAt x = if x = s then true else g.visitedAt x) ∧
      ∃ sv, g1.vertexSet[s]? = some sv ∧ sv.adj = g.adjOf s := by
  obtain ⟨g1, hg1⟩ := updateVertex_some (g := g) (fun v => { v with visited := true }) hs
  have hs1 : SameStatic g g1 := updateVertex_sameStatic hg1 (fun _ => ⟨rfl, rfl, rfl⟩)
  have hsl : s < g1.vertexSet.length := by rw [hs1.vertexSet_length]; exact hs
  refine ⟨g1, hg1, hs1, updateVertex_eqUpTo hg1 Vertex.unmarked (fun e => e) (fun _ => rfl),
    ?_, g1.vertexSet[s], List.getElem?_eq_getElem hsl, ?_⟩
  · intro y
    rw [visitedAt_updateVertex hg1]
    split
    · simp [List.getElem?_eq_getElem hs]
    · rfl
  · rw [← hs1.adjOf]
    simp [Graph.adjOf, List.getElem?_eq_getElem hsl]

/-- The loop over the outgoing edges in `visitedDFS`, for a recursive call that does what
`SearchedFrom` says whenever the budget `d` covers the unmarked vertices. -/
theorem visitedDFSAdj_run (visit : Nat → Graph → Option Graph) (d : Nat)
    (hvisit : ∀ (y : Nat) (g : Graph), g.WellLinked → y < g.vertexSet.length →
      g.visitedAt y = false → g.unmarkedCount ≤ d → ∃ g1, visit y g = some g1 ∧
        g.SearchedFrom y g1) :
    ∀ (es : List Nat) (gi : Graph), gi.WellLinked → (∀ e ∈ es, e < gi.edges.length) →
      gi.unmarkedCount ≤ d →
      ∃ gj, visitedDFSAdj visit es gi = some gj ∧
        gi.EqUpTo Vertex.unmarked (fun e => e) gj ∧
        (∀ x, gi.visitedAt x = true → gj.visitedAt x = true) ∧
        (∀ e ∈ es, ∀ y, gi.getDest e = some y → gj.visitedAt y = true) ∧
        (∀ x, gj.visitedAt x = true → gi.visitedAt x = false →
          ∃ e ∈ es, ∃ y, gi.getDest e = some y ∧ gi.Reaches (fun _ => true) [y] x) ∧
        (∀ x, gj.visitedAt x = true → gi.visitedAt x = false →
          ∀ e ∈ gi.adjOf x, ∀ y, gi.getDest e = some y → gj.visitedAt y = true) := by
  intro es
  induction es with
  | nil =>
    intro gi _ _ _
    refine ⟨gi, rfl, Graph.EqUpTo.reflUpTo _ _ _, fun _ h => h, ?_, ?_, ?_⟩
    · intro e he; simp at he
    · intro x h1 h2; rw [h1] at h2; cases h2
    · intro x h1 h2; rw [h1] at h2; cases h2
  | cons e es ih =>
    intro gi hw hes hcount
    have hel : e < gi.edges.length := hes e (List.mem_cons_self _ _)
    have hes1 : ∀ e ∈ es, e < gi.edges.length := fun x hx => hes x (List.mem_cons_of_mem _ hx)
    obtain ⟨edge, dv, hedge, hdv, hdest, hdl⟩ := hw.dest_lt hel
    have hvd : gi.visitedAt edge.dest = dv.visited := by simp [Graph.visitedAt, hdv]
    by_cases hvis : dv.visited = true
    · obtain ⟨gj, hrun, hF, hM, hD, hR, hC⟩ := ih gi hw hes1 hcount
      refine ⟨gj, ?_, hF, hM, ?_, ?_, hC⟩
      · simp only [visitedDFSAdj, hedge, hdv, Option.bind_eq_bind, Option.some_bind, hvis,
          if_true]
        exact hrun
      · intro e1 he1 y hy
        rcases List.mem_cons.mp he1 with rfl | he1
        · rw [hdest] at hy
          obtain rfl := Option.some.inj hy
          exact hM _ (by rw [hvd]; exact hvis)
        · exact hD e1 he1 y hy
      · intro x h1 h2
        obtain ⟨e1, he1, y, hy, hr⟩ := hR x h1 h2
        exact ⟨e1, List.mem_cons_of_mem _ he1, y, hy, hr⟩
    · have hvis0 : gi.visitedAt edge.dest = false := by
        rw [hvd]; simpa using hvis
      obtain ⟨g2, hcall, hF2, hM2, hS2, hR2, hC2⟩ := hvisit edge.dest gi hw hdl hvis0 hcount
      have hs2 : SameStatic gi g2 := sameStatic_of_marks hF2
      have hw2 := hs2.wellLinked hw
      have hes2 : ∀ e ∈ es, e < g2.edges.length := by
        intro x hx; rw [hs2.edges_length]; exact hes1 x hx
      have hcount2 : g2.unmarkedCount ≤ d :=
        le_trans (unmarkedCount_le hs2.vertexSet_length hM2) hcount
      obtain ⟨gj, hrun, hF, hM, hD, hR, hC⟩ := ih g2 hw2 hes2 hcount2
      refine ⟨gj, ?_, hF2.transUpTo hF, fun x hx => hM x (hM2 x hx), ?_, ?_, ?_⟩
      · simp only [visitedDFSAdj, hedge, hdv, Option.bind_eq_bind, Option.some_bind, hvis,
          Bool.false_eq_true, if_false, hcall]
        exact hrun
      · intro e1 he1 y hy
        rcases List.mem_cons.mp he1 with rfl | he1
        · rw [hdest] at hy
          obtain rfl := Option.some.inj hy
          exact hM _ hS2
        · exact hD e1 he1 y (by rw [hs2.getDest]; exact hy)
      · intro x h1 h2
        by_cases hx2 : g2.visitedAt x = true
        · exact ⟨e, List.mem_cons_self _ _, edge.dest, hdest, hR2 x hx2 h2⟩
        · have hx2f : g2.visitedAt x = false := by simpa using hx2
          obtain ⟨e1, he1, y, hy, hr⟩ := hR x h1 hx2f
          refine ⟨e1, List.mem_cons_of_mem _ he1, y, by rw [← hs2.getDest]; exact hy, ?_⟩
          exact reaches_sameStatic ⟨hs2.edges_length.symm, hs2.vertexSet_length.symm,
            hs2.idToVertex.symm, fun i => (hs2.getOrig i).symm, fun i => (hs2.getDest i).symm,
            fun i => (hs2.getReverse i).symm, fun i => (hs2.getCorrespondingEdge i).symm,
            fun i => (hs2.adjOf i).symm, fun i => (hs2.incomingOf i).symm,
            fun i => (hs2.idOf i).symm⟩ hr
      · intro x h1 h2 e1 he1 y hy
        by_cases hx2 : g2.visitedAt x = true
        · exact hM y (hC2 x hx2 h2 e1 he1 y hy)
        · have hx2f : g2.visitedAt x = false := by simpa using hx2
          exact hC x h1 hx2f e1 (by rw [hs2.adjOf]; exact he1) y (by rw [hs2.getDest]; exact hy)

/-- The function `visitedDFS` returns when the depth bound covers the unmarked vertices, and
the graph it leaves is searched from the source. -/
theorem visitedDFSDepth_run : ∀ (depth s : Nat) (g : Graph), g.WellLinked →
    s < g.vertexSet.length → g.visitedAt s = false → g.unmarkedCount ≤ depth →
    ∃ g1, visitedDFSDepth depth s g = some g1 ∧ g.SearchedFrom s g1 := by
  intro depth
  induction depth with
  | zero =>
    intro s g _ hs hv hc
    obtain ⟨g1, -, hs1, -, hvis1, -⟩ := markVisited_spec hs
    have := unmarkedCount_lt hs1.vertexSet_length
      (fun x hx => by rw [hvis1]; split; rfl; exact hx) hs hv (by rw [hvis1]; simp)
    omega
  | succ d ih =>
    intro s g hw hs hv hc
    obtain ⟨g1, hg1, hs1, hF1, hvis1, sv, hsv, hadj⟩ := markVisited_spec hs
    have hM1 : ∀ x, g.visitedAt x = true → g1.visitedAt x = true := by
      intro x hx; rw [hvis1]; split; rfl; exact hx
    have hc1 : g1.unmarkedCount ≤ d := by
      have := unmarkedCount_lt hs1.vertexSet_length hM1 hs hv (by rw [hvis1]; simp)
      omega
    have hw1 := hs1.wellLinked hw
    have hes : ∀ e ∈ sv.adj, e < g1.edges.length := by
      intro e he
      rw [hadj] at he
      rw [hs1.edges_length]
      exact ((hw.2.1 s hs).1 e he).1
    obtain ⟨gj, hrun, hF, hM, hD, hR, hC⟩ := visitedDFSAdj_run (visitedDFSDepth d) d
      (fun y k hk hy hvy hcy => ih y k hk hy hvy hcy) sv.adj g1 hw1 hes hc1
    refine ⟨gj, ?_, hF1.transUpTo hF, fun x hx => hM x (hM1 x hx), hM s (by rw [hvis1]; simp), ?_, ?_⟩
    · simp only [visitedDFSDepth, hg1, hsv, Option.bind_eq_bind, Option.some_bind]
      exact hrun
    · intro x h1 h2
      by_cases hxs : x = s
      · rw [hxs]; exact Graph.Reaches.source (List.mem_singleton.mpr rfl)
      · have hx1 : g1.visitedAt x = false := by rw [hvis1, if_neg hxs]; exact h2
        obtain ⟨e, he, y, hy, hr⟩ := hR x h1 hx1
        have hsym : SameStatic g1 g := ⟨hs1.edges_length.symm, hs1.vertexSet_length.symm,
            hs1.idToVertex.symm, fun i => (hs1.getOrig i).symm, fun i => (hs1.getDest i).symm,
            fun i => (hs1.getReverse i).symm, fun i => (hs1.getCorrespondingEdge i).symm,
            fun i => (hs1.adjOf i).symm, fun i => (hs1.incomingOf i).symm,
            fun i => (hs1.idOf i).symm⟩
        have hr0 := reaches_sameStatic hsym hr
        have hsy : g.Reaches (fun _ => true) [s] y :=
          Graph.Reaches.link (Graph.Reaches.source (List.mem_singleton.mpr rfl))
            (by rw [← hadj]; exact he) rfl (by rw [← hs1.getDest]; exact hy)
        exact reaches_trans hsy hr0
    · intro x h1 h2 e he y hy
      by_cases hxs : x = s
      · subst hxs
        exact hD e (by rw [hadj]; exact he) y (by rw [hs1.getDest]; exact hy)
      · have hx1 : g1.visitedAt x = false := by rw [hvis1, if_neg hxs]; exact h2
        exact hC x h1 hx1 e (by rw [hs1.adjOf]; exact he) y (by rw [hs1.getDest]; exact hy)

/-- After the marks are cleared, `visitedDFS` from a vertex of a well-linked graph returns
and marks exactly the vertices reachable from it. -/
theorem visitedDFS_spec {g : Graph} (hw : g.WellLinked) {a : Nat}
    (ha : a < g.vertexSet.length) :
    ∃ g1, g.clearVisited.visitedDFS a = some g1 ∧
      g.EqUpTo Vertex.unmarked (fun e => e) g1 ∧
      ∀ x, g1.visitedAt x = true ↔ g.Reaches (fun _ => true) [a] x := by
  obtain ⟨hs0, -, hclear, hF0⟩ := clearVisited_spec g
  have hw0 := hs0.wellLinked hw
  have ha0 : a < g.clearVisited.vertexSet.length := by rw [hs0.vertexSet_length]; exact ha
  obtain ⟨g1, hrun, hF, -, hS, hR, hC⟩ := visitedDFSDepth_run (g.clearVisited.vertexSet.length + 1)
    a g.clearVisited hw0 ha0 (hclear a)
    (le_trans (unmarkedCount_le_length _) (Nat.le_succ _))
  refine ⟨g1, hrun, hF0.transUpTo hF, ?_⟩
  intro x
  constructor
  · intro hx
    have hsym : SameStatic g.clearVisited g := ⟨hs0.edges_length.symm,
      hs0.vertexSet_length.symm, hs0.idToVertex.symm, fun i => (hs0.getOrig i).symm,
      fun i => (hs0.getDest i).symm, fun i => (hs0.getReverse i).symm,
      fun i => (hs0.getCorrespondingEdge i).symm, fun i => (hs0.adjOf i).symm,
      fun i => (hs0.incomingOf i).symm, fun i => (hs0.idOf i).symm⟩
    exact reaches_sameStatic hsym (hR x hx (hclear x))
  · intro hr
    induction hr with
    | source hx =>
      rw [List.mem_singleton] at hx
      rw [hx]; exact hS
    | link _ hmem _ hdest ih =>
      exact hC _ ih (hclear _) _ (by rw [hs0.adjOf]; exact hmem) _
        (by rw [hs0.getDest]; exact hdest)

/-! ## The loops of `calculateNetworkMaxFlow` -/

theorem SameStatic.flip {g h : Graph} (hs : SameStatic g h) : SameStatic h g :=
  ⟨hs.edges_length.symm, hs.vertexSet_length.symm, hs.idToVertex.symm,
    fun i => (hs.getOrig i).symm, fun i => (hs.getDest i).symm,
    fun i => (hs.getReverse i).symm, fun i => (hs.getCorrespondingEdge i).symm,
    fun i => (hs.adjOf i).symm, fun i => (hs.incomingOf i).symm, fun i => (hs.idOf i).symm⟩

theorem idAt_of_getElem? {g k : Graph} (hs : SameStatic g k) {a : Nat} {x : Vertex}
    (h : k.vertexSet[a]? = some x) : g.idAt a = x.id := by
  have : k.idOf a = some x.id := by simp [Graph.idOf, h]
  rw [hs.idOf] at this
  simp [Graph.idAt, this]

theorem visitedAt_of_getElem? {k : Graph} {a : Nat} {x : Vertex}
    (h : k.vertexSet[a]? = some x) : k.visitedAt a = x.visited := by
  simp [Graph.visitedAt, h]

/-- The inner loop of `calculateNetworkMaxFlow` for the vertex `a`: the pairs it treats are
the pairs `(a, b)` with `b` in the list and marked, the flows are those on the given network,
and the running maximum and list are updated by `rankStep`. -/
theorem networkMaxFlowInner_spec {g r : Graph} (fuel : Nat) (hp : Paired g r) {a : Nat}
    (ha : a < g.vertexSet.length) :
    ∀ (bs : List Nat) (k kr : Graph) (max : Nat) (list : List (String × String)),
      SameNetwork g r k kr → (∀ b ∈ bs, b < g.vertexSet.length) →
      (∀ M L k1 kr1, networkMaxFlowInner fuel a bs k kr max list = some (M, L, k1, kr1) →
        SameNetwork g r k1 kr1 ∧
        ∃ xs : List ((Nat × Nat) × Nat),
          xs.map (fun x => x.1) = (bs.filter (fun b => k.visitedAt b)).map (fun b => (a, b)) ∧
          (∀ x ∈ xs, ∃ y, g.edmondsKarp fuel [g.idAt x.1.1] (g.idAt x.1.2) r = some (x.2, y)) ∧
          (M, L) = xs.foldl (fun acc x => rankStep acc ((g.idAt x.1.1, g.idAt x.1.2), x.2))
            (max, list)) ∧
      ((∀ b ∈ bs, k.visitedAt b = true →
          ∃ x, g.edmondsKarp fuel [g.idAt a] (g.idAt b) r = some x) →
        ∃ out, networkMaxFlowInner fuel a bs k kr max list = some out) := by
  intro bs
  induction bs with
  | nil =>
    intro k kr max list hs _
    constructor
    · intro M L k1 kr1 h
      simp only [networkMaxFlowInner, Option.some.injEq, Prod.mk.injEq] at h
      obtain ⟨rfl, rfl, rfl, rfl⟩ := h
      exact ⟨hs, [], rfl, by simp, rfl⟩
    · intro _; exact ⟨_, rfl⟩
  | cons b bs ih =>
    intro k kr max list hs hbs
    have hst := hs.staticNet.1
    have hpk : Paired k kr := hs.pairedNet hp
    have hbl : b < k.vertexSet.length := by
      rw [hst.vertexSet_length]; exact hbs b (List.mem_cons_self _ _)
    have hal : a < k.vertexSet.length := by rw [hst.vertexSet_length]; exact ha
    have hx2 : k.vertexSet[b]? = some k.vertexSet[b] := List.getElem?_eq_getElem hbl
    have hx1 : k.vertexSet[a]? = some k.vertexSet[a] := List.getElem?_eq_getElem hal
    have hid1 := idAt_of_getElem? hst hx1
    have hid2 := idAt_of_getElem? hst hx2
    have hvb := visitedAt_of_getElem? hx2
    have hbs1 : ∀ b ∈ bs, b < g.vertexSet.length :=
      fun x hx => hbs x (List.mem_cons_of_mem _ hx)
    by_cases hvis : (k.vertexSet[b]).visited = true
    · have hfil : (b :: bs).filter (fun b => k.visitedAt b)
          = b :: bs.filter (fun b => k.visitedAt b) := by
        rw [List.filter_cons, hvb, hvis]; rfl
      constructor
      · intro M L k1 kr1 h
        simp only [networkMaxFlowInner, hx2, hx1, Option.bind_eq_bind, Option.some_bind, hvis,
          if_true, Option.bind_eq_some] at h
        obtain ⟨⟨v, ka, kra⟩, hrun, h⟩ := h
        have hsa : SameNetwork g r ka kra := hs.transNet (edmondsKarp_sameNetwork hrun)
        have hva : ka.vertexSet = k.vertexSet := (edmondsKarp_frame hrun).1.vertexSet_eq
        have hvisa : ∀ x, ka.visitedAt x = k.visitedAt x := by
          intro x; simp [Graph.visitedAt, hva]
        have horig := edmondsKarp_congr hpk hp hs.symmNet hrun
        rw [← hid1, ← hid2] at horig
        have hstep : (if v > max then
              networkMaxFlowInner fuel a bs ka kra v [((k.vertexSet[a]).id, (k.vertexSet[b]).id)]
            else networkMaxFlowInner fuel a bs ka kra max
              (if v = max then list ++ [((k.vertexSet[a]).id, (k.vertexSet[b]).id)] else list))
            = networkMaxFlowInner fuel a bs ka kra
                (rankStep (max, list) ((g.idAt a, g.idAt b), v)).1
                (rankStep (max, list) ((g.idAt a, g.idAt b), v)).2 := by
          rw [hid1, hid2]
          unfold rankStep
          by_cases h1 : v > max
          · simp [h1]
          · by_cases h2 : v = max
            · simp [h2]
            · simp [h1, h2]
        simp only at h
        rw [hstep] at h
        obtain ⟨hfin, xs, hxs, hvals, hres⟩ := (ih ka kra _ _ hsa hbs1).1 M L k1 kr1 h
        refine ⟨hfin, ((a, b), v) :: xs, ?_, ?_, ?_⟩
        · rw [hfil, List.map_cons, List.map_cons, hxs]
          simp only [hvisa]
        · intro x hx
          rcases List.mem_cons.mp hx with rfl | hx
          · exact ⟨_, horig⟩
          · exact hvals x hx
        · rw [hres, List.foldl_cons]
      · intro hall
        obtain ⟨⟨v, y1, y2⟩, hy⟩ := hall b (List.mem_cons_self _ _) (by rw [hvb]; exact hvis)
        have hrun := edmondsKarp_congr hp hpk hs hy
        rw [hid1, hid2] at hrun
        have hsa : SameNetwork g r _ _ := hs.transNet (edmondsKarp_sameNetwork hrun)
        have hva := (edmondsKarp_frame hrun).1.vertexSet_eq
        have hrest : ∀ M L, ∃ out, networkMaxFlowInner fuel a bs
            ({ k with edges := y1.edges } : Graph) y2 M L = some out := by
          intro M L
          refine (ih _ _ M L hsa hbs1).2 ?_
          intro b1 hb1 hv1
          refine hall b1 (List.mem_cons_of_mem _ hb1) ?_
          simpa [Graph.visitedAt] using hv1
        simp only [networkMaxFlowInner, hx2, hx1, Option.bind_eq_bind, Option.some_bind, hvis,
          if_true, hrun]
        split
        · exact hrest _ _
        · exact hrest _ _
    · have hfil : (b :: bs).filter (fun b => k.visitedAt b)
          = bs.filter (fun b => k.visitedAt b) := by
        rw [List.filter_cons, hvb]
        simp [hvis]
      constructor
      · intro M L k1 kr1 h
        simp only [networkMaxFlowInner, hx2, Option.bind_eq_bind, Option.some_bind, hvis,
          Bool.false_eq_true, if_false] at h
        obtain ⟨hfin, xs, hxs, hvals, hres⟩ := (ih k kr _ _ hs hbs1).1 M L k1 kr1 h
        exact ⟨hfin, xs, by rw [hfil]; exact hxs, hvals, hres⟩
      · intro hall
        simp only [networkMaxFlowInner, hx2, Option.bind_eq_bind, Option.some_bind, hvis,
          Bool.false_eq_true, if_false]
        exact (ih k kr _ _ hs hbs1).2 (fun b1 hb1 hv1 => hall b1 (List.mem_cons_of_mem _ hb1) hv1)

/-- The outer loop of `calculateNetworkMaxFlow`: the pairs it treats are the pairs `(a, b)`
with `a` in the list, `a` before `b` and `b` reachable from `a`; the flows are those on the
given network, and the running maximum and list are updated by `rankStep`. -/
theorem networkMaxFlowOuter_spec {g r : Graph} (fuel : Nat) (hp : Paired g r) :
    ∀ (as : List Nat) (k kr : Graph) (max : Nat) (list : List (String × String)),
      SameNetwork g r k kr → (∀ a ∈ as, a < g.vertexSet.length) →
      (∀ M L k1 kr1, networkMaxFlowOuter fuel as k kr max list = some (M, L, k1, kr1) →
        ∃ xs : List ((Nat × Nat) × Nat),
          (∀ a b, (a, b) ∈ xs.map (fun x => x.1) ↔
            a ∈ as ∧ a < b ∧ b < g.vertexSet.length ∧ g.Reaches (fun _ => true) [a] b) ∧
          (as.Nodup → (xs.map (fun x => x.1)).Nodup) ∧
          (∀ x ∈ xs, ∃ y, g.edmondsKarp fuel [g.idAt x.1.1] (g.idAt x.1.2) r = some (x.2, y)) ∧
          (M, L) = xs.foldl (fun acc x => rankStep acc ((g.idAt x.1.1, g.idAt x.1.2), x.2))
            (max, list)) ∧
      ((∀ a ∈ as, ∀ b, a < b → b < g.vertexSet.length → g.Reaches (fun _ => true) [a] b →
          ∃ x, g.edmondsKarp fuel [g.idAt a] (g.idAt b) r = some x) →
        ∃ out, networkMaxFlowOuter fuel as k kr max list = some out) := by
  intro as
  induction as with
  | nil =>
    intro k kr max list _ _
    constructor
    · intro M L k1 kr1 h
      simp only [networkMaxFlowOuter, Option.some.injEq, Prod.mk.injEq] at h
      obtain ⟨rfl, rfl, -, -⟩ := h
      exact ⟨[], by simp, by simp, by simp, rfl⟩
    · intro _; exact ⟨_, rfl⟩
  | cons a as ih =>
    intro k kr max list hs has
    have hst := hs.staticNet.1
    have hpk : Paired k kr := hs.pairedNet hp
    have ha : a < g.vertexSet.length := has a (List.mem_cons_self _ _)
    have hal : a < k.vertexSet.length := by rw [hst.vertexSet_length]; exact ha
    have has1 : ∀ a ∈ as, a < g.vertexSet.length :=
      fun x hx => has x (List.mem_cons_of_mem _ hx)
    obtain ⟨kd, hdfs, hFd, hmarks⟩ := visitedDFS_spec hpk.1 hal
    have hsd : SameNetwork g r kd kr :=
      hs.transNet ⟨hFd.weaken unmarked_unmarked noFlow_id, Graph.EqUpTo.reflUpTo _ _ _⟩
    have hreach : ∀ x, kd.visitedAt x = true ↔ g.Reaches (fun _ => true) [a] x := by
      intro x
      rw [hmarks]
      exact ⟨reaches_sameStatic hst.flip, reaches_sameStatic hst⟩
    have hbs : ∀ b ∈ List.range' (a + 1) (k.vertexSet.length - (a + 1)),
        b < g.vertexSet.length := by
      intro b hb
      rw [List.mem_range'_1] at hb
      rw [← hst.vertexSet_length]
      omega
    have hinner := networkMaxFlowInner_spec fuel hp ha
      (List.range' (a + 1) (k.vertexSet.length - (a + 1))) kd kr max list hsd hbs
    constructor
    · intro M L k1 kr1 h
      simp only [networkMaxFlowOuter, hdfs, Option.bind_eq_bind, Option.some_bind,
        Option.bind_eq_some] at h
      obtain ⟨⟨M1, L1, k2, kr2⟩, hin, h⟩ := h
      obtain ⟨hs2, xs1, hxs1, hvals1, hres1⟩ := hinner.1 M1 L1 k2 kr2 hin
      obtain ⟨xs2, hmem2, hnd2, hvals2, hres2⟩ := (ih k2 kr2 M1 L1 hs2 has1).1 M L k1 kr1 h
      have hmem1 : ∀ a1 b, (a1, b) ∈ xs1.map (fun x => x.1) ↔
          a1 = a ∧ a < b ∧ b < g.vertexSet.length ∧ g.Reaches (fun _ => true) [a] b := by
        intro a1 b
        rw [hxs1]
        simp only [List.mem_map, List.mem_filter, List.mem_range'_1, Prod.mk.injEq, hreach]
        constructor
        · rintro ⟨b1, ⟨hb1, hr⟩, rfl, rfl⟩
          refine ⟨rfl, by omega, ?_, hr⟩
          rw [← hst.vertexSet_length]; omega
        · rintro ⟨rfl, h1, h2, h3⟩
          refine ⟨b, ⟨?_, h3⟩, rfl, rfl⟩
          rw [← hst.vertexSet_length] at h2
          omega
      refine ⟨xs1 ++ xs2, ?_, ?_, ?_, ?_⟩
      · intro a1 b
        rw [List.map_append, List.mem_append, hmem1, hmem2, List.mem_cons]
        constructor
        · rintro (⟨rfl, h1, h2, h3⟩ | ⟨h0, h1, h2, h3⟩)
          · exact ⟨Or.inl rfl, h1, h2, h3⟩
          · exact ⟨Or.inr h0, h1, h2, h3⟩
        · rintro ⟨rfl | h0, h1, h2, h3⟩
          · exact Or.inl ⟨rfl, h1, h2, h3⟩
          · exact Or.inr ⟨h0, h1, h2, h3⟩
      · intro hnd
        rw [List.nodup_cons] at hnd
        rw [List.map_append, List.nodup_append]
        refine ⟨?_, hnd2 hnd.2, ?_⟩
        · rw [hxs1]
          refine List.Nodup.map ?_ ((List.nodup_range' _ _).filter _)
          intro x y hxy
          exact (Prod.mk.inj hxy).2
        · intro p hp1 hp2
          obtain ⟨a1, b⟩ := p
          have h1 := (hmem1 a1 b).mp hp1
          have h2 := (hmem2 a1 b).mp hp2
          rw [h1.1] at h2
          exact hnd.1 h2.1
      · intro x hx
        rcases List.mem_append.mp hx with hx | hx
        · exact hvals1 x hx
        · exact hvals2 x hx
      · rw [hres2, hres1, List.foldl_append]
    · intro hall
      have hin : ∃ out, networkMaxFlowInner fuel a
          (List.range' (a + 1) (k.vertexSet.length - (a + 1))) kd kr max list = some out := by
        refine hinner.2 ?_
        intro b hb hv
        rw [List.mem_range'_1] at hb
        refine hall a (List.mem_cons_self _ _) b (by omega) ?_ ((hreach b).mp hv)
        rw [← hst.vertexSet_length]; omega
      obtain ⟨⟨M1, L1, k2, kr2⟩, hin⟩ := hin
      obtain ⟨hs2, -⟩ := hinner.1 M1 L1 k2 kr2 hin
      obtain ⟨out, hout⟩ := (ih k2 kr2 M1 L1 hs2 has1).2
        (fun a1 ha1 => hall a1 (List.mem_cons_of_mem _ ha1))
      refine ⟨out, ?_⟩
      simp only [networkMaxFlowOuter, hdfs, Option.bind_eq_bind, Option.some_bind, hin]
      exact hout

/-- What the repeated `rankStep` computes from the start `(0, [])`: the largest flow (0 for
an empty list) and the pairs with that flow, in their order. -/
theorem rankStep_foldl (ys : List ((String × String) × Nat)) :
    (∀ y ∈ ys, y.2 ≤ (ys.foldl rankStep (0, [])).1) ∧
    ((ys.foldl rankStep (0, [])).1 = 0 ∨ ∃ y ∈ ys, y.2 = (ys.foldl rankStep (0, [])).1) ∧
    (ys.foldl rankStep (0, [])).2
      = (ys.filter (fun y => y.2 = (ys.foldl rankStep (0, [])).1)).map (fun y => y.1) := by
  induction ys using List.reverseRecOn with
  | nil => simp
  | append_singleton ys y ih =>
    obtain ⟨h1, h2, h3⟩ := ih
    rw [List.foldl_append, List.foldl_cons, List.foldl_nil]
    set acc := ys.foldl rankStep (0, []) with hacc
    by_cases hgt : y.2 > acc.1
    · have hstep : rankStep acc y = (y.2, [y.1]) := by
        unfold rankStep; rw [if_pos hgt]
      rw [hstep]
      refine ⟨?_, Or.inr ⟨y, by simp, rfl⟩, ?_⟩
      · intro z hz
        rcases List.mem_append.mp hz with hz | hz
        · exact le_of_lt (lt_of_le_of_lt (h1 z hz) hgt)
        · simp only [List.mem_singleton] at hz
          rw [hz]
      · rw [List.filter_append]
        have : ys.filter (fun z => z.2 = y.2) = [] := by
          rw [List.filter_eq_nil_iff]
          intro z hz
          have := h1 z hz
          simp only [decide_eq_true_eq]
          omega
        simp [this]
    · by_cases heq : y.2 = acc.1
      · have hstep : rankStep acc y = (acc.1, acc.2 ++ [y.1]) := by
          unfold rankStep; rw [if_neg hgt, if_pos heq]
        rw [hstep]
        refine ⟨?_, ?_, ?_⟩
        · intro z hz
          rcases List.mem_append.mp hz with hz | hz
          · exact h1 z hz
          · simp only [List.mem_singleton] at hz
            rw [hz, heq]
        · exact Or.inr ⟨y, by simp, heq⟩
        · rw [List.filter_append, List.map_append, ← h3]
          simp [heq]
      · have hstep : rankStep acc y = acc := by
          unfold rankStep; rw [if_neg hgt, if_neg heq]
        rw [hstep]
        refine ⟨?_, ?_, ?_⟩
        · intro z hz
          rcases List.mem_append.mp hz with hz | hz
          · exact h1 z hz
          · simp only [List.mem_singleton] at hz
            rw [hz]; omega
        · rcases h2 with h2 | ⟨z, hz, hz2⟩
          · exact Or.inl h2
          · exact Or.inr ⟨z, List.mem_append_left _ hz, hz2⟩
        · rw [List.filter_append, List.map_append, ← h3]
          simp [heq]

/-- Distinct vertices of a well-linked graph have distinct ids. -/
theorem idAt_inj {g : Graph} (hw : g.WellLinked) {a b : Nat} (ha : a < g.vertexSet.length)
    (hb : b < g.vertexSet.length) (h : g.idAt a = g.idAt b) : a = b := by
  have h1 := (hw.2.1 a ha).2.2.2.2
  have h2 := (hw.2.1 b hb).2.2.2.2
  have ha1 : g.idOf a = some (g.idAt a) := by
    simp [Graph.idAt, Graph.idOf, List.getElem?_eq_getElem ha]
  have hb1 : g.idOf b = some (g.idAt b) := by
    simp [Graph.idAt, Graph.idOf, List.getElem?_eq_getElem hb]
  rw [ha1] at h1
  rw [hb1, ← h] at h2
  simp only [Option.some_bind] at h1 h2
  rw [h1] at h2
  exact Option.some.inj h2

/-! ## Termination of `edmondsKarp` -/

theorem setFlow_some {g : Graph} {e : Nat} (v : Nat) (he : e < g.edges.length) :
    ∃ h, g.setFlow e v = some h := updateEdge_some _ he

theorem setCapacity_some {g : Graph} {e : Nat} (c : Nat) (he : e < g.edges.length) :
    ∃ h, g.setCapacity e c = some h := updateEdge_some _ he

theorem augmentWithin_total {g r : Graph} {i j : Nat} (value : Nat) (hi : i < g.edges.length)
    (hri : i < r.edges.length) (hrj : j < r.edges.length) :
    ∃ out, augmentWithin i j i value g r = some out := by
  obtain ⟨g1, hg1⟩ := setFlow_some (g := g) (uadd (g.flowOf i) value) hi
  have hl1 : i < g1.edges.length := by rw [(setFlow_spec hg1).1.edges_length]; exact hi
  obtain ⟨r1, hr1⟩ := setCapacity_some (g := r) (usub (g1.capOf i) (g1.flowOf i)) hri
  have hrl1 : j < r1.edges.length := by rw [(setCapacity_spec hr1).1.edges_length]; exact hrj
  obtain ⟨r2, hr2⟩ := setCapacity_some (g := r1) (uadd (r1.capOf j) value) hrl1
  refine ⟨(g1, r2), ?_⟩
  simp only [augmentWithin, Option.bind_eq_bind, getFlow_of_lt hi, Option.some_bind, hg1,
    getCapacity_of_lt hl1, getFlow_of_lt hl1, hr1, getCapacity_of_lt hrl1, hr2, Option.pure_def]

theorem augmentExceeds_total {g r : Graph} {i j : Nat} (value : Nat) (hi : i < g.edges.length)
    (hj : j < g.edges.length) (hri : i < r.edges.length) (hrj : j < r.edges.length) :
    ∃ out, augmentExceeds i j i j value g r = some out := by
  obtain ⟨g1, hg1⟩ := setFlow_some (g := g) (g.capOf i) hi
  have hl1 : i < g1.edges.length := by rw [(setFlow_spec hg1).1.edges_length]; exact hi
  have hl1j : j < g1.edges.length := by rw [(setFlow_spec hg1).1.edges_length]; exact hj
  obtain ⟨g2, hg2⟩ := setFlow_some (g := g1)
    (usub (g1.flowOf j) (usub (uadd (g.flowOf i) value) (g1.capOf i))) hl1j
  have hl2 : i < g2.edges.length := by rw [(setFlow_spec hg2).1.edges_length]; exact hl1
  obtain ⟨r1, hr1⟩ := setCapacity_some (g := r) 0 hri
  have hrl1 : j < r1.edges.length := by rw [(setCapacity_spec hr1).1.edges_length]; exact hrj
  obtain ⟨r2, hr2⟩ := setCapacity_some (g := r1)
    (uadd (r1.capOf j) (usub (uadd (g.flowOf i) value) (g2.capOf i))) hrl1
  refine ⟨(g2, r2), ?_⟩
  simp only [augmentExceeds, Option.bind_eq_bind, getFlow_of_lt hi, Option.some_bind,
    getCapacity_of_lt hi, hg1, getFlow_of_lt hl1j, getCapacity_of_lt hl1, hg2, hr1,
    getCapacity_of_lt hrl1, getCapacity_of_lt hl2, hr2, Option.pure_def]

/-- The body of the loop of `augmentPath` returns on a paired network for every pointer to
an edge. -/
theorem augmentEdge_total {g r : Graph} (hp : Paired g r) {i : Nat} (value : Nat)
    (hi : i < g.edges.length) : ∃ g1 r1, augmentEdge i value g r = some (g1, r1) := by
  obtain ⟨j, hj, -, hgr, -, hrr, hrc, -⟩ := hp.reverse hi
  have hri : i < r.edges.length := by rw [← hp.2.2.2.1]; exact hi
  have hrj : j < r.edges.length := by rw [← hp.2.2.2.1]; exact hj
  simp only [augmentEdge, Option.bind_eq_bind, hrr, hrc, hgr, Option.some_bind,
    getFlow_of_lt hi, getCapacity_of_lt hi]
  split
  · obtain ⟨⟨a, b⟩, h⟩ := augmentExceeds_total value hi hj hri hrj
    exact ⟨a, b, h⟩
  · obtain ⟨⟨a, b⟩, h⟩ := augmentWithin_total value hi hri hrj
    exact ⟨a, b, h⟩

/-- The vertices of a predecessor chain are vertices of the graph. -/
theorem IsChain.lt {r : Graph} : ∀ (P : List (Nat × Nat)) (x : Nat), r.IsChain x P →
    ∀ y ∈ chainVertices x P, y < r.vertexSet.length := by
  intro P
  induction P with
  | nil =>
    intro x hc y hy
    simp only [chainVertices, List.map_nil, List.mem_singleton] at hy
    subst hy
    simp only [Graph.IsChain, Graph.pathOf, Option.map_eq_some'] at hc
    obtain ⟨v, hv, -⟩ := hc
    by_contra hlt
    rw [List.getElem?_eq_none (by omega)] at hv
    cases hv
  | cons p rest ih =>
    intro x hc y hy
    simp only [Graph.IsChain, Graph.pathOf, Option.map_eq_some'] at hc
    obtain ⟨⟨v, hv, -⟩, -, -, hrest⟩ := hc
    simp only [chainVertices, List.map_cons, List.mem_cons] at hy
    rcases hy with rfl | hy
    · by_contra hlt
      rw [List.getElem?_eq_none (by omega)] at hv
      cases hv
    · exact ih p.2 hrest y (by simpa [chainVertices] using hy)

theorem nodup_length_le {l : List Nat} {n : Nat} (hnd : l.Nodup) (hlt : ∀ x ∈ l, x < n) :
    l.length ≤ n := by
  have hsub : l.toFinset ⊆ Finset.range n := by
    intro x hx
    rw [List.mem_toFinset] at hx
    exact Finset.mem_range.mpr (hlt x hx)
  have := Finset.card_le_card hsub
  rw [List.toFinset_card_of_nodup hnd, Finset.card_range] at this
  exact this

/-- A predecessor chain without repeated vertex has fewer edges than the graph has
vertices. -/
theorem IsChain.length_lt {r : Graph} {P : List (Nat × Nat)} {x : Nat} (hc : r.IsChain x P)
    (hnd : (chainVertices x P).Nodup) : P.length + 1 ≤ r.vertexSet.length := by
  have := nodup_length_le hnd (IsChain.lt P x hc)
  simpa [chainVertices] using this

/-- The loop of `findBottleneck` returns along a predecessor chain within one iteration
more than the chain has edges, with a value of at least 1 when every edge of the chain has a
capacity above zero. -/
theorem findBottleneckLoop_total (r : Graph) :
    ∀ (P : List (Nat × Nat)) (x fuel B : Nat), r.IsChain x P →
      (∀ p ∈ P, p.1 < r.edges.length ∧ 0 < r.capOf p.1) → P.length + 1 ≤ fuel → 1 ≤ B →
      ∃ b, Graph.findBottleneckLoop fuel r x B = some b ∧ 1 ≤ b := by
  intro P
  induction P with
  | nil =>
    intro x fuel B hch _ hf hB
    cases fuel with
    | zero => simp at hf
    | succ fuel =>
      simp only [Graph.IsChain, Graph.pathOf, Option.map_eq_some'] at hch
      obtain ⟨cv, hcv, hp⟩ := hch
      exact ⟨B, by simp [Graph.findBottleneckLoop, hcv, hp], hB⟩
  | cons p rest ih =>
    intro x fuel B hch hval hf hB
    cases fuel with
    | zero => simp at hf
    | succ fuel =>
      simp only [Graph.IsChain, Graph.pathOf, Option.map_eq_some'] at hch
      obtain ⟨⟨cv, hcv, hp⟩, -, ho, hrest⟩ := hch
      obtain ⟨hpl, hpc⟩ := hval p (List.mem_cons_self _ _)
      obtain ⟨b, hb, hb1⟩ := ih p.2 fuel (if r.capOf p.1 < B then r.capOf p.1 else B) hrest
        (fun q hq => hval q (List.mem_cons_of_mem _ hq))
        (by simp only [List.length_cons] at hf; omega) (by split <;> omega)
      refine ⟨b, ?_, hb1⟩
      simp only [Graph.findBottleneckLoop, Option.bind_eq_bind, hcv, Option.some_bind, hp,
        getCapacity_of_lt hpl, ho]
      exact hb

/-- The loop of `augmentPath` leaves along a predecessor chain within one iteration more
than the chain has edges. -/
theorem augmentPathLoop_total (value : Nat) :
    ∀ (P : List (Nat × Nat)) (x fuel : Nat) (g r : Graph),
      Paired g r → LinkInv g r → g.CapacityBelow 2147483648 → r.IsChain x P →
      (chainVertices x P).Nodup →
      (∀ p ∈ P, p.1 < g.edges.length ∧ value ≤ r.capOf p.1) → P.length + 1 ≤ fuel →
      ∃ g1 r1, augmentPathLoop value fuel x g r = some (true, g1, r1) := by
  intro P
  induction P with
  | nil =>
    intro x fuel g r _ _ _ hch _ _ hf
    cases fuel with
    | zero => simp at hf
    | succ fuel =>
      simp only [Graph.IsChain, Graph.pathOf, Option.map_eq_some'] at hch
      obtain ⟨cv, hcv, hpth⟩ := hch
      exact ⟨g, r, by simp [augmentPathLoop, hcv, hpth]⟩
  | cons p rest ih =>
    intro x fuel g r hp hinv hcap hch hnd hval hf
    cases fuel with
    | zero => simp at hf
    | succ fuel =>
      simp only [Graph.IsChain, Graph.pathOf, Option.map_eq_some'] at hch
      obtain ⟨⟨cv, hcv, hpth⟩, hd, ho, hrest⟩ := hch
      obtain ⟨hpi, hpv⟩ := hval p (List.mem_cons_self _ _)
      obtain ⟨ga, ra, haug⟩ := augmentEdge_total hp value hpi
      obtain ⟨hs1, hv1, hs2, hv2, hcp, hinv1, hmono, -⟩ :=
        augmentEdge_spec hp hinv hcap hpi hpv haug
      have hchain1 : ra.IsChain p.2 rest := by
        apply IsChain.frame hs2.getOrig hs2.getDest rest p.2 hrest
        intro y _
        simp [Graph.pathOf, hv2]
      have hnd1 : (chainVertices p.2 rest).Nodup := by
        simp only [chainVertices, List.map_cons, List.nodup_cons] at hnd ⊢
        exact hnd.2
      have hxnot : x ∉ chainVertices p.2 rest := by
        simp only [chainVertices, List.map_cons, List.nodup_cons] at hnd ⊢
        exact hnd.1
      have hval1 : ∀ q ∈ rest, q.1 < ga.edges.length ∧ value ≤ ra.capOf q.1 := by
        intro q hq
        obtain ⟨hq1, hq2⟩ := hval q (List.mem_cons_of_mem _ hq)
        refine ⟨by rw [hs1.edges_length]; exact hq1, le_trans hq2 (hmono _ ?_)⟩
        intro hqp
        obtain ⟨z, hz, hdz⟩ := IsChain.dest_mem rest p.2 hrest q hq
        rw [hqp, hd] at hdz
        have : x = z := Option.some.inj hdz
        subst this
        exact hxnot hz
      have hcap1 : ga.CapacityBelow 2147483648 := by
        rw [capacityBelow_iff] at hcap ⊢
        intro k hk
        rw [hcp]; exact hcap k (hs1.edges_length ▸ hk)
      obtain ⟨g1, r1, hrun⟩ := ih p.2 fuel ga ra (hp.sameStatic hs1 hs2) hinv1 hcap1 hchain1
        hnd1 hval1 (by simp only [List.length_cons] at hf; omega)
      refine ⟨g1, r1, ?_⟩
      have hcv1 : ra.vertexSet[x]? = some cv := by rw [hv2]; exact hcv
      have hnext : ra.getOrig p.1 = some p.2 := by rw [hs2.getOrig]; exact ho
      simp only [augmentPathLoop, Option.bind_eq_bind, hcv, Option.some_bind, hpth, haug, hcv1,
        hnext]
      exact hrun

/-- The net flow into a vertex is at most the total capacity of its incoming links when no
flow exceeds its capacity. -/
theorem excessAt_le {g : Graph} (hw : g.WellLinked)
    (hflow : ∀ k, k < g.edges.length → g.flowOf k ≤ g.capOf k) {y : Nat}
    (hy : y < g.vertexSet.length) :
    g.excessAt y ≤ (((g.incomingOf y).map g.capOf).sum : Int) := by
  have h1 : ((g.incomingOf y).map g.flowOf).sum ≤ ((g.incomingOf y).map g.capOf).sum := by
    apply List.sum_le_sum
    intro e he
    exact hflow e (((hw.2.1 y hy).2.2.1 e he).1)
  have h2 : (0 : Int) ≤ (((g.adjOf y).map g.flowOf).sum : Int) := by positivity
  unfold Graph.excessAt
  have h3 : ((((g.incomingOf y).map g.flowOf).sum : Nat) : Int)
      ≤ ((((g.incomingOf y).map g.capOf).sum : Nat) : Int) := by exact_mod_cast h1
  omega

theorem chainEnd_mem : ∀ (P : List (Nat × Nat)) (x : Nat), chainEnd x P ∈ chainVertices x P := by
  intro P
  induction P with
  | nil => intro x; simp [chainEnd, chainVertices]
  | cons p rest ih =>
    intro x
    have := ih p.2
    simp only [chainEnd, chainVertices, List.map_cons, List.mem_cons] at this ⊢
    rcases this with h | h
    · exact Or.inr (Or.inl h)
    · exact Or.inr (Or.inr h)

/-- One pass of the loop of `edmondsKarp` after a successful search, on a paired network
with capacities below `2 ^ 31` and a target that is not among the sources: the bottleneck is
at least 1, the augmentation returns, the invariant of the loop is kept, and the net flow
into the target vertex has risen by the bottleneck. -/
theorem edmondsKarp_round {source : List String} {target : String} {g r ra : Graph}
    (hinv : EKInv source target g r) (hts : target ∉ source)
    (hpath : r.path source target = some (true, ra)) :
    ∃ tv b g2 r2, g.findVertex target = some tv ∧ ra.findBottleneck target = some b ∧
      1 ≤ b ∧ ra.augmentPath target b g = some (g2, r2) ∧ EKInv source target g2 r2 ∧
      g2.excessAt tv = g.excessAt tv + (b : Int) ∧ (∀ k, g2.capOf k = g.capOf k) ∧
      SameStatic g g2 := by
  obtain ⟨hp, hli, hcap, hcons⟩ := hinv
  obtain ⟨hs, hed, hfound⟩ := path_spec hp.2.1 hpath
  obtain ⟨tv, P, htv, hch, hnd, ⟨s, hsrc, hsv⟩, hedg⟩ := hfound rfl
  have hpa : Paired g ra := hp.sameStatic (SameStatic.refl g) hs
  have hinva : LinkInv g ra := hli.of_search hed
  have htvr : r.findVertex target = some tv := by rw [← hs.findVertex]; exact htv
  have htvg : g.findVertex target = some tv := by rw [← hp.findVertexEq]; exact htvr
  have hne : tv ≠ chainEnd tv P := by
    cases P with
    | nil =>
      exfalso
      simp only [chainEnd] at hsv
      have h1 := hp.2.1.findVertex_sound hsv
      have h2 := hp.2.1.findVertex_sound htvr
      rw [h1] at h2
      exact hts (Option.some.inj h2 ▸ hsrc)
    | cons p rest =>
      intro h
      have hmem := chainEnd_mem rest p.2
      simp only [chainEnd] at h
      rw [← h] at hmem
      simp only [chainVertices, List.map_cons, List.nodup_cons] at hnd hmem
      exact hnd.1 hmem
  have hlen := IsChain.length_lt hch hnd
  obtain ⟨b, hbl, hb1⟩ := findBottleneckLoop_total ra P tv (ra.vertexSet.length + 1) UINT32_MAX
    hch hedg (by omega) (by simp [UINT32_MAX])
  have hb : ra.findBottleneck target = some b := by
    simp only [Graph.findBottleneck, Option.bind_eq_bind, htv, Option.some_bind]
    exact hbl
  obtain ⟨-, hbv⟩ := findBottleneckLoop_spec ra P tv _ _ _ hch hbl
  have hval : ∀ p ∈ P, p.1 < g.edges.length ∧ b ≤ ra.capOf p.1 := by
    intro p hpP
    refine ⟨?_, hbv p hpP⟩
    rw [hpa.2.2.2.1]; exact (hedg p hpP).1
  obtain ⟨g2, r2, hl⟩ := augmentPathLoop_total b P tv (ra.vertexSet.length + 1) g ra hpa hinva
    hcap hch hnd hval (by omega)
  have haug : ra.augmentPath target b g = some (g2, r2) := by
    simp only [Graph.augmentPath, Option.bind_eq_bind, htv, Option.some_bind, hl]
  obtain ⟨hs1, -, -, -, hcp, -, hex⟩ :=
    augmentPathLoop_spec b P tv _ g ra g2 r2 true hpa hinva hcap hch hnd hval hl
  have hstep : edmondsKarpLoop source target 1 0 g r = some (false, uadd 0 b, g2, r2) := by
    simp only [edmondsKarpLoop, Option.bind_eq_bind, hpath, Option.some_bind, if_true, hb, haug]
  have hinv2 := (edmondsKarpLoop_spec source target 1 0 g r false _ g2 r2
    ⟨hp, hli, hcap, hcons⟩ hstep).1
  refine ⟨tv, b, g2, r2, htvg, hb, hb1, haug, hinv2, ?_, hcp, hs1⟩
  rw [hex rfl tv]
  simp [hne]

/-- The loop of `edmondsKarp` leaves within one iteration more than the total capacity into
the target exceeds the net flow into it. -/
theorem edmondsKarpLoop_returns (source : List String) (target : String)
    (hts : target ∉ source) :
    ∀ (n : Nat) (g r : Graph) (maxFlow : Nat), EKInv source target g r →
      (∀ s ∈ source, ∃ x, g.findVertex s = some x) →
      (∀ tv, g.findVertex target = some tv →
        (((g.incomingOf tv).map g.capOf).sum : Int) - g.excessAt tv ≤ (n : Int)) →
      ∀ fuel, n + 1 ≤ fuel →
        ∃ F g1 r1, edmondsKarpLoop source target fuel maxFlow g r = some (true, F, g1, r1) := by
  intro n
  induction n with
  | zero =>
    intro g r maxFlow hinv hsrc hm fuel hf
    cases fuel with
    | zero => omega
    | succ fuel =>
      obtain ⟨found, ra, hpath, -⟩ := path_run hinv.1.2.1 source target
        (fun s hs => by rw [hinv.1.findVertexEq]; exact hsrc s hs)
      cases found with
      | false =>
        exact ⟨maxFlow, g, ra, by simp [edmondsKarpLoop, hpath]⟩
      | true =>
        exfalso
        obtain ⟨tv, b, g2, r2, htv, -, hb1, -, hinv2, hex, hcp, hs2⟩ :=
          edmondsKarp_round hinv hts hpath
        have h0 := hm tv htv
        have hlt : tv < g2.vertexSet.length := by
          rw [hs2.vertexSet_length]; exact hinv.1.1.findVertex_lt htv
        have hflow : ∀ k, k < g2.edges.length → g2.flowOf k ≤ g2.capOf k :=
          (capacityRespected_iff g2).mp hinv2.capacityRespected
        have h2 := excessAt_le hinv2.1.1 hflow hlt
        have hcapeq : (g2.incomingOf tv).map g2.capOf = (g.incomingOf tv).map g.capOf := by
          rw [hs2.incomingOf, funext hcp]
        rw [hcapeq, hex] at h2
        omega
  | succ n ih =>
    intro g r maxFlow hinv hsrc hm fuel hf
    cases fuel with
    | zero => omega
    | succ fuel =>
      obtain ⟨found, ra, hpath, -⟩ := path_run hinv.1.2.1 source target
        (fun s hs => by rw [hinv.1.findVertexEq]; exact hsrc s hs)
      cases found with
      | false =>
        exact ⟨maxFlow, g, ra, by simp [edmondsKarpLoop, hpath]⟩
      | true =>
        obtain ⟨tv, b, g2, r2, htv, hb, hb1, haug, hinv2, hex, hcp, hs2⟩ :=
          edmondsKarp_round hinv hts hpath
        have hm2 : ∀ tv2, g2.findVertex target = some tv2 →
            (((g2.incomingOf tv2).map g2.capOf).sum : Int) - g2.excessAt tv2 ≤ (n : Int) := by
          intro tv2 htv2
          rw [hs2.findVertex, htv] at htv2
          obtain rfl := Option.some.inj htv2
          have h0 := hm tv htv
          have hcapeq : (g2.incomingOf tv).map g2.capOf = (g.incomingOf tv).map g.capOf := by
            rw [hs2.incomingOf, funext hcp]
          rw [hcapeq, hex]
          push_cast at h0 ⊢
          omega
        obtain ⟨F, g1, r1, hrun⟩ := ih g2 r2 (uadd maxFlow b) hinv2
          (fun s hs => by rw [hs2.findVertex]; exact hsrc s hs) hm2 fuel (by omega)
        refine ⟨F, g1, r1, ?_⟩
        simp only [edmondsKarpLoop, Option.bind_eq_bind, hpath, Option.some_bind, if_true, hb,
          haug]
        exact hrun

/-- On a paired network with capacities below `2 ^ 31`, for sources that are stations and a
target that is not among them, `edmondsKarp` returns within any budget above the total
capacity of the links into the target. -/
theorem edmondsKarp_returns {g r : Graph} {source : List String} {target : String}
    (hp : Paired g r) (hcap : g.CapacityBelow 2147483648)
    (hsrc : ∀ s ∈ source, ∃ x, g.findVertex s = some x) (hts : target ∉ source)
    {fuel : Nat} (hf : g.inflowCapacity target + 1 ≤ fuel) :
    ∃ F g1 r1, g.edmondsKarp fuel source target r = some (F, g1, r1) := by
  obtain ⟨g0, r0, hreset⟩ := resetFlows_total_paired hp
  have hinv : EKInv source target g0 r0 := ekInv_of_reset hp hcap hreset
  obtain ⟨hs1, -, -, -, hcp, hall⟩ := resetFlows_paired hp hreset
  have hzero : ∀ k, g0.flowOf k = 0 := by
    intro k
    by_cases hk : k < g.edges.length
    · exact (hall k hk).1
    · have : g0.edges[k]? = none := List.getElem?_eq_none (by rw [hs1.edges_length]; omega)
      simp [Graph.flowOf, Graph.getFlow, this]
  have hm : ∀ tv, g0.findVertex target = some tv →
      (((g0.incomingOf tv).map g0.capOf).sum : Int) - g0.excessAt tv
        ≤ ((g.inflowCapacity target : Nat) : Int) := by
    intro tv htv
    rw [hs1.findVertex] at htv
    have hz : g0.flowOf = fun _ => 0 := funext hzero
    have hex : g0.excessAt tv = 0 := by simp [Graph.excessAt, hz]
    have hcapeq : (g0.incomingOf tv).map g0.capOf = (g.incomingOf tv).map g.capOf := by
      rw [hs1.incomingOf, funext hcp]
    rw [hex, hcapeq]
    simp [Graph.inflowCapacity, htv]
  obtain ⟨F, g1, r1, hrun⟩ := edmondsKarpLoop_returns source target hts _ g0 r0 0 hinv
    (fun s hs => by rw [hs1.findVertex]; exact hsrc s hs) hm fuel hf
  refine ⟨F, g1, r1, ?_⟩
  simp only [Graph.edmondsKarp, Option.bind_eq_bind, hreset, Option.some_bind, hrun]

/-! ## Budgets that suffice -/

theorem sum_map_le_range {f : Nat → Nat} {l : List Nat} {n : Nat} (hnd : l.Nodup)
    (hlt : ∀ x ∈ l, x < n) : (l.map f).sum ≤ ((List.range n).map f).sum := by
  have h1 : (l.map f).sum = l.toFinset.sum f := (List.sum_toFinset f hnd).symm
  have h2 : ((List.range n).map f).sum = (Finset.range n).sum f := by
    have h3 : (List.range n).toFinset = Finset.range n := by
      ext x; simp
    rw [← List.sum_toFinset f (List.nodup_range n), h3]
  rw [h1, h2]
  apply Finset.sum_le_sum_of_subset
  intro x hx
  rw [List.mem_toFinset] at hx
  exact Finset.mem_range.mpr (hlt x hx)

theorem inflowCapacity_le_totalCapacity {g : Graph} (hw : g.WellLinked) (target : String) :
    g.inflowCapacity target ≤ g.totalCapacity := by
  unfold Graph.inflowCapacity Graph.totalCapacity
  cases h : g.findVertex target with
  | none => simp
  | some tv =>
    have hlt := hw.findVertex_lt h
    obtain ⟨-, -, hin, hnd, -⟩ := hw.2.1 tv hlt
    exact sum_map_le_range hnd (fun e he => (hin e he).1)

theorem totalCapacity_eq {g k : Graph} (hlen : k.edges.length = g.edges.length)
    (hc : ∀ i, k.capOf i = g.capOf i) : k.totalCapacity = g.totalCapacity := by
  unfold Graph.totalCapacity
  rw [hlen, funext hc]

theorem capacityBelow_of_capOf {g k : Graph} {B : Nat} (hlen : k.edges.length = g.edges.length)
    (hc : ∀ i, k.capOf i = g.capOf i) (hcap : g.CapacityBelow B) : k.CapacityBelow B := by
  rw [capacityBelow_iff] at hcap ⊢
  intro i hi
  rw [hc]; exact hcap i (hlen ▸ hi)

/-- On a state `(k, kr)` with the structure and the capacities of a network `g` whose
capacities are below `2 ^ 31`, `edmondsKarp` returns within any budget above the total
capacity of `g`. -/
theorem edmondsKarp_returns_of {g k kr : Graph} {source : List String} {target : String}
    {fuel : Nat} (hcap : g.CapacityBelow 2147483648) (hpk : Paired k kr)
    (hst : SameStatic g k) (hc : ∀ i, k.capOf i = g.capOf i)
    (hsrc : ∀ s ∈ source, ∃ x, g.findVertex s = some x) (hts : target ∉ source)
    (hf : g.totalCapacity + 1 ≤ fuel) :
    ∃ F k1 kr1, k.edmondsKarp fuel source target kr = some (F, k1, kr1) := by
  have h1 := inflowCapacity_le_totalCapacity hpk.1 target
  rw [totalCapacity_eq hst.edges_length hc] at h1
  exact edmondsKarp_returns hpk (capacityBelow_of_capOf hst.edges_length hc hcap)
    (fun s hs => by rw [hst.findVertex]; exact hsrc s hs) hts (by omega)

theorem findVertex_of_idOf {g : Graph} (hw : g.WellLinked) {w : Nat} {id : String}
    (h : g.idOf w = some id) : g.findVertex id = some w := by
  have := (hw.2.1 w (idOf_lt h)).2.2.2.2
  rw [h] at this
  exact this

theorem findVertex_idAt {g : Graph} (hw : g.WellLinked) {a : Nat}
    (ha : a < g.vertexSet.length) : g.findVertex (g.idAt a) = some a := by
  apply findVertex_of_idOf hw
  simp [Graph.idAt, Graph.idOf, List.getElem?_eq_getElem ha]

theorem findVertex_of_mem {g : Graph} (hw : g.WellLinked) {v : Vertex}
    (hv : v ∈ g.vertexSet) : ∃ a, g.findVertex v.id = some a := by
  obtain ⟨a, ha, rfl⟩ := List.getElem_of_mem hv
  exact ⟨a, findVertex_of_idOf hw (by simp [Graph.idOf, List.getElem?_eq_getElem ha])⟩

theorem capOf_of_edges {g k : Graph} (h : k.edges = g.edges) (i : Nat) :
    k.capOf i = g.capOf i := by
  simp [Graph.capOf, Graph.getCapacity, h]

theorem capOf_flagIf (s : Bool) (c : Prop) [Decidable c] (x : Edge) :
    (Edge.flagIf s c x).capacity = x.capacity := by
  unfold Edge.flagIf; split <;> rfl

/-- Deactivating or activating links returns, keeps the pairing and the structure, and
changes no capacity. -/
theorem selectEdges_capacity (s : Bool) {g r : Graph} {S : List Nat} (hp : Paired g r)
    (hS : ∀ e ∈ S, e < g.edges.length) :
    ∃ g1 r1, selectEdges s S g r = some (g1, r1) ∧ Paired g1 r1 ∧ SameStatic g g1 ∧
      ∀ i, g1.capOf i = g.capOf i := by
  obtain ⟨g1, r1, h, -, -, -, -, -, -, hsg, hsr, hge, -⟩ := selectEdges_spec s S g r hp hS
  refine ⟨g1, r1, h, hp.sameStatic hsg hsr, hsg, ?_⟩
  intro i
  simp only [Graph.capOf, Graph.getCapacity, hge i]
  cases g.edges[i]? <;> simp [capOf_flagIf]

/-- On a paired network with capacities below `2 ^ 31` `incomingFlux` returns for every
station within any budget above the total capacity. -/
theorem incomingFlux_returns {g r : Graph} {fuel : Nat} {station : String} {a : Nat}
    (hp : Paired g r) (hcap : g.CapacityBelow 2147483648)
    (ha : g.findVertex station = some a) (hf : g.totalCapacity + 1 ≤ fuel) :
    ∃ out, g.incomingFlux fuel station r = some out := by
  obtain ⟨superSource, g1, hsup, hfr, hiff, hnot⟩ := superSourceCreator_spec hp.1 ha
  have hs1 : SameNetwork g r g1 r := superSourceCreator_sameNetwork hsup
  have hst : SameStatic g g1 := sameStatic_of_marks hfr
  have hed : g1.edges = g.edges := by simpa using hfr.2.2.2
  obtain ⟨F, k1, kr1, hrun⟩ := edmondsKarp_returns_of hcap (hs1.pairedNet hp) hst
    (capOf_of_edges hed)
    (fun s hs => by
      obtain ⟨w, -, -, hid, -⟩ := (hiff s).mp hs
      exact ⟨w, findVertex_of_idOf hp.1 hid⟩) hnot hf
  refine ⟨(F, k1, kr1), ?_⟩
  simp only [Graph.incomingFlux, Option.bind_eq_bind, hsup, Option.some_bind, hrun]

/-- On a paired network with capacities below `2 ^ 31` `incomingReducedFlux` returns for
every station and every list of pointers to regular edges within any budget above the total
capacity. -/
theorem incomingReducedFlux_returns {g r : Graph} {fuel : Nat} {S : List Nat}
    {station : String} {a : Nat} (hp : Paired g r) (hcap : g.CapacityBelow 2147483648)
    (hS : ∀ e ∈ S, e < g.edges.length) (ha : g.findVertex station = some a)
    (hf : g.totalCapacity + 1 ≤ fuel) :
    ∃ out, g.incomingReducedFlux fuel S station r = some out := by
  obtain ⟨superSource, g1, hsup, hfr, hiff, hnot⟩ := superSourceCreator_spec hp.1 ha
  have hs1 : SameNetwork g r g1 r := superSourceCreator_sameNetwork hsup
  have hst : SameStatic g g1 := sameStatic_of_marks hfr
  have hed : g1.edges = g.edges := by simpa using hfr.2.2.2
  have hp1 := hs1.pairedNet hp
  have hS1 : ∀ e ∈ S, e < g1.edges.length := by
    intro e he; rw [hst.edges_length]; exact hS e he
  obtain ⟨g2, r2, hde, hp2, hst2, hc2⟩ := selectEdges_capacity false hp1 hS1
  obtain ⟨F, g3, r3, hrun⟩ := edmondsKarp_returns_of hcap hp2 (hst.trans hst2)
    (fun i => (hc2 i).trans (capOf_of_edges hed i))
    (fun s hs => by
      obtain ⟨w, -, -, hid, -⟩ := (hiff s).mp hs
      exact ⟨w, findVertex_of_idOf hp.1 hid⟩) hnot hf
  have hs3 := edmondsKarp_sameNetwork hrun
  have hp3 := hs3.pairedNet hp2
  have hS3 : ∀ e ∈ S, e < g3.edges.length := by
    intro e he
    rw [hs3.edges_length, hst2.edges_length]; exact hS1 e he
  obtain ⟨g4, r4, hac, -, -, -⟩ := selectEdges_capacity true hp3 hS3
  refine ⟨(F, g4, r4), ?_⟩
  simp only [Graph.incomingReducedFlux, Option.bind_eq_bind, hsup, Option.some_bind,
    deactivateEdges, activateEdges, hde, hrun, hac, Option.pure_def]

/-! ## Monotonicity of the rounding -/

theorem roundHalfEven_neg (q : ℚ) : roundHalfEven (-q) = -roundHalfEven q := by
  by_cases hint : (⌊q⌋ : ℚ) = q
  · have h1 : roundHalfEven q = ⌊q⌋ := by
      rw [← hint, roundHalfEven_intCast]; simp
    have h2 : -q = ((-⌊q⌋ : Int) : ℚ) := by push_cast; rw [hint]
    rw [h2, roundHalfEven_intCast, h1]
  · have hlt : (⌊q⌋ : ℚ) < q := lt_of_le_of_ne (Int.floor_le q) hint
    have hfl : ⌊-q⌋ = -⌊q⌋ - 1 := by
      rw [Int.floor_eq_iff]
      have := Int.lt_floor_add_one q
      push_cast
      constructor <;> linarith
    unfold roundHalfEven
    simp only [hfl]
    push_cast
    by_cases a1 : q - (⌊q⌋ : ℚ) < 1 / 2
    · have b1 : ¬ (-q - (-(⌊q⌋ : ℚ) - 1) < 1 / 2) := by linarith
      have b2 : 1 / 2 < -q - (-(⌊q⌋ : ℚ) - 1) := by linarith
      rw [if_pos a1, if_neg b1, if_pos b2]
      ring
    · by_cases a2 : 1 / 2 < q - (⌊q⌋ : ℚ)
      · have b1 : -q - (-(⌊q⌋ : ℚ) - 1) < 1 / 2 := by linarith
        rw [if_neg a1, if_pos a2, if_pos b1]
        ring
      · have b1 : ¬ (-q - (-(⌊q⌋ : ℚ) - 1) < 1 / 2) := by linarith
        have b2 : ¬ (1 / 2 < -q - (-(⌊q⌋ : ℚ) - 1)) := by linarith
        rw [if_neg a1, if_neg a2, if_neg b1, if_neg b2]
        by_cases hev : ⌊q⌋ % 2 = 0
        · have hodd : ¬ ((-⌊q⌋ - 1) % 2 = 0) := by omega
          rw [if_pos hev, if_neg hodd]
          ring
        · have hev2 : (-⌊q⌋ - 1) % 2 = 0 := by omega
          rw [if_neg hev, if_pos hev2]
          ring

theorem roundBinary64_neg_eq (q : ℚ) : roundBinary64 (-q) = -roundBinary64 q := by
  unfold roundBinary64
  by_cases h0 : q = 0
  · simp [h0]
  · have h1 : -q ≠ 0 := neg_ne_zero.mpr h0
    rw [if_neg h0, if_neg h1]
    simp only [abs_neg]
    rw [neg_div, roundHalfEven_neg]
    push_cast
    ring

theorem floorLog2_mono {x y : ℚ} (hx : 0 < x) (hxy : x ≤ y) : floorLog2 x ≤ floorLog2 y := by
  obtain ⟨h1, -⟩ := floorLog2_spec hx
  obtain ⟨-, h2⟩ := floorLog2_spec (lt_of_lt_of_le hx hxy)
  have : (2 : ℚ) ^ floorLog2 x < (2 : ℚ) ^ (floorLog2 y + 1) :=
    lt_of_le_of_lt (le_trans h1 hxy) h2
  have := (zpow_lt_zpow_iff_right₀ (by norm_num : (1 : ℚ) < 2)).mp this
  omega

/-- The rounded value of a positive number lies in the closed binade of the number. -/
theorem roundBinary64_bounds {q : ℚ} (hq : 0 < q) :
    (2 : ℚ) ^ floorLog2 q ≤ roundBinary64 q ∧ roundBinary64 q ≤ (2 : ℚ) ^ (floorLog2 q + 1) := by
  obtain ⟨hb1, hb2⟩ := scaled_bounds hq
  have hu := pow2_pos (floorLog2 q - 52)
  have e1 : (2 : ℚ) ^ floorLog2 q = ((2 ^ 52 : Int) : ℚ) * pow2 (floorLog2 q - 52) := by
    rw [pow2_eq, zpow_sub₀ (by norm_num : (2 : ℚ) ≠ 0)]
    have h52 : (2 : ℚ) ^ (52 : Int) = 4503599627370496 := by norm_num
    rw [h52]
    push_cast
    field_simp
  have e2 : (2 : ℚ) ^ (floorLog2 q + 1) = ((2 ^ 53 : Int) : ℚ) * pow2 (floorLog2 q - 52) := by
    rw [pow2_eq, zpow_sub₀ (by norm_num : (2 : ℚ) ≠ 0), zpow_add₀ (by norm_num : (2 : ℚ) ≠ 0)]
    have h52 : (2 : ℚ) ^ (52 : Int) = 4503599627370496 := by norm_num
    rw [h52]
    push_cast
    field_simp
    ring
  have hr1 := roundHalfEven_ge hb1
  have hr2 := roundHalfEven_le (le_of_lt hb2)
  unfold roundBinary64
  rw [if_neg (ne_of_gt hq)]
  simp only [abs_of_pos hq]
  rw [e1, e2]
  constructor
  · apply mul_le_mul_of_nonneg_right _ (le_of_lt hu)
    exact_mod_cast hr1
  · apply mul_le_mul_of_nonneg_right _ (le_of_lt hu)
    exact_mod_cast hr2

theorem roundBinary64_mono_pos {x y : ℚ} (hx : 0 < x) (hxy : x ≤ y) :
    roundBinary64 x ≤ roundBinary64 y := by
  have hy : 0 < y := lt_of_lt_of_le hx hxy
  have he := floorLog2_mono hx hxy
  rcases eq_or_lt_of_le he with heq | hlt
  · unfold roundBinary64
    rw [if_neg (ne_of_gt hx), if_neg (ne_of_gt hy)]
    simp only [abs_of_pos hx, abs_of_pos hy, heq]
    have hu := pow2_pos (floorLog2 y - 52)
    apply mul_le_mul_of_nonneg_right _ (le_of_lt hu)
    have : x / pow2 (floorLog2 y - 52) ≤ y / pow2 (floorLog2 y - 52) :=
      div_le_div_of_nonneg_right hxy (le_of_lt hu)
    exact_mod_cast roundHalfEven_mono this
  · have h1 := (roundBinary64_bounds hx).2
    have h2 := (roundBinary64_bounds hy).1
    have h3 : (2 : ℚ) ^ (floorLog2 x + 1) ≤ (2 : ℚ) ^ floorLog2 y :=
      (zpow_le_zpow_iff_right₀ (by norm_num : (1 : ℚ) < 2)).mpr (by omega)
    linarith

/-- Rounding to double precision is monotone. -/
theorem roundBinary64_mono {x y : ℚ} (hxy : x ≤ y) : roundBinary64 x ≤ roundBinary64 y := by
  rcases lt_trichotomy x 0 with hx | hx | hx
  · rcases lt_trichotomy y 0 with hy | hy | hy
    · have := roundBinary64_mono_pos (x := -y) (y := -x) (by linarith) (by linarith)
      rw [roundBinary64_neg_eq, roundBinary64_neg_eq] at this
      linarith
    · have := roundBinary64_neg hx
      have h0 : roundBinary64 y = 0 := roundBinary64_eq_zero.mpr hy
      linarith
    · have h1 := roundBinary64_neg hx
      have h2 := roundBinary64_pos hy
      linarith
  · have h0 : roundBinary64 x = 0 := roundBinary64_eq_zero.mpr hx
    rw [hx] at hxy
    rcases eq_or_lt_of_le hxy with hy | hy
    · rw [h0, roundBinary64_eq_zero.mpr hy.symm]
    · have := roundBinary64_pos hy
      linarith
  · exact roundBinary64_mono_pos hx hxy

/-! ## The computed and the exact reduction percentage -/

/-- The double-precision value of the operand of the comparator of `topReductions`, for
flows that convert to `double` without rounding. -/
theorem reductionPercentage_value (p : String × Nat × Nat) (h1 : p.2.1 < 2 ^ 53)
    (h2 : p.2.2 < 2 ^ 53) :
    reductionPercentage p = Binary64.finite (roundBinary64 (100 - roundBinary64 (roundBinary64
      (if p.2.1 = 0 then 1 else (p.2.2 : ℚ) / (p.2.1 : ℚ)) * 100))) := by
  have r1 : roundBinary64 (1 : ℚ) = 1 := by
    have := roundBinary64_natCast (n := 1) (by norm_num)
    simpa using this
  have r100 : roundBinary64 (100 : ℚ) = 100 := by
    have := roundBinary64_natCast (n := 100) (by norm_num)
    simpa using this
  have r0 : roundBinary64 (0 : ℚ) = 0 := by simp [roundBinary64]
  unfold reductionPercentage
  by_cases hb : p.2.1 = 0
  · rw [if_pos hb, if_pos hb]
    simp [Binary64.ofNat, r1, r100, r0]
  · rw [if_neg hb, if_neg hb]
    have hbq : ((p.2.1 : Nat) : ℚ) ≠ 0 := by exact_mod_cast hb
    have e100 : Binary64.ofNat 100 = Binary64.finite 100 := by
      have := ofNat_exact (n := 100) (by norm_num)
      simpa using this
    rw [e100, ofNat_exact h1, ofNat_exact h2]
    simp only [Binary64.mul, Binary64.div, Binary64.sub, Binary64.neg, Binary64.add, mul_one,
      roundBinary64_natCast h2, if_neg hbq, sub_eq_add_neg]

theorem statedPercentage_eq (p : String × Nat × Nat) :
    statedPercentage p
      = 100 * (1 - (if p.2.1 = 0 then 1 else (p.2.2 : ℚ) / (p.2.1 : ℚ))) := by
  unfold statedPercentage
  split <;> simp

/-- The computed percentage is a monotone function of the exact percentage: an entry whose
exact percentage is not above that of another entry does not compare greater. -/
theorem reductionGreater_of_stated_le (a b : String × Nat × Nat) (ha1 : a.2.1 < 2 ^ 53)
    (ha2 : a.2.2 < 2 ^ 53) (hb1 : b.2.1 < 2 ^ 53) (hb2 : b.2.2 < 2 ^ 53)
    (h : statedPercentage a ≤ statedPercentage b) : reductionGreater a b = false := by
  rw [statedPercentage_eq, statedPercentage_eq] at h
  unfold reductionGreater
  rw [reductionPercentage_value a ha1 ha2, reductionPercentage_value b hb1 hb2]
  simp only [Binary64.gt, decide_eq_false_iff_not, not_lt]
  apply roundBinary64_mono
  have hq : (if b.2.1 = 0 then (1 : ℚ) else (b.2.2 : ℚ) / (b.2.1 : ℚ))
      ≤ (if a.2.1 = 0 then (1 : ℚ) else (a.2.2 : ℚ) / (a.2.1 : ℚ)) := by linarith
  have h1 := roundBinary64_mono hq
  have h2 : roundBinary64 (if b.2.1 = 0 then (1 : ℚ) else (b.2.2 : ℚ) / (b.2.1 : ℚ)) * 100
      ≤ roundBinary64 (if a.2.1 = 0 then (1 : ℚ) else (a.2.2 : ℚ) / (a.2.1 : ℚ)) * 100 := by
    linarith
  have h3 := roundBinary64_mono h2
  linarith

/-- Two entries neither of which compares greater than the other have the same computed
percentage. -/
theorem reductionPercentage_eq_of_not_greater (a b : String × Nat × Nat)
    (h1 : reductionGreater a b = false) (h2 : reductionGreater b a = false) :
    reductionPercentage a = reductionPercentage b := by
  obtain ⟨qa, ha⟩ := reductionPercentage_finite a
  obtain ⟨qb, hb⟩ := reductionPercentage_finite b
  simp only [reductionGreater, ha, hb, Binary64.gt, decide_eq_false_iff_not, not_lt] at h1 h2
  rw [ha, hb, le_antisymm h1 h2]

theorem incomingReducedFlux_lt {g r g1 r1 : Graph} {fuel F : Nat} {S : List Nat}
    {station : String} (h : g.incomingReducedFlux fuel S station r = some (F, g1, r1)) :
    F < 4294967296 := by
  simp only [Graph.incomingReducedFlux, Option.bind_eq_bind, Option.bind_eq_some,
    Option.pure_def, Option.some.injEq, Prod.mk.injEq] at h
  obtain ⟨⟨l, ga⟩, -, ⟨g2, r2⟩, -, ⟨F1, g3, r3⟩, h3, ⟨gb, rb⟩, -, rfl, -, -⟩ := h
  exact edmondsKarp_lt h3
/-! ## The construction functions -/

theorem idsSound_idOf {g : Graph} (hs : g.IdsSound) {x : Nat} {id : String}
    (h : g.findVertex id = some x) : g.idOf x = some id := by
  unfold Graph.findVertex at h
  have hmem : (id, x) ∈ g.idToVertex := by
    obtain ⟨l1, l2, hl, -⟩ := List.lookup_eq_some_iff.mp h
    rw [hl]; simp
  exact hs _ hmem

theorem idsSound_lt {g : Graph} (hs : g.IdsSound) {x : Nat} {id : String}
    (h : g.findVertex id = some x) : x < g.vertexSet.length :=
  idOf_lt (idsSound_idOf hs h)

theorem idsSound_of_wellLinked {g : Graph} (hw : g.WellLinked) : g.IdsSound := hw.2.2

theorem idsSound_empty : Graph.empty.IdsSound := by
  intro p hp
  simp [Graph.empty] at hp

/-- The function `Vertex::addEdge` returns the pointer to the new edge when both vertices
exist. -/
theorem addEdge_total {g : Graph} {v d : Nat} (w : Nat) (s : Service)
    (hv : v < g.vertexSet.length) (hd : d < g.vertexSet.length) :
    ∃ h, g.addEdge v d w s = some (g.edges.length, h) := by
  obtain ⟨g2, hg2⟩ := updateVertex_some
    (g := { g with edges := g.edges ++ [Edge.new v d w s] })
    (fun x => { x with adj := x.adj ++ [g.edges.length] }) hv
  have hl2 := (updateVertex_rest hg2).2.2.2
  obtain ⟨g3, hg3⟩ := updateVertex_some (g := g2)
    (fun x => { x with incoming := x.incoming ++ [g.edges.length] }) (by rw [hl2]; exact hd)
  exact ⟨g3, by simp [Graph.addEdge, hg2, hg3]⟩

/-- The function `Graph::addAndGetBidirectionalEdge` returns the pointers to two new edges
when both ids are ids of vertices. -/
theorem addAndGet_total {g : Graph} {source dest : String} {v1 v2 : Nat} (c : Nat)
    (s : Service) (h1 : g.findVertex source = some v1) (h2 : g.findVertex dest = some v2)
    (hv1 : v1 < g.vertexSet.length) (hv2 : v2 < g.vertexSet.length) :
    ∃ h, g.addAndGetBidirectionalEdge source dest c s
      = some (some (g.edges.length, g.edges.length + 1), h) := by
  obtain ⟨g1, hg1⟩ := addEdge_total (g := g) c s hv1 hv2
  obtain ⟨-, -, -, hed1, -, hl1, -⟩ := addEdge_spec hg1
  have hlen1 : g1.edges.length = g.edges.length + 1 := by rw [hed1]; simp
  obtain ⟨g2, hg2⟩ := addEdge_total (g := g1) c s (by rw [hl1]; exact hv2)
    (by rw [hl1]; exact hv1)
  obtain ⟨-, -, -, hed2, -, -, -⟩ := addEdge_spec hg2
  have hlen2 : g2.edges.length = g.edges.length + 2 := by rw [hed2]; simp [hlen1]
  obtain ⟨g3, hg3⟩ := updateEdge_some (g := g2)
    (fun x => { x with reverse := some (g.edges.length + 1) }) (by omega : g.edges.length < _)
  have hlen3 := (updateEdge_rest hg3).2.2.2
  obtain ⟨g4, hg4⟩ := updateEdge_some (g := g3)
    (fun x => { x with reverse := some g.edges.length })
    (by omega : g.edges.length + 1 < g3.edges.length)
  refine ⟨{ g4 with totalEdges := uadd g4.totalEdges 1 }, ?_⟩
  rw [hlen1] at hg2
  simp [Graph.addAndGetBidirectionalEdge, h1, h2, hg1, hg2, Graph.setReverse, hg3, hg4]

/-- A call of `addAndGetBidirectionalEdge` that returns a pair of links adds one to the
counter `totalEdges`, as an `unsigned int`. -/
theorem addAndGet_totalEdges {g h : Graph} {source dest : String} {c : Nat} {s : Service}
    {p : Nat × Nat} (ha : g.addAndGetBidirectionalEdge source dest c s = some (some p, h)) :
    h.totalEdges = uadd g.totalEdges 1 := by
  unfold Graph.addAndGetBidirectionalEdge at ha
  cases hv1 : g.findVertex source with
  | none => simp [hv1] at ha
  | some v1 =>
    cases hv2 : g.findVertex dest with
    | none => simp [hv1, hv2] at ha
    | some v2 =>
      simp only [hv1, hv2, Option.bind_eq_bind, Option.bind_eq_some, Option.pure_def,
        Option.some.injEq, Prod.mk.injEq] at ha
      obtain ⟨⟨a1, g1⟩, hg1, ⟨a2, g2⟩, hg2, g3, hg3, g4, hg4, -, rfl⟩ := ha
      dsimp only at hg2 hg3 hg4
      have t1 : g1.totalEdges = g.totalEdges := by
        simp only [Graph.addEdge, Option.bind_eq_bind, Option.bind_eq_some, Option.pure_def,
          Option.some.injEq, Prod.mk.injEq] at hg1
        obtain ⟨ga, hga, gb, hgb, -, rfl⟩ := hg1
        rw [(updateVertex_rest hgb).2.2.1, (updateVertex_rest hga).2.2.1]
      have t2 : g2.totalEdges = g1.totalEdges := by
        simp only [Graph.addEdge, Option.bind_eq_bind, Option.bind_eq_some, Option.pure_def,
          Option.some.injEq, Prod.mk.injEq] at hg2
        obtain ⟨ga, hga, gb, hgb, -, rfl⟩ := hg2
        rw [(updateVertex_rest hgb).2.2.1, (updateVertex_rest hga).2.2.1]
      unfold Graph.setReverse at hg3 hg4
      show uadd g4.totalEdges 1 = _
      rw [(updateEdge_rest hg4).2.2.1, (updateEdge_rest hg3).2.2.1, t2, t1]

/-- A call of `addAndGetBidirectionalEdge` with an id that is not the id of a vertex returns
the pair of null pointers and leaves the graph as it is. -/
theorem addAndGet_none {g : Graph} {source dest : String} (c : Nat) (s : Service)
    (h : g.findVertex source = none ∨ g.findVertex dest = none) :
    g.addAndGetBidirectionalEdge source dest c s = some (none, g) := by
  unfold Graph.addAndGetBidirectionalEdge
  rcases h with h | h
  · rw [h]
  · rw [h]
    cases g.findVertex source <;> rfl

/-- The number of directed links as a sum over the pointers to the vertices. -/
theorem directedLinks_eq (g : Graph) :
    g.directedLinks = ((List.range g.vertexSet.length).map (fun x => (g.adjOf x).length)).sum := by
  unfold Graph.directedLinks
  congr 1
  apply List.ext_getElem
  · simp
  · intro i h1 h2
    simp only [List.length_map] at h1
    simp [Graph.adjOf, List.getElem?_eq_getElem h1]

theorem sum_range_indicator (n v : Nat) (hv : v < n) (f : Nat → Nat) :
    ((List.range n).map (fun x => if x = v then f x + 1 else f x)).sum
      = ((List.range n).map f).sum + 1 := by
  induction n with
  | zero => omega
  | succ n ih =>
    rw [List.range_succ, List.map_append, List.map_append, List.sum_append, List.sum_append]
    simp only [List.map_cons, List.map_nil, List.sum_cons, List.sum_nil, Nat.add_zero]
    by_cases h : v = n
    · subst h
      have : ((List.range v).map (fun x => if x = v then f x + 1 else f x))
          = (List.range v).map f := by
        apply List.map_congr_left
        intro x hx
        have := List.mem_range.mp hx
        rw [if_neg (by omega)]
      rw [this, if_pos rfl]
      omega
    · have hlt : v < n := by omega
      rw [ih hlt, if_neg (fun h' => h h'.symm)]
      omega

/-- A call of `addAndGetBidirectionalEdge` that returns a pair of links adds two directed
links to the graph. -/
theorem addAndGet_directedLinks {g h : Graph} {source dest : String} {c e1 e2 : Nat}
    {s : Service} (ha : g.addAndGetBidirectionalEdge source dest c s = some (some (e1, e2), h)) :
    h.directedLinks = g.directedLinks + 2 := by
  obtain ⟨v1, v2, -, -, hv1, hv2, -, -, -, -, -, hlen, hadj, -, -⟩ := addAndGet_spec ha
  rw [directedLinks_eq, directedLinks_eq, hlen]
  have e : (fun x => (h.adjOf x).length)
      = fun x => if x = v2 then (if x = v1 then (g.adjOf x).length + 1 else (g.adjOf x).length) + 1
          else (if x = v1 then (g.adjOf x).length + 1 else (g.adjOf x).length) := by
    funext x
    rw [hadj]
    by_cases h2 : x = v2
    · rw [if_pos h2, if_pos h2]
      by_cases h1 : x = v1
      · rw [if_pos h1, if_pos h1]; simp
      · rw [if_neg h1, if_neg h1]; simp
    · rw [if_neg h2, if_neg h2]
      by_cases h1 : x = v1
      · rw [if_pos h1, if_pos h1]; simp
      · rw [if_neg h1, if_neg h1]
  rw [e, sum_range_indicator _ v2 hv2
    (fun x => if x = v1 then (g.adjOf x).length + 1 else (g.adjOf x).length),
    sum_range_indicator _ v1 hv1 (fun x => (g.adjOf x).length)]
/-! ## Sequences of construction calls -/

theorem addVertex_false {g : Graph} {id : String} (h : (g.findVertex id).isSome = true) :
    g.addVertex id = (false, g) := by
  unfold Graph.addVertex
  rw [if_pos h]

theorem addVertex_true {g : Graph} {id : String} (h : g.findVertex id = none) :
    g.addVertex id = (true, { g with vertexSet := g.vertexSet ++ [Vertex.new id],
                                     idToVertex := (id, g.vertexSet.length) :: g.idToVertex }) := by
  unfold Graph.addVertex
  rw [if_neg (by rw [h]; simp)]

theorem addVertex_idsSound {g : Graph} (id : String) (hs : g.IdsSound) :
    (g.addVertex id).2.IdsSound := by
  cases hf : g.findVertex id with
  | some v => rw [addVertex_false (by rw [hf]; rfl)]; exact hs
  | none =>
    rw [addVertex_true hf]
    intro p hp
    simp only [List.mem_cons] at hp
    rcases hp with rfl | hp
    · simp [Graph.idOf, Vertex.new]
    · have := hs p hp
      have hlt := idOf_lt this
      simp only [Graph.idOf] at this ⊢
      rw [List.getElem?_append_left hlt]
      exact this

theorem addVertex_counts {g : Graph} (id : String) :
    (g.addVertex id).2.totalEdges = g.totalEdges ∧ (g.addVertex id).2.edges = g.edges ∧
    (g.addVertex id).2.directedLinks = g.directedLinks := by
  cases hf : g.findVertex id with
  | some v => rw [addVertex_false (by rw [hf]; rfl)]; exact ⟨rfl, rfl, rfl⟩
  | none =>
    rw [addVertex_true hf]
    refine ⟨rfl, rfl, ?_⟩
    simp [Graph.directedLinks, Vertex.new]

theorem addVertex_findVertex_ne {g : Graph} {id other : String} (h : other ≠ id) :
    (g.addVertex id).2.findVertex other = g.findVertex other := by
  cases hf : g.findVertex id with
  | some v => rw [addVertex_false (by rw [hf]; rfl)]
  | none =>
    rw [addVertex_true hf]
    show List.lookup other ((id, g.vertexSet.length) :: g.idToVertex) = _
    rw [List.lookup_cons]
    have : (other == id) = false := by simpa using h
    rw [this]
    rfl

theorem addAndGet_idsSound {g h : Graph} {source dest : String} {c : Nat} {s : Service}
    {p : Option (Nat × Nat)} (hs : g.IdsSound)
    (ha : g.addAndGetBidirectionalEdge source dest c s = some (p, h)) :
    h.IdsSound ∧ h.idToVertex = g.idToVertex := by
  cases p with
  | none =>
    unfold Graph.addAndGetBidirectionalEdge at ha
    cases hv1 : g.findVertex source with
    | none =>
      simp only [hv1, Option.some.injEq, Prod.mk.injEq, true_and] at ha
      subst ha; exact ⟨hs, rfl⟩
    | some v1 =>
      cases hv2 : g.findVertex dest with
      | none =>
        simp only [hv1, hv2, Option.some.injEq, Prod.mk.injEq, true_and] at ha
        subst ha; exact ⟨hs, rfl⟩
      | some v2 =>
        simp only [hv1, hv2, Option.bind_eq_bind, Option.bind_eq_some, Option.pure_def,
          Option.some.injEq, Prod.mk.injEq] at ha
        obtain ⟨_, _, _, _, _, _, _, _, hno, _⟩ := ha
        exact absurd hno (by simp)
  | some p =>
    obtain ⟨e1, e2⟩ := p
    obtain ⟨v1, v2, -, -, -, -, -, -, -, -, hid, -, -, -, hidof⟩ := addAndGet_spec ha
    refine ⟨?_, hid⟩
    intro q hq
    rw [hid] at hq
    rw [hidof]
    exact hs q hq

/-- What a sequence of construction calls does to the counters: it returns, the counter
`totalEdges` has advanced by the number of pairs of links created modulo `2 ^ 32`, and the
graph has two more directed links for each pair. -/
theorem makeCalls_spec : ∀ (cs : List BuildCall) (g : Graph) (n : Nat), g.IdsSound →
    g.totalEdges < 4294967296 →
    ∃ m h, Graph.makeCalls cs g n = some (m, h) ∧ h.IdsSound ∧ n ≤ m ∧
      h.totalEdges = (g.totalEdges + (m - n)) % 4294967296 ∧
      h.directedLinks = g.directedLinks + 2 * (m - n) ∧ m - n ≤ cs.length := by
  intro cs
  induction cs with
  | nil =>
    intro g n hs hlt
    exact ⟨n, g, rfl, hs, le_refl _, by simp [Nat.mod_eq_of_lt hlt], by simp, by simp⟩
  | cons c cs ih =>
    intro g n hs hlt
    cases c with
    | addVertex id =>
      obtain ⟨ht, -, hd⟩ := addVertex_counts (g := g) id
      obtain ⟨m, h, hm, hsh, hnm, hte, hdl, hlen⟩ :=
        ih (g.addVertex id).2 n (addVertex_idsSound id hs) (by rw [ht]; exact hlt)
      refine ⟨m, h, by simpa [Graph.makeCalls] using hm, hsh, hnm, ?_, ?_, ?_⟩
      · rw [hte, ht]
      · rw [hdl, hd]
      · simp only [List.length_cons]; omega
    | addAndGetBidirectionalEdge source dest c service =>
      cases hv1 : g.findVertex source with
      | none =>
        have hcall : g.addAndGetBidirectionalEdge source dest c service = some (none, g) :=
          addAndGet_none c service (Or.inl hv1)
        obtain ⟨m, h, hm, hsh, hnm, hte, hdl, hlen⟩ := ih g n hs hlt
        refine ⟨m, h, by simpa [Graph.makeCalls, hcall] using hm, hsh, hnm, hte, hdl, ?_⟩
        simp only [List.length_cons]; omega
      | some v1 =>
        cases hv2 : g.findVertex dest with
        | none =>
          have hcall : g.addAndGetBidirectionalEdge source dest c service = some (none, g) :=
            addAndGet_none c service (Or.inr hv2)
          obtain ⟨m, h, hm, hsh, hnm, hte, hdl, hlen⟩ := ih g n hs hlt
          refine ⟨m, h, by simpa [Graph.makeCalls, hcall] using hm, hsh, hnm, hte, hdl, ?_⟩
          simp only [List.length_cons]; omega
        | some v2 =>
          obtain ⟨g1, hcall⟩ := addAndGet_total c service hv1 hv2 (idsSound_lt hs hv1)
            (idsSound_lt hs hv2)
          have ht1 := addAndGet_totalEdges hcall
          have hd1 := addAndGet_directedLinks hcall
          have hlt1 : g1.totalEdges < 4294967296 := by
            rw [ht1]; unfold uadd; exact Nat.mod_lt _ (by norm_num)
          obtain ⟨m, h, hm, hsh, hnm, hte, hdl, hlen⟩ :=
            ih g1 (n + 1) (addAndGet_idsSound hs hcall).1 hlt1
          refine ⟨m, h, by simpa [Graph.makeCalls, hcall] using hm, hsh, by omega, ?_, ?_, ?_⟩
          · rw [hte, ht1]; unfold uadd; omega
          · rw [hdl, hd1]; omega
          · simp only [List.length_cons]; omega

/-- An id that no call of `addVertex` in the sequence declares is found after the calls
exactly when it was found before. -/
theorem makeCalls_findVertex (id : String) : ∀ (cs : List BuildCall) (g : Graph) (n m : Nat)
    (h : Graph), g.IdsSound → Graph.makeCalls cs g n = some (m, h) →
    (∀ c ∈ cs, c ≠ BuildCall.addVertex id) → h.findVertex id = g.findVertex id := by
  intro cs
  induction cs with
  | nil =>
    intro g n m h _ hm _
    simp only [Graph.makeCalls, Option.some.injEq, Prod.mk.injEq] at hm
    rw [hm.2]
  | cons c cs ih =>
    intro g n m h hs hm hne
    have hne' : ∀ c ∈ cs, c ≠ BuildCall.addVertex id :=
      fun a ha => hne a (List.mem_cons_of_mem _ ha)
    cases c with
    | addVertex other =>
      simp only [Graph.makeCalls] at hm
      have hio : id ≠ other := by
        intro e
        exact hne (BuildCall.addVertex other) (List.mem_cons_self _ _) (by rw [e])
      rw [ih _ n m h (addVertex_idsSound other hs) hm hne', addVertex_findVertex_ne hio]
    | addAndGetBidirectionalEdge source dest c service =>
      simp only [Graph.makeCalls] at hm
      cases hcall : g.addAndGetBidirectionalEdge source dest c service with
      | none => simp [hcall] at hm
      | some x =>
        obtain ⟨p, g1⟩ := x
        obtain ⟨hs1, hid1⟩ := addAndGet_idsSound hs hcall
        have hfv : g1.findVertex id = g.findVertex id := by
          unfold Graph.findVertex; rw [hid1]
        cases p with
        | none =>
          simp only [hcall] at hm
          rw [ih g1 n m h hs1 hm hne', hfv]
        | some p =>
          simp only [hcall] at hm
          rw [ih g1 (n + 1) m h hs1 hm hne', hfv]

/-- Calls of `addAndGetBidirectionalEdge` between vertices of the graph all create a pair of
links. -/
theorem makeCalls_links : ∀ (cs : List BuildCall) (g : Graph) (n : Nat), g.IdsSound →
    g.totalEdges < 4294967296 →
    (∀ c ∈ cs, ∃ source dest cap service,
      c = BuildCall.addAndGetBidirectionalEdge source dest cap service ∧
      (g.findVertex source).isSome = true ∧ (g.findVertex dest).isSome = true) →
    ∃ h, Graph.makeCalls cs g n = some (n + cs.length, h) ∧
      h.totalEdges = (g.totalEdges + cs.length) % 4294967296 ∧
      h.directedLinks = g.directedLinks + 2 * cs.length := by
  intro cs
  induction cs with
  | nil =>
    intro g n _ hlt _
    exact ⟨g, rfl, by simp [Nat.mod_eq_of_lt hlt], by simp⟩
  | cons c cs ih =>
    intro g n hs hlt hall
    obtain ⟨source, dest, cap, service, rfl, h1, h2⟩ := hall c (List.mem_cons_self _ _)
    obtain ⟨v1, hv1⟩ := Option.isSome_iff_exists.mp h1
    obtain ⟨v2, hv2⟩ := Option.isSome_iff_exists.mp h2
    obtain ⟨g1, hcall⟩ := addAndGet_total cap service hv1 hv2 (idsSound_lt hs hv1)
      (idsSound_lt hs hv2)
    have ht1 := addAndGet_totalEdges hcall
    have hd1 := addAndGet_directedLinks hcall
    obtain ⟨hs1, hid1⟩ := addAndGet_idsSound hs hcall
    have hlt1 : g1.totalEdges < 4294967296 := by
      rw [ht1]; unfold uadd; exact Nat.mod_lt _ (by norm_num)
    have hall1 : ∀ c ∈ cs, ∃ source dest cap service,
        c = BuildCall.addAndGetBidirectionalEdge source dest cap service ∧
        (g1.findVertex source).isSome = true ∧ (g1.findVertex dest).isSome = true := by
      intro c hc
      obtain ⟨s, d, cp, sv, e, a1, a2⟩ := hall c (List.mem_cons_of_mem _ hc)
      refine ⟨s, d, cp, sv, e, ?_, ?_⟩
      · unfold Graph.findVertex at a1 ⊢; rw [hid1]; exact a1
      · unfold Graph.findVertex at a2 ⊢; rw [hid1]; exact a2
    obtain ⟨h, hm, hte, hdl⟩ := ih g1 (n + 1) hs1 hlt1 hall1
    refine ⟨h, ?_, ?_, ?_⟩
    · simp only [Graph.makeCalls, hcall, List.length_cons]
      rw [hm]; congr 2; omega
    · rw [hte, ht1]; unfold uadd; simp only [List.length_cons]; omega
    · rw [hdl, hd1]; simp only [List.length_cons]; omega

theorem makeCalls_manyLinks (n : Nat) :
    ∃ h, Graph.makeCalls (manyLinks n) Graph.empty 0 = some (n, h) ∧
      h.totalEdges = n % 4294967296 ∧ h.directedLinks = 2 * n := by
  have hs : twoStations.IdsSound := by decide!
  obtain ⟨h, hm, hte, hdl⟩ := makeCalls_links
    ((List.range n).map (fun i =>
      if i % 2 = 0 then BuildCall.addAndGetBidirectionalEdge "A" "B" 1 Service.STANDARD
      else BuildCall.addAndGetBidirectionalEdge "B" "A" 1 Service.STANDARD))
    twoStations 0 hs (by decide!) (by
      intro c hc
      obtain ⟨i, -, rfl⟩ := List.mem_map.mp hc
      by_cases hi : i % 2 = 0
      · rw [if_pos hi]; exact ⟨"A", "B", 1, Service.STANDARD, rfl, by decide!, by decide!⟩
      · rw [if_neg hi]; exact ⟨"B", "A", 1, Service.STANDARD, rfl, by decide!, by decide!⟩)
  simp only [List.length_map, List.length_range, Nat.zero_add] at hm hte hdl
  refine ⟨h, ?_, ?_, ?_⟩
  · rw [← hm]; rfl
  · have t0 : twoStations.totalEdges = 0 := by decide!
    rw [hte, t0, Nat.zero_add]
  · have d0 : twoStations.directedLinks = 0 := by decide!
    rw [hdl, d0, Nat.zero_add]
/-! ## The breadth-first search of `Graph::path` -/

/-- Under the invariant of the search, every vertex reached by a walk of at most `L`
admitted edges is visited. -/
theorem bfs_reach_visited {r0 r : Graph} {S : List Nat} {q : List String} {c L : Nat}
    {es : List Nat} {lv : Nat → Nat} (hinv : BfsInv r0 S r q c es L lv)
    (hc : es = [] ∨ lv c = L) :
    ∀ n x, r0.ReachesIn r0.admits S n x → n ≤ L → r.visitedAt x = true := by
  intro n x hr
  induction hr with
  | source hs => intro _; exact (hinv.sources _ hs).1
  | @link n x y e hrx he hu hd ih =>
    intro hn
    have hx := ih (by omega)
    have hlx := hinv.minimal x hx n hrx
    rcases hinv.closed x hx e he hu with ⟨y', hy', hv⟩ | ⟨id, hid, hf⟩ | ⟨hxc, hees⟩
    · rw [hd] at hy'
      rw [Option.some.inj hy']; exact hv
    · obtain ⟨x', hx', -, hL, -⟩ := hinv.queue id hid
      rw [hf] at hx'
      obtain rfl := Option.some.inj hx'
      omega
    · rcases hc with hc | hc
      · rw [hc] at hees; simp at hees
      · subst hxc; omega

/-- The predecessor chain of a visited vertex gives a walk of as many admitted edges. -/
theorem chain_reachesIn {r0 r : Graph} {S : List Nat} :
    ∀ (P : List (Nat × Nat)) (x : Nat), r.IsChain x P → (∀ i, r.getDest i = r0.getDest i) →
      chainEnd x P ∈ S → (∀ p ∈ P, p.1 ∈ r0.adjOf p.2 ∧ r0.admits p.1 = true) →
      r0.ReachesIn r0.admits S P.length x := by
  intro P
  induction P with
  | nil =>
    intro x _ _ hend _
    exact Graph.ReachesIn.source hend
  | cons p rest ih =>
    intro x hch hd hend hadm
    simp only [Graph.IsChain] at hch
    obtain ⟨-, hde, -, hrest⟩ := hch
    have h1 := ih p.2 hrest hd hend (fun a ha => hadm a (List.mem_cons_of_mem _ ha))
    obtain ⟨hm, hu⟩ := hadm p (List.mem_cons_self _ _)
    rw [hd] at hde
    exact Graph.ReachesIn.link h1 hm hu hde

theorem reachesIn_reaches {g : Graph} {usable : Nat → Bool} {S : List Nat} {n x : Nat}
    (h : g.ReachesIn usable S n x) : g.Reaches usable S x := by
  induction h with
  | source hs => exact Graph.Reaches.source hs
  | link _ he hu hd ih => exact Graph.Reaches.link ih he hu hd

theorem reaches_reachesIn {g : Graph} {usable : Nat → Bool} {S : List Nat} {x : Nat}
    (h : g.Reaches usable S x) : ∃ n, g.ReachesIn usable S n x := by
  induction h with
  | source hs => exact ⟨0, Graph.ReachesIn.source hs⟩
  | link _ he hu hd ih =>
    obtain ⟨n, hn⟩ := ih
    exact ⟨n + 1, Graph.ReachesIn.link hn he hu hd⟩

/-- The effect of discovering the unvisited vertex `d` through the admitted edge `e` out of
the scanned vertex `c`: the invariant of the search is kept, with `d` queued at the level
`L + 1`. -/
theorem bfsInv_discover {r0 r r1 : Graph} {S : List Nat} {q : List String} {c L e d : Nat}
    {es : List Nat} {lv : Nat → Nat} {did : String} (hw0 : r0.WellLinked)
    (hs : SameStatic r0 r) (hinv : BfsInv r0 S r q c (e :: es) L lv) (hc : r.visitedAt c = true) (hlc : lv c = L)
    (hec : e ∈ r0.adjOf c) (hadm : r0.admits e = true) (hde : r0.getDest e = some d)
    (hd : r.visitedAt d = false) (hdid : r0.idOf d = some did)
    (hu : r.updateVertex d (fun x => { x with visited := true, path := some e }) = some r1) :
    BfsInv r0 S r1 (q ++ [did]) c es L (fun y => if y = d then L + 1 else lv y) := by
  have hedges : r1.edges = r.edges := (updateVertex_rest hu).1
  have hdlt : d < r.vertexSet.length := by
    obtain ⟨x, hx, -⟩ := updateVertex_eq_some hu
    exact (List.getElem?_eq_some.mp hx).1
  have hclt : c < r0.vertexSet.length := by
    rw [← hs.vertexSet_length]; exact visitedAt_lt hc
  have hvis : ∀ y, r1.visitedAt y = if y = d then true else r.visitedAt y := by
    intro y
    rw [visitedAt_updateVertex hu]
    by_cases hy : y = d
    · subst hy; simp [List.getElem?_eq_getElem hdlt]
    · simp [hy]
  have hpath : ∀ y, r1.pathOf y = if y = d then some (some e) else r.pathOf y := by
    intro y
    rw [pathOf_updateVertex hu]
    by_cases hy : y = d
    · subst hy; simp [List.getElem?_eq_getElem hdlt]
    · simp [hy]
  have hoo : ∀ i, r1.getOrig i = r.getOrig i := fun i => by simp [Graph.getOrig, hedges]
  have hdd : ∀ i, r1.getDest i = r.getDest i := fun i => by simp [Graph.getDest, hedges]
  have hmono : ∀ y, r.visitedAt y = true → r1.visitedAt y = true := by
    intro y hy; rw [hvis]; split <;> simp [hy]
  have hne : ∀ y, r.visitedAt y = true → y ≠ d := by
    intro y hy hyd
    rw [hyd, hd] at hy
    exact Bool.noConfusion hy
  have hold : ∀ y, r1.visitedAt y = true → y ≠ d → r.visitedAt y = true := by
    intro y hy hyd
    rw [hvis, if_neg hyd] at hy; exact hy
  have hkeep : ∀ (x : Nat) (P : List (Nat × Nat)), r.IsChain x P →
      (∀ y ∈ chainVertices x P, r.visitedAt y = true) → r1.IsChain x P := by
    intro x P hch hall
    apply IsChain.frame hoo hdd P x hch
    intro y hy
    rw [hpath, if_neg (hne y (hall y hy))]
  have helt : e < r0.edges.length := ((hw0.2.1 c hclt).1 e hec).1
  have horig : r0.getOrig e = some c := ((hw0.2.1 c hclt).1 e hec).2
  have hfd : r0.findVertex did = some d := findVertex_of_idOf hw0 hdid
  refine ⟨?_, ?_, ?_, ?_, ?_, ?_⟩
  · intro s hsS
    obtain ⟨h1, h2⟩ := hinv.sources s hsS
    exact ⟨hmono s h1, by rw [hpath, if_neg (hne s h1)]; exact h2⟩
  · intro x hx
    by_cases hxd : x = d
    · subst hxd
      obtain ⟨P, hch, hall, hend, hadmP, hlen⟩ := hinv.chain c hc
      refine ⟨(e, c) :: P, ?_, ?_, hend, ?_, ?_⟩
      · simp only [Graph.IsChain]
        refine ⟨by rw [hpath, if_pos rfl], ?_, ?_, hkeep c P hch hall⟩
        · rw [hdd, hs.getDest]; exact hde
        · rw [hoo, hs.getOrig]; exact horig
      · intro y hy
        simp only [chainVertices, List.map_cons, List.mem_cons] at hy
        rcases hy with hy | hy | hy
        · rw [hy, hvis, if_pos rfl]
        · rw [hy]; exact hmono c hc
        · exact hmono y (hall y (by simp [chainVertices, hy]))
      · intro p hp
        rcases List.mem_cons.mp hp with hp | hp
        · subst hp; exact ⟨hec, hadm⟩
        · exact hadmP p hp
      · simp only [List.length_cons, if_pos, hlen, hlc]
    · obtain ⟨P, hch, hall, hend, hadmP, hlen⟩ := hinv.chain x (hold x hx hxd)
      refine ⟨P, hkeep x P hch hall, fun y hy => hmono y (hall y hy), hend, hadmP, ?_⟩
      rw [if_neg hxd]; exact hlen
  · intro x hx n hr
    by_cases hxd : x = d
    · subst hxd
      rw [if_pos rfl]
      by_contra hlt
      have := bfs_reach_visited hinv (Or.inr hlc) n x hr (by omega)
      rw [hd] at this
      exact Bool.noConfusion this
    · rw [if_neg hxd]
      exact hinv.minimal x (hold x hx hxd) n hr
  · intro id hid
    rcases List.mem_append.mp hid with hid | hid
    · obtain ⟨x, hx, hv, h1, h2⟩ := hinv.queue id hid
      exact ⟨x, hx, hmono x hv, by rw [if_neg (hne x hv)]; exact h1,
        by rw [if_neg (hne x hv)]; exact h2⟩
    · rw [List.mem_singleton] at hid
      subst hid
      exact ⟨d, hfd, by rw [hvis, if_pos rfl], by rw [if_pos rfl]; omega,
        by rw [if_pos rfl]⟩
  · rw [List.pairwise_append]
    refine ⟨?_, List.pairwise_singleton _ _, ?_⟩
    · refine List.Pairwise.imp_of_mem ?_ hinv.sorted
      intro a b ha hb hab x y hxa hyb
      obtain ⟨x', hx', hvx, -⟩ := hinv.queue a ha
      obtain ⟨y', hy', hvy, -⟩ := hinv.queue b hb
      rw [hxa] at hx'; rw [hyb] at hy'
      obtain rfl := Option.some.inj hx'
      obtain rfl := Option.some.inj hy'
      rw [if_neg (hne x hvx), if_neg (hne y hvy)]
      exact hab x y hxa hyb
    · intro a ha b hb x y hxa hyb
      rw [List.mem_singleton] at hb
      subst hb
      rw [hfd] at hyb
      obtain rfl := Option.some.inj hyb
      obtain ⟨x', hx', hvx, -, h2⟩ := hinv.queue a ha
      rw [hxa] at hx'
      obtain rfl := Option.some.inj hx'
      rw [if_pos rfl, if_neg (hne x hvx)]
      exact h2
  · intro x hx e' he' hadm'
    by_cases hxd : x = d
    · exact Or.inr (Or.inl ⟨did, by simp, by rw [hxd]; exact hfd⟩)
    · rcases hinv.closed x (hold x hx hxd) e' he' hadm' with ⟨y, hy, hv⟩ | ⟨id, hid, hf⟩ | ⟨hxc, hees⟩
      · exact Or.inl ⟨y, hy, hmono y hv⟩
      · exact Or.inr (Or.inl ⟨id, List.mem_append_left _ hid, hf⟩)
      · rcases List.mem_cons.mp hees with h1 | h1
        · subst h1
          exact Or.inl ⟨d, hde, by rw [hvis, if_pos rfl]⟩
        · exact Or.inr (Or.inr ⟨hxc, h1⟩)

theorem activeAt_of_edge {g : Graph} {e : Nat} {edge : Edge} (h : g.edges[e]? = some edge) :
    g.activeAt e = edge.selected ∧ g.capOf e = edge.capacity ∧ g.getDest e = some edge.dest ∧
      g.getOrig e = some edge.orig := by
  simp [Graph.activeAt, Graph.capOf, Graph.getCapacity, Graph.getDest, Graph.getOrig, h]

theorem visitedAt_of_vertex {g : Graph} {x : Nat} {v : Vertex} (h : g.vertexSet[x]? = some v) :
    g.visitedAt x = v.visited ∧ g.idOf x = some v.id ∧ g.adjOf x = v.adj := by
  simp [Graph.visitedAt, Graph.idOf, Graph.adjOf, h]

/-- The adjacency loop of `Graph::path` keeps the invariant of the breadth-first search;
when it leaves through `return true` the target has been found at the end of a shortest
walk. -/
theorem pathAdj_bfs (target : String) (r0 : Graph) (S : List Nat) (c L : Nat)
    (hw0 : r0.WellLinked) :
    ∀ (es : List Nat) (r r1 : Graph) (q q1 : List String) (lv : Nat → Nat) (found : Bool),
      SameStatic r0 r → r.edges = r0.edges → (∀ e ∈ es, e ∈ r0.adjOf c) →
      r.visitedAt c = true → lv c = L → BfsInv r0 S r q c es L lv →
      (∀ x, r.visitedAt x = true → r0.idOf x = some target → x ∈ S) →
      Graph.pathAdj target es r q = some (found, r1, q1) →
      SameStatic r0 r1 ∧ r1.edges = r0.edges ∧
      (found = false → ∃ lv1, BfsInv r0 S r1 q1 c [] L lv1 ∧
        (∀ x, r1.visitedAt x = true → r0.idOf x = some target → x ∈ S)) ∧
      (found = true → BfsFound r0 S target r1) := by
  intro es
  induction es with
  | nil =>
    intro r r1 q q1 lv found hs hed _ _ _ hinv hfresh h
    simp only [Graph.pathAdj, Option.some.injEq, Prod.mk.injEq] at h
    obtain ⟨rfl, rfl, rfl⟩ := h
    exact ⟨hs, hed, fun _ => ⟨lv, hinv, hfresh⟩, fun h => Bool.noConfusion h⟩
  | cons e es ih =>
    intro r r1 q q1 lv found hs hed hes hc hlc hinv hfresh h
    simp only [Graph.pathAdj, Option.bind_eq_bind, Option.bind_eq_some] at h
    obtain ⟨edge, hedge, d, hd, h⟩ := h
    have hes' : ∀ a ∈ es, a ∈ r0.adjOf c := fun a ha => hes a (List.mem_cons_of_mem _ ha)
    have hec : e ∈ r0.adjOf c := hes e (List.mem_cons_self _ _)
    rw [hed] at hedge
    obtain ⟨hact, hcap, hdest, -⟩ := activeAt_of_edge hedge
    obtain ⟨hvd, hidd, -⟩ := visitedAt_of_vertex hd
    rw [hs.idOf] at hidd
    split at h
    · rename_i hcond
      simp only [Bool.and_eq_true, Bool.not_eq_true', decide_eq_true_eq] at hcond
      obtain ⟨⟨hnv, hpos⟩, hsel⟩ := hcond
      simp only [Option.bind_eq_bind, Option.bind_eq_some] at h
      obtain ⟨ra, hra, h⟩ := h
      have hdv : r.visitedAt edge.dest = false := by rw [hvd]; exact hnv
      have hadm : r0.admits e = true := by
        simp [Graph.admits, hact, hcap, hsel, hpos]
      have hinv1 := bfsInv_discover hw0 hs hinv hc hlc hec hadm hdest hdv hidd hra
      have hsa : SameStatic r0 ra :=
        hs.trans (updateVertex_sameStatic hra (fun _ => ⟨rfl, rfl, rfl⟩))
      have heda : ra.edges = r0.edges := ((updateVertex_rest hra).1).trans hed
      have hcd : c ≠ edge.dest := by
        intro hcd
        rw [hcd, hdv] at hc
        exact Bool.noConfusion hc
      have hvisa : ∀ y, ra.visitedAt y = true → y ≠ edge.dest → r.visitedAt y = true := by
        intro y hy hyd
        rw [visitedAt_updateVertex hra, if_neg hyd] at hy
        exact hy
      split at h
      · rename_i hid
        simp only [Option.some.injEq, Prod.mk.injEq] at h
        obtain ⟨rfl, rfl, rfl⟩ := h
        refine ⟨hsa, heda, fun h => Bool.noConfusion h, fun _ => ?_⟩
        have hvt : ra.visitedAt edge.dest = true := by
          obtain ⟨x, hx, hv, -⟩ := hinv1.queue d.id (by simp)
          have := findVertex_of_idOf hw0 hidd
          rw [this] at hx
          rw [Option.some.inj hx]; exact hv
        obtain ⟨P, hch, -, hend, hadmP, hlen⟩ := hinv1.chain edge.dest hvt
        refine ⟨edge.dest, P, ?_, ?_, hch, hend, hadmP, ?_, fun s hsS => (hinv1.sources s hsS).2⟩
        · rw [← hid]; exact findVertex_of_idOf hw0 hidd
        · intro hmem
          rw [(hinv.sources _ hmem).1] at hdv
          exact Bool.noConfusion hdv
        · intro n hn
          rw [hlen]
          exact hinv1.minimal edge.dest hvt n hn
      · rename_i hid
        refine ih ra r1 (q ++ [d.id]) q1 _ found hsa heda hes' ?_ ?_ hinv1 ?_ h
        · rw [visitedAt_updateVertex hra, if_neg hcd]; exact hc
        · rw [if_neg hcd]; exact hlc
        · intro x hx hxt
          by_cases hxd : x = edge.dest
          · subst hxd
            rw [hidd] at hxt
            exact absurd (Option.some.inj hxt) hid
          · exact hfresh x (hvisa x hx hxd) hxt
    · rename_i hcond
      refine ih r r1 q q1 lv found hs hed hes' hc hlc ?_ hfresh h
      refine ⟨hinv.sources, hinv.chain, hinv.minimal, hinv.queue, hinv.sorted, ?_⟩
      intro x hx e' he' hadm'
      rcases hinv.closed x hx e' he' hadm' with h1 | h1 | ⟨hxc, hees⟩
      · exact Or.inl h1
      · exact Or.inr (Or.inl h1)
      · rcases List.mem_cons.mp hees with h2 | h2
        · subst h2
          refine Or.inl ⟨edge.dest, hdest, ?_⟩
          simp only [Graph.admits, hact, hcap, Bool.and_eq_true, decide_eq_true_eq] at hadm'
          rw [hvd]
          by_contra hnv
          apply hcond
          simp [hadm'.1, hadm'.2, hnv]
        · exact Or.inr (Or.inr ⟨hxc, h2⟩)

/-- The queue loop of `Graph::path` keeps the invariant of the breadth-first search: when it
returns `true` the target has been found at the end of a shortest walk, and when it returns
`false` every vertex that a walk of admitted edges reaches from a source is visited, and no
visited vertex other than a source carries the id of the target. -/
theorem pathLoop_bfs (target : String) (r0 : Graph) (S : List Nat) (hw0 : r0.WellLinked) :
    ∀ (fuel : Nat) (r r1 : Graph) (q : List String) (c L : Nat) (lv : Nat → Nat)
      (found : Bool), SameStatic r0 r → r.edges = r0.edges → BfsInv r0 S r q c [] L lv →
      (∀ x, r.visitedAt x = true → r0.idOf x = some target → x ∈ S) →
      Graph.pathLoop target fuel r q = some (found, r1) →
      (found = true → BfsFound r0 S target r1) ∧
      (found = false → ∀ n x, r0.ReachesIn r0.admits S n x → r0.idOf x = some target → x ∈ S) := by
  intro fuel
  induction fuel with
  | zero => intro r r1 q c L lv found _ _ _ _ h; simp [Graph.pathLoop] at h
  | succ fuel ih =>
    intro r r1 q c L lv found hs hed hinv hfresh h
    cases q with
    | nil =>
      simp only [Graph.pathLoop, Option.some.injEq, Prod.mk.injEq] at h
      obtain ⟨rfl, rfl⟩ := h
      refine ⟨fun h => Bool.noConfusion h, fun _ => ?_⟩
      have hall : ∀ n x, r0.ReachesIn r0.admits S n x → r.visitedAt x = true := by
        intro n x hr
        induction hr with
        | source hsS => exact (hinv.sources _ hsS).1
        | link _ he hu hd ih2 =>
          rcases hinv.closed _ ih2 _ he hu with ⟨y, hy, hv⟩ | ⟨id, hid, -⟩ | ⟨-, hees⟩
          · rw [hd] at hy
            rw [Option.some.inj hy]; exact hv
          · simp at hid
          · simp at hees
      intro n x hr hid
      exact hfresh x (hall n x hr) hid
    | cons front q =>
      simp only [Graph.pathLoop, Option.bind_eq_bind, Option.bind_eq_some] at h
      obtain ⟨cur, hcur, cv, hcv, ⟨fnd, ra, qa⟩, hadj, h⟩ := h
      rw [hs.findVertex] at hcur
      obtain ⟨x, hx, hvx, hL1, hL2⟩ := hinv.queue front (List.mem_cons_self _ _)
      rw [hcur] at hx
      obtain rfl := Option.some.inj hx
      obtain ⟨-, -, hadjc⟩ := visitedAt_of_vertex hcv
      rw [hs.adjOf] at hadjc
      have hsorted := List.pairwise_cons.mp hinv.sorted
      have hinv1 : BfsInv r0 S r q cur (r0.adjOf cur) (lv cur) lv := by
        refine ⟨hinv.sources, hinv.chain, hinv.minimal, ?_, hsorted.2, ?_⟩
        · intro id hid
          obtain ⟨y, hy, hvy, h1, h2⟩ := hinv.queue id (List.mem_cons_of_mem _ hid)
          exact ⟨y, hy, hvy, hsorted.1 id hid cur y hcur hy, by omega⟩
        · intro y hy e he hadm
          rcases hinv.closed y hy e he hadm with h1 | ⟨id, hid, hf⟩ | ⟨-, hees⟩
          · exact Or.inl h1
          · rcases List.mem_cons.mp hid with h2 | h2
            · subst h2
              rw [hcur] at hf
              obtain rfl := Option.some.inj hf
              exact Or.inr (Or.inr ⟨rfl, he⟩)
            · exact Or.inr (Or.inl ⟨id, h2, hf⟩)
          · simp at hees
      obtain ⟨hsa, heda, hfalse, htrue⟩ := pathAdj_bfs target r0 S cur (lv cur) hw0 cv.adj r ra q qa
        lv fnd hs hed (fun e he => by rw [hadjc]; exact he) hvx rfl (by rw [← hadjc]; exact hinv1)
        hfresh hadj
      cases fnd with
      | true =>
        simp only [if_true, Option.some.injEq, Prod.mk.injEq] at h
        obtain ⟨rfl, rfl⟩ := h
        exact ⟨fun _ => htrue rfl, fun h => Bool.noConfusion h⟩
      | false =>
        simp only [Bool.false_eq_true, if_false] at h
        obtain ⟨lv1, hinv2, hfresh2⟩ := hfalse rfl
        exact ih ra r1 qa cur (lv cur) lv1 found hsa heda hinv2 hfresh2 h

theorem pushSources_sources : ∀ (src : List String) (a b : Graph) (q q1 : List String),
    Graph.pushSources src a q = some (b, q1) → (∀ id, a.idToVertex.lookup id = b.idToVertex.lookup id) ∧
      ∀ s ∈ src, ∃ x, a.findVertex s = some x := by
  intro src
  induction src with
  | nil =>
    intro a b q q1 h
    simp only [Graph.pushSources, Option.some.injEq, Prod.mk.injEq] at h
    obtain ⟨rfl, -⟩ := h
    exact ⟨fun _ => rfl, fun s hs => by simp at hs⟩
  | cons s rest ih =>
    intro a b q q1 h
    simp only [Graph.pushSources, Option.bind_eq_bind, Option.bind_eq_some] at h
    obtain ⟨v, hv, a1, ha1, h⟩ := h
    obtain ⟨h1, h2⟩ := ih _ _ _ _ h
    have hid : a1.idToVertex = a.idToVertex := (updateVertex_rest ha1).2.1
    refine ⟨fun id => by rw [← h1, hid], ?_⟩
    intro t ht
    rcases List.mem_cons.mp ht with rfl | ht
    · exact ⟨v, hv⟩
    · obtain ⟨x, hx⟩ := h2 t ht
      exact ⟨x, by unfold Graph.findVertex at hx ⊢; rw [← hid]; exact hx⟩

/-- The search `Graph::path` is a breadth-first search: when it returns `true` the target
has been found at the end of a shortest walk of admitted edges from a source, and when it
returns `false` no walk of admitted edges leads from a source to a vertex with the id of
the target, unless that vertex is itself a source. -/
theorem path_bfs {r r1 : Graph} {source : List String} {target : String} {found : Bool}
    (hw : r.WellLinked) (h : r.path source target = some (found, r1)) :
    (found = true → BfsFound r (source.filterMap r.findVertex) target r1) ∧
    (found = false → ∀ n x, r.ReachesIn r.admits (source.filterMap r.findVertex) n x →
      r.idOf x = some target → x ∈ source.filterMap r.findVertex) := by
  simp only [Graph.path, Option.bind_eq_bind, Option.bind_eq_some] at h
  obtain ⟨⟨ra, q⟩, hpush, h⟩ := h
  obtain ⟨hs0, hed0, hvis0, hpath0⟩ := resetSearch_spec r
  obtain ⟨hq, hs1, hed1, hpath1, hvis1⟩ := pushSources_spec _ _ _ _ _ hpush
  obtain ⟨-, hsrc⟩ := pushSources_sources _ _ _ _ _ hpush
  simp only [List.nil_append] at hq
  rw [hq] at hpush h
  have hfv : ∀ t, r.resetSearch.findVertex t = r.findVertex t := hs0.findVertex
  have hmemS : ∀ x, x ∈ source.filterMap r.findVertex ↔ ∃ s ∈ source, r.findVertex s = some x := by
    intro x; simp [List.mem_filterMap]
  have hvisS : ∀ x, ra.visitedAt x = true ↔ x ∈ source.filterMap r.findVertex := by
    intro x
    rw [hvis1, hmemS]
    simp only [hvis0, Bool.false_eq_true, false_or, hfv]
  have hsa : SameStatic r ra := hs0.trans hs1
  have heda : ra.edges = r.edges := hed1.trans hed0
  have hp0 : ∀ x, ra.visitedAt x = true → ra.pathOf x = some none := by
    intro x hx
    rw [hpath1]
    apply hpath0
    rw [← hsa.vertexSet_length]; exact visitedAt_lt hx
  have hinv : BfsInv r (source.filterMap r.findVertex) ra source 0 [] 0 (fun _ => 0) := by
    refine ⟨?_, ?_, ?_, ?_, ?_, ?_⟩
    · intro s hsS
      exact ⟨(hvisS s).mpr hsS, hp0 s ((hvisS s).mpr hsS)⟩
    · intro x hx
      refine ⟨[], ?_, ?_, ?_, ?_, rfl⟩
      · simp only [Graph.IsChain]; exact hp0 x hx
      · intro y hy
        simp only [chainVertices, List.map_nil, List.mem_singleton] at hy
        rw [hy]; exact hx
      · simp only [chainEnd]; exact (hvisS x).mp hx
      · intro p hp; simp at hp
    · intro x _ n _; exact Nat.zero_le _
    · intro id hid
      obtain ⟨x, hx⟩ := hsrc id hid
      rw [hfv] at hx
      exact ⟨x, hx, (hvisS x).mpr ((hmemS x).mpr ⟨id, hid, hx⟩), le_refl _, by omega⟩
    · exact List.pairwise_of_forall (fun _ _ _ _ _ _ => le_refl _)
    · intro x hx e _ _
      obtain ⟨s, hs, hsx⟩ := (hmemS x).mp ((hvisS x).mp hx)
      exact Or.inr (Or.inl ⟨s, hs, hsx⟩)
  exact pathLoop_bfs target r _ hw _ ra r1 source 0 0 _ found hsa heda hinv
    (fun x hx _ => (hvisS x).mp hx) h
/-! ## Predecessor chains are determined by the state of the search -/

theorem isChain_unique {r : Graph} : ∀ (P Q : List (Nat × Nat)) (x : Nat),
    r.IsChain x P → r.IsChain x Q → P = Q := by
  intro P
  induction P with
  | nil =>
    intro Q x hp hq
    cases Q with
    | nil => rfl
    | cons b Q =>
      simp only [Graph.IsChain] at hp hq
      rw [hp] at hq
      exact absurd hq.1 (by simp)
  | cons a P ih =>
    intro Q x hp hq
    cases Q with
    | nil =>
      simp only [Graph.IsChain] at hp hq
      rw [hq] at hp
      exact absurd hp.1 (by simp)
    | cons b Q =>
      simp only [Graph.IsChain] at hp hq
      obtain ⟨h1, h2, h3, h4⟩ := hp
      obtain ⟨k1, k2, k3, k4⟩ := hq
      rw [h1] at k1
      have e1 : a.1 = b.1 := by
        have := Option.some.inj k1
        exact Option.some.inj this
      rw [← e1, h3] at k3
      have e2 : a.2 = b.2 := Option.some.inj k3
      have eab : a = b := Prod.ext e1 e2
      subst eab
      rw [ih Q a.2 h4 k4]

theorem isChain_end {r : Graph} : ∀ (P : List (Nat × Nat)) (x : Nat),
    r.IsChain x P → r.pathOf (chainEnd x P) = some none := by
  intro P
  induction P with
  | nil => intro x h; simpa [Graph.IsChain, chainEnd] using h
  | cons p rest ih =>
    intro x h
    simp only [Graph.IsChain] at h
    simpa [chainEnd] using ih p.2 h.2.2.2

/-- The search `Graph::path` returns `true` only for a target that is not among the
sources. -/
theorem path_true_not_source {r r1 : Graph} {source : List String} {target : String}
    (hw : r.WellLinked) (h : r.path source target = some (true, r1)) : target ∉ source := by
  obtain ⟨tv, P, htv, hns, -⟩ := (path_bfs hw h).1 rfl
  intro hmem
  apply hns
  exact List.mem_filterMap.mpr ⟨target, hmem, htv⟩
/-! ## The exact effect of an augmentation, with the unsigned arithmetic of the code -/

/-- One pass of the loop of `augmentPath` on a paired network writes the flows of the
regular edge and of its reverse and the capacities of the residual edge and of its reverse
as `linkAfter` computes them, and nothing else. -/
theorem augmentEdge_exact {g r g1 r1 : Graph} {i value : Nat} (hp : Paired g r)
    (hi : i < g.edges.length) (h : augmentEdge i value g r = some (g1, r1)) :
    SameStatic g g1 ∧ g1.vertexSet = g.vertexSet ∧ SameStatic r r1 ∧
    r1.vertexSet = r.vertexSet ∧ (∀ k, g1.capOf k = g.capOf k) ∧
    ∃ j, g.getReverse i = some j ∧ j ≠ i ∧ j < g.edges.length ∧
      (∀ k, g1.flowOf k =
        if k = i then (linkAfter (g.capOf i) (g.flowOf i) (g.flowOf j) (r.capOf j) value).1
        else if k = j then
          (linkAfter (g.capOf i) (g.flowOf i) (g.flowOf j) (r.capOf j) value).2.1
        else g.flowOf k) ∧
      (∀ k, r1.capOf k =
        if k = i then (linkAfter (g.capOf i) (g.flowOf i) (g.flowOf j) (r.capOf j) value).2.2.1
        else if k = j then
          (linkAfter (g.capOf i) (g.flowOf i) (g.flowOf j) (r.capOf j) value).2.2.2
        else r.capOf k) := by
  obtain ⟨j, hj, hji, hgr, -, hrr, hrc, -⟩ := hp.reverse hi
  simp only [augmentEdge, Option.bind_eq_bind, Option.bind_eq_some, hrr, hrc, hgr,
    Option.some.injEq, exists_eq_left'] at h
  obtain ⟨f, hf, c, hc, h⟩ := h
  have ef := getFlow_eq_some_flowOf hf
  have ec := getCapacity_eq_some_capOf hc
  subst ef ec
  have hij : i ≠ j := Ne.symm hji
  split at h
  · rename_i hgt
    obtain ⟨hs1, hv1, hs2, hv2, hcp, hfl, hrc1⟩ := augmentExceeds_spec hij h
    refine ⟨hs1, hv1, hs2, hv2, hcp, j, hgr, hji, hj, ?_, ?_⟩
    · intro k
      rw [hfl]
      simp only [linkAfter, if_pos hgt]
      by_cases hki : k = i
      · subst hki; rw [if_neg hij, if_pos rfl, if_pos rfl]
      · rw [if_neg hki, if_neg hki]
    · intro k
      rw [hrc1]
      simp only [linkAfter, if_pos hgt]
      by_cases hki : k = i
      · subst hki; rw [if_neg hij, if_pos rfl, if_pos rfl]
      · rw [if_neg hki, if_neg hki]
  · rename_i hle
    obtain ⟨hs1, hv1, hs2, hv2, hcp, hfl, hrc1⟩ := augmentWithin_spec hij h
    refine ⟨hs1, hv1, hs2, hv2, hcp, j, hgr, hji, hj, ?_, ?_⟩
    · intro k
      rw [hfl]
      simp only [linkAfter, if_neg hle]
      by_cases hki : k = i
      · subst hki; rw [if_pos rfl, if_pos rfl]
      · rw [if_neg hki, if_neg hki]
        by_cases hkj : k = j
        · rw [if_pos hkj, hkj]
        · rw [if_neg hkj]
    · intro k
      rw [hrc1]
      simp only [linkAfter, if_neg hle]
      by_cases hki : k = i
      · subst hki; rw [if_neg hij, if_pos rfl, if_pos rfl]
      · by_cases hkj : k = j
        · simp only [if_pos hkj, if_neg hki]
        · simp only [if_neg hkj, if_neg hki]

/-- The edges further down a predecessor chain without repeated vertex are neither the
first edge of the chain nor its reverse, and their reverses are not either. -/
theorem chain_links_disjoint {g r : Graph} (hp : Paired g r) {x : Nat} {p : Nat × Nat}
    {rest : List (Nat × Nat)} (hch : r.IsChain x (p :: rest))
    (hnd : (chainVertices x (p :: rest)).Nodup) (hpi : p.1 < g.edges.length) {j : Nat}
    (hrev : g.getReverse p.1 = some j) :
    ∀ q ∈ rest, q.1 ≠ p.1 ∧ q.1 ≠ j ∧ g.getReverse q.1 ≠ some p.1 ∧
      g.getReverse q.1 ≠ some j := by
  simp only [Graph.IsChain] at hch
  obtain ⟨-, hd, ho, hrest⟩ := hch
  have hxnot : x ∉ chainVertices p.2 rest := by
    simp only [chainVertices, List.map_cons, List.nodup_cons] at hnd ⊢
    exact hnd.1
  obtain ⟨-, -, j2, hj2, -, hr2, hr2b, hoj, -⟩ := hp.1.1 p.1 hpi
  have hjj : j2 = j := by rw [hrev] at hr2; exact (Option.some.inj hr2).symm
  subst hjj
  obtain ⟨-, -, hgo, hgd, -⟩ := hp.2.2.2.2.1 p.1 hpi
  obtain ⟨-, -, hgoj, -, -⟩ := hp.2.2.2.2.1 j2 hj2
  intro q hq
  obtain ⟨z, hz, hdz⟩ := IsChain.dest_mem rest p.2 hrest q hq
  have h1 : q.1 ≠ p.1 := by
    intro hqp
    rw [hqp, hd] at hdz
    obtain rfl := Option.some.inj hdz
    exact hxnot hz
  have hqo : ∃ z ∈ chainVertices p.2 rest, r.getOrig q.1 = some z := by
    clear hdz hz z h1
    have : ∀ (P : List (Nat × Nat)) (y : Nat), r.IsChain y P → ∀ q ∈ P,
        ∃ z ∈ chainVertices y P, r.getOrig q.1 = some z := by
      intro P
      induction P with
      | nil => intro y _ q hq; simp at hq
      | cons a P ih =>
        intro y hc q hq
        simp only [Graph.IsChain] at hc
        obtain ⟨-, -, hoa, hra⟩ := hc
        rcases List.mem_cons.mp hq with hq | hq
        · subst hq
          refine ⟨q.2, ?_, hoa⟩
          cases P <;> simp [chainVertices]
        · obtain ⟨z, hz, hzo⟩ := ih a.2 hra q hq
          refine ⟨z, ?_, hzo⟩
          simp only [chainVertices, List.map_cons, List.mem_cons] at hz ⊢
          rcases hz with hz | hz
          · exact Or.inr (Or.inl hz)
          · exact Or.inr (Or.inr hz)
    exact this rest p.2 hrest q hq
  have h2 : q.1 ≠ j2 := by
    intro hqj
    obtain ⟨z, hz, hzo⟩ := hqo
    rw [hqj, ← hgoj, hoj, hgd, hd] at hzo
    obtain rfl := Option.some.inj hzo
    exact hxnot hz
  refine ⟨h1, h2, ?_, ?_⟩
  · intro h3
    have hql : q.1 < g.edges.length := by
      by_contra hge
      have : g.edges[q.1]? = none := List.getElem?_eq_none (by omega)
      simp [Graph.getReverse, this] at h3
    obtain ⟨-, -, j3, -, -, hr3, hr3b, -, -⟩ := hp.1.1 q.1 hql
    rw [h3] at hr3
    obtain rfl := Option.some.inj hr3
    rw [hrev] at hr3b
    exact h2 (Option.some.inj hr3b).symm
  · intro h3
    have hql : q.1 < g.edges.length := by
      by_contra hge
      have : g.edges[q.1]? = none := List.getElem?_eq_none (by omega)
      simp [Graph.getReverse, this] at h3
    obtain ⟨-, -, j3, -, -, hr3, hr3b, -, -⟩ := hp.1.1 q.1 hql
    rw [h3] at hr3
    obtain rfl := Option.some.inj hr3
    rw [hr2b] at hr3b
    exact h1 (Option.some.inj hr3b).symm

/-- The loop of `augmentPath` along a predecessor chain of a paired network leaves within
one iteration more than the chain has edges, whatever the amount. -/
theorem augmentPathLoop_returns (value : Nat) :
    ∀ (P : List (Nat × Nat)) (x fuel : Nat) (g r : Graph),
      Paired g r → r.IsChain x P → (∀ p ∈ P, p.1 < g.edges.length) → P.length + 1 ≤ fuel →
      ∃ g1 r1, augmentPathLoop value fuel x g r = some (true, g1, r1) := by
  intro P
  induction P with
  | nil =>
    intro x fuel g r _ hch _ hf
    cases fuel with
    | zero => simp at hf
    | succ fuel =>
      simp only [Graph.IsChain, Graph.pathOf, Option.map_eq_some'] at hch
      obtain ⟨cv, hcv, hpth⟩ := hch
      exact ⟨g, r, by simp [augmentPathLoop, hcv, hpth]⟩
  | cons p rest ih =>
    intro x fuel g r hp hch hval hf
    cases fuel with
    | zero => simp at hf
    | succ fuel =>
      simp only [Graph.IsChain, Graph.pathOf, Option.map_eq_some'] at hch
      obtain ⟨⟨cv, hcv, hpth⟩, hd, ho, hrest⟩ := hch
      have hpi := hval p (List.mem_cons_self _ _)
      obtain ⟨ga, ra, haug⟩ := augmentEdge_total hp value hpi
      obtain ⟨hs1, hv1, hs2, hv2, -, -⟩ := augmentEdge_exact hp hpi haug
      have hchain1 : ra.IsChain p.2 rest := by
        apply IsChain.frame hs2.getOrig hs2.getDest rest p.2 hrest
        intro y _
        simp [Graph.pathOf, hv2]
      obtain ⟨g1, r1, hrun⟩ := ih p.2 fuel ga ra (hp.sameStatic hs1 hs2) hchain1
        (fun q hq => by rw [hs1.edges_length]; exact hval q (List.mem_cons_of_mem _ hq))
        (by simp only [List.length_cons] at hf; omega)
      refine ⟨g1, r1, ?_⟩
      have hcv1 : ra.vertexSet[x]? = some cv := by rw [hv2]; exact hcv
      have hnext : ra.getOrig p.1 = some p.2 := by rw [hs2.getOrig]; exact ho
      simp only [augmentPathLoop, Option.bind_eq_bind, hcv, Option.some_bind, hpth, haug, hcv1,
        hnext]
      exact hrun

/-- The loop of `augmentPath` along a predecessor chain without repeated vertex of a paired
network: every link of the chain is written once, as `linkAfter` computes it from the state
before the loop, and the other edges keep their flow and their residual capacity. -/
theorem augmentPathLoop_links (value : Nat) :
    ∀ (P : List (Nat × Nat)) (x fuel : Nat) (g r g1 r1 : Graph),
      Paired g r → r.IsChain x P → (chainVertices x P).Nodup →
      (∀ p ∈ P, p.1 < g.edges.length) →
      augmentPathLoop value fuel x g r = some (true, g1, r1) →
      SameStatic g g1 ∧ g1.vertexSet = g.vertexSet ∧ SameStatic r r1 ∧
      r1.vertexSet = r.vertexSet ∧ (∀ k, g1.capOf k = g.capOf k) ∧
      (∀ k, (∀ p ∈ P, k ≠ p.1 ∧ g.getReverse p.1 ≠ some k) →
        g1.flowOf k = g.flowOf k ∧ r1.capOf k = r.capOf k) ∧
      (∀ p ∈ P, ∀ j, g.getReverse p.1 = some j →
        (g1.flowOf p.1, g1.flowOf j, r1.capOf p.1, r1.capOf j)
          = linkAfter (g.capOf p.1) (g.flowOf p.1) (g.flowOf j) (r.capOf j) value) := by
  intro P
  induction P with
  | nil =>
    intro x fuel g r g1 r1 hp hch hnd hval h
    cases fuel with
    | zero => simp [augmentPathLoop] at h
    | succ fuel =>
      simp only [Graph.IsChain, Graph.pathOf, Option.map_eq_some'] at hch
      obtain ⟨cv, hcv, hpth⟩ := hch
      simp only [augmentPathLoop, Option.bind_eq_bind, hcv, Option.some_bind, hpth,
        Option.some.injEq, Prod.mk.injEq, true_and] at h
      obtain ⟨rfl, rfl⟩ := h
      exact ⟨SameStatic.refl _, rfl, SameStatic.refl _, rfl, fun _ => rfl,
        fun _ _ => ⟨rfl, rfl⟩, fun p hp => by simp at hp⟩
  | cons p rest ih =>
    intro x fuel g r g1 r1 hp hch hnd hval h
    cases fuel with
    | zero => simp [augmentPathLoop] at h
    | succ fuel =>
      have hch0 := hch
      simp only [Graph.IsChain, Graph.pathOf, Option.map_eq_some'] at hch
      obtain ⟨⟨cv, hcv, hpth⟩, hd, ho, hrest⟩ := hch
      simp only [augmentPathLoop, Option.bind_eq_bind, hcv, Option.some_bind, hpth,
        Option.bind_eq_some] at h
      obtain ⟨⟨ga, ra⟩, haug, cv1, hcv1, e1, he1, nxt, hnxt, h⟩ := h
      have hpi := hval p (List.mem_cons_self _ _)
      obtain ⟨hs1, hv1, hs2, hv2, hcp, j, hrev, hji, hj, hfl, hrc⟩ :=
        augmentEdge_exact hp hpi haug
      rw [hv2, hcv] at hcv1
      have : cv1 = cv := (Option.some.inj hcv1).symm
      subst this
      rw [hpth] at he1
      have : e1 = p.1 := (Option.some.inj he1).symm
      subst this
      rw [hs2.getOrig, ho] at hnxt
      have : nxt = p.2 := (Option.some.inj hnxt).symm
      subst this
      have hchain1 : ra.IsChain p.2 rest := by
        apply IsChain.frame hs2.getOrig hs2.getDest rest p.2 hrest
        intro y _
        simp [Graph.pathOf, hv2]
      have hnd1 : (chainVertices p.2 rest).Nodup := by
        simp only [chainVertices, List.map_cons, List.nodup_cons] at hnd ⊢
        exact hnd.2
      have hval1 : ∀ q ∈ rest, q.1 < ga.edges.length := fun q hq => by
        rw [hs1.edges_length]; exact hval q (List.mem_cons_of_mem _ hq)
      obtain ⟨hs3, hv3, hs4, hv4, hcp2, hframe, hlinks⟩ :=
        ih p.2 fuel ga ra g1 r1 (hp.sameStatic hs1 hs2) hchain1 hnd1 hval1 h
      have hdis := chain_links_disjoint hp hch0 hnd hpi hrev
      refine ⟨hs1.trans hs3, hv3.trans hv1, hs2.trans hs4, hv4.trans hv2,
        fun k => (hcp2 k).trans (hcp k), ?_, ?_⟩
      · intro k hk
        obtain ⟨hk1, hk2⟩ := hk p (List.mem_cons_self _ _)
        have hkj : k ≠ j := fun e => hk2 (by rw [hrev, e])
        obtain ⟨f1, f2⟩ := hframe k (fun q hq => by
          obtain ⟨a, b⟩ := hk q (List.mem_cons_of_mem _ hq)
          exact ⟨a, by rw [hs1.getReverse]; exact b⟩)
        rw [f1, f2, hfl, hrc, if_neg hk1, if_neg hkj, if_neg hk1, if_neg hkj]
        exact ⟨rfl, rfl⟩
      · intro q hq j' hj'
        rcases List.mem_cons.mp hq with hq | hq
        · subst hq
          rw [hrev] at hj'
          obtain rfl := Option.some.inj hj'
          have hunt : ∀ k, (k = q.1 ∨ k = j) → g1.flowOf k = ga.flowOf k ∧
              r1.capOf k = ra.capOf k := by
            intro k hk
            apply hframe
            intro a ha
            obtain ⟨d1, d2, d3, d4⟩ := hdis a ha
            rw [hs1.getReverse]
            rcases hk with rfl | rfl
            · exact ⟨Ne.symm d1, d3⟩
            · exact ⟨Ne.symm d2, d4⟩
          rw [(hunt q.1 (Or.inl rfl)).1, (hunt j (Or.inr rfl)).1, (hunt q.1 (Or.inl rfl)).2,
            (hunt j (Or.inr rfl)).2, hfl, hfl, hrc, hrc, if_pos rfl, if_neg hji, if_pos rfl,
            if_pos rfl, if_neg hji, if_pos rfl]
        · obtain ⟨d1, d2, d3, d4⟩ := hdis q hq
          have hj2 : ga.getReverse q.1 = some j' := by rw [hs1.getReverse]; exact hj'
          have hqj' : j' ≠ p.1 := fun e => d3 (by rw [hj', e])
          have hqj'' : j' ≠ j := fun e => d4 (by rw [hj', e])
          rw [hlinks q hq j' hj2, hcp, hfl, hfl, hrc, if_neg d1, if_neg d2, if_neg hqj',
            if_neg hqj'', if_neg hqj', if_neg hqj'']
/-! ## The values `linkAfter` computes when no unsigned operation wraps around -/

theorem linkAfter_within {cap flow revFlow revRcap v : Nat} (h1 : flow + v ≤ cap)
    (h2 : cap < 4294967296) (h3 : revRcap + v < 4294967296) :
    linkAfter cap flow revFlow revRcap v = (flow + v, revFlow, cap - (flow + v), revRcap + v) := by
  have e1 : uadd flow v = flow + v := uadd_of_lt (by omega)
  have e2 : usub cap (flow + v) = cap - (flow + v) := usub_of_le h1 h2
  have e3 : uadd revRcap v = revRcap + v := uadd_of_lt h3
  simp only [linkAfter, e1, e2, e3]
  rw [if_neg (by omega)]

theorem linkAfter_exceeds {cap flow revFlow revRcap v : Nat} (h1 : cap < flow + v)
    (h2 : flow + v < 4294967296) (h3 : flow + v - cap ≤ revFlow) (h4 : revFlow < 4294967296)
    (h5 : revRcap + (flow + v - cap) < 4294967296) :
    linkAfter cap flow revFlow revRcap v
      = (cap, revFlow - (flow + v - cap), 0, revRcap + (flow + v - cap)) := by
  have e1 : uadd flow v = flow + v := uadd_of_lt h2
  have e2 : usub (flow + v) cap = flow + v - cap := usub_of_le (by omega) h2
  have e3 : usub revFlow (flow + v - cap) = revFlow - (flow + v - cap) := usub_of_le h3 h4
  have e4 : uadd revRcap (flow + v - cap) = revRcap + (flow + v - cap) := uadd_of_lt h5
  simp only [linkAfter, e1, e2, e3, e4]
  rw [if_pos (by omega)]
/-! ## Termination of `edmondsKarp` for every capacity -/

theorem isChain_pred {r : Graph} : ∀ (P : List (Nat × Nat)) (x : Nat), r.IsChain x P →
    ∀ q ∈ P, ∃ z, r.pathOf z = some (some q.1) ∧ r.getDest q.1 = some z ∧
      r.getOrig q.1 = some q.2 := by
  intro P
  induction P with
  | nil => intro x _ q hq; simp at hq
  | cons p rest ih =>
    intro x hch q hq
    simp only [Graph.IsChain] at hch
    obtain ⟨h1, h2, h3, h4⟩ := hch
    rcases List.mem_cons.mp hq with hq | hq
    · subst hq; exact ⟨x, h1, h2, h3⟩
    · exact ih p.2 h4 q hq

theorem isChain_source_pair {r : Graph} : ∀ (P : List (Nat × Nat)) (x : Nat), r.IsChain x P →
    ∀ q ∈ P, r.pathOf q.2 = some none → q.2 = chainEnd x P := by
  intro P
  induction P with
  | nil => intro x _ q hq; simp at hq
  | cons p rest ih =>
    intro x hch q hq hnone
    simp only [Graph.IsChain] at hch
    obtain ⟨-, -, -, h4⟩ := hch
    rcases List.mem_cons.mp hq with hq | hq
    · subst hq
      cases rest with
      | nil => rfl
      | cons a rest =>
        simp only [Graph.IsChain] at h4
        rw [hnone] at h4
        exact absurd h4.1 (by simp)
    · exact ih p.2 h4 q hq hnone

theorem isChain_last {r : Graph} : ∀ (P : List (Nat × Nat)) (x : Nat), r.IsChain x P →
    P ≠ [] → ∃ q ∈ P, q.2 = chainEnd x P := by
  intro P
  induction P with
  | nil => intro x _ h; exact absurd rfl h
  | cons p rest ih =>
    intro x hch _
    simp only [Graph.IsChain] at hch
    cases hrest : rest with
    | nil => exact ⟨p, by simp, rfl⟩
    | cons a rest2 =>
      obtain ⟨q, hq, hqe⟩ := ih p.2 hch.2.2.2 (by rw [hrest]; simp)
      rw [hrest] at hq hqe
      exact ⟨q, List.mem_cons_of_mem _ hq, hqe⟩

theorem chain_pair_eq {x : Nat} {P : List (Nat × Nat)} (hnd : (chainVertices x P).Nodup)
    {q q2 : Nat × Nat} (hq : q ∈ P) (hq2 : q2 ∈ P) (h : q.2 = q2.2) : q = q2 := by
  have h1 : (P.map (fun p => p.2)).Nodup := by
    simp only [chainVertices, List.nodup_cons] at hnd
    exact hnd.2
  exact List.inj_on_of_nodup_map h1 hq hq2 h

theorem sum_range_one_change (f f2 : Nat → Nat) (b i : Nat) : ∀ (n : Nat), i < n →
    (∀ k, k < n → k ≠ i → f2 k = f k) → f2 i + b = f i →
    ((List.range n).map f2).sum + b = ((List.range n).map f).sum := by
  intro n
  induction n with
  | zero => intro hi; omega
  | succ n ih =>
    intro hi hk hb
    rw [List.range_succ, List.map_append, List.map_append, List.sum_append, List.sum_append]
    simp only [List.map_cons, List.map_nil, List.sum_cons, List.sum_nil, Nat.add_zero]
    by_cases h : i = n
    · subst h
      have : (List.range i).map f2 = (List.range i).map f := by
        apply List.map_congr_left
        intro x hx
        have := List.mem_range.mp hx
        exact hk x (by omega) (by omega)
      rw [this]; omega
    · have h1 := ih (by omega) (fun k hkn hki => hk k (by omega) hki) hb
      have h2 := hk n (by omega) (fun e => h e.symm)
      omega

theorem leavesSource_iff {r : Graph} {source : List String} {e : Nat} :
    r.leavesSource source e = true ↔
      ∃ u, r.getOrig e = some u ∧ u ∈ source.filterMap r.findVertex := by
  unfold Graph.leavesSource
  cases h : r.getOrig e with
  | none => simp
  | some u => simp

theorem leavesSource_sameStatic {r r1 : Graph} (hs : SameStatic r r1) (source : List String)
    (e : Nat) : r1.leavesSource source e = r.leavesSource source e := by
  have hf : r1.findVertex = r.findVertex := funext hs.findVertex
  unfold Graph.leavesSource
  rw [hs.getOrig, hf]

theorem linkAfter_first {cap flow revFlow revRcap v : Nat} (h1 : flow + v ≤ cap)
    (h2 : cap < 4294967296) :
    (linkAfter cap flow revFlow revRcap v).1 = flow + v ∧
    (linkAfter cap flow revFlow revRcap v).2.2.1 = cap - (flow + v) := by
  have e1 : uadd flow v = flow + v := uadd_of_lt (by omega)
  have e2 : usub cap (flow + v) = cap - (flow + v) := usub_of_le h1 h2
  simp only [linkAfter, e1, e2]
  rw [if_neg (by omega)]
  exact ⟨rfl, rfl⟩

/-- One pass of the loop of `edmondsKarp` after a successful search, on a paired network
with capacities of any size: the bottleneck is at least 1 and at most the capacity of an
active edge that leaves a source, the augmentation returns, and the total residual capacity
of the active edges that leave the sources falls by the bottleneck. -/
theorem edmondsKarp_round_any {source : List String} {target : String} {g r ra : Graph}
    (hp : Paired g r) (hcap : g.CapacityBelow 4294967296) (hinv : SourceInv g r source)
    (hpath : r.path source target = some (true, ra)) :
    ∃ b g2 r2, ra.findBottleneck target = some b ∧ 1 ≤ b ∧
      ra.augmentPath target b g = some (g2, r2) ∧ Paired g2 r2 ∧
      g2.CapacityBelow 4294967296 ∧ SourceInv g2 r2 source ∧
      r2.sourceResidual source + b = r.sourceResidual source ∧
      SameStatic g g2 ∧ SameStatic r r2 ∧ (∀ k, g2.capOf k = g.capOf k) ∧
      (∀ k, r2.activeAt k = r.activeAt k) ∧
      ∃ e0, e0 < g.edges.length ∧ r.leavesSource source e0 = true ∧ r.activeAt e0 = true ∧
        b ≤ g.capOf e0 := by
  obtain ⟨hs, hed, hfound⟩ := path_spec hp.2.1 hpath
  obtain ⟨tv, P, htv, hch, hnd, -, hedg⟩ := hfound rfl
  obtain ⟨tv2, Q, htv2, hns, hch2, hend, hadm, -, hnone⟩ := (path_bfs hp.2.1 hpath).1 rfl
  rw [hs.findVertex, htv2] at htv
  obtain rfl := Option.some.inj htv
  obtain rfl := isChain_unique P Q tv2 hch hch2
  have hpb : Paired g ra := hp.sameStatic (SameStatic.refl g) hs
  have hlen : g.edges.length = r.edges.length := hp.2.2.2.1
  have hPne : P ≠ [] := by
    intro hnil
    rw [hnil] at hend
    exact hns hend
  obtain ⟨b, hbl, hb1⟩ := findBottleneckLoop_total ra P tv2 (ra.vertexSet.length + 1) UINT32_MAX
    hch hedg (by have := IsChain.length_lt hch hnd; omega) (by decide)
  obtain ⟨-, hbv⟩ := findBottleneckLoop_spec ra P tv2 _ _ _ hch hbl
  have hval : ∀ p ∈ P, p.1 < g.edges.length := by
    intro p hpP
    rw [hpb.2.2.2.1]; exact (hedg p hpP).1
  obtain ⟨g2, r2, hloop⟩ := augmentPathLoop_returns b P tv2 (ra.vertexSet.length + 1) g ra hpb hch
    hval (by have := IsChain.length_lt hch hnd; omega)
  obtain ⟨hs1, -, hs2, -, hcp, hframe, hlinks⟩ :=
    augmentPathLoop_links b P tv2 _ g ra g2 r2 hpb hch hnd hval hloop
  obtain ⟨-, hfr2⟩ := augmentPathLoop_frame _ _ _ _ _ _ _ _ hloop
  have hact2 : ∀ k, r2.activeAt k = r.activeAt k := by
    intro k
    rw [activeAt_eq_of_noCapacity hfr2.2.2.2 k]
    simp [Graph.activeAt, hed]
  have hcapra : ∀ k, ra.capOf k = r.capOf k := fun k => by
    simp [Graph.capOf, Graph.getCapacity, hed]
  obtain ⟨q0, hq0, hq0e⟩ := isChain_last P tv2 hch hPne
  have hq0S : q0.2 ∈ source.filterMap r.findVertex := by rw [hq0e]; exact hend
  obtain ⟨z0, -, -, ho0⟩ := isChain_pred P tv2 hch q0 hq0
  rw [hs.getOrig] at ho0
  have he0 := hval q0 hq0
  have hls0 : r.leavesSource source q0.1 = true := leavesSource_iff.mpr ⟨q0.2, ho0, hq0S⟩
  have hadm0 := (hadm q0 hq0).2
  simp only [Graph.admits, Bool.and_eq_true, decide_eq_true_eq] at hadm0
  have hinv0 := hinv q0.1 he0 hls0
  have hb0 : b ≤ r.capOf q0.1 := by rw [← hcapra]; exact hbv q0 hq0
  have hcapB := (capacityBelow_iff g _).mp hcap
  obtain ⟨j0, -, -, hgr0, -⟩ := hpb.reverse he0
  have hl0 := hlinks q0 hq0 j0 hgr0
  obtain ⟨hf0, hr0⟩ := @linkAfter_first (g.capOf q0.1) (g.flowOf q0.1) (g.flowOf j0)
    (ra.capOf j0) b (by omega) (hcapB q0.1 he0)
  have hflow0 : g2.flowOf q0.1 = g.flowOf q0.1 + b := by
    rw [← hf0]; exact congrArg (fun t => t.1) hl0
  have hrcap0 : r2.capOf q0.1 = g.capOf q0.1 - (g.flowOf q0.1 + b) := by
    rw [← hr0]; exact congrArg (fun t => t.2.2.1) hl0
  -- the other edges that leave a source are not touched
  have hother : ∀ k, k < g.edges.length → r.leavesSource source k = true → k ≠ q0.1 →
      g2.flowOf k = g.flowOf k ∧ r2.capOf k = r.capOf k := by
    intro k hk hls hne
    obtain ⟨u, hou, huS⟩ := leavesSource_iff.mp hls
    have hunone : ra.pathOf u = some none := hnone u huS
    have := hframe k (by
      intro p hpP
      obtain ⟨z, hz1, hz2, hz3⟩ := isChain_pred P tv2 hch p hpP
      constructor
      · intro hkp
        rw [hs.getOrig, ← hkp, hou] at hz3
        obtain rfl := Option.some.inj hz3
        have h1 := isChain_source_pair P tv2 hch p hpP hunone
        have h2 : p = q0 := chain_pair_eq hnd hpP hq0 (by rw [h1, hq0e])
        exact hne (by rw [hkp, h2])
      · intro hrev
        obtain ⟨-, -, j, -, -, hrj, -, hoj, -⟩ := hp.1.1 p.1 (hval p hpP)
        rw [hrev] at hrj
        obtain rfl := Option.some.inj hrj
        obtain ⟨-, -, hgo, -, -⟩ := hp.2.2.2.2.1 k hk
        obtain ⟨-, -, -, hgd, -⟩ := hp.2.2.2.2.1 p.1 (hval p hpP)
        rw [hgo, hou, hgd, ← hs.getDest, hz2] at hoj
        obtain rfl := Option.some.inj hoj
        rw [hunone] at hz1
        exact absurd hz1 (by simp))
    exact ⟨this.1, by rw [this.2, hcapra]⟩
  refine ⟨b, g2, r2, by simp [Graph.findBottleneck, htv2, hs.findVertex, hbl], hb1,
    by simp [Graph.augmentPath, htv2, hs.findVertex, hloop], hpb.sameStatic hs1 hs2, ?_, ?_, ?_,
    hs1, hs.trans hs2, hcp, hact2, q0.1, he0, hls0, hadm0.1, by omega⟩
  · rw [capacityBelow_iff] at hcap ⊢
    intro k hk
    rw [hcp]; exact hcap k (hs1.edges_length ▸ hk)
  · intro e he hls
    rw [hs1.edges_length] at he
    rw [leavesSource_sameStatic (hs.trans hs2)] at hls
    rw [hcp]
    by_cases hee : e = q0.1
    · subst hee
      rw [hflow0, hrcap0]; omega
    · obtain ⟨h1, h2⟩ := hother e he hls hee
      rw [h1, h2]; exact hinv e he hls
  · unfold Graph.sourceResidual
    rw [(hs.trans hs2).edges_length]
    apply sum_range_one_change _ _ b q0.1 r.edges.length (by rw [← hlen]; exact he0)
    · intro k hk hne
      rw [leavesSource_sameStatic (hs.trans hs2), hact2]
      by_cases hc : (r.leavesSource source k && r.activeAt k) = true
      · rw [if_pos hc, if_pos hc]
        simp only [Bool.and_eq_true] at hc
        exact (hother k (by rw [hlen]; exact hk) hc.1 hne).2
      · rw [if_neg hc, if_neg hc]
    · rw [leavesSource_sameStatic (hs.trans hs2), hact2, hls0, hadm0.1]
      simp only [Bool.and_self, if_true]
      rw [hrcap0]; omega
/-! ## The loop of `edmondsKarp` for every capacity -/

theorem sourceInv_of_search {g r ra : Graph} {source : List String} (hinv : SourceInv g r source)
    (hs : SameStatic r ra) (hed : ra.edges = r.edges) : SourceInv g ra source := by
  intro e he hls
  rw [leavesSource_sameStatic hs] at hls
  have : ra.capOf e = r.capOf e := by simp [Graph.capOf, Graph.getCapacity, hed]
  rw [this]; exact hinv e he hls

theorem sourceResidual_of_search {r ra : Graph} (source : List String)
    (hs : SameStatic r ra) (hed : ra.edges = r.edges) :
    ra.sourceResidual source = r.sourceResidual source := by
  unfold Graph.sourceResidual
  rw [hed]
  apply congrArg
  apply List.map_congr_left
  intro e _
  rw [leavesSource_sameStatic hs]
  simp [Graph.activeAt, Graph.capOf, Graph.getCapacity, hed]

/-- The loop of `edmondsKarp` returns on a paired network, from a state in which every edge
that leaves a source has the residual capacity `capacity - flow`, within one iteration more
than the total residual capacity of the active edges that leave the sources. -/
theorem edmondsKarpLoop_returns_any (source : List String) (target : String) :
    ∀ (n : Nat) (g r : Graph) (maxFlow : Nat), Paired g r → g.CapacityBelow 4294967296 →
      SourceInv g r source → (∀ s ∈ source, ∃ x, g.findVertex s = some x) →
      r.sourceResidual source ≤ n →
      ∀ fuel, n + 1 ≤ fuel →
        ∃ F g1 r1, edmondsKarpLoop source target fuel maxFlow g r = some (true, F, g1, r1) := by
  intro n
  induction n with
  | zero =>
    intro g r maxFlow hp hcap hinv hsrc hm fuel hf
    cases fuel with
    | zero => omega
    | succ fuel =>
      obtain ⟨found, ra, hpath, -⟩ := path_run hp.2.1 source target
        (fun s hs => by rw [hp.findVertexEq]; exact hsrc s hs)
      cases found with
      | false => exact ⟨maxFlow, g, ra, by simp [edmondsKarpLoop, hpath]⟩
      | true =>
        exfalso
        obtain ⟨b, g2, r2, -, hb1, -, -, -, -, hmu, -⟩ := edmondsKarp_round_any hp hcap hinv hpath
        omega
  | succ n ih =>
    intro g r maxFlow hp hcap hinv hsrc hm fuel hf
    cases fuel with
    | zero => omega
    | succ fuel =>
      obtain ⟨found, ra, hpath, -⟩ := path_run hp.2.1 source target
        (fun s hs => by rw [hp.findVertexEq]; exact hsrc s hs)
      cases found with
      | false => exact ⟨maxFlow, g, ra, by simp [edmondsKarpLoop, hpath]⟩
      | true =>
        obtain ⟨b, g2, r2, hb, hb1, haug, hp2, hcap2, hinv2, hmu, hs1, -⟩ :=
          edmondsKarp_round_any hp hcap hinv hpath
        obtain ⟨F, g1, r1, hrun⟩ := ih g2 r2 (uadd maxFlow b) hp2 hcap2 hinv2
          (fun s hs => by rw [hs1.findVertex]; exact hsrc s hs) (by omega) fuel (by omega)
        refine ⟨F, g1, r1, ?_⟩
        simp only [edmondsKarpLoop, Option.bind_eq_bind, hpath, Option.some_bind, if_true, hb,
          haug]
        exact hrun

/-- What every state of the loop of `edmondsKarp` keeps, whatever the capacities. -/
theorem edmondsKarpLoop_inv_any (source : List String) (target : String) :
    ∀ (fuel maxFlow : Nat) (g r : Graph) (fin : Bool) (maxFlow1 : Nat) (g1 r1 : Graph),
      Paired g r → g.CapacityBelow 4294967296 → SourceInv g r source →
      edmondsKarpLoop source target fuel maxFlow g r = some (fin, maxFlow1, g1, r1) →
      Paired g1 r1 ∧ g1.CapacityBelow 4294967296 ∧ SourceInv g1 r1 source ∧
      (∀ k, g1.capOf k = g.capOf k) ∧ (∀ k, r1.activeAt k = r.activeAt k) ∧
      SameStatic g g1 ∧ SameStatic r r1 ∧
      (fin = false → fuel + r1.sourceResidual source ≤ r.sourceResidual source) := by
  intro fuel
  induction fuel with
  | zero =>
    intro maxFlow g r fin maxFlow1 g1 r1 hp hcap hinv h
    simp only [edmondsKarpLoop, Option.some.injEq, Prod.mk.injEq] at h
    obtain ⟨-, -, rfl, rfl⟩ := h
    exact ⟨hp, hcap, hinv, fun _ => rfl, fun _ => rfl, SameStatic.refl _, SameStatic.refl _,
      fun _ => by omega⟩
  | succ fuel ih =>
    intro maxFlow g r fin maxFlow1 g1 r1 hp hcap hinv h
    simp only [edmondsKarpLoop, Option.bind_eq_bind, Option.bind_eq_some] at h
    obtain ⟨⟨found, ra⟩, hpath, h⟩ := h
    cases found with
    | false =>
      simp only [Bool.false_eq_true, if_false, Option.some.injEq, Prod.mk.injEq] at h
      obtain ⟨rfl, -, rfl, rfl⟩ := h
      obtain ⟨hs, hed, -⟩ := path_spec hp.2.1 hpath
      exact ⟨hp.sameStatic (SameStatic.refl g) hs, hcap, sourceInv_of_search hinv hs hed,
        fun _ => rfl, fun k => by simp [Graph.activeAt, hed], SameStatic.refl _, hs,
        fun h => Bool.noConfusion h⟩
    | true =>
      simp only [if_true, Option.bind_eq_some] at h
      obtain ⟨b, hb, ⟨g2, r2⟩, haug, h⟩ := h
      obtain ⟨b', g2', r2', hb', hb1, haug', hp2, hcap2, hinv2, hmu, hs1, hs2, hcp, hact, -⟩ :=
        edmondsKarp_round_any hp hcap hinv hpath
      rw [hb] at hb'
      obtain rfl := Option.some.inj hb'
      rw [haug] at haug'
      have e := Option.some.inj haug'
      simp only [Prod.mk.injEq] at e
      obtain ⟨rfl, rfl⟩ := e
      obtain ⟨hp3, hcap3, hinv3, hcp3, hact3, hs3, hs4, hcount⟩ :=
        ih _ g2 r2 fin maxFlow1 g1 r1 hp2 hcap2 hinv2 h
      exact ⟨hp3, hcap3, hinv3, fun k => (hcp3 k).trans (hcp k),
        fun k => (hact3 k).trans (hact k), hs1.trans hs3, hs2.trans hs4,
        fun hf => by have := hcount hf; omega⟩

/-- After the reset loop of `edmondsKarp` every edge that leaves a source has the residual
capacity `capacity - flow`, and the total residual capacity of the active edges that leave
the sources is the total capacity of the active links that leave the sources. -/
theorem sourceInv_of_reset {g r g0 r0 : Graph} (source : List String) (hp : Paired g r)
    (h : resetFlows g.vertexSet g r = some (g0, r0)) :
    Paired g0 r0 ∧ SourceInv g0 r0 source ∧
    r0.sourceResidual source = g.sourceCapacity r source ∧ (∀ k, g0.capOf k = g.capOf k) ∧
    SameStatic g g0 := by
  obtain ⟨hs1, -, hs2, -, hcp, hall⟩ := resetFlows_paired hp h
  obtain ⟨-, hfr⟩ := resetFlows_frame _ _ _ _ _ h
  have hact : ∀ k, r0.activeAt k = r.activeAt k := activeAt_eq_of_noCapacity hfr.2.2.2
  refine ⟨hp.sameStatic hs1 hs2, ?_, ?_, hcp, hs1⟩
  · intro e he _
    rw [hs1.edges_length] at he
    rw [(hall e he).1, (hall e he).2, hcp, Nat.zero_add]
  · unfold Graph.sourceResidual Graph.sourceCapacity
    rw [hs2.edges_length, ← hp.2.2.2.1]
    apply congrArg
    apply List.map_congr_left
    intro e he
    rw [leavesSource_sameStatic hs2, hact, (hall e (List.mem_range.mp he)).2]

/-- On a paired network, for source ids that are ids of stations, `edmondsKarp` returns
within any budget above the total capacity of the active links that leave the sources. -/
theorem edmondsKarp_returns_any {g r : Graph} {source : List String} {target : String}
    (hp : Paired g r) (hcap : g.CapacityBelow 4294967296)
    (hsrc : ∀ s ∈ source, ∃ x, g.findVertex s = some x) {fuel : Nat}
    (hf : g.sourceCapacity r source + 1 ≤ fuel) :
    ∃ F g1 r1, g.edmondsKarp fuel source target r = some (F, g1, r1) := by
  obtain ⟨g0, r0, hreset⟩ := resetFlows_total_paired hp
  obtain ⟨hp0, hinv0, hmu, hcp, hs1⟩ := sourceInv_of_reset source hp hreset
  have hcap0 : g0.CapacityBelow 4294967296 := by
    rw [capacityBelow_iff] at hcap ⊢
    intro k hk
    rw [hcp]; exact hcap k (hs1.edges_length ▸ hk)
  obtain ⟨F, g1, r1, hrun⟩ := edmondsKarpLoop_returns_any source target _ g0 r0 0 hp0 hcap0 hinv0
    (fun s hs => by rw [hs1.findVertex]; exact hsrc s hs) (le_of_eq hmu) fuel hf
  refine ⟨F, g1, r1, ?_⟩
  simp only [Graph.edmondsKarp, Option.bind_eq_bind, hreset, Option.some_bind, hrun]
/-! ## The run of `edmondsKarp` does not depend on the flows, the residual capacities and the
search fields it starts from -/

/-- Two states of a paired network whose regular edges differ at most in their flows and
whose residual graphs differ at most in capacities, visited marks and predecessor edges give
the same run of `edmondsKarp`, whatever the vertices of the regular graph hold. -/
theorem edmondsKarp_congr_any {g r k kr g1 r1 : Graph} {fuel F : Nat} {source : List String}
    {target : String} (hp : Paired g r) (hpk : Paired k kr)
    (hk4 : k.edges.map Edge.noFlow = g.edges.map Edge.noFlow)
    (hkr : r.EqUpTo Vertex.unsearched Edge.noCapacity kr)
    (h : g.edmondsKarp fuel source target r = some (F, g1, r1)) :
    k.edmondsKarp fuel source target kr = some (F, { k with edges := g1.edges }, r1) := by
  simp only [Graph.edmondsKarp, Option.bind_eq_bind, Option.bind_eq_some] at h ⊢
  obtain ⟨⟨g0, r0⟩, hreset, ⟨fin, mf, ga, ra⟩, hl, h⟩ := h
  cases fin with
  | false => simp at h
  | true =>
    simp only [Option.some.injEq, Prod.mk.injEq] at h
    obtain ⟨rfl, rfl, rfl⟩ := h
    obtain ⟨k0, kr0, hkreset⟩ := resetFlows_total_paired hpk
    obtain ⟨hg0, hr0⟩ := resetFlows_frame _ _ _ _ _ hreset
    obtain ⟨hk0, hkr0⟩ := resetFlows_frame _ _ _ _ _ hkreset
    obtain ⟨hsg, -, hsr, -, hcap, hpt⟩ := resetFlows_paired hp hreset
    obtain ⟨hsk, -, hskr, -, hcapk, hptk⟩ := resetFlows_paired hpk hkreset
    obtain ⟨hkr1, hkr2, hkr3, hkr4⟩ := hkr
    have hlenk : k.edges.length = g.edges.length := by simpa using congrArg List.length hk4
    have hlenr : kr.edges.length = r.edges.length := by simpa using congrArg List.length hkr4
    have hgr : g.edges.length = r.edges.length := hp.2.2.2.1
    have hedges : k0.edges = g0.edges := by
      apply edges_eq_of_noFlow (hk0.2.2.2.trans (hk4.trans hg0.2.2.2.symm))
      apply map_flow_eq_of_flowOf (by rw [hsk.edges_length, hsg.edges_length, hlenk])
      intro i hi
      rw [hsg.edges_length] at hi
      rw [(hptk i (hlenk ▸ hi)).1, (hpt i hi).1]
    have hredges : kr0.edges = r0.edges := by
      apply edges_eq_of_noCapacity (hkr0.2.2.2.trans (hkr4.trans hr0.2.2.2.symm))
      apply map_capacity_eq_of_capOf (by rw [hskr.edges_length, hsr.edges_length, hlenr])
      intro i hi
      rw [hsr.edges_length, ← hgr] at hi
      rw [(hptk i (hlenk ▸ hi)).2, (hpt i hi).2]
      exact capOf_eq_of_noFlow hk4 i
    have hrs : kr0.resetSearch = r0.resetSearch :=
      resetSearch_eq_of (hkr0.1.trans (hkr1.trans hr0.1.symm))
        (hkr0.2.1.trans (hkr2.trans hr0.2.1.symm)) hredges
        (hkr0.2.2.1.trans (hkr3.trans hr0.2.2.1.symm))
    have hloop := edmondsKarpLoop_transport source target fuel 0 g0 r0 mf ga ra k0 kr0 hl hedges hrs
    refine ⟨(k0, kr0), hkreset, _, hloop, ?_⟩
    have hkv := hk0.vertexSet_eq
    cases k; cases k0
    simp only at hkv
    simp only [Option.some.injEq, Prod.mk.injEq, Graph.mk.injEq, true_and, and_true]
    exact ⟨hk0.1, hkv, hk0.2.1⟩

/-! ## One augmentation, link by link -/

theorem activeAt_eq_of_noFlow {g k : Graph} (h : k.edges.map Edge.noFlow = g.edges.map Edge.noFlow)
    (i : Nat) : k.activeAt i = g.activeAt i := by
  have := getElem?_map_of_map_eq (fun x : Edge => x.selected) h (fun _ => rfl) i
  simp only [Graph.activeAt, this]

/-- One pass of the loop of `edmondsKarp` after a successful search, on a paired network
with capacities of any size: the predecessor chain `P` from the target back to a source, the
bottleneck `b`, and what the augmentation writes.  Every edge of the chain is active and has
a residual capacity of at least `b`; every link of the chain is written as `linkAfter`
computes it, the other edges keep their flow and their residual capacity. -/
theorem edmondsKarp_round_chain {source : List String} {target : String} {g r ra : Graph}
    (hp : Paired g r) (hpath : r.path source target = some (true, ra)) :
    ∃ tv P b g2 r2, r.findVertex target = some tv ∧ tv ∉ source.filterMap r.findVertex ∧
      ra.IsChain tv P ∧ (chainVertices tv P).Nodup ∧ P ≠ [] ∧
      chainEnd tv P ∈ source.filterMap r.findVertex ∧
      (∀ s ∈ source.filterMap r.findVertex, ra.pathOf s = some none) ∧
      SameStatic r ra ∧
      (∀ p ∈ P, p.1 < g.edges.length ∧ r.activeAt p.1 = true ∧ b ≤ r.capOf p.1) ∧ 1 ≤ b ∧
      ra.findBottleneck target = some b ∧ ra.augmentPath target b g = some (g2, r2) ∧
      Paired g2 r2 ∧ SameStatic g g2 ∧ SameStatic r r2 ∧ (∀ k, g2.capOf k = g.capOf k) ∧
      (∀ k, g2.activeAt k = g.activeAt k) ∧ (∀ k, r2.activeAt k = r.activeAt k) ∧
      (∀ k, (∀ p ∈ P, k ≠ p.1 ∧ g.getReverse p.1 ≠ some k) →
        g2.flowOf k = g.flowOf k ∧ r2.capOf k = r.capOf k) ∧
      (∀ p ∈ P, ∀ j, g.getReverse p.1 = some j →
        (g2.flowOf p.1, g2.flowOf j, r2.capOf p.1, r2.capOf j)
          = linkAfter (g.capOf p.1) (g.flowOf p.1) (g.flowOf j) (r.capOf j) b) := by
  obtain ⟨hs, hed, hfound⟩ := path_spec hp.2.1 hpath
  obtain ⟨tv, P, htv, hch, hnd, -, hedg⟩ := hfound rfl
  obtain ⟨tv2, Q, htv2, hns, hch2, hend, hadm, -, hnone⟩ := (path_bfs hp.2.1 hpath).1 rfl
  rw [hs.findVertex, htv2] at htv
  obtain rfl := Option.some.inj htv
  obtain rfl := isChain_unique P Q tv2 hch hch2
  have hpb : Paired g ra := hp.sameStatic (SameStatic.refl g) hs
  have hPne : P ≠ [] := by
    intro hnil
    rw [hnil] at hend
    exact hns hend
  obtain ⟨b, hbl, hb1⟩ := findBottleneckLoop_total ra P tv2 (ra.vertexSet.length + 1) UINT32_MAX
    hch hedg (by have := IsChain.length_lt hch hnd; omega) (by decide)
  obtain ⟨-, hbv⟩ := findBottleneckLoop_spec ra P tv2 _ _ _ hch hbl
  have hval : ∀ p ∈ P, p.1 < g.edges.length := by
    intro p hpP
    rw [hpb.2.2.2.1]; exact (hedg p hpP).1
  obtain ⟨g2, r2, hloop⟩ := augmentPathLoop_returns b P tv2 (ra.vertexSet.length + 1) g ra hpb hch
    hval (by have := IsChain.length_lt hch hnd; omega)
  obtain ⟨hs1, -, hs2, -, hcp, hframe, hlinks⟩ :=
    augmentPathLoop_links b P tv2 _ g ra g2 r2 hpb hch hnd hval hloop
  obtain ⟨hfr1, hfr2⟩ := augmentPathLoop_frame _ _ _ _ _ _ _ _ hloop
  have hact2 : ∀ k, r2.activeAt k = r.activeAt k := by
    intro k
    rw [activeAt_eq_of_noCapacity hfr2.2.2.2 k]
    simp [Graph.activeAt, hed]
  have hact1 : ∀ k, g2.activeAt k = g.activeAt k := fun k => activeAt_eq_of_noFlow hfr1.2.2.2 k
  have hcapra : ∀ k, ra.capOf k = r.capOf k := fun k => by
    simp [Graph.capOf, Graph.getCapacity, hed]
  refine ⟨tv2, P, b, g2, r2, htv2, hns, hch, hnd, hPne, hend, hnone, hs, ?_, hb1,
    by simp [Graph.findBottleneck, htv2, hs.findVertex, hbl],
    by simp [Graph.augmentPath, htv2, hs.findVertex, hloop], hpb.sameStatic hs1 hs2, hs1,
    hs.trans hs2, hcp, hact1, hact2, ?_, ?_⟩
  · intro p hpP
    have hadm0 := (hadm p hpP).2
    simp only [Graph.admits, Bool.and_eq_true, decide_eq_true_eq] at hadm0
    exact ⟨hval p hpP, hadm0.1, by rw [← hcapra]; exact hbv p hpP⟩
  · intro k hk
    obtain ⟨h1, h2⟩ := hframe k hk
    exact ⟨h1, by rw [h2, hcapra]⟩
  · intro p hpP j hj
    rw [hlinks p hpP j hj, hcapra]

/-! ## Deactivated links carry no flow -/

theorem flagsAgree_of_same {g r g1 r1 : Graph} (h : FlagsAgree g r) (hs : SameStatic g g1)
    (h1 : ∀ k, g1.activeAt k = g.activeAt k) (h2 : ∀ k, r1.activeAt k = r.activeAt k) :
    FlagsAgree g1 r1 := by
  intro i j c hj hc
  rw [hs.getReverse] at hj
  rw [hs.getCorrespondingEdge] at hc
  rw [h1, h1, h2]
  exact h i j c hj hc

/-- The loop of `edmondsKarp` on a paired network whose flags agree across every link
writes no flow on a deactivated regular edge. -/
theorem edmondsKarpLoop_inactive (source : List String) (target : String) :
    ∀ (fuel maxFlow : Nat) (g r : Graph) (fin : Bool) (maxFlow1 : Nat) (g1 r1 : Graph),
      Paired g r → FlagsAgree g r → (∀ i, g.activeAt i = false → g.flowOf i = 0) →
      edmondsKarpLoop source target fuel maxFlow g r = some (fin, maxFlow1, g1, r1) →
      ∀ i, g1.activeAt i = false → g1.flowOf i = 0 := by
  intro fuel
  induction fuel with
  | zero =>
    intro maxFlow g r fin maxFlow1 g1 r1 _ _ hz h
    simp only [edmondsKarpLoop, Option.some.injEq, Prod.mk.injEq] at h
    obtain ⟨-, -, rfl, rfl⟩ := h
    exact hz
  | succ fuel ih =>
    intro maxFlow g r fin maxFlow1 g1 r1 hp hfl hz h
    simp only [edmondsKarpLoop, Option.bind_eq_bind, Option.bind_eq_some] at h
    obtain ⟨⟨found, ra⟩, hpath, h⟩ := h
    cases found with
    | false =>
      simp only [Bool.false_eq_true, if_false, Option.some.injEq, Prod.mk.injEq] at h
      obtain ⟨-, -, rfl, rfl⟩ := h
      exact hz
    | true =>
      obtain ⟨tv, P, b, g2, r2, -, -, -, -, -, -, -, -, hP, -, hb, haug, hp2, hs1, -, -, hact1,
        hact2, hframe, -⟩ := edmondsKarp_round_chain hp hpath
      simp only [if_true, hb, haug, Option.some_bind] at h
      refine ih _ g2 r2 fin maxFlow1 g1 r1 hp2 (flagsAgree_of_same hfl hs1 hact1 hact2) ?_ h
      intro i hi
      rw [hact1] at hi
      have : ∀ p ∈ P, i ≠ p.1 ∧ g.getReverse p.1 ≠ some i := by
        intro p hpP
        obtain ⟨hlt, hact, -⟩ := hP p hpP
        obtain ⟨j, -, -, hgr, -, -, -, hgc⟩ := hp.reverse hlt
        obtain ⟨ha, hb2⟩ := hfl p.1 j p.1 hgr hgc
        constructor
        · intro hip
          rw [hip, ← hb2, hact] at hi
          exact Bool.noConfusion hi
        · intro hrev
          rw [hgr] at hrev
          obtain rfl := Option.some.inj hrev
          rw [ha, ← hb2, hact] at hi
          exact Bool.noConfusion hi
      rw [(hframe i this).1]
      exact hz i hi

theorem map_eq_of_noFlow {β : Type} (p : Edge → β) (hp : ∀ x, p x.noFlow = p x) {l k : List Edge}
    (h : l.map Edge.noFlow = k.map Edge.noFlow) : l.map p = k.map p := by
  have h2 := congrArg (fun m => m.map p) h
  simpa [List.map_map, Function.comp_def, hp] using h2

theorem map_eq_of_noCapacity {β : Type} (p : Edge → β) (hp : ∀ x, p x.noCapacity = p x)
    {l k : List Edge} (h : l.map Edge.noCapacity = k.map Edge.noCapacity) :
    l.map p = k.map p := by
  have h2 := congrArg (fun m => m.map p) h
  simpa [List.map_map, Function.comp_def, hp] using h2

theorem flow_zero_of_inactive {g : Graph} (h : ∀ i, g.activeAt i = false → g.flowOf i = 0) :
    ∀ e ∈ g.edges, e.selected = false → e.flow = 0 := by
  intro e he hsel
  obtain ⟨k, hk, rfl⟩ := List.getElem_of_mem he
  have := h k (by simp [Graph.activeAt, List.getElem?_eq_getElem hk, hsel])
  simpa [Graph.flowOf, Graph.getFlow, List.getElem?_eq_getElem hk] using this

/-! ## The over-capacity branch of `augmentPath` -/

/-- After any number of iterations of the loop of `augmentPath` along a predecessor chain of
a paired network whose capacities are below `2 ^ 31`, every edge of the chain that has not
been handled yet still has a residual capacity of at least the pushed amount. -/
theorem augmentPathLoop_next (value : Nat) :
    ∀ (P : List (Nat × Nat)) (x steps : Nat) (g r g1 r1 : Graph) (fin : Bool),
      Paired g r → LinkInv g r → g.CapacityBelow 2147483648 → r.IsChain x P →
      (chainVertices x P).Nodup →
      (∀ p ∈ P, p.1 < g.edges.length ∧ value ≤ r.capOf p.1) →
      augmentPathLoop value steps x g r = some (fin, g1, r1) →
      ∀ p ∈ P.drop steps, value ≤ r1.capOf p.1 := by
  intro P
  induction P with
  | nil =>
    intro x steps g r g1 r1 fin _ _ _ _ _ _ _ p hp
    simp at hp
  | cons p rest ih =>
    intro x steps g r g1 r1 fin hp hinv hcap hch hnd hval h
    cases steps with
    | zero =>
      simp only [augmentPathLoop, Option.some.injEq, Prod.mk.injEq] at h
      obtain ⟨-, -, rfl⟩ := h
      intro q hq
      exact (hval q (by simpa using hq)).2
    | succ steps =>
      simp only [Graph.IsChain, Graph.pathOf, Option.map_eq_some'] at hch
      obtain ⟨⟨cv, hcv, hpth⟩, hd, ho, hrest⟩ := hch
      simp only [augmentPathLoop, Option.bind_eq_bind, hcv, Option.some_bind, hpth,
        Option.bind_eq_some] at h
      obtain ⟨⟨ga, ra⟩, haug, cv1, hcv1, e1, he1, nxt, hnxt, h⟩ := h
      obtain ⟨hpi, hpv⟩ := hval p (List.mem_cons_self _ _)
      obtain ⟨hs1, -, hs2, hv2, hcp, hinv1, hmono, -⟩ :=
        augmentEdge_spec hp hinv hcap hpi hpv haug
      rw [hv2, hcv] at hcv1
      have : cv1 = cv := (Option.some.inj hcv1).symm
      subst this
      rw [hpth] at he1
      have : e1 = p.1 := (Option.some.inj he1).symm
      subst this
      rw [hs2.getOrig, ho] at hnxt
      have : nxt = p.2 := (Option.some.inj hnxt).symm
      subst this
      have hchain1 : ra.IsChain p.2 rest := by
        apply IsChain.frame hs2.getOrig hs2.getDest rest p.2 hrest
        intro y _
        simp [Graph.pathOf, hv2]
      have hnd1 : (chainVertices p.2 rest).Nodup := by
        simp only [chainVertices, List.map_cons, List.nodup_cons] at hnd ⊢
        exact hnd.2
      have hxnot : x ∉ chainVertices p.2 rest := by
        simp only [chainVertices, List.map_cons, List.nodup_cons] at hnd ⊢
        exact hnd.1
      have hval1 : ∀ q ∈ rest, q.1 < ga.edges.length ∧ value ≤ ra.capOf q.1 := by
        intro q hq
        obtain ⟨hq1, hq2⟩ := hval q (List.mem_cons_of_mem _ hq)
        refine ⟨by rw [hs1.edges_length]; exact hq1, le_trans hq2 (hmono _ ?_)⟩
        intro hqp
        obtain ⟨z, hz, hdz⟩ := IsChain.dest_mem rest p.2 hrest q hq
        rw [hqp, hd] at hdz
        have : x = z := Option.some.inj hdz
        subst this
        exact hxnot hz
      have hcap1 : ga.CapacityBelow 2147483648 := by
        rw [capacityBelow_iff] at hcap ⊢
        intro k hk
        rw [hcp]; exact hcap k (hs1.edges_length ▸ hk)
      intro q hq
      rw [List.drop_succ_cons] at hq
      exact ih p.2 steps ga ra g1 r1 fin (hp.sameStatic hs1 hs2) hinv1 hcap1 hchain1 hnd1 hval1 h
        q hq

/-- In a state of a paired network that satisfies the link invariant, with capacities below
`2 ^ 31`: when the amount `b` is at most the residual capacity of an edge, `flow + b` does
not wrap around and its excess over the capacity is at most the flow of the reverse edge, so
that the subtractions of the over-capacity branch of `augmentPath` do not wrap around
either. -/
theorem linkInv_branch {g r : Graph} {e j b : Nat} (hp : Paired g r) (hinv : LinkInv g r)
    (hcap : g.CapacityBelow 2147483648) (he : e < g.edges.length)
    (hj : g.getReverse e = some j) (hb : b ≤ r.capOf e) :
    g.flowOf e + b < 4294967296 ∧
    uadd (g.flowOf e) b = g.flowOf e + b ∧
    (g.capOf e < g.flowOf e + b →
      g.flowOf e + b - g.capOf e ≤ g.flowOf j ∧
      usub (uadd (g.flowOf e) b) (g.capOf e) = g.flowOf e + b - g.capOf e ∧
      usub (g.flowOf j) (usub (uadd (g.flowOf e) b) (g.capOf e))
        = g.flowOf j - (g.flowOf e + b - g.capOf e)) := by
  obtain ⟨j2, hj2, -, hgr, hgrj, -⟩ := hp.reverse he
  rw [hj] at hgr
  obtain rfl := Option.some.inj hgr
  obtain ⟨h1, h2⟩ := hinv e j he hj
  obtain ⟨h3, -⟩ := hinv j e hj2 hgrj
  have hc := (capacityBelow_iff g _).mp hcap e he
  have hcj := (capacityBelow_iff g _).mp hcap j hj2
  have hadd : uadd (g.flowOf e) b = g.flowOf e + b := uadd_of_lt (by omega)
  refine ⟨by omega, hadd, ?_⟩
  intro hgt
  have hex : usub (uadd (g.flowOf e) b) (g.capOf e) = g.flowOf e + b - g.capOf e := by
    rw [hadd]; exact usub_of_le (by omega) (by omega)
  refine ⟨by omega, hex, ?_⟩
  rw [hex]
  exact usub_of_le (by omega) (by omega)

/-! ## The returned value and the net flow at the target and at the sources -/

theorem sum_map_one_change (F G : Nat → Nat) (i : Nat) :
    ∀ (L : List Nat), L.Nodup → (∀ k ∈ L, k ≠ i → G k = F k) →
      ((L.map G).sum : Int) = ((L.map F).sum : Int)
        + (if i ∈ L then (G i : Int) - (F i : Int) else 0) := by
  intro L
  induction L with
  | nil => intro _ _; simp
  | cons a L ih =>
    intro hnd h
    simp only [List.nodup_cons] at hnd
    have ih' := ih hnd.2 (fun k hk hne => h k (List.mem_cons_of_mem _ hk) hne)
    simp only [List.map_cons, List.sum_cons, Nat.cast_add]
    rw [ih']
    by_cases hai : a = i
    · subst hai
      simp only [List.mem_cons, true_or, if_true, if_neg hnd.1]
      ring
    · have hia : i ≠ a := fun e => hai e.symm
      rw [h a (List.mem_cons_self _ _) hai]
      simp only [List.mem_cons, hia, false_or]
      ring

/-- The net flow into a vertex after the flow of one edge has grown by `b` and the flow of
every other edge that touches the vertex has stayed. -/
theorem excessAt_one_change {g g2 : Graph} {i b y : Nat} (hw : g.WellLinked)
    (hs : SameStatic g g2) (hi : i < g.edges.length) (hy : y < g.vertexSet.length)
    (h1 : g2.flowOf i = g.flowOf i + b)
    (h3 : ∀ k, k < g.edges.length → k ≠ i → (g.getDest k = some y ∨ g.getOrig k = some y) →
      g2.flowOf k = g.flowOf k) :
    g2.excessAt y = g.excessAt y
      + (if g.getDest i = some y then (b : Int) else 0)
      - (if g.getOrig i = some y then (b : Int) else 0) := by
  obtain ⟨ha, hna, hin, hni, -⟩ := hw.2.1 y hy
  have hsin := sum_map_one_change g.flowOf g2.flowOf i (g.incomingOf y) hni
    (fun k hk hne => h3 k (hin k hk).1 hne (Or.inl (hin k hk).2))
  have hsout := sum_map_one_change g.flowOf g2.flowOf i (g.adjOf y) hna
    (fun k hk hne => h3 k (ha k hk).1 hne (Or.inr (ha k hk).2))
  simp only [Graph.excessAt, hs.adjOf, hs.incomingOf]
  rw [hsin, hsout]
  simp only [hw.mem_incomingOf hi hy, hw.mem_adjOf hi hy, h1]
  by_cases ha : g.getDest i = some y <;> by_cases hb : g.getOrig i = some y <;>
    simp only [ha, hb, if_true, if_false] <;> push_cast <;> ring

theorem sum_map_int_one_change (F G : Nat → Int) (s : Nat) (b : Int) :
    ∀ (L : List Nat), L.Nodup → s ∈ L → (∀ x ∈ L, G x = F x + (if x = s then b else 0)) →
      (L.map G).sum = (L.map F).sum + b := by
  intro L
  induction L with
  | nil => intro _ hs; simp at hs
  | cons a L ih =>
    intro hnd hs h
    simp only [List.nodup_cons] at hnd
    simp only [List.map_cons, List.sum_cons]
    rw [h a (List.mem_cons_self _ _)]
    by_cases has : a = s
    · subst has
      have : L.map G = L.map F := by
        apply List.map_congr_left
        intro x hx
        rw [h x (List.mem_cons_of_mem _ hx)]
        have : x ≠ a := fun e => hnd.1 (e ▸ hx)
        simp [this]
      rw [this]; simp; ring
    · have hsL : s ∈ L := by
        rcases List.mem_cons.mp hs with h0 | h0
        · exact absurd h0.symm has
        · exact h0
      rw [ih hnd.2 hsL (fun x hx => h x (List.mem_cons_of_mem _ hx))]
      simp [has]; ring

theorem linkAfter_within3 {cap flow revFlow revRcap v : Nat} (h1 : flow + v ≤ cap)
    (h2 : cap < 4294967296) :
    (linkAfter cap flow revFlow revRcap v).1 = flow + v ∧
    (linkAfter cap flow revFlow revRcap v).2.1 = revFlow ∧
    (linkAfter cap flow revFlow revRcap v).2.2.1 = cap - (flow + v) := by
  have e1 : uadd flow v = flow + v := uadd_of_lt (by omega)
  have e2 : usub cap (flow + v) = cap - (flow + v) := usub_of_le h1 h2
  simp only [linkAfter, e1, e2]
  rw [if_neg (by omega)]
  exact ⟨rfl, rfl, rfl⟩

theorem sourceOutflow_eq {g g2 : Graph} (hs : SameStatic g g2) (source : List String) :
    g2.sourceOutflow source
      = (((source.filterMap g.findVertex).dedup).map (fun x => - g2.excessAt x)).sum := by
  have hf : g2.findVertex = g.findVertex := funext hs.findVertex
  unfold Graph.sourceOutflow
  rw [hf]

/-- One pass of the loop of `edmondsKarp` after a successful search, on a paired network
with capacities of any size: the net flow into the target and the net flow out of the source
set both grow by exactly the bottleneck, and the edges that enter the target keep the residual
capacity `capacity - flow`. -/
theorem edmondsKarp_round_value {source : List String} {target : String} {g r ra : Graph}
    (hp : Paired g r) (hcap : g.CapacityBelow 4294967296) (hsi : SourceInv g r source)
    (hti : TargetInv g r target) (hpath : r.path source target = some (true, ra)) :
    ∃ tv b g2 r2, g.findVertex target = some tv ∧ ra.findBottleneck target = some b ∧
      ra.augmentPath target b g = some (g2, r2) ∧ Paired g2 r2 ∧
      g2.CapacityBelow 4294967296 ∧ SourceInv g2 r2 source ∧ TargetInv g2 r2 target ∧
      SameStatic g g2 ∧ g2.excessAt tv = g.excessAt tv + (b : Int) ∧
      g2.sourceOutflow source = g.sourceOutflow source + (b : Int) := by
  obtain ⟨tv, P, b, g2, r2, htv, hns, hch, hnd, hPne, hend, hnone, hs, hP, -, hbot, haug, hp2,
    hs1, hs2, hcp, -, -, hframe, hlinks⟩ := edmondsKarp_round_chain hp hpath
  obtain ⟨b', g2', r2', hb', -, haug', -, hcap2, hsi2, -⟩ :=
    edmondsKarp_round_any hp hcap hsi hpath
  rw [hbot] at hb'
  obtain rfl := Option.some.inj hb'
  rw [haug] at haug'
  have e := Option.some.inj haug'
  simp only [Prod.mk.injEq] at e
  obtain ⟨rfl, rfl⟩ := e
  have hfv : ∀ id, r.findVertex id = g.findVertex id := hp.findVertexEq
  have hSeq : source.filterMap r.findVertex = source.filterMap g.findVertex := by
    congr 1; funext id; exact hfv id
  have htvg : g.findVertex target = some tv := by rw [← hfv]; exact htv
  have hcapB := (capacityBelow_iff g _).mp hcap
  have hw : g.WellLinked := hp.1
  -- endpoints of the edges of the chain, read in the regular graph
  have hends : ∀ p ∈ P, ∃ z, ra.pathOf z = some (some p.1) ∧ g.getDest p.1 = some z ∧
      g.getOrig p.1 = some p.2 := by
    intro p hpP
    obtain ⟨z, hz1, hz2, hz3⟩ := isChain_pred P tv hch p hpP
    obtain ⟨-, -, hgo, hgd, -⟩ := hp.2.2.2.2.1 p.1 (hP p hpP).1
    rw [hs.getDest] at hz2
    rw [hs.getOrig] at hz3
    exact ⟨z, hz1, by rw [hgd]; exact hz2, by rw [hgo]; exact hz3⟩
  have htail : ∀ p ∈ P, p.2 ≠ tv := by
    intro p hpP hpt
    simp only [chainVertices, List.nodup_cons] at hnd
    apply hnd.1
    rw [← hpt]
    exact List.mem_map.mpr ⟨p, hpP, rfl⟩
  -- the first pair of the chain
  obtain ⟨p0, rest, rfl⟩ : ∃ p0 rest, P = p0 :: rest := by
    cases P with
    | nil => exact absurd rfl hPne
    | cons a l => exact ⟨a, l, rfl⟩
  have hp0 : p0 ∈ p0 :: rest := List.mem_cons_self _ _
  have hch0 := hch
  simp only [Graph.IsChain] at hch0
  obtain ⟨hpath0, -, -, -⟩ := hch0
  have hfirst : ∀ p ∈ p0 :: rest, g.getDest p.1 = some tv → p = p0 := by
    intro p hpP hd
    obtain ⟨z, hz1, hz2, hz3⟩ := hends p hpP
    rw [hd] at hz2
    obtain rfl := Option.some.inj hz2
    rw [hpath0] at hz1
    have h1 : p0.1 = p.1 := Option.some.inj (Option.some.inj hz1)
    obtain ⟨z0, -, -, ho0⟩ := hends p0 hp0
    rw [h1, hz3] at ho0
    have h2 : p.2 = p0.2 := Option.some.inj ho0
    exact Prod.ext h1.symm h2
  obtain ⟨z0, -, hd0, ho0⟩ := hends p0 hp0
  have hz0 : z0 = tv := by
    obtain ⟨z, hz1, hz2, -⟩ := isChain_pred _ tv hch p0 hp0
    simp only [Graph.IsChain] at hch
    rw [hs.getDest] at hz2
    have := hch.2.1
    rw [hs.getDest, hz2] at this
    obtain ⟨-, -, -, hgd, -⟩ := hp.2.2.2.2.1 p0.1 (hP p0 hp0).1
    rw [hgd, hz2] at hd0
    rw [← Option.some.inj hd0]
    exact Option.some.inj this
  subst hz0
  have he0 := (hP p0 hp0).1
  obtain ⟨j0, hj0, hj0ne, hgr0, -, -, -, -⟩ := hp.reverse he0
  have hti0 := hti p0.1 z0 he0 htvg hd0
  have hb0 := (hP p0 hp0).2.2
  obtain ⟨hf0, hrf0, hrc0⟩ := @linkAfter_within3 (g.capOf p0.1) (g.flowOf p0.1) (g.flowOf j0)
    (r.capOf j0) b (by omega) (hcapB p0.1 he0)
  have hl0 := hlinks p0 hp0 j0 hgr0
  have hflow0 : g2.flowOf p0.1 = g.flowOf p0.1 + b := by
    rw [← hf0]; exact congrArg (fun t => t.1) hl0
  have hrev0 : g2.flowOf j0 = g.flowOf j0 := by
    rw [← hrf0]; exact congrArg (fun t => t.2.1) hl0
  have hrcap0 : r2.capOf p0.1 = g.capOf p0.1 - (g.flowOf p0.1 + b) := by
    rw [← hrc0]; exact congrArg (fun t => t.2.2.1) hl0
  -- an edge that touches the target and is not the first edge of the chain keeps its flow,
  -- and keeps its residual capacity when it enters the target
  have htouch : ∀ k, k < g.edges.length → k ≠ p0.1 →
      (g.getDest k = some z0 ∨ g.getOrig k = some z0) →
      g2.flowOf k = g.flowOf k ∧ (g.getDest k = some z0 → r2.capOf k = r.capOf k) := by
    intro k hk hne hto
    by_cases hkj : k = j0
    · subst hkj
      refine ⟨hrev0, ?_⟩
      intro hd
      obtain ⟨-, -, j, -, -, hrj, -, -, hdj⟩ := hw.1 p0.1 he0
      rw [hgr0] at hrj
      obtain rfl := Option.some.inj hrj
      rw [hdj, ho0] at hd
      exact absurd (Option.some.inj hd) (htail p0 hp0)
    · have hfr := hframe k (by
        intro p hpP
        obtain ⟨z, hz1, hz2, hz3⟩ := hends p hpP
        constructor
        · intro hkp
          rcases hto with hd | ho
          · exact hne (by rw [hkp, hfirst p hpP (hkp ▸ hd)])
          · rw [hkp, hz3] at ho
            exact htail p hpP (Option.some.inj ho)
        · intro hrev
          obtain ⟨-, -, j, -, -, hrj, -, hoj, hdj⟩ := hw.1 p.1 (hP p hpP).1
          rw [hrev] at hrj
          obtain rfl := Option.some.inj hrj
          rcases hto with hd | ho
          · rw [hdj, hz3] at hd
            exact htail p hpP (Option.some.inj hd)
          · rw [hoj] at ho
            have := hfirst p hpP ho
            subst this
            rw [hgr0] at hrev
            exact hkj (Option.some.inj hrev).symm)
      exact ⟨hfr.1, fun _ => hfr.2⟩
  have htvl : z0 < g.vertexSet.length := by
    obtain ⟨-, ⟨v, hv, hdv, -⟩, -⟩ := hw.1 p0.1 he0
    rw [hd0] at hdv
    rw [Option.some.inj hdv]; exact hv
  have hexT := excessAt_one_change hw hs1 he0 htvl hflow0
    (fun k hk hne hto => (htouch k hk hne hto).1)
  rw [if_pos hd0, if_neg (by rw [ho0]; intro h; exact htail p0 hp0 (Option.some.inj h))] at hexT
  -- the last pair of the chain
  obtain ⟨q0, hq0, hq0e⟩ := isChain_last _ z0 hch hPne
  have hq0S : q0.2 ∈ source.filterMap r.findVertex := by rw [hq0e]; exact hend
  obtain ⟨zq, hzq1, hdq, hoq⟩ := hends q0 hq0
  have heq := (hP q0 hq0).1
  have hls0 : r.leavesSource source q0.1 = true := by
    apply leavesSource_iff.mpr
    obtain ⟨-, -, hgo, -, -⟩ := hp.2.2.2.2.1 q0.1 heq
    exact ⟨q0.2, by rw [← hgo]; exact hoq, hq0S⟩
  have hsiq := hsi q0.1 heq hls0
  have hbq := (hP q0 hq0).2.2
  obtain ⟨jq, hjq, hjqne, hgrq, -, -, -, -⟩ := hp.reverse heq
  obtain ⟨hfq, hrfq, -⟩ := @linkAfter_within3 (g.capOf q0.1) (g.flowOf q0.1) (g.flowOf jq)
    (r.capOf jq) b (by omega) (hcapB q0.1 heq)
  have hlq := hlinks q0 hq0 jq hgrq
  have hflowq : g2.flowOf q0.1 = g.flowOf q0.1 + b := by
    rw [← hfq]; exact congrArg (fun t => t.1) hlq
  have hrevq : g2.flowOf jq = g.flowOf jq := by
    rw [← hrfq]; exact congrArg (fun t => t.2.1) hlq
  have hsrcpair : ∀ p ∈ p0 :: rest, p.2 ∈ source.filterMap r.findVertex → p = q0 := by
    intro p hpP hmem
    have h1 := isChain_source_pair _ z0 hch p hpP (hnone p.2 hmem)
    exact chain_pair_eq hnd hpP hq0 (by rw [h1, hq0e])
  have hdestS : ∀ p ∈ p0 :: rest, ∀ z, g.getDest p.1 = some z →
      z ∉ source.filterMap r.findVertex := by
    intro p hpP z hz hmem
    obtain ⟨z', hz1, hz2, -⟩ := hends p hpP
    rw [hz] at hz2
    obtain rfl := Option.some.inj hz2
    rw [hnone z hmem] at hz1
    exact absurd hz1 (by simp)
  have htouchS : ∀ y ∈ source.filterMap r.findVertex, ∀ k, k < g.edges.length → k ≠ q0.1 →
      (g.getDest k = some y ∨ g.getOrig k = some y) → g2.flowOf k = g.flowOf k := by
    intro y hy k hk hne hto
    by_cases hkj : k = jq
    · subst hkj; exact hrevq
    · exact (hframe k (by
        intro p hpP
        obtain ⟨z, hz1, hz2, hz3⟩ := hends p hpP
        constructor
        · intro hkp
          rcases hto with hd | ho
          · rw [hkp] at hd
            exact hdestS p hpP y hd hy
          · rw [hkp, hz3] at ho
            have := hsrcpair p hpP (by rw [Option.some.inj ho]; exact hy)
            exact hne (by rw [hkp, this])
        · intro hrev
          obtain ⟨-, -, j, -, -, hrj, -, hoj, hdj⟩ := hw.1 p.1 (hP p hpP).1
          rw [hrev] at hrj
          obtain rfl := Option.some.inj hrj
          rcases hto with hd | ho
          · rw [hdj, hz3] at hd
            have := hsrcpair p hpP (by rw [Option.some.inj hd]; exact hy)
            subst this
            rw [hgrq] at hrev
            exact hkj (Option.some.inj hrev).symm
          · rw [hoj] at ho
            exact hdestS p hpP y ho hy)).1
  have hSlt : ∀ y ∈ source.filterMap r.findVertex, y < g.vertexSet.length := by
    intro y hy
    obtain ⟨id, -, hid⟩ := List.mem_filterMap.mp hy
    rw [hfv] at hid
    exact idOf_lt (hw.findVertex_sound hid)
  have hexS : ∀ y ∈ source.filterMap r.findVertex,
      g2.excessAt y = g.excessAt y - (if y = q0.2 then (b : Int) else 0) := by
    intro y hy
    have h := excessAt_one_change hw hs1 heq (hSlt y hy) hflowq (htouchS y hy)
    rw [if_neg (fun hd => hdestS q0 hq0 y hd hy)] at h
    rw [h, hoq]
    by_cases hyq : y = q0.2
    · subst hyq; simp
    · have : ¬ (some q0.2 = some y) := fun e => hyq (Option.some.inj e).symm
      simp [hyq, this]
  refine ⟨z0, b, g2, r2, htvg, hbot, haug, hp2, hcap2, hsi2, ?_, hs1, hexT.trans (by ring), ?_⟩
  · -- the edges that enter the target
    intro e tv2 he htv2 hd
    rw [hs1.edges_length] at he
    rw [hs1.findVertex, htvg] at htv2
    obtain rfl := Option.some.inj htv2
    rw [hs1.getDest] at hd
    rw [hcp]
    by_cases hee : e = p0.1
    · subst hee
      rw [hflow0, hrcap0]; omega
    · obtain ⟨h1, h2⟩ := htouch e he hee (Or.inl hd)
      rw [h1, h2 hd]
      exact hti e z0 he htvg hd
  · rw [sourceOutflow_eq hs1]
    unfold Graph.sourceOutflow
    rw [← hSeq]
    apply sum_map_int_one_change (fun x => - g.excessAt x) (fun x => - g2.excessAt x) q0.2 b
      _ (List.nodup_dedup _) (List.mem_dedup.mpr hq0S)
    intro x hx
    rw [hexS x (List.mem_dedup.mp hx)]
    by_cases hxq : x = q0.2
    · rw [if_pos hxq]; ring
    · rw [if_neg hxq]; ring

theorem excessAt_zero {g : Graph} (h : ∀ k, g.flowOf k = 0) (y : Nat) : g.excessAt y = 0 := by
  have hz : ∀ L : List Nat, (L.map g.flowOf).sum = 0 := by
    intro L
    induction L with
    | nil => rfl
    | cons a L ih => simp [h a, ih]
  simp [Graph.excessAt, hz]

theorem sourceOutflow_zero {g : Graph} (h : ∀ k, g.flowOf k = 0) (source : List String) :
    g.sourceOutflow source = 0 := by
  unfold Graph.sourceOutflow
  apply List.sum_eq_zero
  intro x hx
  obtain ⟨y, -, rfl⟩ := List.mem_map.mp hx
  rw [excessAt_zero h]; rfl

theorem targetInv_of_search {g r ra : Graph} {target : String} (hinv : TargetInv g r target)
    (hed : ra.edges = r.edges) : TargetInv g ra target := by
  intro e tv he htv hd
  have : ra.capOf e = r.capOf e := by simp [Graph.capOf, Graph.getCapacity, hed]
  rw [this]; exact hinv e tv he htv hd

/-- The loop of `edmondsKarp` on a paired network with capacities of any size: the returned
value is, modulo `2 ^ 32`, the value at the start plus the sum `total` of the bottlenecks,
and the net flow into the target and the net flow out of the source set have both grown by
exactly `total`. -/
theorem edmondsKarpLoop_value (source : List String) (target : String) :
    ∀ (fuel maxFlow : Nat) (g r : Graph) (fin : Bool) (maxFlow1 : Nat) (g1 r1 : Graph),
      Paired g r → g.CapacityBelow 4294967296 → SourceInv g r source →
      TargetInv g r target → maxFlow < 4294967296 →
      edmondsKarpLoop source target fuel maxFlow g r = some (fin, maxFlow1, g1, r1) →
      ∃ total : Nat, maxFlow1 = (maxFlow + total) % 4294967296 ∧
        (∀ tv, g.findVertex target = some tv →
          g1.excessAt tv = g.excessAt tv + (total : Int)) ∧
        g1.sourceOutflow source = g.sourceOutflow source + (total : Int) := by
  intro fuel
  induction fuel with
  | zero =>
    intro maxFlow g r fin maxFlow1 g1 r1 _ _ _ _ hmf h
    simp only [edmondsKarpLoop, Option.some.injEq, Prod.mk.injEq] at h
    obtain ⟨-, rfl, rfl, rfl⟩ := h
    exact ⟨0, by omega, fun _ _ => by simp, by simp⟩
  | succ fuel ih =>
    intro maxFlow g r fin maxFlow1 g1 r1 hp hcap hsi hti hmf h
    simp only [edmondsKarpLoop, Option.bind_eq_bind, Option.bind_eq_some] at h
    obtain ⟨⟨found, ra⟩, hpath, h⟩ := h
    cases found with
    | false =>
      simp only [Bool.false_eq_true, if_false, Option.some.injEq, Prod.mk.injEq] at h
      obtain ⟨-, rfl, rfl, rfl⟩ := h
      exact ⟨0, by omega, fun _ _ => by simp, by simp⟩
    | true =>
      obtain ⟨tv, b, g2, r2, htv, hb, haug, hp2, hcap2, hsi2, hti2, hs1, hexT, hexS⟩ :=
        edmondsKarp_round_value hp hcap hsi hti hpath
      simp only [if_true, hb, haug, Option.some_bind] at h
      obtain ⟨total, h1, h2, h3⟩ := ih _ g2 r2 fin maxFlow1 g1 r1 hp2 hcap2 hsi2 hti2
        (by unfold uadd; omega) h
      refine ⟨b + total, ?_, ?_, ?_⟩
      · rw [h1]; unfold uadd; omega
      · intro tv2 htv2
        rw [htv] at htv2
        obtain rfl := Option.some.inj htv2
        rw [h2 tv (by rw [hs1.findVertex]; exact htv), hexT]
        push_cast; ring
      · rw [h3, hexS]; push_cast; ring

/-- The value `edmondsKarp` returns on a paired network with capacities of any size is,
modulo `2 ^ 32`, the net flow out of the source set, which is a natural number and equals
the net flow into the target. -/
theorem edmondsKarp_value {g r g1 r1 : Graph} {source : List String} {target : String}
    {fuel F : Nat} (hp : Paired g r) (hcap : g.CapacityBelow 4294967296)
    (h : g.edmondsKarp fuel source target r = some (F, g1, r1)) :
    ∃ total : Nat, F = total % 4294967296 ∧ g1.sourceOutflow source = (total : Int) ∧
      ∀ tv, g.findVertex target = some tv → g1.excessAt tv = (total : Int) := by
  simp only [Graph.edmondsKarp, Option.bind_eq_bind, Option.bind_eq_some] at h
  obtain ⟨⟨g0, r0⟩, hreset, ⟨fin, mf, ga, rb⟩, hl, h⟩ := h
  cases fin with
  | false => simp at h
  | true =>
    simp only [Option.some.injEq, Prod.mk.injEq] at h
    obtain ⟨rfl, rfl, rfl⟩ := h
    obtain ⟨hp0, hsi0, -, hcp, hs1⟩ := sourceInv_of_reset source hp hreset
    obtain ⟨-, -, -, -, -, hall⟩ := resetFlows_paired hp hreset
    have hz0 : ∀ k, g0.flowOf k = 0 := by
      intro k
      by_cases hk : k < g.edges.length
      · exact (hall k hk).1
      · have : g0.edges[k]? = none :=
          List.getElem?_eq_none (by rw [hs1.edges_length]; omega)
        simp [Graph.flowOf, Graph.getFlow, this]
    have hcap0 : g0.CapacityBelow 4294967296 := by
      rw [capacityBelow_iff] at hcap ⊢
      intro k hk
      rw [hcp]; exact hcap k (hs1.edges_length ▸ hk)
    have hti0 : TargetInv g0 r0 target := by
      intro e tv he _ _
      rw [hs1.edges_length] at he
      rw [hz0, (hall e he).2, hcp]; omega
    obtain ⟨total, h1, h2, h3⟩ := edmondsKarpLoop_value source target fuel 0 g0 r0 true _ _ _
      hp0 hcap0 hsi0 hti0 (by omega) hl
    refine ⟨total, by rw [h1]; omega, by rw [h3, sourceOutflow_zero hz0]; simp, ?_⟩
    intro tv htv
    rw [h2 tv (by rw [hs1.findVertex]; exact htv), excessAt_zero hz0]; simp

/-! ## Walks -/

theorem isWalk_append {m : Graph} : ∀ (a b : List Nat) (u v : Nat),
    m.IsWalk u (a ++ b) v ↔ ∃ w, m.IsWalk u a w ∧ m.IsWalk w b v := by
  intro a
  induction a with
  | nil =>
    intro b u v
    simp only [List.nil_append, Graph.IsWalk]
    constructor
    · intro h; exact ⟨u, rfl, h⟩
    · rintro ⟨w, rfl, h⟩; exact h
  | cons e a ih =>
    intro b u v
    simp only [List.cons_append, Graph.IsWalk]
    constructor
    · rintro ⟨h1, h2, w, h3, h4⟩
      obtain ⟨y, hy1, hy2⟩ := (ih b w v).mp h4
      exact ⟨y, ⟨h1, h2, w, h3, hy1⟩, hy2⟩
    · rintro ⟨y, ⟨h1, h2, w, h3, hy1⟩, hy2⟩
      exact ⟨h1, h2, w, h3, (ih b w v).mpr ⟨y, hy1, hy2⟩⟩

theorem walkCost_append (m : Graph) (a b : List Nat) :
    m.walkCost (a ++ b) = m.walkCost a + m.walkCost b := by
  simp [Graph.walkCost]

theorem walkCost_cons (m : Graph) (e : Nat) (a : List Nat) :
    m.walkCost (e :: a) = m.edgeCost e + m.walkCost a := by
  simp [Graph.walkCost]

theorem isWalk_snoc {m : Graph} {u x v e : Nat} {p : List Nat} (hp : m.IsWalk u p x)
    (ho : m.getOrig e = some x) (hc : 0 < m.capOf e) (hd : m.getDest e = some v) :
    m.IsWalk u (p ++ [e]) v :=
  (isWalk_append p [e] u v).mpr ⟨x, hp, ho, hc, v, hd, rfl⟩

/-- A walk that is not empty ends with an edge. -/
theorem isWalk_last {m : Graph} {u v : Nat} {es : List Nat} (h : m.IsWalk u es v)
    (hne : es ≠ []) :
    ∃ p e x, es = p ++ [e] ∧ m.IsWalk u p x ∧ m.getOrig e = some x ∧ 0 < m.capOf e ∧
      m.getDest e = some v := by
  obtain ⟨p, e, rfl⟩ : ∃ p e, es = p ++ [e] := by
    rcases List.eq_nil_or_concat es with h0 | ⟨p, e, h0⟩
    · exact absurd h0 hne
    · exact ⟨p, e, by rw [h0, List.concat_eq_append]⟩
  obtain ⟨x, hx, ho, hc, w, hd, hw⟩ := (isWalk_append p [e] u v).mp h
  simp only [Graph.IsWalk] at hw
  subst hw
  exact ⟨p, e, x, rfl, hx, ho, hc, hd⟩

/-- A walk can be cut at any vertex it enters. -/
theorem isWalk_cut {m : Graph} : ∀ (es : List Nat) (u v x : Nat), m.IsWalk u es v →
    x ∈ m.walkDests es → ∃ a b, es = a ++ b ∧ a ≠ [] ∧ m.IsWalk u a x ∧ m.IsWalk x b v := by
  intro es
  induction es with
  | nil => intro u v x _ hx; simp [Graph.walkDests] at hx
  | cons e es ih =>
    intro u v x h hx
    simp only [Graph.IsWalk] at h
    obtain ⟨h1, h2, w, h3, h4⟩ := h
    simp only [Graph.walkDests, List.map_cons, List.mem_cons, h3, Option.getD_some] at hx
    rcases hx with hx | hx
    · subst hx
      exact ⟨[e], es, rfl, by simp, ⟨h1, h2, x, h3, rfl⟩, h4⟩
    · obtain ⟨a, b, hab, -, ha, hb⟩ := ih w v x h4 hx
      exact ⟨e :: a, b, by rw [hab]; rfl, by simp, ⟨h1, h2, w, h3, ha⟩, hb⟩

/-- A walk that meets a vertex twice contains a closed walk. -/
theorem isWalk_closed_part {m : Graph} : ∀ (es : List Nat) (u v : Nat), m.IsWalk u es v →
    ¬ (u :: m.walkDests es).Nodup →
    ∃ a c b x, es = a ++ c ++ b ∧ c ≠ [] ∧ m.IsWalk u a x ∧ m.IsWalk x c x ∧
      m.IsWalk x b v := by
  intro es
  induction es with
  | nil => intro u v _ hnd; simp [Graph.walkDests] at hnd
  | cons e es ih =>
    intro u v h hnd
    by_cases hu : u ∈ m.walkDests (e :: es)
    · obtain ⟨c, b, hcb, hc, hwc, hwb⟩ := isWalk_cut (e :: es) u v u h hu
      exact ⟨[], c, b, u, by simpa using hcb, hc, rfl, hwc, hwb⟩
    · have h0 := h
      simp only [Graph.IsWalk] at h
      obtain ⟨h1, h2, w, h3, h4⟩ := h
      have hnd2 : ¬ (w :: m.walkDests es).Nodup := by
        intro hn
        apply hnd
        rw [List.nodup_cons]
        refine ⟨hu, ?_⟩
        simpa [Graph.walkDests, h3] using hn
      obtain ⟨a, c, b, x, habc, hc, hwa, hwc, hwb⟩ := ih w v h4 hnd2
      exact ⟨e :: a, c, b, x, by rw [habc]; simp, hc, ⟨h1, h2, w, h3, hwa⟩, hwc, hwb⟩

/-- The vertices a walk of a well-linked graph enters are vertices of the graph. -/
theorem isWalk_dests_lt {m : Graph} (hw : m.WellLinked) : ∀ (es : List Nat) (u v : Nat),
    m.IsWalk u es v → ∀ x ∈ m.walkDests es, x < m.vertexSet.length := by
  intro es
  induction es with
  | nil => intro u v _ x hx; simp [Graph.walkDests] at hx
  | cons e es ih =>
    intro u v h x hx
    simp only [Graph.IsWalk] at h
    obtain ⟨h1, -, w, h3, h4⟩ := h
    simp only [Graph.walkDests, List.map_cons, List.mem_cons, h3, Option.getD_some] at hx
    rcases hx with hx | hx
    · subst hx
      have he : e < m.edges.length := by
        by_contra hc
        have : m.edges[e]? = none := List.getElem?_eq_none (by omega)
        simp [Graph.getOrig, this] at h1
      obtain ⟨-, ⟨y, hy, hd, -⟩, -⟩ := hw.1 e he
      rw [h3] at hd
      rw [Option.some.inj hd]; exact hy
    · exact ih w v h4 x hx

theorem getOrig_lt {m : Graph} (hw : m.WellLinked) {e u : Nat} (h : m.getOrig e = some u) :
    e < m.edges.length ∧ u < m.vertexSet.length := by
  have he : e < m.edges.length := by
    by_contra hc
    have : m.edges[e]? = none := List.getElem?_eq_none (by omega)
    simp [Graph.getOrig, this] at h
  obtain ⟨⟨y, hy, ho, -⟩, -, -⟩ := hw.1 e he
  rw [h] at ho
  exact ⟨he, by rw [Option.some.inj ho]; exact hy⟩

theorem getDest_lt {m : Graph} (hw : m.WellLinked) {e v : Nat} (h : m.getDest e = some v) :
    e < m.edges.length ∧ v < m.vertexSet.length := by
  have he : e < m.edges.length := by
    by_contra hc
    have : m.edges[e]? = none := List.getElem?_eq_none (by omega)
    simp [Graph.getDest, this] at h
  obtain ⟨-, ⟨y, hy, hd, -⟩, -⟩ := hw.1 e he
  rw [h] at hd
  exact ⟨he, by rw [Option.some.inj hd]; exact hy⟩

theorem walkDests_length (m : Graph) (es : List Nat) : (m.walkDests es).length = es.length := by
  simp [Graph.walkDests]

/-- In a well-linked graph without a negative closed walk, every walk can be replaced by a
walk between the same vertices that meets no vertex twice and does not cost more. -/
theorem isWalk_shorten {m : Graph} (hno : ¬ m.HasNegativeCycle) :
    ∀ (n : Nat) (es : List Nat) (u v : Nat), es.length ≤ n → m.IsWalk u es v →
      ∃ es2, m.IsWalk u es2 v ∧ (u :: m.walkDests es2).Nodup ∧
        m.walkCost es2 ≤ m.walkCost es := by
  intro n
  induction n with
  | zero =>
    intro es u v hlen h
    have : es = [] := List.length_eq_zero.mp (by omega)
    subst this
    exact ⟨[], h, by simp [Graph.walkDests], le_refl _⟩
  | succ n ih =>
    intro es u v hlen h
    by_cases hnd : (u :: m.walkDests es).Nodup
    · exact ⟨es, h, hnd, le_refl _⟩
    · obtain ⟨a, c, b, x, habc, hc, hwa, hwc, hwb⟩ := isWalk_closed_part es u v h hnd
      have hcost : 0 ≤ m.walkCost c := by
        by_contra hneg
        exact hno ⟨x, c, hc, hwc, by omega⟩
      have hclen : 0 < c.length := List.length_pos.mpr hc
      have hab : m.IsWalk u (a ++ b) v := (isWalk_append a b u v).mpr ⟨x, hwa, hwb⟩
      have hlen2 : (a ++ b).length ≤ n := by
        have : es.length = a.length + c.length + b.length := by rw [habc]; simp; omega
        simp only [List.length_append]; omega
      obtain ⟨es2, h1, h2, h3⟩ := ih (a ++ b) u v hlen2 hab
      refine ⟨es2, h1, h2, le_trans h3 ?_⟩
      rw [habc, walkCost_append, walkCost_append, walkCost_append]
      omega

/-- A walk of a well-linked graph that meets no vertex twice and starts at a vertex of the
graph has fewer edges than the graph has vertices. -/
theorem isWalk_length_lt {m : Graph} (hw : m.WellLinked) {es : List Nat} {u v : Nat}
    (h : m.IsWalk u es v) (hu : u < m.vertexSet.length) (hnd : (u :: m.walkDests es).Nodup) :
    es.length + 1 ≤ m.vertexSet.length := by
  have := nodup_length_le hnd (by
    intro x hx
    rcases List.mem_cons.mp hx with hx | hx
    · rw [hx]; exact hu
    · exact isWalk_dests_lt hw es u v h x hx)
  simpa [walkDests_length] using this

/-- A closed walk of negative cost contains a cycle of negative cost. -/
theorem hasSimpleNegativeCycle_iff (m : Graph) :
    m.HasSimpleNegativeCycle ↔ m.HasNegativeCycle := by
  constructor
  · rintro ⟨x, es, h1, h2, -, h4⟩
    exact ⟨x, es, h1, h2, h4⟩
  · rintro ⟨x, es, h1, h2, h4⟩
    have key : ∀ (n : Nat) (es : List Nat) (x : Nat), es.length ≤ n → es ≠ [] →
        m.IsWalk x es x → m.walkCost es < 0 → m.HasSimpleNegativeCycle := by
      intro n
      induction n with
      | zero =>
        intro es x hlen hne _ _
        exact absurd (List.length_eq_zero.mp (by omega)) hne
      | succ n ih =>
        intro es x hlen hne hwalk hcost
        by_cases hnd : (m.walkDests es).Nodup
        · exact ⟨x, es, hne, hwalk, hnd, hcost⟩
        · cases es with
          | nil => exact absurd rfl hne
          | cons e es =>
            have h0 := hwalk
            simp only [Graph.IsWalk] at hwalk
            obtain ⟨ho, hc, w, hd, hrest⟩ := hwalk
            have hnd2 : ¬ (w :: m.walkDests es).Nodup := by
              intro hn; apply hnd
              simpa [Graph.walkDests, hd] using hn
            obtain ⟨a, c, b, y, habc, hcne, hwa, hwc, hwb⟩ :=
              isWalk_closed_part es w x hrest hnd2
            have hclen : 0 < c.length := List.length_pos.mpr hcne
            have hlen3 : es.length = a.length + c.length + b.length := by rw [habc]; simp; omega
            simp only [List.length_cons] at hlen
            by_cases hcc : m.walkCost c < 0
            · exact ih c y (by omega) hcne hwc hcc
            · have hab : m.IsWalk x (e :: (a ++ b)) x :=
                ⟨ho, hc, w, hd, (isWalk_append a b w x).mpr ⟨y, hwa, hwb⟩⟩
              apply ih (e :: (a ++ b)) x (by simp only [List.length_cons, List.length_append]; omega)
                (by simp) hab
              rw [habc, walkCost_cons, walkCost_append, walkCost_append] at hcost
              rw [walkCost_cons, walkCost_append]
              omega
    exact key es.length es x (le_refl _) h1 h2 h4

/-- A feasible potential excludes negative closed walks. -/
theorem settled_walk {m : Graph} (hs : m.Settled) : ∀ (es : List Nat) (u v : Nat),
    m.IsWalk u es v → m.costAt v ≤ m.costAt u + m.walkCost es := by
  intro es
  induction es with
  | nil =>
    intro u v h
    simp only [Graph.IsWalk] at h
    subst h
    simp [Graph.walkCost]
  | cons e es ih =>
    intro u v h
    simp only [Graph.IsWalk] at h
    obtain ⟨ho, hc, w, hd, hrest⟩ := h
    have h1 := hs e u w hc ho hd
    have h2 := ih w v hrest
    rw [walkCost_cons]
    omega

theorem settled_no_cycle {m : Graph} (hs : m.Settled) : ¬ m.HasNegativeCycle := by
  rintro ⟨x, es, -, hw, hc⟩
  have := settled_walk hs es x x hw
  omega

/-! ## One pass of `bellmanFord` with exact sums -/

theorem RelaxFrame.rfl0 (m : Graph) : RelaxFrame m m := ⟨rfl, rfl, fun _ => rfl⟩

theorem RelaxFrame.getOrig_eq {m0 m : Graph} (h : RelaxFrame m0 m) (e : Nat) :
    m.getOrig e = m0.getOrig e := by simp [Graph.getOrig, h.edges]

theorem RelaxFrame.capOf_eq {m0 m : Graph} (h : RelaxFrame m0 m) (e : Nat) :
    m.capOf e = m0.capOf e := by simp [Graph.capOf, Graph.getCapacity, h.edges]

/-- The relaxation `v->setCost(tempCost); v->setPath(e)` changes the cost of `v` and keeps
the edges, the number of vertices and the lists of incoming edges. -/
theorem relax_update {m m1 : Graph} {v e : Nat} {c : Int}
    (h : m.updateVertex v (fun y => { y with cost := c, path := some e }) = some m1) :
    RelaxFrame m m1 ∧ ∀ y, m1.costAt y = if y = v then c else m.costAt y := by
  obtain ⟨he, -, -, hlen⟩ := updateVertex_rest h
  have hvs := updateVertex_vertexSet h
  obtain ⟨x, hx, -⟩ := updateVertex_eq_some h
  refine ⟨⟨he, hlen, ?_⟩, ?_⟩
  · intro y
    simp only [Graph.incomingOf, hvs]
    by_cases hy : y = v
    · subst hy; simp [hx]
    · simp [hy]
  · intro y
    simp only [Graph.costAt, hvs]
    by_cases hy : y = v
    · subst hy; simp [hx]
    · simp [hy]

theorem RelaxFrame.trans0 {m0 m m1 : Graph} (h1 : RelaxFrame m0 m) (h2 : RelaxFrame m m1) :
    RelaxFrame m0 m1 :=
  ⟨h2.edges.trans h1.edges, h2.length.trans h1.length,
    fun x => (h2.incomingOf x).trans (h1.incomingOf x)⟩

theorem BoundedBy.monoFrame {m0 m m1 : Graph} {k : Nat} (h : BoundedBy m0 m k)
    (hle : ∀ y, m1.costAt y ≤ m.costAt y) : BoundedBy m0 m1 k :=
  fun u es v hw hl => le_trans (hle v) (h u es v hw hl)

theorem ScannedBy.monoScan {m0 m m1 : Graph} {k : Nat} {S : Nat → Prop} (h : ScannedBy m0 m k S)
    (hle : ∀ y, m1.costAt y ≤ m.costAt y) : ScannedBy m0 m1 k S :=
  fun e hS hc u p x v ho hd hw hl => le_trans (hle v) (h e hS hc u p x v ho hd hw hl)

/-- What the relaxation of one incoming edge `e` of the vertex `v` does in a pass that is
not the final one: the rest of the loop goes on from a state in which the invariants hold
and `e` counts as relaxed. -/
theorem relaxIncoming_step {m0 m : Graph} (hw : m0.WellLinked) {i v k e : Nat}
    {S : Nat → Prop} (hi : i ≠ m0.vertexSet.length) (hf : RelaxFrame m0 m)
    (hd : m0.getDest e = some v) (hr : Realized m0 m) (hb : BoundedBy m0 m k)
    (hsc : ScannedBy m0 m k S) :
    ∃ m1, (∀ es, relaxIncomingExact i v (e :: es) m = relaxIncomingExact i v es m1) ∧
      RelaxFrame m0 m1 ∧ Realized m0 m1 ∧ BoundedBy m0 m1 k ∧
      ScannedBy m0 m1 k (fun e2 => S e2 ∨ e2 = e) := by
  obtain ⟨he, hv⟩ := getDest_lt hw hd
  obtain ⟨⟨x, hx, ho, -⟩, -, -⟩ := hw.1 e he
  have hedge : m.edges[e]? = some m0.edges[e] := by
    rw [hf.edges]; exact List.getElem?_eq_getElem he
  have hxo : m0.edges[e].orig = x := by
    simpa [Graph.getOrig, List.getElem?_eq_getElem he] using ho
  have hcapE : m0.capOf e = m0.edges[e].capacity := by
    simp [Graph.capOf, Graph.getCapacity, List.getElem?_eq_getElem he]
  have hcostE : m0.edgeCost e = m0.edges[e].cost := by
    simp [Graph.edgeCost, List.getElem?_eq_getElem he]
  have hxm : x < m.vertexSet.length := by rw [hf.length]; exact hx
  have hvm : v < m.vertexSet.length := by rw [hf.length]; exact hv
  have hcx : m.costAt x = (m.vertexSet[x]).cost := by
    simp [Graph.costAt, List.getElem?_eq_getElem hxm]
  have hcv : m.costAt v = (m.vertexSet[v]).cost := by
    simp [Graph.costAt, List.getElem?_eq_getElem hvm]
  have hscan : ∀ (m1 : Graph), (∀ y, m1.costAt y ≤ m.costAt y) →
      (0 < m0.capOf e → m1.costAt v ≤ m.costAt x + m0.edgeCost e) →
      ScannedBy m0 m1 k (fun e2 => S e2 ∨ e2 = e) := by
    intro m1 hle hnew e2 hS hc u p x2 v2 ho2 hd2 hwk hl
    rcases hS with hS | rfl
    · exact (hsc.monoScan hle) e2 hS hc u p x2 v2 ho2 hd2 hwk hl
    · rw [ho] at ho2
      obtain rfl := Option.some.inj ho2
      rw [hd] at hd2
      obtain rfl := Option.some.inj hd2
      have h1 := hnew hc
      have h2 := hb u p x hwk hl
      omega
  by_cases hc : m0.edges[e].capacity > 0
  · by_cases hlt : (m.vertexSet[x]).cost + m0.edges[e].cost < (m.vertexSet[v]).cost
    · obtain ⟨m1, hm1⟩ := updateVertex_some (g := m)
        (fun y => { y with cost := (m.vertexSet[x]).cost + m0.edges[e].cost, path := some e })
        hvm
      obtain ⟨hf1, hcost1⟩ := relax_update hm1
      have hle : ∀ y, m1.costAt y ≤ m.costAt y := by
        intro y
        rw [hcost1]
        by_cases hy : y = v
        · subst hy; rw [if_pos rfl, hcv]; omega
        · rw [if_neg hy]
      refine ⟨m1, ?_, hf.trans0 hf1, ?_, hb.monoFrame hle, ?_⟩
      · intro es
        rw [relaxIncomingExact]
        simp only [Option.bind_eq_bind, hedge, Option.some_bind, hc, if_true, hxo,
          List.getElem?_eq_getElem hxm, List.getElem?_eq_getElem hvm, hlt,
          if_neg (show ¬ i = m.vertexSet.length by rw [hf.length]; exact hi), hm1]
      · intro y hy
        by_cases hyv : y = v
        · subst hyv
          obtain ⟨u, p, hwp, hcp⟩ := hr x hx
          refine ⟨u, p ++ [e], isWalk_snoc hwp ho (by rw [hcapE]; exact hc) hd, ?_⟩
          rw [hcost1, if_pos rfl, walkCost_append, ← hcx, hcp]
          simp [Graph.walkCost, hcostE]
          ring
        · obtain ⟨u, p, hwp, hcp⟩ := hr y hy
          exact ⟨u, p, hwp, by rw [hcost1, if_neg hyv]; exact hcp⟩
      · apply hscan m1 hle
        intro _
        rw [hcost1, if_pos rfl, hcx, hcostE]
    · refine ⟨m, ?_, hf, hr, hb, ?_⟩
      · intro es
        rw [relaxIncomingExact]
        simp only [Option.bind_eq_bind, hedge, Option.some_bind, hc, if_true, hxo,
          List.getElem?_eq_getElem hxm, List.getElem?_eq_getElem hvm, hlt, if_false]
      · apply hscan m (fun _ => le_refl _)
        intro _
        rw [hcx, hcv, hcostE]; omega
  · refine ⟨m, ?_, hf, hr, hb, ?_⟩
    · intro es
      rw [relaxIncomingExact]
      simp only [Option.bind_eq_bind, hedge, Option.some_bind, hc, if_false]
    · apply hscan m (fun _ => le_refl _)
      intro hpos
      rw [hcapE] at hpos
      exact absurd hpos hc

theorem ScannedBy.imp {m0 m : Graph} {k : Nat} {S T : Nat → Prop} (h : ScannedBy m0 m k S)
    (hT : ∀ e, T e → S e) : ScannedBy m0 m k T :=
  fun e hTe => h e (hT e hTe)

/-- The loop over the incoming edges of a vertex in a pass that is not the final one: it
returns without a cycle, it keeps the invariants, and every edge of the list counts as
relaxed afterwards. -/
theorem relaxIncoming_pass {m0 : Graph} (hw : m0.WellLinked) {i v k : Nat}
    (hi : i ≠ m0.vertexSet.length) :
    ∀ (es : List Nat) (m : Graph) (S : Nat → Prop), RelaxFrame m0 m →
      (∀ e ∈ es, m0.getDest e = some v) → Realized m0 m → BoundedBy m0 m k →
      ScannedBy m0 m k S →
      ∃ m1, relaxIncomingExact i v es m = some (none, m1) ∧ RelaxFrame m0 m1 ∧ Realized m0 m1 ∧
        BoundedBy m0 m1 k ∧ ScannedBy m0 m1 k (fun e => S e ∨ e ∈ es) := by
  intro es
  induction es with
  | nil =>
    intro m S hf _ hr hb hsc
    exact ⟨m, by simp [relaxIncomingExact], hf, hr, hb, hsc.imp (fun e h => by simpa using h)⟩
  | cons e es ih =>
    intro m S hf hd hr hb hsc
    obtain ⟨m1, heq, hf1, hr1, hb1, hsc1⟩ :=
      relaxIncoming_step hw hi hf (hd e (List.mem_cons_self _ _)) hr hb hsc
    obtain ⟨m2, h2, hf2, hr2, hb2, hsc2⟩ := ih m1 _ hf1
      (fun e2 he2 => hd e2 (List.mem_cons_of_mem _ he2)) hr1 hb1 hsc1
    refine ⟨m2, by rw [heq]; exact h2, hf2, hr2, hb2, hsc2.imp ?_⟩
    intro e2 h
    rcases h with h | h
    · exact Or.inl (Or.inl h)
    · rcases List.mem_cons.mp h with h | h
      · exact Or.inl (Or.inr h)
      · exact Or.inr h

/-- The loop over the vertices in a pass that is not the final one: it returns without a
cycle and keeps the invariants; after the pass the costs are bounded by the walks of one more
edge. -/
theorem relaxVertices_pass {m0 : Graph} (hw : m0.WellLinked) {i k : Nat}
    (hi : i ≠ m0.vertexSet.length) :
    ∀ (cnt v : Nat) (m : Graph), v + cnt = m0.vertexSet.length → RelaxFrame m0 m →
      Realized m0 m → BoundedBy m0 m k →
      ScannedBy m0 m k (fun e => ∃ y, y < v ∧ m0.getDest e = some y) →
      ∃ m1, relaxVerticesExact i cnt v m = some (none, m1) ∧ RelaxFrame m0 m1 ∧ Realized m0 m1 ∧
        BoundedBy m0 m1 (k + 1) := by
  intro cnt
  induction cnt with
  | zero =>
    intro v m hv hf hr hb hsc
    refine ⟨m, by simp [relaxVerticesExact], hf, hr, ?_⟩
    intro u es v2 hwalk hlen
    by_cases hne : es = []
    · subst hne; exact hb u [] v2 hwalk (by simp)
    · obtain ⟨p, e, x, rfl, hp, ho, hc, hd⟩ := isWalk_last hwalk hne
      have hpl : p.length ≤ k := by simpa using hlen
      have := hsc e ⟨v2, by have := (getDest_lt hw hd).2; omega, hd⟩ hc u p x v2 ho hd hp hpl
      have he : m0.walkCost [e] = m0.edgeCost e := by simp [Graph.walkCost]
      rw [walkCost_append, he]
      omega
  | succ cnt ih =>
    intro v m hv hf hr hb hsc
    have hvl : v < m0.vertexSet.length := by omega
    have hvm : v < m.vertexSet.length := by rw [hf.length]; exact hvl
    have hinc : (m.vertexSet[v]).incoming = m0.incomingOf v := by
      rw [← hf.incomingOf]
      simp [Graph.incomingOf, List.getElem?_eq_getElem hvm]
    obtain ⟨m1, h1, hf1, hr1, hb1, hsc1⟩ := relaxIncoming_pass hw hi (m0.incomingOf v) m _ hf
      (fun e he => ((hw.2.1 v hvl).2.2.1 e he).2) hr hb hsc
    obtain ⟨m2, h2, hf2, hr2, hb2⟩ := ih (v + 1) m1 (by omega) hf1 hr1 hb1 (hsc1.imp (by
      rintro e ⟨y, hy, hd⟩
      by_cases hyv : y = v
      · subst hyv
        exact Or.inr ((hw.mem_incomingOf (getDest_lt hw hd).1 hvl).mpr hd)
      · exact Or.inl ⟨y, by omega, hd⟩))
    refine ⟨m2, ?_, hf2, hr2, hb2⟩
    rw [relaxVerticesExact]
    simp only [Option.bind_eq_bind, List.getElem?_eq_getElem hvm, Option.some_bind, hinc, h1]
    exact h2

/-- In a state whose costs, started from the state `m0` of a well-linked graph without a
negative closed walk, are realized by walks and bounded by the walks of fewer edges than the
graph has vertices, no edge can be relaxed. -/
theorem settled_of_bounded {m0 m : Graph} (hw : m0.WellLinked) (hno : ¬ m0.HasNegativeCycle)
    (hr : Realized m0 m)
    (hb : BoundedBy m0 m (m0.vertexSet.length - 1)) :
    ∀ e x v, 0 < m0.capOf e → m0.getOrig e = some x → m0.getDest e = some v →
      m.costAt v ≤ m.costAt x + m0.edgeCost e := by
  intro e x v hc ho hd
  obtain ⟨-, hx⟩ := getOrig_lt hw ho
  obtain ⟨u, p, hwp, hcp⟩ := hr x hx
  have hwalk : m0.IsWalk u (p ++ [e]) v := isWalk_snoc hwp ho hc hd
  have hu : u < m0.vertexSet.length := by
    cases p with
    | nil =>
      simp only [Graph.IsWalk] at hwp
      rw [hwp]; exact hx
    | cons e1 p =>
      simp only [Graph.IsWalk] at hwp
      exact (getOrig_lt hw hwp.1).2
  obtain ⟨es2, h1, h2, h3⟩ := isWalk_shorten hno _ (p ++ [e]) u v (le_refl _) hwalk
  have hlen := isWalk_length_lt hw h1 hu h2
  have := hb u es2 v h1 (by omega)
  rw [walkCost_append] at h3
  have he : m0.walkCost [e] = m0.edgeCost e := by simp [Graph.walkCost]
  rw [he] at h3
  omega

/-- The loop over the incoming edges of a vertex goes through without a change when none of
the edges can be relaxed. -/
theorem relaxIncoming_quiet {m0 m : Graph} (hw : m0.WellLinked) (hf : RelaxFrame m0 m)
    {i v : Nat} (hv : v < m0.vertexSet.length)
    (hs : ∀ e x, 0 < m0.capOf e → m0.getOrig e = some x → m0.getDest e = some v →
      m.costAt v ≤ m.costAt x + m0.edgeCost e) :
    ∀ es : List Nat, (∀ e ∈ es, m0.getDest e = some v) →
      relaxIncomingExact i v es m = some (none, m) := by
  intro es
  induction es with
  | nil => intro _; simp [relaxIncomingExact]
  | cons e es ih =>
    intro hd
    have hde := hd e (List.mem_cons_self _ _)
    obtain ⟨he, -⟩ := getDest_lt hw hde
    obtain ⟨⟨x, hx, ho, -⟩, -, -⟩ := hw.1 e he
    have hedge : m.edges[e]? = some m0.edges[e] := by
      rw [hf.edges]; exact List.getElem?_eq_getElem he
    have hxo : m0.edges[e].orig = x := by
      simpa [Graph.getOrig, List.getElem?_eq_getElem he] using ho
    have hcapE : m0.capOf e = m0.edges[e].capacity := by
      simp [Graph.capOf, Graph.getCapacity, List.getElem?_eq_getElem he]
    have hcostE : m0.edgeCost e = m0.edges[e].cost := by
      simp [Graph.edgeCost, List.getElem?_eq_getElem he]
    have hxm : x < m.vertexSet.length := by rw [hf.length]; exact hx
    have hvm : v < m.vertexSet.length := by rw [hf.length]; exact hv
    have hcx : m.costAt x = (m.vertexSet[x]).cost := by
      simp [Graph.costAt, List.getElem?_eq_getElem hxm]
    have hcv : m.costAt v = (m.vertexSet[v]).cost := by
      simp [Graph.costAt, List.getElem?_eq_getElem hvm]
    have ih' := ih (fun e2 he2 => hd e2 (List.mem_cons_of_mem _ he2))
    rw [relaxIncomingExact]
    by_cases hc : m0.edges[e].capacity > 0
    · have := hs e x (by rw [hcapE]; exact hc) ho hde
      rw [hcx, hcv, hcostE] at this
      have hlt : ¬ ((m.vertexSet[x]).cost + m0.edges[e].cost < (m.vertexSet[v]).cost) := by
        omega
      simp only [Option.bind_eq_bind, hedge, Option.some_bind, hc, if_true, hxo,
        List.getElem?_eq_getElem hxm, List.getElem?_eq_getElem hvm, hlt, if_false]
      exact ih'
    · simp only [Option.bind_eq_bind, hedge, Option.some_bind, hc, if_false]
      exact ih'

theorem relaxVertices_quiet {m0 m : Graph} (hw : m0.WellLinked) (hf : RelaxFrame m0 m)
    {i : Nat}
    (hs : ∀ e x v, 0 < m0.capOf e → m0.getOrig e = some x → m0.getDest e = some v →
      m.costAt v ≤ m.costAt x + m0.edgeCost e) :
    ∀ (cnt v : Nat), v + cnt = m0.vertexSet.length →
      relaxVerticesExact i cnt v m = some (none, m) := by
  intro cnt
  induction cnt with
  | zero => intro v _; simp [relaxVerticesExact]
  | succ cnt ih =>
    intro v hv
    have hvl : v < m0.vertexSet.length := by omega
    have hvm : v < m.vertexSet.length := by rw [hf.length]; exact hvl
    have hinc : (m.vertexSet[v]).incoming = m0.incomingOf v := by
      rw [← hf.incomingOf]
      simp [Graph.incomingOf, List.getElem?_eq_getElem hvm]
    have h1 := relaxIncoming_quiet hw hf (i := i) hvl (fun e x => hs e x v) (m0.incomingOf v)
      (fun e he => ((hw.2.1 v hvl).2.2.1 e he).2)
    rw [relaxVerticesExact]
    simp only [Option.bind_eq_bind, List.getElem?_eq_getElem hvm, Option.some_bind, hinc, h1]
    exact ih (v + 1) (by omega)

/-- The passes of `bellmanFord` on a well-linked graph without a negative closed walk: from
pass `i` on, all the passes that are left, the final one included, go through, and the list
returned is empty. -/
theorem relaxPasses_quiet {m0 : Graph} (hw : m0.WellLinked) (hno : ¬ m0.HasNegativeCycle) :
    ∀ (k i : Nat) (m : Graph), i + k = m0.vertexSet.length + 1 → 1 ≤ i → RelaxFrame m0 m →
      Realized m0 m → BoundedBy m0 m (i - 1) →
      ∃ m1, relaxPassesExact k i m = some ([], m1) := by
  intro k
  induction k with
  | zero => intro i m _ _ _ _ _; exact ⟨m, by simp [relaxPassesExact]⟩
  | succ k ih =>
    intro i m hik hi hf hr hb
    rw [relaxPassesExact]
    simp only [Option.bind_eq_bind, hf.length]
    by_cases hin : i = m0.vertexSet.length
    · have hk : k = 0 := by omega
      subst hk
      have hset := settled_of_bounded hw hno hr (by rw [← hin]; exact hb)
      rw [relaxVertices_quiet hw hf hset _ 0 (by omega)]
      exact ⟨m, by simp [relaxPassesExact]⟩
    · obtain ⟨m1, h1, hf1, hr1, hb1⟩ := relaxVertices_pass hw (k := i - 1) hin
        m0.vertexSet.length 0 m (by omega) hf hr hb (by
          rintro e ⟨y, hy, -⟩; omega)
      rw [h1]
      simp only [Option.some_bind]
      exact ih (i + 1) m1 (by omega) (by omega) hf1 hr1 (by
        have : i + 1 - 1 = i - 1 + 1 := by omega
        rw [this]; exact hb1)

/-! ## What passes with exact sums that return the empty list have checked -/

theorem traceCycle_length : ∀ (fuel : Nat) (m : Graph) (cv temp : Nat) (acc l : List Nat),
    traceCycle fuel m cv temp acc = some l → 1 < l.length := by
  intro fuel
  induction fuel with
  | zero => intro m cv temp acc l h; simp [traceCycle] at h
  | succ fuel ih =>
    intro m cv temp acc l h
    rw [traceCycle] at h
    simp only [Option.bind_eq_bind, Option.bind_eq_some] at h
    obtain ⟨x, -, p, -, h⟩ := h
    split at h
    · rename_i hc
      obtain rfl := Option.some.inj h
      exact hc.2
    · simp only [Option.bind_eq_some] at h
      obtain ⟨t, -, q, -, nx, -, h⟩ := h
      exact ih _ _ _ _ _ h

theorem traceNegativeCycle_ne {m : Graph} {v : Nat} {c : List Nat}
    (h : traceNegativeCycle m v = some c) : c ≠ [] := by
  simp only [traceNegativeCycle, Option.bind_eq_bind, Option.bind_eq_some] at h
  obtain ⟨cv, -, h⟩ := h
  have := traceCycle_length _ _ _ _ _ _ h
  intro hc
  rw [hc] at this
  simp at this

/-- What the loop over the incoming edges of a vertex has done when it returns: only costs
and predecessor edges have changed, a cycle it reports is not empty, and in the final pass a
return without a cycle means that nothing has changed and that none of the edges could be
relaxed. -/
theorem relaxIncoming_result {i v : Nat} : ∀ (es : List Nat) (m : Graph)
    (found : Option (List Nat)) (m1 : Graph), relaxIncomingExact i v es m = some (found, m1) →
    RelaxFrame m m1 ∧ (∀ c, found = some c → c ≠ []) ∧
    (i = m.vertexSet.length → found = none →
      m1 = m ∧ ∀ e ∈ es, 0 < m.capOf e → ∀ x, m.getOrig e = some x →
        m.costAt v ≤ m.costAt x + m.edgeCost e) := by
  intro es
  induction es with
  | nil =>
    intro m found m1 h
    simp only [relaxIncomingExact, Option.some.injEq, Prod.mk.injEq] at h
    obtain ⟨rfl, rfl⟩ := h
    exact ⟨RelaxFrame.rfl0 _, fun c hc => by simp at hc, fun _ _ => ⟨rfl, by simp⟩⟩
  | cons e es ih =>
    intro m found m1 h
    rw [relaxIncomingExact] at h
    simp only [Option.bind_eq_bind, Option.bind_eq_some] at h
    obtain ⟨edge, hedge, h⟩ := h
    have hcapE : m.capOf e = edge.capacity := by
      simp [Graph.capOf, Graph.getCapacity, hedge]
    have hcostE : m.edgeCost e = edge.cost := by simp [Graph.edgeCost, hedge]
    have hoE : m.getOrig e = some edge.orig := by simp [Graph.getOrig, hedge]
    split at h
    · rename_i hc
      simp only [Option.bind_eq_some] at h
      obtain ⟨o, ho, x, hx, h⟩ := h
      have hco : m.costAt edge.orig = o.cost := by simp [Graph.costAt, ho]
      have hcv : m.costAt v = x.cost := by simp [Graph.costAt, hx]
      split at h
      · rename_i hlt
        split at h
        · rename_i hfin
          simp only [Option.bind_eq_some, Option.some.injEq, Prod.mk.injEq] at h
          obtain ⟨c, hc1, rfl, rfl⟩ := h
          refine ⟨RelaxFrame.rfl0 _, ?_, fun _ hn => by simp at hn⟩
          intro c2 hc2
          obtain rfl := Option.some.inj hc2
          exact traceNegativeCycle_ne hc1
        · rename_i hfin
          simp only [Option.bind_eq_some] at h
          obtain ⟨m2, hm2, h⟩ := h
          obtain ⟨hf2, -⟩ := relax_update hm2
          obtain ⟨hf3, hne, -⟩ := ih m2 found m1 h
          exact ⟨hf2.trans0 hf3, hne, fun hi => absurd hi hfin⟩
      · rename_i hlt
        obtain ⟨hf3, hne, hfinal⟩ := ih m found m1 h
        refine ⟨hf3, hne, ?_⟩
        intro hi hn
        obtain ⟨h1, h2⟩ := hfinal hi hn
        refine ⟨h1, ?_⟩
        intro e2 he2 hcap x2 ho2
        rcases List.mem_cons.mp he2 with rfl | he2
        · rw [hoE] at ho2
          obtain rfl := Option.some.inj ho2
          rw [hco, hcv, hcostE]; omega
        · exact h2 e2 he2 hcap x2 ho2
    · rename_i hc
      obtain ⟨hf3, hne, hfinal⟩ := ih m found m1 h
      refine ⟨hf3, hne, ?_⟩
      intro hi hn
      obtain ⟨h1, h2⟩ := hfinal hi hn
      refine ⟨h1, ?_⟩
      intro e2 he2 hcap x2 ho2
      rcases List.mem_cons.mp he2 with rfl | he2
      · rw [hcapE] at hcap
        exact absurd hcap hc
      · exact h2 e2 he2 hcap x2 ho2

theorem relaxVertices_result {i : Nat} : ∀ (cnt v : Nat) (m : Graph)
    (found : Option (List Nat)) (m1 : Graph), relaxVerticesExact i cnt v m = some (found, m1) →
    RelaxFrame m m1 ∧ (∀ c, found = some c → c ≠ []) ∧
    (i = m.vertexSet.length → found = none →
      m1 = m ∧ ∀ y, v ≤ y → y < v + cnt → ∀ e ∈ m.incomingOf y, 0 < m.capOf e →
        ∀ x, m.getOrig e = some x → m.costAt y ≤ m.costAt x + m.edgeCost e) := by
  intro cnt
  induction cnt with
  | zero =>
    intro v m found m1 h
    simp only [relaxVerticesExact, Option.some.injEq, Prod.mk.injEq] at h
    obtain ⟨rfl, rfl⟩ := h
    exact ⟨RelaxFrame.rfl0 _, fun c hc => by simp at hc,
      fun _ _ => ⟨rfl, fun y h1 h2 => by omega⟩⟩
  | succ cnt ih =>
    intro v m found m1 h
    rw [relaxVerticesExact] at h
    simp only [Option.bind_eq_bind, Option.bind_eq_some] at h
    obtain ⟨x, hx, ⟨f2, m2⟩, h2, h⟩ := h
    obtain ⟨hf2, hne2, hfin2⟩ := relaxIncoming_result _ _ _ _ h2
    have hinc : m.incomingOf v = x.incoming := by simp [Graph.incomingOf, hx]
    cases f2 with
    | some c =>
      simp only [Option.some.injEq, Prod.mk.injEq] at h
      obtain ⟨rfl, rfl⟩ := h
      exact ⟨hf2, hne2, fun _ hn => by simp at hn⟩
    | none =>
      dsimp only at h
      obtain ⟨hf3, hne3, hfin3⟩ := ih (v + 1) m2 found m1 h
      refine ⟨hf2.trans0 hf3, hne3, ?_⟩
      intro hi hn
      obtain ⟨rfl, hv⟩ := hfin2 hi rfl
      obtain ⟨rfl, hrest⟩ := hfin3 hi hn
      refine ⟨rfl, ?_⟩
      intro y hy1 hy2 e he hc x2 ho
      by_cases hyv : y = v
      · subst hyv
        rw [hinc] at he
        exact hv e he hc x2 ho
      · exact hrest y (by omega) (by omega) e he hc x2 ho

/-- When the passes of `bellmanFord` return the empty list, the final pass has found, in a
state that differs from the first one in costs and predecessor edges only, that no incoming
edge of any vertex can be relaxed. -/
theorem relaxPasses_result : ∀ (k i : Nat) (m m1 : Graph), i + k = m.vertexSet.length + 1 →
    1 ≤ k → relaxPassesExact k i m = some ([], m1) →
    ∃ mf, RelaxFrame m mf ∧ ∀ y, y < mf.vertexSet.length → ∀ e ∈ mf.incomingOf y,
      0 < mf.capOf e → ∀ x, mf.getOrig e = some x →
        mf.costAt y ≤ mf.costAt x + mf.edgeCost e := by
  intro k
  induction k with
  | zero => intro i m m1 _ hk _; omega
  | succ k ih =>
    intro i m m1 hik _ h
    rw [relaxPassesExact] at h
    simp only [Option.bind_eq_bind, Option.bind_eq_some] at h
    obtain ⟨⟨found, m2⟩, h2, h⟩ := h
    obtain ⟨hf2, hne2, hfin2⟩ := relaxVertices_result _ _ _ _ _ h2
    cases found with
    | some c =>
      simp only [Option.some.injEq, Prod.mk.injEq] at h
      exact absurd h.1 (hne2 c rfl)
    | none =>
      dsimp only at h
      by_cases hk : k = 0
      · subst hk
        obtain ⟨rfl, hset⟩ := hfin2 (by omega) rfl
        exact ⟨m2, RelaxFrame.rfl0 _, fun y hy => hset y (by omega) (by omega)⟩
      · obtain ⟨mf, hf3, hset⟩ := ih (i + 1) m2 m1 (by rw [hf2.length]; omega) (by omega) h
        exact ⟨mf, hf2.trans0 hf3, hset⟩

/-! ## The passes with exact sums return the empty list exactly when there is no negative
cycle -/

theorem bellmanFord_eq (m : Graph) (source : String) :
    m.bellmanFord source
      = (m.bellmanFordInit source).bind (fun m2 => relaxPasses m2.vertexSet.length 1 m2) := by
  unfold Graph.bellmanFord Graph.bellmanFordInit
  simp only [Option.bind_eq_bind, Option.bind_assoc]

/-- The first statements of `bellmanFord` on a well-linked graph, for a source id that is
the id of a vertex: they go through and leave a well-linked graph with the same edges and
the same lists of incoming edges. -/
theorem bellmanFordInit_spec {m : Graph} {source : String} {s : Nat} (hw : m.WellLinked)
    (hs : m.findVertex source = some s) :
    ∃ m2, m.bellmanFordInit source = some m2 ∧ RelaxFrame m m2 ∧ m2.WellLinked ∧
      ∀ x ∈ m2.vertexSet, -1 ≤ x.cost ∧ x.cost ≤ 0 := by
  have hsl : s < m.vertexSet.length := hw.findVertex_lt hs
  let m1 : Graph :=
    { m with vertexSet := m.vertexSet.map (fun v => { v with cost := -1, path := none }) }
  have hs1 : SameStatic m m1 := by
    refine ⟨rfl, by simp [m1], rfl, fun _ => rfl, fun _ => rfl, fun _ => rfl, fun _ => rfl,
      ?_, ?_, ?_⟩
    · intro x
      simp only [Graph.adjOf, m1, List.getElem?_map]
      cases m.vertexSet[x]? <;> rfl
    · intro x
      simp only [Graph.incomingOf, m1, List.getElem?_map]
      cases m.vertexSet[x]? <;> rfl
    · intro x
      simp only [Graph.idOf, m1, List.getElem?_map]
      cases m.vertexSet[x]? <;> rfl
  have hfv : m1.findVertex source = some s := hs
  obtain ⟨m2, hm2⟩ := updateVertex_some (g := m1) (fun v => { v with cost := 0 })
    (by rw [hs1.vertexSet_length]; exact hsl)
  have hs2 : SameStatic m1 m2 := updateVertex_sameStatic hm2 (fun _ => ⟨rfl, rfl, rfl⟩)
  have hs12 := hs1.trans hs2
  obtain ⟨he, -, -, -⟩ := updateVertex_rest hm2
  refine ⟨m2, ?_, ⟨he, hs12.vertexSet_length, hs12.incomingOf⟩, hs12.wellLinked hw, ?_⟩
  swap
  · intro x hx
    obtain ⟨k, hk, rfl⟩ := List.getElem_of_mem hx
    have hget : m2.vertexSet[k]? = some m2.vertexSet[k] := List.getElem?_eq_getElem hk
    rw [updateVertex_vertexSet hm2] at hget
    by_cases hks : k = s
    · rw [if_pos hks] at hget
      simp only [m1, List.getElem?_map] at hget
      cases hms : m.vertexSet[s]? with
      | none => rw [hms] at hget; simp at hget
      | some y =>
        rw [hms] at hget
        simp only [Option.map_some', Option.some.injEq] at hget
        rw [← hget]; simp
    · rw [if_neg hks] at hget
      simp only [m1, List.getElem?_map] at hget
      cases hms : m.vertexSet[k]? with
      | none => rw [hms] at hget; simp at hget
      | some y =>
        rw [hms] at hget
        simp only [Option.map_some', Option.some.injEq] at hget
        rw [← hget]; simp
  unfold Graph.bellmanFordInit
  simp only [Option.bind_eq_bind]
  show (m1.findVertex source).bind (fun s => m1.updateVertex s (fun v => { v with cost := 0 }))
    = some m2
  rw [hfv]
  exact hm2

theorem isWalk_congr {a b : Graph} (h : a.edges = b.edges) : ∀ (es : List Nat) (u v : Nat),
    a.IsWalk u es v ↔ b.IsWalk u es v := by
  intro es
  induction es with
  | nil => intro u v; simp [Graph.IsWalk]
  | cons e es ih =>
    intro u v
    simp only [Graph.IsWalk, Graph.getOrig, Graph.getDest, Graph.capOf, Graph.getCapacity, h, ih]

theorem hasNegativeCycle_congr {a b : Graph} (h : a.edges = b.edges) :
    a.HasNegativeCycle ↔ b.HasNegativeCycle := by
  have hc : ∀ es, a.walkCost es = b.walkCost es := by
    intro es
    have hf : a.edgeCost = b.edgeCost := by
      funext e; simp [Graph.edgeCost, h]
    simp [Graph.walkCost, hf]
  unfold Graph.HasNegativeCycle
  simp only [isWalk_congr h, hc]

/-- On a well-linked graph and for a source id that is the id of a vertex, the passes with
exact sums return the empty list if and only if the graph has no closed walk of negative
cost along edges of capacity `> 0`. -/
theorem relaxPassesExact_iff {m : Graph} {source : String} {s : Nat} (hw : m.WellLinked)
    (hs : m.findVertex source = some s) :
    (∃ m1, (m.bellmanFordInit source).bind
        (fun m2 => relaxPassesExact m2.vertexSet.length 1 m2) = some ([], m1))
      ↔ ¬ m.HasNegativeCycle := by
  obtain ⟨m2, hinit, hf, hw2, -⟩ := bellmanFordInit_spec hw hs
  have hn : 1 ≤ m2.vertexSet.length := by
    have := hw.findVertex_lt hs
    rw [hf.length]; omega
  rw [hinit, Option.some_bind, ← hasNegativeCycle_congr hf.edges]
  constructor
  · rintro ⟨m1, h⟩
    obtain ⟨mf, hff, hset⟩ := relaxPasses_result _ 1 m2 m1 (by omega) hn h
    have hsettled : mf.Settled := by
      intro e x v hc ho hd
      have hd2 : m2.getDest e = some v := by
        simpa [Graph.getDest, hff.edges] using hd
      obtain ⟨he, hv⟩ := getDest_lt hw2 hd2
      have hmem : e ∈ mf.incomingOf v := by
        rw [hff.incomingOf]; exact (hw2.mem_incomingOf he hv).mpr hd2
      exact hset v (by rw [hff.length]; exact hv) e hmem hc x ho
    rw [← hasNegativeCycle_congr hff.edges]
    exact settled_no_cycle hsettled
  · intro hno
    exact relaxPasses_quiet hw2 hno _ 1 m2 (by omega) (le_refl _) (RelaxFrame.rfl0 _)
      (fun v _ => ⟨v, [], rfl, by simp [Graph.walkCost]⟩)
      (by
        intro u es v hwalk hlen
        have : es = [] := List.length_eq_zero.mp (by omega)
        subst this
        simp only [Graph.IsWalk] at hwalk
        subst hwalk
        simp [Graph.walkCost])

/-! ## The sums of the relaxation stay within `int` on networks of bounded size -/

theorem iadd_exact {a b : Int} (h1 : -2147483648 ≤ a + b) (h2 : a + b < 2147483648) :
    iadd a b = a + b := by
  unfold iadd; omega

/-- The loop over the incoming edges of a vertex makes at most one relaxation per edge and
each lowers the smallest cost by at most 6: with room for that inside `int`, the loop with
`int` sums is the loop with exact sums. -/
theorem relaxIncoming_exact (i v : Nat) : ∀ (es : List Nat) (m : Graph) (L : Int),
    (∀ x ∈ m.vertexSet, L ≤ x.cost ∧ x.cost ≤ 0) →
    (∀ x ∈ m.edges, -6 ≤ x.cost ∧ x.cost ≤ 6) →
    -2147483648 ≤ L - 6 * (es.length : Int) →
    relaxIncoming i v es m = relaxIncomingExact i v es m ∧
    ∀ r m1, relaxIncomingExact i v es m = some (r, m1) →
      RelaxFrame m m1 ∧ ∀ x ∈ m1.vertexSet, L - 6 * (es.length : Int) ≤ x.cost ∧ x.cost ≤ 0 := by
  intro es
  induction es with
  | nil =>
    intro m L hc _ _
    refine ⟨by simp [relaxIncoming, relaxIncomingExact], ?_⟩
    intro r m1 h
    simp only [relaxIncomingExact, Option.some.injEq, Prod.mk.injEq] at h
    obtain ⟨-, rfl⟩ := h
    exact ⟨RelaxFrame.rfl0 _, by simpa using hc⟩
  | cons e es ih =>
    intro m L hc he hL
    have hlen : ((e :: es).length : Int) = (es.length : Int) + 1 := by simp
    rw [hlen] at hL ⊢
    have keep : relaxIncoming i v es m = relaxIncomingExact i v es m ∧
        ∀ r m1, relaxIncomingExact i v es m = some (r, m1) →
          RelaxFrame m m1 ∧
            ∀ x ∈ m1.vertexSet, L - 6 * ((es.length : Int) + 1) ≤ x.cost ∧ x.cost ≤ 0 := by
      obtain ⟨h1, h2⟩ := ih m L hc he (by omega)
      refine ⟨h1, fun r m1 h => ?_⟩
      obtain ⟨hf, hb⟩ := h2 r m1 h
      exact ⟨hf, fun x hx => ⟨by have := (hb x hx).1; omega, (hb x hx).2⟩⟩
    rw [relaxIncoming, relaxIncomingExact]
    cases hedge : m.edges[e]? with
    | none => exact ⟨rfl, fun r m1 h => by simp at h⟩
    | some edge =>
      simp only [Option.bind_eq_bind, Option.some_bind]
      by_cases hcap : edge.capacity > 0
      · simp only [if_pos hcap]
        cases ho : m.vertexSet[edge.orig]? with
        | none => exact ⟨rfl, fun r m1 h => by simp at h⟩
        | some o =>
          simp only [Option.some_bind]
          cases hx : m.vertexSet[v]? with
          | none => exact ⟨rfl, fun r m1 h => by simp at h⟩
          | some x =>
            simp only [Option.some_bind]
            have hob := hc o (List.getElem?_mem ho)
            have hxb := hc x (List.getElem?_mem hx)
            have heb := he edge (List.getElem?_mem hedge)
            have hsum : iadd o.cost edge.cost = o.cost + edge.cost :=
              iadd_exact (by omega) (by omega)
            rw [hsum]
            by_cases hlt : o.cost + edge.cost < x.cost
            · simp only [if_pos hlt]
              by_cases hi : i = m.vertexSet.length
              · simp only [if_pos hi]
                refine ⟨by first | rfl | trivial, ?_⟩
                intro r m1 h
                cases ht : traceNegativeCycle m v with
                | none => rw [ht] at h; simp at h
                | some c =>
                  rw [ht] at h
                  simp only [Option.some_bind, Option.some.injEq, Prod.mk.injEq] at h
                  obtain ⟨-, rfl⟩ := h
                  exact ⟨RelaxFrame.rfl0 _, fun y hy =>
                    ⟨by have := (hc y hy).1; omega, (hc y hy).2⟩⟩
              · simp only [if_neg hi]
                cases hu : m.updateVertex v
                    (fun y => { y with cost := o.cost + edge.cost, path := some e }) with
                | none => exact ⟨rfl, fun r m1 h => by simp at h⟩
                | some m2 =>
                  simp only [Option.some_bind]
                  obtain ⟨hf2, -⟩ := relax_update hu
                  have hvs := updateVertex_vertexSet hu
                  have hc2 : ∀ y ∈ m2.vertexSet, L - 6 ≤ y.cost ∧ y.cost ≤ 0 := by
                    intro y hy
                    obtain ⟨k, hk, rfl⟩ := List.getElem_of_mem hy
                    have hget : m2.vertexSet[k]? = some m2.vertexSet[k] :=
                      List.getElem?_eq_getElem hk
                    rw [hvs] at hget
                    by_cases hkv : k = v
                    · rw [if_pos hkv, hx] at hget
                      simp only [Option.map_some', Option.some.injEq] at hget
                      rw [← hget]
                      exact ⟨by show L - 6 ≤ o.cost + edge.cost; omega,
                        by show o.cost + edge.cost ≤ 0; omega⟩
                    · rw [if_neg hkv] at hget
                      have := hc _ (List.getElem?_mem hget)
                      exact ⟨by omega, this.2⟩
                  have he2 : ∀ y ∈ m2.edges, -6 ≤ y.cost ∧ y.cost ≤ 6 := by
                    rw [hf2.edges]; exact he
                  obtain ⟨h1, h2⟩ := ih m2 (L - 6) hc2 he2 (by omega)
                  refine ⟨h1, fun r m1 h => ?_⟩
                  obtain ⟨hf, hb⟩ := h2 r m1 h
                  exact ⟨hf2.trans0 hf, fun y hy =>
                    ⟨by have := (hb y hy).1; omega, (hb y hy).2⟩⟩
            · simp only [if_neg hlt]
              exact keep
      · simp only [if_neg hcap]
        exact keep

/-- The number of relaxations the loop over the vertices can make from the vertex `v` on:
the lengths of the lists of incoming edges of the vertices `v`, `v + 1`, ... added up. -/
theorem relaxVertices_exact (i : Nat) (m0 : Graph) : ∀ (n v : Nat) (m : Graph) (L : Int),
    RelaxFrame m0 m → v + n = m0.vertexSet.length →
    (∀ x ∈ m.vertexSet, L ≤ x.cost ∧ x.cost ≤ 0) →
    (∀ x ∈ m0.edges, -6 ≤ x.cost ∧ x.cost ≤ 6) →
    -2147483648 ≤
      L - 6 * ((((m0.vertexSet.drop v).map (fun x => x.incoming.length)).sum : Nat) : Int) →
    relaxVertices i n v m = relaxVerticesExact i n v m ∧
    ∀ r m1, relaxVerticesExact i n v m = some (r, m1) →
      RelaxFrame m0 m1 ∧ ∀ x ∈ m1.vertexSet,
        L - 6 * ((((m0.vertexSet.drop v).map (fun x => x.incoming.length)).sum : Nat) : Int)
          ≤ x.cost ∧ x.cost ≤ 0 := by
  intro n
  induction n with
  | zero =>
    intro v m L hf hv hc _ _
    refine ⟨by simp [relaxVertices, relaxVerticesExact], ?_⟩
    intro r m1 h
    simp only [relaxVerticesExact, Option.some.injEq, Prod.mk.injEq] at h
    obtain ⟨-, rfl⟩ := h
    have hd : m0.vertexSet.drop v = [] := List.drop_eq_nil_of_le (by omega)
    rw [hd]
    exact ⟨hf, by simpa using hc⟩
  | succ n ih =>
    intro v m L hf hv hc he hL
    have hvl : v < m0.vertexSet.length := by omega
    have hdrop : m0.vertexSet.drop v = m0.vertexSet[v] :: m0.vertexSet.drop (v + 1) :=
      List.drop_eq_getElem_cons hvl
    rw [hdrop] at hL ⊢
    simp only [List.map_cons, List.sum_cons, Nat.cast_add] at hL ⊢
    have hvm : v < m.vertexSet.length := by rw [hf.length]; exact hvl
    have hx : m.vertexSet[v]? = some m.vertexSet[v] := List.getElem?_eq_getElem hvm
    have hinc : (m.vertexSet[v]).incoming = (m0.vertexSet[v]).incoming := by
      have := hf.incomingOf v
      simpa [Graph.incomingOf, List.getElem?_eq_getElem hvm, List.getElem?_eq_getElem hvl]
        using this
    rw [relaxVertices, relaxVerticesExact, hx]
    simp only [Option.bind_eq_bind, Option.some_bind]
    have hem : ∀ x ∈ m.edges, -6 ≤ x.cost ∧ x.cost ≤ 6 := by rw [hf.edges]; exact he
    obtain ⟨h1, h2⟩ := relaxIncoming_exact i v (m.vertexSet[v]).incoming m L hc hem
      (by rw [hinc]; omega)
    rw [h1]
    cases hr : relaxIncomingExact i v (m.vertexSet[v]).incoming m with
    | none => exact ⟨rfl, fun r m1 h => by simp at h⟩
    | some p =>
      obtain ⟨found, m2⟩ := p
      obtain ⟨hf2, hc2⟩ := h2 found m2 hr
      rw [hinc] at hc2
      simp only [Option.some_bind]
      cases found with
      | some c =>
        refine ⟨rfl, ?_⟩
        intro r m1 h
        simp only [Option.some.injEq, Prod.mk.injEq] at h
        obtain ⟨-, rfl⟩ := h
        exact ⟨hf.trans0 hf2, fun y hy => ⟨by have := (hc2 y hy).1; omega, (hc2 y hy).2⟩⟩
      | none =>
        obtain ⟨h3, h4⟩ := ih (v + 1) m2 _ (hf.trans0 hf2) (by omega) hc2 he (by omega)
        refine ⟨h3, ?_⟩
        intro r m1 h
        obtain ⟨hf3, hc3⟩ := h4 r m1 h
        exact ⟨hf3, fun y hy => ⟨by have := (hc3 y hy).1; omega, (hc3 y hy).2⟩⟩

/-- With room inside `int` for every relaxation of every pass, the passes with `int` sums
are the passes with exact sums. -/
theorem relaxPasses_exact (m0 : Graph) : ∀ (k i : Nat) (m : Graph) (L : Int),
    RelaxFrame m0 m → (∀ x ∈ m.vertexSet, L ≤ x.cost ∧ x.cost ≤ 0) →
    (∀ x ∈ m0.edges, -6 ≤ x.cost ∧ x.cost ≤ 6) →
    -2147483648 ≤ L - 6 * ((k : Int) *
      (((m0.vertexSet.map (fun x => x.incoming.length)).sum : Nat) : Int)) →
    relaxPasses k i m = relaxPassesExact k i m := by
  intro k
  induction k with
  | zero => intro i m L _ _ _ _; simp [relaxPasses, relaxPassesExact]
  | succ k ih =>
    intro i m L hf hc he hL
    have hS : 0 ≤ (((m0.vertexSet.map (fun x => x.incoming.length)).sum : Nat) : Int) :=
      Int.natCast_nonneg _
    have hmul : ((k + 1 : Nat) : Int) *
        (((m0.vertexSet.map (fun x => x.incoming.length)).sum : Nat) : Int)
        = (k : Int) * (((m0.vertexSet.map (fun x => x.incoming.length)).sum : Nat) : Int)
          + (((m0.vertexSet.map (fun x => x.incoming.length)).sum : Nat) : Int) := by
      push_cast; ring
    rw [hmul] at hL
    have hk : 0 ≤ (k : Int) *
        (((m0.vertexSet.map (fun x => x.incoming.length)).sum : Nat) : Int) :=
      mul_nonneg (Int.natCast_nonneg _) hS
    rw [relaxPasses, relaxPassesExact]
    obtain ⟨h1, h2⟩ := relaxVertices_exact i m0 m.vertexSet.length 0 m L hf
      (by rw [hf.length]; omega) hc he (by simp only [List.drop_zero]; omega)
    rw [h1]
    cases hr : relaxVerticesExact i m.vertexSet.length 0 m with
    | none => rfl
    | some p =>
      obtain ⟨found, m2⟩ := p
      obtain ⟨hf2, hc2⟩ := h2 found m2 hr
      simp only [List.drop_zero] at hc2
      simp only [Option.bind_eq_bind, Option.some_bind]
      cases found with
      | some c => rfl
      | none => exact ih (i + 1) m2 _ hf2 hc2 he (by omega)

/-- On a well-linked graph every edge lies in the list of incoming edges of exactly one
vertex and once in it: the lengths of these lists add up to the number of edges. -/
theorem incoming_total {g : Graph} (hw : g.WellLinked) :
    (g.vertexSet.map (fun x => x.incoming.length)).sum = g.edges.length := by
  have hinc : ∀ y (hy : y < g.vertexSet.length), g.incomingOf y = (g.vertexSet[y]).incoming := by
    intro y hy; simp [Graph.incomingOf, List.getElem?_eq_getElem hy]
  have hmem : ∀ e, e ∈ g.vertexSet.flatMap (fun v => v.incoming) ↔ e < g.edges.length := by
    intro e
    simp only [List.mem_flatMap]
    constructor
    · rintro ⟨w, hwm, hew⟩
      obtain ⟨y, hy, rfl⟩ := List.getElem_of_mem hwm
      rw [← hinc y hy] at hew
      exact ((hw.2.1 y hy).2.2.1 e hew).1
    · intro he
      obtain ⟨-, ⟨u, hu, -, hmu⟩, -⟩ := hw.1 e he
      rw [hinc u hu] at hmu
      exact ⟨_, List.getElem_mem hu, hmu⟩
  have hnd : (g.vertexSet.flatMap (fun v => v.incoming)).Nodup := by
    have key : ∀ (l : List Vertex), (∀ w ∈ l, w.incoming.Nodup) →
        l.Pairwise (fun a b => ∀ e ∈ a.incoming, e ∉ b.incoming) →
        (l.flatMap (fun v => v.incoming)).Nodup := by
      intro l
      induction l with
      | nil => intro _ _; simp
      | cons a l ih =>
        intro h1 h2
        rw [List.flatMap_cons, List.nodup_append]
        rw [List.pairwise_cons] at h2
        refine ⟨h1 a (List.mem_cons_self _ _),
          ih (fun w hw => h1 w (List.mem_cons_of_mem _ hw)) h2.2, ?_⟩
        intro e hea heb
        rw [List.mem_flatMap] at heb
        obtain ⟨b, hb, heb⟩ := heb
        exact h2.1 b hb e hea heb
    apply key
    · intro w hwm
      obtain ⟨y, hy, rfl⟩ := List.getElem_of_mem hwm
      rw [← hinc y hy]
      exact (hw.2.1 y hy).2.2.2.1
    · rw [List.pairwise_iff_getElem]
      intro i j hi hj hij e hea heb
      rw [← hinc i hi] at hea
      rw [← hinc j hj] at heb
      have h1 := ((hw.2.1 i hi).2.2.1 e hea).2
      have h2 := ((hw.2.1 j hj).2.2.1 e heb).2
      rw [h1] at h2
      have := Option.some.inj h2
      omega
  have hperm := (List.perm_ext_iff_of_nodup hnd (List.nodup_range _)).mpr
    (fun e => by rw [hmem, List.mem_range])
  have hlen := hperm.length_eq
  rw [List.length_range, List.length_flatMap] at hlen
  exact hlen

/-- On a well-linked graph with edge costs between `-6` and `6` and with
`6 * |V| * |E| + 1 <= 2 ^ 31`, for a source id that is the id of a vertex, `bellmanFord`
returns the empty list if and only if the graph has no closed walk of negative cost along
edges of capacity `> 0`. -/
theorem bellmanFord_iff {m : Graph} {source : String} {s : Nat} (hw : m.WellLinked)
    (hs : m.findVertex source = some s)
    (hcost : ∀ x ∈ m.edges, -6 ≤ x.cost ∧ x.cost ≤ 6)
    (hsize : 6 * (m.vertexSet.length * m.edges.length) + 1 ≤ 2147483648) :
    (∃ m1, m.bellmanFord source = some ([], m1)) ↔ ¬ m.HasNegativeCycle := by
  rw [← relaxPassesExact_iff hw hs, bellmanFord_eq]
  obtain ⟨m2, hinit, hf, hw2, hc2⟩ := bellmanFordInit_spec hw hs
  rw [hinit, Option.some_bind, Option.some_bind]
  have hcost2 : ∀ x ∈ m2.edges, -6 ≤ x.cost ∧ x.cost ≤ 6 := by rw [hf.edges]; exact hcost
  have htot := incoming_total hw2
  have := relaxPasses_exact m2 m2.vertexSet.length 1 m2 (-1) (RelaxFrame.rfl0 _) hc2 hcost2
    (by
      rw [htot, hf.length, hf.edges]
      have : ((6 * (m.vertexSet.length * m.edges.length) + 1 : Nat) : Int) ≤ 2147483648 := by
        exact_mod_cast hsize
      push_cast at this
      linarith)
  rw [this]

/-! ## `makeMinCostResidual` builds the auxiliary network -/

theorem LinkJoined.wellLinkedJoin {g h : Graph} {v1 v2 : Nat} (hl : LinkJoined g h v1 v2)
    (hm : g.WellLinked) : h.WellLinked := by
  obtain ⟨hw1, hw2, hw3⟩ := hm
  have hgo := hl.getOrig
  have hgd := hl.getDest
  have hgr := hl.getReverse
  have hold : ∀ i, i < g.edges.length → i ≠ g.edges.length ∧ i ≠ g.edges.length + 1 :=
    fun i hi => ⟨by omega, by omega⟩
  refine ⟨?_, ?_, ?_⟩
  · intro i hi
    rw [hl.edges_length] at hi
    rw [hl.edges_length, hl.vertexSet_length]
    by_cases h0 : i < g.edges.length
    · obtain ⟨⟨u, hu, hou, hmu⟩, ⟨v, hv, hdv, hmv⟩, j, hj, hji, hr1, hr2, ho, hd⟩ := hw1 i h0
      obtain ⟨n1, n2⟩ := hold i h0
      obtain ⟨n3, n4⟩ := hold j hj
      refine ⟨⟨u, hu, ?_, ?_⟩, ⟨v, hv, ?_, ?_⟩, j, by omega, hji, ?_, ?_, ?_, ?_⟩
      · rw [hgo, if_neg n1, if_neg n2]; exact hou
      · rw [hl.mem_adjOf]; exact Or.inl hmu
      · rw [hgd, if_neg n1, if_neg n2]; exact hdv
      · rw [hl.mem_incomingOf]; exact Or.inl hmv
      · rw [hgr, if_neg n1, if_neg n2]; exact hr1
      · rw [hgr, if_neg n3, if_neg n4]; exact hr2
      · rw [hgo, hgd, if_neg n1, if_neg n2, if_neg n3, if_neg n4]; exact ho
      · rw [hgo, hgd, if_neg n1, if_neg n2, if_neg n3, if_neg n4]; exact hd
    · by_cases h1 : i = g.edges.length
      · subst h1
        refine ⟨⟨v1, hl.v1_lt, ?_, ?_⟩, ⟨v2, hl.v2_lt, ?_, ?_⟩, g.edges.length + 1, by omega,
          by omega, ?_, ?_, ?_, ?_⟩
        · rw [hgo, if_pos rfl]
        · rw [hl.mem_adjOf]; exact Or.inr (Or.inl ⟨rfl, rfl⟩)
        · rw [hgd, if_pos rfl]
        · rw [hl.mem_incomingOf]; exact Or.inr (Or.inl ⟨rfl, rfl⟩)
        · rw [hgr, if_pos rfl]
        · rw [hgr]; simp
        · rw [hgo, hgd]; simp
        · rw [hgo, hgd]; simp
      · have h2 : i = g.edges.length + 1 := by omega
        subst h2
        refine ⟨⟨v2, hl.v2_lt, ?_, ?_⟩, ⟨v1, hl.v1_lt, ?_, ?_⟩, g.edges.length, by omega,
          by omega, ?_, ?_, ?_, ?_⟩
        · rw [hgo]; simp
        · rw [hl.mem_adjOf]; exact Or.inr (Or.inr ⟨rfl, rfl⟩)
        · rw [hgd]; simp
        · rw [hl.mem_incomingOf]; exact Or.inr (Or.inr ⟨rfl, rfl⟩)
        · rw [hgr]; simp
        · rw [hgr]; simp
        · rw [hgo, hgd]; simp
        · rw [hgo, hgd]; simp
  · intro x hx
    rw [hl.vertexSet_length] at hx
    obtain ⟨ha, hna, hi, hni, hid⟩ := hw2 x hx
    rw [hl.edges_length]
    refine ⟨?_, hl.nodup_adjOf x (fun e he => (ha e he).1) hna, ?_,
      hl.nodup_incomingOf x (fun e he => (hi e he).1) hni, ?_⟩
    · intro e he
      rw [hl.mem_adjOf] at he
      rcases he with he | ⟨rfl, rfl⟩ | ⟨rfl, rfl⟩
      · obtain ⟨h1, h2⟩ := ha e he
        obtain ⟨n1, n2⟩ := hold e h1
        exact ⟨by omega, by rw [hgo, if_neg n1, if_neg n2]; exact h2⟩
      · exact ⟨by omega, by rw [hgo, if_pos rfl]⟩
      · exact ⟨by omega, by rw [hgo]; simp⟩
    · intro e he
      rw [hl.mem_incomingOf] at he
      rcases he with he | ⟨rfl, rfl⟩ | ⟨rfl, rfl⟩
      · obtain ⟨h1, h2⟩ := hi e he
        obtain ⟨n1, n2⟩ := hold e h1
        exact ⟨by omega, by rw [hgd, if_neg n1, if_neg n2]; exact h2⟩
      · exact ⟨by omega, by rw [hgd, if_pos rfl]⟩
      · exact ⟨by omega, by rw [hgd]; simp⟩
    · rw [hl.idOf]
      have : h.findVertex = g.findVertex := by
        funext t; simp [Graph.findVertex, hl.idToVertex]
      rw [this]; exact hid
  · intro p hp
    rw [hl.idToVertex] at hp
    rw [hl.idOf]; exact hw3 p hp

theorem copyVertices_mirrored : ∀ (vs : List Vertex) (m : Graph), m.Mirrored →
    (copyVertices vs m).Mirrored := by
  intro vs
  induction vs with
  | nil => intro m hm; exact hm
  | cons v vs ih => intro m hm; exact ih _ (addVertex_mirrored v.id hm)

/-- The first loop of `makeMinCostResidual` on vertices of different ids, none of them an id
of the graph it fills: the vertices are appended in order, and `findVertex` finds each at
its position. -/
theorem copyVertices_spec : ∀ (vs : List Vertex) (m : Graph),
    (∀ v ∈ vs, m.findVertex v.id = none) → (vs.map (fun v => v.id)).Nodup →
    (copyVertices vs m).edges = m.edges ∧
    (copyVertices vs m).vertexSet = m.vertexSet ++ vs.map (fun v => Vertex.new v.id) ∧
    (∀ id x, m.findVertex id = some x → (copyVertices vs m).findVertex id = some x) ∧
    (∀ k v, vs[k]? = some v →
      (copyVertices vs m).findVertex v.id = some (m.vertexSet.length + k)) := by
  intro vs
  induction vs with
  | nil =>
    intro m _ _
    exact ⟨rfl, by simp [copyVertices], fun _ _ h => h, fun k v h => by simp at h⟩
  | cons v vs ih =>
    intro m hnone hnd
    have hv : m.findVertex v.id = none := hnone v (List.mem_cons_self _ _)
    have hm1 : (m.addVertex v.id).2 =
        { m with vertexSet := m.vertexSet ++ [Vertex.new v.id],
                 idToVertex := (v.id, m.vertexSet.length) :: m.idToVertex } := by
      simp [Graph.addVertex, hv]
    have hfind : ∀ id, (m.addVertex v.id).2.findVertex id =
        if id = v.id then some m.vertexSet.length else m.findVertex id := by
      intro id
      rw [hm1]
      simp only [Graph.findVertex, List.lookup_cons]
      by_cases h : id = v.id
      · subst h; simp
      · have : (id == v.id) = false := by simpa using h
        simp [this, h]
    simp only [List.map_cons, List.nodup_cons, List.mem_map, not_exists, not_and] at hnd
    obtain ⟨hnot, hnd2⟩ := hnd
    have hnone1 : ∀ w ∈ vs, (m.addVertex v.id).2.findVertex w.id = none := by
      intro w hw
      rw [hfind, if_neg (fun h => hnot w hw h)]
      exact hnone w (List.mem_cons_of_mem _ hw)
    obtain ⟨he, hvs, hkeep, hpos⟩ := ih _ hnone1 hnd2
    have hlen1 : (m.addVertex v.id).2.vertexSet.length = m.vertexSet.length + 1 := by
      rw [hm1]; simp
    refine ⟨?_, ?_, ?_, ?_⟩
    · show (copyVertices vs _).edges = _
      rw [he, hm1]
    · show (copyVertices vs _).vertexSet = _
      rw [hvs, hm1]; simp
    · intro id x hx
      show (copyVertices vs _).findVertex id = _
      apply hkeep
      rw [hfind]
      have : id ≠ v.id := by
        intro h; rw [h, hv] at hx; simp at hx
      rw [if_neg this]; exact hx
    · intro k w hk
      show (copyVertices vs _).findVertex w.id = _
      cases k with
      | zero =>
        simp only [List.getElem?_cons_zero, Option.some.injEq] at hk
        subst hk
        apply hkeep
        rw [hfind, if_pos rfl]; rfl
      | succ k =>
        simp only [List.getElem?_cons_succ] at hk
        rw [hpos k w hk, hlen1]
        congr 1; omega

theorem mirrorAdj_append (g : Graph) : ∀ (a b : List Nat) (m : Graph),
    mirrorAdj g (a ++ b) m = (mirrorAdj g a m).bind (mirrorAdj g b) := by
  intro a
  induction a with
  | nil => intro b m; simp [mirrorAdj]
  | cons e es ih =>
    intro b m
    simp only [List.cons_append, mirrorAdj, Option.bind_eq_bind]
    cases mirrorEdge g e m with
    | none => rfl
    | some m1 => simp [ih]

theorem mirrorVertices_eq (g : Graph) : ∀ (vs : List Vertex) (m : Graph),
    mirrorVertices g vs m = mirrorAdj g (vs.flatMap (fun v => v.adj)) m := by
  intro vs
  induction vs with
  | nil => intro m; simp [mirrorVertices, mirrorAdj]
  | cons v vs ih =>
    intro m
    simp only [mirrorVertices, List.flatMap_cons, mirrorAdj_append, Option.bind_eq_bind]
    cases mirrorAdj g v.adj m with
    | none => rfl
    | some m1 => simp [ih]

/-- The body of the inner loop of `makeMinCostResidual` for an edge of the regular graph
whose endpoints `findVertex` finds in the auxiliary graph at the same positions: it goes
through and appends the two auxiliary edges of the edge. -/
theorem mirrorEdge_spec {g m : Graph} {e : Nat} {x : Edge} {o d : Vertex}
    (hx : g.edges[e]? = some x) (ho : g.vertexSet[x.orig]? = some o)
    (hd : g.vertexSet[x.dest]? = some d)
    (hfo : m.findVertex o.id = some x.orig) (hfd : m.findVertex d.id = some x.dest)
    (hlo : x.orig < m.vertexSet.length) (hld : x.dest < m.vertexSet.length) :
    ∃ m', mirrorEdge g e m = some m' ∧ LinkJoined m m' x.orig x.dest ∧
      (∀ i, m'.edges[i]? =
        if i = m.edges.length then
          some { Edge.new x.orig x.dest x.capacity x.service with
            reverse := some (m.edges.length + 1), capacity := usub x.capacity x.flow,
            correspondingEdge := some e }
        else if i = m.edges.length + 1 then
          some { Edge.new x.dest x.orig x.capacity x.service with
            reverse := some m.edges.length, cost := -Edge.initializeCost x.service,
            capacity := x.flow, correspondingEdge := some e }
        else m.edges[i]?) := by
  obtain ⟨h1, ha⟩ := addAndGet_total x.capacity x.service hfo hfd hlo hld
  obtain ⟨v1, v2, hv1, hv2, hv1lt, hv2lt, -, -, hlen, hedges, hid, hvl, hadj, hinc, hidof⟩ :=
    addAndGet_spec ha
  rw [hfo] at hv1
  rw [hfd] at hv2
  obtain rfl := Option.some.inj hv1
  obtain rfl := Option.some.inj hv2
  have hcost : h1.getCost m.edges.length = some (Edge.initializeCost x.service) := by
    simp [Graph.getCost, hedges, Edge.new]
  obtain ⟨m2, hm2⟩ := updateEdge_some (g := h1)
    (fun y => { y with cost := -Edge.initializeCost x.service })
    (by omega : m.edges.length + 1 < h1.edges.length)
  obtain ⟨hvs2, hid2, -, hlen2⟩ := updateEdge_rest hm2
  obtain ⟨m3, hm3⟩ := updateEdge_some (g := m2)
    (fun y => { y with capacity := usub x.capacity x.flow })
    (by omega : m.edges.length < m2.edges.length)
  obtain ⟨hvs3, hid3, -, hlen3⟩ := updateEdge_rest hm3
  obtain ⟨m4, hm4⟩ := updateEdge_some (g := m3) (fun y => { y with capacity := x.flow })
    (by omega : m.edges.length + 1 < m3.edges.length)
  obtain ⟨hvs4, hid4, -, hlen4⟩ := updateEdge_rest hm4
  obtain ⟨m5, hm5⟩ := updateEdge_some (g := m4) (fun y => { y with correspondingEdge := some e })
    (by omega : m.edges.length < m4.edges.length)
  obtain ⟨hvs5, hid5, -, hlen5⟩ := updateEdge_rest hm5
  obtain ⟨m6, hm6⟩ := updateEdge_some (g := m5) (fun y => { y with correspondingEdge := some e })
    (by omega : m.edges.length + 1 < m5.edges.length)
  obtain ⟨hvs6, hid6, -, hlen6⟩ := updateEdge_rest hm6
  have he2 := updateEdge_edges hm2
  have he3 := updateEdge_edges hm3
  have he4 := updateEdge_edges hm4
  have he5 := updateEdge_edges hm5
  have he6 := updateEdge_edges hm6
  have hfin : ∀ i, m6.edges[i]? =
      if i = m.edges.length then
        some { Edge.new x.orig x.dest x.capacity x.service with
          reverse := some (m.edges.length + 1), capacity := usub x.capacity x.flow,
          correspondingEdge := some e }
      else if i = m.edges.length + 1 then
        some { Edge.new x.dest x.orig x.capacity x.service with
          reverse := some m.edges.length, cost := -Edge.initializeCost x.service,
          capacity := x.flow, correspondingEdge := some e }
      else m.edges[i]? := by
    intro i
    simp only [he6, he5, he4, he3, he2, hedges]
    by_cases h2 : i = m.edges.length
    · subst h2; simp
    · by_cases h3 : i = m.edges.length + 1
      · subst h3; simp
      · simp [h2, h3]
  have hvs : m6.vertexSet = h1.vertexSet := by rw [hvs6, hvs5, hvs4, hvs3, hvs2]
  have hadjb : ∀ y, m6.adjOf y = h1.adjOf y := fun y => by simp [Graph.adjOf, hvs]
  have hincb : ∀ y, m6.incomingOf y = h1.incomingOf y := fun y => by
    simp [Graph.incomingOf, hvs]
  have hidofb : ∀ y, m6.idOf y = h1.idOf y := fun y => by simp [Graph.idOf, hvs]
  refine ⟨m6, ?_, ⟨hv1lt, hv2lt, by omega, by rw [hvs, hvl],
    by rw [hid6, hid5, hid4, hid3, hid2, hid], fun y => by rw [hidofb, hidof],
    ?_, ?_, ?_, ?_, ?_, ?_, ?_⟩, hfin⟩
  · simp only [mirrorEdge, hx, ho, hd, ha, Option.bind_eq_bind, Option.some_bind, hcost,
      Graph.setCost, Graph.setCapacity, Graph.setCorrespondingEdge, hm2, hm3, hm4, hm5, hm6]
  · intro i
    simp only [Graph.getOrig, hfin]
    by_cases h2 : i = m.edges.length
    · subst h2; simp [Edge.new]
    · by_cases h3 : i = m.edges.length + 1
      · subst h3; simp [Edge.new]
      · simp [h2, h3]
  · intro i
    simp only [Graph.getDest, hfin]
    by_cases h2 : i = m.edges.length
    · subst h2; simp [Edge.new]
    · by_cases h3 : i = m.edges.length + 1
      · subst h3; simp [Edge.new]
      · simp [h2, h3]
  · intro i
    simp only [Graph.getReverse, hfin]
    by_cases h2 : i = m.edges.length
    · subst h2; simp
    · by_cases h3 : i = m.edges.length + 1
      · subst h3; simp
      · simp [h2, h3]
  · intro y a
    rw [hadjb, hadj]
    by_cases hx2 : y = x.dest
    · subst hx2
      by_cases hx1 : x.dest = x.orig
      · simp [hx1, or_assoc]
      · simp [hx1]
    · by_cases hx1 : y = x.orig
      · subst hx1; simp [hx2]
      · simp [hx1, hx2]
  · intro y a
    rw [hincb, hinc]
    by_cases hx1 : y = x.orig
    · subst hx1
      by_cases hx2 : x.orig = x.dest
      · simp [hx2, or_assoc]
      · simp [hx2]
    · by_cases hx2 : y = x.dest
      · subst hx2; simp [hx1]
      · simp [hx1, hx2]
  · intro y hbound hnd
    rw [hadjb, hadj]
    have hn1 : m.edges.length ∉ m.adjOf y := fun hm => by have := hbound _ hm; omega
    have hn2 : m.edges.length + 1 ∉ m.adjOf y := fun hm => by have := hbound _ hm; omega
    by_cases hx2 : y = x.dest
    · by_cases hx1 : y = x.orig
      · simp only [if_pos hx2, if_pos hx1]
        exact nodup_snoc (nodup_snoc hnd hn1) (by simp [hn2])
      · simp only [if_pos hx2, if_neg hx1]
        exact nodup_snoc hnd hn2
    · by_cases hx1 : y = x.orig
      · simp only [if_pos hx1, if_neg hx2]
        exact nodup_snoc hnd hn1
      · simp only [if_neg hx1, if_neg hx2]
        exact hnd
  · intro y hbound hnd
    rw [hincb, hinc]
    have hn1 : m.edges.length ∉ m.incomingOf y := fun hm => by have := hbound _ hm; omega
    have hn2 : m.edges.length + 1 ∉ m.incomingOf y := fun hm => by
      have := hbound _ hm; omega
    by_cases hx1 : y = x.orig
    · by_cases hx2 : y = x.dest
      · simp only [if_pos hx2, if_pos hx1]
        exact nodup_snoc (nodup_snoc hnd hn1) (by simp [hn2])
      · simp only [if_pos hx1, if_neg hx2]
        exact nodup_snoc hnd hn2
    · by_cases hx2 : y = x.dest
      · simp only [if_pos hx2, if_neg hx1]
        exact nodup_snoc hnd hn1
      · simp only [if_neg hx1, if_neg hx2]
        exact hnd

theorem represents_congr {g m m1 : Graph} {e a b : Nat} (hlen : m.edges.length ≤ m1.edges.length)
    (ha : m1.edges[a]? = m.edges[a]?) (hb : m1.edges[b]? = m.edges[b]?)
    (h : g.Represents m e a b) : g.Represents m1 e a b := by
  unfold Graph.Represents at h ⊢
  simp only [Graph.getOrig, Graph.getDest, Graph.getCapacity, Graph.getCost, Graph.getReverse,
    Graph.getCorrespondingEdge, ha, hb] at h ⊢
  obtain ⟨h1, h2, h3⟩ := h
  exact ⟨by omega, by omega, h3⟩

/-- The inner loop of `makeMinCostResidual` on a list of pointers to edges of the regular
graph: it goes through and appends the two auxiliary edges of each, in order. -/
theorem mirrorAdj_spec {g : Graph} (hw : g.WellLinked) (hc : g.CapacityRespected)
    (hb : g.CapacityBelow 4294967296)
    (hcost : ∀ x ∈ g.edges, x.cost = Edge.initializeCost x.service) :
    ∀ (es done : List Nat) (m : Graph), MirrorInv g m done →
      (∀ e ∈ es, e < g.edges.length) →
      ∃ m1, mirrorAdj g es m = some m1 ∧ MirrorInv g m1 (done ++ es) := by
  intro es
  induction es with
  | nil => intro done m hinv _; exact ⟨m, rfl, by simpa using hinv⟩
  | cons e es ih =>
    intro done m hinv hes
    obtain ⟨hwm, hvl, hidof, hfind, hlen, hrep⟩ := hinv
    have he : e < g.edges.length := hes e (List.mem_cons_self _ _)
    have hx : g.edges[e]? = some g.edges[e] := List.getElem?_eq_getElem he
    set x := g.edges[e] with hxdef
    have hxmem : x ∈ g.edges := List.getElem_mem he
    obtain ⟨⟨u, hu, hou, -⟩, ⟨v, hv, hdv, -⟩, -⟩ := hw.1 e he
    have hxo : x.orig = u := by simpa [Graph.getOrig, hx] using hou
    have hxd : x.dest = v := by simpa [Graph.getDest, hx] using hdv
    have hol : x.orig < g.vertexSet.length := by rw [hxo]; exact hu
    have hdl : x.dest < g.vertexSet.length := by rw [hxd]; exact hv
    have ho : g.vertexSet[x.orig]? = some g.vertexSet[x.orig] := List.getElem?_eq_getElem hol
    have hd : g.vertexSet[x.dest]? = some g.vertexSet[x.dest] := List.getElem?_eq_getElem hdl
    obtain ⟨m1, hm1, hl, hfin⟩ := mirrorEdge_spec hx ho hd (hfind _ _ ho) (hfind _ _ hd)
      (by rw [hvl]; exact hol) (by rw [hvl]; exact hdl)
    have hinv1 : MirrorInv g m1 (done ++ [e]) := by
      refine ⟨hl.wellLinkedJoin hwm, by rw [hl.vertexSet_length, hvl],
        fun y => by rw [hl.idOf, hidof], ?_, by rw [hl.edges_length, hlen]; simp; omega, ?_⟩
      · intro y w hy
        have : m1.findVertex = m.findVertex := by
          funext t; simp [Graph.findVertex, hl.idToVertex]
        rw [this]; exact hfind y w hy
      · intro k a hk
        by_cases hkl : k < done.length
        · rw [List.getElem?_append_left hkl] at hk
          have hr := hrep k a hk
          have h1 : 2 * k ≠ m.edges.length ∧ 2 * k ≠ m.edges.length + 1 := by omega
          have h2 : 2 * k + 1 ≠ m.edges.length ∧ 2 * k + 1 ≠ m.edges.length + 1 := by omega
          exact represents_congr (by rw [hl.edges_length]; omega)
            (by rw [hfin, if_neg h1.1, if_neg h1.2])
            (by rw [hfin, if_neg h2.1, if_neg h2.2]) hr
        · have hkeq : k = done.length := by
            have := (List.getElem?_eq_some.mp hk).1
            simp at this; omega
          subst hkeq
          rw [List.getElem?_append_right (le_refl _)] at hk
          simp only [Nat.sub_self, List.getElem?_cons_zero, Option.some.injEq] at hk
          subst hk
          have ha : m1.edges[2 * done.length]? = _ := hfin (2 * done.length)
          have hb2 : m1.edges[2 * done.length + 1]? = _ := hfin (2 * done.length + 1)
          rw [if_pos hlen.symm] at ha
          rw [if_neg (by omega), if_pos (by omega)] at hb2
          have hcap : usub x.capacity x.flow = x.capacity - x.flow :=
            usub_of_le (hc x hxmem) (hb x hxmem)
          unfold Graph.Represents
          simp only [Graph.getOrig, Graph.getDest, Graph.getCapacity, Graph.getCost,
            Graph.getReverse, Graph.getCorrespondingEdge, Graph.capOf, Graph.flowOf,
            Graph.getFlow, ha, hb2, hx, Option.map_some', Option.some_bind, Option.getD_some,
            Edge.new, hcap, hcost x hxmem, hl.edges_length, hlen]
          refine ⟨by omega, by omega, ?_⟩
          simp only [and_self]
    obtain ⟨m2, hm2, hinv2⟩ := ih (done ++ [e]) m1 hinv1
      (fun a ha => hes a (List.mem_cons_of_mem _ ha))
    refine ⟨m2, ?_, by simpa using hinv2⟩
    simp only [mirrorAdj, hm1, Option.bind_eq_bind, Option.some_bind, hm2]

/-- On a well-linked graph every edge lies in the adjacency list of exactly one vertex and
once in it: the list of the edges in the order of the adjacency lists is a permutation of
the pointers to the edges. -/
theorem mirrorOrder_perm {g : Graph} (hw : g.WellLinked) :
    g.mirrorOrder.Perm (List.range g.edges.length) := by
  have hadj : ∀ y (hy : y < g.vertexSet.length), g.adjOf y = (g.vertexSet[y]).adj := by
    intro y hy; simp [Graph.adjOf, List.getElem?_eq_getElem hy]
  have hmem : ∀ e, e ∈ g.mirrorOrder ↔ e < g.edges.length := by
    intro e
    simp only [Graph.mirrorOrder, List.mem_flatMap]
    constructor
    · rintro ⟨w, hwm, hew⟩
      obtain ⟨y, hy, rfl⟩ := List.getElem_of_mem hwm
      rw [← hadj y hy] at hew
      exact ((hw.2.1 y hy).1 e hew).1
    · intro he
      obtain ⟨⟨u, hu, -, hmu⟩, -⟩ := hw.1 e he
      rw [hadj u hu] at hmu
      exact ⟨_, List.getElem_mem hu, hmu⟩
  have hnd : g.mirrorOrder.Nodup := by
    unfold Graph.mirrorOrder
    have key : ∀ (l : List Vertex), (∀ w ∈ l, w.adj.Nodup) →
        l.Pairwise (fun a b => ∀ e ∈ a.adj, e ∉ b.adj) →
        (l.flatMap (fun v => v.adj)).Nodup := by
      intro l
      induction l with
      | nil => intro _ _; simp
      | cons a l ih =>
        intro h1 h2
        rw [List.flatMap_cons, List.nodup_append]
        rw [List.pairwise_cons] at h2
        refine ⟨h1 a (List.mem_cons_self _ _),
          ih (fun w hw => h1 w (List.mem_cons_of_mem _ hw)) h2.2, ?_⟩
        intro e hea heb
        rw [List.mem_flatMap] at heb
        obtain ⟨b, hb, heb⟩ := heb
        exact h2.1 b hb e hea heb
    apply key
    · intro w hwm
      obtain ⟨y, hy, rfl⟩ := List.getElem_of_mem hwm
      rw [← hadj y hy]
      exact (hw.2.1 y hy).2.1
    · rw [List.pairwise_iff_getElem]
      intro i j hi hj hij e hea heb
      rw [← hadj i hi] at hea
      rw [← hadj j hj] at heb
      have h1 := ((hw.2.1 i hi).1 e hea).2
      have h2 := ((hw.2.1 j hj).1 e heb).2
      rw [h1] at h2
      have := Option.some.inj h2
      omega
  exact (List.perm_ext_iff_of_nodup hnd (List.nodup_range _)).mpr
    (fun e => by rw [hmem, List.mem_range])

/-- The ids of the vertices of a well-linked graph are different from each other. -/
theorem wellLinked_ids_nodup {g : Graph} (hw : g.WellLinked) :
    (g.vertexSet.map (fun v => v.id)).Nodup := by
  rw [List.nodup_iff_injective_getElem]
  intro ⟨i, hi⟩ ⟨j, hj⟩ hij
  simp only [List.getElem_map] at hij
  simp only [List.length_map] at hi hj
  have h1 := (hw.2.1 i hi).2.2.2.2
  have h2 := (hw.2.1 j hj).2.2.2.2
  simp only [Graph.idOf, List.getElem?_eq_getElem hi, List.getElem?_eq_getElem hj,
    Option.map_some', Option.some_bind] at h1 h2
  rw [hij, h2] at h1
  have := Option.some.inj h1
  exact Fin.ext this.symm

/-- The function `makeMinCostResidual` on a well-linked regular graph whose flows are within
the capacities, called with an empty graph: it returns, and the loop invariant holds for the
whole list of the regular edges. -/
theorem makeMinCostResidual_inv {g : Graph} (hw : g.WellLinked) (hc : g.CapacityRespected)
    (hb : g.CapacityBelow 4294967296)
    (hcost : ∀ x ∈ g.edges, x.cost = Edge.initializeCost x.service) :
    ∃ m, g.makeMinCostResidual Graph.empty = some m ∧ MirrorInv g m g.mirrorOrder := by
  have hids := wellLinked_ids_nodup hw
  obtain ⟨he, hvs, -, hpos⟩ := copyVertices_spec g.vertexSet Graph.empty
    (fun v _ => by simp [Graph.findVertex, Graph.empty]) hids
  have hwm := (copyVertices_mirrored g.vertexSet Graph.empty empty_mirrored).1
  have hvs2 : (copyVertices g.vertexSet Graph.empty).vertexSet
      = g.vertexSet.map (fun v => Vertex.new v.id) := by
    rw [hvs]; simp [Graph.empty]
  have hinv0 : MirrorInv g (copyVertices g.vertexSet Graph.empty) [] := by
    refine ⟨hwm, by rw [hvs2]; simp, ?_, ?_, by rw [he]; simp [Graph.empty], ?_⟩
    · intro y
      simp only [Graph.idOf, hvs2, List.getElem?_map]
      cases g.vertexSet[y]? <;> simp [Vertex.new]
    · intro y v hy
      have := hpos y v hy
      simpa [Graph.empty] using this
    · intro k e hk; simp at hk
  have hperm := mirrorOrder_perm hw
  obtain ⟨m, hm, hinv⟩ := mirrorAdj_spec hw hc hb hcost g.mirrorOrder [] _ hinv0
    (fun e he => by simpa using hperm.mem_iff.mp he)
  refine ⟨m, ?_, by simpa using hinv⟩
  unfold Graph.makeMinCostResidual
  rw [mirrorVertices_eq]
  exact hm

/-! ## The run of `bellmanFord` on `sparseNetwork` -/

theorem spareId_inj {j k : Nat} (h : spareId j = spareId k) : j = k := by
  have h1 := congrArg String.length h
  simpa [spareId, String.length] using h1

theorem spareId_data (k : Nat) : (spareId k).data = 'x' :: List.replicate k 'x' := by
  simp [spareId, List.replicate_succ]

theorem spareId_lookup (k : Nat) : dearFirstStart.2.findVertex (spareId k) = none := by
  have hid : dearFirstStart.2.idToVertex = [("t", 2), ("a", 1), ("s", 0)] := by decide!
  have hne : ∀ c : Char, c ≠ 'x' → (spareId k == String.mk [c]) = false := by
    intro c hc
    rw [beq_eq_false_iff_ne]
    intro h
    have h1 := congrArg String.data h
    rw [spareId_data] at h1
    simp only [List.cons.injEq] at h1
    exact hc h1.1.symm
  have ht : (spareId k == "t") = false := hne 't' (by decide)
  have ha : (spareId k == "a") = false := hne 'a' (by decide)
  have hs : (spareId k == "s") = false := hne 's' (by decide)
  unfold Graph.findVertex
  rw [hid]
  simp only [List.lookup, ht, ha, hs]

theorem spareStations_ids (n : Nat) :
    ((spareStations n).map (fun v => v.id)).Nodup := by
  have : (spareStations n).map (fun v => v.id) = (List.range n).map spareId := by
    simp [spareStations, Vertex.new, Function.comp_def]
  rw [this]
  exact List.Nodup.map (fun _ _ h => spareId_inj h) (List.nodup_range n)

theorem spareStations_new (n : Nat) :
    (spareStations n).map (fun v => Vertex.new v.id) = spareStations n := by
  simp [spareStations, Vertex.new, Function.comp_def]

theorem sparse_spec (n : Nat) :
    (sparseNetwork n).edges = dearFirstStart.2.edges ∧
    (sparseNetwork n).vertexSet = dearFirstStart.2.vertexSet ++ spareStations n ∧
    (sparseNetwork n).findVertex "s" = some 0 := by
  obtain ⟨he, hv, hkeep, -⟩ := copyVertices_spec (spareStations n) dearFirstStart.2
    (by
      intro v hv
      simp only [spareStations, List.mem_map, List.mem_range] at hv
      obtain ⟨k, -, rfl⟩ := hv
      exact spareId_lookup k)
    (spareStations_ids n)
  rw [spareStations_new] at hv
  exact ⟨he, hv, hkeep "s" 0 (by decide!)⟩

theorem dear_edges : dearFirstStart.2.edges =
    [{ orig := 0, dest := 1, capacity := 0, service := Service.STANDARD, selected := true,
       reverse := some 1, correspondingEdge := some 0, flow := 0, cost := 2 },
     { orig := 1, dest := 0, capacity := 1, service := Service.STANDARD, selected := true,
       reverse := some 0, correspondingEdge := some 0, flow := 0, cost := -2 },
     { orig := 1, dest := 0, capacity := 1, service := Service.STANDARD, selected := true,
       reverse := some 3, correspondingEdge := some 1, flow := 0, cost := 2 },
     { orig := 0, dest := 1, capacity := 0, service := Service.STANDARD, selected := true,
       reverse := some 2, correspondingEdge := some 1, flow := 0, cost := -2 },
     { orig := 1, dest := 2, capacity := 0, service := Service.ALFA_PENDULAR, selected := true,
       reverse := some 5, correspondingEdge := some 2, flow := 0, cost := 4 },
     { orig := 2, dest := 1, capacity := 1, service := Service.ALFA_PENDULAR, selected := true,
       reverse := some 4, correspondingEdge := some 2, flow := 0, cost := -4 },
     { orig := 1, dest := 2, capacity := 1, service := Service.STANDARD, selected := true,
       reverse := some 7, correspondingEdge := some 4, flow := 0, cost := 2 },
     { orig := 2, dest := 1, capacity := 0, service := Service.STANDARD, selected := true,
       reverse := some 6, correspondingEdge := some 4, flow := 0, cost := -2 },
     { orig := 2, dest := 1, capacity := 1, service := Service.ALFA_PENDULAR, selected := true,
       reverse := some 9, correspondingEdge := some 3, flow := 0, cost := 4 },
     { orig := 1, dest := 2, capacity := 0, service := Service.ALFA_PENDULAR, selected := true,
       reverse := some 8, correspondingEdge := some 3, flow := 0, cost := -4 },
     { orig := 2, dest := 1, capacity := 1, service := Service.STANDARD, selected := true,
       reverse := some 11, correspondingEdge := some 5, flow := 0, cost := 2 },
     { orig := 1, dest := 2, capacity := 0, service := Service.STANDARD, selected := true,
       reverse := some 10, correspondingEdge := some 5, flow := 0, cost := -2 }] := by
  decide!

theorem dear_vertices : dearFirstStart.2.vertexSet =
    [{ id := "s", adj := [0, 3], visited := false, processing := false, indegree := 0,
       cost := 0, path := none, incoming := [1, 2] },
     { id := "a", adj := [1, 2, 4, 6, 9, 11], visited := false, processing := false,
       indegree := 0, cost := 0, path := none, incoming := [0, 3, 5, 7, 8, 10] },
     { id := "t", adj := [5, 7, 8, 10], visited := false, processing := false,
       indegree := 0, cost := 0, path := none, incoming := [4, 6, 9, 11] }] := by
  decide!

theorem sparseState_edges (n : Nat) (cs ca ct : Int) (ps pa pt : Option Nat) :
    (sparseState n cs ca ct ps pa pt).edges = dearFirstStart.2.edges := (sparse_spec n).1

theorem sparseState_length (n : Nat) (cs ca ct : Int) (ps pa pt : Option Nat) :
    (sparseState n cs ca ct ps pa pt).vertexSet.length = n + 3 := by
  simp [sparseState, spareStations]

/-- The first statements of `bellmanFord("s")` on `sparseNetwork n`. -/
theorem sparse_init (n : Nat) :
    (sparseNetwork n).bellmanFordInit "s" = some (sparseState n 0 (-1) (-1) none none none) := by
  have hf : (sparseNetwork n).findVertex "s" = some 0 := (sparse_spec n).2.2
  have hv := (sparse_spec n).2.1
  rw [dear_vertices] at hv
  unfold Graph.bellmanFordInit
  simp only [Option.bind_eq_bind]
  have hf1 : ∀ l : List Vertex,
      Graph.findVertex { sparseNetwork n with vertexSet := l } "s" = some 0 := fun _ => hf
  rw [hf1, Option.some_bind]
  unfold Graph.updateVertex
  simp only [hv, List.map_append, List.map_cons, List.map_nil, List.cons_append,
    List.getElem?_cons_zero, List.set_cons_zero, List.nil_append]
  rfl

/-! ### Single steps of the relaxation -/

theorem relaxIncoming_closed {m : Graph} {i v e : Nat} {es : List Nat} {edge : Edge}
    (h : m.edges[e]? = some edge) (hc : edge.capacity = 0) :
    relaxIncoming i v (e :: es) m = relaxIncoming i v es m := by
  rw [relaxIncoming, h]
  simp [hc]

theorem relaxIncoming_keep {m : Graph} {i v e : Nat} {es : List Nat} {edge : Edge}
    {o x : Vertex} (h : m.edges[e]? = some edge) (ho : m.vertexSet[edge.orig]? = some o)
    (hx : m.vertexSet[v]? = some x) (hn : ¬ iadd o.cost edge.cost < x.cost) :
    relaxIncoming i v (e :: es) m = relaxIncoming i v es m := by
  rw [relaxIncoming, h]
  by_cases hc : edge.capacity > 0
  · simp [hc, ho, hx, hn]
  · simp [hc]

theorem relaxIncoming_lower {m m1 : Graph} {i v e : Nat} {es : List Nat} {edge : Edge}
    {o x : Vertex} (h : m.edges[e]? = some edge) (hc : edge.capacity > 0)
    (ho : m.vertexSet[edge.orig]? = some o) (hx : m.vertexSet[v]? = some x)
    (hlt : iadd o.cost edge.cost < x.cost) (hi : i ≠ m.vertexSet.length)
    (hu : m.updateVertex v (fun y => { y with cost := iadd o.cost edge.cost, path := some e })
      = some m1) :
    relaxIncoming i v (e :: es) m = relaxIncoming i v es m1 := by
  rw [relaxIncoming, h]
  simp [hc, ho, hx, hlt, hi, hu]

theorem relaxVertices_next {m m1 : Graph} {i n v : Nat} {x : Vertex}
    (hx : m.vertexSet[v]? = some x) (h : relaxIncoming i v x.incoming m = some (none, m1)) :
    relaxVertices i (n + 1) v m = relaxVertices i n (v + 1) m1 := by
  rw [relaxVertices, hx]
  simp [h]

/-- The loop over the vertices passes over vertices without incoming edges. -/
theorem relaxVertices_idle (i : Nat) : ∀ (k v : Nat) (m : Graph),
    v + k = m.vertexSet.length →
    (∀ u x, v ≤ u → m.vertexSet[u]? = some x → x.incoming = []) →
    relaxVertices i k v m = some (none, m) := by
  intro k
  induction k with
  | zero => intro v m _ _; simp [relaxVertices]
  | succ k ih =>
    intro v m hv hq
    have hvl : v < m.vertexSet.length := by omega
    have hx : m.vertexSet[v]? = some m.vertexSet[v] := List.getElem?_eq_getElem hvl
    have hinc := hq v _ (le_refl _) hx
    have hstep : relaxIncoming i v (m.vertexSet[v]).incoming m = some (none, m) := by
      rw [hinc]; simp [relaxIncoming]
    rw [relaxVertices_next hx hstep]
    exact ih (v + 1) m (by omega) (fun u x hu => hq u x (by omega))

theorem sparseState_idle (n : Nat) (cs ca ct : Int) (ps pa pt : Option Nat) :
    ∀ u x, 3 ≤ u → (sparseState n cs ca ct ps pa pt).vertexSet[u]? = some x →
      x.incoming = [] := by
  intro u x hu hx
  obtain ⟨w, rfl⟩ : ∃ w, u = w + 3 := ⟨u - 3, by omega⟩
  simp only [sparseState, List.cons_append, List.nil_append, List.getElem?_cons_succ] at hx
  have hmem := List.getElem?_mem hx
  simp only [spareStations, List.map_map, List.mem_map, List.mem_range] at hmem
  obtain ⟨k, -, rfl⟩ := hmem
  rfl

/-! ### The edges and the vertices of a state of the run -/

theorem sparseState_edge0 (n : Nat) (cs ca ct : Int) (ps pa pt : Option Nat) :
    (sparseState n cs ca ct ps pa pt).edges[0]? =
      some ⟨0, 1, 0, Service.STANDARD, true, some 1, some 0, 0, 2⟩ := by
  rw [sparseState_edges, dear_edges]; rfl

theorem sparseState_edge1 (n : Nat) (cs ca ct : Int) (ps pa pt : Option Nat) :
    (sparseState n cs ca ct ps pa pt).edges[1]? =
      some ⟨1, 0, 1, Service.STANDARD, true, some 0, some 0, 0, -2⟩ := by
  rw [sparseState_edges, dear_edges]; rfl

theorem sparseState_edge2 (n : Nat) (cs ca ct : Int) (ps pa pt : Option Nat) :
    (sparseState n cs ca ct ps pa pt).edges[2]? =
      some ⟨1, 0, 1, Service.STANDARD, true, some 3, some 1, 0, 2⟩ := by
  rw [sparseState_edges, dear_edges]; rfl

theorem sparseState_edge3 (n : Nat) (cs ca ct : Int) (ps pa pt : Option Nat) :
    (sparseState n cs ca ct ps pa pt).edges[3]? =
      some ⟨0, 1, 0, Service.STANDARD, true, some 2, some 1, 0, -2⟩ := by
  rw [sparseState_edges, dear_edges]; rfl

theorem sparseState_edge4 (n : Nat) (cs ca ct : Int) (ps pa pt : Option Nat) :
    (sparseState n cs ca ct ps pa pt).edges[4]? =
      some ⟨1, 2, 0, Service.ALFA_PENDULAR, true, some 5, some 2, 0, 4⟩ := by
  rw [sparseState_edges, dear_edges]; rfl

theorem sparseState_edge5 (n : Nat) (cs ca ct : Int) (ps pa pt : Option Nat) :
    (sparseState n cs ca ct ps pa pt).edges[5]? =
      some ⟨2, 1, 1, Service.ALFA_PENDULAR, true, some 4, some 2, 0, -4⟩ := by
  rw [sparseState_edges, dear_edges]; rfl

theorem sparseState_edge6 (n : Nat) (cs ca ct : Int) (ps pa pt : Option Nat) :
    (sparseState n cs ca ct ps pa pt).edges[6]? =
      some ⟨1, 2, 1, Service.STANDARD, true, some 7, some 4, 0, 2⟩ := by
  rw [sparseState_edges, dear_edges]; rfl

theorem sparseState_edge7 (n : Nat) (cs ca ct : Int) (ps pa pt : Option Nat) :
    (sparseState n cs ca ct ps pa pt).edges[7]? =
      some ⟨2, 1, 0, Service.STANDARD, true, some 6, some 4, 0, -2⟩ := by
  rw [sparseState_edges, dear_edges]; rfl

theorem sparseState_edge8 (n : Nat) (cs ca ct : Int) (ps pa pt : Option Nat) :
    (sparseState n cs ca ct ps pa pt).edges[8]? =
      some ⟨2, 1, 1, Service.ALFA_PENDULAR, true, some 9, some 3, 0, 4⟩ := by
  rw [sparseState_edges, dear_edges]; rfl

theorem sparseState_edge9 (n : Nat) (cs ca ct : Int) (ps pa pt : Option Nat) :
    (sparseState n cs ca ct ps pa pt).edges[9]? =
      some ⟨1, 2, 0, Service.ALFA_PENDULAR, true, some 8, some 3, 0, -4⟩ := by
  rw [sparseState_edges, dear_edges]; rfl

theorem sparseState_edge10 (n : Nat) (cs ca ct : Int) (ps pa pt : Option Nat) :
    (sparseState n cs ca ct ps pa pt).edges[10]? =
      some ⟨2, 1, 1, Service.STANDARD, true, some 11, some 5, 0, 2⟩ := by
  rw [sparseState_edges, dear_edges]; rfl

theorem sparseState_edge11 (n : Nat) (cs ca ct : Int) (ps pa pt : Option Nat) :
    (sparseState n cs ca ct ps pa pt).edges[11]? =
      some ⟨1, 2, 0, Service.STANDARD, true, some 10, some 5, 0, -2⟩ := by
  rw [sparseState_edges, dear_edges]; rfl

theorem sparseState_vertex0 (n : Nat) (cs ca ct : Int) (ps pa pt : Option Nat) :
    (sparseState n cs ca ct ps pa pt).vertexSet[0]? =
      some ⟨"s", [0, 3], false, false, 0, cs, ps, [1, 2]⟩ := by
  simp [sparseState]

theorem sparseState_vertex1 (n : Nat) (cs ca ct : Int) (ps pa pt : Option Nat) :
    (sparseState n cs ca ct ps pa pt).vertexSet[1]? =
      some ⟨"a", [1, 2, 4, 6, 9, 11], false, false, 0, ca, pa, [0, 3, 5, 7, 8, 10]⟩ := by
  simp [sparseState]

theorem sparseState_vertex2 (n : Nat) (cs ca ct : Int) (ps pa pt : Option Nat) :
    (sparseState n cs ca ct ps pa pt).vertexSet[2]? =
      some ⟨"t", [5, 7, 8, 10], false, false, 0, ct, pt, [4, 6, 9, 11]⟩ := by
  simp [sparseState]

theorem sparseState_update0 (n : Nat) (cs ca ct : Int) (ps pa pt : Option Nat) (c : Int) (e : Nat) :
    (sparseState n cs ca ct ps pa pt).updateVertex 0 (fun y => { y with cost := c, path := some e })
      = some (sparseState n c ca ct (some e) pa pt) := by
  simp [Graph.updateVertex, sparseState]

theorem sparseState_update1 (n : Nat) (cs ca ct : Int) (ps pa pt : Option Nat) (c : Int) (e : Nat) :
    (sparseState n cs ca ct ps pa pt).updateVertex 1 (fun y => { y with cost := c, path := some e })
      = some (sparseState n cs c ct ps (some e) pt) := by
  simp [Graph.updateVertex, sparseState]

theorem sparseState_update2 (n : Nat) (cs ca ct : Int) (ps pa pt : Option Nat) (c : Int) (e : Nat) :
    (sparseState n cs ca ct ps pa pt).updateVertex 2 (fun y => { y with cost := c, path := some e })
      = some (sparseState n cs ca c ps pa (some e)) := by
  simp [Graph.updateVertex, sparseState]

/-- A pass of `bellmanFord` on `sparseNetwork n` that is not the final one, from a state in
which the edge 1 lowers the cost of `s` and the edge 5 the cost of `a`, with all sums inside
`int`: the edges 1, 5 and 6 are relaxed and no other. -/
theorem sparse_descent_pass (n i : Nat) (cs ca ct : Int) (ps pa pt : Option Nat)
    (hi : i ≠ n + 3) (h1 : ca - 2 < cs) (h2 : ct - 4 < ca)
    (hb1 : -2147483648 ≤ ca - 2) (hb2 : -2147483648 ≤ ct - 4) (ha : ca ≤ 0) (ht : ct ≤ 0) :
    relaxVertices i (n + 3) 0 (sparseState n cs ca ct ps pa pt)
      = some (none, sparseState n (ca - 2) (ct - 4) (ct - 2) (some 1) (some 5) (some 6)) := by
  have hA : iadd ca (-2) = ca - 2 := by rw [iadd_exact (by omega) (by omega)]; ring
  have hA2 : iadd ca 2 = ca + 2 := iadd_exact (by omega) (by omega)
  have hB : iadd ct (-4) = ct - 4 := by rw [iadd_exact (by omega) (by omega)]; ring
  have hB4 : iadd ct 4 = ct + 4 := iadd_exact (by omega) (by omega)
  have hB2 : iadd ct 2 = ct + 2 := iadd_exact (by omega) (by omega)
  have hC : iadd (ct - 4) 2 = ct - 2 := by rw [iadd_exact (by omega) (by omega)]; ring
  have hlen : ∀ a b c (p q r : Option Nat), i ≠ (sparseState n a b c p q r).vertexSet.length := by
    intro a b c p q r; rw [sparseState_length]; exact hi
  -- the vertex `s`
  have s0 : relaxIncoming i 0 [1, 2] (sparseState n cs ca ct ps pa pt)
      = some (none, sparseState n (ca - 2) ca ct (some 1) pa pt) := by
    rw [relaxIncoming_lower (sparseState_edge1 ..) (by decide) (sparseState_vertex1 ..)
      (sparseState_vertex0 ..) (by show iadd ca (-2) < cs; rw [hA]; exact h1) (hlen _ _ _ _ _ _)
      (sparseState_update0 ..)]
    rw [relaxIncoming_keep (sparseState_edge2 ..) (sparseState_vertex1 ..)
      (sparseState_vertex0 ..) (by show ¬ iadd ca 2 < iadd ca (-2); rw [hA, hA2]; omega)]
    show some (none, sparseState n (iadd ca (-2)) ca ct (some 1) pa pt) = _
    rw [hA]
  -- the vertex `a`
  have s1 : relaxIncoming i 1 [0, 3, 5, 7, 8, 10] (sparseState n (ca - 2) ca ct (some 1) pa pt)
      = some (none, sparseState n (ca - 2) (ct - 4) ct (some 1) (some 5) pt) := by
    rw [relaxIncoming_closed (sparseState_edge0 ..) rfl,
      relaxIncoming_closed (sparseState_edge3 ..) rfl]
    rw [relaxIncoming_lower (sparseState_edge5 ..) (by decide) (sparseState_vertex2 ..)
      (sparseState_vertex1 ..) (by show iadd ct (-4) < ca; rw [hB]; exact h2) (hlen _ _ _ _ _ _)
      (sparseState_update1 ..)]
    rw [relaxIncoming_closed (sparseState_edge7 ..) rfl]
    rw [relaxIncoming_keep (sparseState_edge8 ..) (sparseState_vertex2 ..)
      (sparseState_vertex1 ..) (by show ¬ iadd ct 4 < iadd ct (-4); rw [hB, hB4]; omega)]
    rw [relaxIncoming_keep (sparseState_edge10 ..) (sparseState_vertex2 ..)
      (sparseState_vertex1 ..) (by show ¬ iadd ct 2 < iadd ct (-4); rw [hB, hB2]; omega)]
    show some (none, sparseState n (ca - 2) (iadd ct (-4)) ct (some 1) (some 5) pt) = _
    rw [hB]
  -- the vertex `t`
  have s2 : relaxIncoming i 2 [4, 6, 9, 11]
      (sparseState n (ca - 2) (ct - 4) ct (some 1) (some 5) pt)
      = some (none, sparseState n (ca - 2) (ct - 4) (ct - 2) (some 1) (some 5) (some 6)) := by
    rw [relaxIncoming_closed (sparseState_edge4 ..) rfl]
    rw [relaxIncoming_lower (sparseState_edge6 ..) (by decide) (sparseState_vertex1 ..)
      (sparseState_vertex2 ..) (by show iadd (ct - 4) 2 < ct; rw [hC]; omega) (hlen _ _ _ _ _ _)
      (sparseState_update2 ..)]
    rw [relaxIncoming_closed (sparseState_edge9 ..) rfl,
      relaxIncoming_closed (sparseState_edge11 ..) rfl]
    show some (none, sparseState n (ca - 2) (ct - 4) (iadd (ct - 4) 2) (some 1) (some 5)
      (some 6)) = _
    rw [hC]
  rw [show n + 3 = (n + 2) + 1 from rfl, relaxVertices_next (sparseState_vertex0 ..) s0,
    show n + 2 = (n + 1) + 1 from rfl, relaxVertices_next (sparseState_vertex1 ..) s1,
    relaxVertices_next (sparseState_vertex2 ..) s2]
  exact relaxVertices_idle i n 3 _ (by rw [sparseState_length]; omega) (sparseState_idle _ _ _ _ _ _ _)

/-- A pass of `bellmanFord` on `sparseNetwork n`, the final one or not, from a state in
which no edge of capacity `> 0` lowers a cost: nothing changes. -/
theorem sparse_quiet_pass (n i : Nat) (cs ca ct : Int) (ps pa pt : Option Nat)
    (q1 : ¬ iadd ca (-2) < cs) (q2 : ¬ iadd ca 2 < cs) (q5 : ¬ iadd ct (-4) < ca)
    (q8 : ¬ iadd ct 4 < ca) (q10 : ¬ iadd ct 2 < ca) (q6 : ¬ iadd ca 2 < ct) :
    relaxVertices i (n + 3) 0 (sparseState n cs ca ct ps pa pt)
      = some (none, sparseState n cs ca ct ps pa pt) := by
  have s0 : relaxIncoming i 0 [1, 2] (sparseState n cs ca ct ps pa pt)
      = some (none, sparseState n cs ca ct ps pa pt) := by
    rw [relaxIncoming_keep (sparseState_edge1 ..) (sparseState_vertex1 ..)
      (sparseState_vertex0 ..) q1,
      relaxIncoming_keep (sparseState_edge2 ..) (sparseState_vertex1 ..)
      (sparseState_vertex0 ..) q2]
    rfl
  have s1 : relaxIncoming i 1 [0, 3, 5, 7, 8, 10] (sparseState n cs ca ct ps pa pt)
      = some (none, sparseState n cs ca ct ps pa pt) := by
    rw [relaxIncoming_closed (sparseState_edge0 ..) rfl,
      relaxIncoming_closed (sparseState_edge3 ..) rfl,
      relaxIncoming_keep (sparseState_edge5 ..) (sparseState_vertex2 ..)
      (sparseState_vertex1 ..) q5,
      relaxIncoming_closed (sparseState_edge7 ..) rfl,
      relaxIncoming_keep (sparseState_edge8 ..) (sparseState_vertex2 ..)
      (sparseState_vertex1 ..) q8,
      relaxIncoming_keep (sparseState_edge10 ..) (sparseState_vertex2 ..)
      (sparseState_vertex1 ..) q10]
    rfl
  have s2 : relaxIncoming i 2 [4, 6, 9, 11] (sparseState n cs ca ct ps pa pt)
      = some (none, sparseState n cs ca ct ps pa pt) := by
    rw [relaxIncoming_closed (sparseState_edge4 ..) rfl,
      relaxIncoming_keep (sparseState_edge6 ..) (sparseState_vertex1 ..)
      (sparseState_vertex2 ..) q6,
      relaxIncoming_closed (sparseState_edge9 ..) rfl,
      relaxIncoming_closed (sparseState_edge11 ..) rfl]
    rfl
  rw [show n + 3 = (n + 2) + 1 from rfl, relaxVertices_next (sparseState_vertex0 ..) s0,
    show n + 2 = (n + 1) + 1 from rfl, relaxVertices_next (sparseState_vertex1 ..) s1,
    relaxVertices_next (sparseState_vertex2 ..) s2]
  exact relaxVertices_idle i n 3 _ (by rw [sparseState_length]; omega) (sparseState_idle _ _ _ _ _ _ _)

/-! ### The whole run -/

theorem relaxPasses_next {m m1 : Graph} {k i : Nat}
    (h : relaxVertices i m.vertexSet.length 0 m = some (none, m1)) :
    relaxPasses (k + 1) i m = relaxPasses k (i + 1) m1 := by
  rw [relaxPasses, h]
  rfl

/-- From the third pass on every pass lowers the three costs by 2, as long as the sums stay
inside `int`. -/
theorem sparse_descent (n : Nat) : ∀ (k i : Nat) (x : Int) (r : Nat), i + k ≤ n + 3 →
    x ≤ -2 → -2147483648 ≤ x - 2 * (k : Int) →
    relaxPasses (k + r) i (sparseState n x x (x + 2) (some 1) (some 5) (some 6))
      = relaxPasses r (i + k)
          (sparseState n (x - 2 * (k : Int)) (x - 2 * (k : Int)) (x - 2 * (k : Int) + 2)
            (some 1) (some 5) (some 6)) := by
  intro k
  induction k with
  | zero => intro i x r _ _ _; simp
  | succ k ih =>
    intro i x r hi hx hb
    push_cast at hb
    have hpass := sparse_descent_pass n i x x (x + 2) (some 1) (some 5) (some 6) (by omega)
      (by omega) (by omega) (by omega) (by omega) (by omega) (by omega)
    have e1 : x + 2 - 4 = x - 2 := by ring
    have e2 : x + 2 - 2 = x - 2 + 2 := by ring
    rw [e1, e2] at hpass
    rw [show k + 1 + r = (k + r) + 1 by omega,
      relaxPasses_next (by rw [sparseState_length]; exact hpass),
      ih (i + 1) (x - 2) r (by omega) (by omega) (by omega)]
    have e3 : x - 2 - 2 * (k : Int) = x - 2 * ((k + 1 : Nat) : Int) := by push_cast; ring
    rw [e3, show i + 1 + k = i + (k + 1) by omega]

/-- The run of `bellmanFord("s")` on the network of `2 ^ 30` stations: two passes, then
`2 ^ 30 - 4` passes that lower the costs by 2 each down to `-(2 ^ 31 - 1)`, where the sums of
the edges 1 and 5 wrap around, and two passes without relaxation, the final pass one of
them. -/
theorem deep_run :
    deepNetwork.bellmanFord "s"
      = some ([], sparseState 1073741821 (-2147483647) (-2147483647) (-2147483645)
          (some 1) (some 5) (some 6)) := by
  unfold deepNetwork
  rw [bellmanFord_eq, sparse_init, Option.some_bind, sparseState_length]
  have p1 := sparse_descent_pass 1073741821 1 0 (-1) (-1) none none none (by omega)
    (by omega) (by omega) (by omega) (by omega) (by omega) (by omega)
  have p2 := sparse_descent_pass 1073741821 2 (-1 - 2) (-1 - 4) (-1 - 2) (some 1) (some 5)
    (some 6) (by omega) (by omega) (by omega) (by omega) (by omega) (by omega) (by omega)
  have e1 : (-1 - 4 - 2 : Int) = -7 := by norm_num
  have e2 : (-1 - 2 - 4 : Int) = -7 := by norm_num
  have e3 : (-1 - 2 - 2 : Int) = -7 + 2 := by norm_num
  rw [e1, e2, e3] at p2
  have hd := sparse_descent 1073741821 1073741820 3 (-7) 2 (by omega) (by omega) (by omega)
  have e4 : (-7 - 2 * ((1073741820 : Nat) : Int) : Int) = -2147483647 := by norm_num
  have e5 : (-2147483647 + 2 : Int) = -2147483645 := by norm_num
  rw [e4, e5] at hd
  have hq : ∀ i, relaxVertices i (1073741821 + 3) 0
      (sparseState 1073741821 (-2147483647) (-2147483647) (-2147483645) (some 1) (some 5)
        (some 6))
      = some (none, sparseState 1073741821 (-2147483647) (-2147483647) (-2147483645)
          (some 1) (some 5) (some 6)) := fun i =>
    sparse_quiet_pass 1073741821 i _ _ _ _ _ _ (by unfold iadd; omega) (by unfold iadd; omega)
      (by unfold iadd; omega) (by unfold iadd; omega) (by unfold iadd; omega)
      (by unfold iadd; omega)
  rw [show 1073741821 + 3 = (1073741820 + 2) + 1 + 1 from rfl,
    relaxPasses_next (by rw [sparseState_length]; exact p1),
    relaxPasses_next (by rw [sparseState_length]; exact p2), hd,
    relaxPasses_next (by rw [sparseState_length]; exact hq _),
    relaxPasses_next (by rw [sparseState_length]; exact hq _)]
  rfl

/-! ### The network of `2 ^ 30` stations is an auxiliary network with a negative cycle -/

theorem addVertex_wellLinked {g : Graph} (id : String) (hm : g.WellLinked) :
    (g.addVertex id).2.WellLinked := by
  unfold Graph.addVertex
  cases hf : g.findVertex id with
  | some v => simpa using hm
  | none =>
    simp only [Option.isSome_none, Bool.false_eq_true, if_false]
    obtain ⟨hw1, hw2, hw3⟩ := hm
    set h : Graph := { g with vertexSet := g.vertexSet ++ [Vertex.new id],
                              idToVertex := (id, g.vertexSet.length) :: g.idToVertex } with hh
    have hedges : h.edges = g.edges := rfl
    have hlen : h.vertexSet.length = g.vertexSet.length + 1 := by simp [hh]
    have hvs : ∀ x, h.vertexSet[x]? =
        if x = g.vertexSet.length then some (Vertex.new id) else g.vertexSet[x]? := by
      intro x
      show (g.vertexSet ++ [Vertex.new id])[x]? = _
      by_cases h1 : x < g.vertexSet.length
      · have h2 : x ≠ g.vertexSet.length := by omega
        rw [if_neg h2, List.getElem?_append_left h1]
      · by_cases h2 : x = g.vertexSet.length
        · subst h2
          rw [List.getElem?_append_right (le_refl _)]
          simp
        · rw [if_neg h2, List.getElem?_eq_none (by simp; omega),
            List.getElem?_eq_none (by omega)]
    have hnone : g.vertexSet[g.vertexSet.length]? = none := List.getElem?_eq_none (le_refl _)
    have hadj : ∀ x, h.adjOf x = g.adjOf x := by
      intro x
      simp only [Graph.adjOf, hvs]
      by_cases h2 : x = g.vertexSet.length
      · subst h2; simp [hnone, Vertex.new]
      · simp [h2]
    have hinc : ∀ x, h.incomingOf x = g.incomingOf x := by
      intro x
      simp only [Graph.incomingOf, hvs]
      by_cases h2 : x = g.vertexSet.length
      · subst h2; simp [hnone, Vertex.new]
      · simp [h2]
    have hidof : ∀ x, h.idOf x = if x = g.vertexSet.length then some id else g.idOf x := by
      intro x
      simp only [Graph.idOf, hvs]
      by_cases h2 : x = g.vertexSet.length
      · subst h2; simp [Vertex.new]
      · simp [h2]
    have hfind : ∀ t, h.findVertex t =
        if t = id then some g.vertexSet.length else g.findVertex t := by
      intro t
      show List.lookup t ((id, g.vertexSet.length) :: g.idToVertex) = _
      rw [List.lookup_cons]
      by_cases ht : t = id
      · subst ht; simp
      · have : (t == id) = false := by simpa using ht
        simp [this, ht, Graph.findVertex]
    have hacc : h.getOrig = g.getOrig ∧ h.getDest = g.getDest ∧ h.getReverse = g.getReverse :=
      ⟨rfl, rfl, rfl⟩
    obtain ⟨ho, hd, hr⟩ := hacc
    refine ⟨?_, ?_, ?_⟩
    · intro i hi
      rw [hedges] at hi
      obtain ⟨⟨u, hu, hou, hmu⟩, ⟨v, hv, hdv, hmv⟩, hj⟩ := hw1 i hi
      rw [ho, hd, hr, hedges, hlen]
      exact ⟨⟨u, by omega, hou, by rw [hadj]; exact hmu⟩,
        ⟨v, by omega, hdv, by rw [hinc]; exact hmv⟩, hj⟩
    · intro x hx
      rw [hlen] at hx
      rw [hadj, hinc, ho, hd, hedges, hidof]
      by_cases h2 : x = g.vertexSet.length
      · subst h2
        have ha : g.adjOf g.vertexSet.length = [] := (adjOf_of_ge (by omega)).1
        have hi : g.incomingOf g.vertexSet.length = [] := (adjOf_of_ge (by omega)).2
        rw [ha, hi]
        simp [hfind]
      · have hx' : x < g.vertexSet.length := by omega
        obtain ⟨h1, h2', h3, h4, h5⟩ := hw2 x hx'
        refine ⟨h1, h2', h3, h4, ?_⟩
        rw [if_neg h2]
        cases hidx : g.idOf x with
        | none => simp [hidx] at h5
        | some t =>
          simp only [hidx, Option.some_bind] at h5 ⊢
          rw [hfind]
          have : t ≠ id := by
            intro hti; subst hti
            rw [hf] at h5
            exact Option.noConfusion h5
          rw [if_neg this]; exact h5
    · intro p hp
      rw [hidof]
      rcases List.mem_cons.mp hp with hp | hp
      · subst hp; simp
      · have := hw3 p hp
        have hlt := idOf_lt this
        have hne : p.2 ≠ g.vertexSet.length := by omega
        rw [if_neg hne]; exact this

theorem copyVertices_wellLinked : ∀ (vs : List Vertex) (m : Graph), m.WellLinked →
    (copyVertices vs m).WellLinked := by
  intro vs
  induction vs with
  | nil => intro m hm; exact hm
  | cons v vs ih => intro m hm; exact ih _ (addVertex_wellLinked v.id hm)

theorem sparse_wellLinked (n : Nat) : (sparseNetwork n).WellLinked :=
  copyVertices_wellLinked _ _ (by decide!)

theorem sparse_cycle (n : Nat) : (sparseNetwork n).HasSimpleNegativeCycle := by
  rw [hasSimpleNegativeCycle_iff, hasNegativeCycle_congr (sparse_spec n).1]
  exact ⟨2, [5, 6], by simp, ⟨by decide!, by decide!, 1, by decide!, by decide!, by decide!, 2,
    by decide!, rfl⟩, by decide!⟩

theorem sparse_length (n : Nat) : (sparseNetwork n).vertexSet.length = n + 3 := by
  rw [(sparse_spec n).2.1, dear_vertices]
  simp [spareStations]

theorem sparse_edges_length (n : Nat) : (sparseNetwork n).edges.length = 12 := by
  rw [(sparse_spec n).1, dear_edges]
  rfl

theorem sparse_edge_costs (n : Nat) :
    ∀ x ∈ (sparseNetwork n).edges, -4 ≤ x.cost ∧ x.cost ≤ 4 := by
  rw [(sparse_spec n).1]
  decide!

theorem sparseState_costs (n : Nat) (cs ca ct : Int) (ps pa pt : Option Nat) :
    ((sparseState n cs ca ct ps pa pt).costAt 0, (sparseState n cs ca ct ps pa pt).costAt 1,
      (sparseState n cs ca ct ps pa pt).costAt 2) = (cs, ca, ct) := by
  simp [Graph.costAt, sparseState]

/-! # The claims -/

/-- C4 (counterexample): `alternatingNetwork` is a paired network, and `edmondsKarp` with
source `s` and target `t` returns on it with a regular link whose flow exceeds its capacity
(the link from `u` to `v`, capacity `10 * 2 ^ 28`, flow `15 * 2 ^ 28`): with capacities
of `2 ^ 31` and more, `flow + value` wraps around in `augmentPath`. -/
theorem edmondsKarp_capacity_overflow :
    alternatingNetwork.map (fun p => decide (Paired p.1 p.2)) = some true ∧
    afterEdmondsKarp alternatingNetwork 5 ["s"] "t"
      (fun _ g _ => (decide g.CapacityRespected, (g.edges.head?).map (fun e => (e.capacity, e.flow))))
      = some (false, some (2684354560, 4026531840)) := by
  decide!

/-- C4 (amended): on a paired network whose capacities are all below `2 ^ 31`, every regular
link satisfies `0 ≤ flow ≤ capacity` (flows are natural numbers) after `edmondsKarp`
returns, after the reset and after every number of augmentations of its loop, and after every
number of iterations of the loop of `augmentPath` inside the next augmentation. -/
theorem edmondsKarp_capacity_respected (g r : Graph) (source : List String) (target : String)
    (hp : Paired g r) (hcap : g.CapacityBelow 2147483648) :
    (∀ fuel F g1 r1, g.edmondsKarp fuel source target r = some (F, g1, r1) →
      g1.CapacityRespected) ∧
    (∀ g0 r0 fuel fin maxFlow g1 r1, resetFlows g.vertexSet g r = some (g0, r0) →
      edmondsKarpLoop source target fuel 0 g0 r0 = some (fin, maxFlow, g1, r1) →
      g1.CapacityRespected ∧
      ∀ ra b tv steps fin2 g2 r2, r1.path source target = some (true, ra) →
        ra.findBottleneck target = some b → ra.findVertex target = some tv →
        augmentPathLoop b steps tv g1 ra = some (fin2, g2, r2) → g2.CapacityRespected) := by
  have hloop : ∀ g0 r0 fuel fin maxFlow g1 r1, resetFlows g.vertexSet g r = some (g0, r0) →
      edmondsKarpLoop source target fuel 0 g0 r0 = some (fin, maxFlow, g1, r1) →
      EKInv source target g1 r1 := by
    intro g0 r0 fuel fin maxFlow g1 r1 hreset hl
    exact (edmondsKarpLoop_spec source target fuel 0 g0 r0 fin maxFlow g1 r1
      (ekInv_of_reset hp hcap hreset) hl).1
  constructor
  · intro fuel F g1 r1 h
    simp only [Graph.edmondsKarp, Option.bind_eq_bind, Option.bind_eq_some] at h
    obtain ⟨⟨g0, r0⟩, hreset, ⟨fin, mf, ga, ra⟩, hl, h⟩ := h
    cases fin with
    | false => simp at h
    | true =>
      simp only [Option.some.injEq, Prod.mk.injEq] at h
      obtain ⟨-, rfl, -⟩ := h
      exact (hloop g0 r0 fuel true mf ga ra hreset hl).capacityRespected
  · intro g0 r0 fuel fin maxFlow g1 r1 hreset hl
    have hinv := hloop g0 r0 fuel fin maxFlow g1 r1 hreset hl
    refine ⟨hinv.capacityRespected, ?_⟩
    intro ra b tv steps fin2 g2 r2 hpath hb htv haug
    obtain ⟨hp2, hli2, -⟩ := augment_after_path hinv.1 hinv.2.1 hinv.2.2.1 hpath hb htv haug
    exact capacityRespected_of_linkInv hp2 hli2

/-- The witness of C4 on scenario A. -/
theorem edmondsKarp_capacity_respected_witness :
    Paired scenarioAGraphs.1 scenarioAGraphs.2 ∧
    scenarioAGraphs.1.CapacityBelow 2147483648 ∧ scenarioARun.2.1.CapacityRespected :=
  ⟨by decide!, by decide!,
    (edmondsKarp_capacity_respected scenarioAGraphs.1 scenarioAGraphs.2 ["A"] "D"
      (by decide!) (by decide!)).1 3 scenarioARun.1 scenarioARun.2.1 scenarioARun.2.2
      (by decide!)⟩

/-- C5 (counterexample): `wrapNetwork` is a paired network, and after `edmondsKarp` with
source `s` and target `t` returns on it, flow is not conserved at `u`, which is neither the
source nor the target (inbound `2 ^ 32 + 1`, outbound `1`): the third augmentation makes
`flow + value` wrap around on the link from `u` to `v` of capacity `2 ^ 32 - 1`. -/
theorem edmondsKarp_conservation_overflow :
    wrapNetwork.map (fun p => decide (Paired p.1 p.2)) = some true ∧
    afterEdmondsKarp wrapNetwork 4 ["s"] "t"
      (fun _ g _ => (decide (g.Conserved ["s"] "t"),
        (g.vertexSet[1]?).map (fun v => (v.id, g.inFlow v, g.outFlow v))))
      = some (false, some ("u", 4294967297, 1)) := by
  decide!

/-- C5 (amended): on a paired network whose capacities are all below `2 ^ 31`, after
`edmondsKarp` returns, every vertex of the regular graph whose id is neither in the source
list nor the target has the sum of the flow on its incoming links equal to the sum of the
flow on its outgoing links. -/
theorem edmondsKarp_conserved (g r : Graph) (source : List String) (target : String)
    (fuel F : Nat) (g1 r1 : Graph) (hp : Paired g r) (hcap : g.CapacityBelow 2147483648)
    (h : g.edmondsKarp fuel source target r = some (F, g1, r1)) :
    g1.Conserved source target := by
  simp only [Graph.edmondsKarp, Option.bind_eq_bind, Option.bind_eq_some] at h
  obtain ⟨⟨g0, r0⟩, hreset, ⟨fin, mf, ga, ra⟩, hl, h⟩ := h
  cases fin with
  | false => simp at h
  | true =>
    simp only [Option.some.injEq, Prod.mk.injEq] at h
    obtain ⟨-, rfl, -⟩ := h
    exact (edmondsKarpLoop_spec source target fuel 0 g0 r0 true mf ga ra
      (ekInv_of_reset hp hcap hreset) hl).1.conserved

/-- The witness of C5 on scenario A. -/
theorem edmondsKarp_conserved_witness :
    Paired scenarioAGraphs.1 scenarioAGraphs.2 ∧
    scenarioAGraphs.1.CapacityBelow 2147483648 ∧ scenarioARun.2.1.Conserved ["A"] "D" :=
  ⟨by decide!, by decide!,
    edmondsKarp_conserved scenarioAGraphs.1 scenarioAGraphs.2 ["A"] "D" 3 scenarioARun.1
      scenarioARun.2.1 scenarioARun.2.2 (by decide!) (by decide!) (by decide!)⟩

/-- C6: on the network of scenario A, `edmondsKarp({A}, D, residualGraph)` returns 5 (the
loop makes two augmentations, so every budget of at least three iterations suffices). -/
theorem scenarioA_edmondsKarp (fuel : Nat) (h : 3 ≤ fuel) :
    afterEdmondsKarp scenarioA fuel ["A"] "D" (fun F _ _ => F) = some 5 := by
  have h3 : afterEdmondsKarp scenarioA 3 ["A"] "D" (fun F _ _ => F) = some 5 := by decide!
  obtain ⟨k, rfl⟩ := Nat.exists_eq_add_of_le h
  simp only [afterEdmondsKarp, Option.bind_eq_some, Option.map_eq_some'] at h3 ⊢
  obtain ⟨p, hp, x, hx, hF⟩ := h3
  exact ⟨p, hp, x, edmondsKarp_mono _ _ _ _ _ _ _ hx, hF⟩

/-- The witness of C6 at a budget of four iterations. -/
theorem scenarioA_edmondsKarp_witness :
    3 ≤ 4 ∧ afterEdmondsKarp scenarioA 4 ["A"] "D" (fun F _ _ => F) = some 5 :=
  ⟨by decide, scenarioA_edmondsKarp 4 (by decide)⟩

/-- C7: whenever `minCostMaxFlow(source, target, residualGraph)` returns, `edmondsKarp` with
the source list `{source}` returns on the same network, and the first component of the
returned pair is the value `edmondsKarp` returns (with whatever iteration budget). -/
theorem minCostMaxFlow_first (g r : Graph) (fuel : Nat) (source target : String)
    (p : Nat × Nat) (g1 r1 : Graph)
    (h : g.minCostMaxFlow fuel source target r = some (p, g1, r1)) :
    (∃ x, g.edmondsKarp fuel [source] target r = some x) ∧
    ∀ fuel1 y, g.edmondsKarp fuel1 [source] target r = some y → p.1 = y.1 := by
  simp only [Graph.minCostMaxFlow, Option.bind_eq_bind, Option.bind_eq_some, Option.pure_def,
    Option.some.injEq, Prod.mk.injEq] at h
  obtain ⟨⟨first, ga, ra⟩, hek, m, -, ⟨cyc, m1⟩, -, ⟨g2, m2⟩, -, cost, -, ⟨rfl, -⟩, -, -⟩ := h
  refine ⟨⟨_, hek⟩, ?_⟩
  intro fuel1 y hy
  have := edmondsKarp_budget_irrelevant g r fuel fuel1 [source] target _ _ hek hy
  rw [← this]

/-- The witness of C7 on scenario A. -/
theorem minCostMaxFlow_first_witness :
    scenarioAMinCostRun.1.1 = scenarioARun.1 :=
  (minCostMaxFlow_first scenarioAGraphs.1 scenarioAGraphs.2 3 "A" "D" scenarioAMinCostRun.1
    scenarioAMinCostRun.2.1 scenarioAMinCostRun.2.2 (by decide!)).2 3
    (scenarioARun.1, scenarioARun.2.1, scenarioARun.2.2) (by decide!)

/-- C10 (counterexample): on `wideLinkNetwork` (one link of capacity `2 ^ 31`)
`minCostMaxFlow(s, t, residualGraph)` returns the cost 0, while the sum over the regular
links of cost times flow is `2 * 2 ^ 31 = 2 ^ 32`. -/
theorem minCostMaxFlow_cost_overflow :
    afterMinCostMaxFlow wideLinkNetwork 2 "s" "t" (fun p g => (p, g.totalCost))
      = some ((2147483648, 0), 4294967296) := by
  decide!

/-- C10 (amended): the second component of the pair returned by `minCostMaxFlow` equals,
modulo `2 ^ 32`, the sum over every directed link of the regular graph in its final state of
the link's cost-per-unit times its flow (so it is that sum whenever the sum is below
`2 ^ 32`). -/
theorem minCostMaxFlow_cost_sum (g r : Graph) (fuel : Nat) (source target : String)
    (p : Nat × Nat) (g1 r1 : Graph)
    (h : g.minCostMaxFlow fuel source target r = some (p, g1, r1)) :
    (p.2 : Int) = g1.totalCost % 4294967296 := by
  simp only [Graph.minCostMaxFlow, Option.bind_eq_bind, Option.bind_eq_some, Option.pure_def,
    Option.some.injEq, Prod.mk.injEq] at h
  obtain ⟨⟨first, ga, ra⟩, -, m, -, ⟨cyc, m1⟩, -, ⟨g2, m2⟩, -, cost, hcost, ⟨-, rfl⟩, rfl, -⟩ := h
  obtain ⟨h1, h2⟩ := costVertices_spec _ _ _ _ hcost
  have h3 := h2 (by norm_num)
  simp only [Nat.cast_zero, zero_add] at h1
  simp only [Graph.totalCost]
  omega

/-- The witness of C10 on scenario A, where the cost is 20. -/
theorem minCostMaxFlow_cost_sum_witness :
    scenarioAMinCostRun.1.2 = 20 ∧
    (scenarioAMinCostRun.1.2 : Int) = scenarioAMinCostRun.2.1.totalCost % 4294967296 :=
  ⟨by decide!,
    minCostMaxFlow_cost_sum scenarioAGraphs.1 scenarioAGraphs.2 3 "A" "D" scenarioAMinCostRun.1
      scenarioAMinCostRun.2.1 scenarioAMinCostRun.2.2 (by decide!)⟩

/-- C12: on a paired network in which every link is active, after `edmondsKarp` has returned
the value `F`, `deactivateEdges(S)` followed by `activateEdges(S)` return (for every list `S`
of pointers to regular edges), and `edmondsKarp` with the same sources and target then
returns the same value `F`, within the same iteration budget. -/
theorem edmondsKarp_after_reactivation (g r : Graph) (S : List Nat) (fuel F : Nat)
    (source : List String) (target : String) (g1 r1 : Graph) (hp : Paired g r)
    (hag : g.AllActive) (har : r.AllActive) (hS : ∀ e ∈ S, e < g.edges.length)
    (h : g.edmondsKarp fuel source target r = some (F, g1, r1)) :
    ∃ g2 r2 g3 r3, deactivateEdges S g1 r1 = some (g2, r2) ∧
      activateEdges S g2 r2 = some (g3, r3) ∧
      (∃ g4 r4, g3.edmondsKarp fuel source target r3 = some (F, g4, r4)) ∧
      ∀ fuel1 F1 g4 r4, g3.edmondsKarp fuel1 source target r3 = some (F1, g4, r4) → F1 = F := by
  have hs := edmondsKarp_sameNetwork h
  have hp1 : Paired g1 r1 := hs.pairedNet hp
  have hS1 : ∀ e ∈ S, e < g1.edges.length := by
    intro e he
    rw [hs.staticNet.1.edges_length]; exact hS e he
  obtain ⟨g2, r2, hd, -, -, -⟩ := selectEdges_flagsSet false hp1 hS1
  have hback := activateEdges_deactivateEdges hp1 hS1 (hs.allActive.1 hag) (hs.allActive.2 har) hd
  have hrun := edmondsKarp_congr hp hp1 hs h
  refine ⟨g2, r2, g1, r1, hd, hback, ⟨_, _, hrun⟩, ?_⟩
  intro fuel1 F1 g4 r4 h4
  have := edmondsKarp_budget_irrelevant g1 r1 fuel fuel1 source target _ _ hrun h4
  simp only [Prod.mk.injEq] at this
  exact this.1.symm

/-- The witness of C12 on scenario A with the link from `A` to `B` in the list. -/
theorem edmondsKarp_after_reactivation_witness :
    ∃ g2 r2 g3 r3, deactivateEdges [0] scenarioARun.2.1 scenarioARun.2.2 = some (g2, r2) ∧
      activateEdges [0] g2 r2 = some (g3, r3) ∧
      (∃ g4 r4, g3.edmondsKarp 3 ["A"] "D" r3 = some (scenarioARun.1, g4, r4)) ∧
      ∀ fuel1 F1 g4 r4, g3.edmondsKarp fuel1 ["A"] "D" r3 = some (F1, g4, r4) →
        F1 = scenarioARun.1 :=
  edmondsKarp_after_reactivation scenarioAGraphs.1 scenarioAGraphs.2 [0] 3 scenarioARun.1 ["A"]
    "D" scenarioARun.2.1 scenarioARun.2.2 (by decide!) (by decide!) (by decide!) (by decide!)
    (by decide!)

/-- C13: on a paired network and for a list `S` of pointers to regular edges,
`deactivateEdges(S)` and `activateEdges(S)` return; they overwrite the active flag (with
`false`, respectively `true`) of exactly the edges of the links of `S`: every listed edge,
its reverse, and the corresponding edge of either in the other graph; every other field of
these edges (capacity and flow among them), every other edge and everything else in the two
graphs is unchanged; if the four flags of every link agreed before the call, they agree after
it; the result is a paired network. -/
theorem deactivateEdges_activateEdges_flags (g r : Graph) (S : List Nat) (hp : Paired g r)
    (hS : ∀ e ∈ S, e < g.edges.length) :
    (∃ g1 r1, deactivateEdges S g r = some (g1, r1) ∧ FlagsSet false S g r g1 r1 ∧
      (FlagsAgree g r → FlagsAgree g1 r1) ∧ Paired g1 r1) ∧
    (∃ g1 r1, activateEdges S g r = some (g1, r1) ∧ FlagsSet true S g r g1 r1 ∧
      (FlagsAgree g r → FlagsAgree g1 r1) ∧ Paired g1 r1) := by
  constructor
  · obtain ⟨g1, r1, h, hf, ha, hp1⟩ := selectEdges_flagsSet false hp hS
    exact ⟨g1, r1, h, hf, ha, hp1⟩
  · obtain ⟨g1, r1, h, hf, ha, hp1⟩ := selectEdges_flagsSet true hp hS
    exact ⟨g1, r1, h, hf, ha, hp1⟩

/-- The witness of C13 on scenario A with the links `A`-`B` and `B`-`D` (through the
reverse edge) in the list. -/
theorem deactivateEdges_activateEdges_flags_witness :
    ∃ g1 r1, deactivateEdges [0, 5] scenarioAGraphs.1 scenarioAGraphs.2 = some (g1, r1) ∧
      FlagsSet false [0, 5] scenarioAGraphs.1 scenarioAGraphs.2 g1 r1 ∧
      (FlagsAgree scenarioAGraphs.1 scenarioAGraphs.2 → FlagsAgree g1 r1) ∧ Paired g1 r1 :=
  (deactivateEdges_activateEdges_flags scenarioAGraphs.1 scenarioAGraphs.2 [0, 5] (by decide!)
    (by decide!)).1

/-- C14: on a paired network in which every link is active and for a list `S` of pointers to
regular edges, `deactivateEdges(S)` returns on the unmodified network, giving the network
`(gd, rd)`, and: when `maxFlowDeactivatedEdges(S, source, target, residualGraph)` returns
`(b, d)`, then `b` is the value `edmondsKarp` returns on the unmodified network, `d` is the
value `edmondsKarp` returns on `(gd, rd)`, and on return every link is active again (the
final state is a state of the unmodified network); `maxFlowDeactivatedEdges` returns
whenever these two runs of `edmondsKarp` return within the budget; and it returns within any
budget above the total capacity when the capacities are below `2 ^ 31`, the sources are
stations and the target is not among them. -/
theorem maxFlowDeactivatedEdges_spec (g r : Graph) (S : List Nat) (fuel : Nat)
    (source : List String) (target : String) (hp : Paired g r) (hag : g.AllActive)
    (har : r.AllActive) (hS : ∀ e ∈ S, e < g.edges.length) :
    ∃ gd rd, deactivateEdges S g r = some (gd, rd) ∧
      (∀ b d g4 r4, g.maxFlowDeactivatedEdges fuel S source target r = some ((b, d), g4, r4) →
        (∃ x, g.edmondsKarp fuel source target r = some (b, x)) ∧
        (∃ y, gd.edmondsKarp fuel source target rd = some (d, y)) ∧
        g4.AllActive ∧ r4.AllActive ∧ SameNetwork g r g4 r4) ∧
      (∀ b x d y, g.edmondsKarp fuel source target r = some (b, x) →
        gd.edmondsKarp fuel source target rd = some (d, y) →
        ∃ g4 r4, g.maxFlowDeactivatedEdges fuel S source target r = some ((b, d), g4, r4)) ∧
      (g.CapacityBelow 2147483648 → (∀ s ∈ source, ∃ x, g.findVertex s = some x) →
        target ∉ source → g.totalCapacity + 1 ≤ fuel →
        ∃ out, g.maxFlowDeactivatedEdges fuel S source target r = some out) := by
  obtain ⟨gd, rd, hd, hfd, -, hpd⟩ := selectEdges_flagsSet false hp hS
  have hrel : ∀ b x d y, g.edmondsKarp fuel source target r = some (b, x) →
      gd.edmondsKarp fuel source target rd = some (d, y) →
      ∃ g4 r4, g.maxFlowDeactivatedEdges fuel S source target r = some ((b, d), g4, r4) := ?_
  refine ⟨gd, rd, hd, ?_, hrel, ?_⟩
  rotate_left
  · intro hcap hsrc hts hf
    obtain ⟨b, x1, x2, hx⟩ := edmondsKarp_returns_of hcap hp (SameStatic.refl g)
      (fun _ => rfl) hsrc hts hf
    obtain ⟨gd1, rd1, hd1, -, hst, hc⟩ := selectEdges_capacity false hp hS
    have hd0 : selectEdges false S g r = some (gd, rd) := hd
    rw [hd0] at hd1
    simp only [Option.some.injEq, Prod.mk.injEq] at hd1
    obtain ⟨rfl, rfl⟩ := hd1
    obtain ⟨d, y1, y2, hy⟩ := edmondsKarp_returns_of hcap hpd hst hc hsrc hts hf
    obtain ⟨g4, r4, h4⟩ := hrel b (x1, x2) d (y1, y2) hx hy
    exact ⟨_, h4⟩
  rotate_left
  · intro b d g4 r4 h
    simp only [Graph.maxFlowDeactivatedEdges, Option.bind_eq_bind, Option.bind_eq_some,
      Option.pure_def, Option.some.injEq, Prod.mk.injEq] at h
    obtain ⟨⟨b1, g1, r1⟩, h1, ⟨g2, r2⟩, h2, ⟨d1, g3, r3⟩, h3, ⟨ga, ra⟩, h4, ⟨rfl, rfl⟩, rfl, rfl⟩ := h
    have hs1 := edmondsKarp_sameNetwork h1
    have hp1 : Paired g1 r1 := hs1.pairedNet hp
    have hs2 : SameNetwork gd rd g2 r2 := selectEdges_congr hp hp1 hs1 hS hd h2
    have hp2 : Paired g2 r2 := hs2.pairedNet hpd
    have hs3 := edmondsKarp_sameNetwork h3
    have hrun := edmondsKarp_congr hp2 hpd hs2.symmNet h3
    have hfin : SameNetwork g r ga ra :=
      activateEdges_restores hp hS hag har hd (hs2.transNet hs3) h4
    exact ⟨⟨_, h1⟩, ⟨_, hrun⟩, hfin.allActive.1 hag, hfin.allActive.2 har, hfin⟩
  · intro b x d y h1 hdrun
    obtain ⟨g1, r1⟩ := x
    obtain ⟨gy, ry⟩ := y
    have hs1 := edmondsKarp_sameNetwork h1
    have hp1 : Paired g1 r1 := hs1.pairedNet hp
    have hS1 : ∀ e ∈ S, e < g1.edges.length := by
      intro e he
      rw [hs1.staticNet.1.edges_length]; exact hS e he
    obtain ⟨g2, r2, h2, -, -, hp2⟩ := selectEdges_flagsSet false hp1 hS1
    have hs2 : SameNetwork gd rd g2 r2 := selectEdges_congr hp hp1 hs1 hS hd h2
    have hrun := edmondsKarp_congr hpd hp2 hs2 hdrun
    have hs3 := edmondsKarp_sameNetwork hrun
    have hp3 := hs3.pairedNet hp2
    have hS3 : ∀ e ∈ S, e < ({ g2 with edges := gy.edges } : Graph).edges.length := by
      intro e he
      rw [hs3.staticNet.1.edges_length]
      rw [hs2.staticNet.1.edges_length, hfd.2.2.2.2.2.2.1]; exact hS e he
    obtain ⟨g4, r4, h4, -, -, -⟩ := selectEdges_flagsSet true hp3 hS3
    refine ⟨g4, r4, ?_⟩
    simp only [Graph.maxFlowDeactivatedEdges, Option.bind_eq_bind, Option.bind_eq_some,
      Option.pure_def, Option.some.injEq, Prod.mk.injEq]
    exact ⟨_, h1, _, h2, _, hrun, _, h4, ⟨rfl, rfl⟩, rfl, rfl⟩

/-- The witness of C14 on scenario A with the link from `A` to `B` in the list; the pair
returned is evaluated as well. -/
theorem maxFlowDeactivatedEdges_spec_witness :
    (∃ gd rd, deactivateEdges [0] scenarioAGraphs.1 scenarioAGraphs.2 = some (gd, rd) ∧
      (∀ b d g4 r4,
        scenarioAGraphs.1.maxFlowDeactivatedEdges 29 [0] ["A"] "D" scenarioAGraphs.2
          = some ((b, d), g4, r4) →
        (∃ x, scenarioAGraphs.1.edmondsKarp 29 ["A"] "D" scenarioAGraphs.2 = some (b, x)) ∧
        (∃ y, gd.edmondsKarp 29 ["A"] "D" rd = some (d, y)) ∧
        g4.AllActive ∧ r4.AllActive ∧ SameNetwork scenarioAGraphs.1 scenarioAGraphs.2 g4 r4) ∧
      (∀ b x d y, scenarioAGraphs.1.edmondsKarp 29 ["A"] "D" scenarioAGraphs.2 = some (b, x) →
        gd.edmondsKarp 29 ["A"] "D" rd = some (d, y) →
        ∃ g4 r4, scenarioAGraphs.1.maxFlowDeactivatedEdges 29 [0] ["A"] "D" scenarioAGraphs.2
          = some ((b, d), g4, r4)) ∧
      (scenarioAGraphs.1.CapacityBelow 2147483648 →
        (∀ s ∈ ["A"], ∃ x, scenarioAGraphs.1.findVertex s = some x) →
        "D" ∉ ["A"] → scenarioAGraphs.1.totalCapacity + 1 ≤ 29 →
        ∃ out, scenarioAGraphs.1.maxFlowDeactivatedEdges 29 [0] ["A"] "D" scenarioAGraphs.2
          = some out)) ∧
    afterMaxFlowDeactivatedEdges scenarioA 29 [0] ["A"] "D" = some (5, 3) :=
  ⟨maxFlowDeactivatedEdges_spec scenarioAGraphs.1 scenarioAGraphs.2 [0] 29 ["A"] "D"
    (by decide!) (by decide!) (by decide!) (by decide!), by decide!⟩

/-! ## Disconnected queries, super-sources and the ranking of stations -/

/-- The vertices reachable from `S` stay inside a list `C` that holds `S` and is closed under
the usable links. -/
theorem reaches_subset {g : Graph} {usable : Nat → Bool} {S : List Nat} (C : List Nat)
    (hS : ∀ s ∈ S, s ∈ C)
    (hC : ∀ x ∈ C, ∀ e ∈ g.adjOf x, usable e = true → ∀ y ∈ (g.getDest e).toList, y ∈ C)
    {x : Nat} (h : g.Reaches usable S x) : x ∈ C := by
  induction h with
  | source hx => exact hS _ hx
  | link _ hmem huse hdest ih => exact hC _ ih _ hmem huse _ (by simp [hdest])

/-- C11: on a paired network, for sources that are stations, if no vertex with the id of the
target can be reached from the source vertices along links that are active (in the residual
graph) and have a capacity above zero, then `edmondsKarp(source, target, residualGraph)`
returns 0 (within any budget of at least one iteration) and every regular edge has flow 0
on return. -/
theorem edmondsKarp_disconnected (g r : Graph) (source : List String) (target : String)
    (fuel : Nat) (hp : Paired g r) (hsrc : ∀ s ∈ source, ∃ x, g.findVertex s = some x)
    (hno : ∀ x, g.Reaches (fun e => r.activeAt e && decide (0 < g.capOf e))
      (source.filterMap g.findVertex) x → g.idOf x ≠ some target)
    (hfuel : 1 ≤ fuel) :
    ∃ g1 r1, g.edmondsKarp fuel source target r = some (0, g1, r1) ∧
      ∀ e ∈ g1.edges, e.flow = 0 :=
  edmondsKarp_unreachable hp hsrc hno hfuel

/-- The witness of C11: on `islandNetwork` the station `C` has no link, and the query from
`A` to `C` returns 0. -/
theorem edmondsKarp_disconnected_witness :
    ∃ g1 r1, islandGraphs.1.edmondsKarp 1 ["A"] "C" islandGraphs.2 = some (0, g1, r1) ∧
      ∀ e ∈ g1.edges, e.flow = 0 :=
  edmondsKarp_disconnected islandGraphs.1 islandGraphs.2 ["A"] "C" 1 (by decide!)
    (fun s hs => by
      rw [List.mem_singleton] at hs
      subst hs
      exact ⟨0, by decide!⟩)
    (fun x hx => by
      have hmem : x ∈ [0, 1] := reaches_subset [0, 1] (by decide!) (by decide!) hx
      have hall : ∀ y ∈ [0, 1], islandGraphs.1.idOf y ≠ some "C" := by decide!
      exact hall x hmem)
    (by decide)

/-- C17: on a graph with the pointer structure the builder gives and for the id `v` of a
station (vertex `a`), `superSourceCreator(v)` returns, and an id is in the returned list
exactly when it is the id of a vertex `w` other than `a` that is reachable from `a` along
outgoing links and has exactly one outgoing link; `v` itself is not in the list. -/
theorem superSourceCreator_endpoints (g : Graph) (v : String) (a : Nat) (hw : g.WellLinked)
    (ha : g.findVertex v = some a) :
    ∃ superSource g1, g.superSourceCreator v = some (superSource, g1) ∧
      (∀ id, id ∈ superSource ↔ ∃ w, w ≠ a ∧ g.Reaches (fun _ => true) [a] w ∧
        g.idOf w = some id ∧ (g.adjOf w).length = 1) ∧
      v ∉ superSource := by
  obtain ⟨superSource, g1, h, -, hiff, hnot⟩ := superSourceCreator_spec hw ha
  exact ⟨superSource, g1, h, hiff, hnot⟩

/-- The witness of C17 on `islandNetwork` for the station `A`, which has one link. -/
theorem superSourceCreator_endpoints_witness :
    ∃ superSource g1, islandGraphs.1.superSourceCreator "A" = some (superSource, g1) ∧
      (∀ id, id ∈ superSource ↔ ∃ w, w ≠ 0 ∧ islandGraphs.1.Reaches (fun _ => true) [0] w ∧
        islandGraphs.1.idOf w = some id ∧ (islandGraphs.1.adjOf w).length = 1) ∧
      "A" ∉ superSource :=
  superSourceCreator_endpoints islandGraphs.1 "A" 0 (by decide!) (by decide!)

/-- C15 (refuted as stated): on `closedLinkNetwork`, a paired network whose only link is
inactive, `topReductions` with that link in the list returns the entry `(B, (5, 0))`,
although `incomingFlux(B)` returns 0 on this network (the first pass of the loop reactivates
the link); and on `tiedNetwork`, a paired network with every link active, the entry of `X`
comes before the entry of `Y` although the exact percentage of `X` is below that of `Y` (in
double precision the two percentages are the same number). -/
theorem topReductions_inactive_link_and_tie :
    closedLinkNetwork.map (fun p => decide (Paired p.1 p.2)) = some true ∧
    afterTopReductions closedLinkNetwork 3 [0] = some [("B", (5, 0)), ("A", (0, 0))] ∧
    afterIncomingFlux closedLinkNetwork 3 "B" = some 0 ∧
    tiedNetwork.map (fun p => decide (Paired p.1 p.2 ∧ p.1.AllActive ∧ p.2.AllActive))
      = some true ∧
    afterTopReductions tiedNetwork 3 [2, 6] =
      some [("L1", (1, 0)), ("L2", (1, 0)), ("L3", (1, 0)), ("L4", (1, 0)),
        ("X", (1000000000, 1)), ("Y", (1000000001, 1))] ∧
    reductionPercentage ("X", (1000000000, 1)) = reductionPercentage ("Y", (1000000001, 1)) ∧
    statedPercentage ("X", (1000000000, 1)) < statedPercentage ("Y", (1000000001, 1)) := by
  refine ⟨by decide!, by decide!, by decide!, by decide!, by decide!, by decide!, by decide!⟩

/-- C15 (amended): on a paired network in which every link is active and for a list `S` of
pointers to regular edges, the list `topReductions(S, residualGraph)` returns is a
rearrangement of one entry `(id, (baseline, degraded))` per vertex, where `baseline` is the
value `incomingFlux(id)` returns and `degraded` the value `incomingReducedFlux(S, id)`
returns on the given network; no entry of the list is followed by an entry with a greater
percentage, the percentage being the finite double-precision number the comparator computes
(0 for a baseline of 0, `100 - ((degraded * 1.0) / baseline) * 100` otherwise), so that an
entry with a smaller exact percentage comes before one with a greater exact percentage only
when their computed percentages are the same number; `topReductions` returns whenever these calls return within the budget, and it returns within
any budget above the total capacity when the capacities are below `2 ^ 31`. -/
theorem topReductions_ranking (g r : Graph) (S : List Nat) (fuel : Nat) (hp : Paired g r)
    (hag : g.AllActive) (har : r.AllActive) (hS : ∀ e ∈ S, e < g.edges.length) :
    (∀ L g1 r1, g.topReductions fuel S r = some (L, g1, r1) →
      (∃ entries, L.Perm entries ∧
        List.Forall₂ (fun (v : Vertex) (e : String × Nat × Nat) => e.1 = v.id ∧
          (∃ x, g.incomingFlux fuel v.id r = some (e.2.1, x)) ∧
          ∃ y, g.incomingReducedFlux fuel S v.id r = some (e.2.2, y)) g.vertexSet entries) ∧
      L.Pairwise (fun a b => reductionGreater b a = false) ∧
      (∀ e ∈ L, ∃ q, reductionPercentage e = Binary64.finite q) ∧
      L.Pairwise (fun a b => statedPercentage a < statedPercentage b →
        reductionPercentage a = reductionPercentage b)) ∧
    ((∀ v ∈ g.vertexSet, (∃ x, g.incomingFlux fuel v.id r = some x) ∧
        ∃ y, g.incomingReducedFlux fuel S v.id r = some y) →
      ∃ out, g.topReductions fuel S r = some out) ∧
    (g.CapacityBelow 2147483648 → g.totalCapacity + 1 ≤ fuel →
      ∃ out, g.topReductions fuel S r = some out) := by
  have hloop := topReductionsLoop_spec fuel hp hag har hS g.vertexSet g r []
    (SameNetwork.reflNet g r)
  have hrel : (∀ v ∈ g.vertexSet, (∃ x, g.incomingFlux fuel v.id r = some x) ∧
      ∃ y, g.incomingReducedFlux fuel S v.id r = some y) →
      ∃ out, g.topReductions fuel S r = some out := ?_
  refine ⟨?_, hrel, ?_⟩
  rotate_left
  · intro hcap hf
    apply hrel
    intro v hv
    obtain ⟨a, ha⟩ := findVertex_of_mem hp.1 hv
    exact ⟨incomingFlux_returns hp hcap ha hf, incomingReducedFlux_returns hp hcap hS ha hf⟩
  rotate_left
  · intro L g1 r1 h
    simp only [Graph.topReductions, Option.bind_eq_bind, Option.bind_eq_some, Option.pure_def,
      Option.some.injEq, Prod.mk.injEq] at h
    obtain ⟨⟨L0, ga, ra⟩, h0, L1, hsort, rfl, -, -⟩ := h
    obtain ⟨-, entries, hL, hall⟩ := hloop.1 L0 ga ra h0
    simp only [List.nil_append] at hL
    subst hL
    have hlt : ∀ e ∈ L1, e.2.1 < 2 ^ 53 ∧ e.2.2 < 2 ^ 53 := by
      intro e he
      obtain ⟨v, -, -, ⟨⟨x1, x2⟩, hx⟩, ⟨y1, y2⟩, hy⟩ :=
        forall₂_exists_left hall e ((stdSort_perm hsort).mem_iff.mp he)
      have h1 := incomingFlux_lt hx
      have h2 := incomingReducedFlux_lt hy
      constructor <;> omega
    refine ⟨⟨L0, stdSort_perm hsort, hall⟩, reductionGreater_sorted hsort,
      fun e _ => reductionPercentage_finite e, ?_⟩
    refine List.Pairwise.imp_of_mem ?_ (reductionGreater_sorted hsort)
    intro a b ha hb hba hst
    exact reductionPercentage_eq_of_not_greater a b
      (reductionGreater_of_stated_le a b (hlt a ha).1 (hlt a ha).2 (hlt b hb).1 (hlt b hb).2
        (le_of_lt hst)) hba
  · intro hall
    obtain ⟨⟨L0, ga, ra⟩, hout⟩ := hloop.2 hall
    refine ⟨(L0.insertionSort (fun a b => reductionGreater b a = false), ga, ra), ?_⟩
    simp only [Graph.topReductions, Option.bind_eq_bind, Option.bind_eq_some, Option.pure_def,
      Option.some.injEq, Prod.mk.injEq]
    exact ⟨_, hout, _, reductionGreater_returns L0, rfl, rfl, rfl⟩

/-- The witness of the amended C15 on `islandNetwork` with its link in the list; the list
returned is evaluated as well. -/
theorem topReductions_ranking_witness :
    ((∀ L g1 r1, islandGraphs.1.topReductions 7 [0] islandGraphs.2 = some (L, g1, r1) →
      (∃ entries, L.Perm entries ∧
        List.Forall₂ (fun (v : Vertex) (e : String × Nat × Nat) => e.1 = v.id ∧
          (∃ x, islandGraphs.1.incomingFlux 7 v.id islandGraphs.2 = some (e.2.1, x)) ∧
          ∃ y, islandGraphs.1.incomingReducedFlux 7 [0] v.id islandGraphs.2 = some (e.2.2, y))
          islandGraphs.1.vertexSet entries) ∧
      L.Pairwise (fun a b => reductionGreater b a = false) ∧
      (∀ e ∈ L, ∃ q, reductionPercentage e = Binary64.finite q) ∧
      L.Pairwise (fun a b => statedPercentage a < statedPercentage b →
        reductionPercentage a = reductionPercentage b)) ∧
    ((∀ v ∈ islandGraphs.1.vertexSet,
        (∃ x, islandGraphs.1.incomingFlux 7 v.id islandGraphs.2 = some x) ∧
        ∃ y, islandGraphs.1.incomingReducedFlux 7 [0] v.id islandGraphs.2 = some y) →
      ∃ out, islandGraphs.1.topReductions 7 [0] islandGraphs.2 = some out) ∧
    (islandGraphs.1.CapacityBelow 2147483648 → islandGraphs.1.totalCapacity + 1 ≤ 7 →
      ∃ out, islandGraphs.1.topReductions 7 [0] islandGraphs.2 = some out)) ∧
    afterTopReductions islandNetwork 7 [0] = some [("A", (3, 0)), ("B", (3, 0)), ("C", (0, 0))] :=
  ⟨topReductions_ranking islandGraphs.1 islandGraphs.2 [0] 7 (by decide!) (by decide!)
    (by decide!) (by decide!), by decide!⟩

/-- C16: on a paired network, for a station whose super-source is empty (the call
`superSourceCreator(station)` returns the empty list, which it only does for an existing
station), `incomingFlux(station, residualGraph)` returns 0 within any budget of at least one
iteration; and in every list `topReductions` returns, for any list of pointers to regular
edges, the entry of that station has the baseline 0 and its percentage in the comparator is
the constant 0 of the branch without division. -/
theorem incomingFlux_empty_superSource (g r : Graph) (station : String) (S : List Nat)
    (fuel : Nat) (hp : Paired g r) (hS : ∀ e ∈ S, e < g.edges.length)
    (hsup : (g.superSourceCreator station).map (fun p => p.1) = some []) (hfuel : 1 ≤ fuel) :
    (∃ g2 r2, g.incomingFlux fuel station r = some (0, g2, r2)) ∧
    ∀ L g1 r1, g.topReductions fuel S r = some (L, g1, r1) →
      ∀ e ∈ L, e.1 = station → e.2.1 = 0 ∧ reductionPercentage e = Binary64.ofNat 0 := by
  refine ⟨incomingFlux_zero hp hsup hfuel, ?_⟩
  intro L g1 r1 h e he hst
  simp only [Graph.topReductions, Option.bind_eq_bind, Option.bind_eq_some, Option.pure_def,
    Option.some.injEq, Prod.mk.injEq] at h
  obtain ⟨⟨L0, ga, ra⟩, h0, L1, hsort, rfl, -, -⟩ := h
  obtain ⟨entries, hL, hall⟩ := topReductionsLoop_baseline hS hfuel hsup g.vertexSet g r [] hp
    (Graph.EqUpTo.reflUpTo _ _ g) L0 ga ra h0
  simp only [List.nil_append] at hL
  subst hL
  have hmem : e ∈ L0 := (stdSort_perm hsort).mem_iff.mp he
  have hz := hall e hmem hst
  exact ⟨hz, by simp [reductionPercentage, hz]⟩

/-- The witness of C16 on `islandNetwork` for the station `C`, which no link reaches. -/
theorem incomingFlux_empty_superSource_witness :
    (∃ g2 r2, islandGraphs.1.incomingFlux 1 "C" islandGraphs.2 = some (0, g2, r2)) ∧
    ∀ L g1 r1, islandGraphs.1.topReductions 1 [0] islandGraphs.2 = some (L, g1, r1) →
      ∀ e ∈ L, e.1 = "C" → e.2.1 = 0 ∧ reductionPercentage e = Binary64.ofNat 0 :=
  incomingFlux_empty_superSource islandGraphs.1 islandGraphs.2 "C" [0] 1 (by decide!)
    (by decide!) (by decide!) (by decide)

/-! ## The ranking of groups -/

/-- C18: on a paired network and for groups that all have at least one station, the list
`topGroupings` returns is a rearrangement of one entry per group, whose value is the sum
`flux_sum` of the values `incomingFlux` returns for the stations of the group on the given
network, accumulated in double precision and divided by the number of stations; for a group
of fewer than `2 ^ 21` stations this is the exact average rounded once to double precision.
Every value is a finite number and no entry of the list is followed by an entry with a
greater value.  `topGroupings` returns whenever the calls of `incomingFlux` for the stations
return within the budget, and it returns within any budget above the total capacity when the
capacities are below `2 ^ 31` and every member is a station of the network. -/
theorem topGroupings_ranking (g r : Graph) (group : List (String × List Station)) (fuel : Nat)
    (hp : Paired g r) (hne : ∀ it ∈ group, it.2 ≠ []) :
    (∀ L g1 r1, g.topGroupings fuel group r = some (L, g1, r1) →
      (∃ entries, L.Perm entries ∧
        List.Forall₂ (fun (it : String × List Station) (e : String × Binary64) =>
          e.1 = it.1 ∧ ∃ fluxes,
            List.Forall₂ (fun (s : Station) (f : Nat) =>
              ∃ x, g.incomingFlux fuel s.getName r = some (f, x)) it.2 fluxes ∧
            e.2 = (fluxSum fluxes).div (Binary64.ofNat it.2.length) ∧
            (it.2.length < 2 ^ 21 →
              e.2 = Binary64.finite (roundBinary64 (statedAverage fluxes)))) group entries) ∧
      L.Pairwise (fun a b => sort_pair_decreasing_second b a = false) ∧
      ∀ e ∈ L, ∃ q, e.2 = Binary64.finite q) ∧
    ((∀ it ∈ group, ∀ s ∈ it.2, ∃ x, g.incomingFlux fuel s.getName r = some x) →
      ∃ out, g.topGroupings fuel group r = some out) ∧
    (g.CapacityBelow 2147483648 →
      (∀ it ∈ group, ∀ s ∈ it.2, ∃ a, g.findVertex s.getName = some a) →
      g.totalCapacity + 1 ≤ fuel → ∃ out, g.topGroupings fuel group r = some out) := by
  have hloop := topGroupingsLoop_spec fuel hp group g r [] (SameNetwork.reflNet g r)
  have hrel : (∀ it ∈ group, ∀ s ∈ it.2, ∃ x, g.incomingFlux fuel s.getName r = some x) →
      ∃ out, g.topGroupings fuel group r = some out := ?_
  refine ⟨?_, hrel, ?_⟩
  rotate_left
  · intro hcap hex hf
    apply hrel
    intro it hit s hs
    obtain ⟨a, ha⟩ := hex it hit s hs
    exact incomingFlux_returns hp hcap ha hf
  rotate_left
  · intro L g1 r1 h
    simp only [Graph.topGroupings, Option.bind_eq_bind, Option.bind_eq_some, Option.pure_def,
      Option.some.injEq, Prod.mk.injEq] at h
    obtain ⟨⟨L0, ga, ra⟩, h0, L1, hsort, rfl, -, -⟩ := h
    obtain ⟨-, entries, hL, hall⟩ := hloop.1 L0 ga ra h0
    simp only [List.nil_append] at hL
    subst hL
    have hne1 : ∀ (it : String × List Station) (fluxes : List Nat), it ∈ group →
        List.Forall₂ (fun (s : Station) (f : Nat) =>
          ∃ x, g.incomingFlux fuel s.getName r = some (f, x)) it.2 fluxes → fluxes ≠ [] := by
      intro it fluxes hit hfl hnil
      rw [hnil] at hfl
      exact hne it hit (List.forall₂_nil_right_iff.mp hfl)
    have hfin : ∀ e ∈ L0, ∃ q, e.2 = Binary64.finite q := by
      intro e he
      obtain ⟨it, hit, -, fluxes, hfl, hval⟩ := forall₂_exists_left hall e he
      rw [hval]
      exact average_finite (hne1 it fluxes hit hfl)
    refine ⟨⟨L0, stdSort_perm hsort, ?_⟩, sort_pair_decreasing_second_sorted hsort hfin, ?_⟩
    · refine forall₂_imp_mem hall ?_
      rintro it e hit - ⟨h1, fluxes, hfl, hval⟩
      refine ⟨h1, fluxes, hfl, by rw [hval, hfl.length_eq], ?_⟩
      intro hlen
      rw [hval]
      exact average_exact (hne1 it fluxes hit hfl) (by rw [← hfl.length_eq]; exact hlen)
        (forall₂_flux_lt hfl)
    · intro e he
      exact hfin e ((stdSort_perm hsort).mem_iff.mp he)
  · intro hall
    obtain ⟨⟨L0, ga, ra⟩, hout⟩ := hloop.2 hall
    obtain ⟨-, entries, hL, hent⟩ := hloop.1 L0 ga ra hout
    simp only [List.nil_append] at hL
    subst hL
    have hfin : ∀ e ∈ L0, ∃ q, e.2 = Binary64.finite q := by
      intro e he
      obtain ⟨it, hit, -, fluxes, hfl, hval⟩ := forall₂_exists_left hent e he
      rw [hval]
      refine average_finite ?_
      intro hnil
      rw [hnil] at hfl
      exact hne it hit (List.forall₂_nil_right_iff.mp hfl)
    refine ⟨(L0.insertionSort (fun a b => sort_pair_decreasing_second b a = false), ga, ra),
      ?_⟩
    simp only [Graph.topGroupings, Option.bind_eq_bind, Option.bind_eq_some, Option.pure_def,
      Option.some.injEq, Prod.mk.injEq]
    exact ⟨_, hout, _, sort_pair_decreasing_second_returns L0 hfin, rfl, rfl, rfl⟩

/-- The witness of C18 on `islandNetwork` with the two groups of `islandGroups`; the list
returned is evaluated as well. -/
theorem topGroupings_ranking_witness :
    ((∀ L g1 r1, islandGraphs.1.topGroupings 7 islandGroups islandGraphs.2 = some (L, g1, r1) →
      (∃ entries, L.Perm entries ∧
        List.Forall₂ (fun (it : String × List Station) (e : String × Binary64) =>
          e.1 = it.1 ∧ ∃ fluxes,
            List.Forall₂ (fun (s : Station) (f : Nat) =>
              ∃ x, islandGraphs.1.incomingFlux 7 s.getName islandGraphs.2 = some (f, x))
              it.2 fluxes ∧
            e.2 = (fluxSum fluxes).div (Binary64.ofNat it.2.length) ∧
            (it.2.length < 2 ^ 21 →
              e.2 = Binary64.finite (roundBinary64 (statedAverage fluxes))))
          islandGroups entries) ∧
      L.Pairwise (fun a b => sort_pair_decreasing_second b a = false) ∧
      ∀ e ∈ L, ∃ q, e.2 = Binary64.finite q) ∧
    ((∀ it ∈ islandGroups, ∀ s ∈ it.2,
        ∃ x, islandGraphs.1.incomingFlux 7 s.getName islandGraphs.2 = some x) →
      ∃ out, islandGraphs.1.topGroupings 7 islandGroups islandGraphs.2 = some out) ∧
    (islandGraphs.1.CapacityBelow 2147483648 →
      (∀ it ∈ islandGroups, ∀ s ∈ it.2, ∃ a, islandGraphs.1.findVertex s.getName = some a) →
      islandGraphs.1.totalCapacity + 1 ≤ 7 →
      ∃ out, islandGraphs.1.topGroupings 7 islandGroups islandGraphs.2 = some out)) ∧
    afterTopGroupings islandNetwork 7 islandGroups
      = some [("mainland", Binary64.finite 3), ("island", Binary64.finite 0)] :=
  ⟨topGroupings_ranking islandGraphs.1 islandGraphs.2 islandGroups 7 (by decide!) (by decide!),
    by decide!⟩

/-- C20: on a paired network, with `P` the set of the pairs `(a, b)` of vertices such that
`a` comes before `b` in the vertex list and `b` is reachable from `a` along outgoing links,
when `calculateNetworkMaxFlow(residualGraph)` returns `(L, m)` then `edmondsKarp({a}, b)`
returns on the given network for every pair of `P` with a value of at most `m`, the value
`m` is 0 or the value of a pair of `P`, the list `L` holds exactly the pairs of ids of the
pairs of `P` whose value is `m`, and no pair occurs twice in `L`;
`calculateNetworkMaxFlow` returns whenever `edmondsKarp` returns within the budget for every
pair of `P`, and it returns within any budget above the total capacity when the capacities
are below `2 ^ 31`. -/
theorem calculateNetworkMaxFlow_spec (g r : Graph) (fuel : Nat) (hp : Paired g r) :
    (∀ L m g1 r1, g.calculateNetworkMaxFlow fuel r = some ((L, m), g1, r1) →
      (∀ a b, a < b → b < g.vertexSet.length → g.Reaches (fun _ => true) [a] b →
        ∃ v x, g.edmondsKarp fuel [g.idAt a] (g.idAt b) r = some (v, x) ∧ v ≤ m) ∧
      (m = 0 ∨ ∃ a b x, a < b ∧ b < g.vertexSet.length ∧ g.Reaches (fun _ => true) [a] b ∧
        g.edmondsKarp fuel [g.idAt a] (g.idAt b) r = some (m, x)) ∧
      (∀ p, p ∈ L ↔ ∃ a b x, a < b ∧ b < g.vertexSet.length ∧
        g.Reaches (fun _ => true) [a] b ∧ p = (g.idAt a, g.idAt b) ∧
        g.edmondsKarp fuel [g.idAt a] (g.idAt b) r = some (m, x)) ∧
      L.Nodup) ∧
    ((∀ a b, a < b → b < g.vertexSet.length → g.Reaches (fun _ => true) [a] b →
        ∃ x, g.edmondsKarp fuel [g.idAt a] (g.idAt b) r = some x) →
      ∃ out, g.calculateNetworkMaxFlow fuel r = some out) ∧
    (g.CapacityBelow 2147483648 → g.totalCapacity + 1 ≤ fuel →
      ∃ out, g.calculateNetworkMaxFlow fuel r = some out) := by
  have hrange : ∀ a ∈ List.range g.vertexSet.length, a < g.vertexSet.length :=
    fun a ha => List.mem_range.mp ha
  have houter := networkMaxFlowOuter_spec fuel hp (List.range g.vertexSet.length)
    g r 0 [] (SameNetwork.reflNet g r) hrange
  have hrel : (∀ a b, a < b → b < g.vertexSet.length → g.Reaches (fun _ => true) [a] b →
      ∃ x, g.edmondsKarp fuel [g.idAt a] (g.idAt b) r = some x) →
      ∃ out, g.calculateNetworkMaxFlow fuel r = some out := ?_
  refine ⟨?_, hrel, ?_⟩
  rotate_left
  · intro hcap hf
    apply hrel
    intro a b hab hb _
    have hne : g.idAt b ∉ [g.idAt a] := by
      intro hmem
      rw [List.mem_singleton] at hmem
      have := idAt_inj hp.1 hb (by omega) hmem
      omega
    obtain ⟨F, x1, x2, hx⟩ := edmondsKarp_returns_of hcap hp (SameStatic.refl g)
      (fun _ => rfl)
      (fun s hs => by
        rw [List.mem_singleton] at hs
        subst hs
        exact ⟨a, findVertex_idAt hp.1 (by omega)⟩) hne hf
    exact ⟨_, hx⟩
  rotate_left
  · intro L m g1 r1 h
    simp only [Graph.calculateNetworkMaxFlow, Option.bind_eq_bind, Option.bind_eq_some,
      Option.pure_def, Option.some.injEq, Prod.mk.injEq] at h
    obtain ⟨⟨M, L0, ka, kra⟩, h0, ⟨rfl, rfl⟩, -, -⟩ := h
    obtain ⟨xs, hmem, hnd, hvals, hres⟩ := houter.1 M L0 ka kra h0
    have hmem1 : ∀ a b, (a, b) ∈ xs.map (fun x => x.1) ↔
        a < b ∧ b < g.vertexSet.length ∧ g.Reaches (fun _ => true) [a] b := by
      intro a b
      rw [hmem, List.mem_range]
      constructor
      · rintro ⟨-, h1, h2, h3⟩; exact ⟨h1, h2, h3⟩
      · rintro ⟨h1, h2, h3⟩; exact ⟨by omega, h1, h2, h3⟩
    have hndx : (xs.map (fun x => x.1)).Nodup := hnd (List.nodup_range _)
    rw [← List.foldl_map (fun (x : (Nat × Nat) × Nat) => ((g.idAt x.1.1, g.idAt x.1.2), x.2))
      rankStep] at hres
    obtain ⟨f1, f2, f3⟩ := rankStep_foldl
      (xs.map (fun (x : (Nat × Nat) × Nat) => ((g.idAt x.1.1, g.idAt x.1.2), x.2)))
    rw [← hres] at f1 f2 f3
    simp only at f1 f2 f3
    have hfind : ∀ a b, a < b → b < g.vertexSet.length → g.Reaches (fun _ => true) [a] b →
        ∃ v, ((a, b), v) ∈ xs := by
      intro a b h1 h2 h3
      have := (hmem1 a b).mpr ⟨h1, h2, h3⟩
      rw [List.mem_map] at this
      obtain ⟨x, hx, hx1⟩ := this
      exact ⟨x.2, by rw [← hx1]; exact hx⟩
    have hback : ∀ x ∈ xs, x.1.1 < x.1.2 ∧ x.1.2 < g.vertexSet.length ∧
        g.Reaches (fun _ => true) [x.1.1] x.1.2 := by
      intro x hx
      exact (hmem1 x.1.1 x.1.2).mp (List.mem_map.mpr ⟨x, hx, rfl⟩)
    refine ⟨?_, ?_, ?_, ?_⟩
    · intro a b h1 h2 h3
      obtain ⟨v, hv⟩ := hfind a b h1 h2 h3
      obtain ⟨y, hy⟩ := hvals _ hv
      exact ⟨v, y, hy, f1 _ (List.mem_map.mpr ⟨_, hv, rfl⟩)⟩
    · rcases f2 with f2 | ⟨y, hy, hy2⟩
      · exact Or.inl f2
      · obtain ⟨x, hx, rfl⟩ := List.mem_map.mp hy
        obtain ⟨b1, b2, b3⟩ := hback x hx
        obtain ⟨z, hz⟩ := hvals x hx
        simp only at hy2
        exact Or.inr ⟨x.1.1, x.1.2, z, b1, b2, b3, by rw [← hy2]; exact hz⟩
    · intro p
      rw [f3]
      simp only [List.mem_map, List.mem_filter, decide_eq_true_eq]
      constructor
      · rintro ⟨y, ⟨⟨x, hx, rfl⟩, hy2⟩, rfl⟩
        obtain ⟨b1, b2, b3⟩ := hback x hx
        obtain ⟨z, hz⟩ := hvals x hx
        simp only at hy2
        exact ⟨x.1.1, x.1.2, z, b1, b2, b3, rfl, by rw [← hy2]; exact hz⟩
      · rintro ⟨a, b, z, h1, h2, h3, rfl, hz⟩
        obtain ⟨v, hv⟩ := hfind a b h1 h2 h3
        obtain ⟨y, hy⟩ := hvals _ hv
        simp only at hy
        rw [hz] at hy
        simp only [Option.some.injEq, Prod.mk.injEq] at hy
        refine ⟨((g.idAt a, g.idAt b), v), ⟨⟨((a, b), v), hv, rfl⟩, hy.1.symm⟩, rfl⟩
    · rw [f3, List.filter_map, List.map_map]
      have hxsnd : xs.Nodup := List.Nodup.of_map _ hndx
      refine List.Nodup.map_on ?_ (hxsnd.filter _)
      intro x hx y hy hxy
      have hx1 := (List.mem_filter.mp hx).1
      have hy1 := (List.mem_filter.mp hy).1
      obtain ⟨a1, a2, -⟩ := hback x hx1
      obtain ⟨c1, c2, -⟩ := hback y hy1
      simp only [Function.comp, Prod.mk.injEq] at hxy
      have e1 := idAt_inj hp.1 (by omega) (by omega) hxy.1
      have e2 := idAt_inj hp.1 a2 c2 hxy.2
      have e3 : x.1 = y.1 := Prod.ext e1 e2
      exact List.inj_on_of_nodup_map hndx hx1 hy1 e3
  · intro hall
    obtain ⟨⟨M, L0, ka, kra⟩, hout⟩ := houter.2 (fun a _ b h1 h2 h3 => hall a b h1 h2 h3)
    refine ⟨((L0, M), ka, kra), ?_⟩
    simp only [Graph.calculateNetworkMaxFlow, Option.bind_eq_bind, Option.bind_eq_some,
      Option.pure_def, Option.some.injEq, Prod.mk.injEq]
    exact ⟨_, hout, ⟨rfl, rfl⟩, rfl, rfl⟩

/-- The witness of C20 on scenario A, where the run is evaluated as well: the largest flow is
7, between `A` and `B`. -/
theorem calculateNetworkMaxFlow_spec_witness :
    ((∀ L m g1 r1,
        scenarioAGraphs.1.calculateNetworkMaxFlow 29 scenarioAGraphs.2 = some ((L, m), g1, r1) →
      (∀ a b, a < b → b < scenarioAGraphs.1.vertexSet.length →
        scenarioAGraphs.1.Reaches (fun _ => true) [a] b →
        ∃ v x, scenarioAGraphs.1.edmondsKarp 29 [scenarioAGraphs.1.idAt a]
          (scenarioAGraphs.1.idAt b) scenarioAGraphs.2 = some (v, x) ∧ v ≤ m) ∧
      (m = 0 ∨ ∃ a b x, a < b ∧ b < scenarioAGraphs.1.vertexSet.length ∧
        scenarioAGraphs.1.Reaches (fun _ => true) [a] b ∧
        scenarioAGraphs.1.edmondsKarp 29 [scenarioAGraphs.1.idAt a] (scenarioAGraphs.1.idAt b)
          scenarioAGraphs.2 = some (m, x)) ∧
      (∀ p, p ∈ L ↔ ∃ a b x, a < b ∧ b < scenarioAGraphs.1.vertexSet.length ∧
        scenarioAGraphs.1.Reaches (fun _ => true) [a] b ∧
        p = (scenarioAGraphs.1.idAt a, scenarioAGraphs.1.idAt b) ∧
        scenarioAGraphs.1.edmondsKarp 29 [scenarioAGraphs.1.idAt a] (scenarioAGraphs.1.idAt b)
          scenarioAGraphs.2 = some (m, x)) ∧
      L.Nodup) ∧
    ((∀ a b, a < b → b < scenarioAGraphs.1.vertexSet.length →
        scenarioAGraphs.1.Reaches (fun _ => true) [a] b →
        ∃ x, scenarioAGraphs.1.edmondsKarp 29 [scenarioAGraphs.1.idAt a]
          (scenarioAGraphs.1.idAt b) scenarioAGraphs.2 = some x) →
      ∃ out, scenarioAGraphs.1.calculateNetworkMaxFlow 29 scenarioAGraphs.2 = some out) ∧
    (scenarioAGraphs.1.CapacityBelow 2147483648 → scenarioAGraphs.1.totalCapacity + 1 ≤ 29 →
      ∃ out, scenarioAGraphs.1.calculateNetworkMaxFlow 29 scenarioAGraphs.2 = some out)) ∧
    afterNetworkMaxFlow scenarioA 29 = some ([("A", "B")], 7) :=
  ⟨calculateNetworkMaxFlow_spec scenarioAGraphs.1 scenarioAGraphs.2 29 (by decide!), by decide!⟩

/-! ## Claims C21 to C25: construction of the graph -/

/-- C21: a link constructed with the service `STANDARD` has cost-per-unit 2, with
`ALFA_PENDULAR` 4 and with `VERY_EXPENSIVE` 6, whatever its endpoints and its capacity
(`Edge::Edge` calls `initializeCost`), and both edges of a pair created by
`addAndGetBidirectionalEdge` carry the cost of the service of the call. -/
theorem link_cost_by_service :
    (∀ (orig dest capacity : Nat) (service : Service),
      (Edge.new orig dest capacity service).cost = statedCost service) ∧
    (∀ orig dest capacity : Nat,
      (Edge.new orig dest capacity Service.STANDARD).cost = 2 ∧
      (Edge.new orig dest capacity Service.ALFA_PENDULAR).cost = 4 ∧
      (Edge.new orig dest capacity Service.VERY_EXPENSIVE).cost = 6) ∧
    ∀ (g h : Graph) (source dest : String) (c e1 e2 : Nat) (service : Service),
      g.addAndGetBidirectionalEdge source dest c service = some (some (e1, e2), h) →
      e1 ≠ e2 ∧ h.getCost e1 = some (statedCost service) ∧
      h.getCost e2 = some (statedCost service) := by
  have hc : ∀ service, Edge.initializeCost service = statedCost service := by
    intro service; cases service <;> rfl
  refine ⟨fun _ _ _ service => hc service, fun _ _ _ => ⟨rfl, rfl, rfl⟩, ?_⟩
  intro g h source dest c e1 e2 service ha
  obtain ⟨v1, v2, -, -, -, -, rfl, rfl, -, hed, -⟩ := addAndGet_spec ha
  refine ⟨by omega, ?_, ?_⟩
  · rw [Graph.getCost, hed, if_pos rfl]
    simp only [Option.map_some', Edge.new, hc]
  · have h2 : g.edges.length + 1 ≠ g.edges.length := by omega
    rw [Graph.getCost, hed, if_neg h2, if_pos rfl]
    simp only [Option.map_some', Edge.new, hc]

/-- The witness of C21: the pair of links of the service `ALFA_PENDULAR` added to
`twoStations`. -/
theorem link_cost_by_service_witness :
    twoStations.addAndGetBidirectionalEdge "A" "B" 7 Service.ALFA_PENDULAR
      = some (some (0, 1), oneLinkGraph) ∧
    0 ≠ 1 ∧ oneLinkGraph.getCost 0 = some (statedCost Service.ALFA_PENDULAR) ∧
    oneLinkGraph.getCost 1 = some (statedCost Service.ALFA_PENDULAR) ∧
    statedCost Service.ALFA_PENDULAR = 4 :=
  ⟨by decide!,
    (link_cost_by_service.2.2 twoStations oneLinkGraph "A" "B" 7 0 1 Service.ALFA_PENDULAR
      (by decide!)).1,
    (link_cost_by_service.2.2 twoStations oneLinkGraph "A" "B" 7 0 1 Service.ALFA_PENDULAR
      (by decide!)).2.1,
    (link_cost_by_service.2.2 twoStations oneLinkGraph "A" "B" 7 0 1 Service.ALFA_PENDULAR
      (by decide!)).2.2, rfl⟩

/-- C22: `addVertex(id)` returns `false` exactly when `findVertex(id)` finds a vertex (on a
well-linked graph: exactly when a vertex of the graph has the id), and then the graph is
unchanged; otherwise it returns `true`, the graph has one more vertex and the same vertices,
edges and counter as before, and `findVertex(id)` returns a vertex with the id.  In both
cases `findVertex` of every other id is what it was; after any sequence of construction
calls from the empty graph, an id no call of `addVertex` has declared is not found. -/
theorem addVertex_contract (g : Graph) (id : String) :
    ((g.addVertex id).1 = false ↔ ∃ x, g.findVertex id = some x) ∧
    (g.WellLinked → ((g.addVertex id).1 = false ↔ ∃ v ∈ g.vertexSet, v.id = id)) ∧
    ((g.addVertex id).1 = false → (g.addVertex id).2 = g) ∧
    ((g.addVertex id).1 = true →
      (g.addVertex id).2.vertexSet.length = g.vertexSet.length + 1 ∧
      (g.addVertex id).2.vertexSet = g.vertexSet ++ [Vertex.new id] ∧
      (g.addVertex id).2.edges = g.edges ∧
      (g.addVertex id).2.totalEdges = g.totalEdges ∧
      ∃ x, (g.addVertex id).2.findVertex id = some x ∧
        (g.addVertex id).2.idOf x = some id) ∧
    (∀ other, other ≠ id → (g.addVertex id).2.findVertex other = g.findVertex other) ∧
    (∀ (calls : List BuildCall) (n : Nat) (h : Graph),
      Graph.makeCalls calls Graph.empty 0 = some (n, h) →
      (∀ c ∈ calls, c ≠ BuildCall.addVertex id) → h.findVertex id = none) := by
  have hiff : (g.addVertex id).1 = false ↔ ∃ x, g.findVertex id = some x := by
    cases hf : g.findVertex id with
    | some v => rw [addVertex_false (by rw [hf]; rfl)]; simp
    | none => rw [addVertex_true hf]; simp
  refine ⟨hiff, ?_, ?_, ?_, fun other ho => addVertex_findVertex_ne ho, ?_⟩
  · intro hw
    rw [hiff]
    constructor
    · rintro ⟨x, hx⟩
      have hid := hw.findVertex_sound hx
      have hlt := idOf_lt hid
      refine ⟨g.vertexSet[x], List.getElem_mem _, ?_⟩
      simpa [Graph.idOf, List.getElem?_eq_getElem hlt] using hid
    · rintro ⟨v, hv, rfl⟩
      exact findVertex_of_mem hw hv
  · intro hfalse
    obtain ⟨x, hx⟩ := hiff.mp hfalse
    rw [addVertex_false (by rw [hx]; rfl)]
  · intro htrue
    have hf : g.findVertex id = none := by
      cases hf : g.findVertex id with
      | none => rfl
      | some v =>
        have := hiff.mpr ⟨v, hf⟩
        rw [this] at htrue
        exact absurd htrue (by simp)
    rw [addVertex_true hf]
    refine ⟨by simp, rfl, rfl, rfl, g.vertexSet.length, ?_, ?_⟩
    · show List.lookup id ((id, g.vertexSet.length) :: g.idToVertex) = _
      simp [List.lookup_cons]
    · simp [Graph.idOf, Vertex.new]
  · intro calls n h hm hne
    rw [makeCalls_findVertex id calls Graph.empty 0 n h idsSound_empty hm hne]
    rfl

/-- The witness of C22: declaring `B` a second time and declaring `C` in `twoStations`. -/
theorem addVertex_contract_witness :
    (twoStations.addVertex "B").1 = false ∧ (twoStations.addVertex "B").2 = twoStations ∧
    (twoStations.addVertex "C").1 = true ∧
    (twoStations.addVertex "C").2.vertexSet.length = twoStations.vertexSet.length + 1 ∧
    (twoStations.addVertex "C").2.findVertex "B" = twoStations.findVertex "B" ∧
    (twoStations.WellLinked → ((twoStations.addVertex "B").1 = false ↔
      ∃ v ∈ twoStations.vertexSet, v.id = "B")) ∧
    (twoStations.findVertex "C" = none) :=
  ⟨by decide!,
    (addVertex_contract twoStations "B").2.2.1 (by decide!),
    by decide!,
    ((addVertex_contract twoStations "C").2.2.2.1 (by decide!)).1,
    (addVertex_contract twoStations "C").2.2.2.2.1 "B" (by decide),
    (addVertex_contract twoStations "B").2.1,
    (addVertex_contract Graph.empty "C").2.2.2.2.2
      [BuildCall.addVertex "A", BuildCall.addVertex "B"] 0 twoStations (by decide!)
      (by decide)⟩

/-- C23: when the source id or the destination id is not the id of a vertex,
`addAndGetBidirectionalEdge` returns the pair of null pointers and the graph is the graph
before the call: no vertex has a new outgoing or incoming edge and no edge is created. -/
theorem addAndGet_missing_endpoint (g : Graph) (source dest : String) (c : Nat)
    (service : Service) (h : g.findVertex source = none ∨ g.findVertex dest = none) :
    ∃ g1, g.addAndGetBidirectionalEdge source dest c service = some (none, g1) ∧ g1 = g ∧
      (∀ x, g1.adjOf x = g.adjOf x ∧ g1.incomingOf x = g.incomingOf x) ∧
      g1.edges = g.edges ∧ g1.getTotalEdges = g.getTotalEdges :=
  ⟨g, addAndGet_none c service h, rfl, fun _ => ⟨rfl, rfl⟩, rfl, rfl⟩

/-- The witness of C23: a link from `A` to the undeclared `C` in `twoStations`. -/
theorem addAndGet_missing_endpoint_witness :
    twoStations.findVertex "C" = none ∧
    ∃ g1, twoStations.addAndGetBidirectionalEdge "A" "C" 5 Service.STANDARD = some (none, g1) ∧
      g1 = twoStations ∧
      (∀ x, g1.adjOf x = twoStations.adjOf x ∧ g1.incomingOf x = twoStations.incomingOf x) ∧
      g1.edges = twoStations.edges ∧ g1.getTotalEdges = twoStations.getTotalEdges :=
  ⟨by decide!,
    addAndGet_missing_endpoint twoStations "A" "C" 5 Service.STANDARD (Or.inr (by decide!))⟩

/-- C24: when both ids are ids of vertices `v1` and `v2` (every pointer of `idToVertex`
leads to a vertex with the id of its entry), `addAndGetBidirectionalEdge(s, d, c, service)`
returns two new, distinct pointers `(e1, e2)`: `e1` runs from `v1` to `v2` and `e2` from `v2`
to `v1`, both have the capacity `c`, the service of the call, flow 0 and the active flag
set, and each is the reverse of the other.  `e1` is appended at the end of the outgoing list
of `v1` and of the incoming list of `v2` (the state `g1` after `v1->addEdge`), then `e2` at
the end of the outgoing list of `v2` and of the incoming list of `v1`; so with `v1 ≠ v2`
those four lists end with the new edge, and for a link from a vertex to itself both lists
of the vertex end with `e1, e2`.  The other lists and the edges that existed are unchanged,
and `reverse` stays an involution without null pointer when it was one. -/
theorem addAndGet_link_pair (g : Graph) (s d : String) (c : Nat) (service : Service)
    (v1 v2 : Nat) (hs : g.IdsSound) (h1 : g.findVertex s = some v1)
    (h2 : g.findVertex d = some v2) :
    ∃ e1 e2 g1 h, g.addAndGetBidirectionalEdge s d c service = some (some (e1, e2), h) ∧
      e1 = g.edges.length ∧ e2 = g.edges.length + 1 ∧
      h.idOf v1 = some s ∧ h.idOf v2 = some d ∧
      h.edges[e1]? = some
        { orig := v1, dest := v2, capacity := c, service := service, selected := true,
          reverse := some e2, correspondingEdge := none, flow := 0,
          cost := Edge.initializeCost service } ∧
      h.edges[e2]? = some
        { orig := v2, dest := v1, capacity := c, service := service, selected := true,
          reverse := some e1, correspondingEdge := none, flow := 0,
          cost := Edge.initializeCost service } ∧
      h.getReverse e1 = some e2 ∧ h.getReverse e2 = some e1 ∧
      g.addEdge v1 v2 c service = some (e1, g1) ∧
      g1.adjOf v1 = g.adjOf v1 ++ [e1] ∧ g1.incomingOf v2 = g.incomingOf v2 ++ [e1] ∧
      h.adjOf v2 = g1.adjOf v2 ++ [e2] ∧ h.incomingOf v1 = g1.incomingOf v1 ++ [e2] ∧
      (v1 ≠ v2 → h.adjOf v1 = g.adjOf v1 ++ [e1] ∧ h.incomingOf v2 = g.incomingOf v2 ++ [e1] ∧
        h.adjOf v2 = g.adjOf v2 ++ [e2] ∧ h.incomingOf v1 = g.incomingOf v1 ++ [e2]) ∧
      (v1 = v2 → h.adjOf v1 = g.adjOf v1 ++ [e1, e2] ∧
        h.incomingOf v1 = g.incomingOf v1 ++ [e1, e2]) ∧
      (∀ x, x ≠ v1 → x ≠ v2 → h.adjOf x = g.adjOf x ∧ h.incomingOf x = g.incomingOf x) ∧
      (∀ i, i < g.edges.length → h.edges[i]? = g.edges[i]?) ∧
      h.edges.length = g.edges.length + 2 ∧
      ((∀ i j, g.getReverse i = some j → g.getReverse j = some i) →
        ∀ i j, h.getReverse i = some j → h.getReverse j = some i) ∧
      ((∀ i, i < g.edges.length → ∃ j, g.getReverse i = some j) →
        ∀ i, i < h.edges.length → ∃ j, h.getReverse i = some j) := by
  have hv1 := idsSound_lt hs h1
  have hv2 := idsSound_lt hs h2
  obtain ⟨h, hcall⟩ := addAndGet_total c service h1 h2 hv1 hv2
  obtain ⟨g1, hg1⟩ := addEdge_total (g := g) c service hv1 hv2
  obtain ⟨-, -, -, -, -, -, hadj1, hinc1, -⟩ := addEdge_spec hg1
  obtain ⟨w1, w2, hw1, hw2, -, -, -, -, hlen, hed, -, -, hadj, hinc, hidof⟩ :=
    addAndGet_spec hcall
  rw [h1] at hw1
  rw [h2] at hw2
  obtain rfl : w1 = v1 := (Option.some.inj hw1).symm
  obtain rfl : w2 = v2 := (Option.some.inj hw2).symm
  have hne : g.edges.length + 1 ≠ g.edges.length := by omega
  have he1 : h.edges[g.edges.length]? = some
      { orig := w1, dest := w2, capacity := c, service := service, selected := true,
        reverse := some (g.edges.length + 1), correspondingEdge := none, flow := 0,
        cost := Edge.initializeCost service } := by
    rw [hed, if_pos rfl]; rfl
  have he2 : h.edges[g.edges.length + 1]? = some
      { orig := w2, dest := w1, capacity := c, service := service, selected := true,
        reverse := some g.edges.length, correspondingEdge := none, flow := 0,
        cost := Edge.initializeCost service } := by
    rw [hed, if_neg hne, if_pos rfl]; rfl
  have hold : ∀ i, i < g.edges.length → h.edges[i]? = g.edges[i]? := by
    intro i hi
    rw [hed, if_neg (by omega), if_neg (by omega)]
  have hrev : ∀ i, h.getReverse i =
      if i = g.edges.length then some (g.edges.length + 1)
      else if i = g.edges.length + 1 then some g.edges.length else g.getReverse i := by
    intro i
    unfold Graph.getReverse
    by_cases a : i = g.edges.length
    · subst a; rw [he1, if_pos rfl]; rfl
    · by_cases b : i = g.edges.length + 1
      · subst b; rw [he2, if_neg hne, if_pos rfl]; rfl
      · rw [hed, if_neg a, if_neg b, if_neg a, if_neg b]
  have hrlt : ∀ i j, g.getReverse i = some j → i < g.edges.length := by
    intro i j hij
    by_contra hge
    have : g.edges[i]? = none := List.getElem?_eq_none (by omega)
    simp [Graph.getReverse, this] at hij
  refine ⟨g.edges.length, g.edges.length + 1, g1, h, hcall, rfl, rfl, ?_, ?_, he1, he2, ?_, ?_,
    hg1, ?_, ?_, ?_, ?_, ?_, ?_, ?_, hold, hlen, ?_, ?_⟩
  · rw [hidof]; exact idsSound_idOf hs h1
  · rw [hidof]; exact idsSound_idOf hs h2
  · rw [hrev, if_pos rfl]
  · rw [hrev, if_neg hne, if_pos rfl]
  · rw [hadj1, if_pos rfl]
  · rw [hinc1, if_pos rfl]
  · rw [hadj, if_pos rfl, hadj1]
  · rw [hinc, if_pos rfl, hinc1]
  · intro hv
    refine ⟨?_, ?_, ?_, ?_⟩
    · rw [hadj, if_neg hv, if_pos rfl]
    · rw [hinc, if_neg (Ne.symm hv), if_pos rfl]
    · rw [hadj, if_pos rfl, if_neg (Ne.symm hv)]
    · rw [hinc, if_pos rfl, if_neg hv]
  · intro hv
    subst hv
    refine ⟨?_, ?_⟩
    · rw [hadj, if_pos rfl, if_pos rfl]; simp
    · rw [hinc, if_pos rfl, if_pos rfl]; simp
  · intro x hx1 hx2
    refine ⟨?_, ?_⟩
    · rw [hadj, if_neg hx2, if_neg hx1]
    · rw [hinc, if_neg hx1, if_neg hx2]
  · intro hinv i j hij
    rw [hrev] at hij
    by_cases a : i = g.edges.length
    · rw [if_pos a] at hij
      obtain rfl := Option.some.inj hij
      rw [hrev, if_neg hne, if_pos rfl, a]
    · rw [if_neg a] at hij
      by_cases b : i = g.edges.length + 1
      · rw [if_pos b] at hij
        obtain rfl := Option.some.inj hij
        rw [hrev, if_pos rfl, b]
      · rw [if_neg b] at hij
        have hji := hinv i j hij
        have hjlt := hrlt j i hji
        rw [hrev, if_neg (by omega), if_neg (by omega)]
        exact hji
  · intro hsome i hi
    rw [hrev]
    by_cases a : i = g.edges.length
    · exact ⟨_, by rw [if_pos a]⟩
    · by_cases b : i = g.edges.length + 1
      · exact ⟨_, by rw [if_neg a, if_pos b]⟩
      · rw [if_neg a, if_neg b]
        exact hsome i (by omega)

/-- The witness of C24: the link from `A` to `B` added to `twoStations`. -/
theorem addAndGet_link_pair_witness :
    twoStations.IdsSound ∧ twoStations.findVertex "A" = some 0 ∧
    twoStations.findVertex "B" = some 1 ∧
    oneLink.map (fun p => (p.1, p.2.adjOf 0, p.2.incomingOf 0, p.2.adjOf 1, p.2.incomingOf 1))
      = some (some (0, 1), [0], [1], [1], [0]) ∧
    oneLink.map (fun p => (p.2.getReverse 0, p.2.getReverse 1)) = some (some 1, some 0) ∧
    ∃ e1 e2 g1 h, twoStations.addAndGetBidirectionalEdge "A" "B" 7 Service.ALFA_PENDULAR
        = some (some (e1, e2), h) ∧ h.getReverse e1 = some e2 ∧ h.getReverse e2 = some e1 ∧
      twoStations.addEdge 0 1 7 Service.ALFA_PENDULAR = some (e1, g1) ∧
      h.edges.length = twoStations.edges.length + 2 :=
  ⟨by decide!, by decide!, by decide!, by decide!, by decide!, by
    obtain ⟨e1, e2, g1, h, hc, -, -, -, -, -, -, hr1, hr2, hg1, -, -, -, -, -, -, -, -, hl, -⟩ :=
      addAndGet_link_pair twoStations "A" "B" 7 Service.ALFA_PENDULAR 0 1 (by decide!)
        (by decide!) (by decide!)
    exact ⟨e1, e2, g1, h, hc, hr1, hr2, hg1, hl⟩⟩

/-- C25 (counterexample): after the stations `A` and `B` have been declared and `2 ^ 32`
links have been created between them, `getTotalEdges` is 0 and the graph has `2 ^ 33`
directed links: the counter `totalEdges` is an `unsigned int`. -/
theorem getTotalEdges_wraps :
    (Graph.makeCalls (manyLinks 4294967296) Graph.empty 0).map
      (fun p => (p.1, p.2.getTotalEdges, p.2.directedLinks))
      = some (4294967296, 0, 8589934592) := by
  obtain ⟨h, hm, hte, hdl⟩ := makeCalls_manyLinks 4294967296
  rw [hm, Option.map_some']
  show some ((4294967296 : Nat), h.totalEdges, h.directedLinks) = _
  rw [hte, hdl]

/-- C25 (amended): a call of `addAndGetBidirectionalEdge` that creates a pair of links adds
one to `getTotalEdges` modulo `2 ^ 32` (exactly one below `2 ^ 32 - 1`) and two to the number
of directed links; the call with the endpoints exchanged creates a pair as well and leaves
the same counter.  So after any sequence of construction calls from the empty graph that
has created `n` pairs, `getTotalEdges` is `n` modulo `2 ^ 32` and the graph has `2 * n`
directed links; with fewer than `2 ^ 32` pairs `getTotalEdges` is `n`, half the number of
directed links. -/
theorem getTotalEdges_counts_pairs :
    (∀ (g h : Graph) (source dest : String) (c : Nat) (service : Service) (p : Nat × Nat),
      g.addAndGetBidirectionalEdge source dest c service = some (some p, h) →
      h.getTotalEdges = (g.getTotalEdges + 1) % 4294967296 ∧
      (g.getTotalEdges < 4294967295 → h.getTotalEdges = g.getTotalEdges + 1) ∧
      h.directedLinks = g.directedLinks + 2 ∧
      ∃ p2 h2, g.addAndGetBidirectionalEdge dest source c service = some (some p2, h2) ∧
        h2.getTotalEdges = h.getTotalEdges ∧ h2.directedLinks = h.directedLinks) ∧
    (∀ calls : List BuildCall, ∃ n g, Graph.makeCalls calls Graph.empty 0 = some (n, g) ∧
      g.getTotalEdges = n % 4294967296 ∧ g.directedLinks = 2 * n ∧
      (n < 4294967296 → g.getTotalEdges = n ∧ 2 * g.getTotalEdges = g.directedLinks)) := by
  constructor
  · intro g h source dest c service p ha
    obtain ⟨e1, e2⟩ := p
    have ht := addAndGet_totalEdges ha
    have hd := addAndGet_directedLinks ha
    obtain ⟨v1, v2, hv1, hv2, hl1, hl2, -⟩ := addAndGet_spec ha
    obtain ⟨h2, hcall2⟩ := addAndGet_total c service hv2 hv1 hl2 hl1
    have ht2 := addAndGet_totalEdges hcall2
    have hd2 := addAndGet_directedLinks hcall2
    refine ⟨ht, ?_, hd, _, h2, hcall2, ?_, ?_⟩
    · intro hlt
      show h.totalEdges = g.totalEdges + 1
      rw [ht]
      exact uadd_of_lt (by unfold Graph.getTotalEdges at hlt; omega)
    · show h2.totalEdges = h.totalEdges
      rw [ht2, ht]
    · rw [hd2, hd]
  · intro calls
    obtain ⟨m, h, hm, -, -, hte, hdl, -⟩ := makeCalls_spec calls Graph.empty 0 idsSound_empty
      (by decide)
    have t0 : Graph.empty.totalEdges = 0 := rfl
    have d0 : Graph.empty.directedLinks = 0 := rfl
    rw [t0, Nat.zero_add, Nat.sub_zero] at hte
    rw [d0, Nat.zero_add, Nat.sub_zero] at hdl
    refine ⟨m, h, hm, hte, hdl, ?_⟩
    intro hlt
    have : h.getTotalEdges = m := by
      show h.totalEdges = m
      rw [hte]; exact Nat.mod_eq_of_lt hlt
    exact ⟨this, by rw [this, hdl]⟩

/-- The witness of C25: the link added to `twoStations`, and the sequence of three links
between two stations. -/
theorem getTotalEdges_counts_pairs_witness :
    (Graph.makeCalls (manyLinks 3) Graph.empty 0).map
      (fun p => (p.1, p.2.getTotalEdges, p.2.directedLinks)) = some (3, 3, 6) ∧
    twoStations.addAndGetBidirectionalEdge "A" "B" 7 Service.ALFA_PENDULAR
      = some (some (0, 1), oneLinkGraph) ∧
    oneLinkGraph.getTotalEdges = (twoStations.getTotalEdges + 1) % 4294967296 ∧
    (twoStations.getTotalEdges < 4294967295 →
      oneLinkGraph.getTotalEdges = twoStations.getTotalEdges + 1) ∧
    oneLinkGraph.directedLinks = twoStations.directedLinks + 2 ∧
    ∃ p2 h2, twoStations.addAndGetBidirectionalEdge "B" "A" 7 Service.ALFA_PENDULAR
        = some (some p2, h2) ∧
      h2.getTotalEdges = oneLinkGraph.getTotalEdges ∧
      h2.directedLinks = oneLinkGraph.directedLinks :=
  ⟨by decide!, by decide!,
    getTotalEdges_counts_pairs.1 twoStations oneLinkGraph "A" "B" 7 Service.ALFA_PENDULAR (0, 1)
      (by decide!)⟩

/-! ## Claims C26 and C27: the search `Graph::path` -/

/-- C26: on a well-linked graph and for source ids that are ids of vertices, `path(sources,
target)` returns, and it returns `true` if and only if the target is not among the sources
and a walk of at least one edge leads from the vertex of a source to the vertex of the
target along edges that are active and have capacity `> 0`; for an empty source list it
returns `false`. -/
theorem path_iff_admissible_walk (r : Graph) (source : List String) (target : String)
    (hw : r.WellLinked) (hsrc : ∀ s ∈ source, ∃ x, r.findVertex s = some x) :
    ∃ found r1, r.path source target = some (found, r1) ∧
      (found = true ↔ (target ∉ source ∧ ∃ x n, r.idOf x = some target ∧ 0 < n ∧
        r.ReachesIn (fun e => r.activeAt e && decide (0 < r.capOf e))
          (source.filterMap r.findVertex) n x)) ∧
      (source = [] → found = false) := by
  obtain ⟨found, r1, h, -⟩ := path_run hw source target hsrc
  obtain ⟨hs, -, -⟩ := path_spec hw h
  obtain ⟨htrue, hfalse⟩ := path_bfs hw h
  have hS : ∀ x, x ∈ source.filterMap r.findVertex → ∃ s ∈ source, r.findVertex s = some x := by
    intro x hx
    obtain ⟨s, hs, hsx⟩ := List.mem_filterMap.mp hx
    exact ⟨s, hs, hsx⟩
  refine ⟨found, r1, h, ⟨?_, ?_⟩, ?_⟩
  · intro hf
    obtain ⟨tv, P, htv, hns, hch, hend, hadm, -, -⟩ := htrue hf
    refine ⟨fun hmem => hns (List.mem_filterMap.mpr ⟨target, hmem, htv⟩), tv, P.length,
      hw.findVertex_sound htv, ?_, chain_reachesIn P tv hch hs.getDest hend hadm⟩
    cases P with
    | nil => exact absurd hend hns
    | cons p rest => simp
  · rintro ⟨hnt, x, n, hid, -, hr⟩
    cases found with
    | true => rfl
    | false =>
      exfalso
      obtain ⟨s, hs1, hsx⟩ := hS x (hfalse rfl n x hr hid)
      have := hw.findVertex_sound hsx
      rw [hid] at this
      exact hnt (Option.some.inj this ▸ hs1)
  · intro hnil
    cases found with
    | false => rfl
    | true =>
      exfalso
      obtain ⟨tv, P, -, -, -, hend, -⟩ := htrue rfl
      rw [hnil] at hend
      simp at hend

/-- The witness of C26: the search from `A` for `D` in the residual graph of scenario A,
which returns `true`. -/
theorem path_iff_admissible_walk_witness :
    scenarioAGraphs.2.WellLinked ∧ scenarioAGraphs.2.path ["A"] "D" = some (true, scenarioASearch) ∧
    ∃ found r1, scenarioAGraphs.2.path ["A"] "D" = some (found, r1) ∧
      (found = true ↔ ("D" ∉ ["A"] ∧ ∃ x n, scenarioAGraphs.2.idOf x = some "D" ∧ 0 < n ∧
        scenarioAGraphs.2.ReachesIn
          (fun e => scenarioAGraphs.2.activeAt e && decide (0 < scenarioAGraphs.2.capOf e))
          (["A"].filterMap scenarioAGraphs.2.findVertex) n x)) ∧
      (["A"] = [] → found = false) :=
  ⟨by decide!, by decide!,
    path_iff_admissible_walk scenarioAGraphs.2 ["A"] "D" (by decide!) (by
      intro s hs
      rw [List.mem_singleton] at hs
      subst hs
      exact ⟨0, by decide!⟩)⟩

/-- C27: when `path(sources, target)` returns `true` on a well-linked graph, the predecessor
edges lead from the vertex of the target, through finitely many vertices none of which
repeats, to the vertex of a source, whose predecessor edge is null; every edge of that
chain is active and has capacity `> 0`; and the number of edges of the chain is the least
number of edges of a walk from the vertex of a source to the vertex of the target along
active edges of capacity `> 0`. -/
theorem path_chain_shortest (r r1 : Graph) (source : List String) (target : String)
    (hw : r.WellLinked) (h : r.path source target = some (true, r1)) :
    ∃ tv P, r1.findVertex target = some tv ∧ r1.IsChain tv P ∧ (chainVertices tv P).Nodup ∧
      (∃ s ∈ source, r.findVertex s = some (chainEnd tv P)) ∧
      r1.pathOf (chainEnd tv P) = some none ∧
      (∀ p ∈ P, r1.getOrig p.1 = some p.2 ∧ r1.activeAt p.1 = true ∧ 0 < r1.capOf p.1) ∧
      r.ReachesIn (fun e => r.activeAt e && decide (0 < r.capOf e))
        (source.filterMap r.findVertex) P.length tv ∧
      ∀ n, r.ReachesIn (fun e => r.activeAt e && decide (0 < r.capOf e))
        (source.filterMap r.findVertex) n tv → P.length ≤ n := by
  obtain ⟨hs, hed, hfound⟩ := path_spec hw h
  obtain ⟨tv, P, htv, hch, hnd, hsrc, -⟩ := hfound rfl
  obtain ⟨tv2, Q, htv2, -, hch2, hend, hadm, hmin, -⟩ := (path_bfs hw h).1 rfl
  rw [hs.findVertex] at htv
  rw [htv2] at htv
  obtain rfl := Option.some.inj htv
  obtain rfl := isChain_unique P Q tv2 hch hch2
  refine ⟨tv2, P, by rw [hs.findVertex]; exact htv2, hch, hnd, hsrc, isChain_end P tv2 hch, ?_,
    chain_reachesIn P tv2 hch hs.getDest hend hadm, hmin⟩
  intro p hp
  obtain ⟨hmem, hu⟩ := hadm p hp
  simp only [Graph.admits, Bool.and_eq_true, decide_eq_true_eq] at hu
  have hact : r1.activeAt p.1 = r.activeAt p.1 := by simp [Graph.activeAt, hed]
  have hcap : r1.capOf p.1 = r.capOf p.1 := by simp [Graph.capOf, Graph.getCapacity, hed]
  refine ⟨?_, by rw [hact]; exact hu.1, by rw [hcap]; exact hu.2⟩
  have hlt : p.2 < r.vertexSet.length := by
    by_contra hge
    have : r.vertexSet[p.2]? = none := List.getElem?_eq_none (by omega)
    simp [Graph.adjOf, this] at hmem
  rw [hs.getOrig]
  exact ((hw.2.1 p.2 hlt).1 p.1 hmem).2

/-- The witness of C27: the search from `A` for `D` in the residual graph of scenario A; the
chain has the two edges `B -> D` and `A -> B`. -/
theorem path_chain_shortest_witness :
    scenarioAGraphs.2.WellLinked ∧ scenarioAGraphs.2.path ["A"] "D" = some (true, scenarioASearch) ∧
    scenarioASearch.IsChain 3 [(4, 1), (0, 0)] ∧
    ∃ tv P, scenarioASearch.findVertex "D" = some tv ∧ scenarioASearch.IsChain tv P ∧
      (chainVertices tv P).Nodup ∧
      (∃ s ∈ ["A"], scenarioAGraphs.2.findVertex s = some (chainEnd tv P)) ∧
      scenarioASearch.pathOf (chainEnd tv P) = some none ∧
      (∀ p ∈ P, scenarioASearch.getOrig p.1 = some p.2 ∧ scenarioASearch.activeAt p.1 = true ∧
        0 < scenarioASearch.capOf p.1) ∧
      scenarioAGraphs.2.ReachesIn
        (fun e => scenarioAGraphs.2.activeAt e && decide (0 < scenarioAGraphs.2.capOf e))
        (["A"].filterMap scenarioAGraphs.2.findVertex) P.length tv ∧
      ∀ n, scenarioAGraphs.2.ReachesIn
        (fun e => scenarioAGraphs.2.activeAt e && decide (0 < scenarioAGraphs.2.capOf e))
        (["A"].filterMap scenarioAGraphs.2.findVertex) n tv → P.length ≤ n :=
  ⟨by decide!, by decide!,
    ⟨by decide!, by decide!, by decide!, by decide!, by decide!, by decide!,
      show scenarioASearch.pathOf 0 = some none by decide!⟩,
    path_chain_shortest scenarioAGraphs.2 scenarioASearch ["A"] "D" (by decide!) (by decide!)⟩

/-! ## Claim C28: the effect of `Graph::augmentPath` on the links of the path -/

/-- C28 (counterexample): in the run of `edmondsKarp` from `A` to `E` on `exceedsNetwork`
(a paired network with capacities 1 and 2), the second search finds a path through the edge
`B -> D` (pointer 4, reverse pointer 5) and the bottleneck is 2.  Before the augmentation
the edge has flow 0, its reverse has flow 1 and residual capacity 0; after it the net flow
has risen by 2 (flow 1, reverse flow 0) but the reverse residual capacity is 1: it has grown
by the excess `0 + 2 - 1`, not by the pushed amount 2.  And in the run from `s` to `t` on
`wrapNetwork`, with capacities of `2 ^ 32 - 1`, the third augmentation pushes 1 over the edge
`u -> v` (pointer 2), whose flow goes from `2 ^ 32 - 1` to 0: the net flow along the link
falls. -/
theorem augmentPath_reverse_residual_excess :
    exceedsNetwork.map (fun p => (decide (Paired p.1 p.2), decide (p.1.CapacityBelow 3)))
      = some (true, true) ∧
    (nextAugmentation exceedsNetwork 1 ["A"] "E").map (fun x => (x.2.1, x.1.2.pathOf 3))
      = some (2, some (some 4)) ∧
    (nextAugmentation exceedsNetwork 1 ["A"] "E").map (fun x => linkState x.1.1 x.1.2 4 5)
      = some (0, 1, 2, 0) ∧
    (nextAugmentation exceedsNetwork 1 ["A"] "E").map (fun x => linkState x.2.2.1 x.2.2.2 4 5)
      = some (1, 0, 0, 1) ∧
    (nextAugmentation wrapNetwork 2 ["s"] "t").map (fun x => (x.2.1, x.1.2.pathOf 2))
      = some (1, some (some 2)) ∧
    (nextAugmentation wrapNetwork 2 ["s"] "t").map (fun x => linkState x.1.1 x.1.2 2 3)
      = some (4294967295, 1, 1, 4294967294) ∧
    (nextAugmentation wrapNetwork 2 ["s"] "t").map (fun x => linkState x.2.2.1 x.2.2.2 2 3)
      = some (0, 1, 4294967295, 4294967295) := by
  refine ⟨by decide!, by decide!, by decide!, by decide!, by decide!, by decide!, by decide!⟩

/-- C28 (amended): in a run of `edmondsKarp` on a paired network whose capacities are below
`2 ^ 31`, for the path a successful search has found and every amount `v` up to its
bottleneck, `augmentPath` returns and leaves, for each residual edge `p.1` of the path with
reverse `j`: the residual capacity of the edge equal to capacity minus flow of its regular
edge (the edge with the same pointer in the regular graph), and the net regular flow along
the link (flow of the edge minus flow of its reverse) raised by exactly `v`.  When
`flow + v` is within the capacity, the flow rises by `v`, the reverse flow is unchanged and
the reverse residual capacity grows by exactly `v`; otherwise the flow becomes the capacity
and the excess `flow + v - capacity` is subtracted from the flow of the reverse regular
edge. -/
theorem augmentPath_link_effect (g r g0 r0 ga ra rb : Graph) (source : List String)
    (target : String) (n mf b v : Nat) (fin : Bool) (hp : Paired g r)
    (hcap : g.CapacityBelow 2147483648)
    (hreset : resetFlows g.vertexSet g r = some (g0, r0))
    (hrun : edmondsKarpLoop source target n 0 g0 r0 = some (fin, mf, ga, ra))
    (hpath : ra.path source target = some (true, rb))
    (hb : rb.findBottleneck target = some b) (hv : v ≤ b) :
    ∃ g1 r1 tv P, rb.augmentPath target v ga = some (g1, r1) ∧
      rb.findVertex target = some tv ∧ rb.IsChain tv P ∧
      ∀ p ∈ P, ∃ j, rb.getReverse p.1 = some j ∧ ga.getReverse p.1 = some j ∧
        rb.getCorrespondingEdge p.1 = some p.1 ∧
        g1.capOf p.1 = ga.capOf p.1 ∧ g1.flowOf p.1 ≤ g1.capOf p.1 ∧
        r1.capOf p.1 = g1.capOf p.1 - g1.flowOf p.1 ∧
        (g1.flowOf p.1 : Int) - (g1.flowOf j : Int)
          = (ga.flowOf p.1 : Int) - (ga.flowOf j : Int) + (v : Int) ∧
        (ga.flowOf p.1 + v ≤ ga.capOf p.1 →
          g1.flowOf p.1 = ga.flowOf p.1 + v ∧ g1.flowOf j = ga.flowOf j ∧
          r1.capOf j = rb.capOf j + v) ∧
        (ga.capOf p.1 < ga.flowOf p.1 + v →
          g1.flowOf p.1 = ga.capOf p.1 ∧
          g1.flowOf j + (ga.flowOf p.1 + v - ga.capOf p.1) = ga.flowOf j) := by
  obtain ⟨⟨hpa, hli, hcapa, -⟩, -, -⟩ := edmondsKarpLoop_spec source target n 0 g0 r0 fin mf ga ra
    (ekInv_of_reset hp hcap hreset) hrun
  obtain ⟨hs, hed, hfound⟩ := path_spec hpa.2.1 hpath
  obtain ⟨tv, P, htv, hch, hnd, -, hedg⟩ := hfound rfl
  have hpb : Paired ga rb := hpa.sameStatic (SameStatic.refl ga) hs
  have hlib : LinkInv ga rb := hli.of_search hed
  simp only [Graph.findBottleneck, Option.bind_eq_bind, htv, Option.some_bind] at hb
  obtain ⟨-, hbv⟩ := findBottleneckLoop_spec rb P tv _ _ _ hch hb
  have hval : ∀ p ∈ P, p.1 < ga.edges.length := by
    intro p hpP
    rw [hpb.2.2.2.1]; exact (hedg p hpP).1
  obtain ⟨g1, r1, hloop⟩ := augmentPathLoop_returns v P tv (rb.vertexSet.length + 1) ga rb hpb hch
    hval (by have := IsChain.length_lt hch hnd; omega)
  obtain ⟨-, -, -, -, hcp, -, hlinks⟩ :=
    augmentPathLoop_links v P tv _ ga rb g1 r1 hpb hch hnd hval hloop
  refine ⟨g1, r1, tv, P, by simp [Graph.augmentPath, htv, hloop], htv, hch, ?_⟩
  intro p hpP
  have hpi := hval p hpP
  obtain ⟨j, hj, hji, hgr, hgrj, hrr, hrc, -⟩ := hpb.reverse hpi
  have hcapB := (capacityBelow_iff ga _).mp hcapa
  have hIi := hlib p.1 j hpi hgr
  have hIj := hlib j p.1 hj hgrj
  have hci := hcapB p.1 hpi
  have hcj := hcapB j hj
  have hvb := hbv p hpP
  have hl := hlinks p hpP j hgr
  refine ⟨j, hrr, hgr, hrc, hcp p.1, ?_⟩
  rw [hcp]
  by_cases hcase : ga.flowOf p.1 + v ≤ ga.capOf p.1
  · rw [linkAfter_within hcase (by omega) (by omega)] at hl
    simp only [Prod.mk.injEq] at hl
    obtain ⟨e1, e2, e3, e4⟩ := hl
    refine ⟨by omega, by omega, by omega, fun _ => ⟨e1, e2, e4⟩, fun h => by omega⟩
  · rw [linkAfter_exceeds (by omega) (by omega) (by omega) (by omega) (by omega)] at hl
    simp only [Prod.mk.injEq] at hl
    obtain ⟨e1, e2, e3, e4⟩ := hl
    refine ⟨by omega, by omega, by omega, fun h => absurd h hcase, fun _ => ⟨e1, by omega⟩⟩

/-- The witness of C28: the second augmentation of the run from `A` to `E` on
`exceedsNetwork`, with the bottleneck 2 as the amount. -/
theorem augmentPath_link_effect_witness :
    Paired exceedsGraphs.1 exceedsGraphs.2 ∧ exceedsGraphs.1.CapacityBelow 2147483648 ∧
    resetFlows exceedsGraphs.1.vertexSet exceedsGraphs.1 exceedsGraphs.2 = some exceedsReset ∧
    edmondsKarpLoop ["A"] "E" 1 0 exceedsReset.1 exceedsReset.2
      = some (false, 1, exceedsFirst.1, exceedsFirst.2) ∧
    exceedsFirst.2.path ["A"] "E" = some (true, exceedsSearch) ∧
    exceedsSearch.findBottleneck "E" = some 2 ∧
    ∃ g1 r1 tv P, exceedsSearch.augmentPath "E" 2 exceedsFirst.1 = some (g1, r1) ∧
      exceedsSearch.findVertex "E" = some tv ∧ exceedsSearch.IsChain tv P ∧
      ∀ p ∈ P, ∃ j, exceedsSearch.getReverse p.1 = some j ∧
        exceedsFirst.1.getReverse p.1 = some j ∧
        exceedsSearch.getCorrespondingEdge p.1 = some p.1 ∧
        g1.capOf p.1 = exceedsFirst.1.capOf p.1 ∧ g1.flowOf p.1 ≤ g1.capOf p.1 ∧
        r1.capOf p.1 = g1.capOf p.1 - g1.flowOf p.1 ∧
        (g1.flowOf p.1 : Int) - (g1.flowOf j : Int)
          = (exceedsFirst.1.flowOf p.1 : Int) - (exceedsFirst.1.flowOf j : Int) + ((2 : Nat) : Int) ∧
        (exceedsFirst.1.flowOf p.1 + 2 ≤ exceedsFirst.1.capOf p.1 →
          g1.flowOf p.1 = exceedsFirst.1.flowOf p.1 + 2 ∧ g1.flowOf j = exceedsFirst.1.flowOf j ∧
          r1.capOf j = exceedsSearch.capOf j + 2) ∧
        (exceedsFirst.1.capOf p.1 < exceedsFirst.1.flowOf p.1 + 2 →
          g1.flowOf p.1 = exceedsFirst.1.capOf p.1 ∧
          g1.flowOf j + (exceedsFirst.1.flowOf p.1 + 2 - exceedsFirst.1.capOf p.1)
            = exceedsFirst.1.flowOf j) :=
  ⟨by decide!, by decide!, by decide!, by decide!, by decide!, by decide!,
    augmentPath_link_effect exceedsGraphs.1 exceedsGraphs.2 exceedsReset.1 exceedsReset.2
      exceedsFirst.1 exceedsFirst.2 exceedsSearch ["A"] "E" 1 1 2 2 false (by decide!)
      (by decide!) (by decide!) (by decide!) (by decide!) (by decide!) (le_refl 2)⟩

/-! ## Claims C29 and C30: reset and termination of `edmondsKarp` -/

/-- C29: `edmondsKarp` starts with the reset loop, after which every regular flow is 0 and
every residual capacity is the capacity of the regular edge with the same pointer, and then
runs its loop from that state.  So for two states `(g, r)` and `(k, kr)` of a paired network
that differ at most in the regular flows, the residual capacities and the visited marks and
predecessor edges of the vertices, `edmondsKarp` with the same sources and target gives the
same result (the same value, or no return within the same budget), and calling it again on
the state it leaves returns the same value.  With source ids that are ids of stations the
three calls return within any budget above the total capacity of the active links that
leave the sources. -/
theorem edmondsKarp_history_independent (g r k kr : Graph) (source : List String)
    (target : String) (hp : Paired g r) (hpk : Paired k kr)
    (hg : g.EqUpTo Vertex.unsearched Edge.noFlow k)
    (hr : r.EqUpTo Vertex.unsearched Edge.noCapacity kr) :
    (∃ g0 r0, resetFlows g.vertexSet g r = some (g0, r0) ∧
      (∀ i, i < g.edges.length → g0.flowOf i = 0 ∧ r0.capOf i = g.capOf i) ∧
      ∀ fuel, g.edmondsKarp fuel source target r
        = (edmondsKarpLoop source target fuel 0 g0 r0).bind
            (fun x => if x.1 = true then some x.2 else none)) ∧
    (∀ fuel, (g.edmondsKarp fuel source target r).map (fun x => x.1)
      = (k.edmondsKarp fuel source target kr).map (fun x => x.1)) ∧
    (∀ fuel F g1 r1, g.edmondsKarp fuel source target r = some (F, g1, r1) →
      ∃ g2 r2, g1.edmondsKarp fuel source target r1 = some (F, g2, r2)) ∧
    (g.CapacityBelow 4294967296 → (∀ s ∈ source, ∃ x, g.findVertex s = some x) →
      ∀ fuel, g.sourceCapacity r source + 1 ≤ fuel →
        ∃ F g1 r1 k1 kr1 g2 r2, g.edmondsKarp fuel source target r = some (F, g1, r1) ∧
          k.edmondsKarp fuel source target kr = some (F, k1, kr1) ∧
          g1.edmondsKarp fuel source target r1 = some (F, g2, r2)) := by
  have hsecond : ∀ fuel F g1 r1, g.edmondsKarp fuel source target r = some (F, g1, r1) →
      ∃ g2 r2, g1.edmondsKarp fuel source target r1 = some (F, g2, r2) := by
    intro fuel F g1 r1 h
    have hs := edmondsKarp_sameNetwork h
    exact ⟨_, _, edmondsKarp_congr hp (hs.pairedNet hp) hs h⟩
  have hto : ∀ fuel F g1 r1, g.edmondsKarp fuel source target r = some (F, g1, r1) →
      ∃ k1 kr1, k.edmondsKarp fuel source target kr = some (F, k1, kr1) :=
    fun fuel F g1 r1 h => ⟨_, _, edmondsKarp_congr_any hp hpk hg.2.2.2 hr h⟩
  have hfrom : ∀ fuel F k1 kr1, k.edmondsKarp fuel source target kr = some (F, k1, kr1) →
      ∃ g1 r1, g.edmondsKarp fuel source target r = some (F, g1, r1) :=
    fun fuel F k1 kr1 h =>
      ⟨_, _, edmondsKarp_congr_any hpk hp hg.symmUpTo.2.2.2 hr.symmUpTo h⟩
  refine ⟨?_, ?_, hsecond, ?_⟩
  · obtain ⟨g0, r0, hreset⟩ := resetFlows_total_paired hp
    obtain ⟨-, -, -, -, -, hall⟩ := resetFlows_paired hp hreset
    refine ⟨g0, r0, hreset, hall, ?_⟩
    intro fuel
    simp only [Graph.edmondsKarp, Option.bind_eq_bind, hreset, Option.some_bind]
    cases edmondsKarpLoop source target fuel 0 g0 r0 with
    | none => rfl
    | some x =>
      obtain ⟨fin, mf, ga, ra⟩ := x
      cases fin <;> rfl
  · intro fuel
    cases hgk : g.edmondsKarp fuel source target r with
    | some x =>
      obtain ⟨F, g1, r1⟩ := x
      obtain ⟨k1, kr1, hk⟩ := hto fuel F g1 r1 hgk
      rw [hk]; rfl
    | none =>
      cases hkk : k.edmondsKarp fuel source target kr with
      | none => rfl
      | some y =>
        obtain ⟨F, k1, kr1⟩ := y
        obtain ⟨g1, r1, hg1⟩ := hfrom fuel F k1 kr1 hkk
        rw [hgk] at hg1
        exact absurd hg1 (by simp)
  · intro hcap hsrc fuel hf
    have hret : ∃ F g1 r1, g.edmondsKarp fuel source target r = some (F, g1, r1) :=
      edmondsKarp_returns_any hp hcap hsrc hf
    obtain ⟨F, g1, r1, h⟩ := hret
    obtain ⟨k1, kr1, hk⟩ := hto fuel F g1 r1 h
    obtain ⟨g2, r2, h2⟩ := hsecond fuel F g1 r1 h
    exact ⟨F, g1, r1, k1, kr1, g2, r2, h, hk, h2⟩

/-- The witness of C29: the network of scenario A as built and as a run of `edmondsKarp`
has left it. -/
theorem edmondsKarp_history_independent_witness :
    Paired scenarioAGraphs.1 scenarioAGraphs.2 ∧ Paired scenarioARun.2.1 scenarioARun.2.2 ∧
    scenarioAGraphs.1.EqUpTo Vertex.unsearched Edge.noFlow scenarioARun.2.1 ∧
    scenarioAGraphs.2.EqUpTo Vertex.unsearched Edge.noCapacity scenarioARun.2.2 ∧
    scenarioAGraphs.1.edges ≠ scenarioARun.2.1.edges ∧
    (scenarioAGraphs.1.edmondsKarp 3 ["A"] "D" scenarioAGraphs.2).map (fun x => x.1) = some 5 ∧
    ∀ fuel, (scenarioAGraphs.1.edmondsKarp fuel ["A"] "D" scenarioAGraphs.2).map (fun x => x.1)
      = (scenarioARun.2.1.edmondsKarp fuel ["A"] "D" scenarioARun.2.2).map (fun x => x.1) :=
  ⟨by decide!, by decide!, by unfold Graph.EqUpTo; decide!, by unfold Graph.EqUpTo; decide!,
    by decide!, by decide!,
    (edmondsKarp_history_independent scenarioAGraphs.1 scenarioAGraphs.2 scenarioARun.2.1
      scenarioARun.2.2 ["A"] "D" (by decide!) (by decide!) (by unfold Graph.EqUpTo; decide!)
      (by unfold Graph.EqUpTo; decide!)).2.1⟩

/-- C30 (counterexample): on the paired network with the single link from `s` to `t` of
capacity `2 ^ 32 - 1`, the first search of `edmondsKarp({s}, t)` succeeds and `findBottleneck`
returns `UINT32_MAX`, the value it starts from. -/
theorem findBottleneck_returns_sentinel :
    maxLinkNetwork.map (fun p => decide (Paired p.1 p.2)) = some true ∧
    (nextAugmentation maxLinkNetwork 0 ["s"] "t").map (fun x => x.2.1) = some UINT32_MAX := by
  refine ⟨by decide!, by decide!⟩

/-- C30 (amended): on every paired network (capacities are `unsigned int` values) and for
source ids that are ids of stations, `edmondsKarp` terminates: it returns within any budget
of iterations above the total capacity of the active links that leave the sources, and a
run that has made `n` augmentations without leaving its loop has `n` at most that total.
After every successful search of the run `findBottleneck` returns a value of at least 1,
and a value below `UINT32_MAX` when every capacity is below `UINT32_MAX`.  When the flags of
the residual edges are those of the regular edges, the total is computed from the regular
graph alone. -/
theorem edmondsKarp_terminates (g r : Graph) (source : List String) (target : String)
    (hp : Paired g r) (hcap : g.CapacityBelow 4294967296)
    (hsrc : ∀ s ∈ source, ∃ x, g.findVertex s = some x) :
    (∀ fuel, g.sourceCapacity r source + 1 ≤ fuel →
      ∃ F g1 r1, g.edmondsKarp fuel source target r = some (F, g1, r1)) ∧
    (∀ g0 r0 n fin mf ga ra, resetFlows g.vertexSet g r = some (g0, r0) →
      edmondsKarpLoop source target n 0 g0 r0 = some (fin, mf, ga, ra) →
      (fin = false → n ≤ g.sourceCapacity r source) ∧
      ∀ rb, ra.path source target = some (true, rb) →
        ∃ b, rb.findBottleneck target = some b ∧ 1 ≤ b ∧
          (g.CapacityBelow UINT32_MAX → b < UINT32_MAX)) ∧
    ((∀ i, i < g.edges.length → r.activeAt i = g.activeAt i) →
      g.sourceCapacity r source = g.sourceCapacity g source) := by
  refine ⟨fun fuel hf => edmondsKarp_returns_any hp hcap hsrc hf, ?_, ?_⟩
  · intro g0 r0 n fin mf ga ra hreset hrun
    obtain ⟨hp0, hinv0, hmu, hcp, hs1⟩ := sourceInv_of_reset source hp hreset
    have hcap0 : g0.CapacityBelow 4294967296 := by
      rw [capacityBelow_iff] at hcap ⊢
      intro i hi
      rw [hcp]; exact hcap i (hs1.edges_length ▸ hi)
    obtain ⟨hpa, hcapa, hinva, hcpa, -, hsa, -, hcount⟩ :=
      edmondsKarpLoop_inv_any source target n 0 g0 r0 fin mf ga ra hp0 hcap0 hinv0 hrun
    refine ⟨fun hf => by have := hcount hf; omega, ?_⟩
    intro rb hpath
    obtain ⟨b, g2, r2, hb, hb1, -, -, -, -, -, -, -, -, -, e0, he0, -, -, hbe⟩ :=
      edmondsKarp_round_any hpa hcapa hinva hpath
    refine ⟨b, hb, hb1, ?_⟩
    intro hmax
    have hcapB := (capacityBelow_iff g _).mp hmax
    rw [hcpa, hcp] at hbe
    rw [hsa.edges_length, hs1.edges_length] at he0
    exact lt_of_le_of_lt hbe (hcapB e0 he0)
  · intro hflags
    unfold Graph.sourceCapacity
    apply congrArg
    apply List.map_congr_left
    intro e he
    have hlt := List.mem_range.mp he
    have hls : r.leavesSource source e = g.leavesSource source e := by
      have hf : r.findVertex = g.findVertex := funext hp.findVertexEq
      unfold Graph.leavesSource
      rw [← (hp.2.2.2.2.1 e hlt).2.2.1, hf]
    rw [hls, hflags e hlt]

/-- The witness of C30: the network of scenario A, on which the links that leave `A` have the
total capacity 8. -/
theorem edmondsKarp_terminates_witness :
    Paired scenarioAGraphs.1 scenarioAGraphs.2 ∧ scenarioAGraphs.1.CapacityBelow 4294967296 ∧
    scenarioAGraphs.1.sourceCapacity scenarioAGraphs.2 ["A"] = 8 ∧
    ∀ fuel, scenarioAGraphs.1.sourceCapacity scenarioAGraphs.2 ["A"] + 1 ≤ fuel →
      ∃ F g1 r1, scenarioAGraphs.1.edmondsKarp fuel ["A"] "D" scenarioAGraphs.2
        = some (F, g1, r1) :=
  ⟨by decide!, by decide!, by decide!,
    (edmondsKarp_terminates scenarioAGraphs.1 scenarioAGraphs.2 ["A"] "D" (by decide!) (by decide!)
      (by
        intro s hs
        rw [List.mem_singleton] at hs
        subst hs
        exact ⟨0, by decide!⟩)).1⟩

/-- C33 (violated by the code): on the auxiliary graph of `dearFirstNetwork` after
`edmondsKarp({s}, t)`, `bellmanFord(s)` returns a list that holds the edge 5 three times.
Edge 5 is the negated-cost edge from `t` to `a` (pointers 2 and 1) of the `ALFA_PENDULAR`
link; its origin `t` is not the destination `a` of the next listed edge.  The negative cycle
of the graph is made of the edges 5 and 6 (edge 6 goes from `a` to `t` with cost 2 and
capacity 1), of total cost `-2`. -/
theorem bellmanFord_repeats_edge :
    (dearFirstStart.2.bellmanFord "s").map (fun p => p.1) = some [5, 5, 5] ∧
    (dearFirstStart.2.getOrig 5, dearFirstStart.2.getDest 5, dearFirstStart.2.getCost 5,
      dearFirstStart.2.capOf 5) = (some 2, some 1, some (-4), 1) ∧
    (dearFirstStart.2.getOrig 6, dearFirstStart.2.getDest 6, dearFirstStart.2.getCost 6,
      dearFirstStart.2.capOf 6) = (some 1, some 2, some 2, 1) := by
  decide!

/-- C34 (violated by the code): `nullTraceNetwork` is a paired network with capacities 1
and 2.  In the first call of `bellmanFord` of `minCostMaxFlow(C, B)`, after the three passes
that are not the final one, `A` and `B` have the cost `-1` and no predecessor edge, `C` has
the cost `-13` and `D` the cost `-9`.  The final pass starts with `A`; its incoming edge 8
leaves `D`, has capacity 1 and cost 6, so `-9 + 6 < -1` and the edge is relaxed on the final
pass.  The trace then steps back from `A`, whose predecessor edge is null: `traceBack`
fails at its first step, `bellmanFord` does not return, and `minCostMaxFlow` does not return
whatever the iteration budget. -/
theorem bellmanFord_null_predecessor :
    nullTraceNetwork.map (fun p => decide (Paired p.1 p.2)) = some true ∧
    ((nullTraceStart.2.bellmanFordInit "C").bind (fun m => relaxPasses 3 1 m)).map
      (fun p => (p.1, p.2.vertexSet.map (fun v => (v.id, v.cost))))
      = some ([], [("A", -1), ("B", -1), ("C", -13), ("D", -9)]) ∧
    ((nullTraceStart.2.bellmanFordInit "C").bind (fun m => relaxPasses 3 1 m)).map
      (fun p => (p.2.vertexSet.map (fun v => v.path), p.2.incomingOf 0))
      = some ([none, none, some 5, some 6], [1, 8]) ∧
    (nullTraceStart.2.capOf 1, nullTraceStart.2.getOrig 8, nullTraceStart.2.getDest 8,
      nullTraceStart.2.capOf 8, nullTraceStart.2.getCost 8) = (0, some 3, some 0, 1, some 6) ∧
    ((nullTraceStart.2.bellmanFordInit "C").bind (fun m => relaxPasses 3 1 m)).map
      (fun p => traceBack 4 p.2 0) = some none ∧
    nullTraceStart.2.bellmanFord "C" = none ∧
    ∀ fuel, afterMinCostMaxFlow nullTraceNetwork fuel "C" "B" (fun p _ => p) = none := by
  refine ⟨by decide!, by decide!, by decide!, by decide!, by decide!, by decide!, ?_⟩
  intro fuel
  have hnet : nullTraceNetwork = some nullTraceGraphs := by decide!
  have hek : nullTraceGraphs.1.edmondsKarp 3 ["C"] "B" nullTraceGraphs.2 = some nullTraceRun := by
    decide!
  have hbf : (nullTraceRun.2.1.makeMinCostResidual Graph.empty).bind
      (fun m => m.bellmanFord "C") = none := by decide!
  rw [afterMinCostMaxFlow, hnet, Option.some_bind]
  cases hf : nullTraceGraphs.1.edmondsKarp fuel ["C"] "B" nullTraceGraphs.2 with
  | none => simp [Graph.minCostMaxFlow, hf]
  | some x =>
    obtain rfl := edmondsKarp_budget_irrelevant _ _ _ _ _ _ _ _ hf hek
    cases hm : nullTraceRun.2.1.makeMinCostResidual Graph.empty with
    | none => simp [Graph.minCostMaxFlow, hf, hm]
    | some m =>
      rw [hm, Option.some_bind] at hbf
      simp [Graph.minCostMaxFlow, hf, hm, hbf]

/-- C35 (violated by the code): on `dearFirstNetwork` after `edmondsKarp({s}, t)` the
auxiliary edges 5 and 6 form the negative cycle and their bottleneck is 1.
`augmentMinCostPath` with that list and the amount 1 lowers the flow of the regular link 2
(the negated-cost edge 5 stands for it) from 1 to 0 and raises the flow of the regular link 4
from 0 to 1, but it leaves the auxiliary edges of the regular link 2 with the capacities
`2 ^ 32 - 1` (edge 4, true cost) and 2 (edge 5, negated cost), where the capacity minus the
flow of the link is 1 and its flow is 0.  The edges 6 and 7 of the regular link 4 have the
capacities 0 and 1, as they should. -/
theorem augmentMinCostPath_negative_branch :
    findListBottleneck dearFirstStart.2 [5, 6] UINT32_MAX = some 1 ∧
    dearFirstStart.1.edges.map (fun e => (e.capacity, e.flow))
      = [(1, 1), (1, 0), (1, 1), (1, 0), (1, 0), (1, 0)] ∧
    dearFirstStart.2.edges.map (fun e => (e.capacity, e.cost, e.correspondingEdge))
      = [(0, 2, some 0), (1, -2, some 0), (1, 2, some 1), (0, -2, some 1), (0, 4, some 2),
         (1, -4, some 2), (1, 2, some 4), (0, -2, some 4), (1, 4, some 3), (0, -4, some 3),
         (1, 2, some 5), (0, -2, some 5)] ∧
    (augmentMinCostPath 1 [5, 6] dearFirstStart.1 dearFirstStart.2).map
      (fun p => (p.1.edges.map (fun e => (e.capacity, e.flow)),
        p.2.edges.map (fun e => e.capacity)))
      = some ([(1, 1), (1, 0), (1, 0), (1, 0), (1, 1), (1, 0)],
          [0, 1, 1, 0, 4294967295, 2, 0, 1, 1, 0, 1, 0]) := by
  decide!

/-- C38 (violated by the code): `detourNetwork` is a paired network with every link active
and capacities 1 and 2.  `maxFlowDeactivatedEdges` with the first link (the link between `A`
and `F` of capacity 1), the source `B` and the target `A` returns `(2, 3)`: the run with all
links active finds 2, the run with the link deactivated finds 3.  `detourFlow` is a feasible
flow of value 3 on the network with all links active. -/
theorem maxFlowDeactivatedEdges_increase :
    detourNetwork.map (fun p => (decide (Paired p.1 p.2), decide p.1.AllActive,
      decide (p.1.CapacityBelow 3))) = some (true, true, true) ∧
    afterMaxFlowDeactivatedEdges detourNetwork 4 [0] ["B"] "A" = some (2, 3) ∧
    detourNetwork.map (fun p => (decide (p.1.FeasibleFlow ["B"] "A" detourFlow),
      p.1.flowValue "A" detourFlow)) = some (true, 3) := by
  decide!

/-- C40 (violated by the code): `Station::operator=` copies the name, the district, the
municipality and the line of its argument and leaves the township of the assigned station
as it was. -/
theorem station_assign_skips_township :
    (∀ a b : Station, (a.assign b).name = b.name ∧ (a.assign b).district = b.district ∧
      (a.assign b).municipality = b.municipality ∧ (a.assign b).line = b.line ∧
      (a.assign b).township = a.township) ∧
    (Station.mk "Porto" "Porto" "Porto" "Campanha" "Norte").assign
      (Station.mk "Faro" "Faro" "Faro" "Se" "Sul")
      = Station.mk "Faro" "Faro" "Faro" "Campanha" "Sul" :=
  ⟨fun _ _ => ⟨rfl, rfl, rfl, rfl, rfl⟩, by decide⟩

/-- C39: on a paired network whose active flags agree across every link (a regular edge, its
reverse and their corresponding residual edges carry the same flag), after `edmondsKarp`
returns every deactivated regular edge has flow 0, every regular edge has the capacity and
the flag it had, and every residual edge has the flag it had; with capacities that are
`unsigned int` values and sources that are stations, `edmondsKarp` returns within every
budget above the total capacity of the active links that leave the sources. -/
theorem edmondsKarp_deactivated_links (g r : Graph) (source : List String) (target : String)
    (hp : Paired g r) (hflags : FlagsAgree g r) :
    (∀ fuel F g1 r1, g.edmondsKarp fuel source target r = some (F, g1, r1) →
      (∀ e ∈ g1.edges, e.selected = false → e.flow = 0) ∧
      g1.edges.map (fun e => e.capacity) = g.edges.map (fun e => e.capacity) ∧
      g1.edges.map (fun e => e.selected) = g.edges.map (fun e => e.selected) ∧
      r1.edges.map (fun e => e.selected) = r.edges.map (fun e => e.selected)) ∧
    (g.CapacityBelow 4294967296 → (∀ s ∈ source, ∃ x, g.findVertex s = some x) →
      ∀ fuel, g.sourceCapacity r source + 1 ≤ fuel →
        ∃ F g1 r1, g.edmondsKarp fuel source target r = some (F, g1, r1)) := by
  constructor
  · intro fuel F g1 r1 h
    obtain ⟨hf1, hf2⟩ := edmondsKarp_frame h
    refine ⟨?_, map_eq_of_noFlow (fun e => e.capacity) (fun _ => rfl) hf1.2.2.2,
      map_eq_of_noFlow (fun e => e.selected) (fun _ => rfl) hf1.2.2.2,
      map_eq_of_noCapacity (fun e => e.selected) (fun _ => rfl) hf2.2.2.2⟩
    simp only [Graph.edmondsKarp, Option.bind_eq_bind, Option.bind_eq_some] at h
    obtain ⟨⟨g0, r0⟩, hreset, ⟨fin, mf, ga, rb⟩, hl, h⟩ := h
    cases fin with
    | false => simp at h
    | true =>
      simp only [Option.some.injEq, Prod.mk.injEq] at h
      obtain ⟨-, rfl, -⟩ := h
      obtain ⟨hs1, -, hs2, -, -, hall⟩ := resetFlows_paired hp hreset
      obtain ⟨hr1, hr2⟩ := resetFlows_frame _ _ _ _ _ hreset
      have hp0 : Paired g0 r0 := hp.sameStatic hs1 hs2
      have hfl0 : FlagsAgree g0 r0 :=
        flagsAgree_of_same hflags hs1 (activeAt_eq_of_noFlow hr1.2.2.2)
          (activeAt_eq_of_noCapacity hr2.2.2.2)
      have hz0 : ∀ i, g0.activeAt i = false → g0.flowOf i = 0 := by
        intro i _
        by_cases hi : i < g.edges.length
        · exact (hall i hi).1
        · have : g0.edges[i]? = none :=
            List.getElem?_eq_none (by rw [hs1.edges_length]; omega)
          simp [Graph.flowOf, Graph.getFlow, this]
      exact flow_zero_of_inactive
        (edmondsKarpLoop_inactive source target fuel 0 g0 r0 true mf ga rb hp0 hfl0 hz0 hl)
  · intro hcap hsrc fuel hf
    exact edmondsKarp_returns_any hp hcap hsrc hf

/-- The witness of C39: `detourNetwork` with its first link deactivated; the run from `B`
to `A` returns 3 and leaves no flow on the two edges of the deactivated link. -/
theorem edmondsKarp_deactivated_links_witness :
    Paired detourClosed.1 detourClosed.2 ∧ FlagsAgree detourClosed.1 detourClosed.2 ∧
    detourClosed.1.edges.map (fun e => e.selected)
      = [false, false, true, true, true, true, true, true, true, true, true, true, true, true,
         true, true] ∧
    ∃ g1 r1, detourClosed.1.edmondsKarp 4 ["B"] "A" detourClosed.2 = some (3, g1, r1) ∧
      (∀ e ∈ g1.edges, e.selected = false → e.flow = 0) ∧
      g1.edges.map (fun e => e.selected) = detourClosed.1.edges.map (fun e => e.selected) := by
  refine ⟨by decide!, by decide!, by decide!, ?_⟩
  have hrun : (detourClosed.1.edmondsKarp 4 ["B"] "A" detourClosed.2).map (fun x => x.1)
      = some 3 := by decide!
  cases h : detourClosed.1.edmondsKarp 4 ["B"] "A" detourClosed.2 with
  | none => rw [h] at hrun; simp at hrun
  | some x =>
    obtain ⟨F, g1, r1⟩ := x
    rw [h] at hrun
    simp only [Option.map_some', Option.some.injEq] at hrun
    subst hrun
    have hc := (edmondsKarp_deactivated_links detourClosed.1 detourClosed.2 ["B"] "A"
      (by decide!) (by decide!)).1 4 3 g1 r1 h
    exact ⟨g1, r1, rfl, hc.1, hc.2.2.1⟩

/-- C36 (counterexample): `wrapNetwork` is a paired network; after `edmondsKarp` with source
`s` and target `t` has returned on it, the edge 3 (from `v` to `u`, the reverse of the edge 2)
has the residual capacity `2 ^ 32 - 1`, the capacity `2 ^ 32 - 1` and the flow 1, and its
reverse has the flow 0: the residual capacity exceeds `capacity - flow + reverse flow`. -/
theorem edmondsKarp_residual_overflow :
    wrapNetwork.map (fun p => decide (Paired p.1 p.2)) = some true ∧
    afterEdmondsKarp wrapNetwork 4 ["s"] "t"
      (fun _ g r => (g.getReverse 3, r.capOf 3, g.capOf 3, g.flowOf 3, g.flowOf 2))
      = some (some 2, 4294967295, 4294967295, 1, 0) := by
  decide!

/-- C36 (amended): on a paired network whose capacities are all below `2 ^ 31`, after the
reset, after every number of augmentations of the loop of `edmondsKarp` and after every
number of iterations of the loop of `augmentPath` inside the next augmentation, every
regular edge has a flow within its capacity and every residual edge has a capacity of at
most `capacity - flow + flow of the reverse edge`.  For the edge `augmentPath` handles
next, the pushed amount is at most its residual capacity, `flow + value` does not wrap
around, and when it exceeds the capacity the excess is at most the flow of the reverse
regular edge, so that the two unsigned subtractions of the branch do not wrap around. -/
theorem edmondsKarp_residual_bound (g r : Graph) (source : List String) (target : String)
    (hp : Paired g r) (hcap : g.CapacityBelow 2147483648) :
    ∀ g0 r0 fuel fin maxFlow g1 r1, resetFlows g.vertexSet g r = some (g0, r0) →
      edmondsKarpLoop source target fuel 0 g0 r0 = some (fin, maxFlow, g1, r1) →
      (∀ i j, i < g1.edges.length → g1.getReverse i = some j →
        g1.flowOf i ≤ g1.capOf i ∧ r1.capOf i ≤ g1.capOf i - g1.flowOf i + g1.flowOf j) ∧
      ∀ ra b tv steps fin2 g2 r2, r1.path source target = some (true, ra) →
        ra.findBottleneck target = some b → ra.findVertex target = some tv →
        augmentPathLoop b steps tv g1 ra = some (fin2, g2, r2) →
        (∀ i j, i < g2.edges.length → g2.getReverse i = some j →
          g2.flowOf i ≤ g2.capOf i ∧ r2.capOf i ≤ g2.capOf i - g2.flowOf i + g2.flowOf j) ∧
        ∀ P, ra.IsChain tv P → ∀ p, P[steps]? = some p → ∀ j, g2.getReverse p.1 = some j →
          b ≤ r2.capOf p.1 ∧ g2.flowOf p.1 + b < 4294967296 ∧
          (g2.capOf p.1 < g2.flowOf p.1 + b →
            g2.flowOf p.1 + b - g2.capOf p.1 ≤ g2.flowOf j ∧
            usub (uadd (g2.flowOf p.1) b) (g2.capOf p.1)
              = g2.flowOf p.1 + b - g2.capOf p.1 ∧
            usub (g2.flowOf j) (usub (uadd (g2.flowOf p.1) b) (g2.capOf p.1))
              = g2.flowOf j - (g2.flowOf p.1 + b - g2.capOf p.1)) := by
  intro g0 r0 fuel fin maxFlow g1 r1 hreset hl
  have key : ∀ {a c : Graph}, LinkInv a c → ∀ i j, i < a.edges.length →
      a.getReverse i = some j →
      a.flowOf i ≤ a.capOf i ∧ c.capOf i ≤ a.capOf i - a.flowOf i + a.flowOf j := by
    intro a c h i j hi hj
    obtain ⟨h1, h2⟩ := h i j hi hj
    exact ⟨h1, by omega⟩
  obtain ⟨hp1, hinv1, hcap1, -⟩ := (edmondsKarpLoop_spec source target fuel 0 g0 r0 fin maxFlow
    g1 r1 (ekInv_of_reset hp hcap hreset) hl).1
  refine ⟨key hinv1, ?_⟩
  intro ra b tv steps fin2 g2 r2 hpath hb htv haug
  obtain ⟨hp2, hinv2, hcap2, hs12, -⟩ := augment_after_path hp1 hinv1 hcap1 hpath hb htv haug
  refine ⟨key hinv2, ?_⟩
  intro P hch p hget j hj
  obtain ⟨hs, hed, hfound⟩ := path_spec hp1.2.1 hpath
  obtain ⟨tv1, Q, htv1, hchQ, hnd, -, hedg⟩ := hfound rfl
  rw [htv] at htv1
  obtain rfl := Option.some.inj htv1
  obtain rfl := isChain_unique P Q tv hch hchQ
  have hpa : Paired g1 ra := hp1.sameStatic (SameStatic.refl g1) hs
  have hinva : LinkInv g1 ra := hinv1.of_search hed
  simp only [Graph.findBottleneck, Option.bind_eq_bind, htv, Option.some_bind] at hb
  obtain ⟨-, hbv⟩ := findBottleneckLoop_spec ra P tv _ _ _ hch hb
  have hval : ∀ q ∈ P, q.1 < g1.edges.length ∧ b ≤ ra.capOf q.1 := by
    intro q hq
    refine ⟨?_, hbv q hq⟩
    rw [hpa.2.2.2.1]; exact (hedg q hq).1
  have hmem : p ∈ P.drop steps := by
    have h0 : (P.drop steps)[0]? = some p := by
      rw [List.getElem?_drop]; simpa using hget
    exact List.getElem?_mem h0
  have hle := augmentPathLoop_next b P tv steps g1 ra g2 r2 fin2 hpa hinva hcap1 hch hnd hval
    haug p hmem
  have hpl : p.1 < g2.edges.length := by
    rw [hs12.edges_length]
    exact (hval p (List.mem_of_mem_drop hmem)).1
  obtain ⟨h1, -, h3⟩ := linkInv_branch hp2 hinv2 hcap2 hpl hj hle
  exact ⟨hle, h1, h3⟩

/-- The witness of C36: the second augmentation of the run from `A` to `E` on
`exceedsNetwork`, which pushes 2 units; after two iterations of the loop of `augmentPath`
the next edge is the edge 4 of capacity 1 and flow 0, whose reverse, the edge 5, has the
flow 1: the over-capacity branch is taken with the excess 1. -/
theorem edmondsKarp_residual_bound_witness :
    Paired exceedsGraphs.1 exceedsGraphs.2 ∧ exceedsGraphs.1.CapacityBelow 2147483648 ∧
    (exceedsPartial.1.capOf 4, exceedsPartial.1.flowOf 4, exceedsPartial.1.flowOf 5,
      exceedsPartial.2.capOf 4) = (1, 0, 1, 2) ∧
    (2 ≤ exceedsPartial.2.capOf 4 ∧ exceedsPartial.1.flowOf 4 + 2 < 4294967296 ∧
      (exceedsPartial.1.capOf 4 < exceedsPartial.1.flowOf 4 + 2 →
        exceedsPartial.1.flowOf 4 + 2 - exceedsPartial.1.capOf 4 ≤ exceedsPartial.1.flowOf 5 ∧
        usub (uadd (exceedsPartial.1.flowOf 4) 2) (exceedsPartial.1.capOf 4)
          = exceedsPartial.1.flowOf 4 + 2 - exceedsPartial.1.capOf 4 ∧
        usub (exceedsPartial.1.flowOf 5)
            (usub (uadd (exceedsPartial.1.flowOf 4) 2) (exceedsPartial.1.capOf 4))
          = exceedsPartial.1.flowOf 5
            - (exceedsPartial.1.flowOf 4 + 2 - exceedsPartial.1.capOf 4))) :=
  ⟨by decide!, by decide!, by decide!,
    ((edmondsKarp_residual_bound exceedsGraphs.1 exceedsGraphs.2 ["A"] "E" (by decide!)
      (by decide!) exceedsReset.1 exceedsReset.2 1 false 1 exceedsFirst.1 exceedsFirst.2
      (by decide!) (by decide!)).2 exceedsSearch 2 4 2 false exceedsPartial.1 exceedsPartial.2
      (by decide!) (by decide!) (by decide!) (by decide!)).2
      [(10, 5), (7, 3), (4, 1), (2, 2), (8, 0)]
      ⟨by decide!, by decide!, by decide!, by decide!, by decide!, by decide!, by decide!,
        by decide!, by decide!, by decide!, by decide!, by decide!, by decide!, by decide!,
        by decide!, show exceedsSearch.pathOf 0 = some none by decide!⟩
      (4, 1) (by decide!) 5 (by decide!)⟩

/-- C37 (counterexample): `parallelNetwork` is a paired network with capacities below
`2 ^ 31`; `edmondsKarp` with source `s` and target `t` returns 0 on it, while the net flow
into `t` (pointer 1) and the net flow out of `s` are `2 ^ 32` in the final regular flow:
`maxFlow += bottleneckCapacity` is an `unsigned int` addition. -/
theorem edmondsKarp_value_wraps :
    parallelNetwork.map (fun p => (decide (Paired p.1 p.2),
      decide (p.1.CapacityBelow 2147483648))) = some (true, true) ∧
    afterEdmondsKarp parallelNetwork 4 ["s"] "t"
      (fun F g _ => (F, g.findVertex "t", g.excessAt 1, g.sourceOutflow ["s"]))
      = some (0, some 1, 4294967296, 4294967296) := by
  decide!

/-- C37 (amended): on a paired network (capacities are `unsigned int` values), the value
`edmondsKarp` returns is, modulo `2 ^ 32`, the net flow out of the source set in the final
regular flow; that net flow is not negative, it is the returned value itself when it is
below `2 ^ 32`, and it equals the net flow into the target (the flow on the incoming links
of the target vertex minus the flow on its outgoing links).  With sources that are stations
`edmondsKarp` returns within every budget above the total capacity of the active links that
leave the sources. -/
theorem edmondsKarp_value_net_flow (g r : Graph) (source : List String) (target : String)
    (hp : Paired g r) (hcap : g.CapacityBelow 4294967296) :
    (∀ fuel F g1 r1, g.edmondsKarp fuel source target r = some (F, g1, r1) →
      0 ≤ g1.sourceOutflow source ∧
      (F : Int) = g1.sourceOutflow source % 4294967296 ∧
      (g1.sourceOutflow source < 4294967296 → (F : Int) = g1.sourceOutflow source) ∧
      ∀ tv, g.findVertex target = some tv → g1.excessAt tv = g1.sourceOutflow source) ∧
    ((∀ s ∈ source, ∃ x, g.findVertex s = some x) →
      ∀ fuel, g.sourceCapacity r source + 1 ≤ fuel →
        ∃ F g1 r1, g.edmondsKarp fuel source target r = some (F, g1, r1)) := by
  constructor
  · intro fuel F g1 r1 h
    obtain ⟨total, h1, h2, h3⟩ := edmondsKarp_value hp hcap h
    rw [h2]
    refine ⟨by omega, by rw [h1]; omega, ?_, h3⟩
    intro hlt
    rw [h1]; omega
  · intro hsrc fuel hf
    exact edmondsKarp_returns_any hp hcap hsrc hf

/-- The witness of C37 on scenario A: the run from `A` to `D` returns 5, the net flow out of
`A` and the net flow into `D` (pointer 3) are 5. -/
theorem edmondsKarp_value_net_flow_witness :
    Paired scenarioAGraphs.1 scenarioAGraphs.2 ∧
    scenarioAGraphs.1.CapacityBelow 4294967296 ∧
    (scenarioARun.1, scenarioARun.2.1.sourceOutflow ["A"]) = (5, 5) ∧
    (0 ≤ scenarioARun.2.1.sourceOutflow ["A"] ∧
      (scenarioARun.1 : Int) = scenarioARun.2.1.sourceOutflow ["A"] % 4294967296 ∧
      (scenarioARun.2.1.sourceOutflow ["A"] < 4294967296 →
        (scenarioARun.1 : Int) = scenarioARun.2.1.sourceOutflow ["A"]) ∧
      ∀ tv, scenarioAGraphs.1.findVertex "D" = some tv →
        scenarioARun.2.1.excessAt tv = scenarioARun.2.1.sourceOutflow ["A"]) :=
  ⟨by decide!, by decide!, by decide!,
    (edmondsKarp_value_net_flow scenarioAGraphs.1 scenarioAGraphs.2 ["A"] "D" (by decide!)
      (by decide!)).1 3 scenarioARun.1 scenarioARun.2.1 scenarioARun.2.2 (by decide!)⟩

/-- C32 (counterexample): `deepNetwork` is the auxiliary graph of `dearFirstNetwork` with
`2 ^ 30 - 3` further stations that have no link (for two further stations the graph
`makeMinCostResidual` builds is evaluated and is `sparseNetwork 2`).  It is well linked, `s`
is one of its stations, its twelve edges have costs between `-4` and `4`, and the edges 5
and 6 form a cycle of cost `-2` along edges of capacity 1.  Yet `bellmanFord("s")` returns
the empty list: every pass lowers the costs of `s`, `a` and `t` by 2, after `2 ^ 30 - 2`
passes they are `-(2 ^ 31 - 1)`, `-(2 ^ 31 - 1)` and `-(2 ^ 31 - 3)`, and from then on the
`int` sums along the edges 1 and 5 wrap around to `2 ^ 31 - 1`, so that no edge is relaxed
in the two passes that remain. -/
theorem bellmanFord_int_overflow :
    deepNetwork.WellLinked ∧ deepNetwork.findVertex "s" = some 0 ∧
    (∀ x ∈ deepNetwork.edges, -4 ≤ x.cost ∧ x.cost ≤ 4) ∧
    deepNetwork.vertexSet.length = 1073741824 ∧ deepNetwork.edges.length = 12 ∧
    deepNetwork.HasSimpleNegativeCycle ∧
    (∃ m1, deepNetwork.bellmanFord "s" = some ([], m1) ∧
      (m1.costAt 0, m1.costAt 1, m1.costAt 2) = (-2147483647, -2147483647, -2147483645)) ∧
    (minCostStart dearFirstSpare 2 "s" "t").map (fun p => p.2) = some (sparseNetwork 2) := by
  exact ⟨sparse_wellLinked 1073741821, (sparse_spec 1073741821).2.2,
    sparse_edge_costs 1073741821, sparse_length 1073741821, sparse_edges_length 1073741821,
    sparse_cycle 1073741821, ⟨_, deep_run, sparseState_costs _ _ _ _ _ _ _⟩, by decide!⟩

/-- C32 (amended): on a well-linked graph (the pointer structure `makeMinCostResidual`
builds) whose edge costs lie between `-6` and `6` (the costs of the three service tiers and
their negations) and whose size satisfies `6 * |V| * |E| + 1 <= 2 ^ 31`, so that no sum of
the relaxation leaves the range of `int`, and for a source id that is the id of a vertex:
`bellmanFord(source)` returns the empty list if and only if the graph contains no directed
cycle of edges of capacity `> 0` whose total cost is negative, wherever the cycle lies; a
closed walk of negative cost contains such a cycle, so the same holds with closed walks in
place of cycles. -/
theorem bellmanFord_empty_iff_no_negative_cycle (m : Graph) (source : String)
    (hw : m.WellLinked) (hsrc : ∃ s, m.findVertex source = some s)
    (hcost : ∀ x ∈ m.edges, -6 ≤ x.cost ∧ x.cost ≤ 6)
    (hsize : 6 * (m.vertexSet.length * m.edges.length) + 1 ≤ 2147483648) :
    ((∃ m1, m.bellmanFord source = some ([], m1)) ↔ ¬ m.HasSimpleNegativeCycle) ∧
    ((∃ m1, m.bellmanFord source = some ([], m1)) ↔ ¬ m.HasNegativeCycle) := by
  obtain ⟨s, hs⟩ := hsrc
  exact ⟨by rw [hasSimpleNegativeCycle_iff]; exact bellmanFord_iff hw hs hcost hsize,
    bellmanFord_iff hw hs hcost hsize⟩

/-- The witness of C32: on the auxiliary graph of scenario A `bellmanFord(A)` returns the
empty list, so that graph has no negative cycle; on the auxiliary graph of
`dearFirstNetwork`, where the edges 5 and 6 form a cycle of cost `-2`, `bellmanFord(s)` does
not return the empty list. -/
theorem bellmanFord_empty_iff_no_negative_cycle_witness :
    scenarioAStart.2.WellLinked ∧ scenarioAStart.2.findVertex "A" = some 0 ∧
    (scenarioAStart.2.bellmanFord "A").map (fun p => p.1) = some [] ∧
    ¬ scenarioAStart.2.HasSimpleNegativeCycle ∧
    dearFirstStart.2.WellLinked ∧ dearFirstStart.2.findVertex "s" = some 0 ∧
    dearFirstStart.2.HasSimpleNegativeCycle ∧
    ¬ ∃ m1, dearFirstStart.2.bellmanFord "s" = some ([], m1) := by
  have h1 : (scenarioAStart.2.bellmanFord "A").map (fun p => p.1) = some [] := by decide!
  have hA : scenarioAStart.2.findVertex "A" = some 0 := by decide!
  have hS : dearFirstStart.2.findVertex "s" = some 0 := by decide!
  have hcyc : dearFirstStart.2.HasSimpleNegativeCycle :=
    ⟨2, [5, 6], by simp, ⟨by decide!, by decide!, 1, by decide!, by decide!, by decide!, 2,
      by decide!, rfl⟩, by decide!, by decide!⟩
  refine ⟨by decide!, hA, h1, ?_, by decide!, hS, hcyc, ?_⟩
  · apply (bellmanFord_empty_iff_no_negative_cycle scenarioAStart.2 "A" (by decide!)
      ⟨0, hA⟩ (by decide!) (by decide!)).1.mp
    cases h : scenarioAStart.2.bellmanFord "A" with
    | none => rw [h] at h1; simp at h1
    | some p =>
      rw [h] at h1
      simp only [Option.map_some', Option.some.injEq] at h1
      exact ⟨p.2, by rw [← h1]⟩
  · intro hex
    exact (bellmanFord_empty_iff_no_negative_cycle dearFirstStart.2 "s" (by decide!)
      ⟨0, hS⟩ (by decide!) (by decide!)).1.mp hex hcyc

/-- C31: on a regular graph with the pointer structure the builder produces, with
`flow <= capacity` on every edge, capacities that fit `unsigned int` and the cost the
constructor gives every edge, `makeMinCostResidual` called with an empty graph returns a
well-linked graph `m` with the same vertex ids at the same positions and twice as many
edges; the regular edge the loops visit in place `k` is represented by the auxiliary edges
`2 * k` (same endpoints, same cost, capacity `capacity - flow`) and `2 * k + 1` (endpoints
swapped, negated cost, capacity `flow`), reverse of each other, both with the regular edge as
corresponding edge; every regular edge is visited, these two are the only auxiliary edges
that point to it, and every auxiliary edge points to a regular edge. -/
theorem makeMinCostResidual_represents (g : Graph) (hw : g.WellLinked)
    (hc : g.CapacityRespected) (hb : g.CapacityBelow 4294967296)
    (hcost : ∀ x ∈ g.edges, x.cost = Edge.initializeCost x.service) :
    ∃ m, g.makeMinCostResidual Graph.empty = some m ∧ m.WellLinked ∧
      m.vertexSet.map (fun v => v.id) = g.vertexSet.map (fun v => v.id) ∧
      m.edges.length = 2 * g.edges.length ∧
      (∀ k e, g.mirrorOrder[k]? = some e → g.Represents m e (2 * k) (2 * k + 1)) ∧
      (∀ e, e < g.edges.length → ∃ k, g.mirrorOrder[k]? = some e ∧
        ∀ a, a < m.edges.length →
          (m.getCorrespondingEdge a = some e ↔ a = 2 * k ∨ a = 2 * k + 1)) ∧
      ∀ a, a < m.edges.length → ∃ e, e < g.edges.length ∧ m.getCorrespondingEdge a = some e := by
  obtain ⟨m, hm, hwm, hvl, hidof, -, hlen, hrep⟩ := makeMinCostResidual_inv hw hc hb hcost
  have hperm := mirrorOrder_perm hw
  have hol : g.mirrorOrder.length = g.edges.length := by
    rw [hperm.length_eq, List.length_range]
  have hnd : g.mirrorOrder.Nodup := hperm.nodup_iff.mpr (List.nodup_range _)
  have hcorr : ∀ a (ha : a < m.edges.length), ∃ (hk : a / 2 < g.mirrorOrder.length),
      m.getCorrespondingEdge a = some (g.mirrorOrder[a / 2]) := by
    intro a ha
    have hk : a / 2 < g.mirrorOrder.length := by omega
    refine ⟨hk, ?_⟩
    have hr := hrep (a / 2) _ (List.getElem?_eq_getElem hk)
    obtain ⟨-, -, -, -, -, -, -, -, -, -, -, -, h1, h2⟩ := hr
    rcases Nat.mod_two_eq_zero_or_one a with h | h
    · have : 2 * (a / 2) = a := by omega
      rw [this] at h1; exact h1
    · have : 2 * (a / 2) + 1 = a := by omega
      rw [this] at h2; exact h2
  refine ⟨m, hm, hwm, ?_, by rw [hlen, hol], hrep, ?_, ?_⟩
  · apply List.ext_getElem?
    intro y
    have := hidof y
    simpa [Graph.idOf, List.getElem?_map] using this
  · intro e he
    have hmem : e ∈ g.mirrorOrder := hperm.mem_iff.mpr (List.mem_range.mpr he)
    obtain ⟨k, hk, hke⟩ := List.getElem_of_mem hmem
    refine ⟨k, by rw [List.getElem?_eq_getElem hk, hke], ?_⟩
    intro a ha
    obtain ⟨hk2, hc2⟩ := hcorr a ha
    rw [hc2]
    constructor
    · intro h
      have h1 : g.mirrorOrder[a / 2] = g.mirrorOrder[k] := by
        rw [hke]; exact Option.some.inj h
      have := (List.Nodup.getElem_inj_iff hnd).mp h1
      omega
    · intro h
      have : a / 2 = k := by omega
      subst this
      rw [hke]
  · intro a ha
    obtain ⟨hk2, hc2⟩ := hcorr a ha
    refine ⟨_, ?_, hc2⟩
    exact List.mem_range.mp (hperm.mem_iff.mp (List.getElem_mem hk2))

/-- The witness of C31: the regular graph of `dearFirstNetwork` after `edmondsKarp(s, t)`,
which carries a flow of one unit, and the six pairs of auxiliary edges
`makeMinCostResidual` builds from it, given by their origins, destinations and capacities and by
their costs and corresponding edges. -/
theorem makeMinCostResidual_represents_witness :
    (dearFirstStart.1.WellLinked ∧ dearFirstStart.1.CapacityRespected ∧
      dearFirstStart.1.CapacityBelow 4294967296 ∧
      ∀ x ∈ dearFirstStart.1.edges, x.cost = Edge.initializeCost x.service) ∧
    (∃ m, dearFirstStart.1.makeMinCostResidual Graph.empty = some m ∧ m.WellLinked ∧
      m.vertexSet.map (fun v => v.id) = dearFirstStart.1.vertexSet.map (fun v => v.id) ∧
      m.edges.length = 2 * dearFirstStart.1.edges.length ∧
      (∀ k e, dearFirstStart.1.mirrorOrder[k]? = some e →
        dearFirstStart.1.Represents m e (2 * k) (2 * k + 1)) ∧
      (∀ e, e < dearFirstStart.1.edges.length → ∃ k, dearFirstStart.1.mirrorOrder[k]? = some e ∧
        ∀ a, a < m.edges.length →
          (m.getCorrespondingEdge a = some e ↔ a = 2 * k ∨ a = 2 * k + 1)) ∧
      ∀ a, a < m.edges.length →
        ∃ e, e < dearFirstStart.1.edges.length ∧ m.getCorrespondingEdge a = some e) ∧
    dearFirstStart.1.mirrorOrder = [0, 1, 2, 4, 3, 5] ∧
    dearFirstStart.1.edges.map (fun x => (x.orig, x.dest, x.capacity, x.flow, x.cost))
      = [(0, 1, 1, 1, 2), (1, 0, 1, 0, 2), (1, 2, 1, 1, 4), (2, 1, 1, 0, 4), (1, 2, 1, 0, 2),
         (2, 1, 1, 0, 2)] ∧
    (dearFirstStart.1.makeMinCostResidual Graph.empty).map (fun m => m.edges.map
        (fun x => (x.orig, x.dest, x.capacity)))
      = some [(0, 1, 0), (1, 0, 1), (1, 0, 1), (0, 1, 0), (1, 2, 0), (2, 1, 1), (1, 2, 1),
          (2, 1, 0), (2, 1, 1), (1, 2, 0), (2, 1, 1), (1, 2, 0)] ∧
    (dearFirstStart.1.makeMinCostResidual Graph.empty).map (fun m => m.edges.map
        (fun x => (x.cost, x.correspondingEdge)))
      = some [(2, some 0), (-2, some 0), (2, some 1), (-2, some 1), (4, some 2), (-4, some 2),
          (2, some 4), (-2, some 4), (4, some 3), (-4, some 3), (2, some 5), (-2, some 5)] :=
  ⟨⟨by decide!, by decide!, by decide!, by decide!⟩,
    makeMinCostResidual_represents dearFirstStart.1 (by decide!) (by decide!) (by decide!)
      (by decide!),
    by decide!, by decide!, by decide!, by decide!⟩

end Railway
